import Mathlib

/-!
# Unidupe: merge planner of two directory trees, and its executor

A shallow embedding of `FsNode.cc`, `EditStep.cc` and `FsTree.cc`.

* `FsNode*` pointers are natural-number addresses into one arena (`Heap`); the
  arena stands for the three node stores of the program (`fileStore`,
  `folderStore`, `plannedNode`), all of which keep addresses stable.  A null
  pointer is `none`.  Fields the C++ default constructor leaves uninitialised
  (`size`, `date_changed`, `topSup`, `dstParent`) are `0` / `none`.
* Dereferencing a null pointer, and a thrown exception, make the embedded
  function return `none`.
* `std::unordered_map`, `std::unordered_set` and `std::unordered_multimap` are
  association lists; their iteration order (unspecified in C++) is the order
  of insertion.
* `std::priority_queue` is a bag from which `top` selects a greatest element
  under `operator<`.
* Recursion that C++ bounds by the call stack carries a fuel argument.
* The executor (`execTform`) is a function of the events the operating system contributes:
  the children reaped by the `SIGCHLD` handler, and the process identifiers `fork` returns.
-/

namespace Unidupe

/-! ## FsNode.h / FsNode.cc -/

/-- Mirror of `struct timespec`. -/
structure Timespec where
  tv_sec : Int
  tv_nsec : Int
deriving DecidableEq, Repr

/-- Mirror of `class FsNode`; pointers are arena addresses. -/
structure FsNode where
  size : Nat
  num_files : Nat
  date_changed : Timespec
  type : String
  name : String
  path : String
  parent : Option Nat
  children : List (String × Nat)
  isSub : Bool
  subordinates : List Nat
  topSup : Option Nat
  dstParent : Option Nat
  is_created : Bool
deriving DecidableEq, Repr

/-- Result of `FsNode::FsNode()`.  The constructor initialises `num_files`, `parent`, `isSub` and
`is_created` only; the strings and containers are empty by their own constructors.  The members
it leaves uninitialised (`size`, `date_changed`, `topSup`, `dstParent`) have an indeterminate
value in the program and are read here as zero and null: what is stated of the `topSup` or the
`dstParent` of a node to which none was ever assigned holds of this reading only. -/
def FsNode.fresh : FsNode :=
  { size := 0, num_files := 0, date_changed := ⟨0, 0⟩, type := "", name := "",
    path := "", parent := none, children := [], isSub := false,
    subordinates := [], topSup := none, dstParent := none, is_created := false }

/-- The arena of nodes: the node at address `a` is the `a`-th cell. -/
structure Heap where
  cells : List FsNode

/-- Read the node at address `a` (a default-constructed node beyond the cells). -/
def Heap.get (h : Heap) (a : Nat) : FsNode :=
  h.cells.getD a FsNode.fresh

instance : CoeFun Heap (fun _ => Nat → FsNode) := ⟨Heap.get⟩

/-- Overwrite the `a`-th cell of a list, extending the list when it is too short. -/
def setCell : List FsNode → Nat → FsNode → List FsNode
  | [], 0, v => [v]
  | [], a + 1, v => FsNode.fresh :: setCell [] a v
  | _ :: xs, 0, v => v :: xs
  | x :: xs, a + 1, v => x :: setCell xs a v

/-- Store `v` at address `a`. -/
def Heap.set (h : Heap) (a : Nat) (v : FsNode) : Heap :=
  ⟨setCell h.cells a v⟩

/-- Apply `f` to the node at address `a`. -/
def Heap.modify (h : Heap) (a : Nat) (f : FsNode → FsNode) : Heap :=
  h.set a (f (h a))

/-- Embedding of `FsNode::setParent`: `parent = p; if (p != nullptr) path = p->path + "/" + name`. -/
def setParent (h : Heap) (this : Nat) (p : Option Nat) : Heap :=
  match p with
  | none => h.modify this (fun n => { n with parent := none })
  | some pa =>
    h.modify this (fun n => { n with parent := some pa, path := (h pa).path ++ "/" ++ n.name })

/-- Embedding of `FsNode::setDstParent`: `if (p != nullptr) dstParent = p`. -/
def setDstParent (h : Heap) (this : Nat) (p : Option Nat) : Heap :=
  match p with
  | none => h
  | some pa => h.modify this (fun n => { n with dstParent := some pa })

/-- Embedding of `FsNode::makeSub`, statement by statement. -/
def makeSub (h : Heap) (this sup : Nat) : Heap :=
  let h1 := h.modify sup (fun s => { s with subordinates := s.subordinates ++ [this] })
  let h2 := h1.modify this (fun n => { n with isSub := true })
  h2.modify this (fun n => { n with topSup := if (h2 sup).isSub then (h2 sup).topSup else some sup })

/-- Embedding of the constructor `FsNode::FsNode(n, p, t)`. -/
def FsNode.create (h : Heap) (n : String) (p : Option Nat) (t : String) : FsNode :=
  let nd : FsNode := { FsNode.fresh with type := t, name := n, parent := p }
  match p with
  | none => nd
  | some pa => { nd with path := (h pa).path ++ "/" ++ n }

/-! ## EditStep.h / EditStep.cc -/

/-- Mirror of `class EditStep`.  `com` lists the arguments of `com[]` before the
first null entry.  `dst` is a specification-only field: the constructor's `d`
argument, of which the C++ object keeps only the path inside `com`. -/
structure EditStep where
  op : String
  com : List String
  acting : Nat
  dst : Nat
deriving DecidableEq, Repr

/-- Embedding of the constructor `EditStep::EditStep(o, s, d)`; an error is the
message of the `invalid_argument` thrown. -/
def EditStep.create (h : Heap) (o : String) (s d : Option Nat) : Except String EditStep :=
  match d with
  | none => .error "Null pointer as destination."
  | some dd =>
    if o ≠ "mkdir" ∧ o ≠ "cp" then .error "EditStep must be of type mkdir or cp."
    else if o = "mkdir" then
      .ok { op := o, com := [o, (h dd).path], acting := dd, dst := dd }
    else
      match s with
      | none => .error "EditStep: Null pointer as source."
      | some ss =>
        .ok { op := o, com := [o, "--backup=numbered", (h ss).path, (h dd).path],
              acting := ss, dst := dd }

/-! ## Containers -/

/-- Insertion into `unordered_map<string, FsNode*>`: an existing key is kept. -/
def mapInsert (m : List (String × Nat)) (k : String) (v : Nat) : List (String × Nat) :=
  if (m.lookup k).isSome then m else m ++ [(k, v)]

/-- Removal of a key from `unordered_map<string, FsNode*>`. -/
def mapErase (m : List (String × Nat)) (k : String) : List (String × Nat) :=
  m.filter (fun e => decide (e.1 ≠ k))

/-- Insertion into an `unordered_set`. -/
def setInsert {α : Type} [DecidableEq α] (s : List α) (x : α) : List α :=
  if x ∈ s then s else s ++ [x]

/-! ## FsTree.cc: recency order -/

/-- Embedding of `comparRecent`: `nd1` is less recent than `nd2`.  The parents
are dereferenced only when both time fields tie. -/
def comparRecent (h : Heap) (nd1 nd2 : FsNode) : Option Bool :=
  let t1 := nd1.date_changed
  let t2 := nd2.date_changed
  if t1.tv_sec ≠ t2.tv_sec then some (decide (t1.tv_sec < t2.tv_sec))
  else if t1.tv_nsec ≠ t2.tv_nsec then some (decide (t1.tv_nsec < t2.tv_nsec))
  else
    match nd1.parent, nd2.parent with
    | some p1, some p2 =>
      if (h p1).num_files = (h p2).num_files then some nd1.isSub
      else some (decide ((h p1).num_files > (h p2).num_files))
    | _, _ => none

/-! ## FsTree.cc: scanner (`build`, `explore`) -/

/-- One directory entry as the scanner observes it: a non-directory with the
MD5 digest of its contents, or a directory with its entries in `readdir`
order. -/
inductive Entry where
  | file (name : String) (regular : Bool) (size : Nat) (ctime : Timespec) (digest : List Nat)
  | dir (name : String) (size : Nat) (ctime : Timespec) (entries : List Entry)

/-- The `type` tag of a regular file: the name from its last dot on, else `other`. -/
def fileType (name : String) : String :=
  let cs := name.toList
  if '.' ∈ cs then String.mk ('.' :: (cs.reverse.takeWhile (fun c => decide (c ≠ '.'))).reverse)
  else "other"

/-- Key of the content index: decimal renderings of the digest bytes, concatenated. -/
def hashKey (digest : List Nat) : String :=
  digest.foldl (fun v b => v ++ toString b) ""

/-- State threaded through the scanner: the arena, its size, and `fileStore`
as the list of (key, address of the stored node). -/
structure Scan where
  heap : Heap
  next : Nat
  fileStore : List (String × Nat)

mutual
/-- Body of the `while` loop of `FsTree::explore` for one entry. -/
def exploreEntry (parent : Nat) : Entry → Scan → Scan
  | .file name regular size ctime digest, sc =>
    let nd : FsNode :=
      { FsNode.fresh with
        size := size, name := name, parent := some parent, date_changed := ctime,
        path := (sc.heap parent).path ++ "/" ++ name,
        type := if regular then fileType name else "other" }
    let h1 := sc.heap.modify parent (fun p => { p with num_files := p.num_files + 1 })
    let a := sc.next
    let h2 := h1.set a nd
    let h3 := h2.modify parent (fun p => { p with children := mapInsert p.children name a })
    { heap := h3, next := a + 1, fileStore := sc.fileStore ++ [(hashKey digest, a)] }
  | .dir name size ctime entries, sc =>
    let nd : FsNode :=
      { FsNode.fresh with
        size := size, name := name, parent := some parent, date_changed := ctime,
        path := (sc.heap parent).path ++ "/" ++ name, type := "dir" }
    let a := sc.next
    let h1 := sc.heap.set a nd
    let h2 := h1.modify parent (fun p => { p with children := mapInsert p.children name a })
    exploreList a entries { heap := h2, next := a + 1, fileStore := sc.fileStore }
/-- The `while` loop of `FsTree::explore` over the entries of one directory. -/
def exploreList (parent : Nat) : List Entry → Scan → Scan
  | [], sc => sc
  | e :: es, sc => exploreList parent es (exploreEntry parent e sc)
end

/-- Embedding of `FsTree::build`: returns the scanner state and the root address. -/
def build (rootpath : String) (entries : List Entry) (sc : Scan) : Scan × Nat :=
  let nd : FsNode := { FsNode.fresh with name := rootpath, path := rootpath, type := "dir" }
  let a := sc.next
  (exploreList a entries { sc with heap := sc.heap.set a nd, next := a + 1 }, a)

/-! ## FsTree.cc: merge planner -/

/-- Planner state: the arena and its size, and the members `plannedNode`
(addresses of the synthesized nodes) and `editSteps` of the `FsTree` under
construction, with the set `sups` of the constructor. -/
structure Planner where
  heap : Heap
  next : Nat
  plannedNode : List Nat
  editSteps : List EditStep
  sups : List (Option Nat)

/-- The statement `plannedNode.push_back(nd)`: returns the new state and the address of the copy. -/
def Planner.pushNode (st : Planner) (nd : FsNode) : Planner × Nat :=
  ({ st with heap := st.heap.set st.next nd, next := st.next + 1,
             plannedNode := st.plannedNode ++ [st.next] }, st.next)

/-- The statement `editSteps.push(EditStep(o, s, d))`. -/
def Planner.pushStep (st : Planner) (o : String) (s d : Option Nat) : Option Planner :=
  match EditStep.create st.heap o s d with
  | .ok e => some { st with editSteps := st.editSteps ++ [e] }
  | .error _ => none

/-- The statement `sups.insert(p)`. -/
def Planner.addSup (st : Planner) (p : Option Nat) : Planner :=
  { st with sups := setInsert st.sups p }

/-- Entries of `fileStore.equal_range(k)`, as addresses, in the order of the list `fileStore`.
The order in which an `unordered_multimap` yields the entries of one key is unspecified: the
scanned index lists them in insertion order, which is one admissible order, and a statement for
which the order matters is made for every arrangement of the index (`plan` takes the index as a
list). -/
def equalRange (fileStore : List (String × Nat)) (k : String) : List Nat :=
  (fileStore.filter (fun e => decide (e.1 = k))).map Prod.snd

/-- First inner loop of Phase A: selection of `best_file`
(`none` while `is_first` holds). -/
def findBest (h : Heap) : List Nat → Option Nat → Option (Option Nat)
  | [], best => some best
  | d :: ds, none => findBest h ds (some d)
  | d :: ds, some b =>
    match comparRecent h (h d) (h b) with
    | some older => findBest h ds (if older then some d else some b)
    | none => none

/-- Second inner loop of Phase A: `if (dupe != best_file) dupe->makeSub(best_file)`. -/
def subordinateAll (best : Nat) : List Nat → Heap → Heap
  | [], h => h
  | d :: ds, h => subordinateAll best ds (if d ≠ best then makeSub h d best else h)

/-- Phase A of the merge constructor: the loop over `fileStore`, with `fhash`
the keys already handled. -/
def phaseA (fileStore : List (String × Nat)) :
    List (String × Nat) → List String → Heap → Option Heap
  | [], _, h => some h
  | (k, _) :: rest, fhash, h =>
    if k ∈ fhash then phaseA fileStore rest fhash h
    else if (equalRange fileStore k).length > 1 then
      match findBest h (equalRange fileStore k) none with
      | some (some best) =>
        phaseA fileStore rest (k :: fhash) (subordinateAll best (equalRange fileStore k) h)
      | _ => none
    else phaseA fileStore rest (k :: fhash) h

/-- Locals of one `mergeDirs` activation. -/
structure MergeLocals where
  step_children : List (String × Nat)
  visited : List String

/-- The branch `if (ch2nd != nullptr)` of the first loop of `FsTree::mergeDirs` for
the files `c1` (`ch1nd`) and `c2` (`ch2nd`) of the same name, after
`ch1nd->setDstParent(nd1)`. -/
def mergeCollision (nd1 c1 c2 : Nat) (st1 : Planner) : Planner :=
  let st2 := { st1 with heap := setDstParent st1.heap c2 (some nd1) }
  let st3 :=
    if !((st2.heap c1).isSub || (st2.heap c2).isSub) then
      { st2 with heap := makeSub st2.heap c1 c2 }
    else st2
  let sub := if (st3.heap c1).isSub then c1 else c2
  let not_sub := if sub = c1 then c2 else c1
  let st4 := st3.addSup (st3.heap sub).topSup
  if (st4.heap sub).topSup ≠ some not_sub then
    { st4 with heap := makeSub st4.heap not_sub sub }
  else st4

/-- Body of the first loop of `FsTree::mergeDirs` for the child `(key, c1)` of
`nd1`; `recur` is the recursive call. -/
def mergeVisit1 (recur : Nat → Nat → Planner → Option Planner) (nd1 nd2 : Nat)
    (key : String) (c1 : Nat) (loc : MergeLocals) (st : Planner) :
    Option (MergeLocals × Planner) :=
  let ch2 := (st.heap nd2).children.lookup key
  let visited := if ch2.isSome then setInsert loc.visited key else loc.visited
  if (st.heap c1).type = "dir" then
    let (st1, ch1nd, ch2nd) :=
      match ch2 with
      | none =>
        let (s, a) := st.pushNode (FsNode.create st.heap (st.heap c1).name (some nd1) "dir")
        (s, a, c1)
      | some c2 => (st, c1, c2)
    let st2 := { st1 with heap := setParent st1.heap ch1nd (some nd1) }
    let st3 := { st2 with heap := setParent st2.heap ch2nd (some nd1) }
    match st3.pushStep "mkdir" none (some ch1nd) with
    | none => none
    | some st4 =>
      let sc := mapInsert loc.step_children (st4.heap ch1nd).name ch1nd
      match recur ch1nd ch2nd st4 with
      | none => none
      | some st5 => some ({ step_children := sc, visited := visited }, st5)
  else
    let st1 := { st with heap := setDstParent st.heap c1 (some nd1) }
    match ch2 with
    | some c2 =>
      some ({ step_children := loc.step_children, visited := visited },
            mergeCollision nd1 c1 c2 st1)
    | none =>
      if !(st1.heap c1).isSub && (st1.heap c1).subordinates.isEmpty then
        match st1.pushStep "cp" (some c1) (some nd1) with
        | none => none
        | some st2 =>
          some ({ step_children := mapInsert loc.step_children (st2.heap c1).name c1,
                  visited := visited }, st2)
      else if (st1.heap c1).isSub then
        some ({ step_children := loc.step_children, visited := visited },
              st1.addSup (st1.heap c1).topSup)
      else some ({ step_children := loc.step_children, visited := visited }, st1)

/-- Body of the second loop of `FsTree::mergeDirs` for the child `(key, c2)` of `nd2`. -/
def mergeVisit2 (recur : Nat → Nat → Planner → Option Planner) (nd1 : Nat)
    (key : String) (c2 : Nat) (loc : MergeLocals) (st : Planner) :
    Option (MergeLocals × Planner) :=
  if key ∈ loc.visited then some (loc, st)
  else if (st.heap c2).type = "dir" then
    let st1 := { st with heap := setParent st.heap c2 (some nd1) }
    let (st2, ch1nd) := st1.pushNode (FsNode.create st1.heap (st1.heap c2).name (some nd1) "dir")
    match st2.pushStep "mkdir" none (some ch1nd) with
    | none => none
    | some st3 =>
      let sc := mapInsert loc.step_children (st3.heap ch1nd).name ch1nd
      match recur ch1nd c2 st3 with
      | none => none
      | some st4 => some ({ loc with step_children := sc }, st4)
  else
    let st1 := { st with heap := setDstParent st.heap c2 (some nd1) }
    if !(st1.heap c2).isSub && (st1.heap c2).subordinates.isEmpty then
      match st1.pushStep "cp" (some c2) (some nd1) with
      | none => none
      | some st2 => some ({ loc with step_children := mapInsert loc.step_children key c2 }, st2)
    else if (st1.heap c2).isSub then
      some (loc, st1.addSup (st1.heap c2).topSup)
    else some (loc, st1)

/-- First loop of `FsTree::mergeDirs`, over the children of `nd1`. -/
def mergeLoop1 (recur : Nat → Nat → Planner → Option Planner) (nd1 nd2 : Nat) :
    List (String × Nat) → MergeLocals → Planner → Option (MergeLocals × Planner)
  | [], loc, st => some (loc, st)
  | (key, c1) :: rest, loc, st =>
    match mergeVisit1 recur nd1 nd2 key c1 loc st with
    | none => none
    | some (loc1, st1) => mergeLoop1 recur nd1 nd2 rest loc1 st1

/-- Second loop of `FsTree::mergeDirs`, over the children of `nd2`. -/
def mergeLoop2 (recur : Nat → Nat → Planner → Option Planner) (nd1 : Nat) :
    List (String × Nat) → MergeLocals → Planner → Option (MergeLocals × Planner)
  | [], loc, st => some (loc, st)
  | (key, c2) :: rest, loc, st =>
    match mergeVisit2 recur nd1 key c2 loc st with
    | none => none
    | some (loc1, st1) => mergeLoop2 recur nd1 rest loc1 st1

/-- Embedding of `FsTree::mergeDirs`; the fuel bounds the recursion depth. -/
def mergeDirs : Nat → Nat → Nat → Planner → Option Planner
  | 0, _, _, _ => none
  | fuel + 1, nd1, nd2, st =>
    match mergeLoop1 (mergeDirs fuel) nd1 nd2 (st.heap nd1).children
        { step_children := [], visited := [] } st with
    | none => none
    | some (loc1, st1) =>
      match mergeLoop2 (mergeDirs fuel) nd1 (st1.heap nd2).children loc1 st1 with
      | none => none
      | some (loc2, st2) =>
        let h3 := st2.heap.modify nd1 (fun n => { n with children := loc2.step_children })
        some { st2 with heap := h3 }

/-- The loop of `FsTree::traverseSubs` over `nd->subordinates`. -/
def traverseList (recur : Nat → List Nat → Option (List Nat)) :
    List Nat → List Nat → Option (List Nat)
  | [], pq => some pq
  | s :: ss, pq =>
    match recur s pq with
    | none => none
    | some pq1 => traverseList recur ss pq1

/-- Embedding of `FsTree::traverseSubs`: the queue contents in order of pushing;
the fuel bounds the recursion depth. -/
def traverseSubs (h : Heap) : Nat → Nat → List Nat → Option (List Nat)
  | 0, _, _ => none
  | fuel + 1, nd, pq => traverseList (traverseSubs h fuel) (h nd).subordinates (pq ++ [nd])

/-- Scan for a greatest element of the queue under `FsNodePtr::operator<`. -/
def pqMax (h : Heap) : Nat → List Nat → Option Nat
  | best, [] => some best
  | best, y :: ys =>
    match comparRecent h (h best) (h y) with
    | some lt => pqMax h (if lt then y else best) ys
    | none => none

/-- The call `pq.top()`. -/
def pqTop (h : Heap) : List Nat → Option Nat
  | [] => none
  | x :: xs => pqMax h x xs

/-- Body of the `while (!pq.empty())` loop of `FsTree::makeFileHist` for the top
element `sub_nd`, up to `pq.pop()`. -/
def histBody (hist_nd sub_nd : Nat) (st : Planner) : Option Planner :=
  match (st.heap sub_nd).dstParent with
  | none => none
  | some d =>
    let h1 := st.heap.modify d
      (fun p => { p with children := mapErase p.children (st.heap sub_nd).name })
    let h2 := setDstParent h1 sub_nd (some hist_nd)
    match ({ st with heap := h2 } : Planner).pushStep "cp" (some sub_nd) (some hist_nd) with
    | none => none
    | some st1 =>
      let h3 := st1.heap.modify hist_nd
        (fun p => { p with children := mapInsert p.children (st1.heap sub_nd).name sub_nd })
      some { st1 with heap := h3 }

/-- The `while (!pq.empty())` loop of `FsTree::makeFileHist`; the first argument
counts the elements left in the queue. -/
def histLoop (hist_nd : Nat) : Nat → List Nat → Planner → Option Planner
  | 0, _, st => some st
  | n + 1, pq, st =>
    match pqTop st.heap pq with
    | none => if pq.isEmpty then some st else none
    | some sub_nd =>
      match histBody hist_nd sub_nd st with
      | none => none
      | some st1 => histLoop hist_nd n (pq.erase sub_nd) st1

/-- Embedding of `FsTree::makeFileHist`. -/
def makeFileHist (fuel : Nat) (src : Option Nat) (st : Planner) : Option Planner :=
  match src with
  | none => none
  | some s =>
    match traverseSubs st.heap fuel s [] with
    | none => none
    | some pq =>
      match pqTop st.heap pq with
      | none => none
      | some sup =>
        let pq1 := pq.erase sup
        let (st1, hist_nd) :=
          st.pushNode (FsNode.create st.heap ("." ++ (st.heap sup).name ++ "_hist")
            (st.heap sup).dstParent "dir")
        match st1.pushStep "mkdir" none (some hist_nd) with
        | none => none
        | some st2 =>
          match (st2.heap sup).dstParent with
          | none => none
          | some d =>
            let h3 := st2.heap.modify d
              (fun p => { p with children := mapInsert p.children (st2.heap hist_nd).name hist_nd })
            let st3 := { st2 with heap := h3 }
            match histLoop hist_nd pq1.length pq1 st3 with
            | none => none
            | some st4 =>
              match st4.pushStep "cp" (some sup) (st4.heap sup).dstParent with
              | none => none
              | some st5 =>
                match (st5.heap sup).dstParent with
                | none => none
                | some d2 =>
                  let h6 := st5.heap.modify d2
                    (fun p => { p with children := mapInsert p.children (st5.heap sup).name sup })
                  some { st5 with heap := h6.modify sup (fun n => { n with isSub := false }) }

/-- The loop `for (FsNode* sup : sups) makeFileHist(sup)`. -/
def phaseC (fuel : Nat) : List (Option Nat) → Planner → Option Planner
  | [], st => some st
  | s :: ss, st =>
    match makeFileHist fuel s st with
    | none => none
    | some st1 => phaseC fuel ss st1

/-- Outcome of the merge constructor: the planner state and the `root` member. -/
structure FsTree where
  state : Planner
  root : Nat

/-- Phases A and B of the merge constructor `FsTree::FsTree(ft1, ft2, pathout, fileStore)`,
up to and including the call of `mergeDirs`. -/
def planAB (fuel : Nat) (heap : Heap) (next : Nat) (root1 root2 : Nat) (pathout : String)
    (fileStore : List (String × Nat)) : Option FsTree :=
  match phaseA fileStore fileStore [] heap with
  | none => none
  | some hA =>
    let st0 : Planner :=
      { heap := hA, next := next, plannedNode := [], editSteps := [], sups := [] }
    let (st1, root) := st0.pushNode (hA root1)
    let h2 := st1.heap.modify root (fun n => { n with name := pathout, path := pathout })
    let st2 := { st1 with heap := setParent h2 root none }
    match st2.pushStep "mkdir" none (some root) with
    | none => none
    | some st3 =>
      match mergeDirs fuel root root2 st3 with
      | none => none
      | some st4 => some { state := st4, root := root }

/-- Embedding of the merge constructor `FsTree::FsTree(ft1, ft2, pathout, fileStore)`. -/
def plan (fuel : Nat) (heap : Heap) (next : Nat) (root1 root2 : Nat) (pathout : String)
    (fileStore : List (String × Nat)) : Option FsTree :=
  match planAB fuel heap next root1 root2 pathout fileStore with
  | none => none
  | some t =>
    match phaseC fuel t.state.sups t.state with
    | none => none
    | some st => some { state := st, root := t.root }

/-- The scanning part of `main`: both trees built into one arena and one `fileStore`. -/
def scanBoth (path1 path2 : String) (in1 in2 : List Entry) : Scan × Nat × Nat :=
  let (sc1, r1) := build path1 in1 { heap := ⟨[]⟩, next := 0, fileStore := [] }
  let (sc2, r2) := build path2 in2 sc1
  (sc2, r1, r2)

/-- Embedding of `main` up to the construction of `ftJoint`. -/
def unidupe (fuel : Nat) (path1 path2 pathout : String) (in1 in2 : List Entry) : Option FsTree :=
  match scanBoth path1 path2 in1 in2 with
  | (sc, r1, r2) => plan fuel sc.heap sc.next r1 r2 pathout sc.fileStore

/-! ## Concrete inputs -/

/-- A 16-byte digest all of whose bytes are `b`. -/
def digestOf (b : Nat) : List Nat := List.replicate 16 b

/-- A regular file of size 0 changed at second `sec`, with digest `digestOf b`. -/
def mkFile (name : String) (sec : Int) (b : Nat) : Entry :=
  .file name true 0 ⟨sec, 0⟩ (digestOf b)

/-- A directory entry. -/
def mkDir (name : String) (entries : List Entry) : Entry :=
  .dir name 0 ⟨0, 0⟩ entries

/-- Edge of the subordination graph: `b` is an entry of `a`'s `subordinates`. -/
def SubEdge (h : Heap) (a b : Nat) : Prop := b ∈ (h a).subordinates

/-- The step is a copy with source `s`. -/
def EditStep.copies (e : EditStep) (s : Nat) : Bool := e.op == "cp" && e.acting == s

/-- Number of `Copy` steps of a queue whose source is `s`. -/
def copyCount (q : List EditStep) (s : Nat) : Nat := q.countP (fun e => e.copies s)

/-- A subordinate node whose parent is the node at address 0. -/
def tiedSub : FsNode := { FsNode.fresh with parent := some 0, isSub := true }

/-- Tree 1 of the lost-file input: `c` (t=2) and `z1` (t=1) share digest 1. -/
def lostIn1 : List Entry := [mkFile "c" 2 1, mkFile "z1" 1 1]

/-- Tree 2 of the lost-file input: `c` (t=4) and `z2` (t=3) share digest 2. -/
def lostIn2 : List Entry := [mkFile "c" 4 2, mkFile "z2" 3 2]

/-- Tree 1 of the cycle input: `p1` (t=1) and `p2` (t=2) share digest 1. -/
def cycleIn1 : List Entry := [mkFile "p1" 1 1, mkFile "p2" 2 1]

/-- Tree 2 of the cycle input: `p1` (t=4) and `p2` (t=3) share digest 2. -/
def cycleIn2 : List Entry := [mkFile "p1" 4 2, mkFile "p2" 3 2]

/-- Tree 1 of the double-copy input: `f` (t=2) and `g` (t=1), both of digest 1. -/
def twiceIn1 : List Entry := [mkFile "f" 2 1, mkFile "g" 1 1]

/-- Tree 2 of the double-copy input: `f` (t=3) of digest 1. -/
def twiceIn2 : List Entry := [mkFile "f" 3 1]

/-- A content class of two files changed at seconds 1 and 2. -/
def pairIn1 : List Entry := [mkDir "p" [mkFile "a" 2 7]]

/-- Second tree of the two-file content class. -/
def pairIn2 : List Entry := [mkDir "q" [mkFile "b" 1 7]]

/-- Tree 1 of the three-namesakes input: `a/f` (t=3) and `b/f` (t=2), both of digest 1. -/
def namesakeIn1 : List Entry := [mkDir "a" [mkFile "f" 3 1], mkDir "b" [mkFile "f" 2 1]]

/-- Tree 2 of the three-namesakes input: `c/f` (t=1) of digest 1. -/
def namesakeIn2 : List Entry := [mkDir "c" [mkFile "f" 1 1]]

/-- Tree 1 of the outvoted-class input: `a` (t=2) and `b` (t=1), both of digest 1. -/
def outvotedIn1 : List Entry := [mkFile "a" 2 1, mkFile "b" 1 1]

/-- Tree 2 of the outvoted-class input: `a` (t=3) of digest 2. -/
def outvotedIn2 : List Entry := [mkFile "a" 3 2]

/-- A tree holding the single file `f`. -/
def singleFile : List Entry := [mkFile "f" 1 1]

mutual
/-- Number of non-directory entries below (and including) an entry. -/
def Entry.numFiles : Entry → Nat
  | .file _ _ _ _ _ => 1
  | .dir _ _ _ es => numFilesList es
/-- Number of non-directory entries of a list of entries. -/
def numFilesList : List Entry → Nat
  | [] => 0
  | e :: es => e.numFiles + numFilesList es
end

mutual
/-- Number of directories below (and including) an entry. -/
def Entry.numDirs : Entry → Nat
  | .file _ _ _ _ _ => 0
  | .dir _ _ _ es => 1 + numDirsList es
/-- Number of directories of a list of entries. -/
def numDirsList : List Entry → Nat
  | [] => 0
  | e :: es => e.numDirs + numDirsList es
end

/-- Phases A and B run on two scanned trees (the scanning part of `main`, then `planAB`). -/
def scanPlanAB (fuel : Nat) (path1 path2 pathout : String) (in1 in2 : List Entry) :
    Option FsTree :=
  match scanBoth path1 path2 in1 in2 with
  | (sc, r1, r2) => planAB fuel sc.heap sc.next r1 r2 pathout sc.fileStore

/-- Phase A alone run on two scanned trees. -/
def scanPhaseA (path1 path2 : String) (in1 in2 : List Entry) : Option Heap :=
  match scanBoth path1 path2 in1 in2 with
  | (sc, _, _) => phaseA sc.fileStore sc.fileStore [] sc.heap

/-- A planner state before Phase C with one hierarchy: the directory `out` (address 0) and two
files destined for it, `a` changed at second 1 (address 1, superior) and `b` changed at second 2
(address 2, its subordinate). -/
def pairState : Planner :=
  { heap := ⟨[{ FsNode.fresh with type := "dir", name := "out", path := "out" },
              { FsNode.fresh with type := "other", name := "a", path := "in1/a", parent := some 3,
                                  date_changed := ⟨1, 0⟩, subordinates := [2], dstParent := some 0 },
              { FsNode.fresh with type := "other", name := "b", path := "in2/b", parent := some 4,
                                  date_changed := ⟨2, 0⟩, isSub := true, topSup := some 1,
                                  dstParent := some 0 },
              { FsNode.fresh with type := "dir", name := "in1", path := "in1" },
              { FsNode.fresh with type := "dir", name := "in2", path := "in2" }]⟩,
    next := 5, plannedNode := [0],
    editSteps := [{ op := "mkdir", com := ["mkdir", "out"], acting := 0, dst := 0 }],
    sups := [some 1] }

/-- The operation, acting node and destination of a step. -/
def EditStep.shape (e : EditStep) : String × Nat × Nat := (e.op, e.acting, e.dst)

/-- Lexicographic order on change times: seconds, then nanoseconds. -/
def Timespec.lt (a b : Timespec) : Prop :=
  a.tv_sec < b.tv_sec ∨ (a.tv_sec = b.tv_sec ∧ a.tv_nsec < b.tv_nsec)

instance (a b : Timespec) : Decidable (a.lt b) := by
  unfold Timespec.lt
  exact inferInstance

/-- The members of `pq` have pairwise different change times on heap `h`. -/
def DistinctTimes (h : Heap) (pq : List Nat) : Prop :=
  pq.Pairwise (fun a b => (h a).date_changed ≠ (h b).date_changed)

instance (h : Heap) (pq : List Nat) : Decidable (DistinctTimes h pq) := by
  unfold DistinctTimes
  exact inferInstance

/-- The sequence of results of `pq.top()` while the queue is emptied by `pq.pop()`;
the first argument counts the elements left. -/
def drain (h : Heap) : Nat → List Nat → Option (List Nat)
  | 0, _ => some []
  | n + 1, pq =>
    match pqTop h pq with
    | none => if pq.isEmpty then some [] else none
    | some m => (drain h n (pq.erase m)).map (fun r => m :: r)

/-- The step `EditStep("mkdir", nullptr, d)` built on heap `h`. -/
def mkdirStep (h : Heap) (d : Nat) : EditStep :=
  { op := "mkdir", com := ["mkdir", (h d).path], acting := d, dst := d }

/-- The step `EditStep("cp", s, d)` built on heap `h`. -/
def cpStep (h : Heap) (s d : Nat) : EditStep :=
  { op := "cp", com := ["cp", "--backup=numbered", (h s).path, (h d).path],
    acting := s, dst := d }

/-- Heap `g` differs from heap `h` at most in the `children` and `dstParent` fields of nodes. -/
def SameCore (h g : Heap) : Prop :=
  ∀ a, g a = { h a with children := (g a).children, dstParent := (g a).dstParent }

/-! ## Specification vocabulary for the plan -/

/-- Directory `d` is created by a step of `q`: some `Mkdir` step of `q` acts on `d`. -/
def Made (q : List EditStep) (d : Nat) : Prop :=
  ∃ e ∈ q, e.op = "mkdir" ∧ e.acting = d

/-- Every step's required directory is created earlier in the queue: a `Mkdir` of a node other
than `root` comes after the `Mkdir` of the node's parent (read from heap `h`), and a `Copy`
comes after the `Mkdir` of its destination. -/
def StepsOrdered (root : Nat) (h : Heap) (q : List EditStep) : Prop :=
  ∀ pre e post, q = pre ++ e :: post →
    (e.op = "mkdir" → e.acting ≠ root → ∃ p, (h e.acting).parent = some p ∧ Made pre p) ∧
    (e.op = "cp" → Made pre e.dst)

/-- Address `a` lies in the block of addresses scanned for the entry at `c`. -/
def InSub (span : Nat → Nat) (c a : Nat) : Prop := c ≤ a ∧ a < c + span c

/-- Shape of a scanned arena: children lie behind their parent inside the parent's block, the
blocks of the children of one node follow each other, keys are unique, and every child has a
parent. -/
structure TreeWF (h : Heap) (span : Nat → Nat) : Prop where
  child_in : ∀ a k c, (k, c) ∈ (h a).children → a < c ∧ c + span c ≤ a + span a
  child_disj : ∀ a, (h a).children.Pairwise (fun x y => x.2 + span x.2 ≤ y.2)
  child_keys : ∀ a, ((h a).children.map Prod.fst).Nodup
  span_pos : ∀ a, 1 ≤ span a
  child_par : ∀ a k c, (k, c) ∈ (h a).children → (h c).parent ≠ none

/-- Each `Copy` step that is the last `Copy` of its source in the queue `q` goes to the
directory that the source's `dstParent` names on heap `h`. -/
def LastCopy (h : Heap) (q : List EditStep) : Prop :=
  ∀ pre e post, q = pre ++ e :: post → e.op = "cp" →
    (∀ x ∈ post, x.op = "cp" → x.acting ≠ e.acting) → (h e.acting).dstParent = some e.dst

/-- Invariant of the planner while it runs: the queue is ordered, every committed `dstParent`
is a created directory, created directories are allocated, the addresses in `P` are not yet
visited (their `children` are those of the scanned heap `h0`, no step creates or copies them,
and they keep a parent they had when scanned), the source of every `Copy` has a committed
`dstParent`, no cell beyond the arena has one, every created node has type `dir` and, unless it
is `root`, the path of its parent extended by its name, a node with a committed `dstParent`
has a parent, `root` is a synthesized node, the last `Copy` of every source goes to the
source's `dstParent`, and every step is a `Mkdir` or a `Copy`. -/
structure Ctx (h0 : Heap) (root : Nat) (P : Nat → Prop) (st : Planner) : Prop where
  ordered : StepsOrdered root st.heap st.editSteps
  dst_made : ∀ a d, (st.heap a).dstParent = some d → Made st.editSteps d
  made_lt : ∀ d, Made st.editSteps d → d < st.next
  pend : ∀ a, P a → (st.heap a).children = (h0 a).children ∧ ¬ Made st.editSteps a ∧ a < st.next
  cp_dst : ∀ e ∈ st.editSteps, e.op = "cp" → ∃ d, (st.heap e.acting).dstParent = some d
  free_dst : ∀ a, st.next ≤ a → (st.heap a).dstParent = none
  made_dir : ∀ d, Made st.editSteps d → (st.heap d).type = "dir"
  made_path : ∀ d, Made st.editSteps d → d ≠ root →
    ∃ p, (st.heap d).parent = some p ∧
      (st.heap d).path = (st.heap p).path ++ "/" ++ (st.heap d).name
  dst_par : ∀ a d, (st.heap a).dstParent = some d → (st.heap a).parent ≠ none
  pend_par : ∀ a, P a → (h0 a).parent ≠ none → (st.heap a).parent ≠ none
  planned : root ∈ st.plannedNode
  cp_last : LastCopy st.heap st.editSteps
  cp_vis : ∀ e ∈ st.editSteps, e.op = "cp" → ¬ P e.acting
  ops : ∀ e ∈ st.editSteps, e.op = "mkdir" ∨ e.op = "cp"

mutual
/-- Number of nodes the scanner allocates for an entry. -/
def Entry.span : Entry → Nat
  | .file _ _ _ _ _ => 1
  | .dir _ _ _ es => 1 + spanList es
/-- Number of nodes the scanner allocates for a list of entries. -/
def spanList : List Entry → Nat
  | [] => 0
  | e :: es => e.span + spanList es
end

mutual
/-- Size of the block of the node at address `a` when entry `e` is scanned from address `b`. -/
def Entry.spanAt : Entry → Nat → Nat → Nat
  | .file _ _ _ _ _, _, _ => 1
  | .dir _ _ _ es, b, a => if a = b then 1 + spanList es else spanAtList es (b + 1) a
/-- Size of the block of the node at address `a` when the entries are scanned from address `b`. -/
def spanAtList : List Entry → Nat → Nat → Nat
  | [], _, _ => 1
  | e :: es, b, a => if a < b + e.span then e.spanAt b a else spanAtList es (b + e.span) a
end

/-- Name of an entry. -/
def Entry.name : Entry → String
  | .file n _ _ _ _ => n
  | .dir n _ _ _ => n

/-- Block sizes of the arena after scanning tree 1 (entries `in1`) and tree 2 (entries `in2`). -/
def scanSpan (in1 in2 : List Entry) (a : Nat) : Nat :=
  if a = 0 then 1 + spanList in1
  else if a < 1 + spanList in1 then spanAtList in1 1 a
  else if a = 1 + spanList in1 then 1 + spanList in2
  else spanAtList in2 (1 + spanList in1 + 1) a

/-- A scanned node: its children lie behind it inside its block, their blocks follow each
other, keys are unique, and no destination is committed. -/
structure NodeWF (h : Heap) (s : Nat → Nat) (a : Nat) : Prop where
  child_in : ∀ kc ∈ (h a).children, a < kc.2 ∧ kc.2 + s kc.2 ≤ a + s a
  child_disj : (h a).children.Pairwise (fun x y => x.2 + s x.2 ≤ y.2)
  child_keys : ((h a).children.map Prod.fst).Nodup
  no_dst : (h a).dstParent = none

/-- The children list of a directory being scanned: all blocks lie between the directory and
the address `b` reached so far. -/
structure OpenDir (h : Heap) (s : Nat → Nat) (parent b : Nat) : Prop where
  child_in : ∀ kc ∈ (h parent).children, parent < kc.2 ∧ kc.2 + s kc.2 ≤ b
  child_disj : (h parent).children.Pairwise (fun x y => x.2 + s x.2 ≤ y.2)
  child_keys : ((h parent).children.map Prod.fst).Nodup
  no_dst : (h parent).dstParent = none

/-- The whole block of the entry at `c` lies in `P`. -/
def Block (span : Nat → Nat) (P : Nat → Prop) (c : Nat) : Prop :=
  ∀ a, InSub span c a → P a

/-- Address `a` is a scanned node (below `n0`) that is not a directory on the heap `h0`. -/
def IsFile (h0 : Heap) (n0 a : Nat) : Prop := a < n0 ∧ (h0 a).type ≠ "dir"

/-- The nodes at `a` and `b` agree on the scanned heap `h0`: either none is a directory, or
both are and their children of the same name agree. -/
inductive Agree (h0 : Heap) : Nat → Nat → Prop
  | file (a b : Nat) : (h0 a).type ≠ "dir" → (h0 b).type ≠ "dir" → Agree h0 a b
  | dir (a b : Nat) : (h0 a).type = "dir" → (h0 b).type = "dir" →
      (∀ kc ∈ (h0 a).children, ∀ y, (h0 b).children.lookup kc.1 = some y → Agree h0 kc.2 y) →
      Agree h0 a b

/-- Invariant of the planner on inputs without a directory meeting a non-directory: the nodes
scanned (below `n0`) keep their type, every node allocated later is a directory, no scanned
non-directory changes its path, every `Copy` step has a scanned non-directory as source and
carries the path that source had when scanned, and the hierarchies (`subordinates`, `topSup`,
`sups`) hold scanned non-directories only. -/
structure Clean (h0 : Heap) (n0 : Nat) (st : Planner) : Prop where
  bound : n0 ≤ st.next
  types : ∀ a, a < n0 → (st.heap a).type = (h0 a).type
  new_dir : ∀ a, n0 ≤ a → a < st.next → (st.heap a).type = "dir"
  file_path : ∀ a, IsFile h0 n0 a → (st.heap a).path = (h0 a).path
  cp_src : ∀ e ∈ st.editSteps, e.op = "cp" →
    IsFile h0 n0 e.acting ∧ e.com.get? 2 = some (h0 e.acting).path
  subs : ∀ a, ∀ s ∈ (st.heap a).subordinates, IsFile h0 n0 s
  tops : ∀ a t, (st.heap a).topSup = some t → IsFile h0 n0 t
  sups : ∀ s, some s ∈ st.sups → IsFile h0 n0 s

/-- Contract of a call `recur nd1 nd2` of `mergeDirs` relative to the scanned heap `h0`: when
`nd1` is created and not pending, `nd2` and the blocks of the children of both are pending, and
the blocks are apart, the call keeps the planner invariant for every pending address outside
those blocks and only appends steps; and when the children of the same name of `nd1` and `nd2`
agree, it keeps the invariant `Clean`. -/
def MergeOK (h0 : Heap) (span : Nat → Nat) (root : Nat)
    (recur : Nat → Nat → Planner → Option Planner) : Prop :=
  ∀ (P : Nat → Prop) (nd1 nd2 : Nat) (st st' : Planner),
    recur nd1 nd2 st = some st' →
    Ctx h0 root P st → Made st.editSteps nd1 → ¬ P nd1 → P nd2 →
    (st.heap nd1).children.Pairwise (fun x y => x.2 + span x.2 ≤ y.2) →
    ((st.heap nd1).children.map Prod.fst).Nodup →
    (∀ kc ∈ (st.heap nd1).children, Block span P kc.2) →
    (∀ kc ∈ (h0 nd2).children, Block span P kc.2) →
    (∀ kc ∈ (st.heap nd1).children, ∀ kd ∈ (h0 nd2).children,
      kc.2 + span kc.2 ≤ kd.2 ∨ kd.2 + span kd.2 ≤ kc.2) →
    (∀ kc ∈ (st.heap nd1).children, ¬ InSub span kc.2 nd2) →
    (∀ kc ∈ (st.heap nd1).children, (h0 kc.2).parent ≠ none) →
    Ctx h0 root (fun a => P a ∧ (∀ kc ∈ (st.heap nd1).children, ¬ InSub span kc.2 a) ∧
        (∀ kc ∈ (h0 nd2).children, ¬ InSub span kc.2 a)) st' ∧
      (∀ d, Made st.editSteps d → Made st'.editSteps d) ∧
      (∀ n0, (∀ a, P a → a < n0) →
        (∀ kc ∈ (st.heap nd1).children, ∀ y, (h0 nd2).children.lookup kc.1 = some y →
          Agree h0 kc.2 y) →
        Clean h0 n0 st → Clean h0 n0 st')

/-! ## Merging a tree with an identical copy: expected plan -/

mutual
/-- Keys of the content index of the non-directory entries below an entry, in scan order. -/
def Entry.keys : Entry → List String
  | .file _ _ _ _ digest => [hashKey digest]
  | .dir _ _ _ es => keysList es
/-- Keys of the content index of the non-directory entries of a list, in scan order. -/
def keysList : List Entry → List String
  | [] => []
  | e :: es => e.keys ++ keysList es
end

mutual
/-- Below the entry, the names within each directory are pairwise different. -/
def Entry.namesOK : Entry → Prop
  | .file _ _ _ _ _ => True
  | .dir _ _ _ es => namesOKList es
/-- The names of the list are pairwise different, and so below each of its entries. -/
def namesOKList : List Entry → Prop
  | [] => True
  | e :: es => e.name ∉ es.map Entry.name ∧ e.namesOK ∧ namesOKList es
end

mutual
/-- Nesting depth of the directories of an entry. -/
def Entry.depth : Entry → Nat
  | .file _ _ _ _ _ => 0
  | .dir _ _ _ es => 1 + depthList es
/-- Nesting depth of the directories of a list of entries. -/
def depthList : List Entry → Nat
  | [] => 0
  | e :: es => max e.depth (depthList es)
end

mutual
/-- The `mkdir` commands for the directories below an entry when the output directory of its
parent has path `out`: each directory, then its contents, in scan order. -/
def Entry.dirSteps : Entry → String → List (List String)
  | .file _ _ _ _ _, _ => []
  | .dir name _ _ es, out => ["mkdir", out ++ "/" ++ name] :: dirStepsList es (out ++ "/" ++ name)
/-- The `mkdir` commands for the directories of a list of entries. -/
def dirStepsList : List Entry → String → List (List String)
  | [], _ => []
  | e :: es, out => e.dirSteps out ++ dirStepsList es out
end

/-! ## Merging a tree with an identical copy: the arena -/

/-- The `children` map a directory gets when its entries are scanned from address `b`. -/
def kids : Nat → List Entry → List (String × Nat)
  | _, [] => []
  | b, e :: es => (e.name, b) :: kids (b + e.span) es

/-- What an entry adds to the `num_files` of its directory. -/
def Entry.fileCount : Entry → Nat
  | .file _ _ _ _ _ => 1
  | .dir _ _ _ _ => 0

/-- Number of non-directory entries of a list: the `num_files` of their directory. -/
def countFiles : List Entry → Nat
  | [] => 0
  | e :: es => e.fileCount + countFiles es

mutual
/-- Entries of `fileStore` added when an entry is scanned from address `b`. -/
def Entry.store : Entry → Nat → List (String × Nat)
  | .file _ _ _ _ digest, b => [(hashKey digest, b)]
  | .dir _ _ _ es, b => storeList es (b + 1)
/-- Entries of `fileStore` added when a list of entries is scanned from address `b`. -/
def storeList : List Entry → Nat → List (String × Nat)
  | [], _ => []
  | e :: es, b => e.store b ++ storeList es (b + e.span)
end

mutual
/-- The nodes of the block at `a` are those the scanner builds for the entry under the
directory at `p` with path `pp`. -/
def Entry.Rep (h : Heap) : Entry → Nat → Nat → String → Prop
  | .file name regular size ctime _, a, p, pp =>
    h a = { FsNode.fresh with
            size := size, name := name, parent := some p, date_changed := ctime,
            path := pp ++ "/" ++ name, type := if regular then fileType name else "other" }
  | .dir name size ctime es, a, p, pp =>
    h a = { FsNode.fresh with
            size := size, name := name, parent := some p, date_changed := ctime,
            path := pp ++ "/" ++ name, type := "dir", children := kids (a + 1) es,
            num_files := countFiles es } ∧
    RepList h es (a + 1) a (pp ++ "/" ++ name)
/-- The nodes of the blocks from `b` on are those the scanner builds for the entries. -/
def RepList (h : Heap) : List Entry → Nat → Nat → String → Prop
  | [], _, _, _ => True
  | e :: es, b, p, pp => e.Rep h b p pp ∧ RepList h es (b + e.span) p pp
end

/-- A file present in both trees: its address `f` in tree 1 (the twin is `n` cells later), the
address `p` of its directory in tree 1, the address `d` of its directory in the result, its
name, and the paths of its directory in tree 1, in tree 2 and in the result. -/
structure TwinFile where
  f : Nat
  p : Nat
  d : Nat
  name : String
  s1 : String
  s2 : String
  out : String

mutual
/-- The twin files below an entry scanned from `b`, whose directory is `p` in tree 1 and `d` in
the result. -/
def Entry.infos : Entry → Nat → Nat → Nat → String → String → String → List TwinFile
  | .file name _ _ _ _, b, p, d, s1, s2, out => [⟨b, p, d, name, s1, s2, out⟩]
  | .dir name _ _ es, b, _, _, s1, s2, out =>
    infosList es (b + 1) b b (s1 ++ "/" ++ name) (s2 ++ "/" ++ name) (out ++ "/" ++ name)
/-- The twin files of a list of entries scanned from `b`. -/
def infosList : List Entry → Nat → Nat → Nat → String → String → String → List TwinFile
  | [], _, _, _, _, _, _ => []
  | e :: es, b, p, d, s1, s2, out =>
    e.infos b p d s1 s2 out ++ infosList es (b + e.span) p d s1 s2 out
end

/-- An entry of `fileStore` moved by `n` cells. -/
def shift (n : Nat) (kc : String × Nat) : String × Nat := (kc.1, kc.2 + n)

/-- A scanned file `f` and the file `n` cells behind it tie in the recency order and are not
subordinate. -/
structure PairOK (h : Heap) (n f : Nat) : Prop where
  date : (h f).date_changed = (h (f + n)).date_changed
  par : ∃ p q, (h f).parent = some p ∧ (h (f + n)).parent = some q ∧
    (h p).num_files = (h q).num_files
  isSub1 : (h f).isSub = false
  isSub2 : (h (f + n)).isSub = false

/-- The planner state of the merge constructor when it calls `mergeDirs`: the copy of the root
of tree 1 is allocated at `next`, renamed to `pathout` and detached, and its `Mkdir` is
queued. -/
def rootState (hA : Heap) (next root1 : Nat) (pathout : String) : Planner :=
  let h2 := (hA.set next (hA root1)).modify next
    (fun n => { n with name := pathout, path := pathout })
  let h3 := setParent h2 next none
  { heap := h3, next := next + 1, plannedNode := [next], editSteps := [mkdirStep h3 next],
    sups := [] }

/-- A tree with the file `f` and the directory `d` holding the file `g`. -/
def nestedTree : List Entry := [mkFile "f" 1 1, mkDir "d" [mkFile "g" 2 2]]

/-! ## Phase A on arbitrary stores: vocabulary -/

/-- A node no `makeSub` has touched. -/
def Pristine (n : FsNode) : Prop := n.isSub = false ∧ n.subordinates = [] ∧ n.topSup = none

/-- The content class `C` is one hierarchy below `best`: `best` is not subordinate and lists the
other members, in store order, as its subordinates; every other member is subordinate to `best`
and has no subordinates. -/
def ClassDone (h : Heap) (C : List Nat) (best : Nat) : Prop :=
  (h best).isSub = false ∧ (h best).topSup = none ∧
  (h best).subordinates = C.filter (fun d => decide (d ≠ best)) ∧
  ∀ m ∈ C, m ≠ best →
    (h m).isSub = true ∧ (h m).topSup = some best ∧ (h m).subordinates = []

/-- State of Phase A when the keys in `fhash` are handled: files of other keys are untouched,
and each handled class of more than one file is one hierarchy. -/
def PhaseAInv (fs : List (String × Nat)) (h : Heap) (fhash : List String) : Prop :=
  (∀ a, (∀ k, (k, a) ∈ fs → k ∉ fhash) → Pristine (h a)) ∧
  (∀ k ∈ fhash, (equalRange fs k).length ≤ 1 → ∀ a ∈ equalRange fs k, Pristine (h a)) ∧
  (∀ k ∈ fhash, 1 < (equalRange fs k).length →
    ∃ best ∈ equalRange fs k, ClassDone h (equalRange fs k) best)

/-- State of the scanner: no node is subordinate or has subordinates, and the addresses in
`fileStore` are allocated and pairwise different. -/
def ScanInv (sc : Scan) : Prop :=
  (∀ a, Pristine (sc.heap a)) ∧ (∀ kc ∈ sc.fileStore, kc.2 < sc.next) ∧
  (sc.fileStore.map Prod.snd).Nodup

/-- Tree 1 of the forest input: `a` (t=2) and `b` (t=1), both of digest 1. -/
def forestIn1 : List Entry := [mkFile "a" 2 1, mkFile "b" 1 1]

/-- Tree 2 of the forest input: `a` (t=1) and `c` (t=2), both of digest 2. -/
def forestIn2 : List Entry := [mkFile "a" 1 2, mkFile "c" 2 2]

/-! ## FsTree.cc: executor (`execTform`, `getNextStep`, `handleChildProc`)

The executor forks one process per step.  What the operating system contributes is a sequence
of events: the children that `waitpid` reports to the `SIGCHLD` handler while the signal is
unblocked, and the process identifier that `fork` returns.  `SIGCHLD` is blocked outside the
calls of `pause`, so the handler runs only there.  `fork`, `sigaction` and `waitpid` are taken
not to fail, and a forked child to stop itself and be continued as the code expects. -/

/-- What `waitpid` reports about a child in `status`. -/
inductive Status where
  | exited (code : Nat)
  | signaled (sig : Nat)
  | stopped (sig : Nat)
deriving DecidableEq, Repr

/-- The test `WIFEXITED(status) || WIFSIGNALED(status)`. -/
def Status.terminated : Status → Bool
  | .exited _ => true
  | .signaled _ => true
  | .stopped _ => false

/-- The state `execTform` and the signal handler work on: the arena, the members `editSteps`
and `kMaxProc` of the tree, and the globals `jobs`, `editQueue` and `editProc`. -/
structure Exec where
  heap : Heap
  editSteps : List EditStep
  jobs : List EditStep
  editQueue : List (Nat × EditStep)
  editProc : List (Nat × Nat)
  kMaxProc : Nat

/-- The expression `(step.op == "mkdir") ? step.acting->parent : step.acting->dstParent`. -/
def ascendant (h : Heap) (step : EditStep) : Option Nat :=
  if step.op = "mkdir" then (h step.acting).parent else (h step.acting).dstParent

/-- The loop `while (!editSteps.empty())` of `FsTree::getNextStep`: the step to run, if one is
found, the rest of `editSteps`, and `editQueue`; `none` when `ascendantNode` is null. -/
def drawStep (h : Heap) : List EditStep → List (Nat × EditStep) →
    Option (Option EditStep × List EditStep × List (Nat × EditStep))
  | [], q => some (none, [], q)
  | step :: rest, q =>
    match (h step.acting).parent with
    | none => some (some step, rest, q)
    | some _ =>
      match ascendant h step with
      | none => none
      | some asc =>
        if !(h asc).is_created then drawStep h rest (q ++ [(asc, step)])
        else some (some step, rest, q)

/-- Embedding of `FsTree::getNextStep`: the step stored in `step` when the call returns `true`
(`none` when it returns `false`), and the state left. -/
def getNextStep (st : Exec) : Option (Option EditStep × Exec) :=
  match st.jobs with
  | [] =>
    match drawStep st.heap st.editSteps st.editQueue with
    | none => none
    | some (r, es, q) => some (r, { st with editSteps := es, editQueue := q })
  | j :: js => some (some j, { st with jobs := js })

/-- Body of the `while` loop of `handleChildProc` for one child that `waitpid` reports. -/
def reap (st : Exec) (pid : Nat) (status : Status) : Exec :=
  if !status.terminated then st
  else
    match st.editProc.lookup pid with
    | none => st
    | some nd =>
      { st with
        heap := st.heap.modify nd (fun n => { n with is_created := true }),
        jobs := st.jobs ++ (st.editQueue.filter (fun c => decide (c.1 = nd))).map Prod.snd,
        editQueue := st.editQueue.filter (fun c => decide (c.1 ≠ nd)),
        editProc := st.editProc.filter (fun e => decide (e.1 ≠ pid)) }

/-- Embedding of `handleChildProc`; `reaped` lists what the calls
`waitpid(-1, &status, WNOHANG)` report, in order. -/
def handleChildProc (st : Exec) (reaped : List (Nat × Status)) : Exec :=
  reaped.foldl (fun s r => reap s r.1 r.2) st

/-- An event of a run of `execTform`: the handler runs during a `pause()` and reaps the listed
children, or the main loop makes one pass past its waiting loop, with `fork` returning `pid` if
the pass launches a step. -/
inductive Event where
  | chld (reaped : List (Nat × Status))
  | pass (pid : Nat)

/-- Condition of the main loop `while (!(editSteps.empty() && editQueue.empty() && jobs.empty()))`. -/
def Exec.working (st : Exec) : Bool :=
  !(st.editSteps.isEmpty && st.editQueue.isEmpty && st.jobs.isEmpty)

/-- Condition of the waiting loop
`while (editProc.size() > kMaxProc || (jobs.empty() && editSteps.empty()))`. -/
def Exec.waiting (st : Exec) : Bool :=
  decide (st.editProc.length > st.kMaxProc) || (st.jobs.isEmpty && st.editSteps.isEmpty)

/-- One event of `execTform`.  A `chld` event happens in a `pause()` of the waiting loop or of
the final loop `while (editProc.size() > 0) pause()`; a `pass` event when the main loop is
entered and the waiting loop is left.  `none`: the event cannot happen in this state, or a
null pointer is dereferenced. -/
def execStep (st : Exec) : Event → Option Exec
  | .chld reaped =>
    if st.working then
      if st.waiting then some (handleChildProc st reaped) else none
    else if st.editProc.length > 0 then some (handleChildProc st reaped)
    else none
  | .pass pid =>
    if st.working && !st.waiting then
      match getNextStep st with
      | none => none
      | some (none, st1) => some st1
      | some (some step, st1) =>
        if pid = 0 ∨ (st1.editProc.lookup pid).isSome then none
        else some { st1 with editProc := st1.editProc ++ [(pid, step.acting)] }
    else none

/-- A run of `execTform` after its entry check, over a sequence of events. -/
def execRun (st : Exec) : List Event → Option Exec
  | [] => some st
  | e :: es =>
    match execStep st e with
    | none => none
    | some st1 => execRun st1 es

/-- The data members of a `class FsTree` object. -/
structure TreeObj where
  root : Option Nat
  plannedNode : List Nat
  editSteps : List EditStep
  kMaxProc : Nat

/-- Result of the default constructor `FsTree::FsTree()`. -/
def TreeObj.default : TreeObj :=
  { root := none, plannedNode := [], editSteps := [], kMaxProc := 10 }

/-- Members of a default-constructed tree after `FsTree::build`, which assigns `root` only. -/
def TreeObj.built (r : Nat) : TreeObj :=
  { TreeObj.default with root := some r }

/-- Members of a tree made by the merge constructor. -/
def FsTree.obj (t : FsTree) : TreeObj :=
  { root := some t.root, plannedNode := t.state.plannedNode, editSteps := t.state.editSteps,
    kMaxProc := 10 }

/-- State of the executor when `execTform` enters its main loop: the globals are empty. -/
def execInit (m : TreeObj) (heap : Heap) : Exec :=
  { heap := heap, editSteps := m.editSteps, jobs := [], editQueue := [], editProc := [],
    kMaxProc := m.kMaxProc }

/-- Embedding of `FsTree::execTform` on a tree with members `m`: `.error` is the message of the
`domain_error` thrown at entry, `.ok` the outcome of the run over the events. -/
def execTform (m : TreeObj) (heap : Heap) (events : List Event) : Except String (Option Exec) :=
  if m.plannedNode.isEmpty then
    .error "execTfrom() must be called on a tree built from existing trees."
  else .ok (execRun (execInit m heap) events)

/-- Eleven files of pairwise different contents. -/
def elevenFiles : List Entry :=
  [mkFile "a" 1 1, mkFile "b" 1 2, mkFile "c" 1 3, mkFile "d" 1 4, mkFile "e" 1 5,
   mkFile "f" 1 6, mkFile "g" 1 7, mkFile "h" 1 8, mkFile "i" 1 9, mkFile "j" 1 10,
   mkFile "k" 1 11]

/-- A run on the plan of `elevenFiles`: the `Mkdir` of the root is launched (process 1), the
eleven `Copy` steps are drawn and wait for it, process 1 exits, then eleven passes. -/
def elevenRun : List Event :=
  [.pass 1, .pass 2, .chld [(1, .exited 0)], .pass 2, .pass 3, .pass 4, .pass 5, .pass 6,
   .pass 7, .pass 8, .pass 9, .pass 10, .pass 11, .pass 12]

/-- The `Copy` step of the plan for the single file `f`. -/
def singleCopy : EditStep :=
  { op := "cp", com := ["cp", "--backup=numbered", "in1/f", "out"], acting := 1, dst := 3 }

/-- Invariant of the executor: a waiting step is filed under its ascendant node, the ascendant
of a released step is created, and the source of every `Copy` not yet launched has a parent. -/
structure ExecInv (st : Exec) : Prop where
  queued : ∀ c ∈ st.editQueue, ascendant st.heap c.2 = some c.1
  released : ∀ s ∈ st.jobs, ∃ k, ascendant st.heap s = some k ∧ (st.heap k).is_created = true
  sources : ∀ s, s ∈ st.editSteps ∨ s ∈ st.jobs ∨ s ∈ st.editQueue.map Prod.snd →
    s.op = "cp" → (st.heap s.acting).parent ≠ none

/-- A 16-byte digest whose first two bytes are 1 and 11. -/
def digestA : List Nat := [1, 11, 0, 0, 0, 0, 0, 0, 0, 0, 0, 0, 0, 0, 0, 0]

/-- A 16-byte digest whose first two bytes are 11 and 1. -/
def digestB : List Nat := [11, 1, 0, 0, 0, 0, 0, 0, 0, 0, 0, 0, 0, 0, 0, 0]

/-- Tree 1 of the key-collision input: the file `x` of digest `digestA`. -/
def keyClashIn1 : List Entry := [.file "x" true 0 ⟨1, 0⟩ digestA]

/-- Tree 2 of the key-collision input: the file `y` of digest `digestB`. -/
def keyClashIn2 : List Entry := [.file "y" true 0 ⟨2, 0⟩ digestB]

/-- A step is blocked: it has a prerequisite node, the `ascendantNode` of `getNextStep`, that is
not created yet. -/
def blocked (h : Heap) (s : EditStep) : Bool :=
  match ascendant h s with
  | none => false
  | some k => !(h k).is_created

/-- The entries `editQueue` gets for the given steps: each step under the key of its
prerequisite node. -/
def waitingFor (h : Heap) (steps : List EditStep) : List (Nat × EditStep) :=
  steps.filterMap (fun s => (ascendant h s).map (fun k => (k, s)))

/-- Every step of `editSteps` acts on a node with a null parent exactly when the step has no
prerequisite: so it is for every `Mkdir`, and for a `Copy` whose source has a parent and a
destination. -/
def ExecFit (st : Exec) : Prop :=
  ∀ s ∈ st.editSteps, ((st.heap s.acting).parent = none ↔ ascendant st.heap s = none)

/-- The step that a pass of the main loop hands to `fork`, if any. -/
def launched (st : Exec) : Event → List EditStep
  | .chld _ => []
  | .pass _ =>
    match getNextStep st with
    | some (some step, _) => [step]
    | _ => []

/-- The steps launched along a run of `execTform`, in order. -/
def execLog (st : Exec) : List Event → List EditStep
  | [] => []
  | e :: es =>
    launched st e ++
      (match execStep st e with
       | none => []
       | some st1 => execLog st1 es)

/-- The executor state when `execTform` enters its main loop on the plan for `singleFile` merged
with an empty tree. -/
def singleExec : Exec :=
  execInit ((unidupe 2 "in1" "in2" "out" singleFile []).get (by decide)).obj
    ((unidupe 2 "in1" "in2" "out" singleFile []).get (by decide)).state.heap

/-- The executor state after the first pass of the main loop from `singleExec`, which launches
the `Mkdir` of the output root as process 1. -/
def singleLaunched : Exec := (execRun singleExec [.pass 1]).get (by decide)

/-- The entry of the given name in a listing. -/
def findEntry (es : List Entry) (n : String) : Option Entry :=
  es.find? (fun e => e.name == n)

mutual
/-- The entry and the listing of the other tree agree: no name below denotes a directory on
one side and a non-directory on the other at the same relative location. -/
def Entry.agrees : Entry → List Entry → Bool
  | .file name _ _ _ _, es2 =>
    match findEntry es2 name with
    | some (.dir _ _ _ _) => false
    | _ => true
  | .dir name _ _ es, es2 =>
    match findEntry es2 name with
    | some (.file _ _ _ _ _) => false
    | some (.dir _ _ _ es') => agreesList es es'
    | none => true
/-- The two listings agree. -/
def agreesList : List Entry → List Entry → Bool
  | [], _ => true
  | e :: es, es2 => e.agrees es2 && agreesList es es2
end

/-! ## Reference planner for Phase B -/

/-- The planner copies the non-directory at `f` in Phase B: on the heap after Phase A it is
neither subordinate nor superior. -/
def single (hA : Heap) (f : Nat) : Bool := !(hA f).isSub && (hA f).subordinates.isEmpty

/-- What Phase B does at a node it visits: `mk`, it queues the `Mkdir` of the directory node
`a` of the result, with path `path`; `cp`, it queues the `Copy` of the file `f` with scanned
path `src` into the directory node `d` with path `out`; `sub`, it leaves the file `f`, a member
of a content class, to Phase C, destined for `d`; `pair`, it subordinates the file `c1` of
tree 1 to its namesake `c2` of tree 2 and leaves both to Phase C, destined for `d`. -/
inductive Ev where
  | mk (a : Nat) (path : String)
  | cp (f d : Nat) (src out : String)
  | sub (f d : Nat) (src out : String)
  | pair (c1 c2 d : Nat) (s1 s2 out : String)
deriving DecidableEq, Repr

/-- The step `Mkdir` of the node at `a` with path `path`. -/
def mkdirAt (a : Nat) (path : String) : EditStep :=
  { op := "mkdir", com := ["mkdir", path], acting := a, dst := a }

/-- The step `Copy` of the node at `f` with path `src` into the directory at `d` with path
`out`. -/
def cpAt (f d : Nat) (src out : String) : EditStep :=
  { op := "cp", com := ["cp", "--backup=numbered", src, out], acting := f, dst := d }

/-- The steps Phase B queues at an event. -/
def Ev.steps : Ev → List EditStep
  | .mk a path => [mkdirAt a path]
  | .cp f d src out => [cpAt f d src out]
  | .sub _ _ _ _ => []
  | .pair _ _ _ _ _ _ => []

/-- What Phase B inserts into `sups` at an event. -/
def Ev.tops (hA : Heap) : Ev → List (Option Nat)
  | .mk _ _ => []
  | .cp _ _ _ _ => []
  | .sub f _ _ _ => if (hA f).isSub then [(hA f).topSup] else []
  | .pair _ c2 _ _ _ _ => [some c2]

/-- The event at a non-directory that has no namesake in the other tree. -/
def fileEv (hA : Heap) (f d : Nat) (src out : String) : Ev :=
  if single hA f then .cp f d src out else .sub f d src out

/-- The entry of the given name in a listing scanned from address `b`, with its address. -/
def findAt : List Entry → Nat → String → Option (Entry × Nat)
  | [], _, _ => none
  | e :: es, b, n => if e.name = n then some (e, b) else findAt es (b + e.span) n

mutual
/-- Events of Phase B at the entry at `b`, which only one tree has: `d` is the node and `out`
the path of its directory in the result, `src` the scanned path of its directory, and the nodes
of the result are allocated from `nx`. -/
def Entry.aloneEvs (hA : Heap) : Entry → Nat → Nat → Nat → String → String → List Ev
  | .file name _ _ _ _, b, d, _, src, out => [fileEv hA b d (src ++ "/" ++ name) out]
  | .dir name _ _ es, b, _, nx, src, out =>
    .mk nx (out ++ "/" ++ name) ::
      aloneEvsList hA es [] (b + 1) nx (nx + 1) (src ++ "/" ++ name) (out ++ "/" ++ name)
/-- Events of Phase B at the entries of a listing scanned from `b`, but for those with a name
in `skip`. -/
def aloneEvsList (hA : Heap) :
    List Entry → List String → Nat → Nat → Nat → String → String → List Ev
  | [], _, _, _, _, _, _ => []
  | e :: es, skip, b, d, nx, src, out =>
    if e.name ∈ skip then aloneEvsList hA es skip (b + e.span) d nx src out
    else e.aloneEvs hA b d nx src out ++
      aloneEvsList hA es skip (b + e.span) d (nx + e.numDirs) src out
end

/-- Number of nodes allocated in Phase B for the entries of a listing, but for those with a
name in `skip`. -/
def aloneNewList : List Entry → List String → Nat
  | [], _ => 0
  | e :: es, skip => (if e.name ∈ skip then 0 else e.numDirs) + aloneNewList es skip

mutual
/-- Number of nodes allocated in Phase B for an entry of tree 1, where `es2` lists the
directory of tree 2 at the same relative location. -/
def Entry.bothNew : Entry → List Entry → Nat
  | .file _ _ _ _ _, _ => 0
  | .dir name _ _ es, es2 =>
    match findAt es2 0 name with
    | none => 1 + numDirsList es
    | some (.dir _ _ _ es', _) => bothNewList es es' + aloneNewList es' (es.map Entry.name)
    | some (.file _ _ _ _ _, _) => bothNewList es []
/-- Number of nodes allocated in Phase B for a listing of tree 1. -/
def bothNewList : List Entry → List Entry → Nat
  | [], _ => 0
  | e :: es, es2 => e.bothNew es2 + bothNewList es es2
end

mutual
/-- Events of Phase B at the entry of tree 1 at `b`, where `es2` lists the directory of tree 2
at the same relative location, scanned from `b2`; `s1` and `s2` are the scanned paths of the
two directories. -/
def Entry.bothEvs (hA : Heap) :
    Entry → List Entry → Nat → Nat → Nat → Nat → String → String → String → List Ev
  | .file name _ _ _ _, es2, b2, b, d, _, s1, s2, out =>
    match findAt es2 b2 name with
    | none => [fileEv hA b d (s1 ++ "/" ++ name) out]
    | some (_, a2) => [.pair b a2 d (s1 ++ "/" ++ name) (s2 ++ "/" ++ name) out]
  | .dir name _ _ es, es2, b2, b, _, nx, s1, s2, out =>
    match findAt es2 b2 name with
    | none =>
      .mk nx (out ++ "/" ++ name) ::
        aloneEvsList hA es [] (b + 1) nx (nx + 1) (s1 ++ "/" ++ name) (out ++ "/" ++ name)
    | some (.dir _ _ _ es', a2) =>
      .mk b (out ++ "/" ++ name) ::
        (bothEvsList hA es es' (a2 + 1) (b + 1) b nx (s1 ++ "/" ++ name) (s2 ++ "/" ++ name)
            (out ++ "/" ++ name) ++
          aloneEvsList hA es' (es.map Entry.name) (a2 + 1) b (nx + bothNewList es es')
            (s2 ++ "/" ++ name) (out ++ "/" ++ name))
    | some (.file _ _ _ _ _, a2) =>
      .mk b (out ++ "/" ++ name) ::
        bothEvsList hA es [] (a2 + 1) (b + 1) b nx (s1 ++ "/" ++ name) (s2 ++ "/" ++ name)
          (out ++ "/" ++ name)
/-- Events of Phase B at a listing of tree 1 scanned from `b`. -/
def bothEvsList (hA : Heap) :
    List Entry → List Entry → Nat → Nat → Nat → Nat → String → String → String → List Ev
  | [], _, _, _, _, _, _, _, _ => []
  | e :: es, es2, b2, b, d, nx, s1, s2, out =>
    e.bothEvs hA es2 b2 b d nx s1 s2 out ++
      bothEvsList hA es es2 b2 (b + e.span) d (nx + e.bothNew es2) s1 s2 out
end

/-- The events of Phases A and B for the trees `in1` and `in2` scanned below `path1` and
`path2`, on the heap `hA` after Phase A: the result root is the node behind the scanned ones. -/
def planEvs (hA : Heap) (path1 path2 pathout : String) (in1 in2 : List Entry) : List Ev :=
  .mk ((1 + spanList in1) + (1 + spanList in2)) pathout ::
    (bothEvsList hA in1 in2 (1 + (1 + spanList in1)) 1 ((1 + spanList in1) + (1 + spanList in2))
        ((1 + spanList in1) + (1 + spanList in2) + 1) path1 path2 pathout ++
      aloneEvsList hA in2 (in1.map Entry.name) (1 + (1 + spanList in1))
        ((1 + spanList in1) + (1 + spanList in2))
        ((1 + spanList in1) + (1 + spanList in2) + 1 + bothNewList in1 in2) path2 pathout)

/-- The heap `hA` after Phase A differs from the scanned heap `hs` in the hierarchy fields
`isSub`, `subordinates` and `topSup` only. -/
def Core (hs hA : Heap) : Prop :=
  ∀ a, hA a = { hs a with isSub := (hA a).isSub, subordinates := (hA a).subordinates,
                          topSup := (hA a).topSup }

/-- The scanned non-directory `f` is visited: it is destined for the directory node `d` with
path `out`, and keeps its scanned path `src` and its parent. -/
structure FileDone (hA : Heap) (n0 : Nat) (st : Planner) (f d : Nat) (src out : String) :
    Prop where
  lt : f < n0
  dlt : d < st.next
  dst : (st.heap f).dstParent = some d
  path : (st.heap f).path = src
  dpath : (st.heap d).path = out
  par : (st.heap f).parent = (hA f).parent

/-- State of the nodes of an event once Phase B has passed it. -/
def Ev.Done (hA : Heap) (n0 : Nat) (st : Planner) : Ev → Prop
  | .mk a path => a < st.next ∧ (st.heap a).path = path
  | .cp f d src out => FileDone hA n0 st f d src out
  | .sub f d src out => FileDone hA n0 st f d src out
  | .pair c1 c2 d s1 s2 out =>
    FileDone hA n0 st c1 d s1 out ∧ FileDone hA n0 st c2 d s2 out ∧
    (st.heap c1).isSub = true ∧ (st.heap c1).topSup = some c2 ∧
    (st.heap c1).subordinates = [] ∧
    (st.heap c2).isSub = false ∧ (st.heap c2).subordinates = [c1]

/-- The nodes whose hierarchy fields Phase B changes at an event. -/
def Ev.touched : Ev → List Nat
  | .pair c1 c2 _ _ _ _ => [c1, c2]
  | _ => []

/-- Phase B meets no hierarchy of Phase A at a path collision: both files are untouched. -/
def Ev.OK (hA : Heap) : Ev → Prop
  | .pair c1 c2 _ _ _ _ => Pristine (hA c1) ∧ Pristine (hA c2)
  | _ => True

/-- From `st` to `st'` the nodes allocated in `st` keep name, change time, `num_files` and
type, and, but for the nodes in `T`, their hierarchy fields. -/
def Keeps (st st' : Planner) (T : List Nat) : Prop :=
  st.next ≤ st'.next ∧ ∀ a, a < st.next →
    (st'.heap a).name = (st.heap a).name ∧
    (st'.heap a).date_changed = (st.heap a).date_changed ∧
    (st'.heap a).num_files = (st.heap a).num_files ∧
    (st'.heap a).type = (st.heap a).type ∧
    (a ∉ T → (st'.heap a).isSub = (st.heap a).isSub ∧
      (st'.heap a).subordinates = (st.heap a).subordinates ∧
      (st'.heap a).topSup = (st.heap a).topSup)

/-- The blocks of the entries of a listing scanned from `b` hold on `h` the nodes of `hA`,
but for the entries with a name in `skip`. -/
def PendBut (h hA : Heap) : List Entry → List String → Nat → Prop
  | [], _, _ => True
  | e :: es, skip, b =>
    (e.name ∉ skip → ∀ a, b ≤ a → a < b + e.span → h a = hA a) ∧
      PendBut h hA es skip (b + e.span)

/-- The address `a` lies in none of the blocks of the entries of a listing scanned from `b`,
the entries with a name in `skip` apart. -/
def Outside : List Entry → List String → Nat → Nat → Prop
  | [], _, _, _ => True
  | e :: es, skip, b, a =>
    (e.name ∉ skip → ¬ (b ≤ a ∧ a < b + e.span)) ∧ Outside es skip (b + e.span) a

/-- The nodes an event reads or writes. -/
def Ev.nodes : Ev → List Nat
  | .mk a _ => [a]
  | .cp f d _ _ => [f, d]
  | .sub f d _ _ => [f, d]
  | .pair c1 c2 d _ _ _ => [c1, c2, d]

/-- Phase B takes the state `st` to `st'` as the reference planner says: it queues the steps of
the events `evs`, inserts their tops into `sups`, allocates `k` nodes, and leaves the nodes of
the events as `Ev.Done` says. -/
structure Sim (hA : Heap) (n0 : Nat) (st st' : Planner) (evs : List Ev) (k : Nat) : Prop where
  steps : st'.editSteps = st.editSteps ++ evs.flatMap Ev.steps
  sups : st'.sups = (evs.flatMap (Ev.tops hA)).foldl setInsert st.sups
  next : st'.next = st.next + k
  keeps : Keeps st st' (evs.flatMap Ev.touched)
  done : ∀ ev ∈ evs, ev.Done hA n0 st'

/-! ## Reference planner for Phase C -/

/-- The steps `makeFileHist` queues for the hierarchy with the members `pq`, read from the
heap `h`, when the history directory is allocated at `hist`: the `Mkdir` of the history
directory of the winner, the `Copy` of every other member into it in draining order, and the
`Copy` of the winner to its destination. -/
def histSteps (h : Heap) (hist : Nat) (pq : List Nat) : List EditStep :=
  match drain h pq.length pq with
  | some (w :: losers) =>
    match (h w).dstParent with
    | some d =>
      mkdirAt hist ((h d).path ++ "/" ++ ("." ++ (h w).name ++ "_hist")) ::
        (losers.map (fun m => cpAt m hist (h m).path
            ((h d).path ++ "/" ++ ("." ++ (h w).name ++ "_hist"))) ++
          [cpAt w d (h w).path (h d).path])
    | none => []
  | _ => []

/-- The steps of Phase C for the hierarchies `pqs`, whose history directories are allocated
from `nx`. -/
def histStepsAll (h : Heap) : Nat → List (List Nat) → List EditStep
  | _, [] => []
  | nx, pq :: rest => histSteps h nx pq ++ histStepsAll h (nx + 1) rest

/-- The members of the hierarchy below `t`, when it is flat: `t` and its subordinates. -/
def hierOf (h : Heap) (t : Nat) : List Nat := t :: (h t).subordinates

/-- The hierarchy below `t` is ready for `makeFileHist`: it is flat, its members are pairwise
different nodes below `N`, and each has a parent and a destination below `N`. -/
structure Ripe (h : Heap) (N : Nat) (t : Nat) : Prop where
  flat : ∀ m ∈ (h t).subordinates, (h m).subordinates = []
  nodup : (hierOf h t).Nodup
  lt : ∀ m ∈ hierOf h t, m < N
  dst : ∀ m ∈ hierOf h t, ∃ d, (h m).dstParent = some d ∧ d < N
  par : ∀ m ∈ hierOf h t, ∃ p, (h m).parent = some p ∧ p < N

/-- The planner state on the heap `hA` after Phase A, before the merge constructor allocates
the root of the result at `n0`. -/
def afterA (hA : Heap) (n0 : Nat) : Planner :=
  { heap := hA, next := n0, plannedNode := [], editSteps := [], sups := [] }

/-- The nodes an event is about: the directory made, the file copied or left to Phase C, the
two files of a path collision. -/
def Ev.subj : Ev → List Nat
  | .mk a _ => [a]
  | .cp f _ _ _ => [f]
  | .sub f _ _ _ => [f]
  | .pair c1 c2 _ _ _ _ => [c1, c2]

/-- The hierarchy below `t` on the heap `h`: `t` is not subordinate, and has subordinates, each
of which is subordinate with top `t`. -/
def Tied (h : Heap) (t : Nat) : Prop :=
  (h t).isSub = false ∧ (h t).subordinates ≠ [] ∧
    ∀ m ∈ (h t).subordinates, (h m).isSub = true ∧ (h m).topSup = some t

/-- Tree 1 of the disjoint-trees scenario: the directory `a` holding the file `x`. -/
def disjointIn1 : List Entry := [mkDir "a" [mkFile "x" 1 1]]

/-- Tree 2 of the disjoint-trees scenario: the directory `b` holding the file `y`, whose
content differs from that of `x`. -/
def disjointIn2 : List Entry := [mkDir "b" [mkFile "y" 2 2]]

/-! ## The union of two trees -/

/-- The path of the relative location `r`, a list of names from the root, below `root`. -/
def joinPath (root : String) (r : List String) : String :=
  r.foldl (fun acc n => acc ++ "/" ++ n) root

mutual
/-- Relative locations of the directories of an entry found at the relative location `r`. -/
def Entry.relDirs : Entry → List String → List (List String)
  | .file _ _ _ _ _, _ => []
  | .dir name _ _ es, r => (r ++ [name]) :: relDirsList es (r ++ [name])
/-- Relative locations of the directories below a listing found at the relative location
`r`. -/
def relDirsList : List Entry → List String → List (List String)
  | [], _ => []
  | e :: es, r => e.relDirs r ++ relDirsList es r
end

mutual
/-- The non-directories of an entry found at the relative location `r`, each with the relative
location of its directory and its name. -/
def Entry.relFiles : Entry → List String → List (List String × String)
  | .file name _ _ _ _, r => [(r, name)]
  | .dir name _ _ es, r => relFilesList es (r ++ [name])
/-- The non-directories below a listing found at the relative location `r`. -/
def relFilesList : List Entry → List String → List (List String × String)
  | [], _ => []
  | e :: es, r => e.relFiles r ++ relFilesList es r
end

/-- What a step of the plan of a union is about: the directory at a relative location, or the
file of a name in the directory at a relative location of tree 1 or, when `second` holds, of
tree 2. -/
inductive Item where
  | dir (r : List String)
  | file (second : Bool) (r : List String) (name : String)
deriving DecidableEq, Repr

/-- The command of the step about an item: `mkdir out/r`, or `cp` of the scanned path of the
file into `out/r`. -/
def Item.cmd (path1 path2 pathout : String) : Item → List String
  | .dir r => ["mkdir", joinPath pathout r]
  | .file second r name =>
    ["cp", "--backup=numbered", joinPath (if second then path2 else path1) r ++ "/" ++ name,
      joinPath pathout r]

mutual
/-- The entry of tree 1 has no namesake in the listing of tree 2 at the same relative
location, unless both are directories whose entries are apart in turn. -/
def Entry.apart : Entry → List Entry → Bool
  | .file name _ _ _ _, es2 => (findEntry es2 name).isNone
  | .dir name _ _ es, es2 =>
    match findEntry es2 name with
    | none => true
    | some (.dir _ _ _ es') => apartList es es'
    | some (.file _ _ _ _ _) => false
/-- No relative file path occurs in both listings, and no name denotes a directory in one and
a non-directory in the other at the same relative location. -/
def apartList : List Entry → List Entry → Bool
  | [], _ => true
  | e :: es, es2 => e.apart es2 && apartList es es2
end

mutual
/-- Items of the steps of Phase B at an entry which only one tree has, in the order of the
steps. -/
def Entry.aloneItems (second : Bool) : Entry → List String → List Item
  | .file name _ _ _ _, r => [.file second r name]
  | .dir name _ _ es, r => .dir (r ++ [name]) :: aloneItemsList second es [] (r ++ [name])
/-- Items of the steps of Phase B at the entries of a listing, but for those with a name in
`skip`. -/
def aloneItemsList (second : Bool) : List Entry → List String → List String → List Item
  | [], _, _ => []
  | e :: es, skip, r =>
    if e.name ∈ skip then aloneItemsList second es skip r
    else e.aloneItems second r ++ aloneItemsList second es skip r
end

mutual
/-- Items of the steps of Phase B at an entry of tree 1, where `es2` lists the directory of
tree 2 at the same relative location. -/
def Entry.bothItems : Entry → List Entry → List String → List Item
  | .file name _ _ _ _, es2, r =>
    match findEntry es2 name with
    | none => [.file false r name]
    | some _ => []
  | .dir name _ _ es, es2, r =>
    match findEntry es2 name with
    | none => .dir (r ++ [name]) :: aloneItemsList false es [] (r ++ [name])
    | some (.dir _ _ _ es') =>
      .dir (r ++ [name]) ::
        (bothItemsList es es' (r ++ [name]) ++
          aloneItemsList true es' (es.map Entry.name) (r ++ [name]))
    | some (.file _ _ _ _ _) => .dir (r ++ [name]) :: bothItemsList es [] (r ++ [name])
/-- Items of the steps of Phase B at a listing of tree 1. -/
def bothItemsList : List Entry → List Entry → List String → List Item
  | [], _, _ => []
  | e :: es, es2, r => e.bothItems es2 r ++ bothItemsList es es2 r
end

/-- Items of the steps of the plan of two trees without duplicates, in the order of the
steps: the root of the result, then what Phase B meets. -/
def unionItems (in1 in2 : List Entry) : List Item :=
  .dir [] :: (bothItemsList in1 in2 [] ++ aloneItemsList true in2 (in1.map Entry.name) [])

/-- The relative path an item is about. -/
def Item.key : Item → List String
  | .dir r => r
  | .file _ r name => r ++ [name]

/-- The item is about the entry `e` found at the relative location `r` in tree 1 or, when
`second` holds, in tree 2: a directory below `e`, `e` included, or a file below `e`, `e`
included. -/
def Entry.covers (second : Bool) (e : Entry) (r : List String) : Item → Prop
  | .dir q => q ∈ e.relDirs r
  | .file s q n => s = second ∧ (q, n) ∈ e.relFiles r

/-- Tree 1 of the union scenario: the directory `d` holding the file `x`. -/
def unionIn1 : List Entry := [mkDir "d" [mkFile "x" 1 1]]

/-- Tree 2 of the union scenario: the directory `d` holding the file `z`, and the file `w`. -/
def unionIn2 : List Entry := [mkDir "d" [mkFile "z" 2 2], mkFile "w" 3 3]

/-! ## Directories at a relative location -/

/-- The listing of the directory at the relative location `r` below a listing scanned from
`b`, with the address its entries are scanned from: every name of `r` denotes a directory. -/
def dirAtFrom : List Entry → Nat → List String → Option (List Entry × Nat)
  | es, b, [] => some (es, b)
  | es, b, n :: r =>
    match findAt es b n with
    | some (.dir _ _ _ es', a) => dirAtFrom es' (a + 1) r
    | _ => none

/-- Tree 1 of the nested-merge scenario: the directory `d` holding `x` and `y` (changed at
second 1). -/
def mergeIn1 : List Entry := [mkDir "d" [mkFile "x" 1 1, mkFile "y" 1 2]]

/-- Tree 2 of the nested-merge scenario: the directory `d` holding another `y` (changed at
second 2) and `z`. -/
def mergeIn2 : List Entry := [mkDir "d" [mkFile "y" 2 3, mkFile "z" 1 4]]

/-- The directory at the relative location `r` of tree 1, or of tree 2 when `second`, with the
address its entries are scanned from. -/
def locate (in1 in2 : List Entry) (second : Bool) (r : List String) :
    Option (List Entry × Nat) :=
  if second then dirAtFrom in2 (1 + (1 + spanList in1)) r else dirAtFrom in1 1 r

/-- Tree 1 of the three-way tie: `a/f` and `b/g` of the same content, `b` holding `u` as
well. -/
def tieIn1 : List Entry :=
  [mkDir "a" [mkFile "f" 1 1], mkDir "b" [mkFile "g" 1 1, mkFile "u" 1 5]]

/-- Tree 2 of the three-way tie: `c/k` of the same content as `f` and `g`, `c` holding `v` and
`w` as well; all files are changed at second 1. -/
def tieIn2 : List Entry := [mkDir "c" [mkFile "k" 1 1, mkFile "v" 1 6, mkFile "w" 1 7]]

/-- Tree 2 of the three-way tie with a path collision: as `tieIn2`, and `a/f` of another
content, changed at second 2. -/
def tieClashIn2 : List Entry :=
  [mkDir "a" [mkFile "f" 2 2], mkDir "c" [mkFile "k" 1 1, mkFile "v" 1 6, mkFile "w" 1 7]]

/-! ## The children of the directories of the result -/

/-- Tree 1 of the history-name scenario: the file `y` and the directory `.y_hist` holding another
`y`, both changed at second 1. -/
def histNameIn1 : List Entry := [mkFile "y" 1 1, mkDir ".y_hist" [mkFile "y" 1 2]]

/-- Tree 2 of the history-name scenario: as tree 1, with two further contents, changed at
second 2. -/
def histNameIn2 : List Entry := [mkFile "y" 2 3, mkDir ".y_hist" [mkFile "y" 2 4]]

/-! ## Trees in which no content duplicate lies at a path collision -/

mutual
/-- The entry of tree 1 meets no namesake in the listing `es2` of tree 2 at the same relative
location; or both are directories, whose entries are clear in turn; or both are
non-directories whose content keys each occur at most once in the list `ks` of the keys of the
content index. -/
def Entry.clear (ks : List String) : Entry → List Entry → Bool
  | .file name _ _ _ dg, es2 =>
    match findEntry es2 name with
    | none => true
    | some (.file _ _ _ _ dg2) =>
      decide (ks.count (hashKey dg) ≤ 1) && decide (ks.count (hashKey dg2) ≤ 1)
    | some (.dir _ _ _ _) => false
  | .dir name _ _ es, es2 =>
    match findEntry es2 name with
    | none => true
    | some (.dir _ _ _ es') => clearList ks es es'
    | some (.file _ _ _ _ _) => false
/-- No non-directory that shares its content key (the keys are listed in `ks`) lies at a path
collision, and no name denotes a directory in one listing and a non-directory in the other at
the same relative location. -/
def clearList (ks : List String) : List Entry → List Entry → Bool
  | [], _ => true
  | e :: es, es2 => e.clear ks es2 && clearList ks es es2
end

/-! ## Merging a tree with an identical copy: either copy may be the superior -/

/-- Whether the first entry of `equal_range(k)`, in the arrangement `store` of the content index,
is a node of tree 1 (an address below `n`). -/
def firstOfTree1 (store : List (String × Nat)) (n : Nat) (k : String) : Bool :=
  match equalRange store k with
  | a :: _ => decide (a < n)
  | [] => true

mutual
/-- The history commands for the files below an entry present in both trees, whose parent has
path `s1` in tree 1, `s2` in tree 2 and `out` in the result: per file the `mkdir` of
`.<name>_hist`, the copy of one of the two files into it, and the copy of the other file to its
place; `pick` tells for the content key of the file whether the file of tree 1 is the one copied
to its place. -/
def Entry.histStepsBy (pick : String → Bool) : Entry → String → String → String →
    List (List String)
  | .file name _ _ _ digest, s1, s2, out =>
    [["mkdir", out ++ "/" ++ ("." ++ name ++ "_hist")],
     ["cp", "--backup=numbered", (if pick (hashKey digest) then s2 else s1) ++ "/" ++ name,
       out ++ "/" ++ ("." ++ name ++ "_hist")],
     ["cp", "--backup=numbered", (if pick (hashKey digest) then s1 else s2) ++ "/" ++ name, out]]
  | .dir name _ _ es, s1, s2, out =>
    histStepsListBy pick es (s1 ++ "/" ++ name) (s2 ++ "/" ++ name) (out ++ "/" ++ name)
/-- The history commands for the files of a list of entries present in both trees. -/
def histStepsListBy (pick : String → Bool) : List Entry → String → String → String →
    List (List String)
  | [], _, _, _ => []
  | e :: es, s1, s2, out => e.histStepsBy pick s1 s2 out ++ histStepsListBy pick es s1 s2 out
end

/-- The superior of the twin files at `f` (tree 1) and `f + n` (tree 2). -/
def twinWinner (o : Bool) (n f : Nat) : Nat := if o then f else f + n

/-- The subordinate of the twin files at `f` (tree 1) and `f + n` (tree 2). -/
def twinLoser (o : Bool) (n f : Nat) : Nat := if o then f + n else f

/-- The three commands `makeFileHist` queues for a twin file; `o` tells whether the file of
tree 1 is the superior. -/
def twinCmdsBy (o : Bool) (x : TwinFile) : List (List String) :=
  [["mkdir", x.out ++ "/" ++ ("." ++ x.name ++ "_hist")],
   ["cp", "--backup=numbered", (if o then x.s2 else x.s1) ++ "/" ++ x.name,
     x.out ++ "/" ++ ("." ++ x.name ++ "_hist")],
   ["cp", "--backup=numbered", (if o then x.s1 else x.s2) ++ "/" ++ x.name, x.out]]

/-- State of a twin file and its twin before Phase C: one of them is the superior of the other,
both tie in the recency order, and both are destined for the directory `d`. -/
structure ReadyBy (o : Bool) (h : Heap) (n : Nat) (x : TwinFile) : Prop where
  sub1 : (h (twinWinner o n x.f)).subordinates = [twinLoser o n x.f]
  sub2 : (h (twinLoser o n x.f)).subordinates = []
  isSub1 : (h (twinWinner o n x.f)).isSub = false
  date : (h x.f).date_changed = (h (x.f + n)).date_changed
  par1 : (h x.f).parent = some x.p
  par2 : (h (x.f + n)).parent = some (x.p + n)
  nf : (h x.p).num_files = (h (x.p + n)).num_files
  dst1 : (h x.f).dstParent = some x.d
  dst2 : (h (x.f + n)).dstParent = some x.d
  name1 : (h x.f).name = x.name
  name2 : (h (x.f + n)).name = x.name
  path1 : (h x.f).path = x.s1 ++ "/" ++ x.name
  path2 : (h (x.f + n)).path = x.s2 ++ "/" ++ x.name
  dpath : (h x.d).path = x.out

/-- State of a file at `b` of tree 1 and its twin at `b + n` after Phase A; `o` tells whether the
file of tree 1 is the superior. -/
structure FileTwinBy (o : Bool) (h : Heap) (n b p : Nat) (name s1 s2 : String) : Prop where
  type_ne : (h b).type ≠ "dir"
  name1 : (h b).name = name
  name2 : (h (b + n)).name = name
  path1 : (h b).path = s1 ++ "/" ++ name
  path2 : (h (b + n)).path = s2 ++ "/" ++ name
  isSub1 : (h (twinWinner o n b)).isSub = false
  sub1 : (h (twinWinner o n b)).subordinates = [twinLoser o n b]
  isSub2 : (h (twinLoser o n b)).isSub = true
  topSup2 : (h (twinLoser o n b)).topSup = some (twinWinner o n b)
  sub2 : (h (twinLoser o n b)).subordinates = []
  date : (h b).date_changed = (h (b + n)).date_changed
  par1 : (h b).parent = some p
  par2 : (h (b + n)).parent = some (p + n)

mutual
/-- State after Phase A of the block at `b` of tree 1 and of its twin block `n` cells later;
`o` tells for the address of a file of tree 1 whether it is the superior of its twin. -/
def Entry.TwinBy (o : Nat → Bool) (h : Heap) (n : Nat) : Entry → Nat → Nat → String → String →
    Prop
  | .file name _ _ _ _, b, p, s1, s2 => FileTwinBy (o b) h n b p name s1 s2
  | .dir name _ _ es, b, _, s1, s2 =>
    (h b).type = "dir" ∧ (h b).name = name ∧
    (h b).children = kids (b + 1) es ∧ (h (b + n)).children = kids (b + 1 + n) es ∧
    (h b).num_files = (h (b + n)).num_files ∧
    TwinListBy o h n es (b + 1) b (s1 ++ "/" ++ name) (s2 ++ "/" ++ name)
/-- State after Phase A of the blocks from `b` on of tree 1 and of their twin blocks. -/
def TwinListBy (o : Nat → Bool) (h : Heap) (n : Nat) : List Entry → Nat → Nat → String →
    String → Prop
  | [], _, _, _, _ => True
  | e :: es, b, p, s1, s2 => e.TwinBy o h n b p s1 s2 ∧ TwinListBy o h n es (b + e.span) p s1 s2
end

/-- State of Phase A on an arrangement `store` of the content index of twin trees (`fs1` is the
index of tree 1, `h0` the scanned heap) when the keys in `fhash` are handled: the twins of a
handled key are a hierarchy whose superior is the first entry of the key's range, and all
other nodes are as scanned. -/
structure PairsInv (fs1 store : List (String × Nat)) (n : Nat) (h0 h : Heap)
    (fhash : List String) : Prop where
  other : ∀ a, (∀ kc ∈ fs1, a ≠ kc.2 ∧ a ≠ kc.2 + n) → h a = h0 a
  todo : ∀ kc ∈ fs1, kc.1 ∉ fhash → h kc.2 = h0 kc.2 ∧ h (kc.2 + n) = h0 (kc.2 + n)
  done : ∀ kc ∈ fs1, kc.1 ∈ fhash →
    h (twinWinner (firstOfTree1 store n kc.1) n kc.2) =
      { h0 (twinWinner (firstOfTree1 store n kc.1) n kc.2) with
        subordinates := [twinLoser (firstOfTree1 store n kc.1) n kc.2] } ∧
    h (twinLoser (firstOfTree1 store n kc.1) n kc.2) =
      { h0 (twinLoser (firstOfTree1 store n kc.1) n kc.2) with
        isSub := true, topSup := some (twinWinner (firstOfTree1 store n kc.1) n kc.2) }
  nf : ∀ a, (h a).num_files = (h0 a).num_files

/-! ## What Phase B registers in the directories of the result -/

/-- The event of Phase B at an entry which only one tree has, itself: the `Mkdir` of its node in
the result for a directory, the event of the file for a non-directory. -/
def Entry.aloneTop (hA : Heap) : Entry → Nat → Nat → Nat → String → String → Ev
  | .file name _ _ _ _, b, d, _, src, out => fileEv hA b d (src ++ "/" ++ name) out
  | .dir name _ _ _, _, _, nx, _, out => .mk nx (out ++ "/" ++ name)

/-- The entries the second loop of `mergeDirs` visits in a listing, each with its name and its
own event, in order. -/
def aloneTops (hA : Heap) :
    List Entry → List String → Nat → Nat → Nat → String → String → List (String × Ev)
  | [], _, _, _, _, _, _ => []
  | e :: es, skip, b, d, nx, src, out =>
    if e.name ∈ skip then aloneTops hA es skip (b + e.span) d nx src out
    else (e.name, e.aloneTop hA b d nx src out) ::
      aloneTops hA es skip (b + e.span) d (nx + e.numDirs) src out

/-- The event of Phase B at an entry of tree 1, itself. -/
def Entry.bothTop (hA : Heap) :
    Entry → List Entry → Nat → Nat → Nat → Nat → String → String → String → Ev
  | .file name _ _ _ _, es2, b2, b, d, _, s1, s2, out =>
    match findAt es2 b2 name with
    | none => fileEv hA b d (s1 ++ "/" ++ name) out
    | some (_, a2) => .pair b a2 d (s1 ++ "/" ++ name) (s2 ++ "/" ++ name) out
  | .dir name _ _ _, es2, b2, b, _, nx, _, _, out =>
    match findAt es2 b2 name with
    | none => .mk nx (out ++ "/" ++ name)
    | some _ => .mk b (out ++ "/" ++ name)

/-- The entries the first loop of `mergeDirs` visits in a listing of tree 1, each with its name
and its own event, in order. -/
def bothTops (hA : Heap) :
    List Entry → List Entry → Nat → Nat → Nat → Nat → String → String → String →
      List (String × Ev)
  | [], _, _, _, _, _, _, _, _ => []
  | e :: es, es2, b2, b, d, nx, s1, s2, out =>
    (e.name, e.bothTop hA es2 b2 b d nx s1 s2 out) ::
      bothTops hA es es2 b2 (b + e.span) d (nx + e.bothNew es2) s1 s2 out

/-- The node `mergeDirs` inserts into `step_children` at an event: the directory made, the file
copied; nothing for a file left to Phase C. -/
def Ev.kid : Ev → Option Nat
  | .mk a _ => some a
  | .cp f _ _ _ => some f
  | _ => none

/-- The `step_children` made of the visited entries `tops`. -/
def kidsOf (tops : List (String × Ev)) : List (String × Nat) :=
  tops.filterMap (fun t => t.2.kid.map (fun v => (t.1, v)))

/-- The non-directories an event of Phase B destines for a directory. -/
def Ev.files : Ev → List Nat
  | .mk _ _ => []
  | .cp f _ _ _ => [f]
  | .sub f _ _ _ => [f]
  | .pair c1 c2 _ _ _ _ => [c1, c2]

/-- The directory node for which an event of Phase B destines its non-directories. -/
def Ev.dest : Ev → Option Nat
  | .mk _ _ => none
  | .cp _ d _ _ => some d
  | .sub _ d _ _ => some d
  | .pair _ _ d _ _ _ => some d

mutual
/-- The directories of the result made below an entry which only one tree has, each with the
entries visited when it is merged. -/
def Entry.aloneRooms (hA : Heap) : Entry → Nat → Nat → String → String →
    List (Nat × List (String × Ev))
  | .file _ _ _ _ _, _, _, _, _ => []
  | .dir name _ _ es, b, nx, src, out =>
    (nx, aloneTops hA es [] (b + 1) nx (nx + 1) (src ++ "/" ++ name) (out ++ "/" ++ name)) ::
      aloneRoomsList hA es [] (b + 1) (nx + 1) (src ++ "/" ++ name) (out ++ "/" ++ name)
/-- The directories of the result made below the entries of a listing, but for those with a
name in `skip`. -/
def aloneRoomsList (hA : Heap) : List Entry → List String → Nat → Nat → String → String →
    List (Nat × List (String × Ev))
  | [], _, _, _, _, _ => []
  | e :: es, skip, b, nx, src, out =>
    if e.name ∈ skip then aloneRoomsList hA es skip (b + e.span) nx src out
    else e.aloneRooms hA b nx src out ++
      aloneRoomsList hA es skip (b + e.span) (nx + e.numDirs) src out
end

mutual
/-- The directories of the result made below an entry of tree 1, each with the entries visited
when it is merged. -/
def Entry.bothRooms (hA : Heap) : Entry → List Entry → Nat → Nat → Nat → String → String →
    String → List (Nat × List (String × Ev))
  | .file _ _ _ _ _, _, _, _, _, _, _, _ => []
  | .dir name _ _ es, es2, b2, b, nx, s1, s2, out =>
    match findAt es2 b2 name with
    | none =>
      (nx, aloneTops hA es [] (b + 1) nx (nx + 1) (s1 ++ "/" ++ name) (out ++ "/" ++ name)) ::
        aloneRoomsList hA es [] (b + 1) (nx + 1) (s1 ++ "/" ++ name) (out ++ "/" ++ name)
    | some (.dir _ _ _ es', a2) =>
      (b, bothTops hA es es' (a2 + 1) (b + 1) b nx (s1 ++ "/" ++ name) (s2 ++ "/" ++ name)
            (out ++ "/" ++ name) ++
          aloneTops hA es' (es.map Entry.name) (a2 + 1) b (nx + bothNewList es es')
            (s2 ++ "/" ++ name) (out ++ "/" ++ name)) ::
        (bothRoomsList hA es es' (a2 + 1) (b + 1) nx (s1 ++ "/" ++ name) (s2 ++ "/" ++ name)
            (out ++ "/" ++ name) ++
          aloneRoomsList hA es' (es.map Entry.name) (a2 + 1) (nx + bothNewList es es')
            (s2 ++ "/" ++ name) (out ++ "/" ++ name))
    | some (.file _ _ _ _ _, a2) =>
      (b, bothTops hA es [] (a2 + 1) (b + 1) b nx (s1 ++ "/" ++ name) (s2 ++ "/" ++ name)
            (out ++ "/" ++ name)) ::
        bothRoomsList hA es [] (a2 + 1) (b + 1) nx (s1 ++ "/" ++ name) (s2 ++ "/" ++ name)
          (out ++ "/" ++ name)
/-- The directories of the result made below a listing of tree 1 scanned from `b`. -/
def bothRoomsList (hA : Heap) : List Entry → List Entry → Nat → Nat → Nat → String → String →
    String → List (Nat × List (String × Ev))
  | [], _, _, _, _, _, _, _ => []
  | e :: es, es2, b2, b, nx, s1, s2, out =>
    e.bothRooms hA es2 b2 b nx s1 s2 out ++
      bothRoomsList hA es es2 b2 (b + e.span) (nx + e.bothNew es2) s1 s2 out
end

/-- The directories of the result after Phase B, the root first, each with the entries visited
when it is merged. -/
def planRooms (hA : Heap) (path1 path2 pathout : String) (in1 in2 : List Entry) :
    List (Nat × List (String × Ev)) :=
  ((1 + spanList in1) + (1 + spanList in2),
    bothTops hA in1 in2 (1 + (1 + spanList in1)) 1 ((1 + spanList in1) + (1 + spanList in2))
        ((1 + spanList in1) + (1 + spanList in2) + 1) path1 path2 pathout ++
      aloneTops hA in2 (in1.map Entry.name) (1 + (1 + spanList in1))
        ((1 + spanList in1) + (1 + spanList in2))
        ((1 + spanList in1) + (1 + spanList in2) + 1 + bothNewList in1 in2) path2 pathout) ::
    (bothRoomsList hA in1 in2 (1 + (1 + spanList in1)) 1
        ((1 + spanList in1) + (1 + spanList in2) + 1) path1 path2 pathout ++
      aloneRoomsList hA in2 (in1.map Entry.name) (1 + (1 + spanList in1))
        ((1 + spanList in1) + (1 + spanList in2) + 1 + bothNewList in1 in2) path2 pathout)

mutual
/-- Names of the non-directories below an entry. -/
def Entry.fileNames : Entry → List String
  | .file name _ _ _ _ => [name]
  | .dir _ _ _ es => fileNamesList es
/-- Names of the non-directories below the entries of a listing. -/
def fileNamesList : List Entry → List String
  | [] => []
  | e :: es => e.fileNames ++ fileNamesList es
end

/-- No non-directory of the two trees is named like the history directory `.<m>_hist` of a
non-directory `m` of the two trees. -/
def plainNames (in1 in2 : List Entry) : Bool :=
  (fileNamesList in1 ++ fileNamesList in2).all (fun n =>
    (fileNamesList in1 ++ fileNamesList in2).all (fun m => decide (n ≠ "." ++ m ++ "_hist")))

/-- The entries visited in a directory of the result have pairwise different names, and a
non-directory among them has on the heap `hA` the name it is visited under, a name for which
`F` holds. -/
def TopsOK (hA : Heap) (F : String → Prop) (tops : List (String × Ev)) : Prop :=
  (tops.map Prod.fst).Nodup ∧ ∀ t ∈ tops, ∀ f ∈ t.2.files, (hA f).name = t.1 ∧ F t.1

/-- The step `s` is a `Copy` into the directory into which `e` copies, of a source that has on
the heap `h` the name of the source of `e`. -/
def sameTarget (h : Heap) (e s : EditStep) : Bool :=
  decide (s.op = "cp" ∧ s.dst = e.dst ∧ (h s.acting).name = (h e.acting).name)

/-- Tree 1 of the history-named-file input: `m` (t=9, digest 1) and `.m_hist` (t=8, digest 2). -/
def histFileIn1 : List Entry := [mkFile "m" 9 1, mkFile ".m_hist" 8 2]

/-- Tree 2 of the history-named-file input: `p/q` (t=1, digest 1) and `p/r` (t=2, digest 2). -/
def histFileIn2 : List Entry := [mkDir "p" [mkFile "q" 1 1, mkFile "r" 2 2]]

/-! # Theorems -/

/-! ## Heap lemmas -/

theorem setCell_getD (l : List FsNode) (a : Nat) (v : FsNode) (b : Nat) :
    (setCell l a v).getD b FsNode.fresh = if b = a then v else l.getD b FsNode.fresh := by
  induction l generalizing a b with
  | nil =>
    induction a generalizing b with
    | zero =>
      cases b with
      | zero => simp [setCell]
      | succ b => simp [setCell]
    | succ a ih =>
      cases b with
      | zero => simp [setCell]
      | succ b =>
        have := ih b
        simp only [setCell, List.getD_cons_succ, this]
        simp
  | cons x xs ih =>
    cases a with
    | zero =>
      cases b with
      | zero => simp [setCell]
      | succ b => simp [setCell]
    | succ a =>
      cases b with
      | zero => simp [setCell]
      | succ b =>
        simp only [setCell, List.getD_cons_succ, ih]
        simp

@[simp] theorem Heap.get_set (h : Heap) (a : Nat) (v : FsNode) (b : Nat) :
    (h.set a v) b = if b = a then v else h b := by
  show (setCell h.cells a v).getD b FsNode.fresh = _
  rw [setCell_getD]
  rfl

theorem Heap.get_set_same (h : Heap) (a : Nat) (v : FsNode) : (h.set a v) a = v := by
  simp

theorem Heap.get_set_other (h : Heap) (a : Nat) (v : FsNode) (b : Nat) (hb : b ≠ a) :
    (h.set a v) b = h b := by
  simp [hb]

@[simp] theorem Heap.get_modify (h : Heap) (a : Nat) (f : FsNode → FsNode) (b : Nat) :
    (h.modify a f) b = if b = a then f (h a) else h b := by
  simp [Heap.modify]

/-! ## Recency order -/

/-- C7 (as stated, refuted): a subordinate node with a non-null parent is older than itself
under `comparRecent`, so the relation is not irreflexive. -/
theorem comparRecent_tiedSub_self :
    tiedSub.parent = some 0 ∧ comparRecent ⟨[]⟩ tiedSub tiedSub = some true := by
  decide

/-- C7 (amended): for nodes with non-null parents, `a` is older than `b` and `b` older than `a`
exactly when both change times agree, both parents hold the same number of files and both nodes
are subordinate; on every other pair the relation is asymmetric. -/
theorem comparRecent_symmetric_iff (h : Heap) (a b : FsNode) (p q : Nat)
    (ha : a.parent = some p) (hb : b.parent = some q) :
    (comparRecent h a b = some true ∧ comparRecent h b a = some true) ↔
      (a.date_changed = b.date_changed ∧ (h p).num_files = (h q).num_files ∧
        a.isSub = true ∧ b.isSub = true) := by
  rcases a with ⟨sa, na, ⟨as, an⟩, ta, nma, pa, para, ca, isa, suba, tsa, dpa, ica⟩
  rcases b with ⟨sb, nb, ⟨bs, bn⟩, tb, nmb, pb, parb, cb, isb, subb, tsb, dpb, icb⟩
  simp only at ha hb
  subst ha hb
  simp only [comparRecent]
  by_cases h1 : as = bs
  · by_cases h2 : an = bn
    · by_cases h3 : (h p).num_files = (h q).num_files
      · simp [h1, h2, h3]
      · have h3' : ¬ (h q).num_files = (h p).num_files := fun e => h3 e.symm
        simp [h1, h2, h3, h3']
        omega
    · have h2' : ¬ bn = an := fun e => h2 e.symm
      simp [h1, h2, h2']
      omega
  · have h1' : ¬ bs = as := fun e => h1 e.symm
    simp [h1, h1']
    omega

/-- Witness of `comparRecent_symmetric_iff` at the node `tiedSub`. -/
theorem comparRecent_symmetric_iff_witness :
    (comparRecent ⟨[]⟩ tiedSub tiedSub = some true ∧
        comparRecent ⟨[]⟩ tiedSub tiedSub = some true) ↔
      (tiedSub.date_changed = tiedSub.date_changed ∧
        ((⟨[]⟩ : Heap) 0).num_files = ((⟨[]⟩ : Heap) 0).num_files ∧
        tiedSub.isSub = true ∧ tiedSub.isSub = true) :=
  comparRecent_symmetric_iff ⟨[]⟩ tiedSub tiedSub 0 0 rfl rfl

/-! ## Evaluations of the planner on concrete inputs -/

/-- C1 (failing input): for `in1 = {c, z1}`, `in2 = {c, z2}` where `z1` is an older content
duplicate of `in1/c` and `z2` an older content duplicate of `in2/c`, the planner returns a queue
in which the scanned file `in2/z2` (address 5) is the source of no `Copy` step. -/
theorem lost_file_not_copied :
    (unidupe 10 "in1" "in2" "out" lostIn1 lostIn2).map
        (fun t => ((t.state.heap 5).path, (t.state.heap 5).type,
          copyCount t.state.editSteps 5, t.state.editSteps.map EditStep.com)) =
      some ("in2/z2", "other", 0,
        [["mkdir", "out"], ["mkdir", "out/.c_hist"],
         ["cp", "--backup=numbered", "in1/c", "out/.c_hist"],
         ["cp", "--backup=numbered", "in1/z1", "out/.c_hist"],
         ["cp", "--backup=numbered", "in2/c", "out"]]) := by
  decide

/-- C6 (failing input): in a content class of two files changed at seconds 2 (`in1/p/a`,
address 2) and 1 (`in2/q/b`, address 5), Phase A makes the older file the superior: the newer
file becomes subordinate with `topSup` the older one, although the older is less recent under
`comparRecent`. -/
theorem phaseA_superior_is_oldest :
    (scanPhaseA "in1" "in2" pairIn1 pairIn2).map
        (fun h => ([(h 2).path, (h 5).path], comparRecent h (h 5) (h 2))) =
      some (["in1/p/a", "in2/q/b"], some true) ∧
    (scanPhaseA "in1" "in2" pairIn1 pairIn2).map
        (fun h => ([(h 2).isSub, (h 5).isSub], (h 2).topSup, (h 5).subordinates)) =
      some ([true, false], some 5, [2]) := by
  decide

/-- C8 (failing input): `in1/f` and `in2/f` have the same relative path and the same content,
and `in1/g` is an older file of the same content; `in2/f` (address 4) is the source of two `Copy`
steps, both into the history directory, and no step copies into `out`. -/
theorem path_and_content_duplicate_copied_twice :
    (unidupe 10 "in1" "in2" "out" twiceIn1 twiceIn2).map
        (fun t => ((t.state.heap 4).path, copyCount t.state.editSteps 4,
          t.state.editSteps.map EditStep.com)) =
      some ("in2/f", 2,
        [["mkdir", "out"], ["mkdir", "out/.f_hist"],
         ["cp", "--backup=numbered", "in2/f", "out/.f_hist"],
         ["cp", "--backup=numbered", "in1/f", "out/.f_hist"],
         ["cp", "--backup=numbered", "in1/g", "out/.f_hist"],
         ["cp", "--backup=numbered", "in2/f", "out/.f_hist"]]) := by
  decide

/-! ## Subordination cycles -/

/-- A failing element makes the loop of `traverseSubs` fail. -/
theorem traverseList_none (recur : Nat → List Nat → Option (List Nat)) (b : Nat)
    (hb : ∀ pq, recur b pq = none) :
    ∀ (ss : List Nat), b ∈ ss → ∀ pq, traverseList recur ss pq = none := by
  intro ss
  induction ss with
  | nil => intro h; cases h
  | cons s rest ih =>
    intro hmem pq
    simp only [traverseList]
    cases hs : recur s pq with
    | none => rfl
    | some pq1 =>
      simp only
      rcases List.mem_cons.mp hmem with rfl | hr
      · rw [hb] at hs; cases hs
      · exact ih hr pq1

/-- A node on a cycle has a subordinate on a cycle. -/
theorem cycle_step (h : Heap) (a : Nat) (ha : Relation.TransGen (SubEdge h) a a) :
    ∃ b, SubEdge h a b ∧ Relation.TransGen (SubEdge h) b b := by
  rcases (Relation.TransGen.head'_iff.mp ha) with ⟨b, hab, hba⟩
  exact ⟨b, hab, Relation.TransGen.tail' hba hab⟩

/-- On a node that lies on a cycle of the subordination graph `traverseSubs` returns for no
amount of fuel. -/
theorem traverseSubs_cycle_none (h : Heap) :
    ∀ (fuel a : Nat), Relation.TransGen (SubEdge h) a a → ∀ pq, traverseSubs h fuel a pq = none := by
  intro fuel
  induction fuel with
  | zero => intro a _ pq; rfl
  | succ n ih =>
    intro a ha pq
    rcases cycle_step h a ha with ⟨b, hab, hb⟩
    simp only [traverseSubs]
    exact traverseList_none _ b (fun q => ih b hb q) _ hab _

/-- C2 (failing input): for `in1 = {p1, p2}` of one content and `in2 = {p1, p2}` of another,
with `in1/p1` older than `in1/p2` and `in2/p2` older than `in2/p1`, Phases A and B return with
the subordination cycle 1 → 2 → 5 → 4 → 1, and the planner does not return a queue. -/
theorem subordination_cycle_after_phaseB :
    (∃ t, scanPlanAB 10 "in1" "in2" "out" cycleIn1 cycleIn2 = some t ∧
      Relation.TransGen (SubEdge t.state.heap) 1 1) ∧
    (unidupe 10 "in1" "in2" "out" cycleIn1 cycleIn2).isSome = false := by
  have key : (scanPlanAB 10 "in1" "in2" "out" cycleIn1 cycleIn2).map
      (fun t => [(t.state.heap 1).subordinates, (t.state.heap 2).subordinates,
        (t.state.heap 5).subordinates, (t.state.heap 4).subordinates]) =
      some [[2], [5], [4], [1]] := by decide
  refine ⟨?_, by decide⟩
  cases ht : scanPlanAB 10 "in1" "in2" "out" cycleIn1 cycleIn2 with
  | none => rw [ht] at key; cases key
  | some t =>
    rw [ht] at key
    simp only [Option.map_some', Option.some.injEq, List.cons.injEq, and_true] at key
    obtain ⟨h1, h2, h5, h4⟩ := key
    refine ⟨t, rfl, ?_⟩
    have e12 : SubEdge t.state.heap 1 2 := by unfold SubEdge; rw [h1]; simp
    have e25 : SubEdge t.state.heap 2 5 := by unfold SubEdge; rw [h2]; simp
    have e54 : SubEdge t.state.heap 5 4 := by unfold SubEdge; rw [h5]; simp
    have e41 : SubEdge t.state.heap 4 1 := by unfold SubEdge; rw [h4]; simp
    exact (((Relation.TransGen.single e12).tail e25).tail e54).tail e41

/-! ## The priority queue of `makeFileHist` -/

theorem SameCore.refl (h : Heap) : SameCore h h := fun _ => rfl

theorem SameCore.trans {h g k : Heap} (a : SameCore h g) (b : SameCore g k) : SameCore h k := by
  intro x
  have h1 := a x
  have h2 := b x
  rw [h2, h1]

theorem SameCore.modify_children (h : Heap) (a : Nat) (f : List (String × Nat) → List (String × Nat)) :
    SameCore h (h.modify a (fun p => { p with children := f p.children })) := by
  intro x
  by_cases hx : x = a
  · subst hx; simp
  · simp [hx]

theorem SameCore.setDstParent (h : Heap) (a : Nat) (p : Option Nat) :
    SameCore h (setDstParent h a p) := by
  intro x
  cases p with
  | none => rfl
  | some pa =>
    by_cases hx : x = a
    · subst hx; simp [Unidupe.setDstParent]
    · simp [Unidupe.setDstParent, hx]

theorem SameCore.fields {h g : Heap} (s : SameCore h g) (a : Nat) :
    (g a).date_changed = (h a).date_changed ∧ (g a).parent = (h a).parent ∧
    (g a).isSub = (h a).isSub ∧ (g a).num_files = (h a).num_files ∧
    (g a).name = (h a).name ∧ (g a).path = (h a).path ∧
    (g a).subordinates = (h a).subordinates ∧ (g a).topSup = (h a).topSup ∧
    (g a).type = (h a).type := by
  have e := s a
  refine ⟨?_, ?_, ?_, ?_, ?_, ?_, ?_, ?_, ?_⟩ <;> rw [e]

theorem comparRecent_sameCore {h g : Heap} (s : SameCore h g) (a b : Nat) :
    comparRecent g (g a) (g b) = comparRecent h (h a) (h b) := by
  obtain ⟨ta, pa, sa, -, -, -, -, -, -⟩ := s.fields a
  obtain ⟨tb, pb, -, -, -, -, -, -, -⟩ := s.fields b
  simp only [comparRecent, ta, tb, pa, pb, sa]
  cases (h a).parent with
  | none => rfl
  | some p =>
    cases (h b).parent with
    | none => rfl
    | some q =>
      have np := (s.fields p).2.2.2.1
      have nq := (s.fields q).2.2.2.1
      simp only [np, nq]

/-- Two heaps order the elements of `pq` alike. -/
theorem pqMax_congr (h g : Heap) (pq : List Nat) (x : Nat)
    (hc : ∀ a ∈ x :: pq, ∀ b ∈ x :: pq, comparRecent g (g a) (g b) = comparRecent h (h a) (h b)) :
    pqMax g x pq = pqMax h x pq := by
  induction pq generalizing x with
  | nil => rfl
  | cons y ys ih =>
    simp only [pqMax]
    rw [hc x (by simp) y (by simp)]
    cases comparRecent h (h x) (h y) with
    | none => rfl
    | some lt =>
      simp only
      apply ih
      intro a ha b hb
      apply hc
      · cases lt <;> simp at ha ⊢ <;> tauto
      · cases lt <;> simp at hb ⊢ <;> tauto

theorem pqTop_congr (h g : Heap) (pq : List Nat)
    (hc : ∀ a ∈ pq, ∀ b ∈ pq, comparRecent g (g a) (g b) = comparRecent h (h a) (h b)) :
    pqTop g pq = pqTop h pq := by
  cases pq with
  | nil => rfl
  | cons x xs => exact pqMax_congr h g xs x hc

theorem pqMax_mem (h : Heap) (pq : List Nat) (x m : Nat) (hm : pqMax h x pq = some m) :
    m ∈ x :: pq := by
  induction pq generalizing x with
  | nil => simp [pqMax] at hm; simp [hm]
  | cons y ys ih =>
    simp only [pqMax] at hm
    cases hc : comparRecent h (h x) (h y) with
    | none => rw [hc] at hm; cases hm
    | some lt =>
      rw [hc] at hm
      have := ih _ hm
      cases lt <;> simp at this ⊢ <;> tauto

theorem pqTop_mem (h : Heap) (pq : List Nat) (m : Nat) (hm : pqTop h pq = some m) : m ∈ pq := by
  cases pq with
  | nil => cases hm
  | cons x xs => exact pqMax_mem h xs x m hm

theorem drain_congr (h g : Heap) : ∀ (n : Nat) (pq : List Nat),
    (∀ a ∈ pq, ∀ b ∈ pq, comparRecent g (g a) (g b) = comparRecent h (h a) (h b)) →
    drain g n pq = drain h n pq := by
  intro n
  induction n with
  | zero => intro pq _; rfl
  | succ n ih =>
    intro pq hc
    simp only [drain]
    rw [pqTop_congr h g pq hc]
    cases pqTop h pq with
    | none => rfl
    | some m =>
      simp only
      rw [ih]
      intro a ha b hb
      exact hc a (List.mem_of_mem_erase ha) b (List.mem_of_mem_erase hb)

theorem drain_perm (h : Heap) : ∀ (n : Nat) (pq order : List Nat),
    pq.length = n → drain h n pq = some order → order.Perm pq := by
  intro n
  induction n with
  | zero =>
    intro pq order hl hd
    simp only [drain, Option.some.injEq] at hd
    have : pq = [] := List.length_eq_zero.mp hl
    subst this; subst hd
    exact List.Perm.refl _
  | succ n ih =>
    intro pq order hl hd
    simp only [drain] at hd
    cases ht : pqTop h pq with
    | none =>
      rw [ht] at hd
      cases pq with
      | nil => simp at hl
      | cons x xs => simp at hd
    | some m =>
      rw [ht] at hd
      simp only [Option.map_eq_some'] at hd
      obtain ⟨r, hr, rfl⟩ := hd
      have hm := pqTop_mem h pq m ht
      have hl' : (pq.erase m).length = n := by
        rw [List.length_erase_of_mem hm, hl]; rfl
      have := ih _ _ hl' hr
      exact (List.Perm.cons m this).trans (List.perm_cons_erase hm).symm

/-! ## `makeFileHist` -/

theorem pushStep_cp (st : Planner) (s d : Nat) :
    st.pushStep "cp" (some s) (some d) =
      some { st with editSteps := st.editSteps ++ [cpStep st.heap s d] } := by
  simp [Planner.pushStep, EditStep.create, cpStep]

theorem pushStep_mkdir (st : Planner) (s : Option Nat) (d : Nat) :
    st.pushStep "mkdir" s (some d) =
      some { st with editSteps := st.editSteps ++ [mkdirStep st.heap d] } := by
  simp [Planner.pushStep, EditStep.create, mkdirStep]

theorem cpStep_sameCore {h g : Heap} (s : SameCore h g) (a b : Nat) :
    cpStep g a b = cpStep h a b := by
  have pa := (s.fields a).2.2.2.2.2.1
  have pb := (s.fields b).2.2.2.2.2.1
  simp [cpStep, pa, pb]

theorem drain_sameCore {h g : Heap} (s : SameCore h g) (n : Nat) (pq : List Nat) :
    drain g n pq = drain h n pq :=
  drain_congr h g n pq (fun a _ b _ => comparRecent_sameCore s a b)

/-- One iteration of the loop of `makeFileHist`: a copy of `m` into the history directory is
queued, `m.dstParent` becomes the history directory, and apart from that only `children` fields
change. -/
theorem histBody_spec (hist m d : Nat) (st : Planner) (hd : (st.heap m).dstParent = some d) :
    ∃ st1, histBody hist m st = some st1 ∧
      st1.editSteps = st.editSteps ++ [cpStep st.heap m hist] ∧
      SameCore st.heap st1.heap ∧ st1.next = st.next ∧ st1.plannedNode = st.plannedNode ∧
      st1.sups = st.sups ∧
      (∀ a, (st1.heap a).dstParent = if a = m then some hist else (st.heap a).dstParent) := by
  have hsc2 : SameCore st.heap (setDstParent (st.heap.modify d
      (fun p => { p with children := mapErase p.children (st.heap m).name })) m (some hist)) :=
    (SameCore.modify_children st.heap d (fun l => mapErase l (st.heap m).name)).trans
      (SameCore.setDstParent _ m (some hist))
  simp only [histBody, hd, pushStep_cp]
  refine ⟨_, rfl, ?_, ?_, ?_, ?_, ?_, ?_⟩
  · simp only [List.append_cancel_left_eq, List.cons.injEq, and_true]
    exact cpStep_sameCore hsc2 m hist
  · exact hsc2.trans (SameCore.modify_children _ hist
      (fun l => mapInsert l ((setDstParent (st.heap.modify d
      (fun p => { p with children := mapErase p.children (st.heap m).name })) m (some hist)) m).name m))
  · rfl
  · rfl
  · rfl
  · intro a
    simp only [setDstParent, Heap.get_modify]
    by_cases h1 : a = hist <;> by_cases h2 : a = m <;> by_cases h3 : a = d <;>
      by_cases h4 : hist = m <;> by_cases h5 : m = d <;> by_cases h6 : hist = d <;>
      simp_all

/-- The loop of `makeFileHist` emits one copy into the history directory per queue element, in
the order in which the queue is drained. -/
theorem histLoop_spec (hist : Nat) : ∀ (n : Nat) (pq : List Nat) (st : Planner) (order : List Nat),
    drain st.heap n pq = some order → pq.length = n → pq.Nodup →
    (∀ m ∈ pq, (st.heap m).dstParent ≠ none) →
    ∃ st', histLoop hist n pq st = some st' ∧
      st'.editSteps = st.editSteps ++ order.map (fun m => cpStep st.heap m hist) ∧
      SameCore st.heap st'.heap ∧ st'.next = st.next ∧ st'.plannedNode = st.plannedNode ∧
      st'.sups = st.sups ∧
      (∀ a, a ∉ pq → (st'.heap a).dstParent = (st.heap a).dstParent) ∧
      (∀ a ∈ pq, (st'.heap a).dstParent = some hist) := by
  intro n
  induction n with
  | zero =>
    intro pq st order hd hl _ _
    have : pq = [] := List.length_eq_zero.mp hl
    subst this
    simp only [drain, Option.some.injEq] at hd
    subst hd
    exact ⟨st, rfl, by simp, SameCore.refl _, rfl, rfl, rfl, fun _ _ => rfl, by simp⟩
  | succ n ih =>
    intro pq st order hd hl hnd hdst
    simp only [drain] at hd
    cases ht : pqTop st.heap pq with
    | none =>
      rw [ht] at hd
      cases pq with
      | nil => simp at hl
      | cons x xs => simp at hd
    | some m =>
      rw [ht] at hd
      simp only [Option.map_eq_some'] at hd
      obtain ⟨r, hr, rfl⟩ := hd
      have hm := pqTop_mem st.heap pq m ht
      have hl' : (pq.erase m).length = n := by
        rw [List.length_erase_of_mem hm, hl]; rfl
      have hnd' : (pq.erase m).Nodup := hnd.erase m
      have hmn : m ∉ pq.erase m := hnd.not_mem_erase
      obtain ⟨d, hdm⟩ := Option.ne_none_iff_exists'.mp (hdst m hm)
      obtain ⟨st1, hb, he, hsc, hn, hp, hs, hdp⟩ := histBody_spec hist m d st hdm
      obtain ⟨st', h1, h2, h3, h4, h5, h6, h7, h8⟩ := ih (pq.erase m) st1 r
        (by rw [drain_sameCore hsc]; exact hr) hl' hnd'
        (by
          intro x hx
          rw [hdp x]
          have hxm : x ≠ m := fun e => hmn (e ▸ hx)
          simp only [hxm, if_false]
          exact hdst x (List.mem_of_mem_erase hx))
      refine ⟨st', ?_, ?_, hsc.trans h3, h4.trans hn, h5.trans hp, h6.trans hs, ?_, ?_⟩
      · simp only [histLoop, ht, hb, h1]
      · rw [h2, he]
        simp only [List.map_cons, List.append_assoc, List.singleton_append]
        congr 2
        apply List.map_congr_left
        intro x _
        exact cpStep_sameCore hsc x hist
      · intro a ha
        have ham : a ≠ m := fun e => ha (e ▸ hm)
        have hae : a ∉ pq.erase m := fun e => ha (List.mem_of_mem_erase e)
        rw [h7 a hae, hdp a]
        simp [ham]
      · intro a ha
        by_cases ham : a = m
        · subst ham
          rw [h7 a hmn, hdp a]
          simp
        · exact h8 a ((List.mem_erase_of_ne ham).mpr ha)

theorem pqMax_congr_nodup (h g : Heap) (pq : List Nat) (x : Nat) (hnd : (x :: pq).Nodup)
    (hc : ∀ a ∈ x :: pq, ∀ b ∈ x :: pq, a ≠ b →
      comparRecent g (g a) (g b) = comparRecent h (h a) (h b)) :
    pqMax g x pq = pqMax h x pq := by
  induction pq generalizing x with
  | nil => rfl
  | cons y ys ih =>
    simp only [pqMax]
    have hxy : x ≠ y := by
      intro e; subst e; simp at hnd
    rw [hc x (by simp) y (by simp) hxy]
    cases comparRecent h (h x) (h y) with
    | none => rfl
    | some lt =>
      simp only
      have hnx : (x :: ys).Nodup := by
        simp only [List.nodup_cons, List.mem_cons, not_or] at hnd ⊢
        tauto
      have hny : (y :: ys).Nodup := by
        simp only [List.nodup_cons, List.mem_cons, not_or] at hnd ⊢
        tauto
      apply ih
      · cases lt <;> simp only [if_true, if_false, Bool.false_eq_true] <;> assumption
      · intro a ha b hb hab
        apply hc _ _ _ _ hab
        · cases lt <;> simp at ha ⊢ <;> tauto
        · cases lt <;> simp at hb ⊢ <;> tauto

theorem pqTop_congr_nodup (h g : Heap) (pq : List Nat) (hnd : pq.Nodup)
    (hc : ∀ a ∈ pq, ∀ b ∈ pq, a ≠ b → comparRecent g (g a) (g b) = comparRecent h (h a) (h b)) :
    pqTop g pq = pqTop h pq := by
  cases pq with
  | nil => rfl
  | cons x xs => exact pqMax_congr_nodup h g xs x hnd hc

theorem drain_congr_nodup (h g : Heap) : ∀ (n : Nat) (pq : List Nat), pq.Nodup →
    (∀ a ∈ pq, ∀ b ∈ pq, a ≠ b → comparRecent g (g a) (g b) = comparRecent h (h a) (h b)) →
    drain g n pq = drain h n pq := by
  intro n
  induction n with
  | zero => intro pq _ _; rfl
  | succ n ih =>
    intro pq hnd hc
    simp only [drain]
    rw [pqTop_congr_nodup h g pq hnd hc]
    cases pqTop h pq with
    | none => rfl
    | some m =>
      simp only
      rw [ih _ (hnd.erase m)]
      intro a ha b hb
      exact hc a (List.mem_of_mem_erase ha) b (List.mem_of_mem_erase hb)

theorem drain_cons (h : Heap) (pq : List Nat) (w : Nat) (losers : List Nat)
    (hd : drain h pq.length pq = some (w :: losers)) :
    pqTop h pq = some w ∧ w ∈ pq ∧
      drain h (pq.erase w).length (pq.erase w) = some losers := by
  cases hl : pq.length with
  | zero => rw [hl] at hd; simp [drain] at hd
  | succ n =>
    rw [hl] at hd
    simp only [drain] at hd
    cases ht : pqTop h pq with
    | none =>
      rw [ht] at hd
      cases pq with
      | nil => simp at hl
      | cons x xs => simp at hd
    | some m =>
      rw [ht] at hd
      simp only [Option.map_eq_some', List.cons.injEq] at hd
      obtain ⟨r, hr, rfl, rfl⟩ := hd
      have hm := pqTop_mem h pq m ht
      refine ⟨rfl, hm, ?_⟩
      rw [List.length_erase_of_mem hm, hl]
      exact hr

/-- The history directory node synthesized by `makeFileHist` for the winner `w`. -/
theorem histNode_fields (h : Heap) (w d : Nat) :
    (FsNode.create h ("." ++ (h w).name ++ "_hist") (some d) "dir").parent = some d ∧
    (FsNode.create h ("." ++ (h w).name ++ "_hist") (some d) "dir").name =
      "." ++ (h w).name ++ "_hist" ∧
    (FsNode.create h ("." ++ (h w).name ++ "_hist") (some d) "dir").type = "dir" ∧
    (FsNode.create h ("." ++ (h w).name ++ "_hist") (some d) "dir").path =
      (h d).path ++ "/" ++ ("." ++ (h w).name ++ "_hist") := by
  simp [FsNode.create]

/-- Effect of `makeFileHist` on a hierarchy of distinct nodes with committed destinations:
`Mkdir` of a fresh history directory under the winner's destination, one `Copy` into it per
other member in draining order, then the `Copy` of the winner to its destination. -/
theorem makeFileHist_spec (fuel : Nat) (st : Planner) (src : Nat) (pq : List Nat) (w d : Nat)
    (losers : List Nat)
    (htrav : traverseSubs st.heap fuel src [] = some pq)
    (hdrain : drain st.heap pq.length pq = some (w :: losers))
    (hnd : pq.Nodup)
    (hlt : ∀ m ∈ pq, m ≠ st.next)
    (hdst : ∀ m ∈ pq, (st.heap m).dstParent ≠ none)
    (hwd : (st.heap w).dstParent = some d)
    (hcmp : ∀ v, ∀ a ∈ pq, ∀ b ∈ pq, a ≠ b →
      comparRecent (st.heap.set st.next v) (st.heap a) (st.heap b) =
        comparRecent st.heap (st.heap a) (st.heap b)) :
    ∃ st' g, makeFileHist fuel (some src) st = some st' ∧
      st'.editSteps = st.editSteps ++ mkdirStep g st.next ::
        (losers.map (fun m => cpStep g m st.next) ++ [cpStep g w d]) ∧
      st'.next = st.next + 1 ∧ st'.plannedNode = st.plannedNode ++ [st.next] ∧
      st'.sups = st.sups ∧
      SameCore (st.heap.set st.next
        (FsNode.create st.heap ("." ++ (st.heap w).name ++ "_hist") (some d) "dir")) g ∧
      st'.heap = g.modify w (fun n => { n with isSub := false }) ∧
      (∀ a ∈ losers, (g a).dstParent = some st.next) ∧
      (∀ a, a ∉ losers → a ≠ st.next → (g a).dstParent = (st.heap a).dstParent) := by
  obtain ⟨htop, hw, hdr⟩ := drain_cons st.heap pq w losers hdrain
  have hwn : w ≠ st.next := hlt w hw
  have hwe : w ∉ pq.erase w := hnd.not_mem_erase
  have hperm : losers.Perm (pq.erase w) := drain_perm st.heap _ _ _ rfl hdr
  -- the heap after `plannedNode.push_back`
  generalize hh1 : st.heap.set st.next
    (FsNode.create st.heap ("." ++ (st.heap w).name ++ "_hist") (some d) "dir") = h1
  have hh1a : ∀ a, a ≠ st.next → h1 a = st.heap a := by
    intro a ha; rw [← hh1]; simp [ha]
  -- the heap after registering the history directory
  generalize hh3 : h1.modify d
    (fun p => { p with children := mapInsert p.children (h1 st.next).name st.next }) = h3
  have hsc3 : SameCore h1 h3 := by
    rw [← hh3]
    exact SameCore.modify_children h1 d (fun l => mapInsert l (h1 st.next).name st.next)
  have hdp3 : ∀ a, (h3 a).dstParent = (h1 a).dstParent := by
    intro a; rw [← hh3]; by_cases ha : a = d <;> simp [ha]
  have hdr3 : drain h3 (pq.erase w).length (pq.erase w) = some losers := by
    rw [drain_sameCore hsc3, drain_congr_nodup st.heap h1 _ _ (hnd.erase w)]
    · exact hdr
    · intro a ha b hb hab
      have ha' := List.mem_of_mem_erase ha
      have hb' := List.mem_of_mem_erase hb
      rw [hh1a a (hlt a ha'), hh1a b (hlt b hb'), ← hh1]
      exact hcmp _ a ha' b hb' hab
  obtain ⟨st4, hl4, he4, hsc4, hn4, hp4, hs4, hd4, hd4'⟩ :=
    histLoop_spec st.next (pq.erase w).length (pq.erase w)
      { heap := h3, next := st.next + 1, plannedNode := st.plannedNode ++ [st.next],
        editSteps := st.editSteps ++ [mkdirStep h1 st.next], sups := st.sups }
      losers hdr3 rfl (hnd.erase w)
      (by
        intro m hm
        have hm' := List.mem_of_mem_erase hm
        simp only
        rw [hdp3 m, hh1a m (hlt m hm')]
        exact hdst m hm')
  simp only at he4 hsc4 hn4 hp4 hs4 hd4 hd4'
  have hw4 : (st4.heap w).dstParent = some d := by
    rw [hd4 w hwe, hdp3 w, hh1a w hwn, hwd]
  have hlen : (pq.erase w).length = (pq.erase w).length := rfl
  refine ⟨{ st4 with
      heap := (st4.heap.modify d
        (fun p => { p with children := mapInsert p.children (st4.heap w).name w })).modify w
          (fun n => { n with isSub := false }),
      editSteps := st4.editSteps ++ [cpStep st4.heap w d] },
    st4.heap.modify d
      (fun p => { p with children := mapInsert p.children (st4.heap w).name w }),
    ?_, ?_, ?_, ?_, ?_, ?_, ?_, ?_, ?_⟩
  · simp only [makeFileHist, htrav, htop, Planner.pushNode, hwd, pushStep_mkdir, hh1,
      hh1a w hwn, hh3, hl4, hw4, pushStep_cp]
  · have hsc14 : SameCore h1 st4.heap := hsc3.trans hsc4
    have hscg : SameCore h1 (st4.heap.modify d
        (fun p => { p with children := mapInsert p.children (st4.heap w).name w })) :=
      hsc14.trans (SameCore.modify_children _ d (fun l => mapInsert l (st4.heap w).name w))
    have e1 : mkdirStep (st4.heap.modify d
        (fun p => { p with children := mapInsert p.children (st4.heap w).name w })) st.next =
        mkdirStep h1 st.next := by
      simp only [mkdirStep, (hscg.fields st.next).2.2.2.2.2.1]
    have e2 : (fun m => cpStep (st4.heap.modify d
        (fun p => { p with children := mapInsert p.children (st4.heap w).name w })) m st.next) =
        (fun m => cpStep h1 m st.next) := by
      funext m; exact cpStep_sameCore hscg m st.next
    have e3 : (fun m => cpStep h3 m st.next) = (fun m => cpStep h1 m st.next) := by
      funext m; exact cpStep_sameCore hsc3 m st.next
    simp only [he4, e1, e2, e3, cpStep_sameCore hscg, cpStep_sameCore hsc14,
      List.append_assoc, List.singleton_append, List.cons_append, List.nil_append]
  · exact hn4
  · exact hp4
  · exact hs4
  · exact (hsc3.trans hsc4).trans
      (SameCore.modify_children _ d (fun l => mapInsert l (st4.heap w).name w))
  · rfl
  · intro a ha
    have hae : a ∈ pq.erase w := hperm.subset ha
    have := hd4' a hae
    by_cases had : a = d
    · subst had; simp [this]
    · simp [had, this]
  · intro a ha han
    have hae : a ∉ pq.erase w := fun e => ha (hperm.symm.subset e)
    have := hd4 a hae
    rw [hdp3 a, hh1a a han] at this
    by_cases had : a = d
    · subst had; simp [this]
    · simp [had, this]

/-! ## Hierarchies with pairwise distinct change times -/

theorem Timespec.lt_asymm {a b : Timespec} (h : a.lt b) : ¬ b.lt a := by
  unfold Timespec.lt at *
  omega

theorem Timespec.lt_trans {a b c : Timespec} (h : a.lt b) (k : b.lt c) : a.lt c := by
  unfold Timespec.lt at *
  omega

theorem Timespec.lt_or_gt_of_ne {a b : Timespec} (h : a ≠ b) : a.lt b ∨ b.lt a := by
  rcases a with ⟨as, an⟩
  rcases b with ⟨bs, bn⟩
  have : ¬ (as = bs ∧ an = bn) := by
    rintro ⟨rfl, rfl⟩; exact h rfl
  unfold Timespec.lt
  simp only
  omega

/-- On nodes with different change times `comparRecent` is the order of the times and reads
nothing else. -/
theorem comparRecent_of_ne (h : Heap) (a b : FsNode) (hne : a.date_changed ≠ b.date_changed) :
    comparRecent h a b = some (decide (a.date_changed.lt b.date_changed)) := by
  rcases a with ⟨sa, na, ⟨as, an⟩, ta, nma, pa, para, ca, isa, suba, tsa, dpa, ica⟩
  rcases b with ⟨sb, nb, ⟨bs, bn⟩, tb, nmb, pb, parb, cb, isb, subb, tsb, dpb, icb⟩
  simp only [comparRecent, Timespec.lt]
  simp only [ne_eq, Timespec.mk.injEq, not_and] at hne
  by_cases h1 : as = bs
  · have h2 : an ≠ bn := hne h1
    simp [h1, h2]
  · simp only [ne_eq, h1, not_false_eq_true, if_true, false_and, or_false]

theorem DistinctTimes.ne {h : Heap} {pq : List Nat} (hd : DistinctTimes h pq) :
    ∀ a ∈ pq, ∀ b ∈ pq, a ≠ b → (h a).date_changed ≠ (h b).date_changed := by
  have hs : Symmetric (fun a b : Nat => (h a).date_changed ≠ (h b).date_changed) :=
    fun _ _ hxy e => hxy e.symm
  intro a ha b hb hab
  exact List.Pairwise.forall hs hd ha hb hab

theorem DistinctTimes.nodup {h : Heap} {pq : List Nat} (hd : DistinctTimes h pq) : pq.Nodup := by
  unfold DistinctTimes at hd
  exact hd.imp (fun hab e => hab (by rw [e]))

theorem DistinctTimes.erase {h : Heap} {pq : List Nat} (hd : DistinctTimes h pq) (m : Nat) :
    DistinctTimes h (pq.erase m) :=
  List.Pairwise.erase m hd

/-- With distinct times the scan of the queue returns the member changed last. -/
theorem pqMax_distinct (h : Heap) : ∀ (xs : List Nat) (x : Nat), DistinctTimes h (x :: xs) →
    ∃ m, pqMax h x xs = some m ∧ m ∈ x :: xs ∧
      ∀ y ∈ x :: xs, y = m ∨ (h y).date_changed.lt (h m).date_changed := by
  intro xs
  induction xs with
  | nil =>
    intro x _
    exact ⟨x, rfl, by simp, by simp⟩
  | cons y ys ih =>
    intro x hd
    have hxy : (h x).date_changed ≠ (h y).date_changed :=
      hd.ne x (by simp) y (by simp) (by
        intro e
        have := hd.nodup
        simp [e] at this)
    simp only [pqMax, comparRecent_of_ne h _ _ hxy]
    have hdx : DistinctTimes h (x :: ys) := by
      unfold DistinctTimes at hd ⊢
      exact hd.sublist (by simp)
    have hdy : DistinctTimes h (y :: ys) := by
      unfold DistinctTimes at hd ⊢
      exact hd.sublist (by simp)
    by_cases hlt : (h x).date_changed.lt (h y).date_changed
    · simp only [hlt, decide_True, if_true]
      obtain ⟨m, hm, hmem, hmax⟩ := ih y hdy
      refine ⟨m, hm, by simp at hmem ⊢; tauto, ?_⟩
      intro z hz
      simp only [List.mem_cons] at hz
      rcases hz with rfl | rfl | hz
      · right
        rcases hmax y (by simp) with e | l
        · rw [← e]; exact hlt
        · exact Timespec.lt_trans hlt l
      · exact hmax _ (by simp)
      · exact hmax z (by simp [hz])
    · simp only [hlt, decide_False, Bool.false_eq_true, if_false]
      have hgt : (h y).date_changed.lt (h x).date_changed := by
        rcases Timespec.lt_or_gt_of_ne hxy with l | l
        · exact absurd l hlt
        · exact l
      obtain ⟨m, hm, hmem, hmax⟩ := ih x hdx
      refine ⟨m, hm, by simp at hmem ⊢; tauto, ?_⟩
      intro z hz
      simp only [List.mem_cons] at hz
      rcases hz with rfl | rfl | hz
      · exact hmax _ (by simp)
      · right
        rcases hmax x (by simp) with e | l
        · rw [← e]; exact hgt
        · exact Timespec.lt_trans hgt l
      · exact hmax z (by simp [hz])

/-- With distinct times the queue is drained in order of decreasing change time. -/
theorem drain_distinct (h : Heap) : ∀ (n : Nat) (pq : List Nat), pq.length = n →
    DistinctTimes h pq →
    ∃ order, drain h n pq = some order ∧ order.Perm pq ∧
      order.Pairwise (fun a b => (h b).date_changed.lt (h a).date_changed) := by
  intro n
  induction n with
  | zero =>
    intro pq hl _
    have : pq = [] := List.length_eq_zero.mp hl
    subst this
    exact ⟨[], rfl, List.Perm.refl _, List.Pairwise.nil⟩
  | succ n ih =>
    intro pq hl hd
    cases pq with
    | nil => simp at hl
    | cons x xs =>
      obtain ⟨m, hm, hmem, hmax⟩ := pqMax_distinct h xs x hd
      have ht : pqTop h (x :: xs) = some m := hm
      have hl' : ((x :: xs).erase m).length = n := by
        rw [List.length_erase_of_mem hmem, hl]; rfl
      obtain ⟨r, hr, hperm, hsorted⟩ := ih _ hl' (hd.erase m)
      refine ⟨m :: r, ?_, ?_, ?_⟩
      · simp only [drain, ht, hr, Option.map_some']
      · exact (List.Perm.cons m hperm).trans (List.perm_cons_erase hmem).symm
      · refine List.Pairwise.cons ?_ hsorted
        intro z hz
        have hz' : z ∈ (x :: xs).erase m := hperm.subset hz
        have hzm : z ≠ m := fun e => hd.nodup.not_mem_erase (e ▸ hz')
        rcases hmax z (List.mem_of_mem_erase hz') with e | l
        · exact absurd e hzm
        · exact l

/-- C5: in `makeFileHist`, for a hierarchy whose members have pairwise distinct change times and
committed destinations, the member `w` changed last is the winner: the queue grows by the `Mkdir`
of a fresh history directory `.<w.name>_hist` whose parent is `w.dstParent`, one `Copy` into that
directory for every other member (none of them into its own `dstParent`), and the `Copy` of `w`
into its own `dstParent`.  The hierarchy is arbitrary, whichever way `subordinates` was built. -/
theorem makeFileHist_winner_most_recent (fuel : Nat) (st : Planner) (src : Nat) (pq : List Nat)
    (w d : Nat)
    (htrav : traverseSubs st.heap fuel src [] = some pq)
    (hdist : DistinctTimes st.heap pq)
    (hw : w ∈ pq)
    (hmax : ∀ m ∈ pq, m ≠ w → (st.heap m).date_changed.lt (st.heap w).date_changed)
    (hwd : (st.heap w).dstParent = some d)
    (hdst : ∀ m ∈ pq, ∃ dm, (st.heap m).dstParent = some dm ∧ dm < st.next)
    (hlt : ∀ m ∈ pq, m < st.next) :
    ∃ (st' : Planner) (losers : List Nat), makeFileHist fuel (some src) st = some st' ∧ losers.Perm (pq.erase w) ∧
      st'.editSteps.map EditStep.shape =
        st.editSteps.map EditStep.shape ++ ("mkdir", st.next, st.next) ::
          (losers.map (fun m => ("cp", m, st.next)) ++ [("cp", w, d)]) ∧
      (st'.heap st.next).parent = some d ∧
      (st'.heap st.next).name = "." ++ (st.heap w).name ++ "_hist" ∧
      (st'.heap st.next).type = "dir" ∧
      (∀ m ∈ losers, (st.heap m).dstParent ≠ some st.next) := by
  obtain ⟨order, hdr, hperm, hsorted⟩ := drain_distinct st.heap pq.length pq rfl hdist
  -- the head of the draining order is `w`
  have hwo : w ∈ order := hperm.symm.subset hw
  cases order with
  | nil => cases hwo
  | cons x losers =>
    have hxw : x = w := by
      by_contra hne
      have hxp : x ∈ pq := hperm.subset (by simp)
      have h1 := hmax x hxp hne
      have hwl : w ∈ losers := by
        simp only [List.mem_cons] at hwo
        rcases hwo with e | e
        · exact absurd e.symm hne
        · exact e
      have h2 := (List.pairwise_cons.mp hsorted).1 w hwl
      exact Timespec.lt_asymm h1 h2
    subst hxw
    have hnd := hdist.nodup
    obtain ⟨st', g, hmk, hsteps, -, -, -, hsc, hheap, -, -⟩ :=
      makeFileHist_spec fuel st src pq x d losers htrav hdr hnd
        (fun m hm => Nat.ne_of_lt (hlt m hm))
        (fun m hm => by
          obtain ⟨dm, hdm, -⟩ := hdst m hm
          rw [hdm]; simp)
        hwd
        (fun v a ha b hb hab => by
          rw [comparRecent_of_ne _ _ _ (hdist.ne a ha b hb hab),
            comparRecent_of_ne _ _ _ (hdist.ne a ha b hb hab)])
    have hlp : losers.Perm (pq.erase x) := by
      have := (List.perm_cons_erase hw).symm.trans hperm.symm
      exact (List.Perm.cons_inv this).symm
    have hxn : st.next ≠ x := (Nat.ne_of_lt (hlt x hw)).symm
    have hnode := (hsc.fields st.next)
    have hfl := histNode_fields st.heap x d
    refine ⟨st', losers, hmk, hlp, ?_, ?_, ?_, ?_, ?_⟩
    · rw [hsteps]
      simp [EditStep.shape, mkdirStep, cpStep, Function.comp_def]
    · rw [hheap]
      simp only [Heap.get_modify, hxn, if_false]
      rw [hnode.2.1]
      simp [hfl.1]
    · rw [hheap]
      simp only [Heap.get_modify, hxn, if_false]
      rw [hnode.2.2.2.2.1]
      simp [hfl.2.1]
    · rw [hheap]
      simp only [Heap.get_modify, hxn, if_false]
      rw [hnode.2.2.2.2.2.2.2.2]
      simp [hfl.2.2.1]
    · intro m hm
      obtain ⟨dm, hdm, hlt'⟩ := hdst m (List.mem_of_mem_erase (hlp.subset hm))
      rw [hdm]
      intro e
      simp only [Option.some.injEq] at e
      omega

/-- Witness of `makeFileHist_winner_most_recent` on `pairState`: `b`, changed last, wins. -/
theorem makeFileHist_winner_most_recent_witness :
    ∃ (st' : Planner) (losers : List Nat), makeFileHist 2 (some 1) pairState = some st' ∧ losers.Perm ([1, 2].erase 2) ∧
      st'.editSteps.map EditStep.shape =
        pairState.editSteps.map EditStep.shape ++ ("mkdir", pairState.next, pairState.next) ::
          (losers.map (fun m => ("cp", m, pairState.next)) ++ [("cp", 2, 0)]) ∧
      (st'.heap pairState.next).parent = some 0 ∧
      (st'.heap pairState.next).name = "." ++ (pairState.heap 2).name ++ "_hist" ∧
      (st'.heap pairState.next).type = "dir" ∧
      (∀ m ∈ losers, (pairState.heap m).dstParent ≠ some pairState.next) :=
  makeFileHist_winner_most_recent 2 pairState 1 [1, 2] 2 0 (by decide) (by decide) (by decide)
    (by decide) (by decide) (by decide) (by decide)

/-! ## Counterexamples to claims about the whole plan -/

/-- C4 (as stated, refuted): the content class of `in1/a` and `in1/b` (addresses 1 and 2, the
only two entries under their key) has cardinality 2, `in1/a` has the more recent path duplicate
`in2/a` of another content, and both class members are copied into the history directory
`out/.a_hist` (address 6): no member of the class is copied into a non-history directory. -/
theorem content_class_outvoted :
    (scanBoth "in1" "in2" outvotedIn1 outvotedIn2).1.fileStore.map Prod.snd = [1, 2, 4] ∧
    equalRange (scanBoth "in1" "in2" outvotedIn1 outvotedIn2).1.fileStore
      (hashKey (digestOf 1)) = [1, 2] ∧
    (unidupe 10 "in1" "in2" "out" outvotedIn1 outvotedIn2).map
        (fun t => (t.state.editSteps.map EditStep.shape, t.state.plannedNode,
          (t.state.heap 6).path)) =
      some ([("mkdir", 5, 5), ("mkdir", 6, 6), ("cp", 1, 6), ("cp", 2, 6), ("cp", 4, 5)],
        [5, 6], "out/.a_hist") := by
  decide

/-- C9 (as stated, refuted): `a/f`, `b/f` and `c/f` have one content; `in2/c/f` (address 7) is
the source of a `Copy` into the history directory (address 12), which is its `dstParent`, but
the `children` of that directory map the key `f` to `in1/b/f` (address 4). -/
theorem history_children_namesake :
    (unidupe 10 "in1" "in2" "out" namesakeIn1 namesakeIn2).map
        (fun t => (t.state.editSteps.map EditStep.shape, (t.state.heap 7).name,
          (t.state.heap 7).dstParent, (t.state.heap 12).children)) =
      some ([("mkdir", 8, 8), ("mkdir", 9, 9), ("mkdir", 10, 10), ("mkdir", 11, 11),
          ("mkdir", 12, 12), ("cp", 4, 12), ("cp", 7, 12), ("cp", 2, 9)],
        "f", some 12, [("f", 4)]) := by
  decide

theorem Made.append_left {q : List EditStep} {d : Nat} (h : Made q d) (r : List EditStep) :
    Made (q ++ r) d := by
  obtain ⟨e, he, h1, h2⟩ := h
  exact ⟨e, List.mem_append_left r he, h1, h2⟩

theorem made_snoc (q : List EditStep) (e : EditStep) (d : Nat) :
    Made (q ++ [e]) d ↔ Made q d ∨ (e.op = "mkdir" ∧ e.acting = d) := by
  constructor
  · rintro ⟨x, hx, h1, h2⟩
    rcases List.mem_append.mp hx with hq | hq
    · exact Or.inl ⟨x, hq, h1, h2⟩
    · simp only [List.mem_singleton] at hq
      subst hq
      exact Or.inr ⟨h1, h2⟩
  · rintro (h | ⟨h1, h2⟩)
    · exact h.append_left _
    · exact ⟨e, by simp, h1, h2⟩

theorem made_snoc_cp (q : List EditStep) (h : Heap) (s d x : Nat) :
    Made (q ++ [cpStep h s d]) x ↔ Made q x := by
  rw [made_snoc]
  simp [cpStep]

theorem made_snoc_mkdir (q : List EditStep) (h : Heap) (d x : Nat) :
    Made (q ++ [mkdirStep h d]) x ↔ Made q x ∨ d = x := by
  rw [made_snoc]
  simp [mkdirStep]

theorem StepsOrdered.heap {root : Nat} {h g : Heap} {q : List EditStep}
    (ho : StepsOrdered root h q)
    (hp : ∀ a, Made q a → (g a).parent = (h a).parent) : StepsOrdered root g q := by
  intro pre e post hq
  obtain ⟨h1, h2⟩ := ho pre e post hq
  refine ⟨fun hop hr => ?_, h2⟩
  obtain ⟨p, hpar, hm⟩ := h1 hop hr
  refine ⟨p, ?_, hm⟩
  rw [hp e.acting ⟨e, by rw [hq]; simp, hop, rfl⟩]
  exact hpar

theorem StepsOrdered.snoc {root : Nat} {h : Heap} {q : List EditStep} (ho : StepsOrdered root h q)
    (e : EditStep)
    (h1 : e.op = "mkdir" → e.acting ≠ root → ∃ p, (h e.acting).parent = some p ∧ Made q p)
    (h2 : e.op = "cp" → Made q e.dst) : StepsOrdered root h (q ++ [e]) := by
  intro pre x post hq
  rcases List.eq_nil_or_concat post with hp | ⟨post', y, hp⟩
  · subst hp
    have := List.append_inj' hq (by simp)
    obtain ⟨e1, e2⟩ := this
    simp only [List.cons.injEq, and_true] at e2
    subst e1; subst e2
    exact ⟨h1, h2⟩
  · subst hp
    have hq' : q ++ [e] = (pre ++ x :: post') ++ [y] := by
      rw [hq]; simp
    have := List.append_inj' hq' (by simp)
    exact ho pre x post' this.1

theorem StepsOrdered.snoc_mkdir {root : Nat} {h : Heap} {q : List EditStep}
    (ho : StepsOrdered root h q) (g : Heap) (d p : Nat)
    (hp : (h d).parent = some p) (hm : Made q p) :
    StepsOrdered root h (q ++ [mkdirStep g d]) :=
  ho.snoc _ (fun _ _ => ⟨p, hp, hm⟩) (fun hc => by simp [mkdirStep] at hc)

theorem StepsOrdered.snoc_cp {root : Nat} {h : Heap} {q : List EditStep}
    (ho : StepsOrdered root h q) (g : Heap) (s d : Nat) (hm : Made q d) :
    StepsOrdered root h (q ++ [cpStep g s d]) :=
  ho.snoc _ (fun hc => by simp [cpStep] at hc) (fun _ => hm)

/-! ## Field projections of the node operations -/

@[simp] theorem setParent_children (h : Heap) (x : Nat) (p : Option Nat) (a : Nat) :
    (setParent h x p a).children = (h a).children := by
  cases p <;> by_cases e : a = x <;> simp [setParent, e]

@[simp] theorem setParent_dstParent (h : Heap) (x : Nat) (p : Option Nat) (a : Nat) :
    (setParent h x p a).dstParent = (h a).dstParent := by
  cases p <;> by_cases e : a = x <;> simp [setParent, e]

@[simp] theorem setParent_type (h : Heap) (x : Nat) (p : Option Nat) (a : Nat) :
    (setParent h x p a).type = (h a).type := by
  cases p <;> by_cases e : a = x <;> simp [setParent, e]

@[simp] theorem setDstParent_type (h : Heap) (x : Nat) (p : Option Nat) (a : Nat) :
    (setDstParent h x p a).type = (h a).type := by
  cases p <;> by_cases e : a = x <;> simp [setDstParent, e]

theorem setParent_parent (h : Heap) (x : Nat) (p : Option Nat) (a : Nat) :
    (setParent h x p a).parent = if a = x then p else (h a).parent := by
  cases p <;> by_cases e : a = x <;> simp [setParent, e]

@[simp] theorem setDstParent_children (h : Heap) (x : Nat) (p : Option Nat) (a : Nat) :
    (setDstParent h x p a).children = (h a).children := by
  cases p <;> by_cases e : a = x <;> simp [setDstParent, e]

@[simp] theorem setDstParent_parent (h : Heap) (x : Nat) (p : Option Nat) (a : Nat) :
    (setDstParent h x p a).parent = (h a).parent := by
  cases p <;> by_cases e : a = x <;> simp [setDstParent, e]

theorem setDstParent_dstParent (h : Heap) (x d : Nat) (a : Nat) :
    (setDstParent h x (some d) a).dstParent = if a = x then some d else (h a).dstParent := by
  by_cases e : a = x <;> simp [setDstParent, e]

theorem modify_proj {β : Type} (proj : FsNode → β) (h : Heap) (x : Nat) (f : FsNode → FsNode)
    (a : Nat) (hf : ∀ n, proj (f n) = proj n) : proj ((h.modify x f) a) = proj (h a) := by
  by_cases e : a = x
  · subst e; simp [hf]
  · simp [e]

@[simp] theorem makeSub_children (h : Heap) (x s : Nat) (a : Nat) :
    (makeSub h x s a).children = (h a).children := by
  unfold makeSub
  simp only
  rw [modify_proj FsNode.children, modify_proj FsNode.children, modify_proj FsNode.children] <;>
    intro n <;> rfl

@[simp] theorem makeSub_parent (h : Heap) (x s : Nat) (a : Nat) :
    (makeSub h x s a).parent = (h a).parent := by
  unfold makeSub
  simp only
  rw [modify_proj FsNode.parent, modify_proj FsNode.parent, modify_proj FsNode.parent] <;>
    intro n <;> rfl

@[simp] theorem makeSub_type (h : Heap) (x s : Nat) (a : Nat) :
    (makeSub h x s a).type = (h a).type := by
  unfold makeSub
  simp only
  rw [modify_proj FsNode.type, modify_proj FsNode.type, modify_proj FsNode.type] <;>
    intro n <;> rfl

@[simp] theorem makeSub_dstParent (h : Heap) (x s : Nat) (a : Nat) :
    (makeSub h x s a).dstParent = (h a).dstParent := by
  unfold makeSub
  simp only
  rw [modify_proj FsNode.dstParent, modify_proj FsNode.dstParent, modify_proj FsNode.dstParent] <;>
    intro n <;> rfl

/-! ## Preservation of the planner invariant by the primitive operations -/

@[simp] theorem setParent_name (h : Heap) (x : Nat) (p : Option Nat) (a : Nat) :
    (setParent h x p a).name = (h a).name := by
  cases p <;> by_cases e : a = x <;> simp [setParent, e]

theorem setParent_path_other (h : Heap) (x : Nat) (p : Option Nat) (a : Nat) (e : a ≠ x) :
    (setParent h x p a).path = (h a).path := by
  cases p <;> simp [setParent, e]

theorem setParent_path_self (h : Heap) (x p : Nat) :
    (setParent h x (some p) x).path = (h p).path ++ "/" ++ (h x).name := by
  simp [setParent]

@[simp] theorem setDstParent_name (h : Heap) (x : Nat) (p : Option Nat) (a : Nat) :
    (setDstParent h x p a).name = (h a).name := by
  cases p <;> by_cases e : a = x <;> simp [setDstParent, e]

@[simp] theorem setDstParent_path (h : Heap) (x : Nat) (p : Option Nat) (a : Nat) :
    (setDstParent h x p a).path = (h a).path := by
  cases p <;> by_cases e : a = x <;> simp [setDstParent, e]

@[simp] theorem makeSub_name (h : Heap) (x s : Nat) (a : Nat) :
    (makeSub h x s a).name = (h a).name := by
  unfold makeSub
  simp only
  rw [modify_proj FsNode.name, modify_proj FsNode.name, modify_proj FsNode.name] <;>
    intro n <;> rfl

@[simp] theorem makeSub_path (h : Heap) (x s : Nat) (a : Nat) :
    (makeSub h x s a).path = (h a).path := by
  unfold makeSub
  simp only
  rw [modify_proj FsNode.path, modify_proj FsNode.path, modify_proj FsNode.path] <;>
    intro n <;> rfl

theorem Made.of_pre {pre post : List EditStep} {d : Nat} (h : Made pre d) :
    Made (pre ++ post) d := h.append_left post

/-- In an ordered queue the parent of a created node other than the root is created. -/
theorem StepsOrdered.parent_made {root : Nat} {h : Heap} {q : List EditStep}
    (ho : StepsOrdered root h q) {d : Nat} (hd : Made q d) (hr : d ≠ root) :
    ∃ p, (h d).parent = some p ∧ Made q p := by
  obtain ⟨e, he, hop, hact⟩ := hd
  obtain ⟨pre, post, hq⟩ := List.append_of_mem he
  obtain ⟨p, hp, hm⟩ := (ho pre e post hq).1 hop (hact ▸ hr)
  refine ⟨p, hact ▸ hp, ?_⟩
  rw [hq]
  exact hm.append_left _

theorem LastCopy.push {h : Heap} {q : List EditStep} (hl : LastCopy h q) (e : EditStep)
    (h1 : e.op = "cp" → (h e.acting).dstParent = some e.dst) : LastCopy h (q ++ [e]) := by
  intro pre x post hq hcp hlast
  rcases List.eq_nil_or_concat post with hp | ⟨post', y, hp⟩
  · subst hp
    have := List.append_inj' hq (by simp)
    obtain ⟨e1, e2⟩ := this
    simp only [List.cons.injEq, and_true] at e2
    subst e1; subst e2
    exact h1 hcp
  · subst hp
    have hq' : q ++ [e] = (pre ++ x :: post') ++ [y] := by
      rw [hq]; simp
    have := List.append_inj' hq' (by simp)
    exact hl pre x post' this.1 hcp (fun z hz => hlast z (by simp [hz]))

theorem LastCopy.reheap {h g : Heap} {q : List EditStep} (hl : LastCopy h q)
    (hg : ∀ e ∈ q, e.op = "cp" → (g e.acting).dstParent = (h e.acting).dstParent) :
    LastCopy g q := by
  intro pre e post hq hcp hlast
  rw [hg e (by rw [hq]; simp) hcp]
  exact hl pre e post hq hcp hlast

/-- Appending a `Copy` of `s` after its `dstParent` is set to the destination. -/
theorem LastCopy.commit {h : Heap} {q : List EditStep} (hl : LastCopy h q) (g : Heap)
    (e : EditStep) (h1 : (g e.acting).dstParent = some e.dst)
    (hg : ∀ a, a ≠ e.acting → (g a).dstParent = (h a).dstParent) (he : e.op = "cp") :
    LastCopy g (q ++ [e]) := by
  intro pre x post hq hcp hlast
  rcases List.eq_nil_or_concat post with hp | ⟨post', y, hp⟩
  · subst hp
    have := List.append_inj' hq (by simp)
    obtain ⟨e1, e2⟩ := this
    simp only [List.cons.injEq, and_true] at e2
    subst e1; subst e2
    exact h1
  · subst hp
    have hq' : q ++ [e] = (pre ++ x :: post') ++ [y] := by
      rw [hq]; simp
    have := List.append_inj' hq' (by simp)
    obtain ⟨e1, e2⟩ := this
    simp only [List.cons.injEq, and_true] at e2
    subst e2
    have hne : x.acting ≠ e.acting := fun c => hlast e (by simp) he c.symm
    rw [hg _ hne]
    exact hl pre x post' e1 hcp (fun z hz => hlast z (by simp [hz]))

theorem Ctx.mono {h0 : Heap} {root : Nat} {P Q : Nat → Prop} {st : Planner}
    (hc : Ctx h0 root P st) (hq : ∀ a, Q a → P a) : Ctx h0 root Q st :=
  { ordered := hc.ordered
    dst_made := hc.dst_made
    made_lt := hc.made_lt
    pend := fun a ha => hc.pend a (hq a ha)
    cp_dst := hc.cp_dst
    free_dst := hc.free_dst
    made_dir := hc.made_dir
    made_path := hc.made_path
    dst_par := hc.dst_par
    pend_par := fun a ha => hc.pend_par a (hq a ha)
    planned := hc.planned
    cp_last := hc.cp_last
    cp_vis := fun e he hcp hp => hc.cp_vis e he hcp (hq _ hp)
    ops := hc.ops }

theorem Ctx.attr {h0 : Heap} {root : Nat} {P : Nat → Prop} {st : Planner}
    (hc : Ctx h0 root P st) (g : Heap)
    (hch : ∀ a, (g a).children = (st.heap a).children)
    (hpa : ∀ a, (g a).parent = (st.heap a).parent)
    (hty : ∀ a, (g a).type = (st.heap a).type)
    (hnm : ∀ a, (g a).name = (st.heap a).name)
    (hpt : ∀ a, (g a).path = (st.heap a).path)
    (hdp : ∀ a, (g a).dstParent = (st.heap a).dstParent ∨
      ∃ d, (g a).dstParent = some d ∧ Made st.editSteps d ∧ a < st.next ∧
        (st.heap a).parent ≠ none ∧ ∀ e ∈ st.editSteps, e.op = "cp" → e.acting ≠ a) :
    Ctx h0 root P { st with heap := g } := by
  refine
    { ordered := hc.ordered.heap (fun a _ => hpa a)
      dst_made := ?_
      made_lt := hc.made_lt
      pend := ?_
      cp_dst := ?_
      free_dst := ?_
      made_dir := fun d hd => (hty d).trans (hc.made_dir d hd)
      made_path := ?_
      dst_par := ?_
      pend_par := ?_
      planned := hc.planned
      cp_last := ?_
      cp_vis := hc.cp_vis
      ops := hc.ops }
  · intro a d had
    rcases hdp a with h1 | ⟨d', h1, h2, -⟩
    · exact hc.dst_made a d (h1 ▸ had)
    · simp only [h1, Option.some.injEq] at had
      subst had
      exact h2
  · intro a ha
    obtain ⟨h1, h2, h3⟩ := hc.pend a ha
    exact ⟨(hch a).trans h1, h2, h3⟩
  · intro e he hcp
    obtain ⟨d, hd⟩ := hc.cp_dst e he hcp
    rcases hdp e.acting with h1 | ⟨d', h1, -, -⟩
    · exact ⟨d, h1.trans hd⟩
    · exact ⟨d', h1⟩
  · intro a ha
    rcases hdp a with h1 | ⟨d', -, -, h3, -⟩
    · exact h1.trans (hc.free_dst a ha)
    · simp only at ha
      omega
  · intro d hd hr
    obtain ⟨p, h1, h2⟩ := hc.made_path d hd hr
    refine ⟨p, (hpa d).trans h1, ?_⟩
    show (g d).path = (g p).path ++ "/" ++ (g d).name
    rw [hpt d, hpt p, hnm d]
    exact h2
  · intro a d had
    show (g a).parent ≠ none
    rw [hpa a]
    rcases hdp a with h1 | ⟨d', -, -, -, h4, -⟩
    · exact hc.dst_par a d (h1 ▸ had)
    · exact h4
  · intro a ha hp
    show (g a).parent ≠ none
    rw [hpa a]
    exact hc.pend_par a ha hp
  · apply hc.cp_last.reheap
    intro e he hcp
    rcases hdp e.acting with h1 | ⟨d', -, -, -, -, h5⟩
    · exact h1
    · exact absurd rfl (h5 e he hcp)

theorem Ctx.addSup {h0 : Heap} {root : Nat} {P : Nat → Prop} {st : Planner}
    (hc : Ctx h0 root P st) (p : Option Nat) : Ctx h0 root P (st.addSup p) :=
  { ordered := hc.ordered
    dst_made := hc.dst_made
    made_lt := hc.made_lt
    pend := hc.pend
    cp_dst := hc.cp_dst
    free_dst := hc.free_dst
    made_dir := hc.made_dir
    made_path := hc.made_path
    dst_par := hc.dst_par
    pend_par := hc.pend_par
    planned := hc.planned
    cp_last := hc.cp_last
    cp_vis := hc.cp_vis
    ops := hc.ops }

theorem Ctx.setDst {h0 : Heap} {root : Nat} {P : Nat → Prop} {st : Planner}
    (hc : Ctx h0 root P st) (x d : Nat) (hm : Made st.editSteps d) (hx : x < st.next)
    (hp : (st.heap x).parent ≠ none) (hn : ∀ e ∈ st.editSteps, e.op = "cp" → e.acting ≠ x) :
    Ctx h0 root P { st with heap := setDstParent st.heap x (some d) } := by
  apply hc.attr
  · intro a; simp
  · intro a; simp
  · intro a; simp
  · intro a; simp
  · intro a; simp
  · intro a
    rw [setDstParent_dstParent]
    by_cases hax : a = x
    · right
      subst hax
      exact ⟨d, by simp, hm, hx, hp, hn⟩
    · left
      simp [hax]

theorem Ctx.makeSub {h0 : Heap} {root : Nat} {P : Nat → Prop} {st : Planner}
    (hc : Ctx h0 root P st) (x s : Nat) :
    Ctx h0 root P { st with heap := makeSub st.heap x s } := by
  apply hc.attr
  · intro a; simp
  · intro a; simp
  · intro a; simp
  · intro a; simp
  · intro a; simp
  · intro a
    left
    rw [makeSub_dstParent]

theorem Ctx.setParent {h0 : Heap} {root : Nat} {P : Nat → Prop} {st : Planner}
    (hc : Ctx h0 root P st) (x p : Nat) (hx : ¬ Made st.editSteps x) :
    Ctx h0 root P { st with heap := setParent st.heap x (some p) } := by
  refine
    { ordered := hc.ordered.heap ?_
      dst_made := ?_
      made_lt := hc.made_lt
      pend := ?_
      cp_dst := ?_
      free_dst := ?_
      made_dir := ?_
      made_path := ?_
      dst_par := ?_
      pend_par := ?_
      planned := hc.planned
      cp_last := ?_
      cp_vis := hc.cp_vis
      ops := hc.ops }
  · intro a ha
    simp only
    rw [setParent_parent]
    have : a ≠ x := fun e => hx (e ▸ ha)
    simp [this]
  · intro a d had
    simp only [setParent_dstParent] at had
    exact hc.dst_made a d had
  · intro a ha
    obtain ⟨h1, h2, h3⟩ := hc.pend a ha
    exact ⟨by simp only [setParent_children]; exact h1, h2, h3⟩
  · intro e he hcp
    simp only [setParent_dstParent]
    exact hc.cp_dst e he hcp
  · intro a ha
    simp only [setParent_dstParent]
    exact hc.free_dst a ha
  · intro d hd
    simp only [setParent_type]
    exact hc.made_dir d hd
  · intro d hd hr
    obtain ⟨q, h1, h2⟩ := hc.made_path d hd hr
    obtain ⟨q', h3, h4⟩ := hc.ordered.parent_made hd hr
    have hqq : q' = q := by
      rw [h1] at h3
      exact (Option.some.inj h3).symm
    subst hqq
    have hdx : d ≠ x := fun e => hx (e ▸ hd)
    have hqx : q' ≠ x := fun e => hx (e ▸ h4)
    refine ⟨q', ?_, ?_⟩
    · simp only [setParent_parent, hdx, if_false]
      exact h1
    · simp only [setParent_name]
      rw [setParent_path_other _ _ _ _ hdx, setParent_path_other _ _ _ _ hqx]
      exact h2
  · intro a d had
    simp only [setParent_dstParent] at had
    simp only [setParent_parent]
    split
    · simp
    · exact hc.dst_par a d had
  · intro a ha hp
    simp only [setParent_parent]
    split
    · simp
    · exact hc.pend_par a ha hp
  · apply hc.cp_last.reheap
    intro e _ _
    simp only [setParent_dstParent]

theorem Ctx.pushNode {h0 : Heap} {root : Nat} {P : Nat → Prop} {st : Planner}
    (hc : Ctx h0 root P st) (nd : FsNode) (hnd : nd.dstParent = none) :
    Ctx h0 root P (st.pushNode nd).1 := by
  have hold : ∀ a, a < st.next → (st.pushNode nd).1.heap a = st.heap a := by
    intro a ha
    simp [Planner.pushNode, Nat.ne_of_lt ha]
  have hdst : ∀ a d, (st.heap a).dstParent = some d → a < st.next := by
    intro a d had
    by_contra hge
    have := hc.free_dst a (by omega)
    rw [had] at this
    cases this
  refine
    { ordered := hc.ordered.heap ?_
      dst_made := ?_
      made_lt := ?_
      pend := ?_
      cp_dst := ?_
      free_dst := ?_
      made_dir := ?_
      made_path := ?_
      dst_par := ?_
      pend_par := ?_
      planned := ?_
      cp_last := ?_
      cp_vis := hc.cp_vis
      ops := hc.ops }
  · intro a ha
    rw [hold a (hc.made_lt a ha)]
  · intro a d had
    simp only [Planner.pushNode, Heap.get_set] at had
    by_cases e : a = st.next
    · simp [e, hnd] at had
    · simp only [e, if_false] at had
      exact hc.dst_made a d had
  · intro d hd
    have := hc.made_lt d hd
    simp only [Planner.pushNode]
    omega
  · intro a ha
    obtain ⟨h1, h2, h3⟩ := hc.pend a ha
    refine ⟨?_, h2, ?_⟩
    · rw [hold a h3]
      exact h1
    · simp only [Planner.pushNode]
      omega
  · intro e he hcp
    obtain ⟨d, hd⟩ := hc.cp_dst e he hcp
    exact ⟨d, by rw [hold _ (hdst _ _ hd)]; exact hd⟩
  · intro a ha
    simp only [Planner.pushNode] at ha
    have hne : a ≠ st.next := by omega
    simp only [Planner.pushNode, Heap.get_set, hne, if_false]
    exact hc.free_dst a (by omega)
  · intro d hd
    rw [hold d (hc.made_lt d hd)]
    exact hc.made_dir d hd
  · intro d hd hr
    obtain ⟨q, h1, h2⟩ := hc.made_path d hd hr
    obtain ⟨q', h3, h4⟩ := hc.ordered.parent_made hd hr
    have hqq : q' = q := by
      rw [h1] at h3
      exact (Option.some.inj h3).symm
    subst hqq
    refine ⟨q', ?_, ?_⟩
    · rw [hold d (hc.made_lt d hd)]
      exact h1
    · rw [hold d (hc.made_lt d hd), hold q' (hc.made_lt q' h4)]
      exact h2
  · intro a d had
    by_cases e : a = st.next
    · subst e
      simp [Planner.pushNode, hnd] at had
    · have h1 : (st.pushNode nd).1.heap a = st.heap a := by
        simp [Planner.pushNode, e]
      rw [h1] at had ⊢
      exact hc.dst_par a d had
  · intro a ha hp
    rw [hold a (hc.pend a ha).2.2]
    exact hc.pend_par a ha hp
  · exact List.mem_append_left _ hc.planned
  · apply hc.cp_last.reheap
    intro e he hcp
    obtain ⟨d, hd⟩ := hc.cp_dst e he hcp
    rw [hold _ (hdst _ _ hd)]

theorem Ctx.pushMkdir {h0 : Heap} {root : Nat} {P : Nat → Prop} {st : Planner}
    (hc : Ctx h0 root P st) (x p : Nat) (hp : (st.heap x).parent = some p)
    (hm : Made st.editSteps p) (hx : x < st.next) (hpx : ¬ P x)
    (ht : (st.heap x).type = "dir")
    (hpath : (st.heap x).path = (st.heap p).path ++ "/" ++ (st.heap x).name) :
    Ctx h0 root P { st with editSteps := st.editSteps ++ [mkdirStep st.heap x] } := by
  refine
    { ordered := hc.ordered.snoc_mkdir _ x p hp hm
      dst_made := ?_
      made_lt := ?_
      pend := ?_
      cp_dst := ?_
      free_dst := hc.free_dst
      made_dir := ?_
      made_path := ?_
      dst_par := hc.dst_par
      pend_par := hc.pend_par
      planned := hc.planned
      cp_last := hc.cp_last.push _ (fun hcp => by simp [mkdirStep] at hcp)
      cp_vis := ?_
      ops := fun e he => (List.mem_append.mp he).elim (hc.ops e)
        (fun h1 => by rw [List.mem_singleton.mp h1]; exact Or.inl rfl) }
  · intro a d had
    exact (hc.dst_made a d had).append_left _
  · intro d hd
    rcases (made_snoc_mkdir _ _ _ _).mp hd with h1 | h1
    · exact hc.made_lt d h1
    · subst h1; exact hx
  · intro a ha
    obtain ⟨h1, h2, h3⟩ := hc.pend a ha
    refine ⟨h1, ?_, h3⟩
    intro hmk
    rcases (made_snoc_mkdir _ _ _ _).mp hmk with h4 | h4
    · exact h2 h4
    · subst h4; exact hpx ha
  · intro e he hcp
    simp only [List.mem_append, List.mem_singleton] at he
    rcases he with he | he
    · exact hc.cp_dst e he hcp
    · subst he
      simp [mkdirStep] at hcp
  · intro d hd
    rcases (made_snoc_mkdir _ _ _ _).mp hd with h1 | h1
    · exact hc.made_dir d h1
    · subst h1; exact ht
  · intro d hd hr
    rcases (made_snoc_mkdir _ _ _ _).mp hd with h1 | h1
    · exact hc.made_path d h1 hr
    · subst h1
      exact ⟨p, hp, hpath⟩
  · intro e he hcp
    simp only [List.mem_append, List.mem_singleton] at he
    rcases he with he | he
    · exact hc.cp_vis e he hcp
    · subst he
      simp [mkdirStep] at hcp

theorem Ctx.pushCp {h0 : Heap} {root : Nat} {P : Nat → Prop} {st : Planner}
    (hc : Ctx h0 root P st) (s d : Nat) (hm : Made st.editSteps d)
    (hs : (st.heap s).dstParent = some d) (hns : ¬ P s) :
    Ctx h0 root P { st with editSteps := st.editSteps ++ [cpStep st.heap s d] } := by
  refine
    { ordered := hc.ordered.snoc_cp _ s d hm
      dst_made := ?_
      made_lt := ?_
      pend := ?_
      cp_dst := ?_
      free_dst := hc.free_dst
      made_dir := fun e he => hc.made_dir e ((made_snoc_cp _ _ _ _ _).mp he)
      made_path := fun e he => hc.made_path e ((made_snoc_cp _ _ _ _ _).mp he)
      dst_par := hc.dst_par
      pend_par := hc.pend_par
      planned := hc.planned
      cp_last := hc.cp_last.push _ (fun _ => hs)
      cp_vis := ?_
      ops := fun e he => (List.mem_append.mp he).elim (hc.ops e)
        (fun h1 => by rw [List.mem_singleton.mp h1]; exact Or.inr rfl) }
  · intro a e hae
    exact (hc.dst_made a e hae).append_left _
  · intro e he
    exact hc.made_lt e ((made_snoc_cp _ _ _ _ _).mp he)
  · intro a ha
    obtain ⟨h1, h2, h3⟩ := hc.pend a ha
    exact ⟨h1, fun hmk => h2 ((made_snoc_cp _ _ _ _ _).mp hmk), h3⟩
  · intro e he hcp
    simp only [List.mem_append, List.mem_singleton] at he
    rcases he with he | he
    · exact hc.cp_dst e he hcp
    · subst he
      exact ⟨d, hs⟩
  · intro e he hcp
    simp only [List.mem_append, List.mem_singleton] at he
    rcases he with he | he
    · exact hc.cp_vis e he hcp
    · subst he
      exact hns

/-- The statements `m->setDstParent(d)` and `editSteps.push(EditStep("cp", m, d))` in a row. -/
theorem Ctx.commitCp {h0 : Heap} {root : Nat} {P : Nat → Prop} {st : Planner}
    (hc : Ctx h0 root P st) (m d : Nat) (hm : Made st.editSteps d) (hx : m < st.next)
    (hp : (st.heap m).parent ≠ none) (hns : ¬ P m) :
    Ctx h0 root P
      { st with heap := setDstParent st.heap m (some d),
                editSteps := st.editSteps ++ [cpStep (setDstParent st.heap m (some d)) m d] } := by
  refine
    { ordered := (hc.ordered.heap (g := setDstParent st.heap m (some d))
        (fun a _ => by simp)).snoc_cp _ m d hm
      dst_made := ?_
      made_lt := ?_
      pend := ?_
      cp_dst := ?_
      free_dst := ?_
      made_dir := ?_
      made_path := ?_
      dst_par := ?_
      pend_par := ?_
      planned := hc.planned
      cp_last := ?_
      cp_vis := ?_
      ops := fun e he => (List.mem_append.mp he).elim (hc.ops e)
        (fun h1 => by rw [List.mem_singleton.mp h1]; exact Or.inr rfl) }
  · intro a e hae
    simp only [setDstParent_dstParent] at hae
    split at hae
    · simp only [Option.some.injEq] at hae
      subst hae
      exact hm.append_left _
    · exact (hc.dst_made a e hae).append_left _
  · intro e he
    exact hc.made_lt e ((made_snoc_cp _ _ _ _ _).mp he)
  · intro a ha
    obtain ⟨h1, h2, h3⟩ := hc.pend a ha
    exact ⟨by simp only [setDstParent_children]; exact h1,
      fun hmk => h2 ((made_snoc_cp _ _ _ _ _).mp hmk), h3⟩
  · intro e he hcp
    simp only [setDstParent_dstParent]
    split
    · exact ⟨d, rfl⟩
    · simp only [List.mem_append, List.mem_singleton] at he
      rcases he with he | he
      · exact hc.cp_dst e he hcp
      · subst he
        simp [cpStep] at *
  · intro a ha
    simp only at ha
    have hne : a ≠ m := by omega
    simp only [setDstParent_dstParent, hne, if_false]
    exact hc.free_dst a ha
  · intro e he
    simp only [setDstParent_type]
    exact hc.made_dir e ((made_snoc_cp _ _ _ _ _).mp he)
  · intro e he hr
    obtain ⟨q, h1, h2⟩ := hc.made_path e ((made_snoc_cp _ _ _ _ _).mp he) hr
    exact ⟨q, by simp only [setDstParent_parent]; exact h1,
      by simp only [setDstParent_path, setDstParent_name]; exact h2⟩
  · intro a e hae
    simp only [setDstParent_parent]
    simp only [setDstParent_dstParent] at hae
    split at hae
    · rename_i e1
      rw [e1]
      exact hp
    · exact hc.dst_par a e hae
  · intro a ha hpa
    simp only [setDstParent_parent]
    exact hc.pend_par a ha hpa
  · apply hc.cp_last.commit
    · simp [cpStep, setDstParent_dstParent]
    · intro a ha
      simp only [cpStep] at ha
      simp [setDstParent_dstParent, ha]
    · rfl
  · intro e he hcp
    simp only [List.mem_append, List.mem_singleton] at he
    rcases he with he | he
    · exact hc.cp_vis e he hcp
    · subst he
      exact hns

theorem Ctx.setChildren {h0 : Heap} {root : Nat} {P : Nat → Prop} {st : Planner}
    (hc : Ctx h0 root P st) (x : Nat) (f : FsNode → List (String × Nat)) (hx : ¬ P x) :
    Ctx h0 root P
      { st with heap := st.heap.modify x (fun n => { n with children := f n }) } := by
  have hdp : ∀ a, ((st.heap.modify x (fun n => { n with children := f n })) a).dstParent =
      (st.heap a).dstParent := fun a => modify_proj FsNode.dstParent _ _ _ a (fun _ => rfl)
  have hty : ∀ a, ((st.heap.modify x (fun n => { n with children := f n })) a).type =
      (st.heap a).type := fun a => modify_proj FsNode.type _ _ _ a (fun _ => rfl)
  have hpa : ∀ a, ((st.heap.modify x (fun n => { n with children := f n })) a).parent =
      (st.heap a).parent := fun a => modify_proj FsNode.parent _ _ _ a (fun _ => rfl)
  have hnm : ∀ a, ((st.heap.modify x (fun n => { n with children := f n })) a).name =
      (st.heap a).name := fun a => modify_proj FsNode.name _ _ _ a (fun _ => rfl)
  have hpt : ∀ a, ((st.heap.modify x (fun n => { n with children := f n })) a).path =
      (st.heap a).path := fun a => modify_proj FsNode.path _ _ _ a (fun _ => rfl)
  refine
    { ordered := hc.ordered.heap (fun a _ => hpa a)
      dst_made := ?_
      made_lt := hc.made_lt
      pend := ?_
      cp_dst := ?_
      free_dst := ?_
      made_dir := fun d hd => (hty d).trans (hc.made_dir d hd)
      made_path := ?_
      dst_par := ?_
      pend_par := ?_
      planned := hc.planned
      cp_last := hc.cp_last.reheap (fun e _ _ => hdp e.acting)
      cp_vis := hc.cp_vis
      ops := hc.ops }
  · intro a d had
    exact hc.dst_made a d (hdp a ▸ had)
  · intro a ha
    obtain ⟨h1, h2, h3⟩ := hc.pend a ha
    refine ⟨?_, h2, h3⟩
    have : a ≠ x := fun e => hx (e ▸ ha)
    simp only [Heap.get_modify, this, if_false]
    exact h1
  · intro e he hcp
    obtain ⟨d, hd⟩ := hc.cp_dst e he hcp
    exact ⟨d, (hdp e.acting).trans hd⟩
  · intro a ha
    exact (hdp a).trans (hc.free_dst a ha)
  · intro d hd hr
    obtain ⟨p, h1, h2⟩ := hc.made_path d hd hr
    refine ⟨p, (hpa d).trans h1, ?_⟩
    show ((st.heap.modify x (fun n => { n with children := f n })) d).path =
      ((st.heap.modify x (fun n => { n with children := f n })) p).path ++ "/" ++
        ((st.heap.modify x (fun n => { n with children := f n })) d).name
    rw [hpt d, hpt p, hnm d]
    exact h2
  · intro a d had
    show ((st.heap.modify x (fun n => { n with children := f n })) a).parent ≠ none
    rw [hpa a]
    exact hc.dst_par a d (hdp a ▸ had)
  · intro a ha hp
    show ((st.heap.modify x (fun n => { n with children := f n })) a).parent ≠ none
    rw [hpa a]
    exact hc.pend_par a ha hp

theorem Ctx.setIsSub {h0 : Heap} {root : Nat} {P : Nat → Prop} {st : Planner}
    (hc : Ctx h0 root P st) (x : Nat) (b : Bool) :
    Ctx h0 root P { st with heap := st.heap.modify x (fun n => { n with isSub := b }) } := by
  apply hc.attr
  · intro a; exact modify_proj FsNode.children _ _ _ a (fun _ => rfl)
  · intro a; exact modify_proj FsNode.parent _ _ _ a (fun _ => rfl)
  · intro a; exact modify_proj FsNode.type _ _ _ a (fun _ => rfl)
  · intro a; exact modify_proj FsNode.name _ _ _ a (fun _ => rfl)
  · intro a; exact modify_proj FsNode.path _ _ _ a (fun _ => rfl)
  · intro a
    left
    exact modify_proj FsNode.dstParent _ _ _ a (fun _ => rfl)

/-! ## Phase C preserves the planner invariant -/

theorem create_dstParent (h : Heap) (n : String) (p : Option Nat) (t : String) :
    (FsNode.create h n p t).dstParent = none := by
  cases p <;> rfl

theorem create_parent (h : Heap) (n : String) (p : Option Nat) (t : String) :
    (FsNode.create h n p t).parent = p := by
  cases p <;> rfl

theorem create_type (h : Heap) (n : String) (p : Option Nat) (t : String) :
    (FsNode.create h n p t).type = t := by
  cases p <;> rfl

theorem create_children (h : Heap) (n : String) (p : Option Nat) (t : String) :
    (FsNode.create h n p t).children = [] := by
  cases p <;> rfl

theorem create_name (h : Heap) (n : String) (p : Option Nat) (t : String) :
    (FsNode.create h n p t).name = n := by
  cases p <;> rfl

theorem create_path (h : Heap) (n : String) (p : Nat) (t : String) :
    (FsNode.create h n (some p) t).path = (h p).path ++ "/" ++ n := rfl

theorem pushStep_none_dst (st : Planner) (o : String) (s : Option Nat) :
    st.pushStep o s none = none := by
  simp [Planner.pushStep, EditStep.create]

theorem histBody_ctx {h0 : Heap} {root : Nat} {st st1 : Planner} (hist m : Nat)
    (hc : Ctx h0 root (fun _ => False) st) (hm : Made st.editSteps hist)
    (h : histBody hist m st = some st1) :
    Ctx h0 root (fun _ => False) st1 ∧ Made st1.editSteps hist := by
  unfold histBody at h
  cases hd : (st.heap m).dstParent with
  | none => rw [hd] at h; cases h
  | some d =>
    rw [hd] at h
    simp only [pushStep_cp, Option.some.injEq] at h
    subst h
    have hc1 := hc.setChildren d (fun n => mapErase n.children (st.heap m).name) (fun f => f)
    have hml : m < st.next := by
      by_contra hge
      have := hc.free_dst m (by omega)
      rw [hd] at this
      cases this
    have hd1 : ((st.heap.modify d
        (fun p => { p with children := mapErase p.children (st.heap m).name })) m).dstParent =
        (st.heap m).dstParent := modify_proj FsNode.dstParent _ _ _ m (fun _ => rfl)
    have hc3 := hc1.commitCp m hist hm hml (hc1.dst_par m d (hd1.trans hd)) (fun f => f)
    have hc4 := hc3.setChildren hist
      (fun n => mapInsert n.children
        ((setDstParent (st.heap.modify d
          (fun p => { p with children := mapErase p.children (st.heap m).name })) m
            (some hist)) m).name m) (fun f => f)
    exact ⟨hc4, hm.append_left _⟩

theorem histLoop_ctx {h0 : Heap} {root : Nat} (hist : Nat) :
    ∀ (n : Nat) (pq : List Nat) (st st' : Planner),
      Ctx h0 root (fun _ => False) st → Made st.editSteps hist →
      histLoop hist n pq st = some st' →
      Ctx h0 root (fun _ => False) st' ∧ Made st'.editSteps hist := by
  intro n
  induction n with
  | zero =>
    intro pq st st' hc hm h
    simp only [histLoop, Option.some.injEq] at h
    subst h
    exact ⟨hc, hm⟩
  | succ n ih =>
    intro pq st st' hc hm h
    simp only [histLoop] at h
    cases ht : pqTop st.heap pq with
    | none =>
      rw [ht] at h
      simp only at h
      split at h
      · simp only [Option.some.injEq] at h
        subst h
        exact ⟨hc, hm⟩
      · cases h
    | some m =>
      rw [ht] at h
      simp only at h
      cases hb : histBody hist m st with
      | none => rw [hb] at h; cases h
      | some st1 =>
        rw [hb] at h
        obtain ⟨hc1, hm1⟩ := histBody_ctx hist m hc hm hb
        exact ih _ _ _ hc1 hm1 h

theorem makeFileHist_ctx {h0 : Heap} {root : Nat} {st st' : Planner} (fuel : Nat)
    (src : Option Nat) (hc : Ctx h0 root (fun _ => False) st)
    (h : makeFileHist fuel src st = some st') : Ctx h0 root (fun _ => False) st' := by
  unfold makeFileHist at h
  cases src with
  | none => cases h
  | some s =>
    simp only at h
    cases htr : traverseSubs st.heap fuel s [] with
    | none => rw [htr] at h; cases h
    | some pq =>
      rw [htr] at h
      simp only at h
      cases htop : pqTop st.heap pq with
      | none => rw [htop] at h; cases h
      | some sup =>
        rw [htop] at h
        simp only [Planner.pushNode, pushStep_mkdir] at h
        cases hd : (st.heap sup).dstParent with
        | none =>
          exfalso
          by_cases e : sup = st.next
          · simp [e, create_dstParent] at h
          · simp [e, hd] at h
        | some d =>
          have hmd : Made st.editSteps d := hc.dst_made sup d hd
          have hsn : sup ≠ st.next := by
            intro e
            simp [e, create_dstParent] at h
          rw [hd] at h
          have hd2 : ((st.heap.set st.next
              (FsNode.create st.heap ("." ++ (st.heap sup).name ++ "_hist") (some d) "dir"))
                sup).dstParent = some d := by
            rw [Heap.get_set_other _ _ _ _ hsn]; exact hd
          rw [hd2] at h
          simp only at h
          have hc1 := hc.pushNode
            (FsNode.create st.heap ("." ++ (st.heap sup).name ++ "_hist") (some d) "dir")
            (create_dstParent _ _ _ _)
          have hc2 := hc1.pushMkdir st.next d
            (by simp [Planner.pushNode, create_parent])
            (by simpa [Planner.pushNode] using hmd)
            (by simp [Planner.pushNode]) (fun f => f)
            (by simp [Planner.pushNode, create_type])
            (by
              have hdn : d ≠ st.next := Nat.ne_of_lt (hc.made_lt d hmd)
              simp [Planner.pushNode, create_path, create_name, hdn])
          have hmh : Made (st.editSteps ++ [mkdirStep
              (st.heap.set st.next (FsNode.create st.heap ("." ++ (st.heap sup).name ++ "_hist")
                (some d) "dir")) st.next]) st.next :=
            (made_snoc_mkdir _ _ _ _).mpr (Or.inr rfl)
          have hc3 := hc2.setChildren d
            (fun n => mapInsert n.children ((st.heap.set st.next
              (FsNode.create st.heap ("." ++ (st.heap sup).name ++ "_hist") (some d) "dir"))
                st.next).name st.next) (fun f => f)
          simp only [Planner.pushNode] at hc3
          cases hl : histLoop st.next (pq.erase sup).length (pq.erase sup)
              { heap := (st.heap.set st.next
                  (FsNode.create st.heap ("." ++ (st.heap sup).name ++ "_hist") (some d)
                    "dir")).modify d
                  (fun p => { p with children := mapInsert p.children ((st.heap.set st.next
                    (FsNode.create st.heap ("." ++ (st.heap sup).name ++ "_hist") (some d)
                      "dir")) st.next).name st.next }),
                next := st.next + 1, plannedNode := st.plannedNode ++ [st.next],
                editSteps := st.editSteps ++ [mkdirStep (st.heap.set st.next
                  (FsNode.create st.heap ("." ++ (st.heap sup).name ++ "_hist") (some d)
                    "dir")) st.next],
                sups := st.sups } with
          | none => rw [hl] at h; cases h
          | some st4 =>
            rw [hl] at h
            simp only at h
            obtain ⟨hc4, -⟩ := histLoop_ctx st.next _ _ _ _ hc3 hmh hl
            cases hd4 : (st4.heap sup).dstParent with
            | none => rw [hd4, pushStep_none_dst] at h; cases h
            | some d4 =>
              rw [hd4, pushStep_cp] at h
              simp only [hd4, Option.some.injEq] at h
              subst h
              have hm4 := hc4.dst_made sup d4 hd4
              have hc5 := hc4.pushCp sup d4 hm4 hd4 (fun f => f)
              have hc6 := hc5.setChildren d4
                (fun n => mapInsert n.children (st4.heap sup).name sup) (fun f => f)
              exact hc6.setIsSub sup false

theorem phaseC_ctx {h0 : Heap} {root : Nat} (fuel : Nat) :
    ∀ (sups : List (Option Nat)) (st st' : Planner),
      Ctx h0 root (fun _ => False) st → phaseC fuel sups st = some st' →
      Ctx h0 root (fun _ => False) st' := by
  intro sups
  induction sups with
  | nil =>
    intro st st' hc h
    simp only [phaseC, Option.some.injEq] at h
    subst h; exact hc
  | cons s ss ih =>
    intro st st' hc h
    simp only [phaseC] at h
    cases hm : makeFileHist fuel s st with
    | none => rw [hm] at h; cases h
    | some st1 =>
      rw [hm] at h
      exact ih _ _ (makeFileHist_ctx fuel s hc hm) h

theorem mem_setInsert {α : Type} [DecidableEq α] (s : List α) (x y : α) :
    y ∈ setInsert s x ↔ y ∈ s ∨ y = x := by
  unfold setInsert
  by_cases h : x ∈ s
  · simp only [h, if_true]
    constructor
    · exact Or.inl
    · rintro (h1 | h1)
      · exact h1
      · subst h1; exact h
  · simp [h]

/-! ## Paths of the scanned files: the primitive operations -/

theorem Clean.isFile {h0 : Heap} {n0 : Nat} {st : Planner} (hk : Clean h0 n0 st) {a : Nat}
    (hlt : a < st.next) (ht : (st.heap a).type ≠ "dir") : IsFile h0 n0 a := by
  have hn : a < n0 := by
    by_contra hge
    exact ht (hk.new_dir a (by omega) hlt)
  exact ⟨hn, by rw [← hk.types a hn]; exact ht⟩

theorem Clean.not_file {h0 : Heap} {n0 : Nat} {st : Planner} (hk : Clean h0 n0 st) {a : Nat}
    (ht : (st.heap a).type = "dir") : ¬ IsFile h0 n0 a := by
  intro hf
  exact hf.2 (by rw [← hk.types a hf.1]; exact ht)

/-- A change of the heap that keeps types, the paths of scanned files and the hierarchies. -/
theorem Clean.after_attr {h0 : Heap} {n0 : Nat} {st : Planner} (hk : Clean h0 n0 st) (g : Heap)
    (hty : ∀ a, (g a).type = (st.heap a).type)
    (hpt : ∀ a, IsFile h0 n0 a → (g a).path = (st.heap a).path)
    (hsub : ∀ a, ∀ s ∈ (g a).subordinates, IsFile h0 n0 s)
    (htop : ∀ a t, (g a).topSup = some t → IsFile h0 n0 t) :
    Clean h0 n0 { st with heap := g } :=
  { bound := hk.bound
    types := fun a ha => (hty a).trans (hk.types a ha)
    new_dir := fun a h1 h2 => (hty a).trans (hk.new_dir a h1 h2)
    file_path := fun a ha => (hpt a ha).trans (hk.file_path a ha)
    cp_src := hk.cp_src
    subs := hsub
    tops := htop
    sups := hk.sups }

theorem setParent_subordinates (h : Heap) (x : Nat) (p : Option Nat) (a : Nat) :
    (setParent h x p a).subordinates = (h a).subordinates := by
  cases p <;> by_cases e : a = x <;> simp [setParent, e]

theorem setParent_topSup (h : Heap) (x : Nat) (p : Option Nat) (a : Nat) :
    (setParent h x p a).topSup = (h a).topSup := by
  cases p <;> by_cases e : a = x <;> simp [setParent, e]

theorem setDstParent_subordinates (h : Heap) (x : Nat) (p : Option Nat) (a : Nat) :
    (setDstParent h x p a).subordinates = (h a).subordinates := by
  cases p <;> by_cases e : a = x <;> simp [setDstParent, e]

theorem setDstParent_topSup (h : Heap) (x : Nat) (p : Option Nat) (a : Nat) :
    (setDstParent h x p a).topSup = (h a).topSup := by
  cases p <;> by_cases e : a = x <;> simp [setDstParent, e]

theorem Clean.after_setParent {h0 : Heap} {n0 : Nat} {st : Planner} (hk : Clean h0 n0 st)
    (x : Nat) (p : Option Nat) (ht : (st.heap x).type = "dir") :
    Clean h0 n0 { st with heap := setParent st.heap x p } := by
  refine hk.after_attr _ (fun a => by simp) ?_ ?_ ?_
  · intro a ha
    have hne : a ≠ x := fun e => hk.not_file ht (e ▸ ha)
    exact setParent_path_other _ _ _ _ hne
  · intro a s hs
    rw [setParent_subordinates] at hs
    exact hk.subs a s hs
  · intro a t h1
    rw [setParent_topSup] at h1
    exact hk.tops a t h1

theorem Clean.after_setDst {h0 : Heap} {n0 : Nat} {st : Planner} (hk : Clean h0 n0 st)
    (x : Nat) (p : Option Nat) :
    Clean h0 n0 { st with heap := setDstParent st.heap x p } := by
  refine hk.after_attr _ (fun a => by simp) (fun a _ => by simp) ?_ ?_
  · intro a s hs
    rw [setDstParent_subordinates] at hs
    exact hk.subs a s hs
  · intro a t h1
    rw [setDstParent_topSup] at h1
    exact hk.tops a t h1

theorem makeSub_subordinates_mem (h : Heap) (x s a y : Nat)
    (hy : y ∈ (makeSub h x s a).subordinates) : y ∈ (h a).subordinates ∨ y = x := by
  by_cases c1 : a = x
  · subst c1
    by_cases c2 : a = s
    · subst c2
      simpa [makeSub] using hy
    · have : s ≠ a := fun e => c2 e.symm
      left
      simpa [makeSub, c2, this] using hy
  · by_cases c3 : a = s
    · subst c3
      simpa [makeSub, c1] using hy
    · left
      simpa [makeSub, c1, c3] using hy

theorem makeSub_topSup_cases (h : Heap) (x s a t : Nat)
    (ht : (makeSub h x s a).topSup = some t) :
    (h a).topSup = some t ∨ (h s).topSup = some t ∨ t = s := by
  by_cases c1 : a = x
  · subst c1
    by_cases c2 : a = s
    · subst c2
      left
      simpa [makeSub] using ht
    · have : s ≠ a := fun e => c2 e.symm
      simp only [makeSub, Heap.get_modify, this, c2, if_true, if_false] at ht
      by_cases c4 : (h s).isSub = true
      · simp only [c4, if_true] at ht
        exact Or.inr (Or.inl ht)
      · simp only [c4, Bool.false_eq_true, if_false, Option.some.injEq] at ht
        exact Or.inr (Or.inr ht.symm)
  · by_cases c3 : a = s
    · subst c3
      left
      simpa [makeSub, c1] using ht
    · left
      simpa [makeSub, c1, c3] using ht

theorem Clean.after_makeSub {h0 : Heap} {n0 : Nat} {st : Planner} (hk : Clean h0 n0 st)
    (x s : Nat) (hx : IsFile h0 n0 x) (hs : IsFile h0 n0 s) :
    Clean h0 n0 { st with heap := makeSub st.heap x s } := by
  refine hk.after_attr _ (fun a => by simp) (fun a _ => by simp) ?_ ?_
  · intro a y hy
    rcases makeSub_subordinates_mem _ _ _ _ _ hy with h1 | h1
    · exact hk.subs a y h1
    · exact h1 ▸ hx
  · intro a t h1
    rcases makeSub_topSup_cases _ _ _ _ _ h1 with h2 | h2 | h2
    · exact hk.tops a t h2
    · exact hk.tops s t h2
    · exact h2 ▸ hs

theorem Clean.after_setChildren {h0 : Heap} {n0 : Nat} {st : Planner} (hk : Clean h0 n0 st)
    (x : Nat) (f : FsNode → List (String × Nat)) :
    Clean h0 n0 { st with heap := st.heap.modify x (fun n => { n with children := f n }) } := by
  refine hk.after_attr _ ?_ ?_ ?_ ?_
  · intro a
    exact modify_proj FsNode.type _ _ _ a (fun _ => rfl)
  · intro a _
    exact modify_proj FsNode.path _ _ _ a (fun _ => rfl)
  · intro a s hs
    have e : ((st.heap.modify x (fun n => { n with children := f n })) a).subordinates =
        (st.heap a).subordinates := modify_proj FsNode.subordinates _ _ _ a (fun _ => rfl)
    rw [e] at hs
    exact hk.subs a s hs
  · intro a t h1
    have e : ((st.heap.modify x (fun n => { n with children := f n })) a).topSup =
        (st.heap a).topSup := modify_proj FsNode.topSup _ _ _ a (fun _ => rfl)
    rw [e] at h1
    exact hk.tops a t h1

theorem Clean.after_setIsSub {h0 : Heap} {n0 : Nat} {st : Planner} (hk : Clean h0 n0 st)
    (x : Nat) (b : Bool) :
    Clean h0 n0 { st with heap := st.heap.modify x (fun n => { n with isSub := b }) } := by
  refine hk.after_attr _ ?_ ?_ ?_ ?_
  · intro a
    exact modify_proj FsNode.type _ _ _ a (fun _ => rfl)
  · intro a _
    exact modify_proj FsNode.path _ _ _ a (fun _ => rfl)
  · intro a s hs
    have e : ((st.heap.modify x (fun n => { n with isSub := b })) a).subordinates =
        (st.heap a).subordinates := modify_proj FsNode.subordinates _ _ _ a (fun _ => rfl)
    rw [e] at hs
    exact hk.subs a s hs
  · intro a t h1
    have e : ((st.heap.modify x (fun n => { n with isSub := b })) a).topSup =
        (st.heap a).topSup := modify_proj FsNode.topSup _ _ _ a (fun _ => rfl)
    rw [e] at h1
    exact hk.tops a t h1

theorem Clean.after_addSup {h0 : Heap} {n0 : Nat} {st : Planner} (hk : Clean h0 n0 st)
    (p : Option Nat) (hp : ∀ s, p = some s → IsFile h0 n0 s) :
    Clean h0 n0 (st.addSup p) :=
  { bound := hk.bound
    types := hk.types
    new_dir := hk.new_dir
    file_path := hk.file_path
    cp_src := hk.cp_src
    subs := hk.subs
    tops := hk.tops
    sups := fun s hs => by
      simp only [Planner.addSup] at hs
      rcases (mem_setInsert _ _ _).mp hs with h1 | h1
      · exact hk.sups s h1
      · exact hp s h1.symm }

theorem Clean.after_pushNode {h0 : Heap} {n0 : Nat} {st : Planner} (hk : Clean h0 n0 st)
    (nd : FsNode) (ht : nd.type = "dir") (hs : ∀ s ∈ nd.subordinates, IsFile h0 n0 s)
    (htp : ∀ t, nd.topSup = some t → IsFile h0 n0 t) :
    Clean h0 n0 (st.pushNode nd).1 := by
  have hb := hk.bound
  refine
    { bound := by simp only [Planner.pushNode]; omega
      types := ?_
      new_dir := ?_
      file_path := ?_
      cp_src := hk.cp_src
      subs := ?_
      tops := ?_
      sups := hk.sups }
  · intro a ha
    have : a ≠ st.next := by omega
    simp only [Planner.pushNode, Heap.get_set, this, if_false]
    exact hk.types a ha
  · intro a h1 h2
    simp only [Planner.pushNode] at h2 ⊢
    by_cases e : a = st.next
    · simp [e, ht]
    · simp only [Heap.get_set, e, if_false]
      exact hk.new_dir a h1 (by omega)
  · intro a ha
    have : a ≠ st.next := by have := ha.1; omega
    simp only [Planner.pushNode, Heap.get_set, this, if_false]
    exact hk.file_path a ha
  · intro a s h1
    simp only [Planner.pushNode] at h1
    by_cases e : a = st.next
    · simp only [e, Heap.get_set, if_true] at h1
      exact hs s h1
    · simp only [Heap.get_set, e, if_false] at h1
      exact hk.subs a s h1
  · intro a t h1
    simp only [Planner.pushNode] at h1
    by_cases e : a = st.next
    · simp only [e, Heap.get_set, if_true] at h1
      exact htp t h1
    · simp only [Heap.get_set, e, if_false] at h1
      exact hk.tops a t h1

theorem Clean.after_pushMkdir {h0 : Heap} {n0 : Nat} {st : Planner} (hk : Clean h0 n0 st) (x : Nat) :
    Clean h0 n0 { st with editSteps := st.editSteps ++ [mkdirStep st.heap x] } :=
  { bound := hk.bound
    types := hk.types
    new_dir := hk.new_dir
    file_path := hk.file_path
    cp_src := fun e he hcp => by
      rcases List.mem_append.mp he with h1 | h1
      · exact hk.cp_src e h1 hcp
      · rw [List.mem_singleton.mp h1] at hcp
        simp [mkdirStep] at hcp
    subs := hk.subs
    tops := hk.tops
    sups := hk.sups }

theorem Clean.after_pushCp {h0 : Heap} {n0 : Nat} {st : Planner} (hk : Clean h0 n0 st) (s d : Nat)
    (hs : IsFile h0 n0 s) :
    Clean h0 n0 { st with editSteps := st.editSteps ++ [cpStep st.heap s d] } :=
  { bound := hk.bound
    types := hk.types
    new_dir := hk.new_dir
    file_path := hk.file_path
    cp_src := fun e he hcp => by
      rcases List.mem_append.mp he with h1 | h1
      · exact hk.cp_src e h1 hcp
      · rw [List.mem_singleton.mp h1]
        exact ⟨hs, by simp [cpStep, hk.file_path s hs]⟩
    subs := hk.subs
    tops := hk.tops
    sups := hk.sups }

/-! ## Paths of the scanned files: Phase C -/

theorem traverseList_files (F : Nat → Prop) (recur : Nat → List Nat → Option (List Nat))
    (hrec : ∀ nd q q', recur nd q = some q' → F nd → (∀ x ∈ q, F x) → ∀ x ∈ q', F x) :
    ∀ (ss : List Nat) (q q' : List Nat), traverseList recur ss q = some q' →
      (∀ s ∈ ss, F s) → (∀ x ∈ q, F x) → ∀ x ∈ q', F x
  | [], q, q' => by
    intro h _ hq
    simp only [traverseList, Option.some.injEq] at h
    subst h
    exact hq
  | s :: ss, q, q' => by
    intro h hss hq
    simp only [traverseList] at h
    cases hr : recur s q with
    | none => rw [hr] at h; cases h
    | some q1 =>
      rw [hr] at h
      exact traverseList_files F recur hrec ss q1 q' h
        (fun x hx => hss x (List.mem_cons_of_mem _ hx))
        (hrec s q q1 hr (hss s (by simp)) hq)

theorem traverseSubs_files (h : Heap) (F : Nat → Prop)
    (hsub : ∀ a, ∀ s ∈ (h a).subordinates, F s) :
    ∀ (fuel nd : Nat) (q q' : List Nat), traverseSubs h fuel nd q = some q' →
      F nd → (∀ x ∈ q, F x) → ∀ x ∈ q', F x
  | 0, nd, q, q' => by
    intro ht
    simp [traverseSubs] at ht
  | fuel + 1, nd, q, q' => by
    intro ht hnd hq
    simp only [traverseSubs] at ht
    refine traverseList_files F _ (traverseSubs_files h F hsub fuel) _ _ _ ht (hsub nd) ?_
    intro x hx
    rcases List.mem_append.mp hx with h1 | h1
    · exact hq x h1
    · rw [List.mem_singleton.mp h1]; exact hnd

theorem histBody_clean {h0 : Heap} {n0 : Nat} {st st1 : Planner} (hist m : Nat)
    (hk : Clean h0 n0 st) (hm : IsFile h0 n0 m)
    (h : histBody hist m st = some st1) : Clean h0 n0 st1 := by
  unfold histBody at h
  cases hd : (st.heap m).dstParent with
  | none => rw [hd] at h; cases h
  | some d =>
    rw [hd] at h
    simp only [pushStep_cp, Option.some.injEq] at h
    subst h
    have k1 := hk.after_setChildren d (fun n => mapErase n.children (st.heap m).name)
    have k2 := k1.after_setDst m (some hist)
    have k3 := k2.after_pushCp m hist hm
    exact k3.after_setChildren hist
      (fun n => mapInsert n.children
        ((setDstParent (st.heap.modify d
          (fun p => { p with children := mapErase p.children (st.heap m).name })) m
            (some hist)) m).name m)

theorem histLoop_clean {h0 : Heap} {n0 : Nat} (hist : Nat) :
    ∀ (n : Nat) (pq : List Nat) (st st' : Planner),
      Clean h0 n0 st → (∀ x ∈ pq, IsFile h0 n0 x) →
      histLoop hist n pq st = some st' → Clean h0 n0 st' := by
  intro n
  induction n with
  | zero =>
    intro pq st st' hk _ h
    simp only [histLoop, Option.some.injEq] at h
    subst h
    exact hk
  | succ n ih =>
    intro pq st st' hk hpq h
    simp only [histLoop] at h
    cases ht : pqTop st.heap pq with
    | none =>
      rw [ht] at h
      simp only at h
      split at h
      · simp only [Option.some.injEq] at h
        subst h
        exact hk
      · cases h
    | some m =>
      rw [ht] at h
      simp only at h
      cases hb : histBody hist m st with
      | none => rw [hb] at h; cases h
      | some st1 =>
        rw [hb] at h
        exact ih _ _ _ (histBody_clean hist m hk (hpq m (pqTop_mem _ _ _ ht)) hb)
          (fun x hx => hpq x (List.mem_of_mem_erase hx)) h

theorem makeFileHist_clean {h0 : Heap} {n0 : Nat} {st st' : Planner} (fuel : Nat)
    (src : Option Nat) (hk : Clean h0 n0 st) (hsrc : ∀ s, src = some s → IsFile h0 n0 s)
    (h : makeFileHist fuel src st = some st') : Clean h0 n0 st' := by
  unfold makeFileHist at h
  cases src with
  | none => cases h
  | some s =>
    simp only at h
    cases htr : traverseSubs st.heap fuel s [] with
    | none => rw [htr] at h; cases h
    | some pq =>
      rw [htr] at h
      simp only at h
      have hpq : ∀ x ∈ pq, IsFile h0 n0 x :=
        traverseSubs_files st.heap (IsFile h0 n0) hk.subs fuel s [] pq htr (hsrc s rfl)
          (fun x hx => absurd hx (List.not_mem_nil _))
      cases htop : pqTop st.heap pq with
      | none => rw [htop] at h; cases h
      | some sup =>
        rw [htop] at h
        simp only [Planner.pushNode, pushStep_mkdir] at h
        have hsup : IsFile h0 n0 sup := hpq sup (pqTop_mem _ _ _ htop)
        have hsn : sup ≠ st.next := by
          have := hsup.1
          have := hk.bound
          omega
        cases hd : (st.heap sup).dstParent with
        | none =>
          exfalso
          simp [hsn, hd] at h
        | some d =>
          rw [hd] at h
          have hd2 : ((st.heap.set st.next
              (FsNode.create st.heap ("." ++ (st.heap sup).name ++ "_hist") (some d) "dir"))
                sup).dstParent = some d := by
            rw [Heap.get_set_other _ _ _ _ hsn]; exact hd
          rw [hd2] at h
          simp only at h
          have k1 := hk.after_pushNode
            (FsNode.create st.heap ("." ++ (st.heap sup).name ++ "_hist") (some d) "dir")
            (create_type _ _ _ _) (by simp [FsNode.create, FsNode.fresh])
            (by simp [FsNode.create, FsNode.fresh])
          have k2 := k1.after_pushMkdir st.next
          have k3 := k2.after_setChildren d
            (fun n => mapInsert n.children ((st.heap.set st.next
              (FsNode.create st.heap ("." ++ (st.heap sup).name ++ "_hist") (some d) "dir"))
                st.next).name st.next)
          simp only [Planner.pushNode] at k3
          cases hl : histLoop st.next (pq.erase sup).length (pq.erase sup)
              { heap := (st.heap.set st.next
                  (FsNode.create st.heap ("." ++ (st.heap sup).name ++ "_hist") (some d)
                    "dir")).modify d
                  (fun p => { p with children := mapInsert p.children ((st.heap.set st.next
                    (FsNode.create st.heap ("." ++ (st.heap sup).name ++ "_hist") (some d)
                      "dir")) st.next).name st.next }),
                next := st.next + 1, plannedNode := st.plannedNode ++ [st.next],
                editSteps := st.editSteps ++ [mkdirStep (st.heap.set st.next
                  (FsNode.create st.heap ("." ++ (st.heap sup).name ++ "_hist") (some d)
                    "dir")) st.next],
                sups := st.sups } with
          | none => rw [hl] at h; cases h
          | some st4 =>
            rw [hl] at h
            simp only at h
            have k4 := histLoop_clean st.next _ _ _ _ k3
              (fun x hx => hpq x (List.mem_of_mem_erase hx)) hl
            cases hd4 : (st4.heap sup).dstParent with
            | none => rw [hd4, pushStep_none_dst] at h; cases h
            | some d4 =>
              rw [hd4, pushStep_cp] at h
              simp only [hd4, Option.some.injEq] at h
              subst h
              have k5 := k4.after_pushCp sup d4 hsup
              have k6 := k5.after_setChildren d4
                (fun n => mapInsert n.children (st4.heap sup).name sup)
              exact k6.after_setIsSub sup false

theorem phaseC_clean {h0 : Heap} {n0 : Nat} (fuel : Nat) :
    ∀ (sups : List (Option Nat)) (st st' : Planner),
      Clean h0 n0 st → (∀ s, some s ∈ sups → IsFile h0 n0 s) →
      phaseC fuel sups st = some st' → Clean h0 n0 st' := by
  intro sups
  induction sups with
  | nil =>
    intro st st' hk _ h
    simp only [phaseC, Option.some.injEq] at h
    subst h; exact hk
  | cons s ss ih =>
    intro st st' hk hs h
    simp only [phaseC] at h
    cases hm : makeFileHist fuel s st with
    | none => rw [hm] at h; cases h
    | some st1 =>
      rw [hm] at h
      exact ih _ _ (makeFileHist_clean fuel s hk (fun x hx => hs x (by rw [hx]; simp)) hm)
        (fun x hx => hs x (List.mem_cons_of_mem _ hx)) h

/-! ## Phase B preserves the planner invariant -/

theorem lookup_mem (l : List (String × Nat)) (k : String) (c : Nat)
    (h : l.lookup k = some c) : (k, c) ∈ l := by
  induction l with
  | nil => simp at h
  | cons x xs ih =>
    obtain ⟨k', c'⟩ := x
    simp only [List.lookup] at h
    by_cases e : k = k'
    · subst e
      simp at h
      subst h
      simp
    · have : (k == k') = false := by simpa using e
      rw [this] at h
      exact List.mem_cons_of_mem _ (ih h)

theorem TreeWF.child_block {h0 : Heap} {span : Nat → Nat} (wf : TreeWF h0 span) {a : Nat}
    {kc : String × Nat} (hk : kc ∈ (h0 a).children) {x : Nat} (hx : InSub span kc.2 x) :
    InSub span a x ∧ x ≠ a := by
  obtain ⟨h1, h2⟩ := wf.child_in a kc.1 kc.2 hk
  unfold InSub at *
  omega

theorem pairwise_apart {span : Nat → Nat} {l : List (String × Nat)}
    (hp : l.Pairwise (fun x y => x.2 + span x.2 ≤ y.2)) {x y : String × Nat}
    (hx : x ∈ l) (hy : y ∈ l) (hxy : x ≠ y) :
    x.2 + span x.2 ≤ y.2 ∨ y.2 + span y.2 ≤ x.2 := by
  have hs : Symmetric (fun x y : String × Nat =>
      x.2 + span x.2 ≤ y.2 ∨ y.2 + span y.2 ≤ x.2) := fun _ _ h => h.symm
  exact List.Pairwise.forall hs (hp.imp (fun h => Or.inl h)) hx hy hxy

/-- One iteration of the second loop of `mergeDirs` keeps the invariant. -/
theorem mergeVisit2_ctx {h0 : Heap} {span : Nat → Nat} {root : Nat}
    {recur : Nat → Nat → Planner → Option Planner} (wf : TreeWF h0 span)
    (hrec : MergeOK h0 span root recur) {P : Nat → Prop} {nd1 : Nat} {key : String} {c2 : Nat}
    {loc loc1 : MergeLocals} {st st1 : Planner}
    (h : mergeVisit2 recur nd1 key c2 loc st = some (loc1, st1))
    (hc : Ctx h0 root P st) (hm : Made st.editSteps nd1)
    (hb : key ∉ loc.visited → Block span P c2) (hpar : (h0 c2).parent ≠ none) :
    Ctx h0 root (fun a => P a ∧ ¬ InSub span c2 a) st1 ∧
      (∀ d, Made st.editSteps d → Made st1.editSteps d) ∧ loc1.visited = loc.visited ∧
      (∀ n0, (∀ a, P a → a < n0) → Clean h0 n0 st → Clean h0 n0 st1) := by
  unfold mergeVisit2 at h
  by_cases hv : key ∈ loc.visited
  · simp only [hv, if_true, Option.some.injEq, Prod.mk.injEq] at h
    obtain ⟨rfl, rfl⟩ := h
    exact ⟨hc.mono (fun a ha => ha.1), fun d hd => hd, rfl, fun _ _ hk => hk⟩
  · simp only [hv, if_false] at h
    have hb2 := hb hv
    have hc2self : P c2 := hb2 c2 ⟨Nat.le_refl _, by have := wf.span_pos c2; omega⟩
    obtain ⟨hch2, hnm2, hlt2⟩ := hc.pend c2 hc2self
    by_cases ht : (st.heap c2).type = "dir"
    · simp only [ht, if_true, Planner.pushNode, pushStep_mkdir] at h
      -- state after `setParent`, `push_back` and the `Mkdir` step
      have hcA := hc.setParent c2 nd1 hnm2
      have hcB := hcA.pushNode
        (FsNode.create (setParent st.heap c2 (some nd1))
          ((setParent st.heap c2 (some nd1)) c2).name (some nd1) "dir")
        (create_dstParent _ _ _ _)
      have hnx : ¬ P st.next := fun hp => by
        have := (hc.pend _ hp).2.2; omega
      have hcC := hcB.pushMkdir st.next nd1
        (by simp [Planner.pushNode, create_parent])
        (by simpa [Planner.pushNode] using hm)
        (by simp [Planner.pushNode]) hnx
        (by simp [Planner.pushNode, create_type])
        (by
          have hn1 : nd1 ≠ st.next := Nat.ne_of_lt (hc.made_lt nd1 hm)
          simp [Planner.pushNode, create_path, create_name, hn1])
      simp only [Planner.pushNode] at hcC
      match hr : recur st.next c2 _, h with
      | none, h => simp [hr] at h
      | some st4, h =>
        simp only [hr, Option.some.injEq, Prod.mk.injEq] at h
        obtain ⟨rfl, rfl⟩ := h
        have hpost := hrec P st.next c2 _ _ hr hcC
          ((made_snoc_mkdir _ _ _ _).mpr (Or.inr rfl)) hnx hc2self
          (by simp [create_children])
          (by simp [create_children])
          (by simp [create_children])
          (fun kc hk a ha => hb2 a (wf.child_block hk ha).1)
          (by simp [create_children])
          (by simp [create_children])
          (by simp [create_children])
        refine ⟨hpost.1.mono ?_, ?_, rfl, ?_⟩
        · intro a ha
          refine ⟨ha.1, by simp [create_children], ?_⟩
          intro kc hk hin
          exact ha.2 (wf.child_block hk hin).1
        · intro d hd
          exact hpost.2.1 d (hd.append_left _)
        · intro n0 hold hk
          have kA := hk.after_setParent c2 (some nd1) ht
          have kB := kA.after_pushNode
            (FsNode.create (setParent st.heap c2 (some nd1))
              ((setParent st.heap c2 (some nd1)) c2).name (some nd1) "dir")
            (create_type _ _ _ _) (by simp [FsNode.create, FsNode.fresh])
            (by simp [FsNode.create, FsNode.fresh])
          have kC := kB.after_pushMkdir st.next
          exact hpost.2.2 n0 hold (by simp [create_children]) kC
    · simp only [ht, if_false] at h
      have hcA := hc.setDst c2 nd1 hm hlt2 (hc.pend_par c2 hc2self hpar)
        (fun e he hcp e2 => hc.cp_vis e he hcp (e2 ▸ hc2self))
      split at h
      · -- a singleton: copied
        simp only [pushStep_cp, Option.some.injEq, Prod.mk.injEq] at h
        obtain ⟨rfl, rfl⟩ := h
        exact ⟨(hcA.mono (Q := fun a => P a ∧ ¬ InSub span c2 a) (fun a ha => ha.1)).pushCp
            c2 nd1 hm (by simp [setDstParent_dstParent])
            (fun hp => hp.2 ⟨Nat.le_refl _, by have := wf.span_pos c2; omega⟩),
          fun d hd => hd.append_left _, rfl,
          fun n0 _ hk => (hk.after_setDst c2 (some nd1)).after_pushCp c2 nd1 (hk.isFile hlt2 ht)⟩
      · split at h
        · simp only [Option.some.injEq, Prod.mk.injEq] at h
          obtain ⟨rfl, rfl⟩ := h
          exact ⟨(hcA.addSup _).mono (fun a ha => ha.1), fun d hd => hd, rfl,
            fun n0 _ hk => (hk.after_setDst c2 (some nd1)).after_addSup _
              (fun s hs => (hk.after_setDst c2 (some nd1)).tops c2 s hs)⟩
        · simp only [Option.some.injEq, Prod.mk.injEq] at h
          obtain ⟨rfl, rfl⟩ := h
          exact ⟨hcA.mono (fun a ha => ha.1), fun d hd => hd, rfl,
            fun n0 _ hk => hk.after_setDst c2 (some nd1)⟩

/-- The second loop of `mergeDirs` keeps the invariant. -/
theorem mergeLoop2_ctx {h0 : Heap} {span : Nat → Nat} {root : Nat}
    {recur : Nat → Nat → Planner → Option Planner} (wf : TreeWF h0 span)
    (hrec : MergeOK h0 span root recur) {nd1 : Nat} :
    ∀ (rest : List (String × Nat)) (P : Nat → Prop) (loc loc1 : MergeLocals) (st st1 : Planner),
      mergeLoop2 recur nd1 rest loc st = some (loc1, st1) →
      Ctx h0 root P st → Made st.editSteps nd1 →
      rest.Pairwise (fun x y => x.2 + span x.2 ≤ y.2) →
      (∀ kc ∈ rest, kc.1 ∉ loc.visited → Block span P kc.2) →
      (∀ kc ∈ rest, (h0 kc.2).parent ≠ none) →
      Ctx h0 root (fun a => P a ∧ ∀ kc ∈ rest, ¬ InSub span kc.2 a) st1 ∧
        (∀ d, Made st.editSteps d → Made st1.editSteps d) ∧
        (∀ n0, (∀ a, P a → a < n0) → Clean h0 n0 st → Clean h0 n0 st1) := by
  intro rest
  induction rest with
  | nil =>
    intro P loc loc1 st st1 h hc _ _ _ _
    simp only [mergeLoop2, Option.some.injEq, Prod.mk.injEq] at h
    obtain ⟨rfl, rfl⟩ := h
    exact ⟨hc.mono (fun a ha => ha.1), fun d hd => hd, fun _ _ hk => hk⟩
  | cons x rest ih =>
    obtain ⟨key, c2⟩ := x
    intro P loc loc1 st st1 h hc hm hpw hb hpar
    simp only [mergeLoop2] at h
    match hv : mergeVisit2 recur nd1 key c2 loc st, h with
    | none, h => simp [hv] at h
    | some (locA, stA), h =>
      simp only [hv] at h
      obtain ⟨hcA, hmA, hvis, hkA⟩ := mergeVisit2_ctx wf hrec hv hc hm (hb (key, c2) (by simp))
        (hpar (key, c2) (by simp))
      have hpw' := List.pairwise_cons.mp hpw
      obtain ⟨hcB, hmB, hkB⟩ := ih _ locA loc1 stA st1 h hcA (hmA _ hm) hpw'.2 (by
        intro kc hk hnv a ha
        rw [hvis] at hnv
        refine ⟨hb kc (List.mem_cons_of_mem _ hk) hnv a ha, ?_⟩
        have := hpw'.1 kc hk
        unfold InSub at *
        simp only at this
        omega) (fun kc hk => hpar kc (List.mem_cons_of_mem _ hk))
      refine ⟨hcB.mono ?_, fun d hd => hmB d (hmA d hd),
        fun n0 hold hk => hkB n0 (fun a ha => hold a ha.1) (hkA n0 hold hk)⟩
      intro a ha
      refine ⟨⟨ha.1, ha.2 (key, c2) (by simp)⟩, ?_⟩
      intro kc hk
      exact ha.2 kc (List.mem_cons_of_mem _ hk)

/-- A state change that leaves queue, arena size, `plannedNode`, `children`, `parent`, `type`,
`name` and `path` alone and commits `dstParent` only to created directories keeps the
invariant. -/
theorem Ctx.attrStep {h0 : Heap} {root : Nat} {P : Nat → Prop} {st st1 : Planner}
    (hc : Ctx h0 root P st) (he : st1.editSteps = st.editSteps) (hn : st1.next = st.next)
    (hpl : st1.plannedNode = st.plannedNode)
    (hch : ∀ a, (st1.heap a).children = (st.heap a).children)
    (hpa : ∀ a, (st1.heap a).parent = (st.heap a).parent)
    (hty : ∀ a, (st1.heap a).type = (st.heap a).type)
    (hnm : ∀ a, (st1.heap a).name = (st.heap a).name)
    (hpt : ∀ a, (st1.heap a).path = (st.heap a).path)
    (hdp : ∀ a, (st1.heap a).dstParent = (st.heap a).dstParent ∨
      ∃ d, (st1.heap a).dstParent = some d ∧ Made st.editSteps d ∧ a < st.next ∧
        (st.heap a).parent ≠ none ∧ ∀ e ∈ st.editSteps, e.op = "cp" → e.acting ≠ a) :
    Ctx h0 root P st1 := by
  have := hc.attr st1.heap hch hpa hty hnm hpt hdp
  refine
    { ordered := ?_
      dst_made := ?_
      made_lt := ?_
      pend := ?_
      cp_dst := ?_
      free_dst := ?_
      made_dir := ?_
      made_path := ?_
      dst_par := this.dst_par
      pend_par := this.pend_par
      planned := ?_
      cp_last := ?_
      cp_vis := ?_
      ops := fun e h1 => this.ops e (he ▸ h1) }
  · rw [he]; exact this.ordered
  · rw [he]; exact this.dst_made
  · rw [he, hn]; exact this.made_lt
  · rw [he, hn]; exact this.pend
  · rw [he]; exact this.cp_dst
  · rw [hn]; exact this.free_dst
  · rw [he]; exact this.made_dir
  · rw [he]; exact this.made_path
  · rw [hpl]; exact this.planned
  · rw [he]; exact this.cp_last
  · rw [he]; exact this.cp_vis

/-- The path-collision branch keeps the invariant and queues nothing. -/
theorem mergeCollision_ctx {h0 : Heap} {root : Nat} {P : Nat → Prop} {st : Planner}
    (nd1 c1 c2 : Nat) (hc : Ctx h0 root P st) (hm : Made st.editSteps nd1)
    (hc2 : c2 < st.next) (hp2 : (st.heap c2).parent ≠ none)
    (hn2 : ∀ e ∈ st.editSteps, e.op = "cp" → e.acting ≠ c2) :
    Ctx h0 root P (mergeCollision nd1 c1 c2 st) ∧
      (mergeCollision nd1 c1 c2 st).editSteps = st.editSteps := by
  have he : (mergeCollision nd1 c1 c2 st).editSteps = st.editSteps := by
    unfold mergeCollision
    simp only
    split_ifs <;> rfl
  refine ⟨hc.attrStep he ?_ ?_ ?_ ?_ ?_ ?_ ?_ ?_, he⟩
  · unfold mergeCollision
    simp only
    split_ifs <;> rfl
  · unfold mergeCollision
    simp only
    split_ifs <;> rfl
  · intro a
    unfold mergeCollision
    simp only
    split_ifs <;> simp [Planner.addSup]
  · intro a
    unfold mergeCollision
    simp only
    split_ifs <;> simp [Planner.addSup]
  · intro a
    unfold mergeCollision
    simp only
    split_ifs <;> simp [Planner.addSup]
  · intro a
    unfold mergeCollision
    simp only
    split_ifs <;> simp [Planner.addSup]
  · intro a
    unfold mergeCollision
    simp only
    split_ifs <;> simp [Planner.addSup]
  · intro a
    unfold mergeCollision
    simp only
    have key : (setDstParent st.heap c2 (some nd1) a).dstParent = (st.heap a).dstParent ∨
        ∃ d, (setDstParent st.heap c2 (some nd1) a).dstParent = some d ∧
          Made st.editSteps d ∧ a < st.next ∧ (st.heap a).parent ≠ none ∧
          ∀ e ∈ st.editSteps, e.op = "cp" → e.acting ≠ a := by
      rw [setDstParent_dstParent]
      by_cases hax : a = c2
      · right
        subst hax
        exact ⟨nd1, by simp, hm, hc2, hp2, hn2⟩
      · left
        simp [hax]
    split_ifs <;> simp only [Planner.addSup, makeSub_dstParent] <;> exact key

/-- The path-collision branch keeps `Clean` when both files are scanned non-directories. -/
theorem mergeCollision_clean {h0 : Heap} {n0 : Nat} {st : Planner} (nd1 c1 c2 : Nat)
    (hk : Clean h0 n0 st) (h1 : IsFile h0 n0 c1) (h2 : IsFile h0 n0 c2) :
    Clean h0 n0 (mergeCollision nd1 c1 c2 st) := by
  have k2 := hk.after_setDst c2 (some nd1)
  have k3 := k2.after_makeSub c1 c2 h1 h2
  unfold mergeCollision
  simp only
  split_ifs <;>
    first
    | exact (k3.after_addSup _ (fun s hs => k3.tops _ s hs)).after_makeSub _ _
        (by first | exact h1 | exact h2) (by first | exact h1 | exact h2)
    | exact (k2.after_addSup _ (fun s hs => k2.tops _ s hs)).after_makeSub _ _
        (by first | exact h1 | exact h2) (by first | exact h1 | exact h2)
    | exact k3.after_addSup _ (fun s hs => k3.tops _ s hs)
    | exact k2.after_addSup _ (fun s hs => k2.tops _ s hs)

/-- One iteration of the first loop of `mergeDirs` keeps the invariant. -/
theorem mergeVisit1_ctx {h0 : Heap} {span : Nat → Nat} {root : Nat}
    {recur : Nat → Nat → Planner → Option Planner} (wf : TreeWF h0 span)
    (hrec : MergeOK h0 span root recur) {P : Nat → Prop} {nd1 nd2 : Nat} {key : String}
    {c1 : Nat} {loc loc1 : MergeLocals} {st st1 : Planner}
    (h : mergeVisit1 recur nd1 nd2 key c1 loc st = some (loc1, st1))
    (hc : Ctx h0 root P st) (hm : Made st.editSteps nd1) (hn2 : P nd2)
    (hb1 : Block span P c1)
    (hb2 : ∀ c2, (h0 nd2).children.lookup key = some c2 →
      Block span P c2 ∧ (c1 + span c1 ≤ c2 ∨ c2 + span c2 ≤ c1))
    (hpar1 : (h0 c1).parent ≠ none) :
    Ctx h0 root (fun a => P a ∧ ¬ InSub span c1 a ∧
        ∀ c2, (h0 nd2).children.lookup key = some c2 → ¬ InSub span c2 a) st1 ∧
      (∀ d, Made st.editSteps d → Made st1.editSteps d) ∧
      loc1.visited = (if ((h0 nd2).children.lookup key).isSome then setInsert loc.visited key
        else loc.visited) ∧
      (∀ n0, (∀ a, P a → a < n0) →
        (∀ c2, (h0 nd2).children.lookup key = some c2 → Agree h0 c1 c2) →
        Clean h0 n0 st → Clean h0 n0 st1) := by
  have hself : ∀ c, InSub span c c := fun c => ⟨Nat.le_refl _, by have := wf.span_pos c; omega⟩
  have hch2 : (st.heap nd2).children = (h0 nd2).children := (hc.pend nd2 hn2).1
  obtain ⟨hch1, hnm1, hlt1⟩ := hc.pend c1 (hb1 c1 (hself c1))
  have hnx : ¬ P st.next := fun hp => by
    have := (hc.pend _ hp).2.2; omega
  have hmnx : ¬ Made st.editSteps st.next := fun hp => by
    have := hc.made_lt _ hp; omega
  unfold mergeVisit1 at h
  rw [hch2] at h
  by_cases ht : (st.heap c1).type = "dir"
  · simp only [ht, if_true] at h
    cases hl : (h0 nd2).children.lookup key with
    | none =>
      simp only [hl, Planner.pushNode, pushStep_mkdir] at h
      have hcA := hc.pushNode
        (FsNode.create st.heap (st.heap c1).name (some nd1) "dir") (create_dstParent _ _ _ _)
      have hcB := hcA.setParent st.next nd1 (by simpa [Planner.pushNode] using hmnx)
      have hcC := hcB.setParent c1 nd1 (by simpa [Planner.pushNode] using hnm1)
      have hcD := hcC.pushMkdir st.next nd1
        (by
          have : st.next ≠ c1 := by omega
          simp [Planner.pushNode, setParent_parent, this])
        (by simpa [Planner.pushNode] using hm)
        (by simp [Planner.pushNode]) hnx
        (by
          have : st.next ≠ c1 := by omega
          simp [Planner.pushNode, create_type])
        (by
          have h1 : st.next ≠ c1 := by omega
          have h2 : nd1 ≠ c1 := fun e => hnm1 (e ▸ hm)
          have h3 : nd1 ≠ st.next := Nat.ne_of_lt (hc.made_lt nd1 hm)
          simp only [Planner.pushNode, setParent_name]
          rw [setParent_path_other _ _ _ _ h1, setParent_path_self,
            setParent_path_other _ _ _ _ h2, setParent_path_other _ _ _ _ h3])
      simp only [Planner.pushNode] at hcD
      match hr : recur st.next c1 _, h with
      | none, h => simp [hr] at h
      | some st5, h =>
        simp only [hr, Option.some.injEq, Prod.mk.injEq] at h
        obtain ⟨rfl, rfl⟩ := h
        have hpost := hrec P st.next c1 _ _ hr hcD
          ((made_snoc_mkdir _ _ _ _).mpr (Or.inr rfl)) hnx (hb1 c1 (hself c1))
          (by simp [create_children])
          (by simp [create_children])
          (by simp [create_children])
          (fun kc hk a ha => hb1 a (wf.child_block hk ha).1)
          (by simp [create_children])
          (by simp [create_children])
          (by simp [create_children])
        refine ⟨hpost.1.mono ?_, ?_, by simp, ?_⟩
        · intro a ha
          refine ⟨ha.1, by simp [create_children], ?_⟩
          intro kc hk hin
          exact ha.2.1 (wf.child_block hk hin).1
        · intro d hd
          exact hpost.2.1 d (hd.append_left _)
        · intro n0 hold _ hk
          have kA := hk.after_pushNode
            (FsNode.create st.heap (st.heap c1).name (some nd1) "dir")
            (create_type _ _ _ _) (by simp [FsNode.create, FsNode.fresh])
            (by simp [FsNode.create, FsNode.fresh])
          have kB := kA.after_setParent st.next (some nd1)
            (by simp [Planner.pushNode, create_type])
          have kC := kB.after_setParent c1 (some nd1)
            (by
              have : c1 ≠ st.next := by omega
              simp only [Planner.pushNode, setParent_type, Heap.get_set, this, if_false]
              exact ht)
          have kD := kC.after_pushMkdir st.next
          exact hpost.2.2 n0 hold (by simp [create_children]) kD
    | some c2 =>
      simp only [hl, pushStep_mkdir] at h
      obtain ⟨hbc2, hsep⟩ := hb2 c2 hl
      obtain ⟨-, hnm2, -⟩ := hc.pend c2 (hbc2 c2 (hself c2))
      have hne : c1 ≠ c2 := by
        intro e
        have := wf.span_pos c1
        have := wf.span_pos c2
        omega
      have hcA := hc.setParent c1 nd1 hnm1
      have hcB := hcA.setParent c2 nd1 hnm2
      have hcC := (hcB.mono (Q := fun a => P a ∧ a ≠ c1) (fun a ha => ha.1)).pushMkdir c1 nd1
        (by simp [setParent_parent, hne])
        hm hlt1 (fun hp => hp.2 rfl) (by simpa using ht)
        (by
          have h2 : nd1 ≠ c1 := fun e => hnm1 (e ▸ hm)
          have h3 : nd1 ≠ c2 := fun e => hnm2 (e ▸ hm)
          simp only [setParent_name]
          rw [setParent_path_other _ _ _ _ hne, setParent_path_self,
            setParent_path_other _ _ _ _ h3, setParent_path_other _ _ _ _ h2])
      match hr : recur c1 c2 _, h with
      | none, h => simp [hr] at h
      | some st5, h =>
        simp only [hr, Option.some.injEq, Prod.mk.injEq] at h
        obtain ⟨rfl, rfl⟩ := h
        have hin2 : ∀ a, InSub span c2 a → a ≠ c1 := by
          intro a ha e
          have := wf.span_pos c1
          unfold InSub at ha
          omega
        have hpost := hrec (fun a => P a ∧ a ≠ c1) c1 c2 _ _ hr hcC
          ((made_snoc_mkdir _ _ _ _).mpr (Or.inr rfl)) (fun hp => hp.2 rfl)
          ⟨hbc2 c2 (hself c2), fun e => hne e.symm⟩
          (by simp only [setParent_children, hch1]; exact wf.child_disj c1)
          (by simp only [setParent_children, hch1]; exact wf.child_keys c1)
          (by
            simp only [setParent_children, hch1]
            intro kc hk a ha
            have := wf.child_block hk ha
            exact ⟨hb1 a this.1, this.2⟩)
          (by
            intro kc hk a ha
            have := wf.child_block hk ha
            exact ⟨hbc2 a this.1, hin2 a this.1⟩)
          (by
            simp only [setParent_children, hch1]
            intro kc hk kd hkd
            have h1 := wf.child_in c1 kc.1 kc.2 hk
            have h2 := wf.child_in c2 kd.1 kd.2 hkd
            have := wf.span_pos kc.2
            have := wf.span_pos kd.2
            omega)
          (by
            simp only [setParent_children, hch1]
            intro kc hk hin
            have h1 := wf.child_in c1 kc.1 kc.2 hk
            have := wf.span_pos c2
            unfold InSub at hin
            omega)
          (by
            simp only [setParent_children, hch1]
            intro kc hk
            exact wf.child_par c1 kc.1 kc.2 hk)
        refine ⟨hpost.1.mono ?_, ?_, by simp [hl], ?_⟩
        · intro a ha
          have hac : a ≠ c1 := fun e => ha.2.1 (e ▸ hself c1)
          refine ⟨⟨ha.1, hac⟩, ?_, ?_⟩
          · simp only [setParent_children, hch1]
            intro kc hk hin
            exact ha.2.1 (wf.child_block hk hin).1
          · intro kc hk hin
            exact ha.2.2 c2 rfl (wf.child_block hk hin).1
        · intro d hd
          exact hpost.2.1 d (hd.append_left _)
        · intro n0 hold hag hk
          have hlt1' : c1 < n0 := hold c1 (hb1 c1 (hself c1))
          have hlt2' : c2 < n0 := hold c2 (hbc2 c2 (hself c2))
          have ht0 : (h0 c1).type = "dir" := by rw [← hk.types c1 hlt1']; exact ht
          have hagd : (h0 c2).type = "dir" ∧
              ∀ kc ∈ (h0 c1).children, ∀ y, (h0 c2).children.lookup kc.1 = some y →
                Agree h0 kc.2 y := by
            cases hag c2 rfl with
            | file _ _ hf _ => exact absurd ht0 hf
            | dir _ _ _ hd2 hkids => exact ⟨hd2, hkids⟩
          have kA := hk.after_setParent c1 (some nd1) ht
          have kB := kA.after_setParent c2 (some nd1)
            (by
              simp only [setParent_type]
              rw [hk.types c2 hlt2']
              exact hagd.1)
          have kC := kB.after_pushMkdir c1
          exact hpost.2.2 n0 (fun a ha => hold a ha.1)
            (by
              simp only [setParent_children, hch1]
              exact hagd.2) kC
  · simp only [ht, if_false] at h
    have hcA := hc.setDst c1 nd1 hm hlt1 (hc.pend_par c1 (hb1 c1 (hself c1)) hpar1)
      (fun e he hcp e2 => hc.cp_vis e he hcp (e2 ▸ hb1 c1 (hself c1)))
    cases hl : (h0 nd2).children.lookup key with
    | none =>
      simp only [hl] at h
      split at h
      · simp only [pushStep_cp, Option.some.injEq, Prod.mk.injEq] at h
        obtain ⟨rfl, rfl⟩ := h
        exact ⟨(hcA.mono (Q := fun a => P a ∧ ¬ InSub span c1 a ∧
              ∀ c2, (none : Option Nat) = some c2 → ¬ InSub span c2 a)
            (fun a ha => ha.1)).pushCp c1 nd1 hm (by simp [setDstParent_dstParent])
            (fun hp => hp.2.1 (hself c1)),
          fun d hd => hd.append_left _, by simp,
          fun n0 _ _ hk => (hk.after_setDst c1 (some nd1)).after_pushCp c1 nd1 (hk.isFile hlt1 ht)⟩
      · split at h
        · simp only [Option.some.injEq, Prod.mk.injEq] at h
          obtain ⟨rfl, rfl⟩ := h
          exact ⟨(hcA.addSup _).mono (fun a ha => ha.1), fun d hd => hd, by simp,
            fun n0 _ _ hk => (hk.after_setDst c1 (some nd1)).after_addSup _
              (fun s hs => (hk.after_setDst c1 (some nd1)).tops c1 s hs)⟩
        · simp only [Option.some.injEq, Prod.mk.injEq] at h
          obtain ⟨rfl, rfl⟩ := h
          exact ⟨hcA.mono (fun a ha => ha.1), fun d hd => hd, by simp,
            fun n0 _ _ hk => hk.after_setDst c1 (some nd1)⟩
    | some c2 =>
      simp only [hl, Option.some.injEq, Prod.mk.injEq] at h
      obtain ⟨rfl, rfl⟩ := h
      have hP2 : P c2 := (hb2 c2 hl).1 c2 (hself c2)
      obtain ⟨hcB, hsB⟩ := mergeCollision_ctx nd1 c1 c2 hcA hm
        (hc.pend c2 hP2).2.2
        (by
          simp only [setDstParent_parent]
          exact hc.pend_par c2 hP2 (wf.child_par nd2 key c2 (lookup_mem _ _ _ hl)))
        (fun e he hcp e2 => hc.cp_vis e he hcp (e2 ▸ hP2))
      refine ⟨hcB.mono (fun a ha => ha.1), fun d hd => ?_, by simp, ?_⟩
      · rw [hsB]
        exact hd
      · intro n0 hold hag hk
        have hf1 : IsFile h0 n0 c1 := hk.isFile hlt1 ht
        have hf2 : IsFile h0 n0 c2 := by
          refine ⟨hold c2 hP2, ?_⟩
          cases hag c2 rfl with
          | file _ _ _ hf => exact hf
          | dir _ _ hd1 _ _ => exact absurd hd1 hf1.2
        exact mergeCollision_clean nd1 c1 c2 (hk.after_setDst c1 (some nd1)) hf1 hf2

/-- The first loop of `mergeDirs` keeps the invariant. -/
theorem mergeLoop1_ctx {h0 : Heap} {span : Nat → Nat} {root : Nat}
    {recur : Nat → Nat → Planner → Option Planner} (wf : TreeWF h0 span)
    (hrec : MergeOK h0 span root recur) {nd1 nd2 : Nat} :
    ∀ (rest : List (String × Nat)) (P : Nat → Prop) (loc loc1 : MergeLocals) (st st1 : Planner),
      mergeLoop1 recur nd1 nd2 rest loc st = some (loc1, st1) →
      Ctx h0 root P st → Made st.editSteps nd1 → P nd2 →
      rest.Pairwise (fun x y => x.2 + span x.2 ≤ y.2) → (rest.map Prod.fst).Nodup →
      (∀ kc ∈ rest, Block span P kc.2) →
      (∀ kc ∈ rest, kc.1 ∉ loc.visited) →
      (∀ kd ∈ (h0 nd2).children, kd.1 ∉ loc.visited → Block span P kd.2) →
      (∀ kc ∈ rest, ∀ kd ∈ (h0 nd2).children,
        kc.2 + span kc.2 ≤ kd.2 ∨ kd.2 + span kd.2 ≤ kc.2) →
      (∀ kc ∈ rest, ¬ InSub span kc.2 nd2) →
      (∀ kc ∈ rest, (h0 kc.2).parent ≠ none) →
      Ctx h0 root (fun a => P a ∧ (∀ kc ∈ rest, ¬ InSub span kc.2 a) ∧
          (∀ kd ∈ (h0 nd2).children, kd.1 ∈ loc1.visited → ¬ InSub span kd.2 a)) st1 ∧
        (∀ d, Made st.editSteps d → Made st1.editSteps d) ∧
        (∀ k ∈ loc.visited, k ∈ loc1.visited) ∧
        (∀ n0, (∀ a, P a → a < n0) →
          (∀ kc ∈ rest, ∀ y, (h0 nd2).children.lookup kc.1 = some y → Agree h0 kc.2 y) →
          Clean h0 n0 st → Clean h0 n0 st1) := by
  intro rest
  induction rest with
  | nil =>
    intro P loc loc1 st st1 h hc _ _ _ _ _ _ hb2 _ _ _
    simp only [mergeLoop1, Option.some.injEq, Prod.mk.injEq] at h
    obtain ⟨rfl, rfl⟩ := h
    refine ⟨hc.mono (fun a ha => ha.1), fun d hd => hd, fun k hk => hk, fun _ _ _ hk => hk⟩
  | cons x rest ih =>
    obtain ⟨key, c1⟩ := x
    intro P loc loc1 st st1 h hc hm hn2 hpw hkeys hb1 hvis hb2 hsep hnd2 hpar
    simp only [mergeLoop1] at h
    match hv : mergeVisit1 recur nd1 nd2 key c1 loc st, h with
    | none, h => simp [hv] at h
    | some (locA, stA), h =>
      simp only [hv] at h
      have hkv : key ∉ loc.visited := hvis (key, c1) (by simp)
      obtain ⟨hcA, hmA, hvisA, hkA⟩ := mergeVisit1_ctx wf hrec hv hc hm hn2
        (hb1 (key, c1) (by simp))
        (fun c2 hl => ⟨hb2 (key, c2) (lookup_mem _ _ _ hl) hkv,
          hsep (key, c1) (by simp) (key, c2) (lookup_mem _ _ _ hl)⟩)
        (hpar (key, c1) (by simp))
      have hpw' := List.pairwise_cons.mp hpw
      have hkeys' : key ∉ rest.map Prod.fst ∧ (rest.map Prod.fst).Nodup := by
        simpa using hkeys
      have hvsub : ∀ k ∈ loc.visited, k ∈ locA.visited := by
        intro k hk
        rw [hvisA]
        split
        · exact (mem_setInsert _ _ _).mpr (Or.inl hk)
        · exact hk
      have hvA : ∀ k ∈ locA.visited, k ∈ loc.visited ∨
          (k = key ∧ ((h0 nd2).children.lookup key).isSome) := by
        intro k hk
        rw [hvisA] at hk
        split at hk
        · rcases (mem_setInsert _ _ _).mp hk with h1 | h1
          · exact Or.inl h1
          · exact Or.inr ⟨h1, by assumption⟩
        · exact Or.inl hk
      obtain ⟨hcB, hmB, hvisB, hkB⟩ := ih _ locA loc1 stA st1 h hcA (hmA _ hm)
        (by
          refine ⟨hn2, hnd2 (key, c1) (by simp), ?_⟩
          intro c2 hl hin
          have := (wf.child_in nd2 key c2 (lookup_mem _ _ _ hl)).1
          unfold InSub at hin
          omega)
        hpw'.2 hkeys'.2
        (by
          intro kc hk a ha
          refine ⟨hb1 kc (List.mem_cons_of_mem _ hk) a ha, ?_, ?_⟩
          · have := hpw'.1 kc hk
            unfold InSub at *
            simp only at this
            omega
          · intro c2 hl
            have := hsep kc (List.mem_cons_of_mem _ hk) (key, c2) (lookup_mem _ _ _ hl)
            unfold InSub at *
            simp only at this
            omega)
        (by
          intro kc hk hin
          rcases hvA _ hin with h1 | ⟨h1, -⟩
          · exact hvis kc (List.mem_cons_of_mem _ hk) h1
          · apply hkeys'.1
            rw [← h1]
            exact List.mem_map_of_mem _ hk)
        (by
          intro kd hkd hnv a ha
          have hnv0 : kd.1 ∉ loc.visited := fun e => hnv (hvsub _ e)
          refine ⟨hb2 kd hkd hnv0 a ha, ?_, ?_⟩
          · have := hsep (key, c1) (by simp) kd hkd
            unfold InSub at *
            simp only at this
            omega
          · intro c2 hl
            have hk2 : key ∈ locA.visited := by
              rw [hvisA]
              simp only [hl, Option.isSome_some, if_true]
              exact (mem_setInsert _ _ _).mpr (Or.inr rfl)
            have hne : kd ≠ (key, c2) := by
              intro e
              apply hnv
              rw [e]
              exact hk2
            have := pairwise_apart (wf.child_disj nd2) hkd (lookup_mem _ _ _ hl) hne
            unfold InSub at *
            simp only at this
            omega)
        (fun kc hk kd hkd => hsep kc (List.mem_cons_of_mem _ hk) kd hkd)
        (fun kc hk => hnd2 kc (List.mem_cons_of_mem _ hk))
        (fun kc hk => hpar kc (List.mem_cons_of_mem _ hk))
      refine ⟨hcB.mono ?_, fun d hd => hmB d (hmA d hd), fun k hk => hvisB k (hvsub k hk),
        fun n0 hold hag hk => hkB n0 (fun a ha => hold a ha.1)
          (fun kc hk => hag kc (List.mem_cons_of_mem _ hk))
          (hkA n0 hold (fun c2 hl => hag (key, c1) (by simp) c2 hl) hk)⟩
      intro a ha
      refine ⟨⟨ha.1, ha.2.1 (key, c1) (by simp), ?_⟩,
        fun kc hk => ha.2.1 kc (List.mem_cons_of_mem _ hk), ha.2.2⟩
      intro c2 hl
      apply ha.2.2 (key, c2) (lookup_mem _ _ _ hl)
      apply hvisB
      rw [hvisA]
      simp only [hl, Option.isSome_some, if_true]
      exact (mem_setInsert _ _ _).mpr (Or.inr rfl)

/-- Every call of `mergeDirs` fulfils the contract `MergeOK`. -/
theorem mergeDirs_ok {h0 : Heap} {span : Nat → Nat} {root : Nat} (wf : TreeWF h0 span) :
    ∀ fuel, MergeOK h0 span root (mergeDirs fuel) := by
  intro fuel
  induction fuel with
  | zero =>
    intro P nd1 nd2 st st' h
    simp [mergeDirs] at h
  | succ n ih =>
    intro P nd1 nd2 st st' h hc hm hn1 hn2 hpw hkeys hb1 hb2 hsep hnd2 hpar
    simp only [mergeDirs] at h
    match hl1 : mergeLoop1 (mergeDirs n) nd1 nd2 (st.heap nd1).children
        { step_children := [], visited := [] } st, h with
    | none, h => simp [hl1] at h
    | some (loc1, st1), h =>
      simp only [hl1] at h
      obtain ⟨hc1, hm1, -, hk1⟩ := mergeLoop1_ctx wf ih _ P _ loc1 st st1 hl1 hc hm hn2 hpw hkeys hb1
        (by simp) (fun kd hkd _ => hb2 kd hkd) hsep hnd2 hpar
      have hP1nd2 : (fun a => P a ∧ (∀ kc ∈ (st.heap nd1).children, ¬ InSub span kc.2 a) ∧
          (∀ kd ∈ (h0 nd2).children, kd.1 ∈ loc1.visited → ¬ InSub span kd.2 a)) nd2 := by
        refine ⟨hn2, hnd2, ?_⟩
        intro kd hkd _ hin
        have := (wf.child_in nd2 kd.1 kd.2 hkd).1
        unfold InSub at hin
        omega
      have hch2 : (st1.heap nd2).children = (h0 nd2).children := (hc1.pend nd2 hP1nd2).1
      rw [hch2] at h
      match hl2 : mergeLoop2 (mergeDirs n) nd1 (h0 nd2).children loc1 st1, h with
      | none, h => simp [hl2] at h
      | some (loc2, st2), h =>
        simp only [hl2, Option.some.injEq] at h
        subst h
        obtain ⟨hc2, hm2, hk2⟩ := mergeLoop2_ctx wf ih _ _ loc1 loc2 st1 st2 hl2 hc1 (hm1 _ hm)
          (wf.child_disj nd2)
          (by
            intro kd hkd hnv a ha
            refine ⟨hb2 kd hkd a ha, ?_, ?_⟩
            · intro kc hk
              have := hsep kc hk kd hkd
              unfold InSub at *
              omega
            · intro ke hke hv
              have hne : kd ≠ ke := by
                intro e
                apply hnv
                rw [e]
                exact hv
              have := pairwise_apart (wf.child_disj nd2) hkd hke hne
              unfold InSub at *
              omega)
          (fun kc hk => wf.child_par nd2 kc.1 kc.2 hk)
        have hc3 := hc2.setChildren nd1 (fun _ => loc2.step_children) (fun hp => hn1 hp.1.1)
        refine ⟨hc3.mono ?_, fun d hd => hm2 d (hm1 d hd),
          fun n0 hold hag hk => (hk2 n0 (fun a ha => hold a ha.1)
            (hk1 n0 hold hag hk)).after_setChildren nd1 (fun _ => loc2.step_children)⟩
        intro a ha
        exact ⟨⟨ha.1, ha.2.1, fun kd hkd _ => ha.2.2 kd hkd⟩, ha.2.2⟩

/-! ## The scanner builds a well-formed arena -/

mutual
theorem Entry.spanAt_bound : ∀ (e : Entry) (b a : Nat), b ≤ a → a < b + e.span →
    1 ≤ e.spanAt b a ∧ a + e.spanAt b a ≤ b + e.span
  | .file _ _ _ _ _, b, a, h1, h2 => by
    simp only [Entry.span] at h2
    simp only [Entry.spanAt, Entry.span]
    omega
  | .dir _ _ _ es, b, a, h1, h2 => by
    simp only [Entry.span] at h2
    simp only [Entry.spanAt, Entry.span]
    by_cases e : a = b
    · simp only [e, if_true]; omega
    · simp only [e, if_false]
      have := spanAtList_bound es (b + 1) a (by omega) (by omega)
      omega
theorem spanAtList_bound : ∀ (es : List Entry) (b a : Nat), b ≤ a → a < b + spanList es →
    1 ≤ spanAtList es b a ∧ a + spanAtList es b a ≤ b + spanList es
  | [], b, a, h1, h2 => by
    simp only [spanList] at h2
    omega
  | e :: es, b, a, h1, h2 => by
    simp only [spanList] at h2
    simp only [spanAtList, spanList]
    by_cases c : a < b + e.span
    · simp only [c, if_true]
      have := Entry.spanAt_bound e b a h1 c
      omega
    · simp only [c, if_false]
      have := spanAtList_bound es (b + e.span) a (by omega) (by omega)
      omega
end

mutual
theorem Entry.spanAt_pos : ∀ (e : Entry) (b a : Nat), 1 ≤ e.spanAt b a
  | .file _ _ _ _ _, b, a => by simp [Entry.spanAt]
  | .dir _ _ _ es, b, a => by
    simp only [Entry.spanAt]
    by_cases e : a = b
    · simp only [e, if_true]; omega
    · simp only [e, if_false]
      exact spanAtList_pos es (b + 1) a
theorem spanAtList_pos : ∀ (es : List Entry) (b a : Nat), 1 ≤ spanAtList es b a
  | [], b, a => by simp [spanAtList]
  | e :: es, b, a => by
    simp only [spanAtList]
    by_cases c : a < b + e.span
    · simp only [c, if_true]
      exact Entry.spanAt_pos e b a
    · simp only [c, if_false]
      exact spanAtList_pos es (b + e.span) a
end

theorem Entry.span_pos : ∀ (e : Entry), 1 ≤ e.span
  | .file _ _ _ _ _ => by simp [Entry.span]
  | .dir _ _ _ es => by simp [Entry.span]

theorem lookup_none_iff (l : List (String × Nat)) (k : String) :
    l.lookup k = none ↔ k ∉ l.map Prod.fst := by
  induction l with
  | nil => simp
  | cons x xs ih =>
    obtain ⟨k', c'⟩ := x
    simp only [List.lookup, List.map_cons, List.mem_cons, not_or]
    by_cases e : k = k'
    · subst e; simp
    · have : (k == k') = false := by simpa using e
      rw [this]
      simp only [ih]
      tauto

theorem mapInsert_cases (l : List (String × Nat)) (k : String) (v : Nat) :
    (mapInsert l k v = l ∧ k ∈ l.map Prod.fst) ∨
      (mapInsert l k v = l ++ [(k, v)] ∧ k ∉ l.map Prod.fst) := by
  unfold mapInsert
  cases h : l.lookup k with
  | none =>
    right
    exact ⟨by simp, (lookup_none_iff l k).mp h⟩
  | some c =>
    left
    refine ⟨by simp, ?_⟩
    by_contra hn
    rw [(lookup_none_iff l k).mpr hn] at h
    cases h

theorem NodeWF.congr {h g : Heap} {s : Nat → Nat} {a : Nat} (w : NodeWF h s a)
    (e : g a = h a) : NodeWF g s a :=
  ⟨by rw [e]; exact w.child_in, by rw [e]; exact w.child_disj, by rw [e]; exact w.child_keys,
    by rw [e]; exact w.no_dst⟩

/-- Registering the entry scanned at `b` in its directory keeps the directory's list in shape. -/
theorem OpenDir.insert {h g : Heap} {s : Nat → Nat} {parent b : Nat} (w : OpenDir h s parent b)
    (name : String) (n : Nat) (hpb : parent < b) (hn : b + s b ≤ n)
    (hch : (g parent).children = mapInsert (h parent).children name b)
    (hds : (g parent).dstParent = (h parent).dstParent) : OpenDir g s parent n := by
  rcases mapInsert_cases (h parent).children name b with ⟨e, _⟩ | ⟨e, hk⟩
  · rw [e] at hch
    refine ⟨?_, by rw [hch]; exact w.child_disj, by rw [hch]; exact w.child_keys,
      by rw [hds]; exact w.no_dst⟩
    intro kc hkc
    rw [hch] at hkc
    have := w.child_in kc hkc
    omega
  · rw [e] at hch
    refine ⟨?_, ?_, ?_, by rw [hds]; exact w.no_dst⟩
    · intro kc hkc
      rw [hch] at hkc
      rcases List.mem_append.mp hkc with h1 | h1
      · have := w.child_in kc h1
        omega
      · simp only [List.mem_singleton] at h1
        subst h1
        exact ⟨hpb, hn⟩
    · rw [hch]
      refine List.pairwise_append.mpr ⟨w.child_disj, List.pairwise_singleton _ _, ?_⟩
      intro x hx y hy
      simp only [List.mem_singleton] at hy
      subst hy
      exact (w.child_in x hx).2
    · rw [hch]
      simp only [List.map_append, List.map_cons, List.map_nil]
      rw [List.nodup_append]
      refine ⟨w.child_keys, List.nodup_singleton _, ?_⟩
      intro x hx hy
      simp only [List.mem_singleton] at hy
      subst hy
      exact hk hx

mutual
theorem exploreEntry_wf : ∀ (e : Entry) (parent : Nat) (sc : Scan) (s : Nat → Nat),
    parent < sc.next →
    (∀ a, sc.next ≤ a → a < sc.next + e.span → s a = e.spanAt sc.next a) →
    OpenDir sc.heap s parent sc.next →
    (∀ a, sc.next ≤ a → sc.heap a = FsNode.fresh) →
    (exploreEntry parent e sc).next = sc.next + e.span ∧
    (∀ a, a < sc.next → a ≠ parent → (exploreEntry parent e sc).heap a = sc.heap a) ∧
    (∀ a, sc.next + e.span ≤ a → (exploreEntry parent e sc).heap a = FsNode.fresh) ∧
    OpenDir (exploreEntry parent e sc).heap s parent (sc.next + e.span) ∧
    (∀ a, sc.next ≤ a → a < sc.next + e.span → NodeWF (exploreEntry parent e sc).heap s a)
  | .file name regular size ctime digest, parent, sc, s, hp, hs, ho, hf => by
    have hpn : parent ≠ sc.next := Nat.ne_of_lt hp
    have hsb : s sc.next = 1 := by
      rw [hs sc.next (Nat.le_refl _) (by simp [Entry.span])]
      simp [Entry.spanAt]
    simp only [exploreEntry, Entry.span]
    refine ⟨trivial, ?_, ?_, ?_, ?_⟩
    · intro a ha hap
      have : a ≠ sc.next := Nat.ne_of_lt ha
      simp [hap, this]
    · intro a ha
      have h1 : a ≠ sc.next := by omega
      have h2 : a ≠ parent := by omega
      simp only [Heap.get_modify, Heap.get_set, h1, h2, if_false]
      exact hf a (by omega)
    · apply ho.insert name (sc.next + 1) hp (by omega)
      · simp [hpn]
      · simp [hpn]
    · intro a h1 h2
      have : a = sc.next := by omega
      subst this
      have hne : sc.next ≠ parent := fun e => hpn e.symm
      refine ⟨?_, ?_, ?_, ?_⟩ <;> simp [hne, FsNode.fresh]
  | .dir name size ctime entries, parent, sc, s, hp, hs, ho, hf => by
    have hpn : parent ≠ sc.next := Nat.ne_of_lt hp
    have hnp : sc.next ≠ parent := fun e => hpn e.symm
    have hsb : s sc.next = 1 + spanList entries := by
      rw [hs sc.next (Nat.le_refl _) (by simp [Entry.span])]
      simp [Entry.spanAt]
    simp only [exploreEntry, Entry.span]
    generalize hsc1 : Scan.mk ((sc.heap.set sc.next
        { FsNode.fresh with
          size := size, name := name, parent := some parent, date_changed := ctime,
          path := (sc.heap parent).path ++ "/" ++ name, type := "dir" }).modify parent
        (fun p => { p with children := mapInsert p.children name sc.next }))
        (sc.next + 1) sc.fileStore = sc1
    have hn1 : sc1.next = sc.next + 1 := by rw [← hsc1]
    have hh1 : ∀ a, a ≠ sc.next → a ≠ parent → sc1.heap a = sc.heap a := by
      intro a h1 h2
      rw [← hsc1]
      simp [h1, h2]
    have hhb : sc1.heap sc.next = { FsNode.fresh with
          size := size, name := name, parent := some parent, date_changed := ctime,
          path := (sc.heap parent).path ++ "/" ++ name, type := "dir" } := by
      rw [← hsc1]
      simp [hnp]
    have hhp : (sc1.heap parent).children = mapInsert (sc.heap parent).children name sc.next ∧
        (sc1.heap parent).dstParent = (sc.heap parent).dstParent := by
      rw [← hsc1]
      simp [hpn]
    obtain ⟨i1, i2, i3, i4, i5⟩ := exploreList_wf entries sc.next sc1 s (by omega)
      (by
        intro a h1 h2
        rw [hn1] at h1 h2
        rw [hs a (by omega) (by simp only [Entry.span]; omega)]
        have : a ≠ sc.next := by omega
        simp [Entry.spanAt, this, hn1])
      (by
        rw [hn1]
        refine ⟨?_, ?_, ?_, ?_⟩ <;> simp [hhb, FsNode.fresh])
      (by
        intro a ha
        rw [hn1] at ha
        rw [hh1 a (by omega) (by omega)]
        exact hf a (by omega))
    rw [hn1] at i1 i2 i3 i4 i5
    refine ⟨by rw [i1]; omega, ?_, ?_, ?_, ?_⟩
    · intro a ha hap
      rw [i2 a (by omega) (by omega), hh1 a (by omega) hap]
    · intro a ha
      exact i3 a (by omega)
    · have e1 : (exploreList sc.next entries sc1).heap parent = sc1.heap parent :=
        i2 parent (by omega) hpn
      apply ho.insert name (sc.next + (1 + spanList entries)) hp (by omega)
      · rw [e1]; exact hhp.1
      · rw [e1]; exact hhp.2
    · intro a h1 h2
      by_cases e : a = sc.next
      · subst e
        refine ⟨?_, i4.child_disj, i4.child_keys, i4.no_dst⟩
        intro kc hkc
        have := i4.child_in kc hkc
        omega
      · exact i5 a (by omega) (by omega)
theorem exploreList_wf : ∀ (es : List Entry) (parent : Nat) (sc : Scan) (s : Nat → Nat),
    parent < sc.next →
    (∀ a, sc.next ≤ a → a < sc.next + spanList es → s a = spanAtList es sc.next a) →
    OpenDir sc.heap s parent sc.next →
    (∀ a, sc.next ≤ a → sc.heap a = FsNode.fresh) →
    (exploreList parent es sc).next = sc.next + spanList es ∧
    (∀ a, a < sc.next → a ≠ parent → (exploreList parent es sc).heap a = sc.heap a) ∧
    (∀ a, sc.next + spanList es ≤ a → (exploreList parent es sc).heap a = FsNode.fresh) ∧
    OpenDir (exploreList parent es sc).heap s parent (sc.next + spanList es) ∧
    (∀ a, sc.next ≤ a → a < sc.next + spanList es → NodeWF (exploreList parent es sc).heap s a)
  | [], parent, sc, s, hp, hs, ho, hf => by
    simp only [exploreList, spanList, Nat.add_zero]
    exact ⟨trivial, fun _ _ _ => trivial, hf, ho, fun a h1 h2 => by omega⟩
  | e :: es, parent, sc, s, hp, hs, ho, hf => by
    simp only [exploreList, spanList]
    have hep := e.span_pos
    obtain ⟨e1, e2, e3, e4, e5⟩ := exploreEntry_wf e parent sc s hp
      (by
        intro a h1 h2
        rw [hs a h1 (by simp only [spanList]; omega)]
        simp [spanAtList, h2])
      ho hf
    obtain ⟨l1, l2, l3, l4, l5⟩ := exploreList_wf es parent (exploreEntry parent e sc) s
      (by omega)
      (by
        intro a h1 h2
        rw [e1] at h1 h2
        rw [hs a (by omega) (by simp only [spanList]; omega)]
        have : ¬ a < sc.next + e.span := by omega
        simp [spanAtList, this, e1])
      (by rw [e1]; exact e4)
      (by
        intro a ha
        rw [e1] at ha
        exact e3 a ha)
    rw [e1] at l1 l2 l3 l4 l5
    refine ⟨by rw [l1]; omega, ?_, ?_, ?_, ?_⟩
    · intro a ha hap
      rw [l2 a (by omega) hap, e2 a ha hap]
    · intro a ha
      exact l3 a (by omega)
    · have : sc.next + (e.span + spanList es) = sc.next + e.span + spanList es := by omega
      rw [this]; exact l4
    · intro a h1 h2
      by_cases c : a < sc.next + e.span
      · exact (e5 a h1 c).congr (l2 a c (by omega))
      · exact l5 a (by omega) (by omega)
end

theorem scanSpan_pos (in1 in2 : List Entry) (a : Nat) : 1 ≤ scanSpan in1 in2 a := by
  unfold scanSpan
  split_ifs
  · omega
  · exact spanAtList_pos _ _ _
  · omega
  · exact spanAtList_pos _ _ _

theorem Heap.get_empty (a : Nat) : (⟨[]⟩ : Heap) a = FsNode.fresh := by
  show ([] : List FsNode).getD a FsNode.fresh = _
  simp

/-- Shape of the arena after both trees are scanned: tree 1 occupies the addresses from its
root 0 up to the root of tree 2, tree 2 those up to the arena size, and every node is well
formed for the block sizes `scanSpan`. -/
theorem scanBoth_wf (path1 path2 : String) (in1 in2 : List Entry) :
    (scanBoth path1 path2 in1 in2).2.1 = 0 ∧
    (scanBoth path1 path2 in1 in2).2.2 = 1 + spanList in1 ∧
    (scanBoth path1 path2 in1 in2).1.next = 1 + spanList in1 + (1 + spanList in2) ∧
    (∀ a, NodeWF (scanBoth path1 path2 in1 in2).1.heap (scanSpan in1 in2) a) := by
  have hs0 : scanSpan in1 in2 0 = 1 + spanList in1 := by simp [scanSpan]
  have hs2 : scanSpan in1 in2 (1 + spanList in1) = 1 + spanList in2 := by
    simp [scanSpan]
  generalize hA : Scan.mk ((⟨[]⟩ : Heap).set 0
      { FsNode.fresh with name := path1, path := path1, type := "dir" }) (0 + 1) [] = scA
  have hAn : scA.next = 1 := by rw [← hA]
  have hA0 : scA.heap 0 = { FsNode.fresh with name := path1, path := path1, type := "dir" } := by
    rw [← hA]; simp
  have hAf : ∀ a, 1 ≤ a → scA.heap a = FsNode.fresh := by
    intro a ha
    rw [← hA]
    have : a ≠ 0 := by omega
    simp [this, Heap.get_empty]
  obtain ⟨a1, a2, a3, a4, a5⟩ := exploreList_wf in1 0 scA (scanSpan in1 in2) (by omega)
    (by
      intro a h1 h2
      rw [hAn] at h1 h2
      have h3 : a ≠ 0 := by omega
      simp [scanSpan, h3, h2, hAn])
    (by
      rw [hAn]
      refine ⟨?_, ?_, ?_, ?_⟩ <;> simp [hA0, FsNode.fresh])
    (by rw [hAn]; exact hAf)
  rw [hAn] at a1 a2 a3 a4 a5
  generalize hS1 : exploreList 0 in1 scA = S1 at a1 a2 a3 a4 a5
  generalize hB : Scan.mk (S1.heap.set S1.next
      { FsNode.fresh with name := path2, path := path2, type := "dir" }) (S1.next + 1)
      S1.fileStore = scB
  have hBn : scB.next = 1 + spanList in1 + 1 := by rw [← hB, ← a1]
  have hBr : scB.heap (1 + spanList in1) =
      { FsNode.fresh with name := path2, path := path2, type := "dir" } := by
    rw [← hB, ← a1]; simp
  have hBo : ∀ a, a ≠ 1 + spanList in1 → scB.heap a = S1.heap a := by
    intro a ha
    rw [← hB, a1]
    simp [ha]
  obtain ⟨b1, b2, b3, b4, b5⟩ := exploreList_wf in2 (1 + spanList in1) scB (scanSpan in1 in2)
    (by omega)
    (by
      intro a h1 h2
      rw [hBn] at h1 h2
      have h3 : a ≠ 0 := by omega
      have h4 : ¬ a < 1 + spanList in1 := by omega
      have h5 : a ≠ 1 + spanList in1 := by omega
      simp [scanSpan, h3, h4, h5, hBn])
    (by
      rw [hBn]
      refine ⟨?_, ?_, ?_, ?_⟩ <;> simp [hBr, FsNode.fresh])
    (by
      intro a ha
      rw [hBn] at ha
      rw [hBo a (by omega)]
      exact a3 a (by omega))
  rw [hBn] at b1 b2 b3 b4 b5
  have hres : scanBoth path1 path2 in1 in2 =
      (exploreList (1 + spanList in1) in2 scB, 0, 1 + spanList in1) := by
    simp only [scanBoth, build, hA, hS1]
    rw [← hB, a1]
  rw [hres]
  refine ⟨rfl, rfl, by rw [b1]; omega, ?_⟩
  intro a
  simp only
  by_cases c1 : a < 1 + spanList in1
  · have e : (exploreList (1 + spanList in1) in2 scB).heap a = S1.heap a := by
      rw [b2 a (by omega) (by omega), hBo a (by omega)]
    by_cases c0 : a = 0
    · subst c0
      refine NodeWF.congr ⟨?_, a4.child_disj, a4.child_keys, a4.no_dst⟩ e
      intro kc hkc
      have := a4.child_in kc hkc
      omega
    · exact (a5 a (by omega) c1).congr e
  · by_cases c2 : a = 1 + spanList in1
    · subst c2
      refine ⟨?_, b4.child_disj, b4.child_keys, b4.no_dst⟩
      intro kc hkc
      have := b4.child_in kc hkc
      omega
    · by_cases c3 : a < 1 + spanList in1 + 1 + spanList in2
      · exact b5 a (by omega) c3
      · have e := b3 a (by omega)
        refine ⟨?_, ?_, ?_, ?_⟩ <;> simp [e, FsNode.fresh]

/-! ## The plan of two scanned trees is ordered -/

theorem subordinateAll_fields (best : Nat) : ∀ (ds : List Nat) (h : Heap) (a : Nat),
    (subordinateAll best ds h a).children = (h a).children ∧
    (subordinateAll best ds h a).parent = (h a).parent ∧
    (subordinateAll best ds h a).dstParent = (h a).dstParent := by
  intro ds
  induction ds with
  | nil => intro h a; exact ⟨rfl, rfl, rfl⟩
  | cons d ds ih =>
    intro h a
    simp only [subordinateAll]
    obtain ⟨i1, i2, i3⟩ := ih (if d ≠ best then makeSub h d best else h) a
    rw [i1, i2, i3]
    split_ifs <;> simp

/-- Phase A changes neither `children` nor `parent` nor `dstParent` of any node. -/
theorem phaseA_fields (fileStore : List (String × Nat)) :
    ∀ (l : List (String × Nat)) (fhash : List String) (h g : Heap),
      phaseA fileStore l fhash h = some g →
      ∀ a, (g a).children = (h a).children ∧ (g a).parent = (h a).parent ∧
        (g a).dstParent = (h a).dstParent := by
  intro l
  induction l with
  | nil =>
    intro fhash h g hp a
    simp only [phaseA, Option.some.injEq] at hp
    subst hp
    exact ⟨rfl, rfl, rfl⟩
  | cons x l ih =>
    obtain ⟨k, v⟩ := x
    intro fhash h g hp a
    simp only [phaseA] at hp
    split_ifs at hp with c1 c2
    · exact ih _ _ _ hp a
    · cases hb : findBest h (equalRange fileStore k) none with
      | none => rw [hb] at hp; cases hp
      | some ob =>
        cases ob with
        | none => rw [hb] at hp; cases hp
        | some best =>
          rw [hb] at hp
          simp only at hp
          obtain ⟨i1, i2, i3⟩ := ih _ _ _ hp a
          obtain ⟨j1, j2, j3⟩ := subordinateAll_fields best (equalRange fileStore k) h a
          exact ⟨i1.trans j1, i2.trans j2, i3.trans j3⟩
    · exact ih _ _ _ hp a

theorem subordinateAll_type (best : Nat) : ∀ (ds : List Nat) (h : Heap) (a : Nat),
    (subordinateAll best ds h a).type = (h a).type := by
  intro ds
  induction ds with
  | nil => intro h a; rfl
  | cons d ds ih =>
    intro h a
    simp only [subordinateAll]
    rw [ih]
    split_ifs <;> simp

/-- Phase A changes the `type` of no node. -/
theorem phaseA_type (fileStore : List (String × Nat)) :
    ∀ (l : List (String × Nat)) (fhash : List String) (h g : Heap),
      phaseA fileStore l fhash h = some g → ∀ a, (g a).type = (h a).type := by
  intro l
  induction l with
  | nil =>
    intro fhash h g hp a
    simp only [phaseA, Option.some.injEq] at hp
    subst hp
    rfl
  | cons x l ih =>
    obtain ⟨k, v⟩ := x
    intro fhash h g hp a
    simp only [phaseA] at hp
    split_ifs at hp with c1 c2
    · exact ih _ _ _ hp a
    · cases hb : findBest h (equalRange fileStore k) none with
      | none => rw [hb] at hp; cases hp
      | some ob =>
        cases ob with
        | none => rw [hb] at hp; cases hp
        | some best =>
          rw [hb] at hp
          simp only at hp
          exact (ih _ _ _ hp a).trans (subordinateAll_type best _ h a)
    · exact ih _ _ _ hp a

mutual
theorem exploreEntry_type : ∀ (e : Entry) (parent : Nat) (sc : Scan) (a : Nat),
    a < sc.next → ((exploreEntry parent e sc).heap a).type = (sc.heap a).type ∧
      sc.next ≤ (exploreEntry parent e sc).next
  | .file name regular size ctime digest, parent, sc, a => by
    intro ha
    have hne : a ≠ sc.next := by omega
    refine ⟨?_, by simp [exploreEntry]⟩
    by_cases hp : a = parent
    · subst hp; simp [exploreEntry, hne]
    · simp [exploreEntry, hne, hp]
  | .dir name size ctime es, parent, sc, a => by
    intro ha
    have hne : a ≠ sc.next := by omega
    simp only [exploreEntry]
    obtain ⟨i1, i2⟩ := exploreList_type es sc.next
      (Scan.mk ((sc.heap.set sc.next
        { FsNode.fresh with
          size := size, name := name, parent := some parent, date_changed := ctime,
          path := (sc.heap parent).path ++ "/" ++ name, type := "dir" }).modify parent
        (fun p => { p with children := mapInsert p.children name sc.next })) (sc.next + 1)
        sc.fileStore) a (by simp only; omega)
    simp only at i1 i2
    refine ⟨?_, by omega⟩
    rw [i1]
    by_cases hp : a = parent
    · subst hp; simp [hne]
    · simp [hne, hp]
theorem exploreList_type : ∀ (es : List Entry) (parent : Nat) (sc : Scan) (a : Nat),
    a < sc.next → ((exploreList parent es sc).heap a).type = (sc.heap a).type ∧
      sc.next ≤ (exploreList parent es sc).next
  | [], parent, sc, a => by
    intro _
    simp [exploreList]
  | e :: es, parent, sc, a => by
    intro ha
    simp only [exploreList]
    obtain ⟨e1, e2⟩ := exploreEntry_type e parent sc a ha
    obtain ⟨l1, l2⟩ := exploreList_type es parent (exploreEntry parent e sc) a (by omega)
    exact ⟨l1.trans e1, by omega⟩
end

theorem scanBoth_root_type (path1 path2 : String) (in1 in2 : List Entry) :
    ((scanBoth path1 path2 in1 in2).1.heap 0).type = "dir" := by
  simp only [scanBoth, build]
  have h1 := exploreList_type in1 0 (Scan.mk ((⟨[]⟩ : Heap).set 0
    { FsNode.fresh with name := path1, path := path1, type := "dir" }) (0 + 1) []) 0
    (by simp only; omega)
  simp only at h1
  generalize exploreList 0 in1 (Scan.mk ((⟨[]⟩ : Heap).set 0
    { FsNode.fresh with name := path1, path := path1, type := "dir" }) (0 + 1) []) = S1 at *
  have h2 := exploreList_type in2 S1.next (Scan.mk (S1.heap.set S1.next
    { FsNode.fresh with name := path2, path := path2, type := "dir" }) (S1.next + 1)
    S1.fileStore) 0 (by simp only; omega)
  simp only at h2
  rw [h2.1]
  have hne : (0 : Nat) ≠ S1.next := by omega
  simp only [Heap.get_set, hne, if_false]
  rw [h1.1]
  simp

theorem mem_mapInsert {m : List (String × Nat)} {k : String} {v : Nat} {x : String × Nat}
    (hx : x ∈ mapInsert m k v) : x ∈ m ∨ x = (k, v) := by
  unfold mapInsert at hx
  split at hx
  · exact Or.inl hx
  · simpa using hx

/-- One allocation keeps the property that every entry of a `children` map is allocated and
has a parent. -/
theorem kids_step {h g : Heap} {n : Nat}
    (hk : ∀ a k c, (k, c) ∈ (h a).children → c < n ∧ (h c).parent ≠ none)
    (hnew : (g n).parent ≠ none)
    (hpar : ∀ c, c < n → (h c).parent ≠ none → (g c).parent ≠ none)
    (hch : ∀ a k c, (k, c) ∈ (g a).children → (k, c) ∈ (h a).children ∨ c = n) :
    ∀ a k c, (k, c) ∈ (g a).children → c < n + 1 ∧ (g c).parent ≠ none := by
  intro a k c hkc
  rcases hch a k c hkc with h1 | h1
  · obtain ⟨h2, h3⟩ := hk a k c h1
    exact ⟨by omega, hpar c h2 h3⟩
  · subst h1
    exact ⟨by omega, hnew⟩

mutual
theorem exploreEntry_kids : ∀ (e : Entry) (parent : Nat) (sc : Scan),
    (∀ a k c, (k, c) ∈ (sc.heap a).children → c < sc.next ∧ (sc.heap c).parent ≠ none) →
    ∀ a k c, (k, c) ∈ ((exploreEntry parent e sc).heap a).children →
      c < (exploreEntry parent e sc).next ∧ ((exploreEntry parent e sc).heap c).parent ≠ none
  | .file name regular size ctime digest, parent, sc => by
    intro hk
    simp only [exploreEntry]
    apply kids_step hk
    · by_cases hp : sc.next = parent <;> simp [hp]
    · intro c hc hpc
      have hne : c ≠ sc.next := by omega
      by_cases hp : c = parent
      · subst hp
        simpa [hne] using hpc
      · simpa [hne, hp] using hpc
    · intro a k c hkc
      by_cases hp : a = parent
      · subst hp
        simp only [Heap.get_modify, Heap.get_set, if_true] at hkc
        rcases mem_mapInsert hkc with h1 | h1
        · left
          by_cases hn : a = sc.next
          · simp [hn, FsNode.fresh] at h1
          · simpa [hn] using h1
        · right
          simp only [Prod.mk.injEq] at h1
          exact h1.2
      · left
        by_cases hn : a = sc.next
        · simp [hn, hp, FsNode.fresh] at hkc
          simp [← hn, hp, FsNode.fresh] at hkc
        · simpa [hn, hp] using hkc
  | .dir name size ctime es, parent, sc => by
    intro hk
    simp only [exploreEntry]
    apply exploreList_kids es sc.next
    simp only
    apply kids_step hk
    · by_cases hp : sc.next = parent <;> simp [hp]
    · intro c hc hpc
      have hne : c ≠ sc.next := by omega
      by_cases hp : c = parent
      · subst hp
        simpa [hne] using hpc
      · simpa [hne, hp] using hpc
    · intro a k c hkc
      by_cases hp : a = parent
      · subst hp
        simp only [Heap.get_modify, Heap.get_set, if_true] at hkc
        rcases mem_mapInsert hkc with h1 | h1
        · left
          by_cases hn : a = sc.next
          · simp [hn, FsNode.fresh] at h1
          · simpa [hn] using h1
        · right
          simp only [Prod.mk.injEq] at h1
          exact h1.2
      · left
        by_cases hn : a = sc.next
        · simp [hn, hp, FsNode.fresh] at hkc
          simp [← hn, hp, FsNode.fresh] at hkc
        · simpa [hn, hp] using hkc
theorem exploreList_kids : ∀ (es : List Entry) (parent : Nat) (sc : Scan),
    (∀ a k c, (k, c) ∈ (sc.heap a).children → c < sc.next ∧ (sc.heap c).parent ≠ none) →
    ∀ a k c, (k, c) ∈ ((exploreList parent es sc).heap a).children →
      c < (exploreList parent es sc).next ∧ ((exploreList parent es sc).heap c).parent ≠ none
  | [], parent, sc => by
    intro hk
    simpa [exploreList] using hk
  | e :: es, parent, sc => by
    intro hk
    simp only [exploreList]
    exact exploreList_kids es parent _ (exploreEntry_kids e parent sc hk)
end

theorem build_kids (rootpath : String) (entries : List Entry) (sc : Scan)
    (hk : ∀ a k c, (k, c) ∈ (sc.heap a).children → c < sc.next ∧ (sc.heap c).parent ≠ none) :
    ∀ a k c, (k, c) ∈ ((build rootpath entries sc).1.heap a).children →
      c < (build rootpath entries sc).1.next ∧ ((build rootpath entries sc).1.heap c).parent ≠ none := by
  simp only [build]
  apply exploreList_kids
  intro a k c hkc
  simp only [Heap.get_set] at hkc ⊢
  by_cases ha : a = sc.next
  · simp [ha, FsNode.fresh] at hkc
  · simp only [ha, if_false] at hkc
    obtain ⟨h1, h2⟩ := hk a k c hkc
    have hne : c ≠ sc.next := by omega
    simp only [hne, if_false]
    exact ⟨by omega, h2⟩

/-- After both trees are scanned every entry of a `children` map has a parent. -/
theorem scanBoth_kids (path1 path2 : String) (in1 in2 : List Entry) :
    ∀ a k c, (k, c) ∈ ((scanBoth path1 path2 in1 in2).1.heap a).children →
      ((scanBoth path1 path2 in1 in2).1.heap c).parent ≠ none := by
  intro a k c hkc
  simp only [scanBoth] at hkc ⊢
  refine (build_kids path2 in2 _ (build_kids path1 in1 _ ?_) a k c hkc).2
  intro a k c hkc
  simp [Heap.get_empty, FsNode.fresh] at hkc

theorem StepsOrdered.nil (root : Nat) (h : Heap) : StepsOrdered root h [] := by
  intro pre e post hq
  simp at hq

/-- After Phases A and B on a well-formed arena the planner invariant holds. -/
theorem planAB_inv (fuel : Nat) (heap : Heap) (next r1 r2 : Nat) (pathout : String)
    (fileStore : List (String × Nat)) (span : Nat → Nat) (t : FsTree)
    (hwf : ∀ a, NodeWF heap span a) (hpos : ∀ a, 1 ≤ span a)
    (h12 : r1 + span r1 ≤ r2) (h2n : r2 + span r2 ≤ next)
    (hrt : (heap r1).type = "dir")
    (hkid : ∀ a k c, (k, c) ∈ (heap a).children → (heap c).parent ≠ none)
    (h : planAB fuel heap next r1 r2 pathout fileStore = some t) :
    ∃ hA, phaseA fileStore fileStore [] heap = some hA ∧
      Ctx hA t.root (fun _ => False) t.state ∧
      ((∀ a, ∀ s ∈ (hA a).subordinates, IsFile hA next s) →
        (∀ a x, (hA a).topSup = some x → IsFile hA next x) →
        (∀ kc ∈ (hA r1).children, ∀ y, (hA r2).children.lookup kc.1 = some y →
          Agree hA kc.2 y) →
        Clean hA next t.state) := by
  unfold planAB at h
  cases hA : phaseA fileStore fileStore [] heap with
  | none => rw [hA] at h; cases h
  | some hA' =>
    rw [hA] at h
    simp only [Planner.pushNode, pushStep_mkdir] at h
    have hf := phaseA_fields fileStore _ _ _ _ hA
    have wf : TreeWF hA' span := by
      refine ⟨?_, ?_, ?_, hpos, ?_⟩
      · intro a k c hk
        rw [(hf a).1] at hk
        exact (hwf a).child_in (k, c) hk
      · intro a
        rw [(hf a).1]
        exact (hwf a).child_disj
      · intro a
        rw [(hf a).1]
        exact (hwf a).child_keys
      · intro a k c hk
        rw [(hf a).1] at hk
        rw [(hf c).2.1]
        exact hkid a k c hk
    have hnd : ∀ a, (hA' a).dstParent = none := fun a => by
      rw [(hf a).2.2]; exact (hwf a).no_dst
    match hm : mergeDirs fuel next r2 _, h with
    | none, h => simp [hm] at h
    | some st4, h =>
      simp only [hm, Option.some.injEq] at h
      subst h
      refine ⟨hA', rfl, ?_⟩
      have hp1 := hpos r1
      have hp2 := hpos r2
      -- the heap after the root of the result tree is set up
      have hheap : ∀ a, a ≠ next →
          (setParent ((hA'.set next (hA' r1)).modify next
            (fun n => { n with name := pathout, path := pathout })) next none) a = hA' a := by
        intro a ha
        simp [setParent, ha]
      have hroot : (setParent ((hA'.set next (hA' r1)).modify next
            (fun n => { n with name := pathout, path := pathout })) next none next).children =
            (hA' r1).children ∧
          (setParent ((hA'.set next (hA' r1)).modify next
            (fun n => { n with name := pathout, path := pathout })) next none next).dstParent =
            none := by
        simp [setParent, hnd]
      have hmade : ∀ d, Made ([] ++ [mkdirStep (setParent ((hA'.set next (hA' r1)).modify next
            (fun n => { n with name := pathout, path := pathout })) next none) next]) d ↔
            d = next := by
        intro d
        rw [made_snoc_mkdir]
        constructor
        · rintro (⟨e, he, -⟩ | e)
          · cases he
          · exact e.symm
        · intro e; exact Or.inr e.symm
      have hctx : Ctx hA' next
          (fun a => (r1 < a ∧ a < r1 + span r1) ∨ (r2 ≤ a ∧ a < r2 + span r2))
          { heap := setParent ((hA'.set next (hA' r1)).modify next
              (fun n => { n with name := pathout, path := pathout })) next none,
            next := next + 1, plannedNode := [] ++ [next],
            editSteps := [] ++ [mkdirStep (setParent ((hA'.set next (hA' r1)).modify next
              (fun n => { n with name := pathout, path := pathout })) next none) next],
            sups := [] } := by
        refine ⟨?_, ?_, ?_, ?_, ?_, ?_, ?_, ?_, ?_, ?_, ?_, ?_, ?_,
          fun e he => by
            simp only [List.nil_append, List.mem_singleton] at he
            subst he
            exact Or.inl rfl⟩
        rotate_left 7
        · intro d hd hr
          exact absurd ((hmade d).mp hd) hr
        · intro a d had
          exfalso
          by_cases e : a = next
          · subst e
            rw [hroot.2] at had
            cases had
          · simp only at had
            rw [hheap a e, hnd a] at had
            cases had
        · intro a ha hp
          have e : a ≠ next := by omega
          simp only
          rw [hheap a e]
          exact hp
        · simp
        · intro pre e post hq hcp _
          have he : e ∈ ([] ++ [mkdirStep (setParent ((hA'.set next (hA' r1)).modify next
            (fun n => { n with name := pathout, path := pathout })) next none) next]) := by
            simp only at hq
            rw [hq]
            simp
          simp only [List.nil_append, List.mem_singleton] at he
          subst he
          simp [mkdirStep] at hcp
        · intro e he hcp
          simp only [List.nil_append, List.mem_singleton] at he
          subst he
          simp [mkdirStep] at hcp
        · exact (StepsOrdered.nil next _).snoc _ (fun _ hne => absurd rfl hne)
            (fun hc => by simp [mkdirStep] at hc)
        · intro a d had
          exfalso
          by_cases e : a = next
          · subst e
            rw [hroot.2] at had
            cases had
          · simp only at had
            rw [hheap a e, hnd a] at had
            cases had
        · intro d hd
          have := (hmade d).mp hd
          simp only
          omega
        · intro a ha
          have hlt : a < next := by omega
          refine ⟨?_, ?_, by simp only; omega⟩
          · simp only
            rw [hheap a (by omega)]
          · intro hmd
            have := (hmade a).mp hmd
            omega
        · intro e he hcp
          simp only [List.nil_append, List.mem_singleton] at he
          subst he
          simp [mkdirStep] at hcp
        · intro a ha
          simp only at ha
          have e : a ≠ next := by omega
          simp only
          rw [hheap a e]
          exact hnd a
        · intro d hd
          have := (hmade d).mp hd
          subst this
          simp only [setParent_type, Heap.get_modify, Heap.get_set, if_true]
          rw [phaseA_type fileStore _ _ _ _ hA r1]
          exact hrt
      have hpost := mergeDirs_ok wf fuel
        (fun a => (r1 < a ∧ a < r1 + span r1) ∨ (r2 ≤ a ∧ a < r2 + span r2))
        next r2 _ _ hm hctx ((hmade next).mpr rfl)
        (by
          intro hp
          rcases hp with hp | hp <;> omega)
        (Or.inr ⟨Nat.le_refl _, by omega⟩)
        (by simp only; rw [hroot.1]; exact wf.child_disj r1)
        (by simp only; rw [hroot.1]; exact wf.child_keys r1)
        (by
          simp only
          rw [hroot.1]
          intro kc hk a ha
          have := wf.child_in r1 kc.1 kc.2 hk
          unfold InSub at ha
          left; omega)
        (by
          intro kd hk a ha
          have := wf.child_in r2 kd.1 kd.2 hk
          unfold InSub at ha
          right; omega)
        (by
          simp only
          rw [hroot.1]
          intro kc hk kd hkd
          have := wf.child_in r1 kc.1 kc.2 hk
          have := wf.child_in r2 kd.1 kd.2 hkd
          omega)
        (by
          simp only
          rw [hroot.1]
          intro kc hk hin
          have := wf.child_in r1 kc.1 kc.2 hk
          unfold InSub at hin
          omega)
        (by
          simp only
          rw [hroot.1]
          intro kc hk
          exact wf.child_par r1 kc.1 kc.2 hk)
      refine ⟨hpost.1.mono (fun a ha => ha.elim), ?_⟩
      intro hsubs htops hag
      have hrtA : (hA' r1).type = "dir" := by
        rw [phaseA_type fileStore _ _ _ _ hA r1]
        exact hrt
      refine hpost.2.2 next (by intro a ha; rcases ha with ha | ha <;> omega)
        (by simp only; rw [hroot.1]; exact hag) ?_
      refine
        { bound := by simp
          types := fun a ha => by simp only; rw [hheap a (by omega)]
          new_dir := fun a h1 h2 => by
            simp only at h2
            have e : a = next := by omega
            subst e
            simp only [setParent_type, Heap.get_modify, Heap.get_set, if_true]
            exact hrtA
          file_path := fun a ha => by
            have := ha.1
            simp only
            rw [hheap a (by omega)]
          cp_src := fun e he hcp => by
            simp only [List.nil_append, List.mem_singleton] at he
            subst he
            simp [mkdirStep] at hcp
          subs := fun a s hs => by
            by_cases e : a = next
            · subst e
              simp only [setParent_subordinates, Heap.get_modify, Heap.get_set, if_true] at hs
              exact hsubs r1 s hs
            · simp only at hs
              rw [hheap a e] at hs
              exact hsubs a s hs
          tops := fun a x hx => by
            by_cases e : a = next
            · subst e
              simp only [setParent_topSup, Heap.get_modify, Heap.get_set, if_true] at hx
              exact htops r1 x hx
            · simp only at hx
              rw [hheap a e] at hx
              exact htops a x hx
          sups := fun s hs => by simp at hs }

/-- After Phases A and B of the merge constructor on a well-formed arena the planner invariant
holds. -/
theorem planAB_ctx (fuel : Nat) (heap : Heap) (next r1 r2 : Nat) (pathout : String)
    (fileStore : List (String × Nat)) (span : Nat → Nat) (t : FsTree)
    (hwf : ∀ a, NodeWF heap span a) (hpos : ∀ a, 1 ≤ span a)
    (h12 : r1 + span r1 ≤ r2) (h2n : r2 + span r2 ≤ next)
    (hrt : (heap r1).type = "dir")
    (hkid : ∀ a k c, (k, c) ∈ (heap a).children → (heap c).parent ≠ none)
    (h : planAB fuel heap next r1 r2 pathout fileStore = some t) :
    ∃ h0, Ctx h0 t.root (fun _ => False) t.state := by
  obtain ⟨hA, -, hc, -⟩ := planAB_inv fuel heap next r1 r2 pathout fileStore span t hwf hpos
    h12 h2n hrt hkid h
  exact ⟨hA, hc⟩

/-- After the whole merge constructor on a well-formed arena the planner invariant holds, and
`Clean` holds when the roots agree and the hierarchies of Phase A hold files only. -/
theorem plan_inv (fuel : Nat) (heap : Heap) (next r1 r2 : Nat) (pathout : String)
    (fileStore : List (String × Nat)) (span : Nat → Nat) (t : FsTree)
    (hwf : ∀ a, NodeWF heap span a) (hpos : ∀ a, 1 ≤ span a)
    (h12 : r1 + span r1 ≤ r2) (h2n : r2 + span r2 ≤ next)
    (hrt : (heap r1).type = "dir")
    (hkid : ∀ a k c, (k, c) ∈ (heap a).children → (heap c).parent ≠ none)
    (h : plan fuel heap next r1 r2 pathout fileStore = some t) :
    ∃ hA, phaseA fileStore fileStore [] heap = some hA ∧
      Ctx hA t.root (fun _ => False) t.state ∧
      ((∀ a, ∀ s ∈ (hA a).subordinates, IsFile hA next s) →
        (∀ a x, (hA a).topSup = some x → IsFile hA next x) →
        (∀ kc ∈ (hA r1).children, ∀ y, (hA r2).children.lookup kc.1 = some y →
          Agree hA kc.2 y) →
        Clean hA next t.state) := by
  unfold plan at h
  cases hab : planAB fuel heap next r1 r2 pathout fileStore with
  | none => rw [hab] at h; cases h
  | some t1 =>
    rw [hab] at h
    simp only at h
    obtain ⟨hA, hpa, hc, hk⟩ := planAB_inv fuel heap next r1 r2 pathout fileStore span t1 hwf
      hpos h12 h2n hrt hkid hab
    cases hc3 : phaseC fuel t1.state.sups t1.state with
    | none => rw [hc3] at h; cases h
    | some st =>
      rw [hc3] at h
      simp only [Option.some.injEq] at h
      subst h
      refine ⟨hA, hpa, phaseC_ctx fuel _ _ _ hc hc3, ?_⟩
      intro hsubs htops hag
      have k1 := hk hsubs htops hag
      exact phaseC_clean fuel _ _ _ k1 k1.sups hc3

/-- After the whole merge constructor on a well-formed arena the planner invariant holds. -/
theorem plan_ctx (fuel : Nat) (heap : Heap) (next r1 r2 : Nat) (pathout : String)
    (fileStore : List (String × Nat)) (span : Nat → Nat) (t : FsTree)
    (hwf : ∀ a, NodeWF heap span a) (hpos : ∀ a, 1 ≤ span a)
    (h12 : r1 + span r1 ≤ r2) (h2n : r2 + span r2 ≤ next)
    (hrt : (heap r1).type = "dir")
    (hkid : ∀ a k c, (k, c) ∈ (heap a).children → (heap c).parent ≠ none)
    (h : plan fuel heap next r1 r2 pathout fileStore = some t) :
    ∃ h0, Ctx h0 t.root (fun _ => False) t.state := by
  unfold plan at h
  cases hab : planAB fuel heap next r1 r2 pathout fileStore with
  | none => rw [hab] at h; cases h
  | some t1 =>
    rw [hab] at h
    simp only at h
    obtain ⟨h0, hc⟩ := planAB_ctx fuel heap next r1 r2 pathout fileStore span t1 hwf hpos h12
      h2n hrt hkid hab
    cases hc3 : phaseC fuel t1.state.sups t1.state with
    | none => rw [hc3] at h; cases h
    | some st =>
      rw [hc3] at h
      simp only [Option.some.injEq] at h
      subst h
      exact ⟨h0, phaseC_ctx fuel _ _ _ hc hc3⟩

/-- The planner invariant holds for the plan of any two scanned trees. -/
theorem unidupe_ctx (fuel : Nat) (path1 path2 pathout : String) (in1 in2 : List Entry)
    (t : FsTree) (h : unidupe fuel path1 path2 pathout in1 in2 = some t) :
    ∃ h0, Ctx h0 t.root (fun _ => False) t.state := by
  obtain ⟨w1, w2, w3, w4⟩ := scanBoth_wf path1 path2 in1 in2
  have w5 := scanBoth_root_type path1 path2 in1 in2
  have w6 := scanBoth_kids path1 path2 in1 in2
  unfold unidupe at h
  rcases hs : scanBoth path1 path2 in1 in2 with ⟨sc, r1, r2⟩
  rw [hs] at h w1 w2 w3 w4 w5 w6
  simp only at h w1 w2 w3 w4 w5 w6
  subst w1 w2
  refine plan_ctx fuel sc.heap sc.next 0 (1 + spanList in1) pathout sc.fileStore
    (scanSpan in1 in2) t w4 (scanSpan_pos in1 in2) ?_ ?_ w5 w6 h
  · simp [scanSpan]
  · rw [w3]
    simp [scanSpan]

/-- C3: in the queue planned for any two scanned trees every step's required directory is
created earlier: each `Mkdir` of a node other than the result root is preceded by the `Mkdir`
of that node's parent, and each `Copy` is preceded by the `Mkdir` of its destination. -/
theorem plan_steps_ordered (fuel : Nat) (path1 path2 pathout : String) (in1 in2 : List Entry)
    (t : FsTree) (h : unidupe fuel path1 path2 pathout in1 in2 = some t) :
    StepsOrdered t.root t.state.heap t.state.editSteps := by
  obtain ⟨h0, hc⟩ := unidupe_ctx fuel path1 path2 pathout in1 in2 t h
  exact hc.ordered

/-- Witness of `plan_steps_ordered`: the plan for the trees `{a/f, b/f}` and `{c/f}`. -/
theorem plan_steps_ordered_witness :
    StepsOrdered ((unidupe 3 "in1" "in2" "out" namesakeIn1 namesakeIn2).get (by decide)).root
      ((unidupe 3 "in1" "in2" "out" namesakeIn1 namesakeIn2).get (by decide)).state.heap
      ((unidupe 3 "in1" "in2" "out" namesakeIn1 namesakeIn2).get (by decide)).state.editSteps :=
  plan_steps_ordered 3 "in1" "in2" "out" namesakeIn1 namesakeIn2 _ (Option.some_get _).symm

/-! ## Phase C on twin files -/

theorem comparRecent_set (h : Heap) (k : Nat) (v : FsNode) (a b : FsNode)
    (ha : ∀ p, a.parent = some p → p ≠ k) (hb : ∀ q, b.parent = some q → q ≠ k) :
    comparRecent (h.set k v) a b = comparRecent h a b := by
  simp only [comparRecent]
  cases hpa : a.parent with
  | none => rfl
  | some p =>
    cases hpb : b.parent with
    | none => rfl
    | some q =>
      simp only [Heap.get_set, ha p hpa, hb q hpb, if_false]

/-! ## Phase B on twin trees: preliminaries -/

mutual
theorem Entry.infos_bounds : ∀ (e : Entry) (b p d : Nat) (s1 s2 out : String),
    ∀ x ∈ e.infos b p d s1 s2 out, (b ≤ x.f ∧ x.f < b + e.span) ∧
      (x.p = p ∨ (b ≤ x.p ∧ x.p < b + e.span)) ∧ (x.d = d ∨ (b ≤ x.d ∧ x.d < b + e.span))
  | .file name regular size ctime digest, b, p, d, s1, s2, out => by
    intro x hx
    simp only [Entry.infos, List.mem_singleton] at hx
    subst hx
    simp [Entry.span]
  | .dir name size ctime es, b, p, d, s1, s2, out => by
    intro x hx
    simp only [Entry.infos] at hx
    have := infosList_bounds es (b + 1) b b _ _ _ x hx
    simp only [Entry.span]
    omega
theorem infosList_bounds : ∀ (es : List Entry) (b p d : Nat) (s1 s2 out : String),
    ∀ x ∈ infosList es b p d s1 s2 out, (b ≤ x.f ∧ x.f < b + spanList es) ∧
      (x.p = p ∨ (b ≤ x.p ∧ x.p < b + spanList es)) ∧
      (x.d = d ∨ (b ≤ x.d ∧ x.d < b + spanList es))
  | [], b, p, d, s1, s2, out => by
    intro x hx
    simp [infosList] at hx
  | e :: es, b, p, d, s1, s2, out => by
    intro x hx
    simp only [infosList, List.mem_append] at hx
    simp only [spanList]
    rcases hx with hx | hx
    · have := Entry.infos_bounds e b p d s1 s2 out x hx
      omega
    · have := infosList_bounds es (b + e.span) p d s1 s2 out x hx
      omega
end

mutual
theorem Entry.infos_sorted : ∀ (e : Entry) (b p d : Nat) (s1 s2 out : String),
    (e.infos b p d s1 s2 out).Pairwise (fun x y => x.f ≠ y.f)
  | .file name regular size ctime digest, b, p, d, s1, s2, out => by
    simp [Entry.infos]
  | .dir name size ctime es, b, p, d, s1, s2, out => by
    simp only [Entry.infos]
    exact infosList_sorted es (b + 1) b b _ _ _
theorem infosList_sorted : ∀ (es : List Entry) (b p d : Nat) (s1 s2 out : String),
    (infosList es b p d s1 s2 out).Pairwise (fun x y => x.f ≠ y.f)
  | [], b, p, d, s1, s2, out => by
    simp [infosList]
  | e :: es, b, p, d, s1, s2, out => by
    simp only [infosList]
    rw [List.pairwise_append]
    refine ⟨Entry.infos_sorted e b p d s1 s2 out, infosList_sorted es _ p d s1 s2 out, ?_⟩
    intro x hx y hy
    have h1 := Entry.infos_bounds e b p d s1 s2 out x hx
    have h2 := infosList_bounds es (b + e.span) p d s1 s2 out y hy
    omega
end

theorem kids_keys : ∀ (es : List Entry) (b : Nat), (kids b es).map Prod.fst = es.map Entry.name
  | [], b => rfl
  | e :: es, b => by simp [kids, kids_keys es]

theorem kids_lookup_shift (n : Nat) : ∀ (es : List Entry) (b : Nat),
    (es.map Entry.name).Nodup →
    ∀ kc ∈ kids b es, (kids (b + n) es).lookup kc.1 = some (kc.2 + n)
  | [], b => by
    intro _ kc hk
    simp [kids] at hk
  | e :: es, b => by
    intro hnd kc hk
    simp only [List.map_cons, List.nodup_cons] at hnd
    simp only [kids, List.mem_cons] at hk
    rcases hk with hk | hk
    · subst hk
      simp [kids, List.lookup]
    · have hmem : kc.1 ∈ es.map Entry.name := by
        rw [← kids_keys es (b + e.span)]
        exact List.mem_map_of_mem _ hk
      have hne : kc.1 ≠ e.name := fun e' => hnd.1 (e' ▸ hmem)
      have := kids_lookup_shift n es (b + e.span) hnd.2 kc hk
      have e3 : b + n + e.span = b + e.span + n := by omega
      simp only [kids, List.lookup]
      have hb : (kc.1 == e.name) = false := by simpa using hne
      rw [hb, e3]
      exact this

theorem namesOKList_nodup : ∀ (es : List Entry), namesOKList es → (es.map Entry.name).Nodup
  | [], _ => by simp
  | e :: es, h => by
    simp only [namesOKList] at h
    simp only [List.map_cons, List.nodup_cons]
    exact ⟨h.1, namesOKList_nodup es h.2.2⟩

theorem mergeLoop2_skip (recur : Nat → Nat → Planner → Option Planner) (nd1 : Nat)
    (loc : MergeLocals) (st : Planner) : ∀ (l : List (String × Nat)),
    (∀ kc ∈ l, kc.1 ∈ loc.visited) → mergeLoop2 recur nd1 l loc st = some (loc, st)
  | [] => by
    intro _
    rfl
  | (k, c) :: l => by
    intro hv
    have hk : k ∈ loc.visited := hv (k, c) (by simp)
    simp only [mergeLoop2, mergeVisit2, hk, if_true]
    exact mergeLoop2_skip recur nd1 loc st l (fun kc hkc => hv kc (by simp [hkc]))

theorem mergeDirs_of_loop1 (fuel nd1 nd2 : Nat) (st st1 : Planner) (loc1 : MergeLocals)
    (h1 : mergeLoop1 (mergeDirs fuel) nd1 nd2 (st.heap nd1).children
      { step_children := [], visited := [] } st = some (loc1, st1))
    (hv : ∀ kc ∈ (st1.heap nd2).children, kc.1 ∈ loc1.visited) :
    mergeDirs (fuel + 1) nd1 nd2 st =
      some { st1 with
        heap := st1.heap.modify nd1 (fun n => { n with children := loc1.step_children }) } := by
  simp only [mergeDirs, h1, mergeLoop2_skip (mergeDirs fuel) nd1 loc1 st1 _ hv]

theorem mergeCollision_twin (nd1 c1 c2 : Nat) (st1 : Planner) (hne : c2 ≠ c1)
    (h1 : (st1.heap c1).isSub = false) (h2 : (st1.heap c2).isSub = true)
    (h3 : (st1.heap c2).topSup = some c1) :
    mergeCollision nd1 c1 c2 st1 =
      { st1 with heap := setDstParent st1.heap c2 (some nd1),
                 sups := setInsert st1.sups (some c1) } := by
  have a1 : (setDstParent st1.heap c2 (some nd1) c1).isSub = false := by
    simp [setDstParent, hne.symm, h1]
  have a2 : (setDstParent st1.heap c2 (some nd1) c2).isSub = true := by
    simp [setDstParent, h2]
  have a3 : (setDstParent st1.heap c2 (some nd1) c2).topSup = some c1 := by
    simp [setDstParent, h3]
  simp [mergeCollision, a1, a2, a3, Planner.addSup, hne]

/-! ## Phase B on twin trees -/

theorem setInsert_fresh {α : Type} [DecidableEq α] (s : List α) (x : α) (h : x ∉ s) :
    setInsert s x = s ++ [x] := by
  simp [setInsert, h]

theorem setParent_num_files (h : Heap) (x : Nat) (p : Option Nat) (a : Nat) :
    (setParent h x p a).num_files = (h a).num_files := by
  cases p <;> by_cases e : a = x <;> simp [setParent, e]

/-! ## The scanner builds the nodes of the entries -/

mutual
theorem Entry.Rep.stable {h g : Heap} : ∀ (e : Entry) (b p : Nat) (pp : String),
    (∀ a, b ≤ a → a < b + e.span → g a = h a) → e.Rep h b p pp → e.Rep g b p pp
  | .file name regular size ctime digest, b, p, pp => by
    intro hg hr
    simp only [Entry.Rep] at hr ⊢
    rw [hg b (Nat.le_refl _) (by simp [Entry.span])]
    exact hr
  | .dir name size ctime es, b, p, pp => by
    intro hg hr
    simp only [Entry.Rep] at hr ⊢
    simp only [Entry.span] at hg
    rw [hg b (Nat.le_refl _) (by omega)]
    exact ⟨hr.1, RepList.stableList es (b + 1) b _ (fun a h1 h2 => hg a (by omega) (by omega)) hr.2⟩
theorem RepList.stableList {h g : Heap} : ∀ (es : List Entry) (b p : Nat) (pp : String),
    (∀ a, b ≤ a → a < b + spanList es → g a = h a) → RepList h es b p pp → RepList g es b p pp
  | [], b, p, pp => by
    intro _ _
    simp only [RepList]
  | e :: es, b, p, pp => by
    intro hg hr
    simp only [RepList] at hr ⊢
    simp only [spanList] at hg
    have hp := Entry.span_pos e
    exact ⟨Entry.Rep.stable e b p pp (fun a h1 h2 => hg a h1 (by omega)) hr.1,
      RepList.stableList es (b + e.span) p pp (fun a h1 h2 => hg a (by omega) (by omega)) hr.2⟩
end

theorem mapInsert_fresh (l : List (String × Nat)) (k : String) (v : Nat)
    (h : k ∉ l.map Prod.fst) : mapInsert l k v = l ++ [(k, v)] := by
  rcases mapInsert_cases l k v with ⟨-, h1⟩ | ⟨h1, -⟩
  · exact absurd h1 h
  · exact h1

mutual
/-- Scanning one entry whose name is new in its directory: the nodes of the entry are built from
the next free address on, the directory gets the child, and no other node changes. -/
theorem exploreEntry_rep : ∀ (e : Entry) (parent : Nat) (sc : Scan),
    parent < sc.next → e.name ∉ (sc.heap parent).children.map Prod.fst → e.namesOK →
    (exploreEntry parent e sc).next = sc.next + e.span ∧
    (exploreEntry parent e sc).fileStore = sc.fileStore ++ e.store sc.next ∧
    e.Rep (exploreEntry parent e sc).heap sc.next parent (sc.heap parent).path ∧
    (exploreEntry parent e sc).heap parent =
      { sc.heap parent with
        children := (sc.heap parent).children ++ [(e.name, sc.next)],
        num_files := (sc.heap parent).num_files + e.fileCount } ∧
    (∀ a, a < sc.next → a ≠ parent → (exploreEntry parent e sc).heap a = sc.heap a)
  | .file name regular size ctime digest, parent, sc => by
    intro hp hname _
    simp only [Entry.name] at hname
    have hne : sc.next ≠ parent := by omega
    refine ⟨?_, ?_, ?_, ?_, ?_⟩
    · simp [exploreEntry, Entry.span]
    · simp [exploreEntry, Entry.store]
    · simp [exploreEntry, Entry.Rep, hne]
    · simp [exploreEntry, hne.symm, mapInsert_fresh _ _ _ hname, Entry.name, Entry.fileCount]
    · intro a ha1 ha2
      have : a ≠ sc.next := by omega
      simp [exploreEntry, this, ha2]
  | .dir name size ctime es, parent, sc => by
    intro hp hname hok
    simp only [Entry.name] at hname
    simp only [Entry.namesOK] at hok
    have hne : sc.next ≠ parent := by omega
    simp only [exploreEntry]
    generalize hsc1 : Scan.mk ((sc.heap.set sc.next
      { FsNode.fresh with
        size := size, name := name, parent := some parent, date_changed := ctime,
        path := (sc.heap parent).path ++ "/" ++ name, type := "dir" }).modify parent
      (fun p => { p with children := mapInsert p.children name sc.next })) (sc.next + 1)
      sc.fileStore = sc1
    have h1n : sc1.next = sc.next + 1 := by rw [← hsc1]
    have h1f : sc1.fileStore = sc.fileStore := by rw [← hsc1]
    have h1a : sc1.heap sc.next =
        { FsNode.fresh with
          size := size, name := name, parent := some parent, date_changed := ctime,
          path := (sc.heap parent).path ++ "/" ++ name, type := "dir" } := by
      rw [← hsc1]; simp [hne]
    have h1p : sc1.heap parent =
        { sc.heap parent with children := (sc.heap parent).children ++ [(name, sc.next)] } := by
      rw [← hsc1]; simp [hne.symm, mapInsert_fresh _ _ _ hname]
    have h1o : ∀ a, a < sc.next → a ≠ parent → sc1.heap a = sc.heap a := by
      intro a ha1 ha2
      have : a ≠ sc.next := by omega
      rw [← hsc1]; simp [this, ha2]
    obtain ⟨i1, i2, i3, i4, i5⟩ := exploreList_rep es sc.next sc1 (by omega)
      (by intro e _; rw [h1a]; simp [FsNode.fresh]) hok
    refine ⟨?_, ?_, ?_, ?_, ?_⟩
    · rw [i1, h1n]; simp only [Entry.span]; omega
    · rw [i2, h1f, h1n]; simp only [Entry.store]
    · simp only [Entry.Rep]
      rw [h1n] at i3
      rw [h1a] at i3 i4
      refine ⟨?_, i3⟩
      rw [i4, h1n]
      simp [FsNode.fresh]
    · rw [i5 parent (by omega) (by omega), h1p]
      simp [Entry.name, Entry.fileCount]
    · intro a ha1 ha2
      rw [i5 a (by omega) (by omega)]
      exact h1o a ha1 ha2
/-- Scanning the entries of a directory with pairwise different, new names. -/
theorem exploreList_rep : ∀ (es : List Entry) (parent : Nat) (sc : Scan),
    parent < sc.next → (∀ e ∈ es, e.name ∉ (sc.heap parent).children.map Prod.fst) →
    namesOKList es →
    (exploreList parent es sc).next = sc.next + spanList es ∧
    (exploreList parent es sc).fileStore = sc.fileStore ++ storeList es sc.next ∧
    RepList (exploreList parent es sc).heap es sc.next parent (sc.heap parent).path ∧
    (exploreList parent es sc).heap parent =
      { sc.heap parent with
        children := (sc.heap parent).children ++ kids sc.next es,
        num_files := (sc.heap parent).num_files + countFiles es } ∧
    (∀ a, a < sc.next → a ≠ parent → (exploreList parent es sc).heap a = sc.heap a)
  | [], parent, sc => by
    intro _ _ _
    simp [exploreList, spanList, storeList, RepList, kids, countFiles]
  | e :: es, parent, sc => by
    intro hp hnames hok
    simp only [namesOKList] at hok
    obtain ⟨e1, e2, e3, e4, e5⟩ := exploreEntry_rep e parent sc hp (hnames e (by simp)) hok.2.1
    have hsp := Entry.span_pos e
    obtain ⟨l1, l2, l3, l4, l5⟩ := exploreList_rep es parent (exploreEntry parent e sc)
      (by omega)
      (by
        intro x hx
        rw [e4]
        simp only [List.map_append, List.map_cons, List.map_nil, List.mem_append,
          List.mem_singleton, not_or]
        refine ⟨hnames x (by simp [hx]), ?_⟩
        intro hxe
        exact hok.1 (hxe ▸ List.mem_map_of_mem _ hx))
      hok.2.2
    simp only [exploreList]
    refine ⟨?_, ?_, ?_, ?_, ?_⟩
    · rw [l1, e1]; simp only [spanList]; omega
    · rw [l2, e2, e1]; simp [storeList]
    · simp only [RepList]
      rw [e1, e4] at l3
      refine ⟨?_, l3⟩
      exact Entry.Rep.stable e sc.next parent _ (fun a h1 h2 => l5 a (by omega) (by omega)) e3
    · rw [l4, e4, e1]
      simp [kids, countFiles, Nat.add_assoc]
    · intro a ha1 ha2
      rw [l5 a (by omega) ha2]
      exact e5 a ha1 ha2
end

theorem build_rep (rp : String) (es : List Entry) (sc : Scan) (hok : namesOKList es) :
    (build rp es sc).2 = sc.next ∧
    (build rp es sc).1.next = sc.next + 1 + spanList es ∧
    (build rp es sc).1.fileStore = sc.fileStore ++ storeList es (sc.next + 1) ∧
    (build rp es sc).1.heap sc.next =
      { FsNode.fresh with
        name := rp, path := rp, type := "dir", children := kids (sc.next + 1) es,
        num_files := countFiles es } ∧
    RepList (build rp es sc).1.heap es (sc.next + 1) sc.next rp ∧
    (∀ a, a < sc.next → (build rp es sc).1.heap a = sc.heap a) := by
  simp only [build]
  generalize hsc0 : Scan.mk (sc.heap.set sc.next
    { FsNode.fresh with name := rp, path := rp, type := "dir" }) (sc.next + 1) sc.fileStore = sc0
  have h0n : sc0.next = sc.next + 1 := by rw [← hsc0]
  have h0f : sc0.fileStore = sc.fileStore := by rw [← hsc0]
  have h0a : sc0.heap sc.next = { FsNode.fresh with name := rp, path := rp, type := "dir" } := by
    rw [← hsc0]; simp
  have h0o : ∀ a, a < sc.next → sc0.heap a = sc.heap a := by
    intro a ha
    have : a ≠ sc.next := by omega
    rw [← hsc0]; simp [this]
  obtain ⟨i1, i2, i3, i4, i5⟩ := exploreList_rep es sc.next sc0 (by omega)
    (by intro e _; rw [h0a]; simp [FsNode.fresh]) hok
  refine ⟨trivial, ?_, ?_, ?_, ?_, ?_⟩
  · rw [i1, h0n]
  · rw [i2, h0f, h0n]
  · rw [i4, h0a, h0n]
    simp [FsNode.fresh]
  · rw [h0n, h0a] at i3
    exact i3
  · intro a ha
    rw [i5 a (by omega) (by omega)]
    exact h0o a ha

theorem filter_key_unique : ∀ (l : List (String × Nat)) (k : String) (f : Nat),
    (l.map Prod.fst).Nodup → (k, f) ∈ l →
    l.filter (fun e => decide (e.1 = k)) = [(k, f)]
  | [], k, f => by
    intro _ hm
    simp at hm
  | (k', f') :: l, k, f => by
    intro hnd hm
    simp only [List.map_cons, List.nodup_cons] at hnd
    simp only [List.mem_cons, Prod.mk.injEq] at hm
    rcases hm with ⟨rfl, rfl⟩ | hm
    · have : l.filter (fun e => decide (e.1 = k)) = [] := by
        rw [List.filter_eq_nil_iff]
        intro x hx
        simp only [decide_eq_true_eq]
        intro e
        exact hnd.1 (e ▸ List.mem_map_of_mem Prod.fst hx)
      simp [List.filter_cons, this]
    · have hne : k' ≠ k := by
        intro e
        subst e
        exact hnd.1 (List.mem_map_of_mem Prod.fst hm)
      simp only [List.filter_cons, hne, decide_False, Bool.false_eq_true, if_false]
      exact filter_key_unique l k f hnd.2 hm

theorem makeSub_other (h : Heap) (this sup a : Nat) (h1 : a ≠ this) (h2 : a ≠ sup) :
    makeSub h this sup a = h a := by
  simp [makeSub, h1, h2]

theorem makeSub_num_files (h : Heap) (this sup a : Nat) :
    (makeSub h this sup a).num_files = (h a).num_files := by
  unfold makeSub
  simp only
  rw [modify_proj FsNode.num_files, modify_proj FsNode.num_files,
    modify_proj FsNode.num_files] <;> intro n <;> rfl

/-! ## The twin arena after Phase A -/

theorem fileType_ne_dir (name : String) : fileType name ≠ "dir" := by
  unfold fileType
  simp only
  split
  · intro h
    have := congrArg String.data h
    simp at this
  · decide

mutual
theorem Entry.store_shift (n : Nat) : ∀ (e : Entry) (b : Nat),
    e.store (b + n) = (e.store b).map (shift n)
  | .file name regular size ctime digest, b => by
    simp [Entry.store, shift]
  | .dir name size ctime es, b => by
    simp only [Entry.store]
    rw [Nat.add_right_comm]
    exact storeList_shift n es (b + 1)
theorem storeList_shift (n : Nat) : ∀ (es : List Entry) (b : Nat),
    storeList es (b + n) = (storeList es b).map (shift n)
  | [], b => by
    simp [storeList]
  | e :: es, b => by
    simp only [storeList, List.map_append]
    rw [Entry.store_shift n e b, Nat.add_right_comm, storeList_shift n es (b + e.span)]
end

mutual
theorem Entry.store_keys : ∀ (e : Entry) (b : Nat), (e.store b).map Prod.fst = e.keys
  | .file name regular size ctime digest, b => by
    simp [Entry.store, Entry.keys]
  | .dir name size ctime es, b => by
    simp only [Entry.store, Entry.keys]
    exact storeList_keys es (b + 1)
theorem storeList_keys : ∀ (es : List Entry) (b : Nat),
    (storeList es b).map Prod.fst = keysList es
  | [], b => by
    simp [storeList, keysList]
  | e :: es, b => by
    simp only [storeList, keysList, List.map_append]
    rw [Entry.store_keys e b, storeList_keys es (b + e.span)]
end

mutual
theorem Entry.infos_store : ∀ (e : Entry) (b p d : Nat) (s1 s2 out : String),
    (e.infos b p d s1 s2 out).map (fun x => x.f) = (e.store b).map Prod.snd
  | .file name regular size ctime digest, b, p, d, s1, s2, out => by
    simp [Entry.infos, Entry.store]
  | .dir name size ctime es, b, p, d, s1, s2, out => by
    simp only [Entry.infos, Entry.store]
    exact infosList_store es (b + 1) b b _ _ _
theorem infosList_store : ∀ (es : List Entry) (b p d : Nat) (s1 s2 out : String),
    (infosList es b p d s1 s2 out).map (fun x => x.f) = (storeList es b).map Prod.snd
  | [], b, p, d, s1, s2, out => by
    simp [infosList, storeList]
  | e :: es, b, p, d, s1, s2, out => by
    simp only [infosList, storeList, List.map_append]
    rw [Entry.infos_store e b p d s1 s2 out, infosList_store es (b + e.span) p d s1 s2 out]
end

theorem storeList_bounds (es : List Entry) (b : Nat) :
    ∀ kc ∈ storeList es b, b ≤ kc.2 ∧ kc.2 < b + spanList es := by
  intro kc hkc
  have h1 : kc.2 ∈ (storeList es b).map Prod.snd := List.mem_map_of_mem Prod.snd hkc
  rw [← infosList_store es b 0 0 "" "" ""] at h1
  simp only [List.mem_map] at h1
  obtain ⟨x, hx, hxe⟩ := h1
  have := (infosList_bounds es b 0 0 "" "" "" x hx).1
  omega

mutual
theorem Entry.store_pairOK {h : Heap} {n : Nat} : ∀ (e : Entry) (b p q : Nat) (s1 s2 : String),
    e.Rep h b p s1 → e.Rep h (b + n) q s2 → (h p).num_files = (h q).num_files →
    ∀ kc ∈ e.store b, PairOK h n kc.2 ∧ (h kc.2).type ≠ "dir" ∧ (h (kc.2 + n)).type ≠ "dir"
  | .file name regular size ctime digest, b, p, q, s1, s2 => by
    intro r1 r2 hnf kc hkc
    simp only [Entry.Rep] at r1 r2
    simp only [Entry.store, List.mem_singleton] at hkc
    subst hkc
    simp only
    have ht : (if regular then fileType name else "other") ≠ "dir" := by
      split
      · exact fileType_ne_dir name
      · decide
    refine ⟨?_, ?_, ?_⟩
    · exact
        { date := by rw [r1, r2]
          par := ⟨p, q, by rw [r1], by rw [r2], hnf⟩
          isSub1 := by rw [r1]; rfl
          isSub2 := by rw [r2]; rfl }
    · rw [r1]; exact ht
    · rw [r2]; exact ht
  | .dir name size ctime es, b, p, q, s1, s2 => by
    intro r1 r2 _ kc hkc
    simp only [Entry.Rep] at r1 r2
    simp only [Entry.store] at hkc
    have e : b + n + 1 = b + 1 + n := by omega
    rw [e] at r2
    exact storeList_pairOK es (b + 1) b (b + n) _ _ r1.2 r2.2 (by rw [r1.1, r2.1]) kc hkc
theorem storeList_pairOK {h : Heap} {n : Nat} : ∀ (es : List Entry) (b p q : Nat)
    (s1 s2 : String),
    RepList h es b p s1 → RepList h es (b + n) q s2 → (h p).num_files = (h q).num_files →
    ∀ kc ∈ storeList es b, PairOK h n kc.2 ∧ (h kc.2).type ≠ "dir" ∧ (h (kc.2 + n)).type ≠ "dir"
  | [], b, p, q, s1, s2 => by
    intro _ _ _ kc hkc
    simp [storeList] at hkc
  | e :: es, b, p, q, s1, s2 => by
    intro r1 r2 hnf kc hkc
    simp only [RepList] at r1 r2
    simp only [storeList, List.mem_append] at hkc
    rcases hkc with hkc | hkc
    · exact Entry.store_pairOK e b p q s1 s2 r1.1 r2.1 hnf kc hkc
    · have e' : b + n + e.span = b + e.span + n := by omega
      rw [e'] at r2
      exact storeList_pairOK es (b + e.span) p q s1 s2 r1.2 r2.2 hnf kc hkc
end

/-! ## The plan for a tree merged with an identical copy -/

mutual
theorem Entry.dirSteps_length : ∀ (e : Entry) (out : String),
    (e.dirSteps out).length = e.numDirs
  | .file name regular size ctime digest, out => by
    simp [Entry.dirSteps, Entry.numDirs]
  | .dir name size ctime es, out => by
    simp only [Entry.dirSteps, Entry.numDirs, List.length_cons]
    rw [dirStepsList_length es _]
    omega
theorem dirStepsList_length : ∀ (es : List Entry) (out : String),
    (dirStepsList es out).length = numDirsList es
  | [], out => by
    simp [dirStepsList, numDirsList]
  | e :: es, out => by
    simp only [dirStepsList, numDirsList, List.length_append]
    rw [Entry.dirSteps_length e out, dirStepsList_length es out]
end

theorem planAB_eq (fuel : Nat) (heap : Heap) (next r1 r2 : Nat) (pathout : String)
    (fs : List (String × Nat)) (hA : Heap) (hpA : phaseA fs fs [] heap = some hA) :
    planAB fuel heap next r1 r2 pathout fs =
      (mergeDirs fuel next r2 (rootState hA next r1 pathout)).map
        (fun st4 => { state := st4, root := next }) := by
  unfold planAB
  rw [hpA]
  simp only [Planner.pushNode, pushStep_mkdir, rootState, List.nil_append]
  cases mergeDirs fuel next r2 _ <;> rfl

theorem rootState_heap (hA : Heap) (next r1 : Nat) (pathout : String) :
    (∀ a, a ≠ next → (rootState hA next r1 pathout).heap a = hA a) ∧
    ((rootState hA next r1 pathout).heap next).children = (hA r1).children ∧
    ((rootState hA next r1 pathout).heap next).path = pathout ∧
    (rootState hA next r1 pathout).editSteps.map EditStep.com = [["mkdir", pathout]] ∧
    (rootState hA next r1 pathout).next = next + 1 ∧
    (rootState hA next r1 pathout).sups = [] := by
  refine ⟨?_, ?_, ?_, ?_, rfl, rfl⟩
  · intro a ha
    simp [rootState, setParent, ha]
  · simp [rootState, setParent]
  · simp [rootState, setParent]
  · simp [rootState, setParent, mkdirStep]

/-! ## The children of a history directory -/

theorem lookup_append (l r : List (String × Nat)) (k : String) :
    (l ++ r).lookup k = (l.lookup k).orElse (fun _ => r.lookup k) := by
  induction l with
  | nil => simp [List.lookup]
  | cons x xs ih =>
    obtain ⟨k', v⟩ := x
    simp only [List.cons_append, List.lookup]
    cases hk : k == k' with
    | true => simp
    | false => simpa using ih

theorem lookup_mapInsert (c : List (String × Nat)) (k : String) (v : Nat) (k' : String) :
    (mapInsert c k v).lookup k' =
      (c.lookup k').orElse (fun _ => if k' = k then some v else none) := by
  unfold mapInsert
  cases hl : c.lookup k with
  | some w =>
    simp only [Option.isSome_some, if_true]
    cases hl' : c.lookup k' with
    | some w' => simp
    | none =>
      have : k' ≠ k := fun e => by rw [e, hl] at hl'; cases hl'
      simp [this]
  | none =>
    simp only [Option.isSome_none, Bool.false_eq_true, if_false, lookup_append]
    by_cases e : k' = k
    · simp [e, List.lookup]
    · have : (k' == k) = false := by simpa using e
      simp [e, List.lookup, this]

/-- Looking up a key in a map filled by successive insertions: the first inserted value under
that key is found, unless the key was present before. -/
theorem lookup_foldl_insert (key : Nat → String) : ∀ (l : List Nat) (acc : List (String × Nat))
    (k : String),
    (l.foldl (fun c m => mapInsert c (key m) m) acc).lookup k =
      (acc.lookup k).orElse (fun _ => l.find? (fun m => decide (key m = k)))
  | [], acc, k => by
    simp
  | x :: l, acc, k => by
    simp only [List.foldl_cons]
    rw [lookup_foldl_insert key l _ k, lookup_mapInsert]
    cases acc.lookup k with
    | some w => simp
    | none =>
      by_cases e : k = key x
      · simp [e, List.find?]
      · have : ¬ key x = k := fun e' => e e'.symm
        simp [e, List.find?, this]

theorem find_of_nodup (key : Nat → String) : ∀ (l : List Nat), (l.map key).Nodup →
    ∀ m ∈ l, l.find? (fun x => decide (key x = key m)) = some m
  | [], _ => by
    intro m hm
    cases hm
  | x :: l, hnd => by
    intro m hm
    simp only [List.map_cons, List.nodup_cons] at hnd
    simp only [List.mem_cons] at hm
    rcases hm with rfl | hm
    · simp [List.find?]
    · have hne : key x ≠ key m := fun e => hnd.1 (e ▸ List.mem_map_of_mem key hm)
      simp only [List.find?, hne, decide_False]
      exact find_of_nodup key l hnd.2 m hm

theorem histBody_children (hist m d : Nat) (st st1 : Planner)
    (hd : (st.heap m).dstParent = some d) (hne : d ≠ hist)
    (h : histBody hist m st = some st1) :
    (st1.heap hist).children = mapInsert (st.heap hist).children (st.heap m).name m := by
  simp only [histBody, hd, pushStep_cp, Option.some.injEq] at h
  subst h
  have hn : ((setDstParent (st.heap.modify d
      (fun p => { p with children := mapErase p.children (st.heap m).name })) m (some hist))
        m).name = (st.heap m).name := by
    by_cases e : m = d <;> simp [setDstParent, e]
  simp only [Heap.get_modify, if_true, hn, setDstParent_children, hne.symm, if_false]

/-- The loop of `makeFileHist` registers the queue elements in the history directory in the
order in which the queue is drained; `insert` keeps an earlier entry of the same name. -/
theorem histLoop_children (hist : Nat) : ∀ (n : Nat) (pq : List Nat) (st st' : Planner)
    (order : List Nat),
    drain st.heap n pq = some order → pq.length = n → pq.Nodup →
    (∀ m ∈ pq, ∃ dm, (st.heap m).dstParent = some dm ∧ dm ≠ hist) →
    histLoop hist n pq st = some st' →
    (st'.heap hist).children =
      order.foldl (fun c m => mapInsert c (st.heap m).name m) (st.heap hist).children := by
  intro n
  induction n with
  | zero =>
    intro pq st st' order hd _ _ _ hl
    simp only [drain, Option.some.injEq] at hd
    subst hd
    simp only [histLoop, Option.some.injEq] at hl
    subst hl
    rfl
  | succ n ih =>
    intro pq st st' order hd hlen hnd hdst hl
    simp only [drain] at hd
    simp only [histLoop] at hl
    cases ht : pqTop st.heap pq with
    | none =>
      rw [ht] at hd
      cases pq with
      | nil => simp at hlen
      | cons x xs => simp at hd
    | some m =>
      rw [ht] at hd hl
      simp only [Option.map_eq_some'] at hd
      obtain ⟨r, hr, rfl⟩ := hd
      have hm := pqTop_mem st.heap pq m ht
      obtain ⟨d, hdm, hdne⟩ := hdst m hm
      obtain ⟨st1, hb, -, hsc, -, -, -, hdp⟩ := histBody_spec hist m d st hdm
      simp only [hb] at hl
      have hch := histBody_children hist m d st st1 hdm hdne hb
      have hmn : m ∉ pq.erase m := hnd.not_mem_erase
      have := ih (pq.erase m) st1 st' r (by rw [drain_sameCore hsc]; exact hr)
        (by rw [List.length_erase_of_mem hm, hlen]; rfl) (hnd.erase m)
        (by
          intro x hx
          have hxm : x ≠ m := fun e => hmn (e ▸ hx)
          rw [hdp x]
          simp only [hxm, if_false]
          exact hdst x (List.mem_of_mem_erase hx))
        hl
      rw [this, hch]
      simp only [List.foldl_cons]
      congr 1
      funext c x
      rw [(hsc.fields x).2.2.2.2.1]

theorem foldl_congr_mem {α β : Type} (f g : β → α → β) : ∀ (l : List α) (acc : β),
    (∀ c, ∀ m ∈ l, f c m = g c m) → l.foldl f acc = l.foldl g acc
  | [], acc => by
    intro _
    rfl
  | x :: l, acc => by
    intro h
    simp only [List.foldl_cons]
    rw [h acc x (by simp)]
    exact foldl_congr_mem f g l _ (fun c m hm => h c m (by simp [hm]))

/-- After `makeFileHist` the `children` of the history directory are the other members of the
hierarchy inserted under their names in draining order. -/
theorem makeFileHist_children (fuel : Nat) (st st' : Planner) (src : Nat) (pq : List Nat)
    (w d : Nat) (losers : List Nat)
    (htrav : traverseSubs st.heap fuel src [] = some pq)
    (hdrain : drain st.heap pq.length pq = some (w :: losers))
    (hnd : pq.Nodup)
    (hlt : ∀ m ∈ pq, m ≠ st.next)
    (hdst : ∀ m ∈ pq, ∃ dm, (st.heap m).dstParent = some dm ∧ dm ≠ st.next)
    (hwd : (st.heap w).dstParent = some d)
    (hcmp : ∀ v, ∀ a ∈ pq, ∀ b ∈ pq, a ≠ b →
      comparRecent (st.heap.set st.next v) (st.heap a) (st.heap b) =
        comparRecent st.heap (st.heap a) (st.heap b))
    (h : makeFileHist fuel (some src) st = some st') :
    (st'.heap st.next).children =
      losers.foldl (fun c m => mapInsert c (st.heap m).name m) [] := by
  obtain ⟨htop, hw, hdr⟩ := drain_cons st.heap pq w losers hdrain
  have hwn : w ≠ st.next := hlt w hw
  have hdn : d ≠ st.next := by
    obtain ⟨dm, h1, h2⟩ := hdst w hw
    rw [hwd] at h1
    simp only [Option.some.injEq] at h1
    rw [h1]
    exact h2
  have hperm : losers.Perm (pq.erase w) := drain_perm st.heap _ _ _ rfl hdr
  generalize hh1 : st.heap.set st.next
    (FsNode.create st.heap ("." ++ (st.heap w).name ++ "_hist") (some d) "dir") = h1 at h
  have hh1a : ∀ a, a ≠ st.next → h1 a = st.heap a := by
    intro a ha; rw [← hh1]; simp [ha]
  have hh1n : (h1 st.next).children = [] := by
    rw [← hh1]; simp [create_children]
  generalize hh3 : h1.modify d
    (fun p => { p with children := mapInsert p.children (h1 st.next).name st.next }) = h3 at h
  have hsc3 : SameCore h1 h3 := by
    rw [← hh3]
    exact SameCore.modify_children h1 d (fun l => mapInsert l (h1 st.next).name st.next)
  have hdp3 : ∀ a, (h3 a).dstParent = (h1 a).dstParent := by
    intro a; rw [← hh3]; by_cases ha : a = d <;> simp [ha]
  have hch3 : (h3 st.next).children = [] := by
    rw [← hh3]
    simp only [Heap.get_modify, hdn.symm, if_false]
    exact hh1n
  have hdr3 : drain h3 (pq.erase w).length (pq.erase w) = some losers := by
    rw [drain_sameCore hsc3, drain_congr_nodup st.heap h1 _ _ (hnd.erase w)]
    · exact hdr
    · intro a ha b hb hab
      have ha' := List.mem_of_mem_erase ha
      have hb' := List.mem_of_mem_erase hb
      rw [hh1a a (hlt a ha'), hh1a b (hlt b hb'), ← hh1]
      exact hcmp _ a ha' b hb' hab
  have hdst3 : ∀ m ∈ pq.erase w, ∃ dm, (h3 m).dstParent = some dm ∧ dm ≠ st.next := by
    intro m hm
    have hm' := List.mem_of_mem_erase hm
    rw [hdp3 m, hh1a m (hlt m hm')]
    exact hdst m hm'
  obtain ⟨st4, hl4, -, hsc4, -, -, -, hd4, -⟩ :=
    histLoop_spec st.next (pq.erase w).length (pq.erase w)
      { heap := h3, next := st.next + 1, plannedNode := st.plannedNode ++ [st.next],
        editSteps := st.editSteps ++ [mkdirStep h1 st.next], sups := st.sups }
      losers hdr3 rfl (hnd.erase w)
      (by
        intro m hm
        obtain ⟨dm, h1', -⟩ := hdst3 m hm
        simp only
        rw [h1']
        simp)
  have hch4 := histLoop_children st.next (pq.erase w).length (pq.erase w)
    { heap := h3, next := st.next + 1, plannedNode := st.plannedNode ++ [st.next],
      editSteps := st.editSteps ++ [mkdirStep h1 st.next], sups := st.sups } st4
    losers hdr3 rfl (hnd.erase w) hdst3 hl4
  simp only at hd4 hch4
  have hw4 : (st4.heap w).dstParent = some d := by
    rw [hd4 w hnd.not_mem_erase, hdp3 w, hh1a w hwn, hwd]
  simp only [makeFileHist, htrav, htop, Planner.pushNode, hwd, pushStep_mkdir, hh1,
    hh1a w hwn, hh3, hl4, hw4, pushStep_cp, Option.some.injEq] at h
  subst h
  simp only [Heap.get_modify, hwn.symm, hdn.symm, if_false]
  rw [hch4, hch3]
  apply foldl_congr_mem
  intro c m hm
  have hmp : m ∈ pq := List.mem_of_mem_erase (hperm.subset hm)
  rw [(hsc3.fields m).2.2.2.2.1, hh1a m (hlt m hmp)]

/-! ## `EditStep` construction and `makeSub` -/

/-- C18: constructing an `EditStep` fails exactly when the destination is null, or the operation
is neither `mkdir` nor `cp`, or the operation is `cp` and the source is null; a `mkdir` step
with a null source and a non-null destination is accepted. -/
theorem editStep_create_error_iff (h : Heap) (o : String) (s d : Option Nat) :
    ((∃ msg, EditStep.create h o s d = .error msg) ↔
      (d = none ∨ (o ≠ "mkdir" ∧ o ≠ "cp") ∨ (o = "cp" ∧ s = none))) ∧
    (∀ dd, ∃ e, EditStep.create h "mkdir" none (some dd) = .ok e) := by
  constructor
  · cases d with
    | none => simp [EditStep.create]
    | some dd =>
      by_cases hm : o = "mkdir"
      · subst hm
        simp [EditStep.create]
      · by_cases hc : o = "cp"
        · subst hc
          cases s with
          | none => simp [EditStep.create]
          | some ss => simp [EditStep.create]
        · simp [EditStep.create, hm, hc]
  · intro dd
    exact ⟨mkdirStep h dd, by simp [EditStep.create, mkdirStep]⟩

/-- C19: a successfully constructed `EditStep` keeps the operation; for `mkdir` its acting node is
the destination and its command is `mkdir <dest.path>`; for `cp` its acting node is the source
and its command is `cp --backup=numbered <source.path> <dest.path>`, the paths being read from
the heap at construction time. -/
theorem editStep_create_fields (h : Heap) (o : String) (s d : Option Nat) (e : EditStep)
    (hok : EditStep.create h o s d = .ok e) :
    e.op = o ∧
    ((o = "mkdir" ∧ ∃ dd, d = some dd ∧ e.acting = dd ∧ e.com = ["mkdir", (h dd).path]) ∨
     (o = "cp" ∧ ∃ ss dd, s = some ss ∧ d = some dd ∧ e.acting = ss ∧
        e.com = ["cp", "--backup=numbered", (h ss).path, (h dd).path])) := by
  cases d with
  | none => simp [EditStep.create] at hok
  | some dd =>
    by_cases hm : o = "mkdir"
    · subst hm
      simp only [EditStep.create, ne_eq, not_true_eq_false, false_and, if_false, if_true,
        Except.ok.injEq] at hok
      subst hok
      exact ⟨rfl, Or.inl ⟨rfl, dd, rfl, rfl, rfl⟩⟩
    · by_cases hc : o = "cp"
      · subst hc
        cases s with
        | none => simp [EditStep.create] at hok
        | some ss =>
          simp only [EditStep.create, ne_eq, not_true_eq_false, and_false, if_false,
            Except.ok.injEq] at hok
          simp only [show ¬ ("cp" = "mkdir") from by decide, if_false, Except.ok.injEq] at hok
          subst hok
          exact ⟨rfl, Or.inr ⟨rfl, ss, dd, rfl, rfl, rfl, rfl⟩⟩
      · simp [EditStep.create, hm, hc] at hok

/-- Witness of `editStep_create_fields`: a `cp` step between the nodes 1 and 0 of `pairState`. -/
theorem editStep_create_fields_witness :
    (cpStep pairState.heap 1 0).op = "cp" ∧
    (("cp" = "mkdir" ∧ ∃ dd, some 0 = some dd ∧ (cpStep pairState.heap 1 0).acting = dd ∧
        (cpStep pairState.heap 1 0).com = ["mkdir", (pairState.heap dd).path]) ∨
     ("cp" = "cp" ∧ ∃ ss dd, some 1 = some ss ∧ some 0 = some dd ∧
        (cpStep pairState.heap 1 0).acting = ss ∧
        (cpStep pairState.heap 1 0).com =
          ["cp", "--backup=numbered", (pairState.heap ss).path, (pairState.heap dd).path])) :=
  editStep_create_fields pairState.heap "cp" (some 1) (some 0) (cpStep pairState.heap 1 0)
    (by simp [EditStep.create, cpStep])

/-- The heap after `x.makeSub(sup)`, cell by cell, for all `x` and `sup`. -/
theorem makeSub_get (h : Heap) (x sup a : Nat) :
    makeSub h x sup a =
      if a = x then
        if x = sup then
          { h x with isSub := true, subordinates := (h x).subordinates ++ [x] }
        else
          { h x with isSub := true,
                     topSup := if (h sup).isSub then (h sup).topSup else some sup }
      else if a = sup then { h sup with subordinates := (h sup).subordinates ++ [x] }
      else h a := by
  by_cases hax : a = x
  · subst hax
    by_cases hxs : a = sup
    · subst hxs
      simp [makeSub]
    · have : sup ≠ a := fun e => hxs e.symm
      simp [makeSub, hxs, this]
  · by_cases has : a = sup
    · subst has
      simp [makeSub, hax]
    · simp [makeSub, hax, has]

/-- A call `x.makeSub(x)`, which no caller performs (Phase A guards with `dupe != best_file`, the
collision branch passes two different children): the node gains itself as subordinate, becomes
subordinate and keeps its `topSup`, since `sup->isSub` is read after `isSub` is set. -/
theorem makeSub_self (h : Heap) (x : Nat) :
    makeSub h x x x =
      { h x with isSub := true, subordinates := (h x).subordinates ++ [x] } := by
  rw [makeSub_get]
  simp

/-- C20: for all nodes `x` and `sup` (two nodes, as every caller passes them),
`x.makeSub(sup)` appends `x` to the end of `sup.subordinates` and changes no other field of
`sup`; sets `x.isSub` to true and `x.topSup` to `sup.topSup` if `sup.isSub` held and to `sup`
otherwise, and changes no other field of `x`; and changes no other node. -/
theorem makeSub_spec (h : Heap) (x sup : Nat) (hne : x ≠ sup) :
    makeSub h x sup sup = { h sup with subordinates := (h sup).subordinates ++ [x] } ∧
    makeSub h x sup x =
      { h x with isSub := true,
                 topSup := if (h sup).isSub then (h sup).topSup else some sup } ∧
    ∀ a, a ≠ x → a ≠ sup → makeSub h x sup a = h a := by
  refine ⟨?_, ?_, ?_⟩
  · rw [makeSub_get]
    simp [hne.symm]
  · rw [makeSub_get]
    simp [hne]
  · intro a h1 h2
    rw [makeSub_get]
    simp [h1, h2]

/-- Witness of `makeSub_spec`: the call of Phase A on the trees `{p/a}` and `{q/b}` of one content,
which makes `in1/p/a` (address 2) subordinate to `in2/q/b` (address 5). -/
theorem makeSub_spec_witness :
    (2 : Nat) ≠ 5 ∧
    makeSub (scanBoth "in1" "in2" pairIn1 pairIn2).1.heap 2 5 5 =
      { (scanBoth "in1" "in2" pairIn1 pairIn2).1.heap 5 with
        subordinates := ((scanBoth "in1" "in2" pairIn1 pairIn2).1.heap 5).subordinates ++ [2] } ∧
    makeSub (scanBoth "in1" "in2" pairIn1 pairIn2).1.heap 2 5 2 =
      { (scanBoth "in1" "in2" pairIn1 pairIn2).1.heap 2 with
        isSub := true,
        topSup := if ((scanBoth "in1" "in2" pairIn1 pairIn2).1.heap 5).isSub
          then ((scanBoth "in1" "in2" pairIn1 pairIn2).1.heap 5).topSup else some 5 } ∧
    ∀ a, a ≠ 2 → a ≠ 5 →
      makeSub (scanBoth "in1" "in2" pairIn1 pairIn2).1.heap 2 5 a =
        (scanBoth "in1" "in2" pairIn1 pairIn2).1.heap a :=
  ⟨by decide, makeSub_spec (scanBoth "in1" "in2" pairIn1 pairIn2).1.heap 2 5 (by decide)⟩

/-! ## Phase A on arbitrary stores -/

theorem mem_equalRange (fs : List (String × Nat)) (k : String) (a : Nat) :
    a ∈ equalRange fs k ↔ (k, a) ∈ fs := by
  simp only [equalRange, List.mem_map, List.mem_filter, decide_eq_true_eq]
  constructor
  · rintro ⟨⟨k', a'⟩, ⟨hm, hk⟩, ha⟩
    simp only at hk ha
    subst hk ha
    exact hm
  · intro hm
    exact ⟨(k, a), ⟨hm, rfl⟩, rfl⟩

theorem equalRange_nodup (fs : List (String × Nat)) (k : String)
    (hnd : (fs.map Prod.snd).Nodup) : (equalRange fs k).Nodup := by
  unfold equalRange
  exact hnd.sublist ((List.filter_sublist _).map Prod.snd)

theorem store_key_unique (fs : List (String × Nat)) (hnd : (fs.map Prod.snd).Nodup)
    (k k' : String) (a : Nat) (h1 : (k, a) ∈ fs) (h2 : (k', a) ∈ fs) : k = k' := by
  induction fs with
  | nil => cases h1
  | cons x xs ih =>
    simp only [List.map_cons, List.nodup_cons] at hnd
    simp only [List.mem_cons] at h1 h2
    rcases h1 with h1 | h1 <;> rcases h2 with h2 | h2
    · rw [← h1] at h2
      exact (Prod.mk.inj h2).1.symm
    · exfalso
      apply hnd.1
      have e : x.2 = a := by rw [← h1]
      rw [e]
      exact List.mem_map_of_mem Prod.snd h2
    · exfalso
      apply hnd.1
      have e : x.2 = a := by rw [← h2]
      rw [e]
      exact List.mem_map_of_mem Prod.snd h1
    · exact ih hnd.2 h1 h2

theorem findBest_mem (h : Heap) : ∀ (ds : List Nat) (ob : Option Nat) (b : Nat),
    findBest h ds ob = some (some b) → b ∈ ds ∨ ob = some b
  | [], ob, b => by
    intro hf
    simp only [findBest, Option.some.injEq] at hf
    exact Or.inr hf
  | d :: ds, none, b => by
    intro hf
    simp only [findBest] at hf
    rcases findBest_mem h ds (some d) b hf with h1 | h1
    · exact Or.inl (by simp [h1])
    · simp only [Option.some.injEq] at h1
      exact Or.inl (by simp [h1])
  | d :: ds, some c, b => by
    intro hf
    simp only [findBest] at hf
    cases hc : comparRecent h (h d) (h c) with
    | none => rw [hc] at hf; cases hf
    | some older =>
      rw [hc] at hf
      simp only at hf
      rcases findBest_mem h ds _ b hf with h1 | h1
      · exact Or.inl (by simp [h1])
      · cases older
        · simp only [Bool.false_eq_true, if_false, Option.some.injEq] at h1
          exact Or.inr (by rw [h1])
        · simp only [if_true, Option.some.injEq] at h1
          exact Or.inl (by simp [h1])

/-- Effect of the second inner loop of Phase A on a class of distinct nodes whose `best` is not
subordinate. -/
theorem subordinateAll_spec (best : Nat) : ∀ (ds : List Nat) (h : Heap),
    ds.Nodup → (h best).isSub = false →
    subordinateAll best ds h best =
      { h best with
        subordinates := (h best).subordinates ++ ds.filter (fun d => decide (d ≠ best)) } ∧
    (∀ d ∈ ds, d ≠ best →
      subordinateAll best ds h d = { h d with isSub := true, topSup := some best }) ∧
    (∀ a, a ∉ ds → a ≠ best → subordinateAll best ds h a = h a)
  | [], h => by
    intro _ _
    simp [subordinateAll]
  | d :: ds, h => by
    intro hnd hb
    simp only [List.nodup_cons] at hnd
    by_cases hd : d = best
    · subst hd
      obtain ⟨i1, i2, i3⟩ := subordinateAll_spec d ds h hnd.2 hb
      simp only [subordinateAll, ne_eq, not_true_eq_false, if_false]
      refine ⟨?_, ?_, ?_⟩
      · rw [i1]
        simp [List.filter_cons]
      · intro x hx hxb
        simp only [List.mem_cons] at hx
        rcases hx with hx | hx
        · exact absurd hx hxb
        · exact i2 x hx hxb
      · intro a ha hab
        exact i3 a (fun hm => ha (by simp [hm])) hab
    · have hbd : best ≠ d := fun e => hd e.symm
      have hb' : (makeSub h d best best).isSub = false := by
        rw [makeSub_get]
        simp [hbd, hb]
      obtain ⟨i1, i2, i3⟩ := subordinateAll_spec best ds (makeSub h d best) hnd.2 hb'
      simp only [subordinateAll, ne_eq, hd, not_false_eq_true, if_true]
      refine ⟨?_, ?_, ?_⟩
      · rw [i1, makeSub_get]
        simp [hbd, hd, List.filter_cons]
      · intro x hx hxb
        simp only [List.mem_cons] at hx
        rcases hx with hx | hx
        · subst hx
          rw [i3 x hnd.1 hxb, makeSub_get]
          simp [hd, hb]
        · have hxd : x ≠ d := fun e => hnd.1 (e ▸ hx)
          rw [i2 x hx hxb, makeSub_get]
          simp [hxd, hxb]
      · intro a ha hab
        simp only [List.mem_cons, not_or] at ha
        rw [i3 a ha.2 hab, makeSub_get]
        simp [ha.1, hab]

theorem ClassDone.unchanged {h g : Heap} {C : List Nat} {best : Nat} (hc : ClassDone h C best)
    (hb : best ∈ C) (he : ∀ a ∈ C, g a = h a) : ClassDone g C best := by
  obtain ⟨c1, c2, c3, c4⟩ := hc
  refine ⟨?_, ?_, ?_, ?_⟩
  · rw [he best hb]; exact c1
  · rw [he best hb]; exact c2
  · rw [he best hb]; exact c3
  · intro m hm hmb
    rw [he m hm]
    exact c4 m hm hmb

/-- Phase A keeps `PhaseAInv` and handles every key it iterates over. -/
theorem phaseA_inv (fs : List (String × Nat)) (hnd : (fs.map Prod.snd).Nodup) :
    ∀ (rest : List (String × Nat)) (fhash : List String) (h hA : Heap),
    phaseA fs rest fhash h = some hA → PhaseAInv fs h fhash →
    ∃ fhash', PhaseAInv fs hA fhash' ∧ (∀ k ∈ fhash, k ∈ fhash') ∧
      (∀ kc ∈ rest, kc.1 ∈ fhash')
  | [], fhash, h, hA => by
    intro hp hi
    simp only [phaseA, Option.some.injEq] at hp
    subst hp
    exact ⟨fhash, hi, fun k hk => hk, by simp⟩
  | (k, v) :: rest, fhash, h, hA => by
    intro hp hi
    simp only [phaseA] at hp
    by_cases hk : k ∈ fhash
    · simp only [hk, if_true] at hp
      obtain ⟨f', i1, i2, i3⟩ := phaseA_inv fs hnd rest fhash h hA hp hi
      refine ⟨f', i1, i2, ?_⟩
      intro kc hkc
      simp only [List.mem_cons] at hkc
      rcases hkc with rfl | hkc
      · exact i2 k hk
      · exact i3 kc hkc
    · simp only [hk, if_false] at hp
      obtain ⟨p1, p2, p3⟩ := hi
      -- the members of the class of `k` are untouched
      have hprist : ∀ a ∈ equalRange fs k, Pristine (h a) := by
        intro a ha
        apply p1
        intro k' hk' hin
        have := store_key_unique fs hnd k k' a ((mem_equalRange fs k a).mp ha) hk'
        exact hk (this ▸ hin)
      have hdisj : ∀ k' ∈ fhash, ∀ a ∈ equalRange fs k', a ∉ equalRange fs k := by
        intro k' hk' a ha hin
        have := store_key_unique fs hnd k k' a ((mem_equalRange fs k a).mp hin)
          ((mem_equalRange fs k' a).mp ha)
        exact hk (this ▸ hk')
      have fin : ∀ g, PhaseAInv fs g (k :: fhash) → phaseA fs rest (k :: fhash) g = some hA →
          ∃ fhash', PhaseAInv fs hA fhash' ∧ (∀ k' ∈ fhash, k' ∈ fhash') ∧
            (∀ kc ∈ (k, v) :: rest, kc.1 ∈ fhash') := by
        intro g hg hpg
        obtain ⟨f', i1, i2, i3⟩ := phaseA_inv fs hnd rest (k :: fhash) g hA hpg hg
        refine ⟨f', i1, fun k' hk' => i2 k' (by simp [hk']), ?_⟩
        intro kc hkc
        simp only [List.mem_cons] at hkc
        rcases hkc with rfl | hkc
        · exact i2 k (by simp)
        · exact i3 kc hkc
      by_cases hlen : (equalRange fs k).length > 1
      · simp only [hlen, if_true] at hp
        cases hb : findBest h (equalRange fs k) none with
        | none => rw [hb] at hp; cases hp
        | some ob =>
          cases ob with
          | none => rw [hb] at hp; cases hp
          | some best =>
            rw [hb] at hp
            simp only at hp
            have hbm : best ∈ equalRange fs k := by
              rcases findBest_mem h _ _ _ hb with h1 | h1
              · exact h1
              · cases h1
            obtain ⟨b1, b2, b3⟩ := hprist best hbm
            obtain ⟨s1, s2, s3⟩ := subordinateAll_spec best (equalRange fs k) h
              (equalRange_nodup fs k hnd) b1
            have hout : ∀ a, a ∉ equalRange fs k →
                subordinateAll best (equalRange fs k) h a = h a :=
              fun a ha => s3 a ha (fun e => ha (e ▸ hbm))
            apply fin _ _ hp
            refine ⟨?_, ?_, ?_⟩
            · intro a ha
              have hnot : a ∉ equalRange fs k := fun hin =>
                ha k ((mem_equalRange fs k a).mp hin) (by simp)
              rw [hout a hnot]
              exact p1 a (fun k' hk' hin => ha k' hk' (by simp [hin]))
            · intro k' hk' hl a ha
              simp only [List.mem_cons] at hk'
              rcases hk' with rfl | hk'
              · omega
              · rw [hout a (hdisj k' hk' a ha)]
                exact p2 k' hk' hl a ha
            · intro k' hk' hl
              simp only [List.mem_cons] at hk'
              rcases hk' with rfl | hk'
              · refine ⟨best, hbm, ?_, ?_, ?_, ?_⟩
                · rw [s1]; exact b1
                · rw [s1]; exact b3
                · rw [s1]; simp [b2]
                · intro m hm hmb
                  obtain ⟨m1, m2, m3⟩ := hprist m hm
                  rw [s2 m hm hmb]
                  exact ⟨rfl, rfl, m2⟩
              · obtain ⟨best', hb', hcd⟩ := p3 k' hk' hl
                exact ⟨best', hb', hcd.unchanged hb' (fun a ha => hout a (hdisj k' hk' a ha))⟩
      · simp only [hlen, if_false] at hp
        apply fin _ _ hp
        refine ⟨?_, ?_, ?_⟩
        · intro a ha
          exact p1 a (fun k' hk' hin => ha k' hk' (by simp [hin]))
        · intro k' hk' hl a ha
          simp only [List.mem_cons] at hk'
          rcases hk' with rfl | hk'
          · exact hprist a ha
          · exact p2 k' hk' hl a ha
        · intro k' hk' hl
          simp only [List.mem_cons] at hk'
          rcases hk' with rfl | hk'
          · omega
          · exact p3 k' hk' hl

theorem pristine_fresh : Pristine FsNode.fresh := ⟨rfl, rfl, rfl⟩

mutual
theorem exploreEntry_scanInv : ∀ (e : Entry) (parent : Nat) (sc : Scan),
    ScanInv sc → ScanInv (exploreEntry parent e sc)
  | .file name regular size ctime digest, parent, sc => by
    intro hi
    obtain ⟨h1, h2, h3⟩ := hi
    refine ⟨?_, ?_, ?_⟩
    · intro a
      have hp := h1 parent
      have ha := h1 a
      unfold Pristine at *
      by_cases e1 : a = parent <;> by_cases e2 : a = sc.next <;>
        by_cases e3 : parent = sc.next <;> simp_all [exploreEntry, FsNode.fresh]
    · intro kc hkc
      simp only [exploreEntry, List.mem_append, List.mem_singleton] at hkc ⊢
      rcases hkc with hkc | hkc
      · have := h2 kc hkc; omega
      · subst hkc; simp
    · simp only [exploreEntry, List.map_append, List.map_cons, List.map_nil]
      rw [List.nodup_append]
      refine ⟨h3, List.nodup_singleton _, ?_⟩
      intro x hx hy
      simp only [List.mem_singleton] at hy
      subst hy
      simp only [List.mem_map] at hx
      obtain ⟨kc, hkc, e⟩ := hx
      have := h2 kc hkc
      omega
  | .dir name size ctime es, parent, sc => by
    intro hi
    obtain ⟨h1, h2, h3⟩ := hi
    simp only [exploreEntry]
    apply exploreList_scanInv
    refine ⟨?_, ?_, h3⟩
    · intro a
      have hp := h1 parent
      have ha := h1 a
      unfold Pristine at *
      by_cases e1 : a = parent <;> by_cases e2 : a = sc.next <;>
        by_cases e3 : parent = sc.next <;> simp_all [FsNode.fresh]
    · intro kc hkc
      have := h2 kc hkc
      simp only
      omega
theorem exploreList_scanInv : ∀ (es : List Entry) (parent : Nat) (sc : Scan),
    ScanInv sc → ScanInv (exploreList parent es sc)
  | [], parent, sc => by
    intro hi
    exact hi
  | e :: es, parent, sc => by
    intro hi
    simp only [exploreList]
    exact exploreList_scanInv es parent _ (exploreEntry_scanInv e parent sc hi)
end

theorem build_scanInv (rp : String) (es : List Entry) (sc : Scan) (hi : ScanInv sc) :
    ScanInv (build rp es sc).1 := by
  obtain ⟨h1, h2, h3⟩ := hi
  simp only [build]
  apply exploreList_scanInv
  refine ⟨?_, ?_, h3⟩
  · intro a
    have ha := h1 a
    unfold Pristine at *
    by_cases e2 : a = sc.next <;> simp_all [FsNode.fresh]
  · intro kc hkc
    have := h2 kc hkc
    simp only
    omega

theorem scanBoth_scanInv (path1 path2 : String) (in1 in2 : List Entry) :
    ScanInv (scanBoth path1 path2 in1 in2).1 := by
  simp only [scanBoth]
  apply build_scanInv
  apply build_scanInv
  refine ⟨?_, by simp, by simp⟩
  intro a
  rw [Heap.get_empty]
  exact pristine_fresh

/-- After Phase A on two scanned trees every handled class is one hierarchy and every other
node is untouched. -/
theorem scanPhaseA_inv (path1 path2 : String) (in1 in2 : List Entry) (hA : Heap)
    (h : scanPhaseA path1 path2 in1 in2 = some hA) :
    ∃ fhash, PhaseAInv (scanBoth path1 path2 in1 in2).1.fileStore hA fhash ∧
      (∀ kc ∈ (scanBoth path1 path2 in1 in2).1.fileStore, kc.1 ∈ fhash) ∧
      ((scanBoth path1 path2 in1 in2).1.fileStore.map Prod.snd).Nodup := by
  obtain ⟨s1, -, s3⟩ := scanBoth_scanInv path1 path2 in1 in2
  simp only [scanPhaseA] at h
  obtain ⟨f', i1, -, i3⟩ := phaseA_inv _ s3 _ [] _ hA h
    ⟨fun a _ => s1 a, by simp, by simp⟩
  exact ⟨f', i1, i3, s3⟩

/-- C11: after Phase A on two scanned trees, every subordinate node has a `topSup` that is set
and points to a node that is not subordinate, and every node with a non-empty `subordinates`
list is not subordinate.  (Nothing is concluded from the `topSup` of a node that never was
subordinated: `FsNode()` does not assign it.) -/
theorem phaseA_forest (path1 path2 : String) (in1 in2 : List Entry) (hA : Heap)
    (h : scanPhaseA path1 path2 in1 in2 = some hA) (n : Nat) :
    ((hA n).isSub = true → ∃ b, (hA n).topSup = some b ∧ (hA b).isSub = false) ∧
    ((hA n).subordinates ≠ [] → (hA n).isSub = false) := by
  obtain ⟨fhash, ⟨p1, p2, p3⟩, -, hnd⟩ := scanPhaseA_inv path1 path2 in1 in2 hA h
  have hpr : Pristine (hA n) →
      ((hA n).isSub = true → ∃ b, (hA n).topSup = some b ∧ (hA b).isSub = false) ∧
      ((hA n).subordinates ≠ [] → (hA n).isSub = false) := by
    rintro ⟨q1, q2, -⟩
    simp [q1, q2]
  by_cases hu : ∀ k, (k, n) ∈ (scanBoth path1 path2 in1 in2).1.fileStore → k ∉ fhash
  · exact hpr (p1 n hu)
  · simp only [not_forall, not_not] at hu
    obtain ⟨k, hk, hkf⟩ := hu
    have hn : n ∈ equalRange (scanBoth path1 path2 in1 in2).1.fileStore k :=
      (mem_equalRange _ k n).mpr hk
    by_cases hl : 1 < (equalRange (scanBoth path1 path2 in1 in2).1.fileStore k).length
    · obtain ⟨best, hb, c1, -, c3, c4⟩ := p3 k hkf hl
      by_cases e : n = best
      · subst e
        simp [c1]
      · obtain ⟨m1, m2, m3⟩ := c4 n hn e
        exact ⟨fun _ => ⟨best, m2, c1⟩, by simp [m3]⟩
    · exact hpr (p2 k hkf (by omega) n hn)

/-- Witness of `phaseA_forest`: the node `in1/a` (address 1) after Phase A on the forest input,
subordinate to `in1/b`. -/
theorem phaseA_forest_witness :
    ((((scanPhaseA "in1" "in2" forestIn1 forestIn2).get (by decide)) 1).isSub = true →
      ∃ b, (((scanPhaseA "in1" "in2" forestIn1 forestIn2).get (by decide)) 1).topSup = some b ∧
        (((scanPhaseA "in1" "in2" forestIn1 forestIn2).get (by decide)) b).isSub = false) ∧
    ((((scanPhaseA "in1" "in2" forestIn1 forestIn2).get (by decide)) 1).subordinates ≠ [] →
      (((scanPhaseA "in1" "in2" forestIn1 forestIn2).get (by decide)) 1).isSub = false) :=
  phaseA_forest "in1" "in2" forestIn1 forestIn2 _ (Option.some_get _).symm 1

/-- C11 (failing input): after Phase B on `in1 = {a (A, t=2), b (A, t=1)}` and
`in2 = {a (B, t=1), c (B, t=2)}`, `in2/c` (address 5) is subordinate with `topSup` `in2/a`
(address 4), which is subordinate itself, and `in1/a` (address 1) is subordinate although its
`subordinates` list holds `in2/a`: the path-collision branch has made `in2/a`, the superior of
`in2/c`, subordinate to the subordinate `in1/a`, and left the `topSup` of `in2/c` as it was. -/
theorem forest_broken_after_phaseB :
    (scanPlanAB 10 "in1" "in2" "out" forestIn1 forestIn2).map
        (fun t => (((t.state.heap 5).isSub, (t.state.heap 5).topSup, (t.state.heap 4).isSub),
          (t.state.heap 1).isSub, (t.state.heap 1).subordinates)) =
      some ((true, some 4, true), true, [4]) := by
  decide

/-! ## Content classes and hierarchies -/

theorem comparRecent_some (h : Heap) (a b : FsNode) (p q : Nat) (ha : a.parent = some p)
    (hb : b.parent = some q) : ∃ r, comparRecent h a b = some r := by
  simp only [comparRecent, ha, hb]
  split_ifs <;> exact ⟨_, rfl⟩

theorem pqMax_total (h : Heap) : ∀ (pq : List Nat) (x : Nat),
    (∀ m ∈ x :: pq, ∃ p, (h m).parent = some p) → ∃ m, pqMax h x pq = some m
  | [], x => by
    intro _
    exact ⟨x, rfl⟩
  | y :: ys, x => by
    intro hp
    obtain ⟨p, hpx⟩ := hp x (by simp)
    obtain ⟨q, hpy⟩ := hp y (by simp)
    obtain ⟨r, hr⟩ := comparRecent_some h (h x) (h y) p q hpx hpy
    simp only [pqMax, hr]
    apply pqMax_total h ys
    intro m hm
    apply hp
    cases r <;> simp at hm ⊢ <;> tauto

theorem drain_total (h : Heap) : ∀ (n : Nat) (pq : List Nat), pq.length = n →
    (∀ m ∈ pq, ∃ p, (h m).parent = some p) → ∃ order, drain h n pq = some order := by
  intro n
  induction n with
  | zero =>
    intro pq _ _
    exact ⟨[], rfl⟩
  | succ n ih =>
    intro pq hl hp
    cases pq with
    | nil => simp at hl
    | cons x xs =>
      obtain ⟨m, hm⟩ := pqMax_total h xs x hp
      have hmm : m ∈ x :: xs := pqMax_mem h xs x m hm
      obtain ⟨r, hr⟩ := ih ((x :: xs).erase m)
        (by rw [List.length_erase_of_mem hmm, hl]; rfl)
        (fun y hy => hp y (List.mem_of_mem_erase hy))
      exact ⟨m :: r, by simp only [drain, pqTop, hm, hr, Option.map_some']⟩

/-! ## Paths of the planned nodes -/

/-- C12 (as stated, refuted): in the plan for `in1 = {p/a}` and an empty second tree the scanned
file `a` (address 2) keeps the path `in1/p/a` under which it was scanned, while its parent `p`
(address 1) is re-parented into the result tree and has the path `out/p`. -/
theorem scanned_file_keeps_source_path :
    (unidupe 3 "in1" "in2" "out" pairIn1 []).map
      (fun t => ((t.state.heap 2).name, (t.state.heap 2).parent, (t.state.heap 2).path,
        (t.state.heap 1).path)) =
      some ("a", some 1, "in1/p/a", "out/p") := by
  decide

/-- C12 (amended): after planning, every node that a `Mkdir` step of the queue creates, other
than the result root, has a parent and the path `parent.path + "/" + name`. -/
theorem planned_dir_path (fuel : Nat) (path1 path2 pathout : String) (in1 in2 : List Entry)
    (t : FsTree) (h : unidupe fuel path1 path2 pathout in1 in2 = some t) (d : Nat)
    (hd : Made t.state.editSteps d) (hr : d ≠ t.root) :
    ∃ p, (t.state.heap d).parent = some p ∧
      (t.state.heap d).path = (t.state.heap p).path ++ "/" ++ (t.state.heap d).name := by
  obtain ⟨h0, hc⟩ := unidupe_ctx fuel path1 path2 pathout in1 in2 t h
  exact hc.made_path d hd hr

/-- Witness of `planned_dir_path`: the directory `out/p` (address 5) of the plan for `{p/a}` and
an empty tree. -/
theorem planned_dir_path_witness :
    ∃ p, (((unidupe 3 "in1" "in2" "out" pairIn1 []).get (by decide)).state.heap 5).parent =
        some p ∧
      (((unidupe 3 "in1" "in2" "out" pairIn1 []).get (by decide)).state.heap 5).path =
        (((unidupe 3 "in1" "in2" "out" pairIn1 []).get (by decide)).state.heap p).path ++ "/" ++
          (((unidupe 3 "in1" "in2" "out" pairIn1 []).get (by decide)).state.heap 5).name :=
  planned_dir_path 3 "in1" "in2" "out" pairIn1 [] _ (Option.some_get _).symm 5
    (by unfold Made; decide) (by decide)

/-! ## Destination named by a `Copy` step -/

/-- C13 (failing input): in the plan for `in1 = {a (A, t=2), b (A, t=1)}` and
`in2 = {a (B, t=1), c (B, t=2)}` the file `in2/a` (address 4) is the source of two `Copy` steps,
the first into the history directory at address 7 and the second into the one at address 8;
after planning its `dstParent` is 8, not the destination 7 of the first step. -/
theorem copy_retargeted_after_emission :
    (unidupe 5 "in1" "in2" "out" forestIn1 forestIn2).map
      (fun t => ((t.state.editSteps.filter (fun e => e.copies 4)).map EditStep.shape,
        (t.state.heap 4).dstParent)) =
      some ([("cp", 4, 7), ("cp", 4, 8)], some 8) := by
  decide

/-- C13: in the queue planned for any two scanned trees, every `Copy` step that is the last `Copy`
of its source goes to the directory that the source's `dstParent` names after planning; hence in
a plan that copies no file twice, every `Copy{src, dst}` step has `src.dstParent = dst`. -/
theorem last_copy_destination (fuel : Nat) (path1 path2 pathout : String) (in1 in2 : List Entry)
    (t : FsTree) (h : unidupe fuel path1 path2 pathout in1 in2 = some t) :
    LastCopy t.state.heap t.state.editSteps ∧
    ((∀ s, copyCount t.state.editSteps s ≤ 1) →
      ∀ e ∈ t.state.editSteps, e.op = "cp" → (t.state.heap e.acting).dstParent = some e.dst) := by
  obtain ⟨h0, hc⟩ := unidupe_ctx fuel path1 path2 pathout in1 in2 t h
  refine ⟨hc.cp_last, ?_⟩
  intro hone e he hcp
  obtain ⟨pre, post, hq⟩ := List.append_of_mem he
  refine hc.cp_last pre e post hq hcp ?_
  intro x hx hxcp hxa
  have h1 := hone e.acting
  rw [hq] at h1
  simp only [copyCount, List.countP_append, List.countP_cons] at h1
  have h2 : e.copies e.acting = true := by simp [EditStep.copies, hcp]
  have h3 : 0 < List.countP (fun y => y.copies e.acting) post := by
    rw [List.countP_pos_iff]
    exact ⟨x, hx, by simp [EditStep.copies, hxcp, hxa]⟩
  simp only [h2, if_true] at h1
  omega

/-- Witness of `last_copy_destination`: the plan for the trees `{a/f, b/f}` and `{c/f}`. -/
theorem last_copy_destination_witness :
    LastCopy ((unidupe 3 "in1" "in2" "out" namesakeIn1 namesakeIn2).get (by decide)).state.heap
      ((unidupe 3 "in1" "in2" "out" namesakeIn1 namesakeIn2).get (by decide)).state.editSteps ∧
    ((∀ s, copyCount ((unidupe 3 "in1" "in2" "out" namesakeIn1 namesakeIn2).get
        (by decide)).state.editSteps s ≤ 1) →
      ∀ e ∈ ((unidupe 3 "in1" "in2" "out" namesakeIn1 namesakeIn2).get (by decide)).state.editSteps,
        e.op = "cp" →
          (((unidupe 3 "in1" "in2" "out" namesakeIn1 namesakeIn2).get
            (by decide)).state.heap e.acting).dstParent = some e.dst) :=
  last_copy_destination 3 "in1" "in2" "out" namesakeIn1 namesakeIn2 _ (Option.some_get _).symm

/-! ## Executor: entry check and number of running steps -/

theorem execTform_ok (m : TreeObj) (heap : Heap) (events : List Event)
    (h : m.plannedNode ≠ []) :
    execTform m heap events = .ok (execRun (execInit m heap) events) := by
  unfold execTform
  cases hp : m.plannedNode with
  | nil => exact absurd hp h
  | cons x xs => simp

theorem reap_proc (st : Exec) (pid : Nat) (status : Status) :
    (reap st pid status).editProc.length ≤ st.editProc.length ∧
      (reap st pid status).kMaxProc = st.kMaxProc := by
  unfold reap
  split
  · exact ⟨Nat.le_refl _, rfl⟩
  · split
    · exact ⟨Nat.le_refl _, rfl⟩
    · exact ⟨List.length_filter_le _ _, rfl⟩

theorem handleChildProc_proc (reaped : List (Nat × Status)) : ∀ (st : Exec),
    (handleChildProc st reaped).editProc.length ≤ st.editProc.length ∧
      (handleChildProc st reaped).kMaxProc = st.kMaxProc := by
  induction reaped with
  | nil => intro st; exact ⟨Nat.le_refl _, rfl⟩
  | cons r rs ih =>
    intro st
    have h1 := reap_proc st r.1 r.2
    have h2 := ih (reap st r.1 r.2)
    simp only [handleChildProc, List.foldl_cons] at h2 ⊢
    exact ⟨Nat.le_trans h2.1 h1.1, h2.2.trans h1.2⟩

theorem getNextStep_proc (st st1 : Exec) (r : Option EditStep)
    (h : getNextStep st = some (r, st1)) :
    st1.editProc = st.editProc ∧ st1.kMaxProc = st.kMaxProc ∧ st1.heap = st.heap := by
  unfold getNextStep at h
  cases hj : st.jobs with
  | nil =>
    rw [hj] at h
    simp only at h
    cases hd : drawStep st.heap st.editSteps st.editQueue with
    | none => rw [hd] at h; cases h
    | some x =>
      obtain ⟨r', es, q⟩ := x
      rw [hd] at h
      simp only [Option.some.injEq, Prod.mk.injEq] at h
      obtain ⟨-, rfl⟩ := h
      exact ⟨rfl, rfl, rfl⟩
  | cons j js =>
    rw [hj] at h
    simp only [Option.some.injEq, Prod.mk.injEq] at h
    obtain ⟨-, rfl⟩ := h
    exact ⟨rfl, rfl, rfl⟩

/-- A pass launches a step only while at most `kMaxProc` steps are running, and no event
brings the number of running steps above `kMaxProc + 1`. -/
theorem execStep_proc (st st1 : Exec) (e : Event) (h : execStep st e = some st1) :
    st1.kMaxProc = st.kMaxProc ∧
      (st1.editProc.length ≤ st.editProc.length ∨
        (st.editProc.length ≤ st.kMaxProc ∧ st1.editProc.length = st.editProc.length + 1)) := by
  cases e with
  | chld reaped =>
    have hh := handleChildProc_proc reaped st
    simp only [execStep] at h
    split at h
    · split at h
      · simp only [Option.some.injEq] at h
        subst h
        exact ⟨hh.2, Or.inl hh.1⟩
      · cases h
    · split at h
      · simp only [Option.some.injEq] at h
        subst h
        exact ⟨hh.2, Or.inl hh.1⟩
      · cases h
  | pass pid =>
    simp only [execStep] at h
    split at h
    · rename_i hg
      simp only [Bool.and_eq_true, Bool.not_eq_true', Exec.waiting, Bool.or_eq_false_iff,
        decide_eq_false_iff_not] at hg
      have hle : st.editProc.length ≤ st.kMaxProc := by omega
      cases hn : getNextStep st with
      | none => rw [hn] at h; cases h
      | some x =>
        obtain ⟨r, st2⟩ := x
        obtain ⟨p1, p2, -⟩ := getNextStep_proc st st2 r hn
        rw [hn] at h
        cases r with
        | none =>
          simp only [Option.some.injEq] at h
          subst h
          exact ⟨p2, Or.inl (by rw [p1])⟩
        | some step =>
          simp only at h
          split at h
          · cases h
          · simp only [Option.some.injEq] at h
            subst h
            refine ⟨p2, Or.inr ⟨hle, ?_⟩⟩
            simp [p1]
    · cases h

theorem execRun_proc : ∀ (events : List Event) (st st1 : Exec),
    execRun st events = some st1 → st.editProc.length ≤ st.kMaxProc + 1 →
    st1.kMaxProc = st.kMaxProc ∧ st1.editProc.length ≤ st.kMaxProc + 1 := by
  intro events
  induction events with
  | nil =>
    intro st st1 h hb
    simp only [execRun, Option.some.injEq] at h
    subst h
    exact ⟨rfl, hb⟩
  | cons e es ih =>
    intro st st1 h hb
    simp only [execRun] at h
    cases hs : execStep st e with
    | none => rw [hs] at h; cases h
    | some st2 =>
      rw [hs] at h
      obtain ⟨k1, k2⟩ := execStep_proc st st2 e hs
      obtain ⟨i1, i2⟩ := ih st2 st1 h (by rw [k1]; omega)
      exact ⟨i1.trans k1, by rw [← k1]; exact i2⟩

/-- C14 (failing input): on the plan for eleven files of different contents in tree 1 and an
empty tree 2, with `kMaxProc = 10`: after the `Mkdir` of the root has exited, eleven passes of
the main loop launch the eleven `Copy` steps, and eleven processes are running at once. -/
theorem eleven_steps_in_flight :
    (unidupe 2 "in1" "in2" "out" elevenFiles []).map
      (fun t => (execRun (execInit t.obj t.state.heap) elevenRun).map
        (fun st => (st.kMaxProc, st.editProc.length))) = some (some (10, 11)) := by
  decide

/-- C14: in every state that a run of `execTform` reaches, at most `kMaxProc + 1` steps are in
flight, and the pass of the main loop that launches a step starts with at most `kMaxProc`
steps in flight (the waiting loop is left as soon as `editProc.size() > kMaxProc` fails). -/
theorem running_le_succ_kMaxProc (m : TreeObj) (heap : Heap) (events : List Event) (st : Exec)
    (h : execTform m heap events = .ok (some st)) :
    st.editProc.length ≤ m.kMaxProc + 1 ∧
    ∀ pid st1, execStep st (.pass pid) = some st1 → st.editProc.length ≤ m.kMaxProc := by
  have hp : m.plannedNode ≠ [] := by
    intro e
    simp [execTform, e] at h
  rw [execTform_ok m heap events hp] at h
  simp only [Except.ok.injEq] at h
  obtain ⟨h1, h2⟩ := execRun_proc events _ st h (by simp [execInit])
  have hk : st.kMaxProc = m.kMaxProc := h1
  refine ⟨h2, ?_⟩
  intro pid st1 hs
  simp only [execStep] at hs
  split at hs
  · rename_i hg
    simp only [Bool.and_eq_true, Bool.not_eq_true', Exec.waiting, Bool.or_eq_false_iff,
      decide_eq_false_iff_not] at hg
    omega
  · cases hs

/-- Witness of `running_le_succ_kMaxProc`: the run `elevenRun` on the plan of `elevenFiles`. -/
theorem running_le_succ_kMaxProc_witness :
    ((execRun (execInit ((unidupe 2 "in1" "in2" "out" elevenFiles []).get (by decide)).obj
        ((unidupe 2 "in1" "in2" "out" elevenFiles []).get (by decide)).state.heap)
        elevenRun).get (by decide)).editProc.length ≤
      ((unidupe 2 "in1" "in2" "out" elevenFiles []).get (by decide)).obj.kMaxProc + 1 ∧
    ∀ pid st1,
      execStep ((execRun (execInit ((unidupe 2 "in1" "in2" "out" elevenFiles []).get
          (by decide)).obj
        ((unidupe 2 "in1" "in2" "out" elevenFiles []).get (by decide)).state.heap)
        elevenRun).get (by decide)) (.pass pid) = some st1 →
      ((execRun (execInit ((unidupe 2 "in1" "in2" "out" elevenFiles []).get (by decide)).obj
        ((unidupe 2 "in1" "in2" "out" elevenFiles []).get (by decide)).state.heap)
        elevenRun).get (by decide)).editProc.length ≤
      ((unidupe 2 "in1" "in2" "out" elevenFiles []).get (by decide)).obj.kMaxProc :=
  running_le_succ_kMaxProc _ _ elevenRun _
    ((execTform_ok _ _ _ (by decide)).trans (congrArg Except.ok (Option.some_get _).symm))

/-- C17: `execTform` throws its `domain_error` exactly when `plannedNode` is empty, whatever the
events, so before a step is launched; it does so on a default-constructed tree and on a tree
built by scanning a path, and never on a tree that the merge constructor produced. -/
theorem execTform_domain_error_iff :
    (∀ (m : TreeObj) (heap : Heap) (events : List Event),
      ((∃ msg, execTform m heap events = .error msg) ↔ m.plannedNode = []) ∧
      ((∃ msg, execTform m heap events = .error msg) ↔ ∃ msg, execTform m heap [] = .error msg)) ∧
    (∀ (heap : Heap) (events : List Event),
      ∃ msg, execTform TreeObj.default heap events = .error msg) ∧
    (∀ (rootpath : String) (entries : List Entry) (sc : Scan) (events : List Event),
      ∃ msg, execTform (TreeObj.built (build rootpath entries sc).2)
        (build rootpath entries sc).1.heap events = .error msg) ∧
    (∀ (fuel : Nat) (path1 path2 pathout : String) (in1 in2 : List Entry) (t : FsTree),
      unidupe fuel path1 path2 pathout in1 in2 = some t →
      ∀ events, execTform t.obj t.state.heap events =
        .ok (execRun (execInit t.obj t.state.heap) events)) := by
  have key : ∀ (m : TreeObj) (heap : Heap) (events : List Event),
      (∃ msg, execTform m heap events = .error msg) ↔ m.plannedNode = [] := by
    intro m heap events
    constructor
    · rintro ⟨msg, h⟩
      by_contra hne
      rw [execTform_ok m heap events hne] at h
      cases h
    · intro h
      exact ⟨"execTfrom() must be called on a tree built from existing trees.",
        by simp [execTform, h]⟩
  refine ⟨fun m heap events => ⟨key m heap events, ?_⟩, ?_, ?_, ?_⟩
  · rw [key m heap events, key m heap []]
  · intro heap events
    exact (key _ heap events).mpr rfl
  · intro rootpath entries sc events
    exact (key _ _ events).mpr rfl
  · intro fuel path1 path2 pathout in1 in2 t h events
    obtain ⟨h0, hc⟩ := unidupe_ctx fuel path1 path2 pathout in1 in2 t h
    apply execTform_ok
    intro e
    have := hc.planned
    simp only [FsTree.obj] at e
    rw [e] at this
    cases this

/-- Witness of `execTform_domain_error_iff`: the plan for the trees `{a/f, b/f}` and `{c/f}`. -/
theorem execTform_domain_error_iff_witness :
    ∀ events,
      execTform ((unidupe 3 "in1" "in2" "out" namesakeIn1 namesakeIn2).get (by decide)).obj
        ((unidupe 3 "in1" "in2" "out" namesakeIn1 namesakeIn2).get (by decide)).state.heap events =
      .ok (execRun (execInit
        ((unidupe 3 "in1" "in2" "out" namesakeIn1 namesakeIn2).get (by decide)).obj
        ((unidupe 3 "in1" "in2" "out" namesakeIn1 namesakeIn2).get (by decide)).state.heap)
        events) :=
  execTform_domain_error_iff.2.2.2 3 "in1" "in2" "out" namesakeIn1 namesakeIn2 _
    (Option.some_get _).symm

/-! ## Executor: what the signal handler releases -/

theorem lookup_filter_ne (l : List (Nat × Nat)) (p q : Nat) (h : q ≠ p) :
    (l.filter (fun e => decide (e.1 ≠ p))).lookup q = l.lookup q := by
  induction l with
  | nil => rfl
  | cons x xs ih =>
    obtain ⟨k, v⟩ := x
    by_cases hk : k = p
    · subst hk
      have hq : (q == k) = false := by simpa using h
      simpa [List.filter, List.lookup, hq] using ih
    · by_cases hqk : q = k
      · subst hqk
        simp [List.filter, List.lookup, hk]
      · have hq : (q == k) = false := by simpa using hqk
        simpa [List.filter, List.lookup, hk, hq] using ih

theorem lookup_filter_self (l : List (Nat × Nat)) (p : Nat) :
    (l.filter (fun e => decide (e.1 ≠ p))).lookup p = none := by
  induction l with
  | nil => rfl
  | cons x xs ih =>
    obtain ⟨k, v⟩ := x
    by_cases hk : k = p
    · subst hk
      simpa [List.filter] using ih
    · have hq : (p == k) = false := by simpa using (Ne.symm hk)
      simpa [List.filter, List.lookup, hk, hq] using ih

theorem reap_created (st : Exec) (pid : Nat) (status : Status) (a : Nat)
    (h : (st.heap a).is_created = true) : ((reap st pid status).heap a).is_created = true := by
  unfold reap
  split
  · exact h
  · split
    · exact h
    · simp only [Heap.get_modify]
      split
      · rfl
      · exact h

theorem reap_jobs (st : Exec) (pid : Nat) (status : Status) (s : EditStep)
    (h : s ∈ st.jobs) : s ∈ (reap st pid status).jobs := by
  unfold reap
  split
  · exact h
  · split
    · exact h
    · exact List.mem_append_left _ h

theorem reap_queue (st : Exec) (pid : Nat) (status : Status) (c : Nat × EditStep)
    (h : c ∈ (reap st pid status).editQueue) : c ∈ st.editQueue := by
  unfold reap at h
  split at h
  · exact h
  · split at h
    · exact h
    · exact List.mem_of_mem_filter h

theorem reap_lookup_none (st : Exec) (pid : Nat) (status : Status) (q : Nat)
    (h : st.editProc.lookup q = none) : (reap st pid status).editProc.lookup q = none := by
  unfold reap
  split
  · exact h
  · split
    · exact h
    · by_cases e : q = pid
      · subst e
        exact lookup_filter_self _ _
      · simp only
        rw [lookup_filter_ne _ _ _ e]
        exact h

/-- A queued step stays queued or is released by one `reap`. -/
theorem reap_keeps (st : Exec) (pid : Nat) (status : Status) (c : Nat × EditStep)
    (h : c ∈ st.editQueue) :
    c ∈ (reap st pid status).editQueue ∨ c.2 ∈ (reap st pid status).jobs := by
  unfold reap
  split
  · exact Or.inl h
  · split
    · exact Or.inl h
    · rename_i nd _
      by_cases e : c.1 = nd
      · right
        apply List.mem_append_right
        exact List.mem_map_of_mem _ (List.mem_filter.mpr ⟨h, by simpa using e⟩)
      · left
        exact List.mem_filter.mpr ⟨h, by simpa using e⟩

/-- What `reap` does for a terminated child that `editProc` maps to `nd`. -/
theorem reap_done (st : Exec) (pid nd : Nat) (status : Status)
    (ht : status.terminated = true) (hl : st.editProc.lookup pid = some nd) :
    ((reap st pid status).heap nd).is_created = true ∧
    (∀ s, (nd, s) ∈ st.editQueue → s ∈ (reap st pid status).jobs) ∧
    (∀ c ∈ (reap st pid status).editQueue, c.1 ≠ nd) ∧
    (reap st pid status).editProc.lookup pid = none := by
  unfold reap
  simp only [ht, Bool.not_true, Bool.false_eq_true, if_false, hl]
  refine ⟨by simp, ?_, ?_, lookup_filter_self _ _⟩
  · intro s hs
    apply List.mem_append_right
    exact List.mem_map.mpr ⟨(nd, s), List.mem_filter.mpr ⟨hs, by simp⟩, rfl⟩
  · intro c hc
    have := (List.mem_filter.mp hc).2
    simpa using this

theorem handleChildProc_cons (st : Exec) (r : Nat × Status) (rs : List (Nat × Status)) :
    handleChildProc st (r :: rs) = handleChildProc (reap st r.1 r.2) rs := rfl

/-- Once a node is marked and its clients are released, the rest of the handler keeps that. -/
theorem handleChildProc_done (nd pid : Nat) (J : List EditStep) :
    ∀ (reaped : List (Nat × Status)) (st : Exec),
      (st.heap nd).is_created = true → (∀ s ∈ J, s ∈ st.jobs) →
      (∀ c ∈ st.editQueue, c.1 ≠ nd) → st.editProc.lookup pid = none →
      ((handleChildProc st reaped).heap nd).is_created = true ∧
      (∀ s ∈ J, s ∈ (handleChildProc st reaped).jobs) ∧
      (∀ c ∈ (handleChildProc st reaped).editQueue, c.1 ≠ nd) ∧
      (handleChildProc st reaped).editProc.lookup pid = none := by
  intro reaped
  induction reaped with
  | nil => intro st h1 h2 h3 h4; exact ⟨h1, h2, h3, h4⟩
  | cons r rs ih =>
    intro st h1 h2 h3 h4
    rw [handleChildProc_cons]
    exact ih _ (reap_created st r.1 r.2 nd h1) (fun s hs => reap_jobs st r.1 r.2 s (h2 s hs))
      (fun c hc => h3 c (reap_queue st r.1 r.2 c hc)) (reap_lookup_none st r.1 r.2 pid h4)

theorem handleChildProc_release (nd pid : Nat) (status : Status) (J : List EditStep)
    (ht : status.terminated = true) :
    ∀ (reaped : List (Nat × Status)) (st : Exec),
      (pid, status) ∈ reaped → st.editProc.lookup pid = some nd →
      (∀ s ∈ J, (nd, s) ∈ st.editQueue ∨ s ∈ st.jobs) →
      ((handleChildProc st reaped).heap nd).is_created = true ∧
      (∀ s ∈ J, s ∈ (handleChildProc st reaped).jobs) ∧
      (∀ c ∈ (handleChildProc st reaped).editQueue, c.1 ≠ nd) ∧
      (handleChildProc st reaped).editProc.lookup pid = none := by
  intro reaped
  induction reaped with
  | nil => intro st hm; cases hm
  | cons r rs ih =>
    intro st hm hl hJ
    rw [handleChildProc_cons]
    by_cases hr : r.1 = pid ∧ r.2.terminated = true
    · obtain ⟨d1, d2, d3, d4⟩ := reap_done st pid nd r.2 hr.2 hl
      rw [hr.1]
      refine handleChildProc_done nd pid J rs _ d1 ?_ d3 d4
      intro s hs
      rcases hJ s hs with h1 | h1
      · exact d2 s h1
      · exact reap_jobs st pid r.2 s h1
    · have hne : r ≠ (pid, status) := by
        intro e
        apply hr
        rw [e]
        exact ⟨rfl, ht⟩
      have hm' : (pid, status) ∈ rs := by
        rcases List.mem_cons.mp hm with h1 | h1
        · exact absurd h1.symm hne
        · exact h1
      refine ih _ hm' ?_ ?_
      · unfold reap
        split
        · exact hl
        · rename_i hterm
          split
          · exact hl
          · have hp : pid ≠ r.1 := by
              intro e
              apply hr
              refine ⟨e.symm, ?_⟩
              simpa using hterm
            simp only
            rw [lookup_filter_ne _ _ _ hp]
            exact hl
      · intro s hs
        rcases hJ s hs with h1 | h1
        · exact reap_keeps st r.1 r.2 (nd, s) h1
        · exact Or.inr (reap_jobs st r.1 r.2 s h1)

/-- C16 (as stated, refuted): on the plan for the single file `f`, the `Mkdir` of the root runs
as process 1 and the `Copy` of `f` waits in `editQueue` under the root (address 3), which is not
marked created; when process 1 exits with status 1, or is killed by signal 9, the handler marks
the root created and moves the `Copy` to `jobs`, leaving `editQueue` empty. -/
theorem failed_mkdir_releases_copy :
    ((unidupe 2 "in1" "in2" "out" singleFile []).bind
      (fun t => (execRun (execInit t.obj t.state.heap) [.pass 1, .pass 2]).map
        (fun st => ((st.heap t.root).is_created, st.jobs.map EditStep.shape))) =
      some (false, []) ∧
    (unidupe 2 "in1" "in2" "out" singleFile []).bind
      (fun t => (execRun (execInit t.obj t.state.heap) [.pass 1, .pass 2]).map
        (fun st => st.editQueue.map (fun c => (c.1, c.2.shape)))) =
      some [(3, ("cp", 1, 3))]) ∧
    ((unidupe 2 "in1" "in2" "out" singleFile []).bind
      (fun t => (execRun (execInit t.obj t.state.heap) [.pass 1, .pass 2, .chld [(1, .exited 1)]]).map
        (fun st => ((st.heap t.root).is_created, st.jobs.map EditStep.shape))) =
      some (true, [("cp", 1, 3)]) ∧
    (unidupe 2 "in1" "in2" "out" singleFile []).bind
      (fun t => (execRun (execInit t.obj t.state.heap) [.pass 1, .pass 2, .chld [(1, .exited 1)]]).map
        (fun st => st.editQueue.map (fun c => (c.1, c.2.shape)))) =
      some []) ∧
    ((unidupe 2 "in1" "in2" "out" singleFile []).bind
      (fun t => (execRun (execInit t.obj t.state.heap) [.pass 1, .pass 2, .chld [(1, .signaled 9)]]).map
        (fun st => ((st.heap t.root).is_created, st.jobs.map EditStep.shape))) =
      some (true, [("cp", 1, 3)]) ∧
    (unidupe 2 "in1" "in2" "out" singleFile []).bind
      (fun t => (execRun (execInit t.obj t.state.heap) [.pass 1, .pass 2, .chld [(1, .signaled 9)]]).map
        (fun st => st.editQueue.map (fun c => (c.1, c.2.shape)))) =
      some []) := by
  refine ⟨⟨?_, ?_⟩, ⟨?_, ?_⟩, ?_, ?_⟩ <;> decide

/-- C16 (amended): when the handler reaps a child of `editProc` that has terminated, with any
exit status or by a signal, the child's acting node is marked `is_created`, every step waiting
on that node is moved to `jobs`, nothing stays in `editQueue` under that node, and the child
leaves `editProc`. -/
theorem handleChildProc_releases (st : Exec) (reaped : List (Nat × Status)) (pid nd : Nat)
    (status : Status) (hmem : (pid, status) ∈ reaped)
    (hterm : (∃ code, status = .exited code) ∨ ∃ sig, status = .signaled sig)
    (hproc : st.editProc.lookup pid = some nd) :
    ((handleChildProc st reaped).heap nd).is_created = true ∧
    (∀ s, (nd, s) ∈ st.editQueue → s ∈ (handleChildProc st reaped).jobs) ∧
    (∀ c ∈ (handleChildProc st reaped).editQueue, c.1 ≠ nd) ∧
    (handleChildProc st reaped).editProc.lookup pid = none := by
  have ht : status.terminated = true := by
    rcases hterm with ⟨c, rfl⟩ | ⟨s, rfl⟩ <;> rfl
  obtain ⟨h1, h2, h3, h4⟩ := handleChildProc_release nd pid status
    ((st.editQueue.filter (fun c => decide (c.1 = nd))).map Prod.snd) ht reaped st hmem hproc
    (by
      intro s hs
      obtain ⟨c, hc, rfl⟩ := List.mem_map.mp hs
      obtain ⟨hc1, hc2⟩ := List.mem_filter.mp hc
      left
      have e : c.1 = nd := by simpa using hc2
      rw [← e]
      exact hc1)
  refine ⟨h1, ?_, h3, h4⟩
  intro s hs
  exact h2 s (List.mem_map.mpr ⟨(nd, s), List.mem_filter.mpr ⟨hs, by simp⟩, rfl⟩)

/-- Witness of `handleChildProc_releases`: process 1, the `Mkdir` of the root of the plan for
the single file `f`, exits with status 1. -/
theorem handleChildProc_releases_witness :
    ((handleChildProc ((execRun (execInit
        ((unidupe 2 "in1" "in2" "out" singleFile []).get (by decide)).obj
        ((unidupe 2 "in1" "in2" "out" singleFile []).get (by decide)).state.heap)
        [.pass 1, .pass 2]).get (by decide)) [(1, .exited 1)]).heap 3).is_created = true ∧
    (∀ s, (3, s) ∈ ((execRun (execInit
        ((unidupe 2 "in1" "in2" "out" singleFile []).get (by decide)).obj
        ((unidupe 2 "in1" "in2" "out" singleFile []).get (by decide)).state.heap)
        [.pass 1, .pass 2]).get (by decide)).editQueue →
      s ∈ (handleChildProc ((execRun (execInit
        ((unidupe 2 "in1" "in2" "out" singleFile []).get (by decide)).obj
        ((unidupe 2 "in1" "in2" "out" singleFile []).get (by decide)).state.heap)
        [.pass 1, .pass 2]).get (by decide)) [(1, .exited 1)]).jobs) ∧
    (∀ c ∈ (handleChildProc ((execRun (execInit
        ((unidupe 2 "in1" "in2" "out" singleFile []).get (by decide)).obj
        ((unidupe 2 "in1" "in2" "out" singleFile []).get (by decide)).state.heap)
        [.pass 1, .pass 2]).get (by decide)) [(1, .exited 1)]).editQueue, c.1 ≠ 3) ∧
    (handleChildProc ((execRun (execInit
        ((unidupe 2 "in1" "in2" "out" singleFile []).get (by decide)).obj
        ((unidupe 2 "in1" "in2" "out" singleFile []).get (by decide)).state.heap)
        [.pass 1, .pass 2]).get (by decide)) [(1, .exited 1)]).editProc.lookup 1 = none :=
  handleChildProc_releases _ [(1, .exited 1)] 1 3 (.exited 1) (by decide) (Or.inl ⟨1, rfl⟩)
    (by decide)

/-! ## Executor: a step is launched after its prerequisite -/

theorem ascendant_congr (h g : Heap) (s : EditStep)
    (hp : (g s.acting).parent = (h s.acting).parent)
    (hd : (g s.acting).dstParent = (h s.acting).dstParent) :
    ascendant g s = ascendant h s := by
  unfold ascendant
  rw [hp, hd]

theorem drawStep_spec (h : Heap) : ∀ (es : List EditStep) (q : List (Nat × EditStep))
    (r : Option EditStep) (es1 : List EditStep) (q1 : List (Nat × EditStep)),
    drawStep h es q = some (r, es1, q1) →
    (∀ c ∈ q1, c ∈ q ∨ (ascendant h c.2 = some c.1 ∧ c.2 ∈ es)) ∧
    (∀ s ∈ es1, s ∈ es) ∧
    (∀ step, r = some step → step ∈ es ∧
      ((h step.acting).parent = none ∨
        ∃ a, ascendant h step = some a ∧ (h a).is_created = true)) := by
  intro es
  induction es with
  | nil =>
    intro q r es1 q1 hd
    simp only [drawStep, Option.some.injEq, Prod.mk.injEq] at hd
    obtain ⟨rfl, rfl, rfl⟩ := hd
    exact ⟨fun c hc => Or.inl hc, fun s hs => hs, fun step hs => by cases hs⟩
  | cons step rest ih =>
    intro q r es1 q1 hd
    simp only [drawStep] at hd
    cases hp : (h step.acting).parent with
    | none =>
      rw [hp] at hd
      simp only [Option.some.injEq, Prod.mk.injEq] at hd
      obtain ⟨rfl, rfl, rfl⟩ := hd
      refine ⟨fun c hc => Or.inl hc, fun s hs => List.mem_cons_of_mem _ hs, ?_⟩
      intro s hs
      simp only [Option.some.injEq] at hs
      subst hs
      exact ⟨by simp, Or.inl hp⟩
    | some p =>
      rw [hp] at hd
      simp only at hd
      cases ha : ascendant h step with
      | none => rw [ha] at hd; cases hd
      | some asc =>
        rw [ha] at hd
        simp only at hd
        by_cases hc : (h asc).is_created = true
        · simp only [hc, Bool.not_true, Bool.false_eq_true, if_false, Option.some.injEq,
            Prod.mk.injEq] at hd
          obtain ⟨rfl, rfl, rfl⟩ := hd
          refine ⟨fun c hc => Or.inl hc, fun s hs => List.mem_cons_of_mem _ hs, ?_⟩
          intro s hs
          simp only [Option.some.injEq] at hs
          subst hs
          exact ⟨by simp, Or.inr ⟨asc, ha, hc⟩⟩
        · have hc' : (h asc).is_created = false := by simpa using hc
          simp only [hc', Bool.not_false, if_true] at hd
          obtain ⟨i1, i2, i3⟩ := ih _ _ _ _ hd
          refine ⟨?_, fun s hs => List.mem_cons_of_mem _ (i2 s hs), ?_⟩
          · intro c hcm
            rcases i1 c hcm with h1 | ⟨h1, h2⟩
            · rcases List.mem_append.mp h1 with h3 | h3
              · exact Or.inl h3
              · simp only [List.mem_singleton] at h3
                subst h3
                exact Or.inr ⟨ha, by simp⟩
            · exact Or.inr ⟨h1, List.mem_cons_of_mem _ h2⟩
          · intro s hs
            obtain ⟨j1, j2⟩ := i3 s hs
            exact ⟨List.mem_cons_of_mem _ j1, j2⟩

theorem ExecInv.of_getNextStep {st st1 : Exec} {r : Option EditStep} (hi : ExecInv st)
    (h : getNextStep st = some (r, st1)) : ExecInv st1 := by
  unfold getNextStep at h
  cases hj : st.jobs with
  | nil =>
    rw [hj] at h
    simp only at h
    cases hd : drawStep st.heap st.editSteps st.editQueue with
    | none => rw [hd] at h; cases h
    | some x =>
      obtain ⟨r', es, q⟩ := x
      rw [hd] at h
      simp only [Option.some.injEq, Prod.mk.injEq] at h
      obtain ⟨-, rfl⟩ := h
      obtain ⟨d1, d2, -⟩ := drawStep_spec _ _ _ _ _ _ hd
      refine ⟨?_, ?_, ?_⟩
      · intro c hc
        rcases d1 c hc with h1 | ⟨h1, -⟩
        · exact hi.queued c h1
        · exact h1
      · intro s hs
        exact absurd hs (List.not_mem_nil _)
      · intro s hs hcp
        simp only [List.mem_map] at hs
        rcases hs with h1 | h1 | ⟨c, h1, rfl⟩
        · exact hi.sources s (Or.inl (d2 s h1)) hcp
        · exact absurd h1 (List.not_mem_nil _)
        · rcases d1 c h1 with h2 | ⟨-, h2⟩
          · exact hi.sources c.2 (Or.inr (Or.inr (List.mem_map_of_mem _ h2))) hcp
          · exact hi.sources c.2 (Or.inl h2) hcp
  | cons j js =>
    rw [hj] at h
    simp only [Option.some.injEq, Prod.mk.injEq] at h
    obtain ⟨-, rfl⟩ := h
    refine ⟨hi.queued, ?_, ?_⟩
    · intro s hs
      exact hi.released s (by rw [hj]; exact List.mem_cons_of_mem _ hs)
    · intro s hs hcp
      rcases hs with h1 | h1 | h1
      · exact hi.sources s (Or.inl h1) hcp
      · exact hi.sources s (Or.inr (Or.inl (by rw [hj]; exact List.mem_cons_of_mem _ h1))) hcp
      · exact hi.sources s (Or.inr (Or.inr h1)) hcp

theorem ExecInv.of_reap {st : Exec} (hi : ExecInv st) (pid : Nat) (status : Status) :
    ExecInv (reap st pid status) := by
  unfold reap
  split
  · exact hi
  · split
    · exact hi
    · rename_i nd _
      have hpa : ∀ a, ((st.heap.modify nd (fun n => { n with is_created := true })) a).parent =
          (st.heap a).parent := fun a => modify_proj FsNode.parent _ _ _ a (fun _ => rfl)
      have hdp : ∀ a, ((st.heap.modify nd (fun n => { n with is_created := true })) a).dstParent =
          (st.heap a).dstParent := fun a => modify_proj FsNode.dstParent _ _ _ a (fun _ => rfl)
      have hasc : ∀ s, ascendant (st.heap.modify nd (fun n => { n with is_created := true })) s =
          ascendant st.heap s := fun s => ascendant_congr _ _ s (hpa _) (hdp _)
      have hcr : ∀ a, (st.heap a).is_created = true →
          ((st.heap.modify nd (fun n => { n with is_created := true })) a).is_created = true := by
        intro a ha
        simp only [Heap.get_modify]
        split
        · rfl
        · exact ha
      refine ⟨?_, ?_, ?_⟩
      · intro c hc
        simp only
        rw [hasc]
        exact hi.queued c (List.mem_of_mem_filter hc)
      · intro s hs
        simp only at hs ⊢
        rw [hasc]
        rcases List.mem_append.mp hs with h1 | h1
        · obtain ⟨k, h2, h3⟩ := hi.released s h1
          exact ⟨k, h2, hcr k h3⟩
        · obtain ⟨c, hc, rfl⟩ := List.mem_map.mp h1
          obtain ⟨hc1, hc2⟩ := List.mem_filter.mp hc
          have e : c.1 = nd := by simpa using hc2
          refine ⟨nd, ?_, by simp⟩
          rw [← e]
          exact hi.queued c hc1
      · intro s hs hcp
        simp only at hs ⊢
        rw [hpa]
        rcases hs with h1 | h1 | h1
        · exact hi.sources s (Or.inl h1) hcp
        · rcases List.mem_append.mp h1 with h2 | h2
          · exact hi.sources s (Or.inr (Or.inl h2)) hcp
          · obtain ⟨c, hc, rfl⟩ := List.mem_map.mp h2
            exact hi.sources c.2
              (Or.inr (Or.inr (List.mem_map_of_mem _ (List.mem_of_mem_filter hc)))) hcp
        · obtain ⟨c, hc, rfl⟩ := List.mem_map.mp h1
          exact hi.sources c.2
            (Or.inr (Or.inr (List.mem_map_of_mem _ (List.mem_of_mem_filter hc)))) hcp

theorem ExecInv.of_handleChildProc (reaped : List (Nat × Status)) :
    ∀ {st : Exec}, ExecInv st → ExecInv (handleChildProc st reaped) := by
  induction reaped with
  | nil => intro st hi; exact hi
  | cons r rs ih =>
    intro st hi
    exact ih (hi.of_reap r.1 r.2)

theorem ExecInv.of_execStep {st st1 : Exec} {e : Event} (hi : ExecInv st)
    (h : execStep st e = some st1) : ExecInv st1 := by
  cases e with
  | chld reaped =>
    simp only [execStep] at h
    split at h
    · split at h
      · simp only [Option.some.injEq] at h
        subst h
        exact hi.of_handleChildProc reaped
      · cases h
    · split at h
      · simp only [Option.some.injEq] at h
        subst h
        exact hi.of_handleChildProc reaped
      · cases h
  | pass pid =>
    simp only [execStep] at h
    split at h
    · cases hn : getNextStep st with
      | none => rw [hn] at h; cases h
      | some x =>
        obtain ⟨r, st2⟩ := x
        have hi2 := hi.of_getNextStep hn
        rw [hn] at h
        cases r with
        | none =>
          simp only [Option.some.injEq] at h
          subst h
          exact hi2
        | some step =>
          simp only at h
          split at h
          · cases h
          · simp only [Option.some.injEq] at h
            subst h
            exact ⟨hi2.queued, hi2.released, hi2.sources⟩
    · cases h

theorem ExecInv.of_execRun : ∀ (events : List Event) {st st1 : Exec}, ExecInv st →
    execRun st events = some st1 → ExecInv st1 := by
  intro events
  induction events with
  | nil =>
    intro st st1 hi h
    simp only [execRun, Option.some.injEq] at h
    subst h
    exact hi
  | cons e es ih =>
    intro st st1 hi h
    simp only [execRun] at h
    cases hs : execStep st e with
    | none => rw [hs] at h; cases h
    | some st2 =>
      rw [hs] at h
      exact ih (hi.of_execStep hs) h

/-- The step `getNextStep` hands out in a state satisfying the invariant has its prerequisite
created. -/
theorem ExecInv.launch {st : Exec} (hi : ExecInv st) {step : EditStep}
    (h : (getNextStep st).map Prod.fst = some (some step)) :
    (step.op = "mkdir" → ∀ p, (st.heap step.acting).parent = some p →
      (st.heap p).is_created = true) ∧
    (step.op = "cp" → ∃ d, (st.heap step.acting).dstParent = some d ∧
      (st.heap d).is_created = true) := by
  have hcpm : step.op = "cp" → ¬ step.op = "mkdir" := by
    intro h1 h2
    rw [h1] at h2
    exact absurd h2 (by decide)
  have key : (step.op = "cp" → (st.heap step.acting).parent ≠ none) →
      ((st.heap step.acting).parent = none ∨
        ∃ a, ascendant st.heap step = some a ∧ (st.heap a).is_created = true) →
      (step.op = "mkdir" → ∀ p, (st.heap step.acting).parent = some p →
        (st.heap p).is_created = true) ∧
      (step.op = "cp" → ∃ d, (st.heap step.acting).dstParent = some d ∧
        (st.heap d).is_created = true) := by
    intro hsrc hor
    constructor
    · intro hm p hp
      rcases hor with h1 | ⟨a, h1, h2⟩
      · rw [hp] at h1; cases h1
      · simp only [ascendant, hm, if_true, hp, Option.some.injEq] at h1
        rw [h1]
        exact h2
    · intro hcp
      rcases hor with h1 | ⟨a, h1, h2⟩
      · exact absurd h1 (hsrc hcp)
      · simp only [ascendant, hcpm hcp, if_false] at h1
        exact ⟨a, h1, h2⟩
  unfold getNextStep at h
  cases hj : st.jobs with
  | nil =>
    rw [hj] at h
    simp only at h
    cases hd : drawStep st.heap st.editSteps st.editQueue with
    | none => rw [hd] at h; cases h
    | some x =>
      obtain ⟨r', es, q⟩ := x
      rw [hd] at h
      simp only [Option.map_some', Option.some.injEq] at h
      obtain ⟨-, -, d3⟩ := drawStep_spec _ _ _ _ _ _ hd
      obtain ⟨m1, m2⟩ := d3 step h
      exact key (fun hcp => hi.sources step (Or.inl m1) hcp) m2
  | cons j js =>
    rw [hj] at h
    simp only [Option.map_some', Option.some.injEq] at h
    subst h
    have hmem : j ∈ st.jobs := by rw [hj]; simp
    obtain ⟨k, h1, h2⟩ := hi.released j hmem
    exact key (fun hcp => hi.sources j (Or.inr (Or.inl hmem)) hcp) (Or.inr ⟨k, h1, h2⟩)

/-- The invariant holds when `execTform` enters its main loop on a planned queue. -/
theorem execInit_inv (fuel : Nat) (path1 path2 pathout : String) (in1 in2 : List Entry)
    (t : FsTree) (h : unidupe fuel path1 path2 pathout in1 in2 = some t) :
    ExecInv (execInit t.obj t.state.heap) := by
  obtain ⟨h0, hc⟩ := unidupe_ctx fuel path1 path2 pathout in1 in2 t h
  refine ⟨?_, ?_, ?_⟩
  · intro c hc1
    simp [execInit] at hc1
  · intro s hs
    simp [execInit] at hs
  · intro s hs hcp
    simp only [execInit, FsTree.obj, List.not_mem_nil, List.map_nil, or_false] at hs
    obtain ⟨d, hd⟩ := hc.cp_dst s hs hcp
    exact hc.dst_par _ d hd

/-- C15: in every run of `execTform` on the queue planned for two scanned trees, the step that
a pass of the main loop launches (the one `getNextStep` hands out) has its prerequisite
realized: for a `Mkdir` whose target has a parent, the parent is `is_created`; for a `Copy`, the
source's `dstParent` is set and `is_created`. -/
theorem launch_after_prerequisite (fuel : Nat) (path1 path2 pathout : String)
    (in1 in2 : List Entry) (t : FsTree) (events : List Event) (st : Exec) (step : EditStep)
    (h : unidupe fuel path1 path2 pathout in1 in2 = some t)
    (hrun : execTform t.obj t.state.heap events = .ok (some st))
    (hl : (getNextStep st).map Prod.fst = some (some step)) :
    (step.op = "mkdir" → ∀ p, (st.heap step.acting).parent = some p →
      (st.heap p).is_created = true) ∧
    (step.op = "cp" → ∃ d, (st.heap step.acting).dstParent = some d ∧
      (st.heap d).is_created = true) := by
  have hi := execInit_inv fuel path1 path2 pathout in1 in2 t h
  have hp : t.obj.plannedNode ≠ [] := by
    intro e
    simp [execTform, e] at hrun
  rw [execTform_ok _ _ events hp] at hrun
  simp only [Except.ok.injEq] at hrun
  exact (hi.of_execRun events hrun).launch hl

/-- Witness of `launch_after_prerequisite`: on the plan for the single file `f`, after the
`Mkdir` of the root (process 1) has exited, the `Copy` of `f` is handed out. -/
theorem launch_after_prerequisite_witness :
    (singleCopy.op = "mkdir" →
      ∀ p, (((execRun (execInit
          ((unidupe 2 "in1" "in2" "out" singleFile []).get (by decide)).obj
          ((unidupe 2 "in1" "in2" "out" singleFile []).get (by decide)).state.heap)
          [.pass 1, .pass 2, .chld [(1, .exited 0)]]).get (by decide)).heap
            singleCopy.acting).parent = some p →
        (((execRun (execInit
          ((unidupe 2 "in1" "in2" "out" singleFile []).get (by decide)).obj
          ((unidupe 2 "in1" "in2" "out" singleFile []).get (by decide)).state.heap)
          [.pass 1, .pass 2, .chld [(1, .exited 0)]]).get (by decide)).heap p).is_created =
          true) ∧
    (singleCopy.op = "cp" →
      ∃ d, (((execRun (execInit
          ((unidupe 2 "in1" "in2" "out" singleFile []).get (by decide)).obj
          ((unidupe 2 "in1" "in2" "out" singleFile []).get (by decide)).state.heap)
          [.pass 1, .pass 2, .chld [(1, .exited 0)]]).get (by decide)).heap
            singleCopy.acting).dstParent = some d ∧
        (((execRun (execInit
          ((unidupe 2 "in1" "in2" "out" singleFile []).get (by decide)).obj
          ((unidupe 2 "in1" "in2" "out" singleFile []).get (by decide)).state.heap)
          [.pass 1, .pass 2, .chld [(1, .exited 0)]]).get (by decide)).heap d).is_created =
          true) :=
  launch_after_prerequisite 2 "in1" "in2" "out" singleFile [] _
    [.pass 1, .pass 2, .chld [(1, .exited 0)]] _ singleCopy (Option.some_get _).symm
    ((execTform_ok _ _ _ (by decide)).trans (congrArg Except.ok (Option.some_get _).symm))
    (by decide)

/-! ## Steps appended by `makeFileHist` -/

theorem traverseList_mono (recur : Nat → List Nat → Option (List Nat))
    (hrec : ∀ s q q1, recur s q = some q1 → ∀ x ∈ q, x ∈ q1) :
    ∀ (l q q' : List Nat), traverseList recur l q = some q' → ∀ x ∈ q, x ∈ q' := by
  intro l
  induction l with
  | nil =>
    intro q q' h x hx
    simp only [traverseList, Option.some.injEq] at h
    subst h; exact hx
  | cons s ss ih =>
    intro q q' h x hx
    simp only [traverseList] at h
    cases hr : recur s q with
    | none => rw [hr] at h; cases h
    | some q1 =>
      rw [hr] at h
      exact ih q1 q' h x (hrec s q q1 hr x hx)

/-- The queue `traverseSubs` returns holds what it held before, and the node itself. -/
theorem traverseSubs_mono (h : Heap) : ∀ (fuel nd : Nat) (q q' : List Nat),
    traverseSubs h fuel nd q = some q' → (∀ x ∈ q, x ∈ q') ∧ nd ∈ q' := by
  intro fuel
  induction fuel with
  | zero => intro nd q q' hq; simp [traverseSubs] at hq
  | succ n ih =>
    intro nd q q' hq
    simp only [traverseSubs] at hq
    have := traverseList_mono (traverseSubs h n) (fun s q0 q1 hs => (ih s q0 q1 hs).1) _ _ _ hq
    exact ⟨fun x hx => this x (List.mem_append_left _ hx), this nd (by simp)⟩

/-- C26: for a hierarchy of `n` nodes with pairwise distinct change times and committed
destinations, `makeFileHist` returns and appends exactly `n + 1` steps: the `Mkdir` of a fresh
history directory named `.<winner.name>_hist` whose parent is `winner.dstParent`, then one `Copy`
into the history directory for each other member in order of decreasing change time, then the
`Copy` of the winner, the most recent member, into `winner.dstParent`; afterwards `winner.isSub`
is false. -/
theorem makeFileHist_appends (fuel : Nat) (st : Planner) (src : Nat) (pq : List Nat)
    (htrav : traverseSubs st.heap fuel src [] = some pq)
    (hdist : DistinctTimes st.heap pq)
    (hdst : ∀ m ∈ pq, ∃ dm, (st.heap m).dstParent = some dm ∧ dm < st.next)
    (hlt : ∀ m ∈ pq, m < st.next) :
    ∃ (st' : Planner) (w d : Nat) (losers : List Nat),
      makeFileHist fuel (some src) st = some st' ∧
      (w :: losers).Perm pq ∧
      (w :: losers).Pairwise
        (fun a b => (st.heap b).date_changed.lt (st.heap a).date_changed) ∧
      (st.heap w).dstParent = some d ∧
      st'.editSteps.map EditStep.shape =
        st.editSteps.map EditStep.shape ++ ("mkdir", st.next, st.next) ::
          (losers.map (fun m => ("cp", m, st.next)) ++ [("cp", w, d)]) ∧
      st'.editSteps.length = st.editSteps.length + (pq.length + 1) ∧
      (st'.heap st.next).parent = some d ∧
      (st'.heap st.next).name = "." ++ (st.heap w).name ++ "_hist" ∧
      (st'.heap st.next).type = "dir" ∧
      (st'.heap w).isSub = false := by
  obtain ⟨order, hdr, hperm, hsorted⟩ := drain_distinct st.heap pq.length pq rfl hdist
  cases order with
  | nil =>
    exfalso
    have hnil : pq = [] := List.perm_nil.mp hperm.symm
    have := (traverseSubs_mono st.heap fuel src [] pq htrav).2
    rw [hnil] at this
    cases this
  | cons w losers =>
    have hw : w ∈ pq := hperm.subset (by simp)
    obtain ⟨d, hwd, -⟩ := hdst w hw
    have hnd := hdist.nodup
    obtain ⟨st', g, hmk, hsteps, -, -, -, hsc, hheap, -, -⟩ :=
      makeFileHist_spec fuel st src pq w d losers htrav hdr hnd
        (fun m hm => Nat.ne_of_lt (hlt m hm))
        (fun m hm => by
          obtain ⟨dm, hdm, -⟩ := hdst m hm
          rw [hdm]; simp)
        hwd
        (fun v a ha b hb hab => by
          rw [comparRecent_of_ne _ _ _ (hdist.ne a ha b hb hab),
            comparRecent_of_ne _ _ _ (hdist.ne a ha b hb hab)])
    have hxn : st.next ≠ w := (Nat.ne_of_lt (hlt w hw)).symm
    have hnode := (hsc.fields st.next)
    have hfl := histNode_fields st.heap w d
    refine ⟨st', w, d, losers, hmk, hperm, hsorted, hwd, ?_, ?_, ?_, ?_, ?_, ?_⟩
    · rw [hsteps]
      simp [EditStep.shape, mkdirStep, cpStep, Function.comp_def]
    · rw [hsteps]
      have := hperm.length_eq
      simp only [List.length_cons] at this
      simp only [List.length_append, List.length_cons, List.length_map, List.length_nil]
      omega
    · rw [hheap]
      simp only [Heap.get_modify, hxn, if_false]
      rw [hnode.2.1]
      simp [hfl.1]
    · rw [hheap]
      simp only [Heap.get_modify, hxn, if_false]
      rw [hnode.2.2.2.2.1]
      simp [hfl.2.1]
    · rw [hheap]
      simp only [Heap.get_modify, hxn, if_false]
      rw [hnode.2.2.2.2.2.2.2.2]
      simp [hfl.2.2.1]
    · rw [hheap]
      simp

/-- Witness of `makeFileHist_appends`: the hierarchy of `pairState`. -/
theorem makeFileHist_appends_witness :
    ∃ (st' : Planner) (w d : Nat) (losers : List Nat),
      makeFileHist 2 (some 1) pairState = some st' ∧
      (w :: losers).Perm [1, 2] ∧
      (w :: losers).Pairwise
        (fun a b => (pairState.heap b).date_changed.lt (pairState.heap a).date_changed) ∧
      (pairState.heap w).dstParent = some d ∧
      st'.editSteps.map EditStep.shape =
        pairState.editSteps.map EditStep.shape ++ ("mkdir", pairState.next, pairState.next) ::
          (losers.map (fun m => ("cp", m, pairState.next)) ++ [("cp", w, d)]) ∧
      st'.editSteps.length = pairState.editSteps.length + ([1, 2].length + 1) ∧
      (st'.heap pairState.next).parent = some d ∧
      (st'.heap pairState.next).name = "." ++ (pairState.heap w).name ++ "_hist" ∧
      (st'.heap pairState.next).type = "dir" ∧
      (st'.heap w).isSub = false :=
  makeFileHist_appends 2 pairState 1 [1, 2] (by decide) (by decide) (by decide) (by decide)

/-! ## The key of the content index -/

/-- C28 (failing input): the 16-byte digests `1, 11, 0, ..., 0` and `11, 1, 0, ..., 0` differ and
get the same key `11100000000000000`; the files `in1/x` and `in2/y` with these digests land in
one content class, and the plan treats them as duplicates: `in1/x` is copied into the history
directory `out/.y_hist` and not into `out`. -/
theorem hashKey_collision :
    digestA ≠ digestB ∧ digestA.length = 16 ∧ digestB.length = 16 ∧
    (∀ b ∈ digestA, b < 256) ∧ (∀ b ∈ digestB, b < 256) ∧
    hashKey digestA = hashKey digestB ∧
    (equalRange (scanBoth "in1" "in2" keyClashIn1 keyClashIn2).1.fileStore
      (hashKey digestA)).length = 2 ∧
    (unidupe 2 "in1" "in2" "out" keyClashIn1 keyClashIn2).map
      (fun t => t.state.editSteps.map EditStep.com) =
      some [["mkdir", "out"], ["mkdir", "out/.y_hist"],
        ["cp", "--backup=numbered", "in1/x", "out/.y_hist"],
        ["cp", "--backup=numbered", "in2/y", "out"]] := by
  refine ⟨?_, ?_, ?_, ?_, ?_, ?_, ?_, ?_⟩ <;> decide

/-! ## Executor: the step `getNextStep` hands out -/

theorem drawStep_draw (h : Heap) : ∀ (pre : List EditStep) (s : EditStep) (post : List EditStep)
    (q : List (Nat × EditStep)),
    (∀ x ∈ pre ++ [s], ((h x.acting).parent = none ↔ ascendant h x = none)) →
    (∀ x ∈ pre, blocked h x = true) → blocked h s = false →
    drawStep h (pre ++ s :: post) q = some (some s, post, q ++ waitingFor h pre)
  | [], s, post, q => by
    intro hfit _ hs
    have hf := hfit s (by simp)
    simp only [List.nil_append, drawStep, waitingFor, List.filterMap_nil, List.append_nil]
    cases hp : (h s.acting).parent with
    | none => rfl
    | some p =>
      simp only
      cases ha : ascendant h s with
      | none => rw [hf.mpr ha] at hp; cases hp
      | some asc =>
        simp only [blocked, ha, Bool.not_eq_false_eq_eq_true] at hs
        simp [hs]
  | x :: pre, s, post, q => by
    intro hfit hpre hs
    have hx := hpre x (by simp)
    simp only [blocked] at hx
    cases ha : ascendant h x with
    | none => rw [ha] at hx; cases hx
    | some asc =>
      rw [ha] at hx
      simp only [Bool.not_eq_eq_eq_not, Bool.not_true] at hx
      have hf := hfit x (by simp)
      cases hp : (h x.acting).parent with
      | none => rw [hf.mp hp] at ha; cases ha
      | some p =>
        have ih := drawStep_draw h pre s post (q ++ [(asc, x)])
          (fun y hy => hfit y (by simp only [List.cons_append, List.mem_cons]; exact Or.inr hy))
          (fun y hy => hpre y (List.mem_cons_of_mem _ hy)) hs
        simp only [List.cons_append, drawStep, hp, ha, hx, Bool.not_false, if_true]
        exact ih.trans (by simp [waitingFor, ha])

theorem drawStep_all (h : Heap) : ∀ (es : List EditStep) (q : List (Nat × EditStep)),
    (∀ x ∈ es, ((h x.acting).parent = none ↔ ascendant h x = none)) →
    (∀ x ∈ es, blocked h x = true) →
    drawStep h es q = some (none, [], q ++ waitingFor h es)
  | [], q => by
    intro _ _
    simp [drawStep, waitingFor]
  | x :: es, q => by
    intro hfit hall
    have hx := hall x (by simp)
    simp only [blocked] at hx
    cases ha : ascendant h x with
    | none => rw [ha] at hx; cases hx
    | some asc =>
      rw [ha] at hx
      simp only [Bool.not_eq_eq_eq_not, Bool.not_true] at hx
      have hf := hfit x (by simp)
      cases hp : (h x.acting).parent with
      | none => rw [hf.mp hp] at ha; cases ha
      | some p =>
        have ih := drawStep_all h es (q ++ [(asc, x)])
          (fun y hy => hfit y (List.mem_cons_of_mem _ hy))
          (fun y hy => hall y (List.mem_cons_of_mem _ hy))
        simp only [drawStep, hp, ha, hx, Bool.not_false, if_true]
        exact ih.trans (by simp [waitingFor, ha])

/-- Every list of steps splits at its first step that is not blocked, if there is one. -/
theorem split_blocked (h : Heap) : ∀ (es : List EditStep),
    (∀ x ∈ es, blocked h x = true) ∨
    ∃ pre s post, es = pre ++ s :: post ∧ (∀ x ∈ pre, blocked h x = true) ∧ blocked h s = false
  | [] => Or.inl (fun x hx => absurd hx (List.not_mem_nil _))
  | x :: es => by
    by_cases hx : blocked h x = true
    · rcases split_blocked h es with h1 | ⟨pre, s, post, h1, h2, h3⟩
      · left
        intro y hy
        rcases List.mem_cons.mp hy with e | e
        · rw [e]; exact hx
        · exact h1 y e
      · right
        refine ⟨x :: pre, s, post, by rw [h1]; rfl, ?_, h3⟩
        intro y hy
        rcases List.mem_cons.mp hy with e | e
        · rw [e]; exact hx
        · exact h2 y e
    · right
      exact ⟨[], x, es, rfl, fun y hy => absurd hy (List.not_mem_nil _), by simpa using hx⟩

theorem getNextStep_heap {st st1 : Exec} {r : Option EditStep}
    (h : getNextStep st = some (r, st1)) :
    st1.heap = st.heap ∧ ∀ s ∈ st1.editSteps, s ∈ st.editSteps := by
  unfold getNextStep at h
  cases hj : st.jobs with
  | nil =>
    rw [hj] at h
    simp only at h
    cases hd : drawStep st.heap st.editSteps st.editQueue with
    | none => rw [hd] at h; cases h
    | some x =>
      obtain ⟨r', es, q⟩ := x
      rw [hd] at h
      simp only [Option.some.injEq, Prod.mk.injEq] at h
      obtain ⟨-, rfl⟩ := h
      exact ⟨rfl, (drawStep_spec _ _ _ _ _ _ hd).2.1⟩
  | cons j js =>
    rw [hj] at h
    simp only [Option.some.injEq, Prod.mk.injEq] at h
    obtain ⟨-, rfl⟩ := h
    exact ⟨rfl, fun s hs => hs⟩

theorem ExecFit.after_reap {st : Exec} (hi : ExecFit st) (pid : Nat) (status : Status) :
    ExecFit (reap st pid status) := by
  unfold reap
  split
  · exact hi
  · split
    · exact hi
    · rename_i nd _
      have hpa : ∀ a, ((st.heap.modify nd (fun n => { n with is_created := true })) a).parent =
          (st.heap a).parent := fun a => modify_proj FsNode.parent _ _ _ a (fun _ => rfl)
      have hdp : ∀ a, ((st.heap.modify nd (fun n => { n with is_created := true })) a).dstParent =
          (st.heap a).dstParent := fun a => modify_proj FsNode.dstParent _ _ _ a (fun _ => rfl)
      intro s hs
      simp only at hs ⊢
      rw [ascendant_congr st.heap _ s (hpa _) (hdp _), hpa]
      exact hi s hs

theorem ExecFit.after_handleChildProc (reaped : List (Nat × Status)) :
    ∀ {st : Exec}, ExecFit st → ExecFit (handleChildProc st reaped) := by
  induction reaped with
  | nil => intro st hi; exact hi
  | cons r rs ih =>
    intro st hi
    rw [handleChildProc_cons]
    exact ih (hi.after_reap r.1 r.2)

theorem ExecFit.after_execStep {st st1 : Exec} {e : Event} (hi : ExecFit st)
    (h : execStep st e = some st1) : ExecFit st1 := by
  cases e with
  | chld reaped =>
    simp only [execStep] at h
    split at h
    · split at h
      · simp only [Option.some.injEq] at h
        subst h
        exact ExecFit.after_handleChildProc reaped hi
      · cases h
    · split at h
      · simp only [Option.some.injEq] at h
        subst h
        exact ExecFit.after_handleChildProc reaped hi
      · cases h
  | pass pid =>
    simp only [execStep] at h
    split at h
    · cases hg : getNextStep st with
      | none => rw [hg] at h; cases h
      | some x =>
        obtain ⟨r, st2⟩ := x
        obtain ⟨g1, g2⟩ := getNextStep_heap hg
        have hi2 : ExecFit st2 := by
          intro s hs
          rw [g1]
          exact hi s (g2 s hs)
        rw [hg] at h
        cases r with
        | none =>
          simp only [Option.some.injEq] at h
          subst h
          exact hi2
        | some step =>
          simp only at h
          split at h
          · cases h
          · simp only [Option.some.injEq] at h
            subst h
            exact hi2
    · cases h

theorem ExecFit.after_execRun : ∀ (events : List Event) {st st1 : Exec}, ExecFit st →
    execRun st events = some st1 → ExecFit st1
  | [], st, st1 => by
    intro hi h
    simp only [execRun, Option.some.injEq] at h
    subst h
    exact hi
  | e :: es, st, st1 => by
    intro hi h
    simp only [execRun] at h
    cases hs : execStep st e with
    | none => rw [hs] at h; cases h
    | some st2 =>
      rw [hs] at h
      exact ExecFit.after_execRun es (hi.after_execStep hs) h

theorem execInit_fit (fuel : Nat) (path1 path2 pathout : String) (in1 in2 : List Entry)
    (t : FsTree) (h : unidupe fuel path1 path2 pathout in1 in2 = some t) :
    ExecFit (execInit t.obj t.state.heap) := by
  obtain ⟨h0, hc⟩ := unidupe_ctx fuel path1 path2 pathout in1 in2 t h
  intro s hs
  simp only [execInit, FsTree.obj] at hs ⊢
  rcases hc.ops s hs with hop | hop
  · simp [ascendant, hop]
  · obtain ⟨d, hd⟩ := hc.cp_dst s hs hop
    have hp := hc.dst_par _ d hd
    have hne : s.op ≠ "mkdir" := by rw [hop]; decide
    simp [ascendant, hne, hd, hp]

/-- The call `getNextStep` in a state that fits. -/
theorem getNextStep_fit (st : Exec) (hf : ExecFit st) :
    (∀ j js, st.jobs = j :: js → getNextStep st = some (some j, { st with jobs := js })) ∧
    (st.jobs = [] → ∀ pre s post, st.editSteps = pre ++ s :: post →
      (∀ x ∈ pre, blocked st.heap x = true) → blocked st.heap s = false →
      getNextStep st = some (some s,
        { st with editSteps := post, editQueue := st.editQueue ++ waitingFor st.heap pre })) ∧
    (st.jobs = [] → (∀ x ∈ st.editSteps, blocked st.heap x = true) →
      getNextStep st = some (none,
        { st with editSteps := [],
                  editQueue := st.editQueue ++ waitingFor st.heap st.editSteps })) := by
  refine ⟨?_, ?_, ?_⟩
  · intro j js hj
    simp [getNextStep, hj]
  · intro hj pre s post hes hpre hs
    have := drawStep_draw st.heap pre s post st.editQueue
      (fun x hx => hf x (by rw [hes]; simp only [List.mem_append, List.mem_singleton] at hx;
                            simp only [List.mem_append, List.mem_cons]; tauto)) hpre hs
    simp only [getNextStep, hj, hes, this]
  · intro hj hall
    have := drawStep_all st.heap st.editSteps st.editQueue hf hall
    simp only [getNextStep, hj, this]
/-- **C27.** In every state of a run of `execTform` on a plan, `getNextStep` returns: if `jobs`
(Ready) is not empty it hands out its front and leaves `editSteps` (Pending) and `editQueue`
(Waiting) as they are; otherwise it hands out the first step of `editSteps` whose prerequisite
is absent or created, after moving every earlier step to `editQueue` under the key of its
prerequisite; and it reports that no step is available exactly when `jobs` is empty and every
step of `editSteps` is blocked, and then `editSteps` is left empty, all its steps being moved
to `editQueue`. -/
theorem getNextStep_spec (fuel : Nat) (path1 path2 pathout : String)
    (in1 in2 : List Entry) (t : FsTree) (events : List Event) (st : Exec)
    (h : unidupe fuel path1 path2 pathout in1 in2 = some t)
    (hrun : execTform t.obj t.state.heap events = .ok (some st)) :
    (getNextStep st).isSome = true ∧
    (∀ j js, st.jobs = j :: js → getNextStep st = some (some j, { st with jobs := js })) ∧
    (st.jobs = [] → ∀ pre s post, st.editSteps = pre ++ s :: post →
      (∀ x ∈ pre, blocked st.heap x = true) → blocked st.heap s = false →
      getNextStep st = some (some s,
        { st with editSteps := post, editQueue := st.editQueue ++ waitingFor st.heap pre }) ∧
      (waitingFor st.heap pre).map Prod.snd = pre ∧
      ∀ c ∈ waitingFor st.heap pre, ascendant st.heap c.2 = some c.1) ∧
    ((∃ st1, getNextStep st = some (none, st1)) ↔
      (st.jobs = [] ∧ ∀ x ∈ st.editSteps, blocked st.heap x = true)) ∧
    (∀ st1, getNextStep st = some (none, st1) →
      st1 = { st with editSteps := [],
                      editQueue := st.editQueue ++ waitingFor st.heap st.editSteps } ∧
      (waitingFor st.heap st.editSteps).map Prod.snd = st.editSteps) := by
  have hi := execInit_fit fuel path1 path2 pathout in1 in2 t h
  have hp : t.obj.plannedNode ≠ [] := by
    intro e
    simp [execTform, e] at hrun
  rw [execTform_ok _ _ events hp] at hrun
  simp only [Except.ok.injEq] at hrun
  have hf := hi.after_execRun events hrun
  obtain ⟨g1, g2, g3⟩ := getNextStep_fit st hf
  have hkey : ∀ l : List EditStep, ∀ c ∈ waitingFor st.heap l, ascendant st.heap c.2 = some c.1 := by
    intro l c hc
    simp only [waitingFor, List.mem_filterMap, Option.map_eq_some'] at hc
    obtain ⟨s, -, k, hk, rfl⟩ := hc
    exact hk
  have hsnd : ∀ l : List EditStep, (∀ x ∈ l, blocked st.heap x = true) →
      (waitingFor st.heap l).map Prod.snd = l := by
    intro l
    induction l with
    | nil => intro _; rfl
    | cons x l ih =>
      intro hl
      have hx := hl x (by simp)
      simp only [blocked] at hx
      cases ha : ascendant st.heap x with
      | none => rw [ha] at hx; cases hx
      | some k =>
        have := ih (fun y hy => hl y (List.mem_cons_of_mem _ hy))
        simp only [waitingFor] at this ⊢
        simp [List.filterMap_cons, ha, this]
  have hnone : ∀ st1, getNextStep st = some (none, st1) →
      st.jobs = [] ∧ ∀ x ∈ st.editSteps, blocked st.heap x = true := by
    intro st1 hg
    cases hj : st.jobs with
    | cons j js =>
      rw [g1 j js hj] at hg
      simp at hg
    | nil =>
      refine ⟨rfl, ?_⟩
      rcases split_blocked st.heap st.editSteps with hall | ⟨pre, s, post, e1, e2, e3⟩
      · exact hall
      · rw [g2 hj pre s post e1 e2 e3] at hg
        simp at hg
  refine ⟨?_, g1, ?_, ?_, ?_⟩
  · cases hj : st.jobs with
    | cons j js => rw [g1 j js hj]; rfl
    | nil =>
      rcases split_blocked st.heap st.editSteps with hall | ⟨pre, s, post, e1, e2, e3⟩
      · rw [g3 hj hall]; rfl
      · rw [g2 hj pre s post e1 e2 e3]; rfl
  · intro hj pre s post e1 e2 e3
    exact ⟨g2 hj pre s post e1 e2 e3, hsnd pre e2, hkey pre⟩
  · constructor
    · rintro ⟨st1, hg⟩
      exact hnone st1 hg
    · rintro ⟨hj, hall⟩
      exact ⟨_, g3 hj hall⟩
  · intro st1 hg
    obtain ⟨hj, hall⟩ := hnone st1 hg
    rw [g3 hj hall] at hg
    simp only [Option.some.injEq, Prod.mk.injEq, true_and] at hg
    exact ⟨hg.symm, hsnd _ hall⟩

theorem getNextStep_spec_witness :
    (getNextStep singleLaunched).isSome = true ∧
    (∀ j js, singleLaunched.jobs = j :: js →
      getNextStep singleLaunched = some (some j, { singleLaunched with jobs := js })) ∧
    (singleLaunched.jobs = [] → ∀ pre s post, singleLaunched.editSteps = pre ++ s :: post →
      (∀ x ∈ pre, blocked singleLaunched.heap x = true) → blocked singleLaunched.heap s = false →
      getNextStep singleLaunched = some (some s,
        { singleLaunched with
          editSteps := post,
          editQueue := singleLaunched.editQueue ++ waitingFor singleLaunched.heap pre }) ∧
      (waitingFor singleLaunched.heap pre).map Prod.snd = pre ∧
      ∀ c ∈ waitingFor singleLaunched.heap pre, ascendant singleLaunched.heap c.2 = some c.1) ∧
    ((∃ st1, getNextStep singleLaunched = some (none, st1)) ↔
      (singleLaunched.jobs = [] ∧ ∀ x ∈ singleLaunched.editSteps, blocked singleLaunched.heap x = true)) ∧
    (∀ st1, getNextStep singleLaunched = some (none, st1) →
      st1 = { singleLaunched with
              editSteps := [],
              editQueue := singleLaunched.editQueue ++
                waitingFor singleLaunched.heap singleLaunched.editSteps } ∧
      (waitingFor singleLaunched.heap singleLaunched.editSteps).map Prod.snd = singleLaunched.editSteps) :=
  getNextStep_spec 2 "in1" "in2" "out" singleFile [] _ [.pass 1] singleLaunched
    (Option.some_get _).symm
    ((execTform_ok _ _ _ (by decide)).trans (congrArg Except.ok (Option.some_get _).symm))

/-! ## Executor: no step is dropped or duplicated -/

theorem drawStep_perm (h : Heap) : ∀ (es : List EditStep) (q : List (Nat × EditStep))
    (r : Option EditStep) (es1 : List EditStep) (q1 : List (Nat × EditStep)),
    drawStep h es q = some (r, es1, q1) →
    (es1 ++ q1.map Prod.snd ++ r.toList).Perm (es ++ q.map Prod.snd)
  | [], q, r, es1, q1 => by
    intro hd
    simp only [drawStep, Option.some.injEq, Prod.mk.injEq] at hd
    obtain ⟨rfl, rfl, rfl⟩ := hd
    simp
  | step :: rest, q, r, es1, q1 => by
    intro hd
    simp only [drawStep] at hd
    have hfound : (rest ++ q.map Prod.snd ++ (some step).toList).Perm
        (step :: rest ++ q.map Prod.snd) := by
      simp only [Option.toList, List.cons_append]
      exact (List.perm_append_singleton step _).trans (List.Perm.refl _)
    cases hp : (h step.acting).parent with
    | none =>
      rw [hp] at hd
      simp only [Option.some.injEq, Prod.mk.injEq] at hd
      obtain ⟨rfl, rfl, rfl⟩ := hd
      exact hfound
    | some p =>
      rw [hp] at hd
      simp only at hd
      cases ha : ascendant h step with
      | none => rw [ha] at hd; cases hd
      | some asc =>
        rw [ha] at hd
        simp only at hd
        by_cases hc : (h asc).is_created = true
        · simp only [hc, Bool.not_true, Bool.false_eq_true, if_false, Option.some.injEq,
            Prod.mk.injEq] at hd
          obtain ⟨rfl, rfl, rfl⟩ := hd
          exact hfound
        · have hc' : (h asc).is_created = false := by simpa using hc
          simp only [hc', Bool.not_false, if_true] at hd
          refine (drawStep_perm h rest _ _ _ _ hd).trans ?_
          simp only [List.map_append, List.map_cons, List.map_nil, List.cons_append]
          refine (List.perm_middle.symm.trans ?_).symm
          refine List.Perm.append_left rest ?_
          exact (List.perm_append_singleton step _).symm

theorem getNextStep_perm {st st1 : Exec} {r : Option EditStep}
    (h : getNextStep st = some (r, st1)) :
    (st1.editSteps ++ st1.editQueue.map Prod.snd ++ st1.jobs ++ r.toList).Perm
      (st.editSteps ++ st.editQueue.map Prod.snd ++ st.jobs) := by
  unfold getNextStep at h
  cases hj : st.jobs with
  | nil =>
    rw [hj] at h
    simp only at h
    cases hd : drawStep st.heap st.editSteps st.editQueue with
    | none => rw [hd] at h; cases h
    | some x =>
      obtain ⟨r', es, q⟩ := x
      rw [hd] at h
      simp only [Option.some.injEq, Prod.mk.injEq] at h
      obtain ⟨rfl, rfl⟩ := h
      simp only [hj, List.append_nil]
      exact drawStep_perm _ _ _ _ _ _ hd
  | cons j js =>
    rw [hj] at h
    simp only [Option.some.injEq, Prod.mk.injEq] at h
    obtain ⟨rfl, rfl⟩ := h
    simp only [Option.toList]
    rw [List.append_assoc _ js]
    exact List.Perm.append_left _ (List.perm_append_singleton j js)

theorem filter_split_perm {α : Type} (p : α → Bool) (l : List α) :
    (l.filter (fun c => !p c) ++ l.filter p).Perm l := by
  induction l with
  | nil => simp
  | cons x l ih =>
    by_cases hx : p x = true
    · simp only [List.filter_cons, hx, Bool.not_true, Bool.false_eq_true, if_false, if_true]
      exact List.perm_middle.trans (ih.cons x)
    · have hx' : p x = false := by simpa using hx
      simp only [List.filter_cons, hx', Bool.not_false, if_true, Bool.false_eq_true, if_false,
        List.cons_append]
      exact ih.cons x

theorem reap_perm (st : Exec) (pid : Nat) (status : Status) :
    (reap st pid status).editSteps = st.editSteps ∧
    ((reap st pid status).editQueue.map Prod.snd ++ (reap st pid status).jobs).Perm
      (st.editQueue.map Prod.snd ++ st.jobs) := by
  unfold reap
  split
  · exact ⟨rfl, List.Perm.refl _⟩
  · split
    · exact ⟨rfl, List.Perm.refl _⟩
    · rename_i nd _
      refine ⟨rfl, ?_⟩
      simp only
      have hsplit := (filter_split_perm (fun c : Nat × EditStep => decide (c.1 = nd))
        st.editQueue).map Prod.snd
      simp only [List.map_append] at hsplit
      have hfe : st.editQueue.filter (fun c => decide (c.1 ≠ nd)) =
          st.editQueue.filter (fun c => !decide (c.1 = nd)) := by
        congr 1
        funext c
        simp
      rw [hfe]
      have h1 : (List.map Prod.snd (st.editQueue.filter (fun c => !decide (c.1 = nd))) ++
          (st.jobs ++ List.map Prod.snd (st.editQueue.filter (fun c => decide (c.1 = nd))))).Perm
          (List.map Prod.snd (st.editQueue.filter (fun c => !decide (c.1 = nd))) ++
          (List.map Prod.snd (st.editQueue.filter (fun c => decide (c.1 = nd))) ++ st.jobs)) :=
        List.Perm.append_left _ List.perm_append_comm
      refine h1.trans ?_
      rw [← List.append_assoc]
      exact List.Perm.append_right _ hsplit

theorem handleChildProc_perm (reaped : List (Nat × Status)) : ∀ (st : Exec),
    (handleChildProc st reaped).editSteps = st.editSteps ∧
    ((handleChildProc st reaped).editQueue.map Prod.snd ++ (handleChildProc st reaped).jobs).Perm
      (st.editQueue.map Prod.snd ++ st.jobs) := by
  induction reaped with
  | nil => intro st; exact ⟨rfl, List.Perm.refl _⟩
  | cons r rs ih =>
    intro st
    rw [handleChildProc_cons]
    obtain ⟨i1, i2⟩ := ih (reap st r.1 r.2)
    obtain ⟨r1, r2⟩ := reap_perm st r.1 r.2
    exact ⟨i1.trans r1, i2.trans r2⟩

theorem handleChildProc_all (st : Exec) (reaped : List (Nat × Status)) :
    ((handleChildProc st reaped).editSteps ++
      (handleChildProc st reaped).editQueue.map Prod.snd ++ (handleChildProc st reaped).jobs).Perm
      (st.editSteps ++ st.editQueue.map Prod.snd ++ st.jobs) := by
  obtain ⟨i1, i2⟩ := handleChildProc_perm reaped st
  rw [i1, List.append_assoc, List.append_assoc]
  exact List.Perm.append_left _ i2

theorem execStep_perm {st st1 : Exec} {e : Event} (h : execStep st e = some st1) :
    (st1.editSteps ++ st1.editQueue.map Prod.snd ++ st1.jobs ++ launched st e).Perm
      (st.editSteps ++ st.editQueue.map Prod.snd ++ st.jobs) := by
  cases e with
  | chld reaped =>
    simp only [launched, List.append_nil]
    simp only [execStep] at h
    split at h
    · split at h
      · simp only [Option.some.injEq] at h
        subst h
        exact handleChildProc_all st reaped
      · cases h
    · split at h
      · simp only [Option.some.injEq] at h
        subst h
        exact handleChildProc_all st reaped
      · cases h
  | pass pid =>
    simp only [execStep] at h
    split at h
    · cases hg : getNextStep st with
      | none => rw [hg] at h; cases h
      | some x =>
        obtain ⟨r, st2⟩ := x
        have hperm := getNextStep_perm hg
        rw [hg] at h
        cases r with
        | none =>
          simp only [Option.some.injEq] at h
          subst h
          simpa [launched, hg] using hperm
        | some step =>
          simp only at h
          split at h
          · cases h
          · simp only [Option.some.injEq] at h
            subst h
            simpa [launched, hg] using hperm
    · cases h

theorem execRun_perm : ∀ (events : List Event) (st st1 : Exec),
    execRun st events = some st1 →
    (st1.editSteps ++ st1.editQueue.map Prod.snd ++ st1.jobs ++ execLog st events).Perm
      (st.editSteps ++ st.editQueue.map Prod.snd ++ st.jobs)
  | [], st, st1 => by
    intro h
    simp only [execRun, Option.some.injEq] at h
    subst h
    simp [execLog]
  | e :: es, st, st1 => by
    intro h
    simp only [execRun] at h
    cases hs : execStep st e with
    | none => rw [hs] at h; cases h
    | some st2 =>
      rw [hs] at h
      have ih := execRun_perm es st2 st1 h
      have hstep := execStep_perm hs
      simp only [execLog, hs]
      have h1 : (st1.editSteps ++ st1.editQueue.map Prod.snd ++ st1.jobs ++
          (launched st e ++ execLog st2 es)).Perm
          ((st1.editSteps ++ st1.editQueue.map Prod.snd ++ st1.jobs ++ execLog st2 es) ++
            launched st e) := by
        rw [List.append_assoc _ (execLog st2 es)]
        exact List.Perm.append_left _ List.perm_append_comm
      exact h1.trans ((List.Perm.append_right _ ih).trans hstep)

/-- **C30.** Along every run of `execTform` the steps of the initial queue are, counted with
multiplicity, exactly the steps in `editSteps` (Pending), in `editQueue` (Waiting), in `jobs`
(Ready) and those already launched: none is dropped and none is duplicated.  When the handler
reaps a terminated child recorded for node `nd`, it appends to `jobs` exactly the steps stored
in `editQueue` under `nd`, in their order, removes exactly those entries, and leaves
`editSteps` alone. -/
theorem steps_conserved (m : TreeObj) (heap : Heap) (events : List Event) (st : Exec)
    (hrun : execTform m heap events = .ok (some st)) :
    (st.editSteps ++ st.editQueue.map Prod.snd ++ st.jobs ++
      execLog (execInit m heap) events).Perm m.editSteps ∧
    ∀ (pid nd : Nat) (status : Status), status.terminated = true →
      st.editProc.lookup pid = some nd →
      (reap st pid status).jobs =
        st.jobs ++ (st.editQueue.filter (fun c => decide (c.1 = nd))).map Prod.snd ∧
      (reap st pid status).editQueue = st.editQueue.filter (fun c => decide (c.1 ≠ nd)) ∧
      (∀ c ∈ (reap st pid status).editQueue, c.1 ≠ nd) ∧
      (reap st pid status).editSteps = st.editSteps := by
  have hp : m.plannedNode ≠ [] := by
    intro e
    simp [execTform, e] at hrun
  rw [execTform_ok _ _ events hp] at hrun
  simp only [Except.ok.injEq] at hrun
  refine ⟨?_, ?_⟩
  · have := execRun_perm events _ _ hrun
    simpa [execInit] using this
  · intro pid nd status hterm hl
    simp only [reap, hterm, Bool.not_true, Bool.false_eq_true, if_false, hl, true_and, and_true]
    intro c hc
    simpa using (List.mem_filter.mp hc).2

theorem steps_conserved_witness :
    (singleLaunched.editSteps ++ singleLaunched.editQueue.map Prod.snd ++ singleLaunched.jobs ++
      execLog (execInit
        ((unidupe 2 "in1" "in2" "out" singleFile []).get (by decide)).obj
        ((unidupe 2 "in1" "in2" "out" singleFile []).get (by decide)).state.heap)
        [.pass 1]).Perm
      ((unidupe 2 "in1" "in2" "out" singleFile []).get (by decide)).obj.editSteps ∧
    ∀ (pid nd : Nat) (status : Status), status.terminated = true →
      singleLaunched.editProc.lookup pid = some nd →
      (reap singleLaunched pid status).jobs =
        singleLaunched.jobs ++
          (singleLaunched.editQueue.filter (fun c => decide (c.1 = nd))).map Prod.snd ∧
      (reap singleLaunched pid status).editQueue =
        singleLaunched.editQueue.filter (fun c => decide (c.1 ≠ nd)) ∧
      (∀ c ∈ (reap singleLaunched pid status).editQueue, c.1 ≠ nd) ∧
      (reap singleLaunched pid status).editSteps = singleLaunched.editSteps :=
  steps_conserved _ _ [.pass 1] singleLaunched
    ((execTform_ok _ _ _ (by decide)).trans (congrArg Except.ok (Option.some_get _).symm))

/-! ## Paths of the scanned files: the plan of two scanned trees -/

/-- The arena after scanning the trees `in1` and `in2`: the roots, the size, `fileStore`, and
the nodes of both trees. -/
theorem scanBoth_pair (path1 path2 : String) (in1 in2 : List Entry)
    (hok1 : namesOKList in1) (hok2 : namesOKList in2) :
    (scanBoth path1 path2 in1 in2).2.1 = 0 ∧
    (scanBoth path1 path2 in1 in2).2.2 = 1 + spanList in1 ∧
    (scanBoth path1 path2 in1 in2).1.next = (1 + spanList in1) + (1 + spanList in2) ∧
    (scanBoth path1 path2 in1 in2).1.fileStore =
      storeList in1 1 ++ storeList in2 (1 + (1 + spanList in1)) ∧
    (scanBoth path1 path2 in1 in2).1.heap 0 =
      { FsNode.fresh with
        name := path1, path := path1, type := "dir", children := kids 1 in1,
        num_files := countFiles in1 } ∧
    (scanBoth path1 path2 in1 in2).1.heap (1 + spanList in1) =
      { FsNode.fresh with
        name := path2, path := path2, type := "dir",
        children := kids (1 + (1 + spanList in1)) in2, num_files := countFiles in2 } ∧
    RepList (scanBoth path1 path2 in1 in2).1.heap in1 1 0 path1 ∧
    RepList (scanBoth path1 path2 in1 in2).1.heap in2 (1 + (1 + spanList in1))
      (1 + spanList in1) path2 := by
  obtain ⟨a1, a2, a3, a4, a5, -⟩ := build_rep path1 in1 (Scan.mk ⟨[]⟩ 0 []) hok1
  obtain ⟨b1, b2, b3, b4, b5, b6⟩ :=
    build_rep path2 in2 (build path1 in1 (Scan.mk ⟨[]⟩ 0 [])).1 hok2
  simp only [scanBoth]
  generalize build path1 in1 (Scan.mk ⟨[]⟩ 0 []) = S1 at *
  generalize hS2 : build path2 in2 S1.1 = S2 at *
  obtain ⟨sc1, r1⟩ := S1
  obtain ⟨sc2, r2⟩ := S2
  simp only at a1 a2 a3 a4 a5 b1 b2 b3 b4 b5 b6 ⊢
  have e1 : sc1.next = 1 + spanList in1 := by omega
  rw [e1] at b1 b2 b3 b4 b5 b6
  have e2 : (1 + spanList in1 + 1) = 1 + (1 + spanList in1) := by omega
  rw [e2] at b3 b4 b5
  refine ⟨a1, b1, ?_, ?_, ?_, b4, ?_, b5⟩
  · rw [b2]; omega
  · rw [b3, a3]; simp
  · rw [b6 0 (by omega)]
    exact a4
  · refine RepList.stableList in1 1 0 path1 (fun a h1 h2 => b6 a (by omega)) ?_
    simpa using a5

mutual
/-- The stored addresses of a scanned entry lie in its block and hold non-directories. -/
theorem Entry.store_file (h : Heap) : ∀ (e : Entry) (b p : Nat) (pp : String),
    e.Rep h b p pp → ∀ kc ∈ e.store b, b ≤ kc.2 ∧ kc.2 < b + e.span ∧ (h kc.2).type ≠ "dir"
  | .file name regular size ctime digest, b, p, pp => by
    intro hr kc hk
    simp only [Entry.store, List.mem_singleton] at hk
    subst hk
    simp only [Entry.Rep] at hr
    simp only [Entry.span]
    refine ⟨Nat.le_refl _, by omega, ?_⟩
    rw [hr]
    simp only
    split
    · exact fileType_ne_dir name
    · decide
  | .dir name size ctime es, b, p, pp => by
    intro hr kc hk
    simp only [Entry.store] at hk
    simp only [Entry.Rep] at hr
    obtain ⟨i1, i2, i3⟩ := storeList_file h es (b + 1) b _ hr.2 kc hk
    simp only [Entry.span]
    exact ⟨by omega, by omega, i3⟩
/-- The stored addresses of scanned entries lie in their blocks and hold non-directories. -/
theorem storeList_file (h : Heap) : ∀ (es : List Entry) (b p : Nat) (pp : String),
    RepList h es b p pp →
    ∀ kc ∈ storeList es b, b ≤ kc.2 ∧ kc.2 < b + spanList es ∧ (h kc.2).type ≠ "dir"
  | [], b, p, pp => by
    intro _ kc hk
    simp [storeList] at hk
  | e :: es, b, p, pp => by
    intro hr kc hk
    simp only [RepList] at hr
    simp only [storeList, List.mem_append] at hk
    simp only [spanList]
    rcases hk with hk | hk
    · obtain ⟨i1, i2, i3⟩ := Entry.store_file h e b p pp hr.1 kc hk
      exact ⟨i1, by omega, i3⟩
    · obtain ⟨i1, i2, i3⟩ := storeList_file h es (b + e.span) p pp hr.2 kc hk
      exact ⟨by omega, by omega, i3⟩
end

theorem subordinateAll_files (F : Nat → Prop) (best : Nat) (hb : F best) :
    ∀ (ds : List Nat) (h : Heap), (∀ d ∈ ds, F d) →
      ((∀ a, ∀ s ∈ (h a).subordinates, F s) ∧ (∀ a x, (h a).topSup = some x → F x)) →
      (∀ a, ∀ s ∈ ((subordinateAll best ds h) a).subordinates, F s) ∧
        (∀ a x, ((subordinateAll best ds h) a).topSup = some x → F x)
  | [], h => by
    intro _ hh
    exact hh
  | d :: ds, h => by
    intro hds hh
    simp only [subordinateAll]
    refine subordinateAll_files F best hb ds _ (fun x hx => hds x (List.mem_cons_of_mem _ hx)) ?_
    split_ifs
    · refine ⟨?_, ?_⟩
      · intro a s hs
        rcases makeSub_subordinates_mem _ _ _ _ _ hs with h1 | h1
        · exact hh.1 a s h1
        · exact h1 ▸ hds d (by simp)
      · intro a x hx
        rcases makeSub_topSup_cases _ _ _ _ _ hx with h2 | h2 | h2
        · exact hh.2 a x h2
        · exact hh.2 best x h2
        · exact h2 ▸ hb
    · exact hh

theorem phaseA_files (F : Nat → Prop) (fs : List (String × Nat)) (hfs : ∀ kc ∈ fs, F kc.2) :
    ∀ (l : List (String × Nat)) (fhash : List String) (h g : Heap),
      phaseA fs l fhash h = some g →
      ((∀ a, ∀ s ∈ (h a).subordinates, F s) ∧ (∀ a x, (h a).topSup = some x → F x)) →
      (∀ a, ∀ s ∈ (g a).subordinates, F s) ∧ (∀ a x, (g a).topSup = some x → F x) := by
  intro l
  induction l with
  | nil =>
    intro fhash h g hp hh
    simp only [phaseA, Option.some.injEq] at hp
    subst hp
    exact hh
  | cons x l ih =>
    obtain ⟨k, v⟩ := x
    intro fhash h g hp hh
    simp only [phaseA] at hp
    split_ifs at hp with c1 c2
    · exact ih _ _ _ hp hh
    · cases hb : findBest h (equalRange fs k) none with
      | none => rw [hb] at hp; cases hp
      | some ob =>
        cases ob with
        | none => rw [hb] at hp; cases hp
        | some best =>
          rw [hb] at hp
          simp only at hp
          have hmem : ∀ d ∈ equalRange fs k, F d := fun d hd =>
            hfs (k, d) ((mem_equalRange fs k d).mp hd)
          have hbest : F best := by
            rcases findBest_mem h _ _ _ hb with h1 | h1
            · exact hmem best h1
            · cases h1
          exact ih _ _ _ hp (subordinateAll_files F best hbest _ h hmem hh)
    · exact ih _ _ _ hp hh

theorem findEntry_name {es : List Entry} {n : String} {e : Entry}
    (h : findEntry es n = some e) : e.name = n ∧ e ∈ es := by
  unfold findEntry at h
  have h1 := List.find?_some h
  exact ⟨by simpa using h1, List.mem_of_find?_eq_some h⟩

/-- The child of a scanned directory found under a name is the block of the entry of that
name. -/
theorem kids_lookup_rep (h : Heap) : ∀ (es : List Entry) (b p : Nat) (pp : String) (n : String)
    (y : Nat), RepList h es b p pp → (kids b es).lookup n = some y →
    ∃ e, findEntry es n = some e ∧ e.Rep h y p pp
  | [], b, p, pp, n, y => by
    intro _ hl
    simp [kids] at hl
  | e :: es, b, p, pp, n, y => by
    intro hr hl
    simp only [RepList] at hr
    simp only [kids, List.lookup] at hl
    by_cases hn : n = e.name
    · subst hn
      simp only [beq_self_eq_true] at hl
      simp only [Option.some.injEq] at hl
      subst hl
      exact ⟨e, by simp [findEntry], hr.1⟩
    · have hne : (n == e.name) = false := by simpa using hn
      rw [hne] at hl
      obtain ⟨e', h1, h2⟩ := kids_lookup_rep h es (b + e.span) p pp n y hr.2 hl
      refine ⟨e', ?_, h2⟩
      have : (e.name == n) = false := by simpa using fun e1 => hn e1.symm
      simp only [findEntry, List.find?_cons, this]
      exact h1

mutual
/-- Entries that agree are scanned to nodes that agree. -/
theorem Entry.agrees_rep (h : Heap) : ∀ (e : Entry) (es2 : List Entry) (b p b2 p2 : Nat)
    (pp pp2 : String), e.agrees es2 = true → e.Rep h b p pp → RepList h es2 b2 p2 pp2 →
    ∀ y, (kids b2 es2).lookup e.name = some y → Agree h b y
  | .file name regular size ctime digest, es2, b, p, b2, p2, pp, pp2 => by
    intro hag hr hr2 y hl
    obtain ⟨e2, hf, hrep⟩ := kids_lookup_rep h es2 b2 p2 pp2 _ y hr2 hl
    simp only [Entry.name] at hf
    simp only [Entry.agrees, hf] at hag
    have hb : (h b).type ≠ "dir" := by
      simp only [Entry.Rep] at hr
      rw [hr]
      simp only
      split
      · exact fileType_ne_dir name
      · decide
    cases e2 with
    | dir n2 s2 c2 es' => simp at hag
    | file n2 r2 s2 c2 d2 =>
      refine Agree.file b y hb ?_
      simp only [Entry.Rep] at hrep
      rw [hrep]
      simp only
      split
      · exact fileType_ne_dir n2
      · decide
  | .dir name size ctime es, es2, b, p, b2, p2, pp, pp2 => by
    intro hag hr hr2 y hl
    obtain ⟨e2, hf, hrep⟩ := kids_lookup_rep h es2 b2 p2 pp2 _ y hr2 hl
    simp only [Entry.name] at hf
    simp only [Entry.agrees, hf] at hag
    simp only [Entry.Rep] at hr
    cases e2 with
    | file n2 r2 s2 c2 d2 => simp at hag
    | dir n2 s2 c2 es' =>
      simp only at hag
      simp only [Entry.Rep] at hrep
      refine Agree.dir b y (by rw [hr.1]) (by rw [hrep.1]) ?_
      intro kc hk z hz
      rw [hr.1] at hk
      rw [hrep.1] at hz
      simp only at hk hz
      exact agreesList_rep h es es' (b + 1) b (y + 1) y _ _ hag hr.2 hrep.2 kc hk z hz
/-- Listings that agree are scanned to children that agree. -/
theorem agreesList_rep (h : Heap) : ∀ (es es2 : List Entry) (b p b2 p2 : Nat)
    (pp pp2 : String), agreesList es es2 = true → RepList h es b p pp →
    RepList h es2 b2 p2 pp2 →
    ∀ kc ∈ kids b es, ∀ y, (kids b2 es2).lookup kc.1 = some y → Agree h kc.2 y
  | [], es2, b, p, b2, p2, pp, pp2 => by
    intro _ _ _ kc hk
    simp [kids] at hk
  | e :: es, es2, b, p, b2, p2, pp, pp2 => by
    intro hag hr hr2 kc hk y hl
    simp only [agreesList, Bool.and_eq_true] at hag
    simp only [RepList] at hr
    simp only [kids, List.mem_cons] at hk
    rcases hk with hk | hk
    · subst hk
      exact Entry.agrees_rep h e es2 b p b2 p2 pp pp2 hag.1 hr.1 hr2 y hl
    · exact agreesList_rep h es es2 (b + e.span) p b2 p2 pp pp2 hag.2 hr.2 hr2 kc hk y hl
end

theorem Agree.carry {h g : Heap} (ht : ∀ a, (g a).type = (h a).type)
    (hc : ∀ a, (g a).children = (h a).children) {a b : Nat} (hag : Agree h a b) :
    Agree g a b := by
  induction hag with
  | file a b h1 h2 => exact Agree.file a b (by rw [ht]; exact h1) (by rw [ht]; exact h2)
  | dir a b h1 h2 _ ih =>
    refine Agree.dir a b (by rw [ht]; exact h1) (by rw [ht]; exact h2) ?_
    intro kc hk y hy
    rw [hc] at hk hy
    exact ih kc hk y hy

theorem subordinateAll_path (best : Nat) : ∀ (ds : List Nat) (h : Heap) (a : Nat),
    ((subordinateAll best ds h) a).path = (h a).path
  | [], h, a => rfl
  | d :: ds, h, a => by
    simp only [subordinateAll]
    rw [subordinateAll_path best ds _ a]
    split_ifs
    · simp
    · rfl

theorem phaseA_path (fileStore : List (String × Nat)) :
    ∀ (l : List (String × Nat)) (fhash : List String) (h g : Heap),
      phaseA fileStore l fhash h = some g → ∀ a, (g a).path = (h a).path := by
  intro l
  induction l with
  | nil =>
    intro fhash h g hp a
    simp only [phaseA, Option.some.injEq] at hp
    subst hp
    rfl
  | cons x l ih =>
    obtain ⟨k, v⟩ := x
    intro fhash h g hp a
    simp only [phaseA] at hp
    split_ifs at hp with c1 c2
    · exact ih _ _ _ hp a
    · cases hb : findBest h (equalRange fileStore k) none with
      | none => rw [hb] at hp; cases hp
      | some ob =>
        cases ob with
        | none => rw [hb] at hp; cases hp
        | some best =>
          rw [hb] at hp
          simp only at hp
          exact (ih _ _ _ hp a).trans (subordinateAll_path best _ h a)
    · exact ih _ _ _ hp a

/-- For two scanned trees that agree, the plan keeps `Clean` relative to the heap after
Phase A. -/
theorem unidupe_clean (fuel : Nat) (path1 path2 pathout : String) (in1 in2 : List Entry)
    (t : FsTree) (hok1 : namesOKList in1) (hok2 : namesOKList in2)
    (hag : agreesList in1 in2 = true)
    (h : unidupe fuel path1 path2 pathout in1 in2 = some t) :
    ∃ hA, scanPhaseA path1 path2 in1 in2 = some hA ∧
      Clean hA (scanBoth path1 path2 in1 in2).1.next t.state := by
  obtain ⟨w1, w2, w3, w4⟩ := scanBoth_wf path1 path2 in1 in2
  have w5 := scanBoth_root_type path1 path2 in1 in2
  have w6 := scanBoth_kids path1 path2 in1 in2
  obtain ⟨p1, p2, p3, p4, p5, p6, p7, p8⟩ := scanBoth_pair path1 path2 in1 in2 hok1 hok2
  unfold unidupe at h
  simp only [scanPhaseA]
  rcases hs : scanBoth path1 path2 in1 in2 with ⟨sc, r1, r2⟩
  rw [hs] at h w1 w2 w3 w4 w5 w6 p1 p2 p3 p4 p5 p6 p7 p8
  simp only at h w1 w2 w3 w4 w5 w6 p1 p2 p3 p4 p5 p6 p7 p8 ⊢
  subst w1 w2
  obtain ⟨hA, hpa, -, hk⟩ := plan_inv fuel sc.heap sc.next 0 (1 + spanList in1) pathout
    sc.fileStore (scanSpan in1 in2) t w4 (scanSpan_pos in1 in2) (by simp [scanSpan])
    (by rw [w3]; simp [scanSpan]) w5 w6 h
  refine ⟨hA, hpa, ?_⟩
  have hty := phaseA_type sc.fileStore _ _ _ _ hpa
  have hch := fun a => (phaseA_fields sc.fileStore _ _ _ _ hpa a).1
  have hstore : ∀ kc ∈ sc.fileStore, IsFile hA sc.next kc.2 := by
    intro kc hk
    rw [p4] at hk
    rcases List.mem_append.mp hk with h1 | h1
    · obtain ⟨i1, i2, i3⟩ := storeList_file sc.heap in1 1 0 path1 p7 kc h1
      exact ⟨by omega, by rw [hty]; exact i3⟩
    · obtain ⟨i1, i2, i3⟩ := storeList_file sc.heap in2 _ _ path2 p8 kc h1
      exact ⟨by omega, by rw [hty]; exact i3⟩
  have hsc := scanBoth_scanInv path1 path2 in1 in2
  rw [hs] at hsc
  obtain ⟨hf1, hf2⟩ := phaseA_files (IsFile hA sc.next) sc.fileStore hstore _ _ _ _ hpa
    ⟨fun a s hs' => (by rw [(hsc.1 a).2.1] at hs'; cases hs'),
     fun a x hx => (by rw [(hsc.1 a).2.2] at hx; cases hx)⟩
  refine hk hf1 hf2 ?_
  intro kc hk y hy
  rw [hch] at hk hy
  rw [p5] at hk
  rw [p6] at hy
  simp only at hk hy
  exact Agree.carry hty hch
    (agreesList_rep sc.heap in1 in2 1 0 _ _ path1 path2 hag p7 p8 kc hk y hy)
/-- **C29.** For two scanned trees in which no name denotes a directory in one tree and a
non-directory in the other at the same relative location (`agreesList`), the names within each
directory being pairwise different, planning never changes the path of a file node: after
planning every scanned non-directory has the path it had when scanned, and every `Copy` step
has a scanned non-directory as source and carries, as source argument of its command, the path
that node had when scanned. -/
theorem file_paths_kept (fuel : Nat) (path1 path2 pathout : String) (in1 in2 : List Entry)
    (t : FsTree) (hok1 : namesOKList in1) (hok2 : namesOKList in2)
    (hag : agreesList in1 in2 = true)
    (h : unidupe fuel path1 path2 pathout in1 in2 = some t) :
    (∀ a, a < (scanBoth path1 path2 in1 in2).1.next →
      ((scanBoth path1 path2 in1 in2).1.heap a).type ≠ "dir" →
      (t.state.heap a).path = ((scanBoth path1 path2 in1 in2).1.heap a).path) ∧
    (∀ e ∈ t.state.editSteps, e.op = "cp" →
      e.acting < (scanBoth path1 path2 in1 in2).1.next ∧
      ((scanBoth path1 path2 in1 in2).1.heap e.acting).type ≠ "dir" ∧
      e.com.get? 2 = some ((scanBoth path1 path2 in1 in2).1.heap e.acting).path) := by
  obtain ⟨hA, hpa, hk⟩ := unidupe_clean fuel path1 path2 pathout in1 in2 t hok1 hok2 hag h
  simp only [scanPhaseA] at hpa
  have hty := phaseA_type _ _ _ _ _ hpa
  have hpt := phaseA_path _ _ _ _ _ hpa
  refine ⟨?_, ?_⟩
  · intro a ha ht
    rw [← hpt a]
    exact hk.file_path a ⟨ha, by rw [hty]; exact ht⟩
  · intro e he hcp
    obtain ⟨⟨h1, h2⟩, h3⟩ := hk.cp_src e he hcp
    rw [hty] at h2
    rw [hpt] at h3
    exact ⟨h1, h2, h3⟩

theorem file_paths_kept_witness :
    (∀ a, a < (scanBoth "in1" "in2" nestedTree nestedTree).1.next →
      ((scanBoth "in1" "in2" nestedTree nestedTree).1.heap a).type ≠ "dir" →
      (((unidupe 2 "in1" "in2" "out" nestedTree nestedTree).get (by decide)).state.heap a).path =
        ((scanBoth "in1" "in2" nestedTree nestedTree).1.heap a).path) ∧
    (∀ e ∈ ((unidupe 2 "in1" "in2" "out" nestedTree nestedTree).get (by decide)).state.editSteps,
      e.op = "cp" →
      e.acting < (scanBoth "in1" "in2" nestedTree nestedTree).1.next ∧
      ((scanBoth "in1" "in2" nestedTree nestedTree).1.heap e.acting).type ≠ "dir" ∧
      e.com.get? 2 = some ((scanBoth "in1" "in2" nestedTree nestedTree).1.heap e.acting).path) :=
  file_paths_kept 2 "in1" "in2" "out" nestedTree nestedTree _
    (by simp [nestedTree, namesOKList, Entry.namesOK, Entry.name, mkFile, mkDir])
    (by simp [nestedTree, namesOKList, Entry.namesOK, Entry.name, mkFile, mkDir])
    (by decide) (Option.some_get _).symm

/-! ## Phase B against the reference planner: preliminaries -/

theorem Keeps.same (st : Planner) (T : List Nat) : Keeps st st T :=
  ⟨Nat.le_refl _, fun _ _ => ⟨rfl, rfl, rfl, rfl, fun _ => ⟨rfl, rfl, rfl⟩⟩⟩

theorem Keeps.chain {st st1 st2 : Planner} {T1 T2 : List Nat}
    (h1 : Keeps st st1 T1) (h2 : Keeps st1 st2 T2) : Keeps st st2 (T1 ++ T2) := by
  refine ⟨Nat.le_trans h1.1 h2.1, ?_⟩
  intro a ha
  obtain ⟨a1, a2, a3, a4, a5⟩ := h1.2 a ha
  obtain ⟨b1, b2, b3, b4, b5⟩ := h2.2 a (Nat.lt_of_lt_of_le ha h1.1)
  refine ⟨b1.trans a1, b2.trans a2, b3.trans a3, b4.trans a4, ?_⟩
  intro hn
  simp only [List.mem_append, not_or] at hn
  obtain ⟨c1, c2, c3⟩ := a5 hn.1
  obtain ⟨d1, d2, d3⟩ := b5 hn.2
  exact ⟨d1.trans c1, d2.trans c2, d3.trans c3⟩

theorem Keeps.weaken {st st' : Planner} {T T' : List Nat} (h : Keeps st st' T)
    (hT : ∀ a ∈ T, a ∈ T') : Keeps st st' T' := by
  refine ⟨h.1, fun a ha => ?_⟩
  obtain ⟨a1, a2, a3, a4, a5⟩ := h.2 a ha
  exact ⟨a1, a2, a3, a4, fun hn => a5 (fun hm => hn (hT a hm))⟩

/-- A change of the heap that leaves alone the fields read by `FileDone`. -/
theorem FileDone.moved {hA : Heap} {n0 : Nat} {st st' : Planner} {f d : Nat}
    {src out : String} (r : FileDone hA n0 st f d src out) (hn : st.next ≤ st'.next)
    (e1 : (st'.heap f).dstParent = (st.heap f).dstParent)
    (e2 : (st'.heap f).path = (st.heap f).path)
    (e3 : (st'.heap f).parent = (st.heap f).parent)
    (e4 : (st'.heap d).path = (st.heap d).path) : FileDone hA n0 st' f d src out :=
  { lt := r.lt
    dlt := Nat.lt_of_lt_of_le r.dlt hn
    dst := e1.trans r.dst
    path := e2.trans r.path
    dpath := e4.trans r.dpath
    par := e3.trans r.par }

theorem Ev.Done.carried {hA : Heap} {n0 : Nat} {st st' : Planner} {ev : Ev}
    (r : ev.Done hA n0 st) (hn : st.next ≤ st'.next)
    (hh : ∀ a ∈ ev.nodes, (st'.heap a).dstParent = (st.heap a).dstParent ∧
      (st'.heap a).path = (st.heap a).path ∧ (st'.heap a).parent = (st.heap a).parent ∧
      (st'.heap a).isSub = (st.heap a).isSub ∧
      (st'.heap a).subordinates = (st.heap a).subordinates ∧
      (st'.heap a).topSup = (st.heap a).topSup) : ev.Done hA n0 st' := by
  cases ev with
  | mk a path =>
    simp only [Ev.Done] at r ⊢
    exact ⟨Nat.lt_of_lt_of_le r.1 hn, (hh a (by simp [Ev.nodes])).2.1.trans r.2⟩
  | cp f d src out =>
    simp only [Ev.Done] at r ⊢
    have h1 := hh f (by simp [Ev.nodes])
    have h2 := hh d (by simp [Ev.nodes])
    exact r.moved hn h1.1 h1.2.1 h1.2.2.1 h2.2.1
  | sub f d src out =>
    simp only [Ev.Done] at r ⊢
    have h1 := hh f (by simp [Ev.nodes])
    have h2 := hh d (by simp [Ev.nodes])
    exact r.moved hn h1.1 h1.2.1 h1.2.2.1 h2.2.1
  | pair c1 c2 d s1 s2 out =>
    simp only [Ev.Done] at r ⊢
    have h1 := hh c1 (by simp [Ev.nodes])
    have h2 := hh c2 (by simp [Ev.nodes])
    have h3 := hh d (by simp [Ev.nodes])
    obtain ⟨r1, r2, r3, r4, r5, r6, r7⟩ := r
    exact ⟨r1.moved hn h1.1 h1.2.1 h1.2.2.1 h3.2.1, r2.moved hn h2.1 h2.2.1 h2.2.2.1 h3.2.1,
      h1.2.2.2.1.trans r3, h1.2.2.2.2.2.trans r4, h1.2.2.2.2.1.trans r5,
      h2.2.2.2.1.trans r6, h2.2.2.2.2.1.trans r7⟩

theorem Ev.Done.framed {hA : Heap} {n0 : Nat} {st st' : Planner} {ev : Ev}
    (r : ev.Done hA n0 st) (hn : st.next ≤ st'.next)
    (hh : ∀ a ∈ ev.nodes, st'.heap a = st.heap a) : ev.Done hA n0 st' :=
  Ev.Done.carried r hn (fun a ha => by rw [hh a ha]; exact ⟨rfl, rfl, rfl, rfl, rfl, rfl⟩)

theorem findAt_shift : ∀ (es : List Entry) (b : Nat) (n : String),
    findAt es b n = (findAt es 0 n).map (fun x => (x.1, x.2 + b))
  | [], b, n => rfl
  | e :: es, b, n => by
    simp only [findAt]
    split
    · simp
    · rw [findAt_shift es (b + e.span) n, findAt_shift es (0 + e.span) n]
      cases findAt es 0 n with
      | none => rfl
      | some x => simp; omega

theorem kids_lookup_findAt : ∀ (es : List Entry) (b : Nat) (n : String),
    (kids b es).lookup n = (findAt es b n).map Prod.snd
  | [], b, n => rfl
  | e :: es, b, n => by
    simp only [kids, List.lookup, findAt]
    by_cases hn : e.name = n
    · subst hn
      simp
    · have : (n == e.name) = false := by simpa using fun e1 => hn e1.symm
      rw [this]
      simp only [hn, if_false]
      exact kids_lookup_findAt es (b + e.span) n

theorem findAt_rep (h : Heap) : ∀ (es : List Entry) (b p : Nat) (pp : String) (n : String)
    (e : Entry) (a : Nat), RepList h es b p pp → findAt es b n = some (e, a) →
    e.Rep h a p pp ∧ e.name = n ∧ e ∈ es ∧ b ≤ a ∧ a + e.span ≤ b + spanList es
  | [], b, p, pp, n, e, a => by
    intro _ hf
    simp [findAt] at hf
  | x :: es, b, p, pp, n, e, a => by
    intro hr hf
    simp only [RepList] at hr
    simp only [findAt] at hf
    simp only [spanList]
    split at hf
    · simp only [Option.some.injEq, Prod.mk.injEq] at hf
      obtain ⟨rfl, rfl⟩ := hf
      exact ⟨hr.1, by assumption, by simp, Nat.le_refl _, by omega⟩
    · obtain ⟨i1, i2, i3, i4, i5⟩ := findAt_rep h es (b + x.span) p pp n e a hr.2 hf
      exact ⟨i1, i2, List.mem_cons_of_mem _ i3, by omega, by omega⟩

theorem findAt_none {es : List Entry} {b : Nat} {n : String} :
    findAt es b n = none ↔ n ∉ es.map Entry.name := by
  induction es generalizing b with
  | nil => simp [findAt]
  | cons e es ih =>
    simp only [findAt, List.map_cons, List.mem_cons, not_or]
    by_cases hn : e.name = n
    · simp [hn]
    · simp only [hn, if_false]
      rw [ih]
      constructor
      · intro h1
        exact ⟨fun e1 => hn e1.symm, h1⟩
      · intro h1
        exact h1.2

/-- The fields of a scanned file on the heap after Phase A. -/
theorem Core.file {hs hA : Heap} (hc : Core hs hA) {name : String} {regular : Bool}
    {size : Nat} {ctime : Timespec} {digest : List Nat} {b p : Nat} {pp : String}
    (hr : (Entry.file name regular size ctime digest).Rep hs b p pp) :
    (hA b).type ≠ "dir" ∧ (hA b).name = name ∧ (hA b).path = pp ++ "/" ++ name ∧
      (hA b).parent = some p ∧ (hA b).dstParent = none ∧ (hA b).children = [] := by
  simp only [Entry.Rep] at hr
  rw [hc b, hr]
  refine ⟨?_, rfl, rfl, rfl, rfl, rfl⟩
  simp only
  split
  · exact fileType_ne_dir name
  · decide

/-- The fields of a scanned directory on the heap after Phase A. -/
theorem Core.dir {hs hA : Heap} (hc : Core hs hA) {name : String}
    {size : Nat} {ctime : Timespec} {es : List Entry} {b p : Nat} {pp : String}
    (hr : (Entry.dir name size ctime es).Rep hs b p pp) :
    (hA b).type = "dir" ∧ (hA b).name = name ∧ (hA b).path = pp ++ "/" ++ name ∧
      (hA b).parent = some p ∧ (hA b).dstParent = none ∧
      (hA b).children = kids (b + 1) es := by
  simp only [Entry.Rep] at hr
  rw [hc b, hr.1]
  exact ⟨rfl, rfl, rfl, rfl, rfl, rfl⟩

/-! ## Phase B against the reference planner: files -/

theorem steps_fileEv (hA : Heap) (f d : Nat) (src out : String) :
    (fileEv hA f d src out).steps = if single hA f then [cpAt f d src out] else [] := by
  unfold fileEv
  split <;> rfl

theorem tops_fileEv (hA : Heap) (f d : Nat) (src out : String) :
    (fileEv hA f d src out).tops hA =
      if single hA f then [] else if (hA f).isSub then [(hA f).topSup] else [] := by
  unfold fileEv
  split <;> rfl

theorem cpStep_eq (h : Heap) (f d : Nat) : cpStep h f d = cpAt f d (h f).path (h d).path := rfl

theorem mkdirStep_eq (h : Heap) (a : Nat) : mkdirStep h a = mkdirAt a (h a).path := rfl

theorem setDstParent_isSub (h : Heap) (x : Nat) (p : Option Nat) (a : Nat) :
    (setDstParent h x p a).isSub = (h a).isSub := by
  cases p <;> by_cases e : a = x <;> simp [setDstParent, e]

theorem setParent_isSub (h : Heap) (x : Nat) (p : Option Nat) (a : Nat) :
    (setParent h x p a).isSub = (h a).isSub := by
  cases p <;> by_cases e : a = x <;> simp [setParent, e]

theorem setParent_date (h : Heap) (x : Nat) (p : Option Nat) (a : Nat) :
    (setParent h x p a).date_changed = (h a).date_changed := by
  cases p <;> by_cases e : a = x <;> simp [setParent, e]

theorem setDstParent_date (h : Heap) (x : Nat) (p : Option Nat) (a : Nat) :
    (setDstParent h x p a).date_changed = (h a).date_changed := by
  cases p <;> by_cases e : a = x <;> simp [setDstParent, e]

theorem setDstParent_num_files (h : Heap) (x : Nat) (p : Option Nat) (a : Nat) :
    (setDstParent h x p a).num_files = (h a).num_files := by
  cases p <;> by_cases e : a = x <;> simp [setDstParent, e]

/-- The second loop of `mergeDirs` at a non-directory it has not visited. -/
theorem visit2_file (hA : Heap) (recur : Nat → Nat → Planner → Option Planner)
    (nd1 f : Nat) (key src out : String) (loc : MergeLocals) (st : Planner)
    (hv : key ∉ loc.visited) (hf : st.heap f = hA f) (ht : (hA f).type ≠ "dir")
    (hpath : (hA f).path = src) (hout : (st.heap nd1).path = out) :
    ∃ loc' st', mergeVisit2 recur nd1 key f loc st = some (loc', st') ∧
      loc'.visited = loc.visited ∧
      st'.heap = setDstParent st.heap f (some nd1) ∧ st'.next = st.next ∧
      st'.editSteps = st.editSteps ++ (fileEv hA f nd1 src out).steps ∧
      st'.sups = ((fileEv hA f nd1 src out).tops hA).foldl setInsert st.sups := by
  have htype : (st.heap f).type ≠ "dir" := by rw [hf]; exact ht
  have hs1 : (setDstParent st.heap f (some nd1) f).isSub = (hA f).isSub := by
    rw [setDstParent_isSub, hf]
  have hs2 : (setDstParent st.heap f (some nd1) f).subordinates = (hA f).subordinates := by
    rw [setDstParent_subordinates, hf]
  have hs3 : (setDstParent st.heap f (some nd1) f).topSup = (hA f).topSup := by
    rw [setDstParent_topSup, hf]
  have hp1 : (setDstParent st.heap f (some nd1) f).path = src := by
    rw [setDstParent_path, hf]; exact hpath
  have hp2 : (setDstParent st.heap f (some nd1) nd1).path = out := by
    rw [setDstParent_path]; exact hout
  unfold mergeVisit2
  simp only [hv, if_false, htype, hs1, hs2, hs3, pushStep_cp, steps_fileEv, tops_fileEv]
  by_cases h1 : single hA f = true
  · have h1' : (!(hA f).isSub && (hA f).subordinates.isEmpty) = true := h1
    simp only [h1, h1', if_true, cpStep_eq, hp1, hp2]
    exact ⟨_, _, rfl, rfl, rfl, rfl, rfl, rfl⟩
  · have h1' : ¬ ((!(hA f).isSub && (hA f).subordinates.isEmpty) = true) := h1
    simp only [h1, h1', if_false]
    by_cases h2 : (hA f).isSub = true
    · simp only [h2, if_true]
      exact ⟨_, _, rfl, rfl, rfl, rfl, by simp [Planner.addSup], by simp [Planner.addSup]⟩
    · simp only [h2, if_false]
      exact ⟨_, _, rfl, rfl, rfl, rfl, by simp, by simp⟩

/-- The first loop of `mergeDirs` at a non-directory without a namesake in the other
directory. -/
theorem visit1_file (hA : Heap) (recur : Nat → Nat → Planner → Option Planner)
    (nd1 nd2 f : Nat) (key src out : String) (loc : MergeLocals) (st : Planner)
    (hl : (st.heap nd2).children.lookup key = none)
    (hf : st.heap f = hA f) (ht : (hA f).type ≠ "dir")
    (hpath : (hA f).path = src) (hout : (st.heap nd1).path = out) :
    ∃ loc' st', mergeVisit1 recur nd1 nd2 key f loc st = some (loc', st') ∧
      loc'.visited = loc.visited ∧
      st'.heap = setDstParent st.heap f (some nd1) ∧ st'.next = st.next ∧
      st'.editSteps = st.editSteps ++ (fileEv hA f nd1 src out).steps ∧
      st'.sups = ((fileEv hA f nd1 src out).tops hA).foldl setInsert st.sups := by
  have htype : (st.heap f).type ≠ "dir" := by rw [hf]; exact ht
  have hs1 : (setDstParent st.heap f (some nd1) f).isSub = (hA f).isSub := by
    rw [setDstParent_isSub, hf]
  have hs2 : (setDstParent st.heap f (some nd1) f).subordinates = (hA f).subordinates := by
    rw [setDstParent_subordinates, hf]
  have hs3 : (setDstParent st.heap f (some nd1) f).topSup = (hA f).topSup := by
    rw [setDstParent_topSup, hf]
  have hp1 : (setDstParent st.heap f (some nd1) f).path = src := by
    rw [setDstParent_path, hf]; exact hpath
  have hp2 : (setDstParent st.heap f (some nd1) nd1).path = out := by
    rw [setDstParent_path]; exact hout
  unfold mergeVisit1
  simp only [hl, Option.isSome_none, Bool.false_eq_true, if_false, htype, hs1, hs2, hs3,
    pushStep_cp, steps_fileEv, tops_fileEv]
  by_cases h1 : single hA f = true
  · have h1' : (!(hA f).isSub && (hA f).subordinates.isEmpty) = true := h1
    simp only [h1, h1', if_true, cpStep_eq, hp1, hp2]
    exact ⟨_, _, rfl, rfl, rfl, rfl, rfl, rfl⟩
  · have h1' : ¬ ((!(hA f).isSub && (hA f).subordinates.isEmpty) = true) := h1
    simp only [h1, h1', if_false]
    by_cases h2 : (hA f).isSub = true
    · simp only [h2, if_true]
      exact ⟨_, _, rfl, rfl, rfl, rfl, by simp [Planner.addSup], by simp [Planner.addSup]⟩
    · simp only [h2, if_false]
      exact ⟨_, _, rfl, rfl, rfl, rfl, by simp, by simp⟩

/-- The path-collision branch on two untouched nodes: the node of tree 1 becomes the
subordinate of its namesake, which goes to `sups`. -/
theorem mergeCollision_pristine (nd1 c1 c2 : Nat) (st1 : Planner) (hne : c1 ≠ c2)
    (h1 : Pristine (st1.heap c1)) (h2 : Pristine (st1.heap c2)) :
    mergeCollision nd1 c1 c2 st1 =
      { st1 with heap := makeSub (setDstParent st1.heap c2 (some nd1)) c1 c2,
                 sups := setInsert st1.sups (some c2) } := by
  obtain ⟨a1, a2, a3⟩ := h1
  obtain ⟨b1, b2, b3⟩ := h2
  have hne' : c2 ≠ c1 := fun e => hne e.symm
  have e1 : (setDstParent st1.heap c2 (some nd1) c1).isSub = false := by
    rw [setDstParent_isSub]; exact a1
  have e2 : (setDstParent st1.heap c2 (some nd1) c2).isSub = false := by
    rw [setDstParent_isSub]; exact b1
  unfold mergeCollision
  simp only [e1, e2, Bool.or_false, Bool.not_false, if_true]
  have e3 : (makeSub (setDstParent st1.heap c2 (some nd1)) c1 c2 c1).isSub = true := by
    simp [makeSub, hne]
  have e4 : (makeSub (setDstParent st1.heap c2 (some nd1)) c1 c2 c1).topSup = some c2 := by
    simp [makeSub, hne, hne', e2]
  simp only [e3, if_true, Planner.addSup, e4, ne_eq, not_true_eq_false, if_false]

/-- The first loop of `mergeDirs` at a non-directory of tree 1 that has a namesake in the
directory of tree 2, both untouched by Phase A. -/
theorem visit1_pair (hA : Heap) (recur : Nat → Nat → Planner → Option Planner)
    (nd1 nd2 c1 c2 : Nat) (key : String) (loc : MergeLocals) (st : Planner)
    (hl : (st.heap nd2).children.lookup key = some c2)
    (hf1 : st.heap c1 = hA c1) (hf2 : st.heap c2 = hA c2) (ht : (hA c1).type ≠ "dir")
    (hne : c1 ≠ c2) (p1 : Pristine (hA c1)) (p2 : Pristine (hA c2)) :
    mergeVisit1 recur nd1 nd2 key c1 loc st =
      some ({ step_children := loc.step_children, visited := setInsert loc.visited key },
        { st with
          heap := makeSub (setDstParent (setDstParent st.heap c1 (some nd1)) c2 (some nd1))
            c1 c2,
          sups := setInsert st.sups (some c2) }) := by
  have htype : (st.heap c1).type ≠ "dir" := by rw [hf1]; exact ht
  have hne' : c2 ≠ c1 := fun e => hne e.symm
  unfold mergeVisit1
  simp only [hl, Option.isSome_some, if_true, htype, if_false]
  rw [mergeCollision_pristine nd1 c1 c2 _ hne]
  · unfold Pristine
    simp only [setDstParent_isSub, setDstParent_subordinates, setDstParent_topSup]
    rw [hf1]
    exact p1
  · unfold Pristine
    simp only [setDstParent_isSub, setDstParent_subordinates, setDstParent_topSup]
    rw [hf2]
    exact p2

/-! ## Phase B against the reference planner: composition -/

theorem Sim.empty (hA : Heap) (n0 : Nat) (st : Planner) : Sim hA n0 st st [] 0 :=
  { steps := by simp
    sups := rfl
    next := rfl
    keeps := Keeps.same st _
    done := fun ev hev => absurd hev (List.not_mem_nil _) }

theorem Sim.append {hA : Heap} {n0 : Nat} {st st1 st2 : Planner} {evs1 evs2 : List Ev}
    {k1 k2 : Nat} (s1 : Sim hA n0 st st1 evs1 k1) (s2 : Sim hA n0 st1 st2 evs2 k2)
    (hfr : ∀ ev ∈ evs1, ∀ a ∈ ev.nodes, st2.heap a = st1.heap a) :
    Sim hA n0 st st2 (evs1 ++ evs2) (k1 + k2) :=
  { steps := by rw [s2.steps, s1.steps]; simp
    sups := by rw [s2.sups, s1.sups]; simp [List.foldl_append]
    next := by rw [s2.next, s1.next]; omega
    keeps := by
      rw [List.flatMap_append]
      exact s1.keeps.chain s2.keeps
    done := fun ev hev => by
      rcases List.mem_append.mp hev with h1 | h1
      · exact (s1.done ev h1).framed (by rw [s2.next]; omega) (hfr ev h1)
      · exact s2.done ev h1 }

/-- A final change of the heap that leaves alone the fields the simulation reads. -/
theorem Sim.swap {hA : Heap} {n0 : Nat} {st st' : Planner} {evs : List Ev} {k : Nat}
    (s : Sim hA n0 st st' evs k) (g : Heap)
    (hh : ∀ a, (g a).dstParent = (st'.heap a).dstParent ∧ (g a).path = (st'.heap a).path ∧
      (g a).parent = (st'.heap a).parent ∧ (g a).isSub = (st'.heap a).isSub ∧
      (g a).subordinates = (st'.heap a).subordinates ∧ (g a).topSup = (st'.heap a).topSup ∧
      (g a).name = (st'.heap a).name ∧ (g a).date_changed = (st'.heap a).date_changed ∧
      (g a).num_files = (st'.heap a).num_files ∧ (g a).type = (st'.heap a).type) :
    Sim hA n0 st { st' with heap := g } evs k :=
  { steps := s.steps
    sups := s.sups
    next := s.next
    keeps := by
      refine ⟨s.keeps.1, fun a ha => ?_⟩
      obtain ⟨a1, a2, a3, a4, a5⟩ := s.keeps.2 a ha
      obtain ⟨b1, b2, b3, b4, b5, b6, b7, b8, b9, b10⟩ := hh a
      refine ⟨b7.trans a1, b8.trans a2, b9.trans a3, b10.trans a4, fun hn => ?_⟩
      obtain ⟨c1, c2, c3⟩ := a5 hn
      exact ⟨b4.trans c1, b5.trans c2, b6.trans c3⟩
    done := fun ev hev => (s.done ev hev).carried (Nat.le_refl _) (fun a _ => by
      obtain ⟨b1, b2, b3, b4, b5, b6, -⟩ := hh a
      exact ⟨b1, b2, b3, b4, b5, b6⟩) }

/-- Steps queued before the simulated part. -/
theorem Sim.cons_mk {hA : Heap} {n0 : Nat} {st st0 st' : Planner} {evs : List Ev} {k j : Nat}
    (s : Sim hA n0 st0 st' evs k) (a : Nat) (path : String)
    (he : st0.editSteps = st.editSteps ++ [mkdirAt a path]) (hs : st0.sups = st.sups)
    (hn : st0.next = st.next + j) (hk : Keeps st st0 [])
    (hd : a < st'.next ∧ (st'.heap a).path = path) :
    Sim hA n0 st st' (.mk a path :: evs) (j + k) :=
  { steps := by rw [s.steps, he]; simp [Ev.steps]
    sups := by rw [s.sups, hs]; simp [Ev.tops]
    next := by rw [s.next, hn]; omega
    keeps := by
      have := hk.chain s.keeps
      simpa [Ev.touched] using this
    done := fun ev hev => by
      rcases List.mem_cons.mp hev with h1 | h1
      · rw [h1]; exact hd
      · exact s.done ev h1 }

/-! ## Phase B against the reference planner: entries that one tree has -/

theorem setDstParent_other (h : Heap) (x : Nat) (p : Option Nat) (a : Nat) (e : a ≠ x) :
    setDstParent h x p a = h a := by
  cases p <;> simp [setDstParent, e]

theorem setParent_other (h : Heap) (x : Nat) (p : Option Nat) (a : Nat) (e : a ≠ x) :
    setParent h x p a = h a := by
  cases p <;> simp [setParent, e]

theorem fileEv_done {hA : Heap} {n0 : Nat} {st : Planner} {f d : Nat} {src out : String}
    (r : FileDone hA n0 st f d src out) : (fileEv hA f d src out).Done hA n0 st := by
  unfold fileEv
  split <;> exact r

theorem fileEv_touched (hA : Heap) (f d : Nat) (src out : String) :
    (fileEv hA f d src out).touched = [] := by
  unfold fileEv
  split <;> rfl

theorem fileEv_nodes (hA : Heap) (f d : Nat) (src out : String) :
    (fileEv hA f d src out).nodes = [f, d] := by
  unfold fileEv
  split <;> rfl

/-- The visit of a non-directory without a namesake, as a simulation step. -/
theorem sim_file {hA : Heap} {n0 : Nat} {st st' : Planner} {f nd1 : Nat} {src out : String}
    (hf : st.heap f = hA f) (hlt : f < n0) (hnd : nd1 < st.next)
    (hpath : (hA f).path = src) (hout : (st.heap nd1).path = out)
    (h1 : st'.heap = setDstParent st.heap f (some nd1)) (h2 : st'.next = st.next)
    (h3 : st'.editSteps = st.editSteps ++ (fileEv hA f nd1 src out).steps)
    (h4 : st'.sups = ((fileEv hA f nd1 src out).tops hA).foldl setInsert st.sups) :
    Sim hA n0 st st' [fileEv hA f nd1 src out] 0 :=
  { steps := by rw [h3]; simp
    sups := by rw [h4]; simp
    next := by rw [h2]; rfl
    keeps := by
      refine ⟨by rw [h2], fun a _ => ?_⟩
      rw [h1]
      exact ⟨setDstParent_name _ _ _ _, setDstParent_date _ _ _ _,
        setDstParent_num_files _ _ _ _, setDstParent_type _ _ _ _,
        fun _ => ⟨setDstParent_isSub _ _ _ _, setDstParent_subordinates _ _ _ _,
          setDstParent_topSup _ _ _ _⟩⟩
    done := fun ev hev => by
      rw [List.mem_singleton.mp hev]
      refine fileEv_done
        { lt := hlt
          dlt := by rw [h2]; exact hnd
          dst := by rw [h1, setDstParent_dstParent]; simp
          path := by rw [h1, setDstParent_path, hf]; exact hpath
          dpath := by rw [h1, setDstParent_path]; exact hout
          par := by rw [h1, setDstParent_parent, hf] } }

theorem mergeDirs_alone (fuel nd1 nd2 : Nat) (st : Planner)
    (hch : (st.heap nd1).children = []) :
    mergeDirs (fuel + 1) nd1 nd2 st =
      match mergeLoop2 (mergeDirs fuel) nd1 (st.heap nd2).children
          { step_children := [], visited := [] } st with
      | none => none
      | some (loc2, st2) =>
        some { st2 with
          heap := st2.heap.modify nd1 (fun n => { n with children := loc2.step_children }) } := by
  simp only [mergeDirs, hch, mergeLoop1]

theorem aloneNewList_nil : ∀ es : List Entry, aloneNewList es [] = numDirsList es
  | [] => rfl
  | e :: es => by simp [aloneNewList, numDirsList, aloneNewList_nil es]

theorem PendBut.of_all {h hA : Heap} : ∀ (es : List Entry) (skip : List String) (b : Nat),
    (∀ a, b ≤ a → a < b + spanList es → h a = hA a) → PendBut h hA es skip b
  | [], _, _ => fun _ => trivial
  | e :: es, skip, b => by
    intro hp
    simp only [spanList] at hp
    have := Entry.span_pos e
    exact ⟨fun _ a h1 h2 => hp a h1 (by omega),
      PendBut.of_all es skip (b + e.span) (fun a h1 h2 => hp a (by omega) (by omega))⟩

theorem PendBut.kept {h g hA : Heap} : ∀ (es : List Entry) (skip : List String) (b : Nat),
    (∀ a, b ≤ a → a < b + spanList es → g a = h a) → PendBut h hA es skip b →
    PendBut g hA es skip b
  | [], _, _ => fun _ _ => trivial
  | e :: es, skip, b => by
    intro hg hp
    simp only [spanList] at hg
    have := Entry.span_pos e
    exact ⟨fun hn a h1 h2 => (hg a h1 (by omega)).trans (hp.1 hn a h1 h2),
      PendBut.kept es skip (b + e.span) (fun a h1 h2 => hg a (by omega) (by omega)) hp.2⟩

theorem modify_children_fields (h : Heap) (x : Nat) (c : List (String × Nat)) (a : Nat) :
    ((h.modify x (fun n => { n with children := c })) a).dstParent = (h a).dstParent ∧
    ((h.modify x (fun n => { n with children := c })) a).path = (h a).path ∧
    ((h.modify x (fun n => { n with children := c })) a).parent = (h a).parent ∧
    ((h.modify x (fun n => { n with children := c })) a).isSub = (h a).isSub ∧
    ((h.modify x (fun n => { n with children := c })) a).subordinates = (h a).subordinates ∧
    ((h.modify x (fun n => { n with children := c })) a).topSup = (h a).topSup ∧
    ((h.modify x (fun n => { n with children := c })) a).name = (h a).name ∧
    ((h.modify x (fun n => { n with children := c })) a).date_changed = (h a).date_changed ∧
    ((h.modify x (fun n => { n with children := c })) a).num_files = (h a).num_files ∧
    ((h.modify x (fun n => { n with children := c })) a).type = (h a).type := by
  by_cases e : a = x
  · subst e; simp
  · simp [e]

/-! ## Phase B against the reference planner: entries of tree 1 -/

theorem findAt_disjoint : ∀ (es : List Entry) (b : Nat) (n n' : String) (e e' : Entry)
    (a a' : Nat), findAt es b n = some (e, a) → findAt es b n' = some (e', a') → n ≠ n' →
    a + e.span ≤ a' ∨ a' + e'.span ≤ a
  | [], b, n, n', e, e', a, a' => by
    intro h1
    simp [findAt] at h1
  | x :: es, b, n, n', e, e', a, a' => by
    intro h1 h2 hne
    simp only [findAt] at h1 h2
    by_cases c1 : x.name = n
    · have c2 : ¬ x.name = n' := fun c => hne (c1.symm.trans c)
      simp only [c1, if_true, Option.some.injEq, Prod.mk.injEq] at h1
      simp only [c2, if_false] at h2
      obtain ⟨rfl, rfl⟩ := h1
      have := findAt_shift es (b + x.span) n'
      rw [h2] at this
      cases hq : findAt es 0 n' with
      | none => rw [hq] at this; simp at this
      | some q =>
        rw [hq] at this
        simp only [Option.map_some', Option.some.injEq, Prod.mk.injEq] at this
        left; omega
    · simp only [c1, if_false] at h1
      by_cases c2 : x.name = n'
      · simp only [c2, if_true, Option.some.injEq, Prod.mk.injEq] at h2
        obtain ⟨rfl, rfl⟩ := h2
        have := findAt_shift es (b + x.span) n
        rw [h1] at this
        cases hq : findAt es 0 n with
        | none => rw [hq] at this; simp at this
        | some q =>
          rw [hq] at this
          simp only [Option.map_some', Option.some.injEq, Prod.mk.injEq] at this
          right; omega
      · simp only [c2, if_false] at h2
        exact findAt_disjoint es (b + x.span) n n' e e' a a' h1 h2 hne

theorem findAt_isSome (es : List Entry) (b : Nat) (n : String) :
    (findAt es b n).isSome = (findAt es 0 n).isSome := by
  rw [findAt_shift es b n]
  cases findAt es 0 n <;> rfl

theorem findAt_mem {es : List Entry} {b : Nat} {n : String} :
    (findAt es b n).isSome ↔ n ∈ es.map Entry.name := by
  have := @findAt_none es b n
  cases h : findAt es b n with
  | none => simp [h] at this ⊢; exact this
  | some x =>
    simp only [h, Option.isSome_some, true_iff]
    by_contra hc
    rw [this.mpr hc] at h
    exact absurd h (by simp)

/-- The fields of a scanned entry on the heap after Phase A. -/
theorem Core.entry {hs hA : Heap} (hc : Core hs hA) : ∀ {e : Entry} {b p : Nat} {pp : String},
    e.Rep hs b p pp → (hA b).name = e.name ∧ (hA b).path = pp ++ "/" ++ e.name ∧
      (hA b).parent = some p
  | .file _ _ _ _ _, _, _, _, hr => by
    obtain ⟨_, c2, c3, c4, _⟩ := hc.file hr
    exact ⟨c2, c3, c4⟩
  | .dir _ _ _ _, _, _, _, hr => by
    obtain ⟨_, c2, c3, c4, _⟩ := hc.dir hr
    exact ⟨c2, c3, c4⟩

theorem makeSub_date (h : Heap) (this sup a : Nat) :
    (makeSub h this sup a).date_changed = (h a).date_changed := by
  unfold makeSub
  simp only
  rw [modify_proj FsNode.date_changed, modify_proj FsNode.date_changed,
    modify_proj FsNode.date_changed] <;> intro n <;> rfl

/-- The visit of a non-directory of tree 1 with a namesake, as a simulation step. -/
theorem sim_pair {hA : Heap} {n0 : Nat} {st : Planner} {c1 c2 nd1 : Nat} {s1 s2 out : String}
    (hf1 : st.heap c1 = hA c1) (hf2 : st.heap c2 = hA c2) (hne : c1 ≠ c2)
    (p1 : Pristine (hA c1)) (p2 : Pristine (hA c2)) (hl1 : c1 < n0) (hl2 : c2 < n0)
    (hnd : nd1 < st.next) (hp1 : (hA c1).path = s1) (hp2 : (hA c2).path = s2)
    (hout : (st.heap nd1).path = out) :
    Sim hA n0 st
      { st with
        heap := makeSub (setDstParent (setDstParent st.heap c1 (some nd1)) c2 (some nd1)) c1 c2,
        sups := setInsert st.sups (some c2) }
      [.pair c1 c2 nd1 s1 s2 out] 0 := by
  have hne' : c2 ≠ c1 := fun e => hne e.symm
  obtain ⟨a1, a2, a3⟩ := p1
  obtain ⟨b1, b2, b3⟩ := p2
  rw [← hf1] at a1 a2 a3
  rw [← hf2] at b1 b2 b3
  exact
  { steps := by simp [Ev.steps]
    sups := by simp [Ev.tops]
    next := rfl
    keeps := by
      refine ⟨Nat.le_refl _, fun a _ => ?_⟩
      simp only
      refine ⟨by simp, by rw [makeSub_date, setDstParent_date, setDstParent_date],
        by rw [makeSub_num_files, setDstParent_num_files, setDstParent_num_files],
        by simp, fun hn => ?_⟩
      simp only [List.flatMap_cons, Ev.touched, List.flatMap_nil, List.append_nil,
        List.mem_cons, List.mem_singleton, List.not_mem_nil, or_false, not_or] at hn
      rw [makeSub_other _ _ _ _ hn.1 hn.2]
      exact ⟨by rw [setDstParent_isSub, setDstParent_isSub],
        by rw [setDstParent_subordinates, setDstParent_subordinates],
        by rw [setDstParent_topSup, setDstParent_topSup]⟩
    done := fun ev hev => by
      rw [List.mem_singleton.mp hev]
      simp only [Ev.Done]
      refine ⟨?_, ?_, ?_, ?_, ?_, ?_, ?_⟩
      · exact
          { lt := hl1
            dlt := hnd
            dst := by simp [setDstParent, hne]
            path := by simp; rw [hf1]; exact hp1
            dpath := by simp; exact hout
            par := by simp; rw [hf1] }
      · exact
          { lt := hl2
            dlt := hnd
            dst := by simp [setDstParent, hne]
            path := by simp; rw [hf2]; exact hp2
            dpath := by simp; exact hout
            par := by simp; rw [hf2] }
      · simp [makeSub, hne]
      · simp [makeSub, hne, hne', setDstParent, b1]
      · simp [makeSub, hne, hne', setDstParent, a2]
      · simp [makeSub, hne, hne', setDstParent, b1]
      · simp [makeSub, hne, hne', setDstParent, b2] }

theorem Outside.beyond : ∀ (es : List Entry) (skip : List String) (b a : Nat),
    ¬ (b ≤ a ∧ a < b + spanList es) → Outside es skip b a
  | [], _, _, _ => fun _ => trivial
  | e :: es, skip, b, a => by
    intro h
    simp only [spanList] at h
    have := Entry.span_pos e
    exact ⟨fun _ => by omega, Outside.beyond es skip (b + e.span) a (by omega)⟩

theorem findAt_tail {e : Entry} {es : List Entry} {b : Nat} {n : String} {x : Entry × Nat}
    (hn : e.name ∉ es.map Entry.name) (h : findAt es (b + e.span) n = some x) :
    findAt (e :: es) b n = some x := by
  have hm : n ∈ es.map Entry.name := findAt_mem.mp (by rw [h]; rfl)
  have hne : ¬ e.name = n := fun c => hn (c ▸ hm)
  simp only [findAt, hne, if_false]
  exact h

theorem findAt_head (e : Entry) (es : List Entry) (b : Nat) :
    findAt (e :: es) b e.name = some (e, b) := by
  simp [findAt]

theorem Outside.of_findAt : ∀ (es : List Entry) (skip : List String) (b a : Nat),
    namesOKList es →
    (∀ n e2 a2, findAt es b n = some (e2, a2) → n ∉ skip → ¬ (a2 ≤ a ∧ a < a2 + e2.span)) →
    Outside es skip b a
  | [], _, _, _ => fun _ _ => trivial
  | e :: es, skip, b, a => by
    intro hn h
    simp only [namesOKList] at hn
    exact ⟨fun hs => h e.name e b (findAt_head e es b) hs,
      Outside.of_findAt es skip (b + e.span) a hn.2.2
        (fun n e2 a2 hf hs => h n e2 a2 (findAt_tail hn.1 hf) hs)⟩

theorem PendBut.by_findAt {h hA : Heap} : ∀ (es : List Entry) (skip : List String) (b : Nat),
    namesOKList es →
    (∀ n e2 a2, findAt es b n = some (e2, a2) → n ∉ skip →
      ∀ a, a2 ≤ a → a < a2 + e2.span → h a = hA a) →
    PendBut h hA es skip b
  | [], _, _ => fun _ _ => trivial
  | e :: es, skip, b => by
    intro hn hp
    simp only [namesOKList] at hn
    exact ⟨fun hs => hp e.name e b (findAt_head e es b) hs,
      PendBut.by_findAt es skip (b + e.span) hn.2.2
        (fun n e2 a2 hf hs => hp n e2 a2 (findAt_tail hn.1 hf) hs)⟩

theorem PendBut.kept_outside {h g hA : Heap} :
    ∀ (es : List Entry) (skip : List String) (b : Nat),
    (∀ a, ¬ Outside es skip b a → g a = h a) → PendBut h hA es skip b →
    PendBut g hA es skip b
  | [], _, _ => fun _ _ => trivial
  | e :: es, skip, b => by
    intro hg hp
    exact ⟨fun hn a h1 h2 => (hg a (fun ho => ho.1 hn ⟨h1, h2⟩)).trans (hp.1 hn a h1 h2),
      PendBut.kept_outside es skip (b + e.span) (fun a ho => hg a (fun ho2 => ho ho2.2)) hp.2⟩

mutual
/-- One iteration of the second loop of `mergeDirs` at an entry it has not visited. -/
theorem aloneVisit (hs hA : Heap) (n0 : Nat) (hcore : Core hs hA) :
    ∀ (e : Entry) (fuel b p nd1 : Nat) (src out : String) (loc : MergeLocals) (st : Planner),
    e.depth ≤ fuel → e.namesOK → e.Rep hs b p src →
    (∀ a, b ≤ a → a < b + e.span → st.heap a = hA a) →
    b + e.span ≤ n0 → n0 ≤ st.next → nd1 < st.next → (nd1 < b ∨ b + e.span ≤ nd1) →
    (st.heap nd1).path = out → e.name ∉ loc.visited →
    ∃ loc' st', mergeVisit2 (mergeDirs fuel) nd1 e.name b loc st = some (loc', st') ∧
      loc'.visited = loc.visited ∧
      Sim hA n0 st st' (e.aloneEvs hA b nd1 st.next src out) e.numDirs ∧
      (∀ a, ¬ (b ≤ a ∧ a < b + e.span) → ¬ (st.next ≤ a ∧ a < st.next + e.numDirs) →
        st'.heap a = st.heap a) ∧
      (∀ ev ∈ e.aloneEvs hA b nd1 st.next src out, ∀ a ∈ ev.nodes,
        a = nd1 ∨ (b ≤ a ∧ a < b + e.span) ∨ (st.next ≤ a ∧ a < st.next + e.numDirs))
  | .file name regular size ctime digest, fuel, b, p, nd1, src, out, loc, st => by
    intro _ _ hr hpend hbn _ hnd hnd1 hout hv
    simp only [Entry.span] at hbn hpend hnd1 ⊢
    simp only [Entry.name] at hv ⊢
    obtain ⟨c1, c2, c3, c4, c5, c6⟩ := hcore.file hr
    have hf : st.heap b = hA b := hpend b (Nat.le_refl _) (by omega)
    have hne : nd1 ≠ b := by omega
    obtain ⟨loc', st', h0, h1, h2, h3, h4, h5⟩ :=
      visit2_file hA (mergeDirs fuel) nd1 b name (src ++ "/" ++ name) out loc st hv hf c1 c3 hout
    refine ⟨loc', st', h0, h1, ?_, ?_, ?_⟩
    · simp only [Entry.aloneEvs, Entry.numDirs]
      exact sim_file hf (by omega) hnd c3 hout h2 h3 h4 h5
    · intro a ha _
      rw [h2]
      exact setDstParent_other _ _ _ _ (by omega)
    · intro ev hev a ha
      simp only [Entry.aloneEvs, List.mem_singleton] at hev
      rw [hev, fileEv_nodes] at ha
      simp only [List.mem_cons, List.mem_singleton, List.not_mem_nil, or_false] at ha
      rcases ha with ha | ha
      · right; left; omega
      · left; exact ha
  | .dir name size ctime es, fuel, b, p, nd1, src, out, loc, st => by
    intro hfuel hnames hr hpend hbn hn0 hnd hnd1 hout hv
    simp only [Entry.span] at hbn hpend hnd1 ⊢
    simp only [Entry.name] at hv ⊢
    simp only [Entry.depth] at hfuel
    simp only [Entry.namesOK] at hnames
    simp only [Entry.numDirs]
    obtain ⟨fuel', rfl⟩ : ∃ f, fuel = f + 1 := ⟨fuel - 1, by omega⟩
    obtain ⟨c1, c2, c3, c4, c5, c6⟩ := hcore.dir hr
    have hrl : RepList hs es (b + 1) b (src ++ "/" ++ name) := by
      simp only [Entry.Rep] at hr
      exact hr.2
    have hf : st.heap b = hA b := hpend b (Nat.le_refl _) (by omega)
    have hne : nd1 ≠ b := by omega
    have hbx : b ≠ st.next := by omega
    have hnx : nd1 ≠ st.next := by omega
    -- the state when the recursive call starts
    generalize hh3 : (setParent st.heap b (some nd1)).set st.next
      (FsNode.create (setParent st.heap b (some nd1))
        ((setParent st.heap b (some nd1)) b).name (some nd1) "dir") = h3
    have hfr3 : ∀ a, a ≠ b → a ≠ st.next → h3 a = st.heap a := by
      intro a e1 e2
      rw [← hh3]
      simp only [Heap.get_set, e2, if_false]
      exact setParent_other _ _ _ _ e1
    have hnew : h3 st.next = FsNode.create (setParent st.heap b (some nd1))
        ((setParent st.heap b (some nd1)) b).name (some nd1) "dir" := by
      rw [← hh3]
      simp
    have hpath3 : (h3 st.next).path = out ++ "/" ++ name := by
      rw [hnew, create_path, setParent_name, setParent_path_other _ _ _ _ hne, hout, hf, c2]
    have hch3 : (h3 st.next).children = [] := by
      rw [hnew, create_children]
    have hb3 : (h3 b).children = kids (b + 1) es := by
      rw [← hh3]
      simp only [Heap.get_set, hbx, if_false, setParent_children]
      rw [hf, c6]
    obtain ⟨loc2, st2, hloop, hvis2, hsim, hframeO, hnodes2⟩ :=
      aloneLoop hs hA n0 hcore es [] fuel' (b + 1) b st.next (src ++ "/" ++ name)
        (out ++ "/" ++ name) { step_children := [], visited := [] }
        { st with heap := h3, next := st.next + 1, plannedNode := st.plannedNode ++ [st.next],
                  editSteps := st.editSteps ++ [mkdirStep h3 st.next] }
        (by omega) hnames hrl
        (PendBut.of_all es [] (b + 1) (fun a h1 h2 => by
          simp only
          rw [hfr3 a (by omega) (by omega)]
          exact hpend a (by omega) (by omega)))
        (by omega) (by simp only; omega) (by simp only; omega) (Or.inr (by omega))
        hpath3 (by simp)
    simp only [aloneNewList_nil] at hloop hsim hframeO hnodes2
    have hframe2 := fun a (h1 : ¬ (b + 1 ≤ a ∧ a < b + 1 + spanList es)) =>
      hframeO a (Outside.beyond es [] (b + 1) a h1)
    refine ⟨{ loc with step_children := mapInsert loc.step_children (h3 st.next).name st.next },
      { st2 with
        heap := st2.heap.modify st.next (fun n => { n with children := loc2.step_children }) },
      ?_, rfl, ?_, ?_, ?_⟩
    · unfold mergeVisit2
      have htd : (st.heap b).type = "dir" := by rw [hf]; exact c1
      simp only [hv, if_false, htd, if_true, Planner.pushNode, pushStep_mkdir, hh3]
      rw [mergeDirs_alone fuel' st.next b _ (by simpa using hch3)]
      simp only [hb3, hloop]
    · simp only [Entry.aloneEvs]
      have hsim' := hsim.swap
        (st2.heap.modify st.next (fun n => { n with children := loc2.step_children }))
        (fun a => modify_children_fields _ _ _ a)
      have := @Sim.cons_mk _ _ st _ _ _ _ 1 hsim' st.next (out ++ "/" ++ name)
        (by simp only; rw [mkdirStep_eq, hpath3]) rfl rfl
        (by
          refine ⟨by simp, fun a ha => ?_⟩
          have e2 : a ≠ st.next := by omega
          simp only
          rw [← hh3]
          simp only [Heap.get_set, e2, if_false]
          exact ⟨setParent_name _ _ _ _, setParent_date _ _ _ _, setParent_num_files _ _ _ _,
            setParent_type _ _ _ _, fun _ => ⟨setParent_isSub _ _ _ _,
              setParent_subordinates _ _ _ _, setParent_topSup _ _ _ _⟩⟩)
        (by
          refine ⟨by simp only; rw [hsim.next]; simp only; omega, ?_⟩
          simp only
          rw [(modify_children_fields _ _ _ _).2.1,
            hframe2 st.next (by omega) (by omega)]
          exact hpath3)
      exact this
    · intro a ha1 ha2
      have e1 : a ≠ st.next := by omega
      simp only [Heap.get_modify, e1, if_false]
      rw [hframe2 a (by omega) (by omega)]
      exact hfr3 a (by omega) e1
    · intro ev hev a ha
      simp only [Entry.aloneEvs, List.mem_cons] at hev
      rcases hev with hev | hev
      · rw [hev] at ha
        simp only [Ev.nodes, List.mem_singleton] at ha
        right; right; omega
      · rcases hnodes2 ev hev a ha with h1 | h1 | h1
        · right; right; omega
        · right; left; omega
        · right; right; omega
/-- The second loop of `mergeDirs` over the entries of a directory, of which those with a name
in `skip` are visited already. -/
theorem aloneLoop (hs hA : Heap) (n0 : Nat) (hcore : Core hs hA) :
    ∀ (es : List Entry) (skip : List String) (fuel b p nd1 : Nat) (src out : String)
      (loc : MergeLocals) (st : Planner),
    depthList es ≤ fuel → namesOKList es → RepList hs es b p src →
    PendBut st.heap hA es skip b →
    b + spanList es ≤ n0 → n0 ≤ st.next → nd1 < st.next → (nd1 < b ∨ b + spanList es ≤ nd1) →
    (st.heap nd1).path = out → (∀ e ∈ es, (e.name ∈ loc.visited ↔ e.name ∈ skip)) →
    ∃ loc' st', mergeLoop2 (mergeDirs fuel) nd1 (kids b es) loc st = some (loc', st') ∧
      loc'.visited = loc.visited ∧
      Sim hA n0 st st' (aloneEvsList hA es skip b nd1 st.next src out) (aloneNewList es skip) ∧
      (∀ a, Outside es skip b a →
        ¬ (st.next ≤ a ∧ a < st.next + aloneNewList es skip) → st'.heap a = st.heap a) ∧
      (∀ ev ∈ aloneEvsList hA es skip b nd1 st.next src out, ∀ a ∈ ev.nodes,
        a = nd1 ∨ (b ≤ a ∧ a < b + spanList es) ∨
          (st.next ≤ a ∧ a < st.next + aloneNewList es skip))
  | [], skip, fuel, b, p, nd1, src, out, loc, st => by
    intro _ _ _ _ _ _ _ _ _ _
    refine ⟨loc, st, rfl, rfl, ?_, fun _ _ _ => rfl, ?_⟩
    · simp only [aloneEvsList, aloneNewList]
      exact Sim.empty hA n0 st
    · intro ev hev
      simp [aloneEvsList] at hev
  | e :: es, skip, fuel, b, p, nd1, src, out, loc, st => by
    intro hfuel hnames hr hpend hbn hn0 hnd hnd1 hout hvis
    simp only [depthList] at hfuel
    simp only [spanList] at hbn hnd1 ⊢
    simp only [namesOKList] at hnames
    simp only [RepList] at hr
    simp only [PendBut] at hpend
    have hsp := Entry.span_pos e
    by_cases hsk : e.name ∈ skip
    · -- visited in the first loop: skipped
      have hv : e.name ∈ loc.visited := (hvis e (by simp)).mpr hsk
      obtain ⟨loc2, st2, hlp, hvis2, hsim2, hframe2, hnodes2⟩ :=
        aloneLoop hs hA n0 hcore es skip fuel (b + e.span) p nd1 src out loc st (by omega)
          hnames.2.2 hr.2 hpend.2 (by omega) hn0 hnd (by omega) hout
          (fun x hx => hvis x (List.mem_cons_of_mem _ hx))
      refine ⟨loc2, st2, ?_, hvis2, ?_, ?_, ?_⟩
      · simp only [kids, mergeLoop2, mergeVisit2, hv, if_true]
        exact hlp
      · simp only [aloneEvsList, aloneNewList, hsk, if_true, Nat.zero_add]
        exact hsim2
      · intro a ha1 ha2
        simp only [aloneNewList, hsk, if_true, Nat.zero_add] at ha2
        exact hframe2 a ha1.2 ha2
      · intro ev hev a ha
        simp only [aloneEvsList, aloneNewList, hsk, if_true, Nat.zero_add] at hev ⊢
        rcases hnodes2 ev hev a ha with h1 | h1 | h1
        · left; exact h1
        · right; left; omega
        · right; right; exact h1
    · have hv : e.name ∉ loc.visited := fun h1 => hsk ((hvis e (by simp)).mp h1)
      obtain ⟨loc1, st1, hv1, hvis1, hsim1, hframe1, hnodes1⟩ :=
        aloneVisit hs hA n0 hcore e fuel b p nd1 src out loc st (by omega) hnames.2.1 hr.1
          (hpend.1 hsk) (by omega) hn0 hnd (by omega) hout hv
      have hn1 : st1.next = st.next + e.numDirs := hsim1.next
      obtain ⟨loc2, st2, hlp, hvis2, hsim2, hframe2, hnodes2⟩ :=
        aloneLoop hs hA n0 hcore es skip fuel (b + e.span) p nd1 src out loc1 st1 (by omega)
          hnames.2.2 hr.2
          (PendBut.kept es skip (b + e.span)
            (fun a h1 h2 => hframe1 a (by omega) (by omega)) hpend.2)
          (by omega) (by omega) (by omega) (by omega)
          (by rw [hframe1 nd1 (by omega) (by omega)]; exact hout)
          (fun x hx => by rw [hvis1]; exact hvis x (List.mem_cons_of_mem _ hx))
      rw [hn1] at hsim2 hframe2 hnodes2
      refine ⟨loc2, st2, ?_, hvis2.trans hvis1, ?_, ?_, ?_⟩
      · simp only [kids, mergeLoop2, hv1]
        exact hlp
      · simp only [aloneEvsList, aloneNewList, hsk, if_false]
        refine hsim1.append hsim2 ?_
        intro ev hev a ha
        rcases hnodes1 ev hev a ha with h1 | h1 | h1
        · rw [h1]; exact hframe2 nd1 (Outside.beyond _ _ _ _ (by omega)) (by omega)
        · exact hframe2 a (Outside.beyond _ _ _ _ (by omega)) (by omega)
        · exact hframe2 a (Outside.beyond _ _ _ _ (by omega)) (by omega)
      · intro a ha1 ha2
        simp only [aloneNewList, hsk, if_false] at ha2
        rw [hframe2 a ha1.2 (by omega), hframe1 a (ha1.1 hsk) (by omega)]
      · intro ev hev a ha
        simp only [aloneEvsList, aloneNewList, hsk, if_false, List.mem_append] at hev ⊢
        rcases hev with hev | hev
        · rcases hnodes1 ev hev a ha with h1 | h1 | h1
          · left; exact h1
          · right; left; omega
          · right; right; omega
        · rcases hnodes2 ev hev a ha with h1 | h1 | h1
          · left; exact h1
          · right; left; omega
          · right; right; omega
end

theorem depth_le_of_mem : ∀ {es : List Entry} {e : Entry}, e ∈ es → e.depth ≤ depthList es
  | x :: es, e, h => by
    simp only [depthList]
    rcases List.mem_cons.mp h with h1 | h1
    · rw [h1]; omega
    · have := depth_le_of_mem h1
      omega

theorem namesOK_of_mem : ∀ {es : List Entry} {e : Entry}, namesOKList es → e ∈ es → e.namesOK
  | x :: es, e, hn, h => by
    simp only [namesOKList] at hn
    rcases List.mem_cons.mp h with h1 | h1
    · rw [h1]; exact hn.2.1
    · exact namesOK_of_mem hn.2.2 h1

/-- The recursive call of `mergeDirs` at a fresh node `nx` for a directory that one tree has. -/
theorem aloneDir (hs hA : Heap) (n0 : Nat) (hcore : Core hs hA) (es : List Entry)
    (fuel b nx : Nat) (src out : String) (st : Planner)
    (hfuel : depthList es ≤ fuel) (hnames : namesOKList es)
    (hrl : RepList hs es (b + 1) b src)
    (hpend : ∀ a, b + 1 ≤ a → a < b + 1 + spanList es → st.heap a = hA a)
    (hbn : b + 1 + spanList es ≤ n0) (hn0 : n0 ≤ nx) (hnx : nx < st.next)
    (hpath : (st.heap nx).path = out) (hch : (st.heap nx).children = [])
    (hkids : (st.heap b).children = kids (b + 1) es) :
    ∃ st', mergeDirs (fuel + 1) nx b st = some st' ∧
      Sim hA n0 st st' (aloneEvsList hA es [] (b + 1) nx st.next src out) (numDirsList es) ∧
      (∀ a, ¬ (b + 1 ≤ a ∧ a < b + 1 + spanList es) →
        ¬ (st.next ≤ a ∧ a < st.next + numDirsList es) → a ≠ nx → st'.heap a = st.heap a) ∧
      (st'.heap nx).path = out ∧
      (∀ ev ∈ aloneEvsList hA es [] (b + 1) nx st.next src out, ∀ a ∈ ev.nodes,
        a = nx ∨ (b + 1 ≤ a ∧ a < b + 1 + spanList es) ∨
          (st.next ≤ a ∧ a < st.next + numDirsList es)) := by
  obtain ⟨loc2, st2, hloop, -, hsim, hframeO, hnodes2⟩ :=
    aloneLoop hs hA n0 hcore es [] fuel (b + 1) b nx src out
      { step_children := [], visited := [] } st hfuel hnames hrl
      (PendBut.of_all es [] (b + 1) hpend) hbn (by omega) hnx (Or.inr (by omega)) hpath
      (by simp)
  simp only [aloneNewList_nil] at hsim hframeO hnodes2
  have hframe2 := fun a (h1 : ¬ (b + 1 ≤ a ∧ a < b + 1 + spanList es)) =>
    hframeO a (Outside.beyond es [] (b + 1) a h1)
  refine ⟨{ st2 with
      heap := st2.heap.modify nx (fun n => { n with children := loc2.step_children }) },
    ?_, ?_, ?_, ?_, hnodes2⟩
  · rw [mergeDirs_alone fuel nx b st hch, hkids, hloop]
  · exact hsim.swap _ (fun a => modify_children_fields _ _ _ a)
  · intro a h1 h2 h3
    simp only [Heap.get_modify, h3, if_false]
    exact hframe2 a h1 h2
  · simp only
    rw [(modify_children_fields _ _ _ _).2.1, hframe2 nx (by omega) (by omega)]
    exact hpath

theorem setInsert_nil_iff {α : Type} [DecidableEq α] (s : List α) (x y : α) :
    y ∈ setInsert s x ↔ y ∈ s ∨ y = x := by
  unfold setInsert
  split
  · constructor
    · exact Or.inl
    · rintro (h | h)
      · exact h
      · rw [h]; assumption
  · simp

mutual
/-- One iteration of the first loop of `mergeDirs`, at the entry of tree 1 scanned at `b`. -/
theorem bothVisit (hs hA : Heap) (n0 : Nat) (hcore : Core hs hA) :
    ∀ (e : Entry) (es2 : List Entry) (fuel b p b2 p2 nd1 nd2 : Nat) (s1 s2 out : String)
      (loc : MergeLocals) (st : Planner),
    e.depth ≤ fuel → depthList es2 ≤ fuel → e.namesOK → namesOKList es2 →
    e.Rep hs b p s1 → RepList hs es2 b2 p2 s2 →
    (∀ a, b ≤ a → a < b + e.span → st.heap a = hA a) →
    (∀ e2 a2, findAt es2 b2 e.name = some (e2, a2) →
      ∀ a, a2 ≤ a → a < a2 + e2.span → st.heap a = hA a) →
    (st.heap nd2).children = kids b2 es2 →
    b + e.span ≤ nd2 → nd2 < b2 → b2 + spanList es2 ≤ n0 → n0 ≤ st.next →
    (nd1 < b ∨ n0 ≤ nd1) → nd1 < st.next → (st.heap nd1).path = out →
    (∀ ev ∈ e.bothEvs hA es2 b2 b nd1 st.next s1 s2 out, ev.OK hA) →
    ∃ loc' st', mergeVisit1 (mergeDirs fuel) nd1 nd2 e.name b loc st = some (loc', st') ∧
      loc'.visited =
        (if (findAt es2 b2 e.name).isSome then setInsert loc.visited e.name else loc.visited) ∧
      Sim hA n0 st st' (e.bothEvs hA es2 b2 b nd1 st.next s1 s2 out) (e.bothNew es2) ∧
      (∀ a, ¬ (b ≤ a ∧ a < b + e.span) → ¬ (st.next ≤ a ∧ a < st.next + e.bothNew es2) →
        (∀ e2 a2, findAt es2 b2 e.name = some (e2, a2) → ¬ (a2 ≤ a ∧ a < a2 + e2.span)) →
        st'.heap a = st.heap a) ∧
      (∀ ev ∈ e.bothEvs hA es2 b2 b nd1 st.next s1 s2 out, ∀ a ∈ ev.nodes,
        a = nd1 ∨ (b ≤ a ∧ a < b + e.span) ∨ (st.next ≤ a ∧ a < st.next + e.bothNew es2) ∨
          ∃ e2 a2, findAt es2 b2 e.name = some (e2, a2) ∧ a2 ≤ a ∧ a < a2 + e2.span)
  | .file name regular size ctime digest, es2, fuel, b, p, b2, p2, nd1, nd2, s1, s2, out,
      loc, st => by
    intro _ _ _ _ hr hr2 hpend hpend2 hkids hsep hnd2 hb2 hn0 hnd1 hnd hout hok
    simp only [Entry.span] at hpend hsep ⊢
    simp only [Entry.name] at hpend2 ⊢
    simp only [Entry.bothEvs] at hok ⊢
    simp only [Entry.bothNew]
    obtain ⟨c1, c2, c3, c4, c5, c6⟩ := hcore.file hr
    have hf : st.heap b = hA b := hpend b (Nat.le_refl _) (by omega)
    have hlk := kids_lookup_findAt es2 b2 name
    rw [← hkids] at hlk
    cases hfind : findAt es2 b2 name with
    | none =>
      rw [hfind] at hlk hok
      simp only [Option.map_none'] at hlk
      simp only [Option.isSome_none, Bool.false_eq_true, if_false]
      obtain ⟨loc', st', h0, h1, h2, h3, h4, h5⟩ :=
        visit1_file hA (mergeDirs fuel) nd1 nd2 b name (s1 ++ "/" ++ name) out loc st hlk hf c1
          c3 hout
      refine ⟨loc', st', h0, h1, ?_, ?_, ?_⟩
      · exact sim_file hf (by omega) hnd c3 hout h2 h3 h4 h5
      · intro a ha _ _
        rw [h2]
        exact setDstParent_other _ _ _ _ (by omega)
      · intro ev hev a ha
        simp only [List.mem_singleton] at hev
        rw [hev, fileEv_nodes] at ha
        simp only [List.mem_cons, List.mem_singleton, List.not_mem_nil, or_false] at ha
        rcases ha with ha | ha
        · right; left; omega
        · left; exact ha
    | some x =>
      obtain ⟨e2, a2⟩ := x
      rw [hfind] at hlk hok
      simp only [Option.map_some'] at hlk
      simp only [Option.isSome_some, if_true]
      obtain ⟨i1, i2, i3, i4, i5⟩ := findAt_rep hs es2 b2 p2 s2 name e2 a2 hr2 hfind
      obtain ⟨d1, d2, d3⟩ := hcore.entry i1
      have hsp := Entry.span_pos e2
      have hf2 : st.heap a2 = hA a2 := hpend2 e2 a2 hfind a2 (Nat.le_refl _) (by omega)
      have hok1 := hok _ (List.mem_singleton.mpr rfl)
      simp only [Ev.OK] at hok1
      have hne : b ≠ a2 := by omega
      refine ⟨_, _, visit1_pair hA (mergeDirs fuel) nd1 nd2 b a2 name loc st hlk hf hf2 c1 hne
        hok1.1 hok1.2, rfl, ?_, ?_, ?_⟩
      · exact sim_pair hf hf2 hne hok1.1 hok1.2 (by omega) (by omega) hnd c3
          (by rw [d2, i2]) hout
      · intro a ha _ hp
        have hp2 := hp e2 a2 rfl
        have e1 : a ≠ b := by omega
        have e2' : a ≠ a2 := by omega
        simp only
        rw [makeSub_other _ _ _ _ e1 e2', setDstParent_other _ _ _ _ e2',
          setDstParent_other _ _ _ _ e1]
      · intro ev hev a ha
        simp only [List.mem_singleton] at hev
        rw [hev] at ha
        simp only [Ev.nodes, List.mem_cons, List.mem_singleton, List.not_mem_nil,
          or_false] at ha
        rcases ha with ha | ha | ha
        · right; left; omega
        · right; right; right
          exact ⟨e2, a2, rfl, by omega, by omega⟩
        · left; exact ha
  | .dir name size ctime es, es2, fuel, b, p, b2, p2, nd1, nd2, s1, s2, out, loc, st => by
    intro hfuel hfuel2 hnames hnames2 hr hr2 hpend hpend2 hkids hsep hnd2 hb2 hn0 hnd1 hnd
      hout hok
    simp only [Entry.span] at hpend hsep ⊢
    simp only [Entry.name] at hpend2 ⊢
    simp only [Entry.bothEvs] at hok ⊢
    simp only [Entry.bothNew]
    simp only [Entry.depth] at hfuel
    simp only [Entry.namesOK] at hnames
    obtain ⟨fuel', rfl⟩ : ∃ f, fuel = f + 1 := ⟨fuel - 1, by omega⟩
    obtain ⟨c1, c2, c3, c4, c5, c6⟩ := hcore.dir hr
    have hrl : RepList hs es (b + 1) b (s1 ++ "/" ++ name) := by
      simp only [Entry.Rep] at hr
      exact hr.2
    have hf : st.heap b = hA b := hpend b (Nat.le_refl _) (by omega)
    have htd : (st.heap b).type = "dir" := by rw [hf]; exact c1
    have hne : nd1 ≠ b := by omega
    have hlk := kids_lookup_findAt es2 b2 name
    rw [← hkids] at hlk
    have hsh := findAt_shift es2 b2 name
    cases hfind : findAt es2 b2 name with
    | none =>
      have hfind0 : findAt es2 0 name = none := by
        rw [hfind] at hsh
        cases hq : findAt es2 0 name with
        | none => rfl
        | some q => rw [hq] at hsh; simp at hsh
      rw [hfind] at hlk hok
      simp only [hfind0]
      simp only [Option.map_none'] at hlk
      simp only [Option.isSome_none, Bool.false_eq_true, if_false]
      have hbx : b ≠ st.next := by omega
      have hnx : nd1 ≠ st.next := by omega
      generalize hh3 : setParent (setParent (st.heap.set st.next
          (FsNode.create st.heap (st.heap b).name (some nd1) "dir")) st.next (some nd1)) b
          (some nd1) = h3
      have hfr3 : ∀ a, a ≠ b → a ≠ st.next → h3 a = st.heap a := by
        intro a e1 e2
        rw [← hh3, setParent_other _ _ _ _ e1, setParent_other _ _ _ _ e2]
        simp [e2]
      have hpath3 : (h3 st.next).path = out ++ "/" ++ name := by
        rw [← hh3, setParent_path_other _ _ _ _ (fun e => hbx e.symm), setParent_path_self]
        simp [Heap.get_set, hnx, hout, hf, c2, create_name]
      have hch3 : (h3 st.next).children = [] := by
        rw [← hh3]
        simp [create_children]
      have hb3 : (h3 b).children = kids (b + 1) es := by
        rw [← hh3]
        simp only [setParent_children, Heap.get_set, hbx, if_false]
        rw [hf, c6]
      obtain ⟨st', hrec, hsim, hframe, hpath', hnodes⟩ :=
        aloneDir hs hA n0 hcore es fuel' b st.next (s1 ++ "/" ++ name) (out ++ "/" ++ name)
          { st with heap := h3, next := st.next + 1,
                    plannedNode := st.plannedNode ++ [st.next],
                    editSteps := st.editSteps ++ [mkdirStep h3 st.next] }
          (by omega) hnames hrl
          (fun a h1 h2 => by
            simp only
            rw [hfr3 a (by omega) (by omega)]
            exact hpend a (by omega) (by omega))
          (by omega) hn0 (by simp) hpath3 hch3 hb3
      simp only at hrec hsim hframe hpath' hnodes
      refine ⟨{ step_children := mapInsert loc.step_children (h3 st.next).name st.next,
                visited := loc.visited }, st', ?_, rfl, ?_, ?_, ?_⟩
      · unfold mergeVisit1
        simp only [hlk, htd, if_true, Option.isSome_none, Bool.false_eq_true, if_false,
          Planner.pushNode, pushStep_mkdir, hh3, hrec]
      · refine @Sim.cons_mk _ _ st _ _ _ _ 1 hsim st.next (out ++ "/" ++ name)
          (by simp only; rw [mkdirStep_eq, hpath3]) rfl rfl ?_ ?_
        · refine ⟨by simp, fun a ha => ?_⟩
          have e2 : a ≠ st.next := by omega
          simp only
          rw [← hh3]
          refine ⟨?_, ?_, ?_, ?_, fun _ => ⟨?_, ?_, ?_⟩⟩
          · simp [e2]
          · rw [setParent_date, setParent_date]; simp [e2]
          · rw [setParent_num_files, setParent_num_files]; simp [e2]
          · simp [e2]
          · rw [setParent_isSub, setParent_isSub]; simp [e2]
          · rw [setParent_subordinates, setParent_subordinates]; simp [e2]
          · rw [setParent_topSup, setParent_topSup]; simp [e2]
        · exact ⟨by rw [hsim.next]; simp only; omega, hpath'⟩
      · intro a ha1 ha2 _
        have e1 : a ≠ st.next := by omega
        rw [hframe a (by omega) (by omega) e1]
        exact hfr3 a (by omega) e1
      · intro ev hev a ha
        simp only [List.mem_cons] at hev
        rcases hev with hev | hev
        · rw [hev] at ha
          simp only [Ev.nodes, List.mem_singleton] at ha
          right; right; left; omega
        · rcases hnodes ev hev a ha with h1 | h1 | h1
          · right; right; left; omega
          · right; left; omega
          · right; right; left; omega
    | some x =>
      obtain ⟨e2, a2⟩ := x
      have hfind0 : findAt es2 0 name = some (e2, a2 - b2) ∧ b2 ≤ a2 := by
        rw [hfind] at hsh
        cases hq : findAt es2 0 name with
        | none => rw [hq] at hsh; simp at hsh
        | some q =>
          rw [hq] at hsh
          simp only [Option.map_some', Option.some.injEq, Prod.mk.injEq] at hsh
          obtain ⟨q1, q2⟩ := q
          simp only at hsh
          obtain ⟨rfl, rfl⟩ := hsh
          simp
      rw [hfind] at hlk hok
      simp only [Option.map_some'] at hlk
      simp only [Option.isSome_some, if_true]
      obtain ⟨i1, i2, i3, i4, i5⟩ := findAt_rep hs es2 b2 p2 s2 name e2 a2 hr2 hfind
      have hf2 : st.heap a2 = hA a2 :=
        hpend2 e2 a2 hfind a2 (Nat.le_refl _) (by have := Entry.span_pos e2; omega)
      have hsp2 := Entry.span_pos e2
      have hba : b ≠ a2 := by omega
      have hna : nd1 ≠ a2 := by omega
      generalize hh3 : setParent (setParent st.heap b (some nd1)) a2 (some nd1) = h3
      have hfr3 : ∀ a, a ≠ b → a ≠ a2 → h3 a = st.heap a := by
        intro a e1 e2
        rw [← hh3, setParent_other _ _ _ _ e2, setParent_other _ _ _ _ e1]
      have hpath3 : (h3 b).path = out ++ "/" ++ name := by
        rw [← hh3, setParent_path_other _ _ _ _ hba, setParent_path_self, hout, hf, c2]
      have hb3 : (h3 b).children = kids (b + 1) es := by
        rw [← hh3]
        simp only [setParent_children]
        rw [hf, c6]
      have hk0 : Keeps st
          { st with heap := h3, editSteps := st.editSteps ++ [mkdirStep h3 b] } [] := by
        refine ⟨Nat.le_refl _, fun a ha => ?_⟩
        simp only
        rw [← hh3]
        exact ⟨by simp, by rw [setParent_date, setParent_date],
          by rw [setParent_num_files, setParent_num_files], by simp,
          fun _ => ⟨by rw [setParent_isSub, setParent_isSub],
            by rw [setParent_subordinates, setParent_subordinates],
            by rw [setParent_topSup, setParent_topSup]⟩⟩
      have hmem : e2 ∈ es2 := i3
      have hd2 : e2.depth ≤ depthList es2 := depth_le_of_mem hmem
      have hn2 : e2.namesOK := namesOK_of_mem hnames2 hmem
      -- the partner is a directory or a file
      cases e2 with
      | dir name2 size2 ctime2 es' =>
        have hspd : (Entry.dir name2 size2 ctime2 es').span = 1 + spanList es' := by
          simp [Entry.span]
        simp only [Entry.span] at i5
        simp only [hfind0.1]
        simp only [Entry.depth] at hd2
        simp only [Entry.namesOK] at hn2
        obtain ⟨g1, g2, g3, g4, g5, g6⟩ := hcore.dir i1
        have hrl2 : RepList hs es' (a2 + 1) a2 (s2 ++ "/" ++ name2) := by
          simp only [Entry.Rep] at i1
          exact i1.2
        have hname2 : name2 = name := i2
        subst hname2
        have ha3 : (h3 a2).children = kids (a2 + 1) es' := by
          rw [← hh3]
          simp only [setParent_children]
          rw [hf2, g6]
        have hok' : ∀ ev ∈ bothEvsList hA es es' (a2 + 1) (b + 1) b st.next
            (s1 ++ "/" ++ name2) (s2 ++ "/" ++ name2) (out ++ "/" ++ name2), ev.OK hA :=
          fun ev hev => hok ev (List.mem_cons_of_mem _ (List.mem_append_left _ hev))
        obtain ⟨loc1, st1, hl1, hvis1, hsim1, hframe1, hnodes1⟩ :=
          bothLoop hs hA n0 hcore es es' fuel' (b + 1) b (a2 + 1) a2 b a2
            (s1 ++ "/" ++ name2) (s2 ++ "/" ++ name2) (out ++ "/" ++ name2)
            { step_children := [], visited := [] }
            { st with heap := h3, editSteps := st.editSteps ++ [mkdirStep h3 b] }
            (by omega) (by omega) hnames hn2 hrl hrl2
            (fun a h1 h2 => by
              simp only
              rw [hfr3 a (by omega) (by omega)]
              exact hpend a (by omega) (by omega))
            (fun e _ e3 a3 hf3 a h1 h2 => by
              obtain ⟨j1, j2, j3, j4, j5⟩ :=
                findAt_rep hs es' (a2 + 1) a2 (s2 ++ "/" ++ name2) e.name e3 a3 hrl2 hf3
              simp only
              rw [hfr3 a (by omega) (by omega)]
              exact hpend2 _ a2 hfind a (by omega) (by omega))
            ha3 (by omega) (by omega) (by omega) hn0 (Or.inl (by omega)) (by simp only; omega)
            hpath3 hok'
        simp only at hl1 hsim1 hframe1 hnodes1
        have hfrB : ∀ a, a ≤ b ∨ (b + 1 + spanList es ≤ a ∧ a ≤ a2) ∨
            (a2 + 1 + spanList es' ≤ a ∧ ¬ (st.next ≤ a ∧ a < st.next + bothNewList es es')) →
            st1.heap a = h3 a := by
          intro a ha
          refine hframe1 a (by omega) (by omega) (fun e _ e3 a3 hf3 => ?_)
          obtain ⟨j1, j2, j3, j4, j5⟩ :=
            findAt_rep hs es' (a2 + 1) a2 (s2 ++ "/" ++ name2) e.name e3 a3 hrl2 hf3
          omega
        have hn1 : st1.next = st.next + bothNewList es es' := hsim1.next
        obtain ⟨loc2, st2, hl2, hvis2, hsim2, hframe2, hnodes2⟩ :=
          aloneLoop hs hA n0 hcore es' (es.map Entry.name) fuel' (a2 + 1) a2 b
            (s2 ++ "/" ++ name2) (out ++ "/" ++ name2) loc1 st1 (by omega) hn2 hrl2
            (PendBut.by_findAt es' _ (a2 + 1) hn2 (fun n e3 a3 hf3 hns a h1 h2 => by
              obtain ⟨j1, j2, j3, j4, j5⟩ :=
                findAt_rep hs es' (a2 + 1) a2 (s2 ++ "/" ++ name2) n e3 a3 hrl2 hf3
              rw [hframe1 a (by omega) (by omega) (fun e he e4 a4 hf4 => by
                have hne4 : e.name ≠ n := fun c => hns (c ▸ List.mem_map_of_mem _ he)
                rcases findAt_disjoint es' (a2 + 1) e.name n e4 e3 a4 a3 hf4 hf3 hne4 with
                  h | h <;> omega)]
              rw [hfr3 a (by omega) (by omega)]
              exact hpend2 _ a2 hfind a (by omega) (by omega)))
            (by omega) (by omega) (by omega) (Or.inl (by omega))
            (by rw [hfrB b (Or.inl (Nat.le_refl _))]; exact hpath3)
            (fun x hx => by
              rw [hvis1]
              simp only [List.not_mem_nil, false_or]
              constructor
              · exact fun h => h.1
              · exact fun h => ⟨h, findAt_mem.mpr (List.mem_map_of_mem _ hx)⟩)
        rw [hn1] at hsim2 hframe2 hnodes2
        refine ⟨{ step_children := mapInsert loc.step_children (h3 b).name b,
                  visited := setInsert loc.visited name2 },
          { st2 with
            heap := st2.heap.modify b (fun n => { n with children := loc2.step_children }) },
          ?_, rfl, ?_, ?_, ?_⟩
        · unfold mergeVisit1
          simp only [hlk, htd, if_true, Option.isSome_some, pushStep_mkdir, hh3]
          simp only [mergeDirs, hb3, hl1]
          rw [hfrB a2 (Or.inr (Or.inl ⟨by omega, Nat.le_refl _⟩)), ha3]
          simp only [hl2]
        · have hsimA := hsim1.append hsim2 (by
            intro ev hev a ha
            rcases hnodes1 ev hev a ha with h1 | h1 | h1 | ⟨e4, he4, e3, a3, hf3, h3a, h3b⟩
            · rw [h1]
              exact hframe2 b (Outside.beyond _ _ _ _ (by omega)) (by omega)
            · exact hframe2 a (Outside.beyond _ _ _ _ (by omega)) (by omega)
            · exact hframe2 a (Outside.beyond _ _ _ _ (by omega)) (by omega)
            · obtain ⟨j1, j2, j3, j4, j5⟩ :=
                findAt_rep hs es' (a2 + 1) a2 (s2 ++ "/" ++ name2) e4.name e3 a3 hrl2 hf3
              refine hframe2 a (Outside.of_findAt es' _ (a2 + 1) a hn2
                (fun n x ax hfx hns => ?_)) (by omega)
              have hne4 : e4.name ≠ n := fun c => hns (c ▸ List.mem_map_of_mem _ he4)
              rcases findAt_disjoint es' (a2 + 1) e4.name n e3 x a3 ax hf3 hfx hne4 with
                h | h <;> omega)
          have h := @Sim.cons_mk _ _ st _ _ _ _ 0
            (hsimA.swap (st2.heap.modify b (fun n => { n with children := loc2.step_children }))
              (fun a => modify_children_fields _ _ _ a))
            b (out ++ "/" ++ name2) (by simp only; rw [mkdirStep_eq, hpath3]) rfl rfl hk0
            (by
              refine ⟨by simp only; rw [hsim2.next]; omega, ?_⟩
              simp only
              rw [(modify_children_fields _ _ _ _).2.1,
                hframe2 b (Outside.beyond _ _ _ _ (by omega)) (by omega),
                hfrB b (Or.inl (Nat.le_refl _))]
              exact hpath3)
          rw [Nat.zero_add] at h
          exact h
        · intro a ha1 ha2 ha3
          have ha4 := ha3 _ a2 rfl
          rw [hspd] at ha4
          have e1 : a ≠ b := by omega
          simp only [Heap.get_modify, e1, if_false]
          rw [hframe2 a (Outside.beyond _ _ _ _ (by omega)) (by omega),
            hfrB a (by omega), hfr3 a e1 (by omega)]
        · intro ev hev a ha
          simp only [List.mem_cons, List.mem_append] at hev
          rcases hev with hev | hev | hev
          · rw [hev] at ha
            simp only [Ev.nodes, List.mem_singleton] at ha
            right; left; omega
          · rcases hnodes1 ev hev a ha with h1 | h1 | h1 | ⟨e4, he4, e3, a3, hf3, h3a, h3b⟩
            · right; left; omega
            · right; left; omega
            · right; right; left; omega
            · obtain ⟨j1, j2, j3, j4, j5⟩ :=
                findAt_rep hs es' (a2 + 1) a2 (s2 ++ "/" ++ name2) e4.name e3 a3 hrl2 hf3
              right; right; right
              exact ⟨_, a2, rfl, by omega, by rw [hspd]; omega⟩
          · rcases hnodes2 ev hev a ha with h1 | h1 | h1
            · right; left; omega
            · right; right; right
              exact ⟨_, a2, rfl, by omega, by rw [hspd]; omega⟩
            · right; right; left; omega
      | file name2 regular2 size2 ctime2 digest2 =>
        have hspd : (Entry.file name2 regular2 size2 ctime2 digest2).span = 1 := by
          simp [Entry.span]
        simp only [hfind0.1]
        obtain ⟨g1, g2, g3, g4, g5, g6⟩ := hcore.file i1
        have ha3 : (h3 a2).children = kids (a2 + 1) [] := by
          rw [← hh3]
          simp only [setParent_children]
          rw [hf2, g6]
          rfl
        have hok' : ∀ ev ∈ bothEvsList hA es [] (a2 + 1) (b + 1) b st.next
            (s1 ++ "/" ++ name) (s2 ++ "/" ++ name) (out ++ "/" ++ name), ev.OK hA :=
          fun ev hev => hok ev (List.mem_cons_of_mem _ hev)
        obtain ⟨loc1, st1, hl1, hvis1, hsim1, hframe1, hnodes1⟩ :=
          bothLoop hs hA n0 hcore es [] fuel' (b + 1) b (a2 + 1) a2 b a2
            (s1 ++ "/" ++ name) (s2 ++ "/" ++ name) (out ++ "/" ++ name)
            { step_children := [], visited := [] }
            { st with heap := h3, editSteps := st.editSteps ++ [mkdirStep h3 b] }
            (by omega) (by simp [depthList]) hnames trivial hrl trivial
            (fun a h1 h2 => by
              simp only
              rw [hfr3 a (by omega) (by omega)]
              exact hpend a (by omega) (by omega))
            (fun e _ e3 a3 hf3 => by simp [findAt] at hf3)
            ha3 (by omega) (by omega) (by simp only [spanList]; omega) hn0 (Or.inl (by omega))
            (by simp only; omega) hpath3 hok'
        simp only at hl1 hsim1 hframe1 hnodes1
        have hfrB : ∀ a, a ≤ b ∨ (b + 1 + spanList es ≤ a ∧
            ¬ (st.next ≤ a ∧ a < st.next + bothNewList es [])) → st1.heap a = h3 a := by
          intro a ha
          exact hframe1 a (by omega) (by omega)
            (fun e _ e3 a3 hf3 => by simp [findAt] at hf3)
        refine ⟨{ step_children := mapInsert loc.step_children (h3 b).name b,
                  visited := setInsert loc.visited name },
          { st1 with
            heap := st1.heap.modify b (fun n => { n with children := loc1.step_children }) },
          ?_, rfl, ?_, ?_, ?_⟩
        · unfold mergeVisit1
          simp only [hlk, htd, if_true, Option.isSome_some, pushStep_mkdir, hh3]
          simp only [mergeDirs, hb3, hl1]
          rw [hfrB a2 (Or.inr ⟨by omega, by omega⟩), ha3]
          simp only [kids, mergeLoop2]
        · have h := @Sim.cons_mk _ _ st _ _ _ _ 0
            (hsim1.swap (st1.heap.modify b (fun n => { n with children := loc1.step_children }))
              (fun a => modify_children_fields _ _ _ a))
            b (out ++ "/" ++ name) (by simp only; rw [mkdirStep_eq, hpath3]) rfl rfl hk0
            (by
              refine ⟨by simp only; rw [hsim1.next]; simp only; omega, ?_⟩
              simp only
              rw [(modify_children_fields _ _ _ _).2.1, hfrB b (Or.inl (Nat.le_refl _))]
              exact hpath3)
          rw [Nat.zero_add] at h
          exact h
        · intro a ha1 ha2 ha3
          have ha4 := ha3 _ a2 rfl
          rw [hspd] at ha4
          have e1 : a ≠ b := by omega
          simp only [Heap.get_modify, e1, if_false]
          rw [hframe1 a (by omega) (by omega) (fun e _ e3 a3 hf3 => by simp [findAt] at hf3),
            hfr3 a e1 (by omega)]
        · intro ev hev a ha
          simp only [List.mem_cons] at hev
          rcases hev with hev | hev
          · rw [hev] at ha
            simp only [Ev.nodes, List.mem_singleton] at ha
            right; left; omega
          · rcases hnodes1 ev hev a ha with h1 | h1 | h1 | ⟨e4, he4, e3, a3, hf3, h3a, h3b⟩
            · right; left; omega
            · right; left; omega
            · right; right; left; omega
            · simp [findAt] at hf3
/-- The first loop of `mergeDirs` over the entries of a directory of tree 1. -/
theorem bothLoop (hs hA : Heap) (n0 : Nat) (hcore : Core hs hA) :
    ∀ (es es2 : List Entry) (fuel b p b2 p2 nd1 nd2 : Nat) (s1 s2 out : String)
      (loc : MergeLocals) (st : Planner),
    depthList es ≤ fuel → depthList es2 ≤ fuel → namesOKList es → namesOKList es2 →
    RepList hs es b p s1 → RepList hs es2 b2 p2 s2 →
    (∀ a, b ≤ a → a < b + spanList es → st.heap a = hA a) →
    (∀ e ∈ es, ∀ e2 a2, findAt es2 b2 e.name = some (e2, a2) →
      ∀ a, a2 ≤ a → a < a2 + e2.span → st.heap a = hA a) →
    (st.heap nd2).children = kids b2 es2 →
    b + spanList es ≤ nd2 → nd2 < b2 → b2 + spanList es2 ≤ n0 → n0 ≤ st.next →
    (nd1 < b ∨ n0 ≤ nd1) → nd1 < st.next → (st.heap nd1).path = out →
    (∀ ev ∈ bothEvsList hA es es2 b2 b nd1 st.next s1 s2 out, ev.OK hA) →
    ∃ loc' st', mergeLoop1 (mergeDirs fuel) nd1 nd2 (kids b es) loc st = some (loc', st') ∧
      (∀ n, n ∈ loc'.visited ↔
        n ∈ loc.visited ∨ (n ∈ es.map Entry.name ∧ (findAt es2 b2 n).isSome)) ∧
      Sim hA n0 st st' (bothEvsList hA es es2 b2 b nd1 st.next s1 s2 out) (bothNewList es es2) ∧
      (∀ a, ¬ (b ≤ a ∧ a < b + spanList es) →
        ¬ (st.next ≤ a ∧ a < st.next + bothNewList es es2) →
        (∀ e ∈ es, ∀ e2 a2, findAt es2 b2 e.name = some (e2, a2) →
          ¬ (a2 ≤ a ∧ a < a2 + e2.span)) →
        st'.heap a = st.heap a) ∧
      (∀ ev ∈ bothEvsList hA es es2 b2 b nd1 st.next s1 s2 out, ∀ a ∈ ev.nodes,
        a = nd1 ∨ (b ≤ a ∧ a < b + spanList es) ∨
          (st.next ≤ a ∧ a < st.next + bothNewList es es2) ∨
          ∃ e ∈ es, ∃ e2 a2, findAt es2 b2 e.name = some (e2, a2) ∧ a2 ≤ a ∧ a < a2 + e2.span)
  | [], es2, fuel, b, p, b2, p2, nd1, nd2, s1, s2, out, loc, st => by
    intro _ _ _ _ _ _ _ _ _ _ _ _ _ _ _ _ _
    refine ⟨loc, st, rfl, by simp, ?_, fun _ _ _ _ => rfl, ?_⟩
    · simp only [bothEvsList, bothNewList]
      exact Sim.empty hA n0 st
    · intro ev hev
      simp [bothEvsList] at hev
  | e :: es, es2, fuel, b, p, b2, p2, nd1, nd2, s1, s2, out, loc, st => by
    intro hfuel hfuel2 hnames hnames2 hr hr2 hpend hpend2 hkids hsep hnd2 hb2 hn0 hnd1 hnd
      hout hok
    simp only [depthList] at hfuel
    simp only [spanList] at hpend hsep ⊢
    simp only [namesOKList] at hnames
    simp only [RepList] at hr
    simp only [bothEvsList] at hok ⊢
    simp only [bothNewList]
    have hsp := Entry.span_pos e
    have hpart : ∀ n e2 a2, findAt es2 b2 n = some (e2, a2) →
        b2 ≤ a2 ∧ a2 + e2.span ≤ b2 + spanList es2 ∧ 1 ≤ e2.span := by
      intro n e2 a2 hf
      obtain ⟨_, _, _, j4, j5⟩ := findAt_rep hs es2 b2 p2 s2 n e2 a2 hr2 hf
      exact ⟨j4, j5, Entry.span_pos e2⟩
    obtain ⟨loc1, st1, hv1, hvis1, hsim1, hframe1, hnodes1⟩ :=
      bothVisit hs hA n0 hcore e es2 fuel b p b2 p2 nd1 nd2 s1 s2 out loc st (by omega) hfuel2
        hnames.2.1 hnames2 hr.1 hr2 (fun a h1 h2 => hpend a h1 (by omega))
        (hpend2 e (List.mem_cons_self _ _)) hkids (by omega) hnd2 hb2 hn0 (by omega) hnd hout
        (fun ev hev => hok ev (List.mem_append_left _ hev))
    have hn1 : st1.next = st.next + e.bothNew es2 := hsim1.next
    have hother : ∀ x ∈ es, ∀ e2 a2, findAt es2 b2 x.name = some (e2, a2) →
        ∀ a, a2 ≤ a → a < a2 + e2.span → st1.heap a = st.heap a := by
      intro x hx e2 a2 hf a h1 h2
      have := hpart _ _ _ hf
      refine hframe1 a (by omega) (by omega) (fun e3 a3 hf3 => ?_)
      have hne : e.name ≠ x.name := fun c => hnames.1 (c ▸ List.mem_map_of_mem _ hx)
      rcases findAt_disjoint es2 b2 e.name x.name e3 e2 a3 a2 hf3 hf hne with h | h <;> omega
    have hlow : ∀ a, (a < b2 ∧ ¬ (b ≤ a ∧ a < b + e.span)) ∨ (n0 ≤ a ∧ a < st.next) →
        st1.heap a = st.heap a := by
      intro a ha
      refine hframe1 a (by omega) (by omega) (fun e3 a3 hf3 => ?_)
      have := hpart _ _ _ hf3
      omega
    obtain ⟨loc2, st2, hl2, hvis2, hsim2, hframe2, hnodes2⟩ :=
      bothLoop hs hA n0 hcore es es2 fuel (b + e.span) p b2 p2 nd1 nd2 s1 s2 out loc1 st1
        (by omega) hfuel2 hnames.2.2 hnames2 hr.2 hr2
        (fun a h1 h2 => by
          rw [hlow a (by omega)]
          exact hpend a (by omega) (by omega))
        (fun x hx e2 a2 hf a h1 h2 => by
          rw [hother x hx e2 a2 hf a h1 h2]
          exact hpend2 x (List.mem_cons_of_mem _ hx) e2 a2 hf a h1 h2)
        (by rw [hlow nd2 (by omega)]; exact hkids)
        (by omega) hnd2 hb2 (by omega) (by omega) (by omega)
        (by rw [hlow nd1 (by omega)]; exact hout)
        (by rw [hn1]; exact fun ev hev => hok ev (List.mem_append_right _ hev))
    rw [hn1] at hsim2 hframe2 hnodes2
    refine ⟨loc2, st2, ?_, ?_, ?_, ?_, ?_⟩
    · simp only [kids, mergeLoop1, hv1]
      exact hl2
    · intro n
      rw [hvis2 n, hvis1]
      simp only [List.map_cons, List.mem_cons]
      by_cases hfe : (findAt es2 b2 e.name).isSome = true
      · simp only [hfe, if_true, setInsert_nil_iff]
        constructor
        · rintro ((h | h) | h)
          · exact Or.inl h
          · exact Or.inr ⟨Or.inl h, h ▸ hfe⟩
          · exact Or.inr ⟨Or.inr h.1, h.2⟩
        · rintro (h | ⟨h | h, h'⟩)
          · exact Or.inl (Or.inl h)
          · exact Or.inl (Or.inr h)
          · exact Or.inr ⟨h, h'⟩
      · simp only [hfe, if_false]
        constructor
        · rintro (h | h)
          · exact Or.inl h
          · exact Or.inr ⟨Or.inr h.1, h.2⟩
        · rintro (h | ⟨h | h, h'⟩)
          · exact Or.inl h
          · exact absurd (h ▸ h') hfe
          · exact Or.inr ⟨h, h'⟩
    · refine hsim1.append hsim2 ?_
      intro ev hev a ha
      have hrest : ∀ x ∈ es, ∀ e3 a3, findAt es2 b2 x.name = some (e3, a3) →
          b2 ≤ a3 ∧ a3 + e3.span ≤ b2 + spanList es2 := fun x _ e3 a3 hf3 =>
        ⟨(hpart _ _ _ hf3).1, (hpart _ _ _ hf3).2.1⟩
      rcases hnodes1 ev hev a ha with h1 | h1 | h1 | ⟨e3, a3, hf3, h3a, h3b⟩
      · rw [h1]
        exact hframe2 nd1 (by omega) (by omega)
          (fun x hx e4 a4 hf4 => by have := hrest x hx e4 a4 hf4; omega)
      · exact hframe2 a (by omega) (by omega)
          (fun x hx e4 a4 hf4 => by have := hrest x hx e4 a4 hf4; omega)
      · exact hframe2 a (by omega) (by omega)
          (fun x hx e4 a4 hf4 => by have := hrest x hx e4 a4 hf4; omega)
      · have := hpart _ _ _ hf3
        refine hframe2 a (by omega) (by omega) (fun x hx e4 a4 hf4 => ?_)
        have hne : e.name ≠ x.name := fun c => hnames.1 (c ▸ List.mem_map_of_mem _ hx)
        rcases findAt_disjoint es2 b2 e.name x.name e3 e4 a3 a4 hf3 hf4 hne with h | h <;> omega
    · intro a ha1 ha2 ha3
      rw [hframe2 a (by omega) (by omega)
          (fun x hx e4 a4 hf4 => ha3 x (List.mem_cons_of_mem _ hx) e4 a4 hf4),
        hframe1 a (by omega) (by omega)
          (fun e4 a4 hf4 => ha3 e (List.mem_cons_self _ _) e4 a4 hf4)]
    · intro ev hev a ha
      simp only [List.mem_append] at hev
      rcases hev with hev | hev
      · rcases hnodes1 ev hev a ha with h1 | h1 | h1 | ⟨e3, a3, hf3, h3⟩
        · left; exact h1
        · right; left; omega
        · right; right; left; omega
        · right; right; right
          exact ⟨e, List.mem_cons_self _ _, e3, a3, hf3, h3⟩
      · rcases hnodes2 ev hev a ha with h1 | h1 | h1 | ⟨x, hx, e3, a3, hf3, h3⟩
        · left; exact h1
        · right; left; omega
        · right; right; left; omega
        · right; right; right
          exact ⟨x, List.mem_cons_of_mem _ hx, e3, a3, hf3, h3⟩
end

/-! ## Phase C on flat hierarchies -/

theorem comparRecent_fields (h g : Heap) (a a' b b' : FsNode)
    (ea : a'.date_changed = a.date_changed ∧ a'.parent = a.parent ∧ a'.isSub = a.isSub)
    (eb : b'.date_changed = b.date_changed ∧ b'.parent = b.parent ∧ b'.isSub = b.isSub)
    (ha : ∀ p, a.parent = some p → (g p).num_files = (h p).num_files)
    (hb : ∀ p, b.parent = some p → (g p).num_files = (h p).num_files) :
    comparRecent g a' b' = comparRecent h a b := by
  simp only [comparRecent, ea.1, ea.2.1, ea.2.2, eb.1, eb.2.1]
  cases hpa : a.parent with
  | none => rfl
  | some p =>
    cases hpb : b.parent with
    | none => rfl
    | some q => simp only [ha p hpa, hb q hpb]

theorem traverseList_flat (h : Heap) (fuel : Nat) : ∀ (ss pq : List Nat),
    (∀ m ∈ ss, (h m).subordinates = []) →
    traverseList (traverseSubs h (fuel + 1)) ss pq = some (pq ++ ss)
  | [], pq => fun _ => by simp [traverseList]
  | s :: ss, pq => by
    intro hf
    have h1 : traverseSubs h (fuel + 1) s pq = some (pq ++ [s]) := by
      simp [traverseSubs, hf s (by simp), traverseList]
    simp only [traverseList, h1]
    rw [traverseList_flat h fuel ss (pq ++ [s]) (fun m hm => hf m (by simp [hm]))]
    simp

theorem traverseSubs_flat (h : Heap) (fuel t : Nat)
    (hf : ∀ m ∈ (h t).subordinates, (h m).subordinates = []) :
    traverseSubs h (fuel + 2) t [] = some (hierOf h t) := by
  have h1 : traverseSubs h (fuel + 2) t [] =
      traverseList (traverseSubs h (fuel + 1)) (h t).subordinates ([] ++ [t]) := rfl
  rw [h1, traverseList_flat h fuel _ _ hf]
  rfl

/-- The steps of a hierarchy depend on the heap through the fields of its members, the
`num_files` of their parents and the paths of their destinations only. -/
theorem histSteps_congr (h g : Heap) (hist : Nat) (pq : List Nat)
    (hm : ∀ m ∈ pq, (g m).date_changed = (h m).date_changed ∧ (g m).parent = (h m).parent ∧
      (g m).isSub = (h m).isSub ∧ (g m).name = (h m).name ∧ (g m).path = (h m).path ∧
      (g m).dstParent = (h m).dstParent)
    (hp : ∀ m ∈ pq, ∀ p, (h m).parent = some p → (g p).num_files = (h p).num_files)
    (hd : ∀ m ∈ pq, ∀ d, (h m).dstParent = some d → (g d).path = (h d).path) :
    histSteps g hist pq = histSteps h hist pq := by
  have hdr : drain g pq.length pq = drain h pq.length pq :=
    drain_congr h g _ pq (fun a ha b hb =>
      comparRecent_fields h g (h a) (g a) (h b) (g b)
        ⟨(hm a ha).1, (hm a ha).2.1, (hm a ha).2.2.1⟩
        ⟨(hm b hb).1, (hm b hb).2.1, (hm b hb).2.2.1⟩ (hp a ha) (hp b hb))
  unfold histSteps
  rw [hdr]
  cases hdh : drain h pq.length pq with
  | none => rfl
  | some order =>
    cases order with
    | nil => rfl
    | cons w losers =>
      have hperm := drain_perm h _ pq _ rfl hdh
      have hw : w ∈ pq := hperm.subset (by simp)
      have hl : ∀ m ∈ losers, m ∈ pq := fun m hm' => hperm.subset (by simp [hm'])
      simp only [(hm w hw).2.2.2.2.2]
      cases hdw : (h w).dstParent with
      | none => rfl
      | some d =>
        simp only [(hm w hw).2.2.2.1, (hm w hw).2.2.2.2.1, hd w hw d hdw]
        congr 2
        exact List.map_congr_left (fun m hm' => by rw [(hm m (hl m hm')).2.2.2.2.1])

/-- Effect of `makeFileHist` on a flat hierarchy. -/
theorem makeFileHist_hier (fuel N t : Nat) (st : Planner) (hN : N ≤ st.next)
    (r : Ripe st.heap N t) :
    ∃ st', makeFileHist (fuel + 2) (some t) st = some st' ∧
      st'.editSteps = st.editSteps ++ histSteps st.heap st.next (hierOf st.heap t) ∧
      st'.next = st.next + 1 ∧ st'.sups = st.sups ∧
      (∀ a, a ≠ st.next →
        (st'.heap a).name = (st.heap a).name ∧ (st'.heap a).path = (st.heap a).path ∧
        (st'.heap a).date_changed = (st.heap a).date_changed ∧
        (st'.heap a).parent = (st.heap a).parent ∧
        (st'.heap a).num_files = (st.heap a).num_files ∧
        (st'.heap a).subordinates = (st.heap a).subordinates ∧
        (st'.heap a).topSup = (st.heap a).topSup ∧ (st'.heap a).type = (st.heap a).type) ∧
      (∀ a, a ≠ st.next → a ∉ hierOf st.heap t →
        (st'.heap a).isSub = (st.heap a).isSub ∧
        (st'.heap a).dstParent = (st.heap a).dstParent) := by
  have hpar : ∀ m ∈ hierOf st.heap t, ∃ p, (st.heap m).parent = some p := fun m hm => by
    obtain ⟨p, hp, _⟩ := r.par m hm
    exact ⟨p, hp⟩
  obtain ⟨order, hdr⟩ := drain_total st.heap _ (hierOf st.heap t) rfl hpar
  have hperm := drain_perm st.heap _ _ _ rfl hdr
  cases order with
  | nil =>
    have := hperm.length_eq
    simp [hierOf] at this
  | cons w losers =>
    have hw : w ∈ hierOf st.heap t := hperm.subset (by simp)
    obtain ⟨d, hwd, hdN⟩ := r.dst w hw
    obtain ⟨st', g, hmk, hsteps, hnext, -, hsups, hsc, hheap, -, hdst⟩ :=
      makeFileHist_spec (fuel + 2) st t (hierOf st.heap t) w d losers
        (traverseSubs_flat st.heap fuel t r.flat) hdr r.nodup
        (fun m hm => by have := r.lt m hm; omega)
        (fun m hm => by
          obtain ⟨d', h1, _⟩ := r.dst m hm
          rw [h1]; simp)
        hwd
        (by
          intro v a ha b hb _
          apply comparRecent_set
          · intro p hpa
            obtain ⟨p', h1, h2⟩ := r.par a ha
            rw [h1] at hpa
            simp only [Option.some.injEq] at hpa
            omega
          · intro p hpb
            obtain ⟨p', h1, h2⟩ := r.par b hb
            rw [h1] at hpb
            simp only [Option.some.injEq] at hpb
            omega)
    have hcore : ∀ a, a ≠ st.next →
        (g a).date_changed = (st.heap a).date_changed ∧ (g a).parent = (st.heap a).parent ∧
        (g a).isSub = (st.heap a).isSub ∧ (g a).num_files = (st.heap a).num_files ∧
        (g a).name = (st.heap a).name ∧ (g a).path = (st.heap a).path ∧
        (g a).subordinates = (st.heap a).subordinates ∧
        (g a).topSup = (st.heap a).topSup ∧ (g a).type = (st.heap a).type := by
      intro a ha
      have := hsc.fields a
      simp only [Heap.get_set, ha, if_false] at this
      exact this
    have hhist : (g st.next).path =
        (st.heap d).path ++ "/" ++ ("." ++ (st.heap w).name ++ "_hist") := by
      have := (hsc.fields st.next).2.2.2.2.2.1
      rw [this]
      simp only [Heap.get_set, if_true]
      rw [(histNode_fields st.heap w d).2.2.2]
    have hlN : ∀ m ∈ losers, m ≠ st.next := fun m hm => by
      have := r.lt m (hperm.subset (by simp [hm]))
      omega
    have hwN : w ≠ st.next := by have := r.lt w hw; omega
    refine ⟨st', hmk, ?_, hnext, hsups, ?_, ?_⟩
    · rw [hsteps]
      simp only [histSteps, hdr, hwd, mkdirStep_eq, cpStep_eq, hhist,
        (hcore w hwN).2.2.2.2.2.1, (hcore d (by omega)).2.2.2.2.2.1]
      congr 3
      exact List.map_congr_left (fun m hm => by rw [(hcore m (hlN m hm)).2.2.2.2.2.1])
    · intro a ha
      obtain ⟨c1, c2, c3, c4, c5, c6, c7, c8, c9⟩ := hcore a ha
      rw [hheap]
      by_cases haw : a = w
      · subst haw
        simp only [Heap.get_modify, if_true]
        exact ⟨c5, c6, c1, c2, c4, c7, c8, c9⟩
      · simp only [Heap.get_modify, haw, if_false]
        exact ⟨c5, c6, c1, c2, c4, c7, c8, c9⟩
    · intro a ha hal
      have haw : a ≠ w := fun e => hal (e ▸ hw)
      have hall : a ∉ losers := fun e => hal (hperm.subset (by simp [e]))
      rw [hheap]
      simp only [Heap.get_modify, haw, if_false]
      exact ⟨(hcore a ha).2.2.1, hdst a hall ha⟩

/-- Phase C on flat hierarchies that share no member queues the steps of each, in order. -/
theorem phaseC_hiers (fuel N : Nat) (hB : Heap) : ∀ (tops : List Nat) (st : Planner),
    N ≤ st.next → (∀ t ∈ tops, Ripe hB N t) →
    tops.Pairwise (fun t u => ∀ m ∈ hierOf hB t, m ∉ hierOf hB u) →
    (∀ a, a < N → (st.heap a).name = (hB a).name ∧ (st.heap a).path = (hB a).path ∧
      (st.heap a).date_changed = (hB a).date_changed ∧ (st.heap a).parent = (hB a).parent ∧
      (st.heap a).num_files = (hB a).num_files ∧
      (st.heap a).subordinates = (hB a).subordinates) →
    (∀ t ∈ tops, ∀ m ∈ hierOf hB t, (st.heap m).isSub = (hB m).isSub ∧
      (st.heap m).dstParent = (hB m).dstParent) →
    ∃ st', phaseC (fuel + 2) (tops.map some) st = some st' ∧
      st'.editSteps =
        st.editSteps ++ histStepsAll hB st.next (tops.map (fun t => hierOf hB t)) ∧
      st'.next = st.next + tops.length ∧
      (∀ a, a < N → (st'.heap a).name = (st.heap a).name ∧
        (st'.heap a).path = (st.heap a).path ∧ (st'.heap a).type = (st.heap a).type) ∧
      (∀ a, a < N → (∀ t ∈ tops, a ∉ hierOf hB t) →
        (st'.heap a).isSub = (st.heap a).isSub ∧
        (st'.heap a).subordinates = (st.heap a).subordinates ∧
        (st'.heap a).topSup = (st.heap a).topSup ∧
        (st'.heap a).dstParent = (st.heap a).dstParent)
  | [], st => by
    intro _ _ _ _ _
    exact ⟨st, rfl, by simp [histStepsAll], rfl, fun _ _ => ⟨rfl, rfl, rfl⟩,
      fun _ _ _ => ⟨rfl, rfl, rfl, rfl⟩⟩
  | t :: tops, st => by
    intro hN hr hpw hsame hmem
    have rB := hr t (by simp)
    have hsub : (st.heap t).subordinates = (hB t).subordinates :=
      (hsame t (rB.lt t (by simp [hierOf]))).2.2.2.2.2
    have hhier : hierOf st.heap t = hierOf hB t := by simp [hierOf, hsub]
    have rS : Ripe st.heap N t :=
      { flat := fun m hm => by
          rw [hsub] at hm
          have hmB : m ∈ hierOf hB t := by simp [hierOf, hm]
          rw [(hsame m (rB.lt m hmB)).2.2.2.2.2]
          exact rB.flat m hm
        nodup := by rw [hhier]; exact rB.nodup
        lt := by rw [hhier]; exact rB.lt
        dst := fun m hm => by
          rw [hhier] at hm
          rw [(hmem t (by simp) m hm).2]
          exact rB.dst m hm
        par := fun m hm => by
          rw [hhier] at hm
          rw [(hsame m (rB.lt m hm)).2.2.2.1]
          exact rB.par m hm }
    obtain ⟨st1, hmk, hsteps, hnext, -, hcore, hrest⟩ := makeFileHist_hier fuel N t st hN rS
    have hst : histSteps st.heap st.next (hierOf st.heap t) =
        histSteps hB st.next (hierOf hB t) := by
      rw [hhier]
      refine histSteps_congr hB st.heap st.next _ (fun m hm => ?_) (fun m hm p hp => ?_)
        (fun m hm d hd => ?_)
      · obtain ⟨c1, c2, c3, c4, c5, c6⟩ := hsame m (rB.lt m hm)
        exact ⟨c3, c4, (hmem t (by simp) m hm).1, c1, c2, (hmem t (by simp) m hm).2⟩
      · obtain ⟨p', h1, h2⟩ := rB.par m hm
        rw [h1] at hp
        simp only [Option.some.injEq] at hp
        subst hp
        exact (hsame _ h2).2.2.2.2.1
      · obtain ⟨d', h1, h2⟩ := rB.dst m hm
        rw [h1] at hd
        simp only [Option.some.injEq] at hd
        subst hd
        exact (hsame _ h2).2.1
    obtain ⟨st', hc, hs', hn', hk', hfr'⟩ := phaseC_hiers fuel N hB tops st1 (by omega)
      (fun u hu => hr u (by simp [hu])) (List.pairwise_cons.mp hpw).2
      (fun a ha => by
        obtain ⟨c1, c2, c3, c4, c5, c6, -⟩ := hcore a (by omega)
        obtain ⟨d1, d2, d3, d4, d5, d6⟩ := hsame a ha
        exact ⟨c1.trans d1, c2.trans d2, c3.trans d3, c4.trans d4, c5.trans d5, c6.trans d6⟩)
      (fun u hu m hm => by
        have hdis : m ∉ hierOf hB t := fun hc' =>
          (List.pairwise_cons.mp hpw).1 u hu m hc' hm
        have hmN := (hr u (by simp [hu])).lt m hm
        obtain ⟨e1, e2⟩ := hrest m (by omega) (by rw [hhier]; exact hdis)
        obtain ⟨f1, f2⟩ := hmem u (by simp [hu]) m hm
        exact ⟨e1.trans f1, e2.trans f2⟩)
    refine ⟨st', ?_, ?_, ?_, ?_, ?_⟩
    · simp only [List.map_cons, phaseC, hmk, hc]
    · rw [hs', hsteps, hst, hnext]
      simp [histStepsAll]
    · rw [hn', hnext]
      simp only [List.length_cons]
      omega
    · intro a ha
      obtain ⟨c1, c2, -, -, -, -, -, c8⟩ := hcore a (by omega)
      obtain ⟨d1, d2, d3⟩ := hk' a ha
      exact ⟨d1.trans c1, d2.trans c2, d3.trans c8⟩
    · intro a ha hout
      obtain ⟨-, -, -, -, -, c6, c7, -⟩ := hcore a (by omega)
      obtain ⟨e1, e2⟩ := hrest a (by omega) (by rw [hhier]; exact hout t (by simp))
      obtain ⟨d1, d2, d3, d4⟩ := hfr' a ha (fun u hu => hout u (by simp [hu]))
      exact ⟨d1.trans e1, d2.trans c6, d3.trans c7, d4.trans e2⟩

/-! ## Phases A and B against the reference planner -/

theorem findBest_total (h : Heap) : ∀ (ds : List Nat) (ob : Option Nat),
    (∀ d ∈ ds, ∃ p, (h d).parent = some p) → (∀ b, ob = some b → ∃ p, (h b).parent = some p) →
    (ob ≠ none ∨ ds ≠ []) → ∃ b, findBest h ds ob = some (some b)
  | [], ob => by
    intro _ _ hne
    cases ob with
    | none => simp at hne
    | some b => exact ⟨b, rfl⟩
  | d :: ds, none => by
    intro hd _ _
    simp only [findBest]
    exact findBest_total h ds (some d) (fun x hx => hd x (by simp [hx]))
      (fun b hb => by
        simp only [Option.some.injEq] at hb
        subst hb
        exact hd _ (by simp))
      (Or.inl (by simp))
  | d :: ds, some b => by
    intro hd hb _
    obtain ⟨p, hp⟩ := hd d (by simp)
    obtain ⟨q, hq⟩ := hb b rfl
    obtain ⟨r, hr⟩ := comparRecent_some h (h d) (h b) p q hp hq
    simp only [findBest, hr]
    refine findBest_total h ds _ (fun x hx => hd x (by simp [hx])) (fun c hc => ?_)
      (Or.inl (by split <;> simp))
    split at hc
    · simp only [Option.some.injEq] at hc
      subst hc
      exact ⟨p, hp⟩
    · simp only [Option.some.injEq] at hc
      subst hc
      exact ⟨q, hq⟩

/-- Phase A returns when every stored node has a parent. -/
theorem phaseA_total (fs : List (String × Nat)) : ∀ (rest : List (String × Nat))
    (fhash : List String) (h : Heap), (∀ kc ∈ fs, ∃ p, (h kc.2).parent = some p) →
    ∃ g, phaseA fs rest fhash h = some g
  | [], fhash, h => fun _ => ⟨h, rfl⟩
  | (k, v) :: rest, fhash, h => by
    intro hp
    simp only [phaseA]
    split
    · exact phaseA_total fs rest fhash h hp
    · split
      · rename_i hlen
        have hmem : ∀ d ∈ equalRange fs k, ∃ p, (h d).parent = some p := by
          intro d hd
          simp only [equalRange, List.mem_map, List.mem_filter] at hd
          obtain ⟨kc, ⟨hkc, _⟩, rfl⟩ := hd
          exact hp kc hkc
        obtain ⟨b, hb⟩ := findBest_total h (equalRange fs k) none hmem (by simp)
          (Or.inr (by
            intro e
            rw [e] at hlen
            simp at hlen))
        rw [hb]
        exact phaseA_total fs rest (k :: fhash) _ (fun kc hkc => by
          rw [(subordinateAll_fields b _ h kc.2).2.1]
          exact hp kc hkc)
      · exact phaseA_total fs rest (k :: fhash) h hp

theorem Core.rfl_heap (h : Heap) : Core h h := fun _ => rfl

theorem Core.andThen {h g k : Heap} (c1 : Core h g) (c2 : Core g k) : Core h k := by
  intro a
  rw [c2 a, c1 a]

theorem makeSub_core (h : Heap) (x s : Nat) : Core h (makeSub h x s) := by
  intro a
  by_cases e1 : a = x
  · subst e1
    by_cases e2 : a = s
    · subst e2
      simp [makeSub]
    · simp [makeSub, e2, Ne.symm e2]
  · by_cases e2 : a = s
    · subst e2
      simp [makeSub, e1, Ne.symm e1]
    · simp [makeSub, e1, e2]

theorem subordinateAll_core (best : Nat) : ∀ (ds : List Nat) (h : Heap),
    Core h (subordinateAll best ds h)
  | [], h => Core.rfl_heap h
  | d :: ds, h => by
    simp only [subordinateAll]
    split
    · exact (makeSub_core h d best).andThen (subordinateAll_core best ds _)
    · exact subordinateAll_core best ds h

theorem phaseA_core (fs : List (String × Nat)) : ∀ (rest : List (String × Nat))
    (fhash : List String) (h g : Heap), phaseA fs rest fhash h = some g → Core h g
  | [], fhash, h, g => by
    intro hp
    simp only [phaseA, Option.some.injEq] at hp
    subst hp
    exact Core.rfl_heap h
  | (k, v) :: rest, fhash, h, g => by
    intro hp
    simp only [phaseA] at hp
    split at hp
    · exact phaseA_core fs rest fhash h g hp
    · split at hp
      · split at hp
        · exact (subordinateAll_core _ _ h).andThen (phaseA_core fs rest _ _ g hp)
        · cases hp
      · exact phaseA_core fs rest _ h g hp

/-- Phases A and B on two scanned trees follow the reference planner when Phase B meets no
hierarchy of Phase A at a path collision. -/
theorem planAB_sim (fuel : Nat) (path1 path2 pathout : String) (in1 in2 : List Entry)
    (hok1 : namesOKList in1) (hok2 : namesOKList in2)
    (hf1 : depthList in1 < fuel) (hf2 : depthList in2 < fuel) (hA : Heap)
    (hpA : scanPhaseA path1 path2 in1 in2 = some hA)
    (hok : ∀ ev ∈ planEvs hA path1 path2 pathout in1 in2, ev.OK hA) :
    ∃ stB, planAB fuel (scanBoth path1 path2 in1 in2).1.heap
        (scanBoth path1 path2 in1 in2).1.next 0 (1 + spanList in1) pathout
        (scanBoth path1 path2 in1 in2).1.fileStore =
        some { state := stB, root := (1 + spanList in1) + (1 + spanList in2) } ∧
      Sim hA ((1 + spanList in1) + (1 + spanList in2))
        (afterA hA ((1 + spanList in1) + (1 + spanList in2))) stB
        (planEvs hA path1 path2 pathout in1 in2)
        (1 + (bothNewList in1 in2 + aloneNewList in2 (in1.map Entry.name))) := by
  obtain ⟨-, -, p3, -, p5, p6, p7, p8⟩ := scanBoth_pair path1 path2 in1 in2 hok1 hok2
  simp only [scanPhaseA] at hpA
  rcases hs : scanBoth path1 path2 in1 in2 with ⟨sc, r1, r2⟩
  rw [hs] at hpA p3 p5 p6 p7 p8
  simp only at hpA p3 p5 p6 p7 p8 ⊢
  have hcore : Core sc.heap hA := phaseA_core _ _ _ _ _ hpA
  obtain ⟨fuel', rfl⟩ : ∃ f, fuel = f + 1 := ⟨fuel - 1, by omega⟩
  rw [planAB_eq _ _ _ _ _ _ _ hA hpA, p3]
  generalize hn0 : (1 + spanList in1) + (1 + spanList in2) = n0
  have hr2 : 1 + spanList in1 < n0 := by omega
  obtain ⟨q1, q2, q3, -, q5, q6⟩ := rootState_heap hA n0 0 pathout
  generalize hrs : rootState hA n0 0 pathout = rs at q1 q2 q3 q5 q6
  have hsteps : rs.editSteps = [mkdirAt n0 pathout] := by
    rw [← hrs]
    simp only [rootState]
    rw [mkdirStep_eq]
    rw [← hrs] at q3
    simp only [rootState] at q3
    rw [q3]
  have hc0 : (rs.heap n0).children = kids 1 in1 := by
    rw [q2, hcore 0, p5]
  have hc2 : (rs.heap (1 + spanList in1)).children = kids (1 + (1 + spanList in1)) in2 := by
    rw [q1 _ (by omega), hcore (1 + spanList in1), p6]
  simp only [planEvs, hn0] at hok ⊢
  obtain ⟨loc1, st1, hl1, hvis1, hsim1, hframe1, hnodes1⟩ :=
    bothLoop sc.heap hA n0 hcore in1 in2 fuel' 1 0 (1 + (1 + spanList in1)) (1 + spanList in1)
      n0 (1 + spanList in1) path1 path2 pathout { step_children := [], visited := [] } rs
      (by omega) (by omega) hok1 hok2 p7 p8
      (fun a h1 h2 => q1 a (by omega))
      (fun e _ e2 a2 hf a h1 h2 => by
        obtain ⟨j1, j2, j3, j4, j5⟩ := findAt_rep sc.heap in2 _ _ path2 e.name e2 a2 p8 hf
        exact q1 a (by omega))
      hc2 (by omega) (by omega) (by omega) (by omega) (Or.inr (Nat.le_refl _)) (by omega) q3
      (by
        rw [q5]
        exact fun ev hev => hok ev (List.mem_cons_of_mem _ (List.mem_append_left _ hev)))
  rw [q5] at hsim1 hframe1 hnodes1
  have hn1 : st1.next = n0 + 1 + bothNewList in1 in2 := by rw [hsim1.next, q5]
  have hfrB : ∀ a, a = 0 ∨ a = 1 + spanList in1 ∨ a = n0 → st1.heap a = rs.heap a := by
    intro a ha
    refine hframe1 a (by omega) (by omega) (fun e _ e2 a2 hf => ?_)
    obtain ⟨j1, j2, j3, j4, j5⟩ := findAt_rep sc.heap in2 _ _ path2 e.name e2 a2 p8 hf
    omega
  obtain ⟨loc2, st2, hl2, hvis2, hsim2, hframe2, hnodes2⟩ :=
    aloneLoop sc.heap hA n0 hcore in2 (in1.map Entry.name) fuel' (1 + (1 + spanList in1))
      (1 + spanList in1) n0 path2 pathout loc1 st1 (by omega) hok2 p8
      (PendBut.by_findAt in2 _ _ hok2 (fun n e3 a3 hf3 hns a h1 h2 => by
        obtain ⟨j1, j2, j3, j4, j5⟩ := findAt_rep sc.heap in2 _ _ path2 n e3 a3 p8 hf3
        rw [hframe1 a (by omega) (by omega) (fun e he e4 a4 hf4 => by
          have hne4 : e.name ≠ n := fun c => hns (c ▸ List.mem_map_of_mem _ he)
          rcases findAt_disjoint in2 _ e.name n e4 e3 a4 a3 hf4 hf3 hne4 with h | h <;> omega)]
        exact q1 a (by omega)))
      (by omega) (by omega) (by omega) (Or.inr (by omega))
      (by rw [hfrB n0 (by simp)]; exact q3)
      (fun x hx => by
        rw [hvis1]
        simp only [List.not_mem_nil, false_or]
        constructor
        · exact fun h => h.1
        · exact fun h => ⟨h, findAt_mem.mpr (List.mem_map_of_mem _ hx)⟩)
  rw [hn1] at hsim2 hframe2 hnodes2
  refine ⟨{ st2 with
      heap := st2.heap.modify n0 (fun n => { n with children := loc2.step_children }) },
    ?_, ?_⟩
  · simp only [mergeDirs, hc0, hl1]
    rw [hfrB _ (by simp), hc2]
    simp only [hl2, Option.map_some']
  · have hsimA := hsim1.append hsim2 (by
      intro ev hev a ha
      rcases hnodes1 ev hev a ha with h1 | h1 | h1 | ⟨e4, he4, e3, a3, hf3, h3a, h3b⟩
      · rw [h1]
        exact hframe2 n0 (Outside.beyond _ _ _ _ (by omega)) (by omega)
      · exact hframe2 a (Outside.beyond _ _ _ _ (by omega)) (by omega)
      · exact hframe2 a (Outside.beyond _ _ _ _ (by omega)) (by omega)
      · obtain ⟨j1, j2, j3, j4, j5⟩ :=
          findAt_rep sc.heap in2 _ _ path2 e4.name e3 a3 p8 hf3
        refine hframe2 a (Outside.of_findAt in2 _ _ a hok2
          (fun n x ax hfx hns => ?_)) (by omega)
        have hne4 : e4.name ≠ n := fun c => hns (c ▸ List.mem_map_of_mem _ he4)
        rcases findAt_disjoint in2 _ e4.name n e3 x a3 ax hf3 hfx hne4 with h | h <;> omega)
    exact @Sim.cons_mk _ _ (afterA hA n0) _ _ _ _ 1
      (hsimA.swap (st2.heap.modify n0 (fun n => { n with children := loc2.step_children }))
        (fun a => modify_children_fields _ _ _ a))
      n0 pathout (by rw [hsteps]; rfl) q6 q5
      ⟨by rw [q5]; simp [afterA], fun a ha => by
        simp only [afterA] at ha ⊢
        rw [q1 a (by omega)]
        exact ⟨rfl, rfl, rfl, rfl, fun _ => ⟨rfl, rfl, rfl⟩⟩⟩
      (by
        refine ⟨by simp only; rw [hsim2.next]; omega, ?_⟩
        simp only
        rw [(modify_children_fields _ _ _ _).2.1,
          hframe2 n0 (Outside.beyond _ _ _ _ (by omega)) (by omega), hfrB n0 (by simp)]
        exact q3)

/-! ## The reference planner visits every node once -/

theorem findAt_bounds : ∀ (es : List Entry) (b : Nat) (n : String) (e : Entry) (a : Nat),
    findAt es b n = some (e, a) →
    e.name = n ∧ e ∈ es ∧ b ≤ a ∧ a + e.span ≤ b + spanList es
  | [], b, n, e, a => by
    intro hf
    simp [findAt] at hf
  | x :: es, b, n, e, a => by
    intro hf
    simp only [findAt] at hf
    simp only [spanList]
    split at hf
    · simp only [Option.some.injEq, Prod.mk.injEq] at hf
      obtain ⟨rfl, rfl⟩ := hf
      exact ⟨by assumption, by simp, Nat.le_refl _, by omega⟩
    · obtain ⟨i2, i3, i4, i5⟩ := findAt_bounds es (b + x.span) n e a hf
      exact ⟨i2, List.mem_cons_of_mem _ i3, by omega, by omega⟩

theorem findAt_zero {es : List Entry} {b : Nat} {n : String} {e : Entry} {a : Nat}
    (h : findAt es b n = some (e, a)) : findAt es 0 n = some (e, a - b) ∧ b ≤ a := by
  have hsh := findAt_shift es b n
  rw [h] at hsh
  cases hq : findAt es 0 n with
  | none => rw [hq] at hsh; simp at hsh
  | some q =>
    rw [hq] at hsh
    simp only [Option.map_some', Option.some.injEq, Prod.mk.injEq] at hsh
    obtain ⟨q1, q2⟩ := q
    simp only at hsh
    obtain ⟨rfl, rfl⟩ := hsh
    simp

theorem findAt_zero_none {es : List Entry} {b : Nat} {n : String}
    (h : findAt es b n = none) : findAt es 0 n = none := by
  have hsh := findAt_shift es b n
  rw [h] at hsh
  cases hq : findAt es 0 n with
  | none => rfl
  | some q => rw [hq] at hsh; simp at hsh

theorem fileEv_subj (hA : Heap) (f d : Nat) (src out : String) :
    (fileEv hA f d src out).subj = [f] := by
  unfold fileEv
  split <;> rfl

theorem not_outside {es : List Entry} {skip : List String} {b a : Nat}
    (hn : namesOKList es) (h : ¬ Outside es skip b a) :
    ∃ n e2 a2, findAt es b n = some (e2, a2) ∧ n ∉ skip ∧ a2 ≤ a ∧ a < a2 + e2.span := by
  by_contra hc
  apply h
  refine Outside.of_findAt es skip b a hn (fun n e2 a2 hf hs hin => hc ⟨n, e2, a2, hf, hs, hin⟩)

mutual
theorem Entry.aloneEvs_subj (hA : Heap) : ∀ (e : Entry) (b d nx : Nat) (src out : String),
    ∀ ev ∈ e.aloneEvs hA b d nx src out, ∀ a ∈ ev.subj,
      (b ≤ a ∧ a < b + e.span) ∨ (nx ≤ a ∧ a < nx + e.numDirs)
  | .file name regular size ctime digest, b, d, nx, src, out => by
    intro ev hev a ha
    simp only [Entry.aloneEvs, List.mem_singleton] at hev
    rw [hev, fileEv_subj] at ha
    simp only [List.mem_singleton] at ha
    simp only [Entry.span]
    left; omega
  | .dir name size ctime es, b, d, nx, src, out => by
    intro ev hev a ha
    simp only [Entry.aloneEvs, List.mem_cons] at hev
    simp only [Entry.span, Entry.numDirs]
    rcases hev with hev | hev
    · rw [hev] at ha
      simp only [Ev.subj, List.mem_singleton] at ha
      right; omega
    · have := aloneEvsList_subj hA es [] (b + 1) nx (nx + 1) _ _ ev hev a ha
      rw [aloneNewList_nil] at this
      omega
theorem aloneEvsList_subj (hA : Heap) : ∀ (es : List Entry) (skip : List String)
    (b d nx : Nat) (src out : String),
    ∀ ev ∈ aloneEvsList hA es skip b d nx src out, ∀ a ∈ ev.subj,
      (¬ Outside es skip b a ∧ b ≤ a ∧ a < b + spanList es) ∨
        (nx ≤ a ∧ a < nx + aloneNewList es skip)
  | [], skip, b, d, nx, src, out => by
    intro ev hev
    simp [aloneEvsList] at hev
  | e :: es, skip, b, d, nx, src, out => by
    intro ev hev a ha
    simp only [aloneEvsList] at hev
    simp only [spanList, aloneNewList]
    have hsp := Entry.span_pos e
    by_cases hsk : e.name ∈ skip
    · simp only [hsk, if_true] at hev ⊢
      rcases aloneEvsList_subj hA es skip (b + e.span) d nx src out ev hev a ha with h | h
      · left
        exact ⟨fun ho => h.1 ho.2, by omega, by omega⟩
      · right; omega
    · simp only [hsk, if_false, List.mem_append] at hev ⊢
      rcases hev with hev | hev
      · rcases Entry.aloneEvs_subj hA e b d nx src out ev hev a ha with h | h
        · left
          exact ⟨fun ho => ho.1 hsk h, by omega, by omega⟩
        · right; omega
      · rcases aloneEvsList_subj hA es skip (b + e.span) d (nx + e.numDirs) src out ev hev a
          ha with h | h
        · left
          exact ⟨fun ho => h.1 ho.2, by omega, by omega⟩
        · right; omega
end

mutual
theorem Entry.bothEvs_subj (hA : Heap) : ∀ (e : Entry) (es2 : List Entry)
    (b2 b d nx : Nat) (s1 s2 out : String),
    ∀ ev ∈ e.bothEvs hA es2 b2 b d nx s1 s2 out, ∀ a ∈ ev.subj,
      (b ≤ a ∧ a < b + e.span) ∨ (nx ≤ a ∧ a < nx + e.bothNew es2) ∨
        ∃ e2 a2, findAt es2 b2 e.name = some (e2, a2) ∧ a2 ≤ a ∧ a < a2 + e2.span
  | .file name regular size ctime digest, es2, b2, b, d, nx, s1, s2, out => by
    intro ev hev a ha
    simp only [Entry.bothEvs] at hev
    simp only [Entry.span, Entry.name]
    cases hfind : findAt es2 b2 name with
    | none =>
      rw [hfind] at hev
      simp only [List.mem_singleton] at hev
      rw [hev, fileEv_subj] at ha
      simp only [List.mem_singleton] at ha
      left; omega
    | some x =>
      obtain ⟨e2, a2⟩ := x
      rw [hfind] at hev
      simp only [List.mem_singleton] at hev
      rw [hev] at ha
      simp only [Ev.subj, List.mem_cons, List.mem_singleton, List.not_mem_nil, or_false] at ha
      have hsp := Entry.span_pos e2
      rcases ha with ha | ha
      · left; omega
      · right; right
        exact ⟨e2, a2, rfl, by omega, by omega⟩
  | .dir name size ctime es, es2, b2, b, d, nx, s1, s2, out => by
    intro ev hev a ha
    simp only [Entry.bothEvs] at hev
    simp only [Entry.span, Entry.name, Entry.bothNew]
    cases hfind : findAt es2 b2 name with
    | none =>
      rw [hfind] at hev
      simp only [findAt_zero_none hfind]
      simp only [List.mem_cons] at hev
      rcases hev with hev | hev
      · rw [hev] at ha
        simp only [Ev.subj, List.mem_singleton] at ha
        right; left; omega
      · have := aloneEvsList_subj hA es [] (b + 1) nx (nx + 1) _ _ ev hev a ha
        rw [aloneNewList_nil] at this
        omega
    | some x =>
      obtain ⟨e2, a2⟩ := x
      rw [hfind] at hev
      have hz := (findAt_zero hfind).1
      obtain ⟨i2, i3, i4, i5⟩ := findAt_bounds es2 b2 name e2 a2 hfind
      cases e2 with
      | dir name2 size2 ctime2 es' =>
        have hspd : (Entry.dir name2 size2 ctime2 es').span = 1 + spanList es' := by
          simp [Entry.span]
        simp only [hz]
        simp only [List.mem_cons, List.mem_append] at hev
        simp only [Entry.span] at i5
        rcases hev with hev | hev | hev
        · rw [hev] at ha
          simp only [Ev.subj, List.mem_singleton] at ha
          left; omega
        · rcases bothEvsList_subj hA es es' (a2 + 1) (b + 1) b nx _ _ _ ev hev a ha with
            h | h | ⟨e4, he4, e3, a3, hf3, h3⟩
          · left; omega
          · right; left; omega
          · obtain ⟨j2, j3, j4, j5⟩ := findAt_bounds es' (a2 + 1) e4.name e3 a3 hf3
            right; right
            exact ⟨_, a2, rfl, by omega, by omega⟩
        · rcases aloneEvsList_subj hA es' _ (a2 + 1) b _ _ _ ev hev a ha with h | h
          · right; right
            exact ⟨_, a2, rfl, by omega, by omega⟩
          · right; left; omega
      | file name2 regular2 size2 ctime2 digest2 =>
        simp only [hz]
        simp only [List.mem_cons] at hev
        rcases hev with hev | hev
        · rw [hev] at ha
          simp only [Ev.subj, List.mem_singleton] at ha
          left; omega
        · rcases bothEvsList_subj hA es [] (a2 + 1) (b + 1) b nx _ _ _ ev hev a ha with
            h | h | ⟨e4, he4, e3, a3, hf3, h3⟩
          · left; omega
          · right; left; omega
          · simp [findAt] at hf3
theorem bothEvsList_subj (hA : Heap) : ∀ (es es2 : List Entry)
    (b2 b d nx : Nat) (s1 s2 out : String),
    ∀ ev ∈ bothEvsList hA es es2 b2 b d nx s1 s2 out, ∀ a ∈ ev.subj,
      (b ≤ a ∧ a < b + spanList es) ∨ (nx ≤ a ∧ a < nx + bothNewList es es2) ∨
        ∃ e ∈ es, ∃ e2 a2, findAt es2 b2 e.name = some (e2, a2) ∧ a2 ≤ a ∧ a < a2 + e2.span
  | [], es2, b2, b, d, nx, s1, s2, out => by
    intro ev hev
    simp [bothEvsList] at hev
  | e :: es, es2, b2, b, d, nx, s1, s2, out => by
    intro ev hev a ha
    simp only [bothEvsList, List.mem_append] at hev
    simp only [spanList, bothNewList]
    have hsp := Entry.span_pos e
    rcases hev with hev | hev
    · rcases Entry.bothEvs_subj hA e es2 b2 b d nx s1 s2 out ev hev a ha with
        h | h | ⟨e2, a2, hf, h⟩
      · left; omega
      · right; left; omega
      · right; right
        exact ⟨e, List.mem_cons_self _ _, e2, a2, hf, h⟩
    · rcases bothEvsList_subj hA es es2 b2 (b + e.span) d (nx + e.bothNew es2) s1 s2 out ev hev
          a ha with h | h | ⟨x, hx, e2, a2, hf, h⟩
      · left; omega
      · right; left; omega
      · right; right
        exact ⟨x, List.mem_cons_of_mem _ hx, e2, a2, hf, h⟩
end

theorem nodup_flatMap_append {α β : Type} (f : α → List β) (l1 l2 : List α)
    (h1 : (l1.flatMap f).Nodup) (h2 : (l2.flatMap f).Nodup)
    (hd : ∀ x ∈ l1, ∀ y ∈ l2, ∀ a ∈ f x, a ∉ f y) : ((l1 ++ l2).flatMap f).Nodup := by
  rw [List.flatMap_append, List.nodup_append]
  refine ⟨h1, h2, ?_⟩
  intro a ha hb
  obtain ⟨x, hx, hax⟩ := List.mem_flatMap.mp ha
  obtain ⟨y, hy, hay⟩ := List.mem_flatMap.mp hb
  exact hd x hx y hy a hax hay

theorem nodup_flatMap_cons {α β : Type} (f : α → List β) (x : α) (l : List α)
    (h1 : (f x).Nodup) (h2 : (l.flatMap f).Nodup)
    (hd : ∀ y ∈ l, ∀ a ∈ f x, a ∉ f y) : ((x :: l).flatMap f).Nodup := by
  have := nodup_flatMap_append f [x] l (by simpa using h1) h2
    (fun x' hx' y hy a ha => by
      rw [List.mem_singleton.mp hx'] at ha
      exact hd y hy a ha)
  simpa using this

mutual
theorem Entry.aloneEvs_nodup (hA : Heap) : ∀ (e : Entry) (b d nx : Nat) (src out : String)
    (N : Nat), b + e.span ≤ N → N ≤ nx → ((e.aloneEvs hA b d nx src out).flatMap Ev.subj).Nodup
  | .file name regular size ctime digest, b, d, nx, src, out, N => by
    intro _ _
    simp [Entry.aloneEvs, fileEv_subj]
  | .dir name size ctime es, b, d, nx, src, out, N => by
    intro h1 h2
    simp only [Entry.span] at h1
    simp only [Entry.aloneEvs]
    refine nodup_flatMap_cons _ _ _ (by simp [Ev.subj])
      (aloneEvsList_nodup hA es [] (b + 1) nx (nx + 1) _ _ N (by omega) (by omega)) ?_
    intro y hy a ha hay
    simp only [Ev.subj, List.mem_singleton] at ha
    have := aloneEvsList_subj hA es [] (b + 1) nx (nx + 1) _ _ y hy a hay
    omega
theorem aloneEvsList_nodup (hA : Heap) : ∀ (es : List Entry) (skip : List String)
    (b d nx : Nat) (src out : String) (N : Nat), b + spanList es ≤ N → N ≤ nx →
    ((aloneEvsList hA es skip b d nx src out).flatMap Ev.subj).Nodup
  | [], skip, b, d, nx, src, out, N => by
    intro _ _
    simp [aloneEvsList]
  | e :: es, skip, b, d, nx, src, out, N => by
    intro h1 h2
    simp only [spanList] at h1
    simp only [aloneEvsList]
    have hsp := Entry.span_pos e
    by_cases hsk : e.name ∈ skip
    · simp only [hsk, if_true]
      exact aloneEvsList_nodup hA es skip (b + e.span) d nx src out N (by omega) h2
    · simp only [hsk, if_false]
      refine nodup_flatMap_append _ _ _
        (Entry.aloneEvs_nodup hA e b d nx src out N (by omega) h2)
        (aloneEvsList_nodup hA es skip (b + e.span) d (nx + e.numDirs) src out N (by omega)
          (by omega)) ?_
      intro x hx y hy a hax hay
      have i1 := Entry.aloneEvs_subj hA e b d nx src out x hx a hax
      have i2 := aloneEvsList_subj hA es skip (b + e.span) d (nx + e.numDirs) src out y hy a hay
      omega
end

mutual
theorem Entry.bothEvs_nodup (hA : Heap) : ∀ (e : Entry) (es2 : List Entry)
    (b2 b d nx : Nat) (s1 s2 out : String) (N : Nat), e.namesOK → namesOKList es2 →
    b + e.span ≤ b2 → b2 + spanList es2 ≤ N → N ≤ nx →
    ((e.bothEvs hA es2 b2 b d nx s1 s2 out).flatMap Ev.subj).Nodup
  | .file name regular size ctime digest, es2, b2, b, d, nx, s1, s2, out, N => by
    intro _ _ h1 h2 h3
    simp only [Entry.span] at h1
    simp only [Entry.bothEvs]
    cases hfind : findAt es2 b2 name with
    | none => simp [fileEv_subj]
    | some x =>
      obtain ⟨e2, a2⟩ := x
      obtain ⟨i2, i3, i4, i5⟩ := findAt_bounds es2 b2 name e2 a2 hfind
      simp only [List.flatMap_cons, Ev.subj, List.flatMap_nil, List.append_nil,
        List.nodup_cons, List.mem_singleton, List.not_mem_nil, not_false_eq_true,
        List.nodup_nil, and_true]
      omega
  | .dir name size ctime es, es2, b2, b, d, nx, s1, s2, out, N => by
    intro hn hn2 h1 h2 h3
    simp only [Entry.span] at h1
    simp only [Entry.namesOK] at hn
    simp only [Entry.bothEvs]
    cases hfind : findAt es2 b2 name with
    | none =>
      simp only
      refine nodup_flatMap_cons _ _ _ (by simp [Ev.subj])
        (aloneEvsList_nodup hA es [] (b + 1) nx (nx + 1) _ _ N (by omega) (by omega)) ?_
      intro y hy a ha hay
      simp only [Ev.subj, List.mem_singleton] at ha
      have := aloneEvsList_subj hA es [] (b + 1) nx (nx + 1) _ _ y hy a hay
      omega
    | some x =>
      obtain ⟨e2, a2⟩ := x
      obtain ⟨i2, i3, i4, i5⟩ := findAt_bounds es2 b2 name e2 a2 hfind
      have hn2' : e2.namesOK := namesOK_of_mem hn2 i3
      cases e2 with
      | dir name2 size2 ctime2 es' =>
        simp only [Entry.span] at i5
        simp only [Entry.namesOK] at hn2'
        simp only
        have hB := bothEvsList_subj hA es es' (a2 + 1) (b + 1) b nx (s1 ++ "/" ++ name)
          (s2 ++ "/" ++ name) (out ++ "/" ++ name)
        have hAl := aloneEvsList_subj hA es' (es.map Entry.name) (a2 + 1) b
          (nx + bothNewList es es') (s2 ++ "/" ++ name) (out ++ "/" ++ name)
        have hBb : ∀ ev ∈ bothEvsList hA es es' (a2 + 1) (b + 1) b nx (s1 ++ "/" ++ name)
            (s2 ++ "/" ++ name) (out ++ "/" ++ name), ∀ a ∈ ev.subj,
            (b + 1 ≤ a ∧ a < b + 1 + spanList es) ∨
            (nx ≤ a ∧ a < nx + bothNewList es es') ∨
            (a2 + 1 ≤ a ∧ a < a2 + 1 + spanList es') := by
          intro ev hev a ha
          rcases hB ev hev a ha with h | h | ⟨e4, he4, e3, a3, hf3, h3'⟩
          · exact Or.inl h
          · exact Or.inr (Or.inl h)
          · obtain ⟨j2, j3, j4, j5⟩ := findAt_bounds es' (a2 + 1) e4.name e3 a3 hf3
            right; right; omega
        refine nodup_flatMap_cons _ _ _ (by simp [Ev.subj])
          (nodup_flatMap_append _ _ _
            (bothEvsList_nodup hA es es' (a2 + 1) (b + 1) b nx _ _ _ N hn hn2' (by omega)
              (by omega) h3)
            (aloneEvsList_nodup hA es' _ (a2 + 1) b _ _ _ N (by omega) (by omega)) ?_) ?_
        · intro x hx y hy a hax hay
          rcases hAl y hy a hay with ⟨k1, k2, k3⟩ | k
          · obtain ⟨n, e5, a5, hf5, hns, h5⟩ := not_outside hn2' k1
            rcases hB x hx a hax with h | h | ⟨e4, he4, e3, a3, hf3, h3'⟩
            · omega
            · omega
            · have hne : e4.name ≠ n := fun c => hns (c ▸ List.mem_map_of_mem _ he4)
              rcases findAt_disjoint es' (a2 + 1) e4.name n e3 e5 a3 a5 hf3 hf5 hne with
                h | h <;> omega
          · rcases hBb x hx a hax with h | h | h <;> omega
        · intro y hy a ha hay
          simp only [Ev.subj, List.mem_singleton] at ha
          rcases List.mem_append.mp hy with hy | hy
          · rcases hBb y hy a hay with h | h | h <;> omega
          · rcases hAl y hy a hay with ⟨k1, k2, k3⟩ | k <;> omega
      | file name2 regular2 size2 ctime2 digest2 =>
        simp only
        have hB := bothEvsList_subj hA es [] (a2 + 1) (b + 1) b nx (s1 ++ "/" ++ name)
          (s2 ++ "/" ++ name) (out ++ "/" ++ name)
        refine nodup_flatMap_cons _ _ _ (by simp [Ev.subj])
          (bothEvsList_nodup hA es [] (a2 + 1) (b + 1) b nx _ _ _ N hn trivial (by omega)
            (by simp only [spanList, Entry.span] at i5 ⊢; omega) h3) ?_
        intro y hy a ha hay
        simp only [Ev.subj, List.mem_singleton] at ha
        rcases hB y hy a hay with h | h | ⟨e4, he4, e3, a3, hf3, h3'⟩
        · omega
        · omega
        · simp [findAt] at hf3
theorem bothEvsList_nodup (hA : Heap) : ∀ (es es2 : List Entry)
    (b2 b d nx : Nat) (s1 s2 out : String) (N : Nat), namesOKList es → namesOKList es2 →
    b + spanList es ≤ b2 → b2 + spanList es2 ≤ N → N ≤ nx →
    ((bothEvsList hA es es2 b2 b d nx s1 s2 out).flatMap Ev.subj).Nodup
  | [], es2, b2, b, d, nx, s1, s2, out, N => by
    intro _ _ _ _ _
    simp [bothEvsList]
  | e :: es, es2, b2, b, d, nx, s1, s2, out, N => by
    intro hn hn2 h1 h2 h3
    simp only [spanList] at h1
    simp only [namesOKList] at hn
    simp only [bothEvsList]
    have hsp := Entry.span_pos e
    refine nodup_flatMap_append _ _ _
      (Entry.bothEvs_nodup hA e es2 b2 b d nx s1 s2 out N hn.2.1 hn2 (by omega) h2 h3)
      (bothEvsList_nodup hA es es2 b2 (b + e.span) d (nx + e.bothNew es2) s1 s2 out N hn.2.2
        hn2 (by omega) h2 (by omega)) ?_
    intro x hx y hy a hax hay
    have i1 := Entry.bothEvs_subj hA e es2 b2 b d nx s1 s2 out x hx a hax
    have i2 := bothEvsList_subj hA es es2 b2 (b + e.span) d (nx + e.bothNew es2) s1 s2 out y hy
      a hay
    rcases i1 with h | h | ⟨e2, a2, hf, h⟩
    · rcases i2 with k | k | ⟨x', hx', e3, a3, hf3, k⟩
      · omega
      · omega
      · obtain ⟨j2, j3, j4, j5⟩ := findAt_bounds es2 b2 x'.name e3 a3 hf3
        omega
    · rcases i2 with k | k | ⟨x', hx', e3, a3, hf3, k⟩
      · omega
      · omega
      · obtain ⟨j2, j3, j4, j5⟩ := findAt_bounds es2 b2 x'.name e3 a3 hf3
        omega
    · obtain ⟨j2, j3, j4, j5⟩ := findAt_bounds es2 b2 e.name e2 a2 hf
      rcases i2 with k | k | ⟨x', hx', e3, a3, hf3, k⟩
      · omega
      · omega
      · have hne : e.name ≠ x'.name := fun c => hn.1 (c ▸ List.mem_map_of_mem _ hx')
        rcases findAt_disjoint es2 b2 e.name x'.name e2 e3 a2 a3 hf hf3 hne with h' | h' <;>
          omega
end

/-- The reference planner has at most one event about a node. -/
theorem planEvs_nodup (hA : Heap) (path1 path2 pathout : String) (in1 in2 : List Entry)
    (hok1 : namesOKList in1) (hok2 : namesOKList in2) :
    ((planEvs hA path1 path2 pathout in1 in2).flatMap Ev.subj).Nodup := by
  simp only [planEvs]
  generalize hn0 : (1 + spanList in1) + (1 + spanList in2) = n0
  have hB := bothEvsList_subj hA in1 in2 (1 + (1 + spanList in1)) 1 n0 (n0 + 1) path1 path2
    pathout
  have hAl := aloneEvsList_subj hA in2 (in1.map Entry.name) (1 + (1 + spanList in1)) n0
    (n0 + 1 + bothNewList in1 in2) path2 pathout
  have hBb : ∀ ev ∈ bothEvsList hA in1 in2 (1 + (1 + spanList in1)) 1 n0 (n0 + 1) path1 path2
      pathout, ∀ a ∈ ev.subj, (1 ≤ a ∧ a < 1 + spanList in1) ∨
      (n0 + 1 ≤ a ∧ a < n0 + 1 + bothNewList in1 in2) ∨
      (1 + (1 + spanList in1) ≤ a ∧ a < n0) := by
    intro ev hev a ha
    rcases hB ev hev a ha with h | h | ⟨e4, he4, e3, a3, hf3, h3'⟩
    · exact Or.inl h
    · exact Or.inr (Or.inl h)
    · obtain ⟨j2, j3, j4, j5⟩ := findAt_bounds in2 _ e4.name e3 a3 hf3
      right; right; omega
  refine nodup_flatMap_cons _ _ _ (by simp [Ev.subj])
    (nodup_flatMap_append _ _ _
      (bothEvsList_nodup hA in1 in2 _ 1 n0 (n0 + 1) _ _ _ n0 hok1 hok2 (by omega) (by omega)
        (by omega))
      (aloneEvsList_nodup hA in2 _ _ n0 _ _ _ n0 (by omega) (by omega)) ?_) ?_
  · intro x hx y hy a hax hay
    rcases hAl y hy a hay with ⟨k1, k2, k3⟩ | k
    · obtain ⟨n, e5, a5, hf5, hns, h5⟩ := not_outside hok2 k1
      rcases hB x hx a hax with h | h | ⟨e4, he4, e3, a3, hf3, h3'⟩
      · omega
      · omega
      · have hne : e4.name ≠ n := fun c => hns (c ▸ List.mem_map_of_mem _ he4)
        rcases findAt_disjoint in2 _ e4.name n e3 e5 a3 a5 hf3 hf5 hne with h | h <;> omega
    · rcases hBb x hx a hax with h | h | h <;> omega
  · intro y hy a ha hay
    simp only [Ev.subj, List.mem_singleton] at ha
    rcases List.mem_append.mp hy with hy | hy
    · rcases hBb y hy a hay with h | h | h <;> omega
    · rcases hAl y hy a hay with ⟨k1, k2, k3⟩ | k <;> omega

/-! ## The hierarchies Phase C meets -/

theorem mem_foldl_setInsert {α : Type} [DecidableEq α] : ∀ (l s : List α) (x : α),
    x ∈ l.foldl setInsert s ↔ x ∈ s ∨ x ∈ l
  | [], s, x => by simp
  | y :: l, s, x => by
    simp only [List.foldl_cons]
    rw [mem_foldl_setInsert l (setInsert s y) x, setInsert_nil_iff]
    simp only [List.mem_cons]
    constructor
    · rintro ((h | h) | h)
      · exact Or.inl h
      · exact Or.inr (Or.inl h)
      · exact Or.inr (Or.inr h)
    · rintro (h | h | h)
      · exact Or.inl (Or.inl h)
      · exact Or.inl (Or.inr h)
      · exact Or.inr h

theorem nodup_foldl_setInsert {α : Type} [DecidableEq α] : ∀ (l s : List α),
    s.Nodup → (l.foldl setInsert s).Nodup
  | [], s, h => h
  | y :: l, s, h => by
    simp only [List.foldl_cons]
    refine nodup_foldl_setInsert l _ ?_
    unfold setInsert
    split
    · exact h
    · rw [List.nodup_append]
      refine ⟨h, by simp, ?_⟩
      intro a ha hb
      simp only [List.mem_singleton] at hb
      subst hb
      contradiction

mutual
theorem Entry.rep_parent (h : Heap) : ∀ (e : Entry) (b p : Nat) (pp : String),
    e.Rep h b p pp → p < b → ∀ a, b ≤ a → a < b + e.span → ∃ q, (h a).parent = some q ∧ q < a
  | .file name regular size ctime digest, b, p, pp => by
    intro hr hp a h1 h2
    simp only [Entry.span] at h2
    have : a = b := by omega
    subst this
    simp only [Entry.Rep] at hr
    rw [hr]
    exact ⟨p, rfl, hp⟩
  | .dir name size ctime es, b, p, pp => by
    intro hr hp a h1 h2
    simp only [Entry.span] at h2
    simp only [Entry.Rep] at hr
    by_cases e : a = b
    · subst e
      rw [hr.1]
      exact ⟨p, rfl, hp⟩
    · exact repList_parent h es (b + 1) b _ hr.2 (by omega) a (by omega) (by omega)
theorem repList_parent (h : Heap) : ∀ (es : List Entry) (b p : Nat) (pp : String),
    RepList h es b p pp → p < b → ∀ a, b ≤ a → a < b + spanList es →
    ∃ q, (h a).parent = some q ∧ q < a
  | [], b, p, pp => by
    intro _ _ a h1 h2
    simp only [spanList] at h2
    omega
  | e :: es, b, p, pp => by
    intro hr hp a h1 h2
    simp only [spanList] at h2
    simp only [RepList] at hr
    have hsp := Entry.span_pos e
    by_cases c : a < b + e.span
    · exact Entry.rep_parent h e b p pp hr.1 hp a h1 c
    · exact repList_parent h es (b + e.span) p pp hr.2 (by omega) a (by omega) (by omega)
end

/-- After Phase A every node scanned below a root has a parent scanned before it. -/
theorem scan_parent (path1 path2 : String) (in1 in2 : List Entry)
    (hok1 : namesOKList in1) (hok2 : namesOKList in2) (hA : Heap)
    (hpA : scanPhaseA path1 path2 in1 in2 = some hA) (a : Nat)
    (ha : (1 ≤ a ∧ a < 1 + spanList in1) ∨
      (1 + (1 + spanList in1) ≤ a ∧ a < (1 + spanList in1) + (1 + spanList in2))) :
    ∃ q, (hA a).parent = some q ∧ q < a := by
  obtain ⟨-, -, -, -, -, -, p7, p8⟩ := scanBoth_pair path1 path2 in1 in2 hok1 hok2
  simp only [scanPhaseA] at hpA
  rcases hs : scanBoth path1 path2 in1 in2 with ⟨sc, r1, r2⟩
  rw [hs] at hpA p7 p8
  simp only at hpA p7 p8
  have hcore : Core sc.heap hA := phaseA_core _ _ _ _ _ hpA
  have hp : (hA a).parent = (sc.heap a).parent := by rw [hcore a]
  rw [hp]
  rcases ha with ha | ha
  · exact repList_parent sc.heap in1 1 0 path1 p7 (by omega) a ha.1 ha.2
  · exact repList_parent sc.heap in2 _ _ path2 p8 (by omega) a ha.1 (by omega)

theorem planEvs_subj (hA : Heap) (path1 path2 pathout : String) (in1 in2 : List Entry) :
    ∀ ev ∈ planEvs hA path1 path2 pathout in1 in2, ∀ a ∈ ev.subj,
      (1 ≤ a ∧ a < 1 + spanList in1) ∨
      (1 + (1 + spanList in1) ≤ a ∧ a < (1 + spanList in1) + (1 + spanList in2)) ∨
      (1 + spanList in1) + (1 + spanList in2) ≤ a := by
  intro ev hev a ha
  simp only [planEvs, List.mem_cons, List.mem_append] at hev
  rcases hev with hev | hev | hev
  · rw [hev] at ha
    simp only [Ev.subj, List.mem_singleton] at ha
    right; right; omega
  · rcases bothEvsList_subj hA in1 in2 _ _ _ _ _ _ _ ev hev a ha with
      h | h | ⟨e4, he4, e3, a3, hf3, h3'⟩
    · left; exact h
    · right; right; omega
    · obtain ⟨j2, j3, j4, j5⟩ := findAt_bounds in2 _ e4.name e3 a3 hf3
      right; left; omega
  · rcases aloneEvsList_subj hA in2 _ _ _ _ _ _ ev hev a ha with ⟨k1, k2, k3⟩ | k
    · right; left; omega
    · right; right; omega

/-- A node Phase A has touched belongs to a content class that is one hierarchy. -/
theorem class_of (path1 path2 : String) (in1 in2 : List Entry) (hA : Heap)
    (hpA : scanPhaseA path1 path2 in1 in2 = some hA) (f : Nat) (hf : ¬ Pristine (hA f)) :
    ∃ C best, f ∈ C ∧ best ∈ C ∧ C.Nodup ∧ ClassDone hA C best := by
  obtain ⟨fhash, ⟨i1, i2, i3⟩, hall, hnd⟩ := scanPhaseA_inv path1 path2 in1 in2 hA hpA
  by_cases hk : ∀ k, (k, f) ∈ (scanBoth path1 path2 in1 in2).1.fileStore → k ∉ fhash
  · exact absurd (i1 f hk) hf
  · push_neg at hk
    obtain ⟨k, hkf, hkh⟩ := hk
    have hfm := (mem_equalRange _ k f).mpr hkf
    by_cases hl : ((equalRange (scanBoth path1 path2 in1 in2).1.fileStore k).length ≤ 1)
    · exact absurd (i2 k hkh hl f hfm) hf
    · obtain ⟨best, hb, hc⟩ := i3 k hkh (by omega)
      exact ⟨_, best, hfm, hb, equalRange_nodup _ k hnd, hc⟩

theorem touched_pristine {hA : Heap} {evs : List Ev} (hok : ∀ ev ∈ evs, ev.OK hA) {a : Nat}
    (ha : a ∈ evs.flatMap Ev.touched) : Pristine (hA a) := by
  obtain ⟨ev, hev, hat⟩ := List.mem_flatMap.mp ha
  have := hok ev hev
  cases ev with
  | pair c1 c2 d s1 s2 out =>
    simp only [Ev.touched, List.mem_cons, List.mem_singleton, List.not_mem_nil,
      or_false] at hat
    simp only [Ev.OK] at this
    rcases hat with rfl | rfl
    · exact this.1
    · exact this.2
  | mk a' p => simp [Ev.touched] at hat
  | cp f d s o => simp [Ev.touched] at hat
  | sub f d s o => simp [Ev.touched] at hat

/-- Two hierarchies with different tops share no member. -/
theorem Tied.disjoint {h : Heap} {t u : Nat} (ht : Tied h t) (hu : Tied h u) (hne : t ≠ u) :
    ∀ m ∈ hierOf h t, m ∉ hierOf h u := by
  intro m hm hm'
  simp only [hierOf, List.mem_cons] at hm hm'
  rcases hm with rfl | hm
  · rcases hm' with e | hm'
    · exact hne e
    · have := (hu.2.2 m hm').1
      rw [ht.1] at this
      cases this
  · rcases hm' with rfl | hm'
    · have := (ht.2.2 m hm).1
      rw [hu.1] at this
      cases this
    · have e1 := (ht.2.2 m hm).2
      have e2 := (hu.2.2 m hm').2
      rw [e1] at e2
      simp only [Option.some.injEq] at e2
      exact hne e2

/-- After Phase B every element of `sups` is the top of a flat hierarchy ready for Phase C,
provided Phase B met no hierarchy of Phase A at a path collision and passed every member of a
content class. -/
theorem sups_ripe (path1 path2 pathout : String) (in1 in2 : List Entry)
    (hok1 : namesOKList in1) (hok2 : namesOKList in2) (hA : Heap)
    (hpA : scanPhaseA path1 path2 in1 in2 = some hA) (stB : Planner) (k : Nat)
    (hsim : Sim hA ((1 + spanList in1) + (1 + spanList in2))
      (afterA hA ((1 + spanList in1) + (1 + spanList in2))) stB
      (planEvs hA path1 path2 pathout in1 in2) k)
    (hok : ∀ ev ∈ planEvs hA path1 path2 pathout in1 in2, ev.OK hA)
    (hE : ∀ m, ¬ Pristine (hA m) →
      ∃ d src out, Ev.sub m d src out ∈ planEvs hA path1 path2 pathout in1 in2) :
    ∀ s ∈ stB.sups, ∃ t, s = some t ∧ Ripe stB.heap stB.next t ∧ Tied stB.heap t := by
  generalize hn0 : (1 + spanList in1) + (1 + spanList in2) = n0 at hsim
  generalize hevs : planEvs hA path1 path2 pathout in1 in2 = evs at hsim hok hE
  have hnx : n0 ≤ stB.next := hsim.keeps.1
  -- parents of the scanned nodes the events are about
  have hpar : ∀ ev ∈ evs, ∀ a ∈ ev.subj, a < n0 → ∃ q, (hA a).parent = some q ∧ q < n0 := by
    intro ev hev a ha hlt
    rw [← hevs] at hev
    have := planEvs_subj hA path1 path2 pathout in1 in2 ev hev a ha
    obtain ⟨q, hq1, hq2⟩ := scan_parent path1 path2 in1 in2 hok1 hok2 hA hpA a (by omega)
    exact ⟨q, hq1, by omega⟩
  -- the hierarchy fields of the nodes that Phase A has touched
  have hkeep : ∀ m, m < n0 → ¬ Pristine (hA m) →
      (stB.heap m).isSub = (hA m).isSub ∧ (stB.heap m).subordinates = (hA m).subordinates ∧
      (stB.heap m).topSup = (hA m).topSup := by
    intro m hm hp
    exact (hsim.keeps.2 m hm).2.2.2.2 (fun ht => hp (touched_pristine hok ht))
  have hfile : ∀ m, ¬ Pristine (hA m) → ∃ d src out, FileDone hA n0 stB m d src out ∧
      ∃ q, (hA m).parent = some q ∧ q < n0 := by
    intro m hp
    obtain ⟨d, src, out, hev⟩ := hE m hp
    have hd := hsim.done _ hev
    simp only [Ev.Done] at hd
    exact ⟨d, src, out, hd, hpar _ hev m (by simp [Ev.subj]) hd.lt⟩
  intro s hs
  rw [hsim.sups, mem_foldl_setInsert] at hs
  simp only [afterA, List.not_mem_nil, false_or] at hs
  obtain ⟨ev, hev, hst⟩ := List.mem_flatMap.mp hs
  cases ev with
  | mk a p => simp [Ev.tops] at hst
  | cp f d src out => simp [Ev.tops] at hst
  | pair c1 c2 d s1 s2 out =>
    simp only [Ev.tops, List.mem_singleton] at hst
    have hd := hsim.done _ hev
    simp only [Ev.Done] at hd
    obtain ⟨d1, d2, d3, d4, d5, d6, d7⟩ := hd
    have hne : c1 ≠ c2 := by
      intro e
      rw [e, d6] at d3
      cases d3
    obtain ⟨q1, hq1, hq1'⟩ := hpar _ hev c1 (by simp [Ev.subj]) d1.lt
    obtain ⟨q2, hq2, hq2'⟩ := hpar _ hev c2 (by simp [Ev.subj]) d2.lt
    refine ⟨c2, hst, ?_, ?_⟩
    · exact
        { flat := fun m hm => by
            rw [d7] at hm
            rw [List.mem_singleton.mp hm]
            exact d5
          nodup := by
            simp only [hierOf, d7, List.nodup_cons, List.mem_singleton, List.not_mem_nil,
              not_false_eq_true, List.nodup_nil, and_true]
            exact fun e => hne e.symm
          lt := fun m hm => by
            simp only [hierOf, d7, List.mem_cons, List.mem_singleton, List.not_mem_nil,
              or_false] at hm
            rcases hm with rfl | rfl
            · have := d2.lt; omega
            · have := d1.lt; omega
          dst := fun m hm => by
            simp only [hierOf, d7, List.mem_cons, List.mem_singleton, List.not_mem_nil,
              or_false] at hm
            rcases hm with rfl | rfl
            · exact ⟨d, d2.dst, d2.dlt⟩
            · exact ⟨d, d1.dst, d1.dlt⟩
          par := fun m hm => by
            simp only [hierOf, d7, List.mem_cons, List.mem_singleton, List.not_mem_nil,
              or_false] at hm
            rcases hm with rfl | rfl
            · exact ⟨q2, by rw [d2.par]; exact hq2, by omega⟩
            · exact ⟨q1, by rw [d1.par]; exact hq1, by omega⟩ }
    · refine ⟨d6, by rw [d7]; simp, fun m hm => ?_⟩
      rw [d7] at hm
      rw [List.mem_singleton.mp hm]
      exact ⟨d3, d4⟩
  | sub f d src out =>
    simp only [Ev.tops] at hst
    split at hst
    · rename_i hsub
      simp only [List.mem_singleton] at hst
      have hfp : ¬ Pristine (hA f) := fun hp => by
        rw [hp.1] at hsub
        cases hsub
      obtain ⟨C, best, hfC, hbC, hCnd, c1, c2, c3, c4⟩ :=
        class_of path1 path2 in1 in2 hA hpA f hfp
      have hfb : f ≠ best := fun e => by
        rw [e, c1] at hsub
        cases hsub
      have hbp : ¬ Pristine (hA best) := fun hp => by
        have : f ∈ (hA best).subordinates := by
          rw [c3]
          simp [hfC, hfb]
        rw [hp.2.1] at this
        cases this
      have hmp : ∀ m ∈ C, ¬ Pristine (hA m) := fun m hm hp => by
        by_cases e : m = best
        · exact hbp (e ▸ hp)
        · have := (c4 m hm e).1
          rw [hp.1] at this
          cases this
      have hmlt : ∀ m ∈ C, m < n0 := fun m hm => by
        obtain ⟨d', src', out', hfd, -⟩ := hfile m (hmp m hm)
        exact hfd.lt
      obtain ⟨e1, e2, e3⟩ := hkeep best (hmlt best hbC) hbp
      have hsubs : ∀ m ∈ (stB.heap best).subordinates, m ∈ C ∧ m ≠ best := fun m hm => by
        rw [e2, c3] at hm
        simpa using hm
      have hmem : ∀ m ∈ hierOf stB.heap best, m ∈ C := fun m hm => by
        simp only [hierOf, List.mem_cons] at hm
        rcases hm with rfl | hm
        · exact hbC
        · exact (hsubs m hm).1
      refine ⟨best, by rw [hst]; exact (c4 f hfC hfb).2.1, ?_, ?_⟩
      · exact
          { flat := fun m hm => by
              obtain ⟨h1, h2⟩ := hsubs m hm
              rw [(hkeep m (hmlt m h1) (hmp m h1)).2.1]
              exact (c4 m h1 h2).2.2
            nodup := by
              simp only [hierOf, List.nodup_cons]
              refine ⟨fun hm => (hsubs best hm).2 rfl, ?_⟩
              rw [e2, c3]
              exact hCnd.filter _
            lt := fun m hm => by have := hmlt m (hmem m hm); omega
            dst := fun m hm => by
              obtain ⟨d', src', out', hfd, -⟩ := hfile m (hmp m (hmem m hm))
              exact ⟨d', hfd.dst, hfd.dlt⟩
            par := fun m hm => by
              obtain ⟨d', src', out', hfd, q, hq, hq'⟩ := hfile m (hmp m (hmem m hm))
              exact ⟨q, by rw [hfd.par]; exact hq, by omega⟩ }
      · refine ⟨by rw [e1]; exact c1, ?_, fun m hm => ?_⟩
        · rw [e2, c3]
          intro hnil
          have : f ∈ C.filter (fun d => decide (d ≠ best)) := by simp [hfC, hfb]
          rw [hnil] at this
          cases this
        · obtain ⟨h1, h2⟩ := hsubs m hm
          obtain ⟨k1, k2, k3⟩ := hkeep m (hmlt m h1) (hmp m h1)
          rw [k1, k3]
          exact ⟨(c4 m h1 h2).1, (c4 m h1 h2).2.1⟩
    · simp at hst

theorem map_some_filterMap {α : Type} : ∀ (l : List (Option α)),
    (∀ s ∈ l, ∃ t, s = some t) → (l.filterMap id).map some = l
  | [], _ => rfl
  | x :: l, h => by
    obtain ⟨t, rfl⟩ := h x (by simp)
    simp only [List.filterMap_cons, id, List.map_cons]
    rw [map_some_filterMap l (fun s hs => h s (by simp [hs]))]

/-- Shape of the plan of two scanned trees, when Phase B meets no hierarchy of Phase A at a
path collision and passes every member of a content class: the plan exists, Phase B follows
the reference planner, and Phase C appends the steps of the hierarchies in `sups`, each a flat
hierarchy, in order. -/
theorem plan_shape (fuel : Nat) (path1 path2 pathout : String) (in1 in2 : List Entry)
    (hok1 : namesOKList in1) (hok2 : namesOKList in2)
    (hf1 : depthList in1 < fuel) (hf2 : depthList in2 < fuel) (hfuel : 2 ≤ fuel) (hA : Heap)
    (hpA : scanPhaseA path1 path2 in1 in2 = some hA)
    (hok : ∀ ev ∈ planEvs hA path1 path2 pathout in1 in2, ev.OK hA)
    (hE : ∀ m, ¬ Pristine (hA m) →
      ∃ d src out, Ev.sub m d src out ∈ planEvs hA path1 path2 pathout in1 in2) :
    ∃ (stB : Planner) (tops : List Nat) (t : FsTree),
      unidupe fuel path1 path2 pathout in1 in2 = some t ∧
      Sim hA ((1 + spanList in1) + (1 + spanList in2))
        (afterA hA ((1 + spanList in1) + (1 + spanList in2))) stB
        (planEvs hA path1 path2 pathout in1 in2)
        (1 + (bothNewList in1 in2 + aloneNewList in2 (in1.map Entry.name))) ∧
      stB.sups = tops.map some ∧ tops.Nodup ∧
      (∀ u ∈ tops, Ripe stB.heap stB.next u ∧ Tied stB.heap u) ∧
      t.root = (1 + spanList in1) + (1 + spanList in2) ∧
      t.state.editSteps = (planEvs hA path1 path2 pathout in1 in2).flatMap Ev.steps ++
        histStepsAll stB.heap stB.next (tops.map (fun u => hierOf stB.heap u)) ∧
      t.state.next = stB.next + tops.length ∧
      (∀ a, a < stB.next → (t.state.heap a).name = (stB.heap a).name ∧
        (t.state.heap a).path = (stB.heap a).path ∧
        (t.state.heap a).type = (stB.heap a).type) ∧
      (∀ a, a < stB.next → (∀ u ∈ tops, a ∉ hierOf stB.heap u) →
        (t.state.heap a).isSub = (stB.heap a).isSub ∧
        (t.state.heap a).subordinates = (stB.heap a).subordinates ∧
        (t.state.heap a).topSup = (stB.heap a).topSup ∧
        (t.state.heap a).dstParent = (stB.heap a).dstParent) ∧
      planAB fuel (scanBoth path1 path2 in1 in2).1.heap (scanBoth path1 path2 in1 in2).1.next 0
          (1 + spanList in1) pathout (scanBoth path1 path2 in1 in2).1.fileStore =
        some { state := stB, root := (1 + spanList in1) + (1 + spanList in2) } ∧
      phaseC fuel stB.sups stB = some t.state := by
  obtain ⟨stB, hAB, hsim⟩ :=
    planAB_sim fuel path1 path2 pathout in1 in2 hok1 hok2 hf1 hf2 hA hpA hok
  have hripe := sups_ripe path1 path2 pathout in1 in2 hok1 hok2 hA hpA stB _ hsim hok hE
  have hsups : (stB.sups.filterMap id).map some = stB.sups :=
    map_some_filterMap _ (fun s hs => by
      obtain ⟨t, ht, -⟩ := hripe s hs
      exact ⟨t, ht⟩)
  have hsnd : stB.sups.Nodup := by
    rw [hsim.sups]
    exact nodup_foldl_setInsert _ _ (by simp [afterA])
  have htnd : (stB.sups.filterMap id).Nodup := by
    rw [← hsups] at hsnd
    exact List.Nodup.of_map _ hsnd
  have htop : ∀ u ∈ stB.sups.filterMap id, Ripe stB.heap stB.next u ∧ Tied stB.heap u := by
    intro u hu
    have : some u ∈ stB.sups := by
      rw [← hsups]
      exact List.mem_map_of_mem _ hu
    obtain ⟨t, ht, h1, h2⟩ := hripe _ this
    simp only [Option.some.injEq] at ht
    subst ht
    exact ⟨h1, h2⟩
  obtain ⟨fuel', rfl⟩ : ∃ f, fuel = f + 2 := ⟨fuel - 2, by omega⟩
  obtain ⟨st', hC, hsteps, hnext, hkeep, hframe⟩ :=
    phaseC_hiers fuel' stB.next stB.heap (stB.sups.filterMap id) stB (Nat.le_refl _)
      (fun u hu => (htop u hu).1)
      (List.Pairwise.imp_of_mem (fun {a b} ha hb hab =>
        Tied.disjoint (htop a ha).2 (htop b hb).2 hab) htnd)
      (fun a _ => ⟨rfl, rfl, rfl, rfl, rfl, rfl⟩) (fun u _ m _ => ⟨rfl, rfl⟩)
  rw [hsups] at hC
  refine ⟨stB, stB.sups.filterMap id, { state := st', root := _ }, ?_, hsim, hsups.symm, htnd,
    htop, rfl, ?_, hnext, hkeep, hframe, hAB, hC⟩
  · obtain ⟨p1, p2, -⟩ := scanBoth_pair path1 path2 in1 in2 hok1 hok2
    unfold unidupe
    rcases hs : scanBoth path1 path2 in1 in2 with ⟨sc, r1, r2⟩
    rw [hs] at hAB p1 p2
    simp only at hAB p1 p2 ⊢
    subst p1 p2
    simp only [plan, hAB, hC]
  · rw [hsteps, hsim.steps]
    simp [afterA]

/-! ## Trees without content duplicates -/

/-- Phase A returns on two scanned trees. -/
theorem scanPhaseA_total (path1 path2 : String) (in1 in2 : List Entry)
    (hok1 : namesOKList in1) (hok2 : namesOKList in2) :
    ∃ hA, scanPhaseA path1 path2 in1 in2 = some hA := by
  obtain ⟨-, -, -, p4, -, -, p7, p8⟩ := scanBoth_pair path1 path2 in1 in2 hok1 hok2
  simp only [scanPhaseA]
  rcases hs : scanBoth path1 path2 in1 in2 with ⟨sc, r1, r2⟩
  rw [hs] at p4 p7 p8
  simp only at p4 p7 p8 ⊢
  refine phaseA_total sc.fileStore sc.fileStore [] sc.heap (fun kc hkc => ?_)
  rw [p4] at hkc
  rcases List.mem_append.mp hkc with h | h
  · obtain ⟨h1, h2⟩ := storeList_bounds in1 1 kc h
    obtain ⟨q, hq, -⟩ := repList_parent sc.heap in1 1 0 path1 p7 (by omega) kc.2 h1 h2
    exact ⟨q, hq⟩
  · obtain ⟨h1, h2⟩ := storeList_bounds in2 _ kc h
    obtain ⟨q, hq, -⟩ := repList_parent sc.heap in2 _ _ path2 p8 (by omega) kc.2 h1 h2
    exact ⟨q, hq⟩

theorem scan_keys (path1 path2 : String) (in1 in2 : List Entry)
    (hok1 : namesOKList in1) (hok2 : namesOKList in2) :
    (scanBoth path1 path2 in1 in2).1.fileStore.map Prod.fst = keysList in1 ++ keysList in2 := by
  obtain ⟨-, -, -, p4, -⟩ := scanBoth_pair path1 path2 in1 in2 hok1 hok2
  rw [p4, List.map_append, storeList_keys, storeList_keys]

/-- When no two files share a key of the content index, Phase A touches no node. -/
theorem all_pristine (path1 path2 : String) (in1 in2 : List Entry)
    (hok1 : namesOKList in1) (hok2 : namesOKList in2)
    (hkeys : (keysList in1 ++ keysList in2).Nodup) (hA : Heap)
    (hpA : scanPhaseA path1 path2 in1 in2 = some hA) (a : Nat) : Pristine (hA a) := by
  by_contra hp
  obtain ⟨fhash, ⟨i1, i2, i3⟩, hall, hnd⟩ := scanPhaseA_inv path1 path2 in1 in2 hA hpA
  have hk := scan_keys path1 path2 in1 in2 hok1 hok2
  by_cases hk' : ∀ k, (k, a) ∈ (scanBoth path1 path2 in1 in2).1.fileStore → k ∉ fhash
  · exact hp (i1 a hk')
  · push_neg at hk'
    obtain ⟨k, hka, hkh⟩ := hk'
    have hfm := (mem_equalRange _ k a).mpr hka
    refine hp (i2 k hkh ?_ a hfm)
    unfold equalRange
    rw [filter_key_unique _ k a (by rw [hk]; exact hkeys) hka]
    simp

theorem single_of_pristine {hA : Heap} {f : Nat} (h : Pristine (hA f)) : single hA f = true := by
  simp [single, h.1, h.2.1]

/-! ## Disjoint trees -/

/-- When Phase B meets no path collision and no member of a content class, the plan is the
list of the steps of the reference planner. -/
theorem plan_flat (fuel : Nat) (path1 path2 pathout : String) (in1 in2 : List Entry)
    (hok1 : namesOKList in1) (hok2 : namesOKList in2)
    (hf1 : depthList in1 < fuel) (hf2 : depthList in2 < fuel) (hfuel : 2 ≤ fuel) (hA : Heap)
    (hpA : scanPhaseA path1 path2 in1 in2 = some hA) (hpr : ∀ a, Pristine (hA a))
    (hnp : ∀ ev ∈ planEvs hA path1 path2 pathout in1 in2, ev.tops hA = []) :
    ∃ t, unidupe fuel path1 path2 pathout in1 in2 = some t ∧
      t.state.editSteps = (planEvs hA path1 path2 pathout in1 in2).flatMap Ev.steps := by
  obtain ⟨stB, tops, t, h1, h2, h3, -, -, -, h7, -⟩ :=
    plan_shape fuel path1 path2 pathout in1 in2 hok1 hok2 hf1 hf2 hfuel hA hpA
      (fun ev _ => by
        cases ev <;> simp only [Ev.OK]
        exact ⟨hpr _, hpr _⟩)
      (fun m hm => absurd (hpr m) hm)
  have hs : stB.sups = [] := by
    rw [h2.sups]
    have : (planEvs hA path1 path2 pathout in1 in2).flatMap (Ev.tops hA) = [] := by
      rw [List.flatMap_eq_nil_iff]
      exact hnp
    rw [this]
    rfl
  have ht : tops = [] := by
    rw [hs] at h3
    cases tops with
    | nil => rfl
    | cons x xs => simp at h3
  refine ⟨t, h1, ?_⟩
  rw [h7, ht]
  simp [histStepsAll]

/-- C21 (as stated, refuted): for `in1 = {a/x}` and `in2 = {b/y}` the queue is not the sequence
`mkdir out`, `mkdir out/a`, `mkdir out/b`, `cp in1/a/x out/a`, `cp in2/b/y out/b`: the planner
queues the `Copy` of `x` before the `Mkdir` of `out/b`. -/
theorem disjoint_trees_not_breadth_first :
    (unidupe 3 "in1" "in2" "out" disjointIn1 disjointIn2).map
        (fun t => t.state.editSteps.map EditStep.com) ≠
      some [["mkdir", "out"], ["mkdir", "out/a"], ["mkdir", "out/b"],
        ["cp", "--backup=numbered", "in1/a/x", "out/a"],
        ["cp", "--backup=numbered", "in2/b/y", "out/b"]] := by
  decide

/-- **C21** (amended). For `in1 = {a/x}` and `in2 = {b/y}` whose files have different keys in
the content index, whatever their other attributes, the planner returns, and its queue is
exactly the sequence `mkdir out`, `mkdir out/a`, `cp in1/a/x out/a`, `mkdir out/b`,
`cp in2/b/y out/b`: each directory is followed by its content (depth first). -/
theorem disjoint_trees_plan (fuel : Nat) (path1 path2 pathout : String)
    (sa sb sx sy : Nat) (ta tb tx ty : Timespec) (rx ry : Bool) (dx dy : List Nat)
    (hfuel : 2 ≤ fuel) (hne : hashKey dx ≠ hashKey dy) :
    ∃ t, unidupe fuel path1 path2 pathout [.dir "a" sa ta [.file "x" rx sx tx dx]]
        [.dir "b" sb tb [.file "y" ry sy ty dy]] = some t ∧
      t.state.editSteps.map EditStep.com =
        [["mkdir", pathout], ["mkdir", pathout ++ "/" ++ "a"],
          ["cp", "--backup=numbered", path1 ++ "/" ++ "a" ++ "/" ++ "x", pathout ++ "/" ++ "a"],
          ["mkdir", pathout ++ "/" ++ "b"],
          ["cp", "--backup=numbered", path2 ++ "/" ++ "b" ++ "/" ++ "y",
            pathout ++ "/" ++ "b"]] := by
  have hok1 : namesOKList [Entry.dir "a" sa ta [.file "x" rx sx tx dx]] := by
    simp [namesOKList, Entry.namesOK]
  have hok2 : namesOKList [Entry.dir "b" sb tb [.file "y" ry sy ty dy]] := by
    simp [namesOKList, Entry.namesOK]
  obtain ⟨hA, hpA⟩ := scanPhaseA_total path1 path2 _ _ hok1 hok2
  have hpr := all_pristine path1 path2 _ _ hok1 hok2
    (by simp [keysList, Entry.keys, hne]) hA hpA
  have hs : ∀ f, single hA f = true := fun f => single_of_pristine (hpr f)
  have hevs : planEvs hA path1 path2 pathout [.dir "a" sa ta [.file "x" rx sx tx dx]]
      [.dir "b" sb tb [.file "y" ry sy ty dy]] =
      [.mk 6 pathout, .mk 7 (pathout ++ "/" ++ "a"),
        .cp 2 7 (path1 ++ "/" ++ "a" ++ "/" ++ "x") (pathout ++ "/" ++ "a"),
        .mk 8 (pathout ++ "/" ++ "b"),
        .cp 5 8 (path2 ++ "/" ++ "b" ++ "/" ++ "y") (pathout ++ "/" ++ "b")] := by
    simp [planEvs, bothEvsList, Entry.bothEvs, aloneEvsList, Entry.aloneEvs, findAt,
      Entry.name, Entry.span, spanList, Entry.bothNew, bothNewList, numDirsList,
      Entry.numDirs, fileEv, hs]
  obtain ⟨t, h1, h2⟩ := plan_flat fuel path1 path2 pathout _ _ hok1 hok2
    (by simp [depthList, Entry.depth]; omega) (by simp [depthList, Entry.depth]; omega) hfuel
    hA hpA hpr (by
      rw [hevs]
      intro ev hev
      simp only [List.mem_cons, List.mem_singleton, List.not_mem_nil, or_false] at hev
      rcases hev with rfl | rfl | rfl | rfl | rfl <;> rfl)
  refine ⟨t, h1, ?_⟩
  rw [h2, hevs]
  rfl

theorem disjoint_trees_plan_witness :
    2 ≤ 2 ∧ hashKey (digestOf 1) ≠ hashKey (digestOf 2) ∧
    ∃ t, unidupe 2 "in1" "in2" "out" [.dir "a" 0 ⟨0, 0⟩ [.file "x" true 0 ⟨1, 0⟩ (digestOf 1)]]
        [.dir "b" 0 ⟨0, 0⟩ [.file "y" true 0 ⟨2, 0⟩ (digestOf 2)]] = some t ∧
      t.state.editSteps.map EditStep.com =
        [["mkdir", "out"], ["mkdir", "out" ++ "/" ++ "a"],
          ["cp", "--backup=numbered", "in1" ++ "/" ++ "a" ++ "/" ++ "x", "out" ++ "/" ++ "a"],
          ["mkdir", "out" ++ "/" ++ "b"],
          ["cp", "--backup=numbered", "in2" ++ "/" ++ "b" ++ "/" ++ "y",
            "out" ++ "/" ++ "b"]] :=
  ⟨by decide, by decide,
    disjoint_trees_plan 2 "in1" "in2" "out" 0 0 0 0 ⟨0, 0⟩ ⟨0, 0⟩ ⟨1, 0⟩ ⟨2, 0⟩ true true
      (digestOf 1) (digestOf 2) (by decide) (by decide)⟩

/-! ## The plan of two trees without duplicates: its commands -/

theorem joinPath_snoc (root : String) (r : List String) (n : String) :
    joinPath root (r ++ [n]) = joinPath root r ++ "/" ++ n := by
  simp [joinPath, List.foldl_append]

theorem findAt_entry : ∀ (es : List Entry) (b : Nat) (n : String),
    (findAt es b n).map Prod.fst = findEntry es n
  | [], b, n => rfl
  | e :: es, b, n => by
    simp only [findAt, findEntry, List.find?]
    by_cases h : e.name = n
    · simp [h]
    · have : (e.name == n) = false := by simpa using h
      simp only [h, if_false, this]
      exact findAt_entry es (b + e.span) n

theorem findAt_entry_none {es : List Entry} {b : Nat} {n : String}
    (h : findAt es b n = none) : findEntry es n = none := by
  rw [← findAt_entry es b n, h]
  rfl

theorem findAt_entry_some {es : List Entry} {b : Nat} {n : String} {e : Entry} {a : Nat}
    (h : findAt es b n = some (e, a)) : findEntry es n = some e := by
  rw [← findAt_entry es b n, h]
  rfl

theorem fileEv_single {hA : Heap} (hs : ∀ f, single hA f = true) (f d : Nat)
    (src out : String) : fileEv hA f d src out = .cp f d src out := by
  simp [fileEv, hs]

mutual
theorem Entry.aloneEvs_cmds {hA : Heap} (hs : ∀ f, single hA f = true)
    (path1 path2 pathout : String) (second : Bool) :
    ∀ (e : Entry) (b d nx : Nat) (r : List String),
    ((e.aloneEvs hA b d nx (joinPath (if second then path2 else path1) r)
        (joinPath pathout r)).flatMap Ev.steps).map EditStep.com =
      (e.aloneItems second r).map (Item.cmd path1 path2 pathout)
  | .file name regular size ctime digest, b, d, nx, r => by
    simp [Entry.aloneEvs, fileEv_single hs, Ev.steps, cpAt, Entry.aloneItems, Item.cmd]
  | .dir name size ctime es, b, d, nx, r => by
    simp only [Entry.aloneEvs, Entry.aloneItems, List.flatMap_cons, List.map_append,
      List.map_cons, Ev.steps, mkdirAt, Item.cmd, List.map_nil, List.singleton_append,
      List.cons.injEq]
    refine ⟨by simp [joinPath_snoc], ?_⟩
    rw [← joinPath_snoc, ← joinPath_snoc]
    exact aloneEvsList_cmds hs path1 path2 pathout second es [] (b + 1) nx (nx + 1)
      (r ++ [name])
theorem aloneEvsList_cmds {hA : Heap} (hs : ∀ f, single hA f = true)
    (path1 path2 pathout : String) (second : Bool) :
    ∀ (es : List Entry) (skip : List String) (b d nx : Nat) (r : List String),
    ((aloneEvsList hA es skip b d nx (joinPath (if second then path2 else path1) r)
        (joinPath pathout r)).flatMap Ev.steps).map EditStep.com =
      (aloneItemsList second es skip r).map (Item.cmd path1 path2 pathout)
  | [], skip, b, d, nx, r => by
    simp [aloneEvsList, aloneItemsList]
  | e :: es, skip, b, d, nx, r => by
    simp only [aloneEvsList, aloneItemsList]
    by_cases hsk : e.name ∈ skip
    · simp only [hsk, if_true]
      exact aloneEvsList_cmds hs path1 path2 pathout second es skip _ d nx r
    · simp only [hsk, if_false, List.flatMap_append, List.map_append]
      rw [Entry.aloneEvs_cmds hs path1 path2 pathout second e b d nx r,
        aloneEvsList_cmds hs path1 path2 pathout second es skip _ d _ r]
end

mutual
theorem Entry.bothEvs_cmds {hA : Heap} (hs : ∀ f, single hA f = true)
    (path1 path2 pathout : String) :
    ∀ (e : Entry) (es2 : List Entry) (b2 b d nx : Nat) (r : List String),
    ((e.bothEvs hA es2 b2 b d nx (joinPath path1 r) (joinPath path2 r)
        (joinPath pathout r)).flatMap Ev.steps).map EditStep.com =
      (e.bothItems es2 r).map (Item.cmd path1 path2 pathout)
  | .file name regular size ctime digest, es2, b2, b, d, nx, r => by
    simp only [Entry.bothEvs, Entry.bothItems]
    cases hfind : findAt es2 b2 name with
    | none =>
      simp [findAt_entry_none hfind, fileEv_single hs, Ev.steps, cpAt, Item.cmd]
    | some x =>
      obtain ⟨e2, a2⟩ := x
      simp [findAt_entry_some hfind, Ev.steps]
  | .dir name size ctime es, es2, b2, b, d, nx, r => by
    simp only [Entry.bothEvs, Entry.bothItems]
    have ha := Entry.aloneEvs_cmds hs path1 path2 pathout false
    simp only [Bool.false_eq_true, if_false] at ha
    cases hfind : findAt es2 b2 name with
    | none =>
      simp only [findAt_entry_none hfind, List.flatMap_cons, List.map_append,
        List.map_cons, Ev.steps, mkdirAt, Item.cmd, List.map_nil, List.singleton_append,
        List.cons.injEq]
      refine ⟨by simp [joinPath_snoc], ?_⟩
      rw [← joinPath_snoc, ← joinPath_snoc]
      have := aloneEvsList_cmds hs path1 path2 pathout false es [] (b + 1) nx (nx + 1)
        (r ++ [name])
      simp only [Bool.false_eq_true, if_false] at this
      exact this
    | some x =>
      obtain ⟨e2, a2⟩ := x
      cases e2 with
      | dir name2 size2 ctime2 es' =>
        simp only [findAt_entry_some hfind, List.flatMap_cons, List.map_append,
          List.map_cons, Ev.steps, mkdirAt, Item.cmd, List.map_nil, List.singleton_append,
          List.cons.injEq, List.flatMap_append]
        refine ⟨by simp [joinPath_snoc], ?_⟩
        rw [← joinPath_snoc, ← joinPath_snoc, ← joinPath_snoc]
        have h2 := aloneEvsList_cmds hs path1 path2 pathout true es' (es.map Entry.name)
          (a2 + 1) b (nx + bothNewList es es') (r ++ [name])
        simp only [if_true] at h2
        rw [bothEvsList_cmds hs path1 path2 pathout es es' (a2 + 1) (b + 1) b nx (r ++ [name]),
          h2]
      | file name2 regular2 size2 ctime2 digest2 =>
        simp only [findAt_entry_some hfind, List.flatMap_cons, List.map_append,
          List.map_cons, Ev.steps, mkdirAt, Item.cmd, List.map_nil, List.singleton_append,
          List.cons.injEq]
        refine ⟨by simp [joinPath_snoc], ?_⟩
        rw [← joinPath_snoc, ← joinPath_snoc, ← joinPath_snoc]
        exact bothEvsList_cmds hs path1 path2 pathout es [] (a2 + 1) (b + 1) b nx (r ++ [name])
theorem bothEvsList_cmds {hA : Heap} (hs : ∀ f, single hA f = true)
    (path1 path2 pathout : String) :
    ∀ (es es2 : List Entry) (b2 b d nx : Nat) (r : List String),
    ((bothEvsList hA es es2 b2 b d nx (joinPath path1 r) (joinPath path2 r)
        (joinPath pathout r)).flatMap Ev.steps).map EditStep.com =
      (bothItemsList es es2 r).map (Item.cmd path1 path2 pathout)
  | [], es2, b2, b, d, nx, r => by
    simp [bothEvsList, bothItemsList]
  | e :: es, es2, b2, b, d, nx, r => by
    simp only [bothEvsList, bothItemsList, List.flatMap_append, List.map_append]
    rw [Entry.bothEvs_cmds hs path1 path2 pathout e es2 b2 b d nx r,
      bothEvsList_cmds hs path1 path2 pathout es es2 b2 _ d _ r]
end

/-- When every file is copied in Phase B, the commands of the reference planner are those of
the items of the union, in order. -/
theorem planEvs_cmds {hA : Heap} (hs : ∀ f, single hA f = true)
    (path1 path2 pathout : String) (in1 in2 : List Entry) :
    ((planEvs hA path1 path2 pathout in1 in2).flatMap Ev.steps).map EditStep.com =
      (unionItems in1 in2).map (Item.cmd path1 path2 pathout) := by
  have h1 := bothEvsList_cmds hs path1 path2 pathout in1 in2 (1 + (1 + spanList in1)) 1
    ((1 + spanList in1) + (1 + spanList in2)) ((1 + spanList in1) + (1 + spanList in2) + 1) []
  have h2 := aloneEvsList_cmds hs path1 path2 pathout true in2 (in1.map Entry.name)
    (1 + (1 + spanList in1)) ((1 + spanList in1) + (1 + spanList in2))
    ((1 + spanList in1) + (1 + spanList in2) + 1 + bothNewList in1 in2) []
  simp only [joinPath, List.foldl_nil, if_true] at h1 h2
  simp only [planEvs, unionItems, List.flatMap_cons, List.flatMap_append, List.map_append,
    List.map_cons, h1, h2]
  simp [Ev.steps, mkdirAt, Item.cmd, joinPath]

/-! ## The plan of two trees without duplicates: its items -/

theorem prefix_conflict {r k : List String} {a b : String}
    (h1 : (r ++ [a]) <+: k) (h2 : (r ++ [b]) <+: k) : a = b := by
  obtain ⟨t1, e1⟩ := h1
  obtain ⟨t2, e2⟩ := h2
  rw [← e2] at e1
  simp only [List.append_assoc, List.singleton_append] at e1
  have := List.append_cancel_left e1
  simp only [List.cons.injEq] at this
  exact this.1

theorem prefix_longer {r k : List String} {a : String} (h : (r ++ [a]) <+: k) : k ≠ r := by
  intro e
  have := h.length_le
  rw [e] at this
  simp at this

theorem prefix_step {r k : List String} {a : String} (h : (r ++ [a]) <+: k) : r <+: k :=
  (List.prefix_append r [a]).trans h

theorem findEntry_mem {es : List Entry} {n : String} {e : Entry}
    (h : findEntry es n = some e) : e ∈ es ∧ e.name = n := by
  unfold findEntry at h
  exact ⟨List.mem_of_find?_eq_some h, by simpa using List.find?_some h⟩

theorem findEntry_of_mem : ∀ {es : List Entry} {e : Entry}, namesOKList es → e ∈ es →
    findEntry es e.name = some e
  | x :: es, e, hn, hm => by
    simp only [namesOKList] at hn
    simp only [findEntry, List.find?]
    rcases List.mem_cons.mp hm with rfl | hm
    · simp
    · have hne : ¬ x.name = e.name := fun c => hn.1 (c ▸ List.mem_map_of_mem _ hm)
      have : (x.name == e.name) = false := by simpa using hne
      rw [this]
      exact findEntry_of_mem hn.2.2 hm

theorem findEntry_none_iff {es : List Entry} {n : String} :
    findEntry es n = none ↔ n ∉ es.map Entry.name := by
  unfold findEntry
  simp only [List.find?_eq_none, beq_iff_eq, List.mem_map, not_exists, not_and]

mutual
theorem Entry.aloneItems_key (second : Bool) : ∀ (e : Entry) (r : List String),
    ∀ x ∈ e.aloneItems second r, (r ++ [e.name]) <+: x.key
  | .file name regular size ctime digest, r => by
    intro x hx
    simp only [Entry.aloneItems, List.mem_singleton] at hx
    subst hx
    exact List.prefix_refl _
  | .dir name size ctime es, r => by
    intro x hx
    simp only [Entry.aloneItems, List.mem_cons] at hx
    simp only [Entry.name]
    rcases hx with rfl | hx
    · exact List.prefix_refl _
    · obtain ⟨n, -, -, hn⟩ := aloneItemsList_key second es [] (r ++ [name]) x hx
      exact prefix_step hn
theorem aloneItemsList_key (second : Bool) : ∀ (es : List Entry) (skip r : List String),
    ∀ x ∈ aloneItemsList second es skip r,
      ∃ n, n ∈ es.map Entry.name ∧ n ∉ skip ∧ (r ++ [n]) <+: x.key
  | [], skip, r => by
    intro x hx
    simp [aloneItemsList] at hx
  | e :: es, skip, r => by
    intro x hx
    simp only [aloneItemsList] at hx
    by_cases hsk : e.name ∈ skip
    · simp only [hsk, if_true] at hx
      obtain ⟨n, h1, h2, h3⟩ := aloneItemsList_key second es skip r x hx
      exact ⟨n, by simp [List.mem_map] at h1 ⊢; exact Or.inr h1, h2, h3⟩
    · simp only [hsk, if_false, List.mem_append] at hx
      rcases hx with hx | hx
      · exact ⟨e.name, by simp, hsk, Entry.aloneItems_key second e r x hx⟩
      · obtain ⟨n, h1, h2, h3⟩ := aloneItemsList_key second es skip r x hx
        exact ⟨n, by simp [List.mem_map] at h1 ⊢; exact Or.inr h1, h2, h3⟩
end

mutual
theorem Entry.bothItems_key : ∀ (e : Entry) (es2 : List Entry) (r : List String),
    ∀ x ∈ e.bothItems es2 r, (r ++ [e.name]) <+: x.key
  | .file name regular size ctime digest, es2, r => by
    intro x hx
    simp only [Entry.bothItems] at hx
    cases hf : findEntry es2 name with
    | none =>
      rw [hf] at hx
      simp only [List.mem_singleton] at hx
      subst hx
      exact List.prefix_refl _
    | some e2 =>
      rw [hf] at hx
      simp at hx
  | .dir name size ctime es, es2, r => by
    intro x hx
    simp only [Entry.bothItems] at hx
    simp only [Entry.name]
    cases hf : findEntry es2 name with
    | none =>
      rw [hf] at hx
      simp only [List.mem_cons] at hx
      rcases hx with rfl | hx
      · exact List.prefix_refl _
      · obtain ⟨n, -, -, hn⟩ := aloneItemsList_key false es [] (r ++ [name]) x hx
        exact prefix_step hn
    | some e2 =>
      rw [hf] at hx
      cases e2 with
      | dir name2 size2 ctime2 es' =>
        simp only [List.mem_cons, List.mem_append] at hx
        rcases hx with rfl | hx | hx
        · exact List.prefix_refl _
        · obtain ⟨n, -, hn⟩ := bothItemsList_key es es' (r ++ [name]) x hx
          exact prefix_step hn
        · obtain ⟨n, -, -, hn⟩ := aloneItemsList_key true es' _ (r ++ [name]) x hx
          exact prefix_step hn
      | file name2 regular2 size2 ctime2 digest2 =>
        simp only [List.mem_cons] at hx
        rcases hx with rfl | hx
        · exact List.prefix_refl _
        · obtain ⟨n, -, hn⟩ := bothItemsList_key es [] (r ++ [name]) x hx
          exact prefix_step hn
theorem bothItemsList_key : ∀ (es es2 : List Entry) (r : List String),
    ∀ x ∈ bothItemsList es es2 r, ∃ n, n ∈ es.map Entry.name ∧ (r ++ [n]) <+: x.key
  | [], es2, r => by
    intro x hx
    simp [bothItemsList] at hx
  | e :: es, es2, r => by
    intro x hx
    simp only [bothItemsList, List.mem_append] at hx
    rcases hx with hx | hx
    · exact ⟨e.name, by simp, Entry.bothItems_key e es2 r x hx⟩
    · obtain ⟨n, h1, h3⟩ := bothItemsList_key es es2 r x hx
      exact ⟨n, by simp [List.mem_map] at h1 ⊢; exact Or.inr h1, h3⟩
end

mutual
theorem Entry.aloneItems_nodup (second : Bool) : ∀ (e : Entry) (r : List String),
    e.namesOK → (e.aloneItems second r).Nodup
  | .file name regular size ctime digest, r => by
    intro _
    simp [Entry.aloneItems]
  | .dir name size ctime es, r => by
    intro hn
    simp only [Entry.namesOK] at hn
    simp only [Entry.aloneItems, List.nodup_cons]
    refine ⟨fun hx => ?_, aloneItemsList_nodup second es [] (r ++ [name]) hn⟩
    obtain ⟨n, -, -, h⟩ := aloneItemsList_key second es [] (r ++ [name]) _ hx
    exact prefix_longer h rfl
theorem aloneItemsList_nodup (second : Bool) : ∀ (es : List Entry) (skip r : List String),
    namesOKList es → (aloneItemsList second es skip r).Nodup
  | [], skip, r => by
    intro _
    simp [aloneItemsList]
  | e :: es, skip, r => by
    intro hn
    simp only [namesOKList] at hn
    simp only [aloneItemsList]
    by_cases hsk : e.name ∈ skip
    · simp only [hsk, if_true]
      exact aloneItemsList_nodup second es skip r hn.2.2
    · simp only [hsk, if_false]
      rw [List.nodup_append]
      refine ⟨Entry.aloneItems_nodup second e r hn.2.1,
        aloneItemsList_nodup second es skip r hn.2.2, ?_⟩
      intro x hx hy
      have h1 := Entry.aloneItems_key second e r x hx
      obtain ⟨n, h2, -, h3⟩ := aloneItemsList_key second es skip r x hy
      exact hn.1 (prefix_conflict h1 h3 ▸ h2)
end

mutual
theorem Entry.bothItems_nodup : ∀ (e : Entry) (es2 : List Entry) (r : List String),
    e.namesOK → namesOKList es2 → (e.bothItems es2 r).Nodup
  | .file name regular size ctime digest, es2, r => by
    intro _ _
    simp only [Entry.bothItems]
    cases findEntry es2 name <;> simp
  | .dir name size ctime es, es2, r => by
    intro hn hn2
    simp only [Entry.namesOK] at hn
    simp only [Entry.bothItems]
    cases hf : findEntry es2 name with
    | none =>
      simp only [List.nodup_cons]
      refine ⟨fun hx => ?_, aloneItemsList_nodup false es [] (r ++ [name]) hn⟩
      obtain ⟨n, -, -, h⟩ := aloneItemsList_key false es [] (r ++ [name]) _ hx
      exact prefix_longer h rfl
    | some e2 =>
      have hn2' : e2.namesOK := namesOK_of_mem hn2 (findEntry_mem hf).1
      cases e2 with
      | dir name2 size2 ctime2 es' =>
        simp only [Entry.namesOK] at hn2'
        simp only [List.nodup_cons, List.mem_append, not_or]
        refine ⟨⟨fun hx => ?_, fun hx => ?_⟩, ?_⟩
        · obtain ⟨n, -, h⟩ := bothItemsList_key es es' (r ++ [name]) _ hx
          exact prefix_longer h rfl
        · obtain ⟨n, -, -, h⟩ := aloneItemsList_key true es' _ (r ++ [name]) _ hx
          exact prefix_longer h rfl
        · rw [List.nodup_append]
          refine ⟨bothItemsList_nodup es es' (r ++ [name]) hn hn2',
            aloneItemsList_nodup true es' _ (r ++ [name]) hn2', ?_⟩
          intro x hx hy
          obtain ⟨n1, h1, h1'⟩ := bothItemsList_key es es' (r ++ [name]) x hx
          obtain ⟨n2, -, h2, h2'⟩ := aloneItemsList_key true es' _ (r ++ [name]) x hy
          exact h2 (prefix_conflict h1' h2' ▸ h1)
      | file name2 regular2 size2 ctime2 digest2 =>
        simp only [List.nodup_cons]
        refine ⟨fun hx => ?_, bothItemsList_nodup es [] (r ++ [name]) hn trivial⟩
        obtain ⟨n, -, h⟩ := bothItemsList_key es [] (r ++ [name]) _ hx
        exact prefix_longer h rfl
theorem bothItemsList_nodup : ∀ (es es2 : List Entry) (r : List String),
    namesOKList es → namesOKList es2 → (bothItemsList es es2 r).Nodup
  | [], es2, r => by
    intro _ _
    simp [bothItemsList]
  | e :: es, es2, r => by
    intro hn hn2
    simp only [namesOKList] at hn
    simp only [bothItemsList]
    rw [List.nodup_append]
    refine ⟨Entry.bothItems_nodup e es2 r hn.2.1 hn2, bothItemsList_nodup es es2 r hn.2.2 hn2,
      ?_⟩
    intro x hx hy
    have h1 := Entry.bothItems_key e es2 r x hx
    obtain ⟨n, h2, h3⟩ := bothItemsList_key es es2 r x hy
    exact hn.1 (prefix_conflict h1 h3 ▸ h2)
end

/-- The items of the union are pairwise different. -/
theorem unionItems_nodup (in1 in2 : List Entry) (hok1 : namesOKList in1)
    (hok2 : namesOKList in2) : (unionItems in1 in2).Nodup := by
  simp only [unionItems, List.nodup_cons, List.mem_append, not_or]
  refine ⟨⟨fun hx => ?_, fun hx => ?_⟩, ?_⟩
  · obtain ⟨n, -, h⟩ := bothItemsList_key in1 in2 [] _ hx
    exact prefix_longer h rfl
  · obtain ⟨n, -, -, h⟩ := aloneItemsList_key true in2 _ [] _ hx
    exact prefix_longer h rfl
  · rw [List.nodup_append]
    refine ⟨bothItemsList_nodup in1 in2 [] hok1 hok2,
      aloneItemsList_nodup true in2 _ [] hok2, ?_⟩
    intro x hx hy
    obtain ⟨n1, h1, h1'⟩ := bothItemsList_key in1 in2 [] x hx
    obtain ⟨n2, -, h2, h2'⟩ := aloneItemsList_key true in2 _ [] x hy
    exact h2 (prefix_conflict h1' h2' ▸ h1)

theorem mem_relDirsList : ∀ (es : List Entry) (r q : List String),
    q ∈ relDirsList es r ↔ ∃ e ∈ es, q ∈ e.relDirs r
  | [], r, q => by simp [relDirsList]
  | e :: es, r, q => by
    simp only [relDirsList, List.mem_append, mem_relDirsList es r q, List.mem_cons,
      exists_eq_or_imp]

theorem mem_relFilesList : ∀ (es : List Entry) (r : List String) (x : List String × String),
    x ∈ relFilesList es r ↔ ∃ e ∈ es, x ∈ e.relFiles r
  | [], r, x => by simp [relFilesList]
  | e :: es, r, x => by
    simp only [relFilesList, List.mem_append, mem_relFilesList es r x, List.mem_cons,
      exists_eq_or_imp]

theorem covers_file_iff (second : Bool) (name : String) (regular : Bool) (size : Nat)
    (ctime : Timespec) (digest : List Nat) (r : List String) (x : Item) :
    (Entry.file name regular size ctime digest).covers second r x ↔
      x = .file second r name := by
  cases x with
  | dir q => simp [Entry.covers, Entry.relDirs]
  | file s q n =>
    simp only [Entry.covers, Entry.relFiles, List.mem_singleton, Prod.mk.injEq,
      Item.file.injEq]

theorem covers_dir_iff (second : Bool) (name : String) (size : Nat) (ctime : Timespec)
    (es : List Entry) (r : List String) (x : Item) :
    (Entry.dir name size ctime es).covers second r x ↔
      x = .dir (r ++ [name]) ∨ ∃ e ∈ es, e.covers second (r ++ [name]) x := by
  cases x with
  | dir q =>
    simp only [Entry.covers, Entry.relDirs, List.mem_cons, mem_relDirsList, Item.dir.injEq]
  | file s q n =>
    simp only [Entry.covers, Entry.relFiles, mem_relFilesList]
    constructor
    · rintro ⟨h1, e, he, h2⟩
      exact Or.inr ⟨e, he, h1, h2⟩
    · rintro (h | ⟨e, he, h1, h2⟩)
      · cases h
      · exact ⟨h1, e, he, h2⟩

mutual
theorem Entry.aloneItems_mem (second : Bool) : ∀ (e : Entry) (r : List String) (x : Item),
    x ∈ e.aloneItems second r ↔ e.covers second r x
  | .file name regular size ctime digest, r, x => by
    rw [covers_file_iff]
    simp [Entry.aloneItems]
  | .dir name size ctime es, r, x => by
    rw [covers_dir_iff]
    simp only [Entry.aloneItems, List.mem_cons]
    rw [aloneItemsList_mem second es [] (r ++ [name]) x]
    simp
theorem aloneItemsList_mem (second : Bool) : ∀ (es : List Entry) (skip r : List String)
    (x : Item), x ∈ aloneItemsList second es skip r ↔
      ∃ e ∈ es, e.name ∉ skip ∧ e.covers second r x
  | [], skip, r, x => by simp [aloneItemsList]
  | e :: es, skip, r, x => by
    simp only [aloneItemsList, List.mem_cons, exists_eq_or_imp]
    by_cases hsk : e.name ∈ skip
    · simp only [hsk, if_true, not_true_eq_false, false_and, false_or]
      exact aloneItemsList_mem second es skip r x
    · simp only [hsk, if_false, List.mem_append, not_false_eq_true, true_and]
      rw [Entry.aloneItems_mem second e r x, aloneItemsList_mem second es skip r x]
end

/-- What Phase B meets in a directory that both trees have: the entries of tree 1 and the
entries of tree 2. -/
theorem union_mem {es es2 : List Entry} {r : List String} {x : Item}
    (hn2 : namesOKList es2)
    (hB : x ∈ bothItemsList es es2 r ↔ ∃ e ∈ es, e.covers false r x ∨
      ∃ e2, findEntry es2 e.name = some e2 ∧ e2.covers true r x) :
    x ∈ bothItemsList es es2 r ++ aloneItemsList true es2 (es.map Entry.name) r ↔
      (∃ e ∈ es, e.covers false r x) ∨ (∃ e2 ∈ es2, e2.covers true r x) := by
  rw [List.mem_append, hB, aloneItemsList_mem]
  constructor
  · rintro (⟨e, he, h | ⟨e2, hf, h⟩⟩ | ⟨e2, he2, -, h⟩)
    · exact Or.inl ⟨e, he, h⟩
    · exact Or.inr ⟨e2, (findEntry_mem hf).1, h⟩
    · exact Or.inr ⟨e2, he2, h⟩
  · rintro (⟨e, he, h⟩ | ⟨e2, he2, h⟩)
    · exact Or.inl ⟨e, he, Or.inl h⟩
    · by_cases hsk : e2.name ∈ es.map Entry.name
      · obtain ⟨e, he, hname⟩ := List.mem_map.mp hsk
        refine Or.inl ⟨e, he, Or.inr ⟨e2, ?_, h⟩⟩
        rw [hname]
        exact findEntry_of_mem hn2 he2
      · exact Or.inr ⟨e2, he2, hsk, h⟩

mutual
theorem Entry.bothItems_mem : ∀ (e : Entry) (es2 : List Entry) (r : List String) (x : Item),
    e.namesOK → namesOKList es2 → e.apart es2 = true →
    (x ∈ e.bothItems es2 r ↔ e.covers false r x ∨
      ∃ e2, findEntry es2 e.name = some e2 ∧ e2.covers true r x)
  | .file name regular size ctime digest, es2, r, x => by
    intro _ _ ha
    simp only [Entry.apart, Option.isNone_iff_eq_none] at ha
    rw [covers_file_iff]
    simp [Entry.bothItems, Entry.name, ha]
  | .dir name size ctime es, es2, r, x => by
    intro hn hn2 ha
    simp only [Entry.namesOK] at hn
    simp only [Entry.apart] at ha
    rw [covers_dir_iff]
    simp only [Entry.bothItems, Entry.name]
    cases hf : findEntry es2 name with
    | none =>
      simp only [List.mem_cons]
      rw [aloneItemsList_mem false es [] (r ++ [name]) x]
      simp
    | some e2 =>
      rw [hf] at ha
      have hn2' : e2.namesOK := namesOK_of_mem hn2 (findEntry_mem hf).1
      have hname := (findEntry_mem hf).2
      cases e2 with
      | dir name2 size2 ctime2 es' =>
        simp only [Entry.namesOK] at hn2'
        simp only [Entry.name] at hname
        subst hname
        simp only at ha
        simp only [List.mem_cons, Option.some.injEq, exists_eq_left']
        rw [covers_dir_iff,
          union_mem hn2' (bothItemsList_mem es es' (r ++ [name2]) x hn hn2' ha)]
        constructor
        · rintro (h | h | h)
          · exact Or.inl (Or.inl h)
          · exact Or.inl (Or.inr h)
          · exact Or.inr (Or.inr h)
        · rintro ((h | h) | (h | h))
          · exact Or.inl h
          · exact Or.inr (Or.inl h)
          · exact Or.inl h
          · exact Or.inr (Or.inr h)
      | file name2 regular2 size2 ctime2 digest2 =>
        simp at ha
theorem bothItemsList_mem : ∀ (es es2 : List Entry) (r : List String) (x : Item),
    namesOKList es → namesOKList es2 → apartList es es2 = true →
    (x ∈ bothItemsList es es2 r ↔ ∃ e ∈ es, e.covers false r x ∨
      ∃ e2, findEntry es2 e.name = some e2 ∧ e2.covers true r x)
  | [], es2, r, x => by
    intro _ _ _
    simp [bothItemsList]
  | e :: es, es2, r, x => by
    intro hn hn2 ha
    simp only [namesOKList] at hn
    simp only [apartList, Bool.and_eq_true] at ha
    simp only [bothItemsList, List.mem_append, List.mem_cons, exists_eq_or_imp]
    rw [Entry.bothItems_mem e es2 r x hn.2.1 hn2 ha.1,
      bothItemsList_mem es es2 r x hn.2.2 hn2 ha.2]
end

/-- The items of the union of two trees that are apart: the root, and what the entries of each
tree cover. -/
theorem unionItems_mem (in1 in2 : List Entry) (hok1 : namesOKList in1)
    (hok2 : namesOKList in2) (hap : apartList in1 in2 = true) (x : Item) :
    x ∈ unionItems in1 in2 ↔
      x = .dir [] ∨ (∃ e ∈ in1, e.covers false [] x) ∨ (∃ e2 ∈ in2, e2.covers true [] x) := by
  simp only [unionItems, List.mem_cons]
  rw [union_mem hok2 (bothItemsList_mem in1 in2 [] x hok1 hok2 hap)]

mutual
theorem Entry.aloneEvs_tops {hA : Heap} (hs : ∀ f, single hA f = true) :
    ∀ (e : Entry) (b d nx : Nat) (src out : String),
    ∀ ev ∈ e.aloneEvs hA b d nx src out, ev.tops hA = []
  | .file name regular size ctime digest, b, d, nx, src, out => by
    intro ev hev
    simp only [Entry.aloneEvs, fileEv_single hs, List.mem_singleton] at hev
    subst hev
    rfl
  | .dir name size ctime es, b, d, nx, src, out => by
    intro ev hev
    simp only [Entry.aloneEvs, List.mem_cons] at hev
    rcases hev with rfl | hev
    · rfl
    · exact aloneEvsList_tops hs es [] _ _ _ _ _ ev hev
theorem aloneEvsList_tops {hA : Heap} (hs : ∀ f, single hA f = true) :
    ∀ (es : List Entry) (skip : List String) (b d nx : Nat) (src out : String),
    ∀ ev ∈ aloneEvsList hA es skip b d nx src out, ev.tops hA = []
  | [], skip, b, d, nx, src, out => by
    intro ev hev
    simp [aloneEvsList] at hev
  | e :: es, skip, b, d, nx, src, out => by
    intro ev hev
    simp only [aloneEvsList] at hev
    split at hev
    · exact aloneEvsList_tops hs es skip _ _ _ _ _ ev hev
    · rcases List.mem_append.mp hev with hev | hev
      · exact Entry.aloneEvs_tops hs e _ _ _ _ _ ev hev
      · exact aloneEvsList_tops hs es skip _ _ _ _ _ ev hev
end

mutual
theorem Entry.bothEvs_tops {hA : Heap} (hs : ∀ f, single hA f = true) :
    ∀ (e : Entry) (es2 : List Entry) (b2 b d nx : Nat) (s1 s2 out : String),
    e.apart es2 = true → ∀ ev ∈ e.bothEvs hA es2 b2 b d nx s1 s2 out, ev.tops hA = []
  | .file name regular size ctime digest, es2, b2, b, d, nx, s1, s2, out => by
    intro ha ev hev
    simp only [Entry.apart, Option.isNone_iff_eq_none] at ha
    simp only [Entry.bothEvs] at hev
    cases hfind : findAt es2 b2 name with
    | none =>
      rw [hfind] at hev
      simp only [fileEv_single hs, List.mem_singleton] at hev
      subst hev
      rfl
    | some x =>
      obtain ⟨e2, a2⟩ := x
      rw [findAt_entry_some hfind] at ha
      cases ha
  | .dir name size ctime es, es2, b2, b, d, nx, s1, s2, out => by
    intro ha ev hev
    simp only [Entry.apart] at ha
    simp only [Entry.bothEvs] at hev
    cases hfind : findAt es2 b2 name with
    | none =>
      rw [hfind] at hev
      simp only [List.mem_cons] at hev
      rcases hev with rfl | hev
      · rfl
      · exact aloneEvsList_tops hs es [] _ _ _ _ _ ev hev
    | some x =>
      obtain ⟨e2, a2⟩ := x
      rw [hfind] at hev
      rw [findAt_entry_some hfind] at ha
      cases e2 with
      | dir name2 size2 ctime2 es' =>
        simp only at ha
        simp only [List.mem_cons, List.mem_append] at hev
        rcases hev with rfl | hev | hev
        · rfl
        · exact bothEvsList_tops hs es es' _ _ _ _ _ _ _ ha ev hev
        · exact aloneEvsList_tops hs es' _ _ _ _ _ _ ev hev
      | file name2 regular2 size2 ctime2 digest2 =>
        simp at ha
theorem bothEvsList_tops {hA : Heap} (hs : ∀ f, single hA f = true) :
    ∀ (es es2 : List Entry) (b2 b d nx : Nat) (s1 s2 out : String),
    apartList es es2 = true → ∀ ev ∈ bothEvsList hA es es2 b2 b d nx s1 s2 out, ev.tops hA = []
  | [], es2, b2, b, d, nx, s1, s2, out => by
    intro _ ev hev
    simp [bothEvsList] at hev
  | e :: es, es2, b2, b, d, nx, s1, s2, out => by
    intro ha ev hev
    simp only [apartList, Bool.and_eq_true] at ha
    simp only [bothEvsList, List.mem_append] at hev
    rcases hev with hev | hev
    · exact Entry.bothEvs_tops hs e es2 _ _ _ _ _ _ _ ha.1 ev hev
    · exact bothEvsList_tops hs es es2 _ _ _ _ _ _ _ ha.2 ev hev
end

/-- **C25.** When no two files share a key of the content index (`keysList` without
repetition), no relative file path occurs in both trees and no name denotes a directory in one
tree and a non-directory in the other at the same relative location (`apartList`), the names
within each directory being pairwise different, the planner returns for every fuel above the
depth of the trees, and the plan is the union of the two trees: its commands are, in the order
of the queue, the commands of the items `unionItems`, which are pairwise different and are
exactly the root of the result (`mkdir out`), the directory at every relative path `r`
occurring in either tree (`mkdir out/r`, once also when both trees have it), and every
non-directory of either tree (`cp` from its scanned path into `out/<relative path of its
directory>`); in particular there is no other step and no history directory. -/
theorem plan_is_union (fuel : Nat) (path1 path2 pathout : String) (in1 in2 : List Entry)
    (hok1 : namesOKList in1) (hok2 : namesOKList in2)
    (hkeys : (keysList in1 ++ keysList in2).Nodup) (hap : apartList in1 in2 = true)
    (hf1 : depthList in1 < fuel) (hf2 : depthList in2 < fuel) (hfuel : 2 ≤ fuel) :
    ∃ t, unidupe fuel path1 path2 pathout in1 in2 = some t ∧
      t.state.editSteps.map EditStep.com =
        (unionItems in1 in2).map (Item.cmd path1 path2 pathout) ∧
      (unionItems in1 in2).Nodup ∧
      (∀ q, Item.dir q ∈ unionItems in1 in2 ↔
        q = [] ∨ q ∈ relDirsList in1 [] ∨ q ∈ relDirsList in2 []) ∧
      (∀ q n, Item.file false q n ∈ unionItems in1 in2 ↔ (q, n) ∈ relFilesList in1 []) ∧
      (∀ q n, Item.file true q n ∈ unionItems in1 in2 ↔ (q, n) ∈ relFilesList in2 []) := by
  obtain ⟨hA, hpA⟩ := scanPhaseA_total path1 path2 in1 in2 hok1 hok2
  have hpr := all_pristine path1 path2 in1 in2 hok1 hok2 hkeys hA hpA
  have hs : ∀ f, single hA f = true := fun f => single_of_pristine (hpr f)
  obtain ⟨t, h1, h2⟩ := plan_flat fuel path1 path2 pathout in1 in2 hok1 hok2 hf1 hf2 hfuel
    hA hpA hpr (by
      intro ev hev
      simp only [planEvs, List.mem_cons, List.mem_append] at hev
      rcases hev with rfl | hev | hev
      · rfl
      · exact bothEvsList_tops hs in1 in2 _ _ _ _ _ _ _ hap ev hev
      · exact aloneEvsList_tops hs in2 _ _ _ _ _ _ ev hev)
  refine ⟨t, h1, ?_, unionItems_nodup in1 in2 hok1 hok2, ?_, ?_, ?_⟩
  · rw [h2]
    exact planEvs_cmds hs path1 path2 pathout in1 in2
  · intro q
    rw [unionItems_mem in1 in2 hok1 hok2 hap]
    simp only [Entry.covers, Item.dir.injEq, mem_relDirsList]
  · intro q n
    rw [unionItems_mem in1 in2 hok1 hok2 hap]
    simp [Entry.covers, mem_relFilesList]
  · intro q n
    rw [unionItems_mem in1 in2 hok1 hok2 hap]
    simp [Entry.covers, mem_relFilesList]

theorem plan_is_union_witness :
    ∃ t, unidupe 2 "in1" "in2" "out" unionIn1 unionIn2 = some t ∧
      t.state.editSteps.map EditStep.com =
        (unionItems unionIn1 unionIn2).map (Item.cmd "in1" "in2" "out") ∧
      (unionItems unionIn1 unionIn2).Nodup ∧
      (∀ q, Item.dir q ∈ unionItems unionIn1 unionIn2 ↔
        q = [] ∨ q ∈ relDirsList unionIn1 [] ∨ q ∈ relDirsList unionIn2 []) ∧
      (∀ q n, Item.file false q n ∈ unionItems unionIn1 unionIn2 ↔
        (q, n) ∈ relFilesList unionIn1 []) ∧
      (∀ q n, Item.file true q n ∈ unionItems unionIn1 unionIn2 ↔
        (q, n) ∈ relFilesList unionIn2 []) :=
  plan_is_union 2 "in1" "in2" "out" unionIn1 unionIn2
    (by simp [unionIn1, namesOKList, Entry.namesOK, Entry.name, mkFile, mkDir])
    (by simp [unionIn2, namesOKList, Entry.namesOK, Entry.name, mkFile, mkDir])
    (by decide) (by decide) (by decide) (by decide) (by decide)

/-! ## Events of the reference planner at a relative location -/

/-- The events of an entry of the listing of tree 1 are among those of the listing. -/
theorem bothEvs_sub (hA : Heap) : ∀ (es es2 : List Entry) (b2 b d nx : Nat)
    (s1 s2 out : String) (n : String) (e : Entry) (a : Nat), findAt es b n = some (e, a) →
    ∃ nx', ∀ ev ∈ e.bothEvs hA es2 b2 a d nx' s1 s2 out,
      ev ∈ bothEvsList hA es es2 b2 b d nx s1 s2 out
  | [], es2, b2, b, d, nx, s1, s2, out, n, e, a => by
    intro hf
    simp [findAt] at hf
  | x :: es, es2, b2, b, d, nx, s1, s2, out, n, e, a => by
    intro hf
    simp only [findAt] at hf
    split at hf
    · simp only [Option.some.injEq, Prod.mk.injEq] at hf
      obtain ⟨rfl, rfl⟩ := hf
      refine ⟨nx, fun ev hev => ?_⟩
      simp only [bothEvsList, List.mem_append]
      exact Or.inl hev
    · obtain ⟨nx', h'⟩ := bothEvs_sub hA es es2 b2 (b + x.span) d (nx + x.bothNew es2)
        s1 s2 out n e a hf
      refine ⟨nx', fun ev hev => ?_⟩
      simp only [bothEvsList, List.mem_append]
      exact Or.inr (h' ev hev)

/-- The events of an entry of a listing that one tree has are among those of the listing,
unless its name is skipped. -/
theorem aloneEvs_sub (hA : Heap) : ∀ (es : List Entry) (skip : List String) (b d nx : Nat)
    (src out : String) (n : String) (e : Entry) (a : Nat), findAt es b n = some (e, a) →
    n ∉ skip →
    ∃ nx', ∀ ev ∈ e.aloneEvs hA a d nx' src out, ev ∈ aloneEvsList hA es skip b d nx src out
  | [], skip, b, d, nx, src, out, n, e, a => by
    intro hf
    simp [findAt] at hf
  | x :: es, skip, b, d, nx, src, out, n, e, a => by
    intro hf hn
    simp only [findAt] at hf
    split at hf
    · rename_i hxn
      simp only [Option.some.injEq, Prod.mk.injEq] at hf
      obtain ⟨rfl, rfl⟩ := hf
      refine ⟨nx, fun ev hev => ?_⟩
      have hx : x.name ∉ skip := hxn ▸ hn
      simp only [aloneEvsList, hx, if_false, List.mem_append]
      exact Or.inl hev
    · by_cases hx : x.name ∈ skip
      · obtain ⟨nx', h'⟩ := aloneEvs_sub hA es skip (b + x.span) d nx src out n e a hf hn
        refine ⟨nx', fun ev hev => ?_⟩
        simp only [aloneEvsList, hx, if_true]
        exact h' ev hev
      · obtain ⟨nx', h'⟩ := aloneEvs_sub hA es skip (b + x.span) d (nx + x.numDirs) src out
          n e a hf hn
        refine ⟨nx', fun ev hev => ?_⟩
        simp only [aloneEvsList, hx, if_false, List.mem_append]
        exact Or.inr (h' ev hev)

theorem findAt_name {es : List Entry} {b : Nat} {n : String} {e : Entry} {a : Nat}
    (h : findAt es b n = some (e, a)) : e.name = n :=
  (findAt_bounds es b n e a h).1

/-- The event of a path collision: a non-directory of tree 1 whose name tree 2 has at the same
location. -/
theorem pair_event (hA : Heap) (es es2 : List Entry) (b2 b d nx : Nat) (s1 s2 out : String)
    (n : String) (reg : Bool) (size : Nat) (c : Timespec) (dg : List Nat) (f1 : Nat)
    (e2 : Entry) (f2 : Nat)
    (h1 : findAt es b n = some (.file n reg size c dg, f1))
    (h2 : findAt es2 b2 n = some (e2, f2)) :
    Ev.pair f1 f2 d (s1 ++ "/" ++ n) (s2 ++ "/" ++ n) out ∈
      bothEvsList hA es es2 b2 b d nx s1 s2 out := by
  obtain ⟨nx', h'⟩ := bothEvs_sub hA es es2 b2 b d nx s1 s2 out n _ f1 h1
  apply h'
  simp [Entry.bothEvs, h2]

/-- The event of a non-directory of tree 1 whose name tree 2 does not have at the same
location. -/
theorem file_event_first (hA : Heap) (es es2 : List Entry) (b2 b d nx : Nat)
    (s1 s2 out : String) (n : String) (reg : Bool) (size : Nat) (c : Timespec) (dg : List Nat)
    (f1 : Nat) (h1 : findAt es b n = some (.file n reg size c dg, f1))
    (h2 : findAt es2 b2 n = none) :
    fileEv hA f1 d (s1 ++ "/" ++ n) out ∈ bothEvsList hA es es2 b2 b d nx s1 s2 out := by
  obtain ⟨nx', h'⟩ := bothEvs_sub hA es es2 b2 b d nx s1 s2 out n _ f1 h1
  apply h'
  simp [Entry.bothEvs, h2]

/-- The event of a non-directory of a listing that one tree has. -/
theorem file_event_alone (hA : Heap) (es : List Entry) (skip : List String) (b d nx : Nat)
    (src out : String) (n : String) (reg : Bool) (size : Nat) (c : Timespec) (dg : List Nat)
    (f : Nat) (h1 : findAt es b n = some (.file n reg size c dg, f)) (h2 : n ∉ skip) :
    fileEv hA f d (src ++ "/" ++ n) out ∈ aloneEvsList hA es skip b d nx src out := by
  obtain ⟨nx', h'⟩ := aloneEvs_sub hA es skip b d nx src out n _ f h1 h2
  apply h'
  simp [Entry.aloneEvs]

theorem joinPath_cons (root : String) (n : String) (r : List String) :
    joinPath root (n :: r) = joinPath (root ++ "/" ++ n) r := rfl

/-- Descent to a directory that both trees have at the relative location `r`: the events of
its listings are among the events of the listings at the start, and its node in the result is
the subject of a `mk` event with the path of the location. -/
theorem both_descent (hA : Heap) : ∀ (r : List String) (es1 es2 : List Entry)
    (b1 b2 d nx nx2 : Nat) (s1 s2 out : String) (es1' es2' : List Entry) (b1' b2' : Nat),
    dirAtFrom es1 b1 r = some (es1', b1') → dirAtFrom es2 b2 r = some (es2', b2') →
    ∃ d' nx' nx2',
      (∀ ev ∈ bothEvsList hA es1' es2' b2' b1' d' nx' (joinPath s1 r) (joinPath s2 r)
            (joinPath out r) ++
          aloneEvsList hA es2' (es1'.map Entry.name) b2' d' nx2' (joinPath s2 r)
            (joinPath out r),
        ev ∈ bothEvsList hA es1 es2 b2 b1 d nx s1 s2 out ++
          aloneEvsList hA es2 (es1.map Entry.name) b2 d nx2 s2 out) ∧
      (r = [] → d' = d) ∧
      (r ≠ [] → Ev.mk d' (joinPath out r) ∈ bothEvsList hA es1 es2 b2 b1 d nx s1 s2 out)
  | [], es1, es2, b1, b2, d, nx, nx2, s1, s2, out, es1', es2', b1', b2' => by
    intro h1 h2
    simp only [dirAtFrom, Option.some.injEq, Prod.mk.injEq] at h1 h2
    obtain ⟨rfl, rfl⟩ := h1
    obtain ⟨rfl, rfl⟩ := h2
    exact ⟨d, nx, nx2, fun ev hev => hev, fun _ => rfl, fun h => absurd rfl h⟩
  | n :: r, es1, es2, b1, b2, d, nx, nx2, s1, s2, out, es1', es2', b1', b2' => by
    intro h1 h2
    simp only [dirAtFrom] at h1 h2
    cases hf1 : findAt es1 b1 n with
    | none => simp [hf1] at h1
    | some x1 =>
      obtain ⟨e1, a1⟩ := x1
      cases e1 with
      | file n1 reg1 size1 c1 dg1 => simp [hf1] at h1
      | dir n1 size1 c1 l1 =>
        cases hf2 : findAt es2 b2 n with
        | none => simp [hf2] at h2
        | some x2 =>
          obtain ⟨e2, a2⟩ := x2
          cases e2 with
          | file n2 reg2 size2 c2 dg2 => simp [hf2] at h2
          | dir n2 size2 c2 l2 =>
            simp only [hf1] at h1
            simp only [hf2] at h2
            have hn1 : n1 = n := findAt_name hf1
            subst hn1
            obtain ⟨nx', hsub⟩ := bothEvs_sub hA es1 es2 b2 b1 d nx s1 s2 out n1 _ a1 hf1
            simp only [Entry.bothEvs, hf2] at hsub
            obtain ⟨d', nx'', nx2', i1, i2, i3⟩ := both_descent hA r l1 l2 (a1 + 1) (a2 + 1) a1
              nx' (nx' + bothNewList l1 l2) (s1 ++ "/" ++ n1) (s2 ++ "/" ++ n1)
              (out ++ "/" ++ n1) es1' es2' b1' b2' h1 h2
            refine ⟨d', nx'', nx2', fun ev hev => ?_, (fun h => by cases h), fun _ => ?_⟩
            · refine List.mem_append.mpr (Or.inl (hsub ev ?_))
              exact List.mem_cons_of_mem _ (i1 ev hev)
            · apply hsub
              by_cases hr : r = []
              · subst hr
                rw [i2 rfl]
                exact List.mem_cons_self _ _
              · refine List.mem_cons_of_mem _ (List.mem_append.mpr (Or.inl ?_))
                exact i3 hr

/-- The nodes of the directory at a relative location. -/
theorem dirAtFrom_rep (h : Heap) : ∀ (r : List String) (es : List Entry) (b p : Nat)
    (pp : String) (es' : List Entry) (b' : Nat), RepList h es b p pp →
    dirAtFrom es b r = some (es', b') →
    ∃ p', RepList h es' b' p' (joinPath pp r) ∧ b ≤ b' ∧ b' + spanList es' ≤ b + spanList es ∧
      (r = [] → p' = p) ∧
      (r ≠ [] → b ≤ p' ∧ p' < b' ∧ (h p').num_files = countFiles es')
  | [], es, b, p, pp, es', b' => by
    intro hr h1
    simp only [dirAtFrom, Option.some.injEq, Prod.mk.injEq] at h1
    obtain ⟨rfl, rfl⟩ := h1
    exact ⟨p, hr, Nat.le_refl _, Nat.le_refl _, fun _ => rfl, fun h => absurd rfl h⟩
  | n :: r, es, b, p, pp, es', b' => by
    intro hr h1
    simp only [dirAtFrom] at h1
    cases hf1 : findAt es b n with
    | none => simp [hf1] at h1
    | some x1 =>
      obtain ⟨e1, a1⟩ := x1
      cases e1 with
      | file n1 reg1 size1 c1 dg1 => simp [hf1] at h1
      | dir n1 size1 c1 l1 =>
        simp only [hf1] at h1
        obtain ⟨j1, j2, j3, j4, j5⟩ := findAt_rep h es b p pp n _ a1 hr hf1
        simp only [Entry.name] at j2
        subst j2
        simp only [Entry.Rep] at j1
        simp only [Entry.span] at j5
        obtain ⟨p', k1, k2, k3, k4, k5⟩ := dirAtFrom_rep h r l1 (a1 + 1) a1
          (pp ++ "/" ++ n1) es' b' j1.2 h1
        refine ⟨p', k1, by omega, by omega, (fun h => by cases h), fun _ => ?_⟩
        by_cases hr' : r = []
        · rw [k4 hr']
          subst hr'
          simp only [dirAtFrom, Option.some.injEq, Prod.mk.injEq] at h1
          obtain ⟨rfl, rfl⟩ := h1
          refine ⟨by omega, by omega, ?_⟩
          rw [j1.1]
        · have := k5 hr'
          exact ⟨by omega, this.2.1, this.2.2⟩

theorem dirAtFrom_namesOK : ∀ (r : List String) (es : List Entry) (b : Nat)
    (es' : List Entry) (b' : Nat), namesOKList es → dirAtFrom es b r = some (es', b') →
    namesOKList es'
  | [], es, b, es', b' => by
    intro hn h1
    simp only [dirAtFrom, Option.some.injEq, Prod.mk.injEq] at h1
    obtain ⟨rfl, rfl⟩ := h1
    exact hn
  | n :: r, es, b, es', b' => by
    intro hn h1
    simp only [dirAtFrom] at h1
    cases hf1 : findAt es b n with
    | none => simp [hf1] at h1
    | some x1 =>
      obtain ⟨e1, a1⟩ := x1
      cases e1 with
      | file n1 reg1 size1 c1 dg1 => simp [hf1] at h1
      | dir n1 size1 c1 l1 =>
        simp only [hf1] at h1
        have hm := (findAt_bounds es b n _ a1 hf1).2.1
        have := namesOK_of_mem hn hm
        simp only [Entry.namesOK] at this
        exact dirAtFrom_namesOK r l1 (a1 + 1) es' b' this h1

/-! ## The steps acting on a node -/

theorem Ev.steps_acting {ev : Ev} {s : EditStep} (h : s ∈ ev.steps) : s.acting ∈ ev.subj := by
  cases ev with
  | mk a p =>
    simp only [Ev.steps, List.mem_singleton] at h
    subst h
    simp [Ev.subj, mkdirAt]
  | cp f d src out =>
    simp only [Ev.steps, List.mem_singleton] at h
    subst h
    simp [Ev.subj, cpAt]
  | sub f d src out => simp [Ev.steps] at h
  | pair c1 c2 d s1 s2 out => simp [Ev.steps] at h

/-- No step of the events acts on a node that is the subject of none. -/
theorem filter_steps_none {evs : List Ev} {a : Nat} (h : a ∉ evs.flatMap Ev.subj) :
    (evs.flatMap Ev.steps).filter (fun s => s.acting = a) = [] := by
  rw [List.filter_eq_nil_iff]
  intro s hs
  obtain ⟨ev, hev, hse⟩ := List.mem_flatMap.mp hs
  simp only [decide_eq_true_eq]
  intro e
  exact h (List.mem_flatMap.mpr ⟨ev, hev, e ▸ Ev.steps_acting hse⟩)

/-- The steps acting on a subject of an event are steps of that event. -/
theorem filter_steps_unique : ∀ {evs : List Ev} {ev : Ev} {a : Nat},
    (evs.flatMap Ev.subj).Nodup → ev ∈ evs → a ∈ ev.subj →
    (evs.flatMap Ev.steps).filter (fun s => s.acting = a) =
      ev.steps.filter (fun s => s.acting = a)
  | [], ev, a => by
    intro _ h
    cases h
  | x :: l, ev, a => by
    intro hnd hev ha
    simp only [List.flatMap_cons, List.nodup_append] at hnd
    obtain ⟨n1, n2, n3⟩ := hnd
    simp only [List.flatMap_cons, List.filter_append]
    by_cases hx : a ∈ x.subj
    · have hl : a ∉ l.flatMap Ev.subj := fun h => n3 hx h
      have hxe : ev = x := by
        rcases List.mem_cons.mp hev with e | e
        · exact e
        · exact absurd (List.mem_flatMap.mpr ⟨ev, e, ha⟩) hl
      subst hxe
      rw [filter_steps_none hl]
      simp
    · have hevl : ev ∈ l := by
        rcases List.mem_cons.mp hev with e | e
        · exact absurd (e ▸ ha) hx
        · exact e
      have h0 : x.steps.filter (fun s => s.acting = a) = [] := by
        rw [List.filter_eq_nil_iff]
        intro s hs
        simp only [decide_eq_true_eq]
        intro e
        exact hx (e ▸ Ev.steps_acting hs)
      rw [h0, filter_steps_unique n2 hevl ha]
      rfl

/-- A node is the subject of one event. -/
theorem subj_unique : ∀ {evs : List Ev} {ev ev' : Ev} {a : Nat},
    (evs.flatMap Ev.subj).Nodup → ev ∈ evs → ev' ∈ evs → a ∈ ev.subj → a ∈ ev'.subj → ev = ev'
  | [], ev, ev', a => by
    intro _ h
    cases h
  | x :: l, ev, ev', a => by
    intro hnd h1 h2 a1 a2
    simp only [List.flatMap_cons, List.nodup_append] at hnd
    obtain ⟨n1, n2, n3⟩ := hnd
    rcases List.mem_cons.mp h1 with e1 | e1
    · rcases List.mem_cons.mp h2 with e2 | e2
      · rw [e1, e2]
      · exact absurd (List.mem_flatMap.mpr ⟨ev', e2, a2⟩) (n3 (e1 ▸ a1))
    · rcases List.mem_cons.mp h2 with e2 | e2
      · exact absurd (List.mem_flatMap.mpr ⟨ev, e1, a1⟩) (n3 (e2 ▸ a2))
      · exact subj_unique n2 e1 e2 a1 a2

/-- A step of a hierarchy acts on its history directory or on a member. -/
theorem histSteps_acting {h : Heap} {hist : Nat} {pq : List Nat} {s : EditStep}
    (hs : s ∈ histSteps h hist pq) : s.acting = hist ∨ s.acting ∈ pq := by
  unfold histSteps at hs
  cases hd : drain h pq.length pq with
  | none => simp [hd] at hs
  | some order =>
    cases order with
    | nil => simp [hd] at hs
    | cons w losers =>
      have hperm := drain_perm h _ pq _ rfl hd
      simp only [hd] at hs
      cases hw : (h w).dstParent with
      | none => simp [hw] at hs
      | some d =>
        simp only [hw, List.mem_cons, List.mem_append, List.mem_map, List.mem_singleton,
          List.not_mem_nil, or_false] at hs
        rcases hs with rfl | ⟨m, hm, rfl⟩ | rfl
        · exact Or.inl rfl
        · exact Or.inr (hperm.subset (by simp [hm, cpAt]))
        · exact Or.inr (hperm.subset (by simp [cpAt]))

theorem histStepsAll_acting {h : Heap} : ∀ {pqs : List (List Nat)} {nx : Nat} {s : EditStep},
    s ∈ histStepsAll h nx pqs → nx ≤ s.acting ∨ ∃ pq ∈ pqs, s.acting ∈ pq
  | [], nx, s => by
    intro hs
    simp [histStepsAll] at hs
  | pq :: rest, nx, s => by
    intro hs
    simp only [histStepsAll, List.mem_append] at hs
    rcases hs with hs | hs
    · rcases histSteps_acting hs with e | e
      · exact Or.inl (by omega)
      · exact Or.inr ⟨pq, by simp, e⟩
    · rcases histStepsAll_acting hs with e | ⟨q, hq, e⟩
      · exact Or.inl (by omega)
      · exact Or.inr ⟨q, by simp [hq], e⟩

/-- Phase C queues no step acting on a scanned node outside the hierarchies. -/
theorem histStepsAll_filter_none {h : Heap} {pqs : List (List Nat)} {nx a : Nat}
    (ha : a < nx) (hout : ∀ pq ∈ pqs, a ∉ pq) :
    (histStepsAll h nx pqs).filter (fun s => s.acting = a) = [] := by
  rw [List.filter_eq_nil_iff]
  intro s hs
  simp only [decide_eq_true_eq]
  intro e
  rcases histStepsAll_acting hs with h1 | ⟨pq, hpq, h1⟩
  · omega
  · exact hout pq hpq (e ▸ h1)

theorem histStepsAll_append (h : Heap) : ∀ (l1 l2 : List (List Nat)) (nx : Nat),
    histStepsAll h nx (l1 ++ l2) =
      histStepsAll h nx l1 ++ histStepsAll h (nx + l1.length) l2
  | [], l2, nx => by simp [histStepsAll]
  | pq :: l1, l2, nx => by
    have h1 : histStepsAll h nx (pq :: l1 ++ l2) =
        histSteps h nx pq ++ histStepsAll h (nx + 1) (l1 ++ l2) := rfl
    have h2 : histStepsAll h nx (pq :: l1) = histSteps h nx pq ++ histStepsAll h (nx + 1) l1 :=
      rfl
    rw [h1, h2, histStepsAll_append h l1 l2 (nx + 1), List.append_assoc]
    have : nx + 1 + l1.length = nx + (pq :: l1).length := by simp only [List.length_cons]; omega
    rw [this]

/-- A queue of two members with different change times is drained newer first. -/
theorem drain_two (h : Heap) (a b : Nat) (hab : a ≠ b)
    (hne : (h a).date_changed ≠ (h b).date_changed) :
    drain h 2 [a, b] =
      some (if (h a).date_changed.lt (h b).date_changed then [b, a] else [a, b]) := by
  by_cases hlt : (h a).date_changed.lt (h b).date_changed
  · simp [drain, pqTop, pqMax, comparRecent_of_ne h _ _ hne, hlt, hab]
  · simp [drain, pqTop, pqMax, comparRecent_of_ne h _ _ hne, hlt, hab]

/-- The steps of a hierarchy of two members with different change times. -/
theorem histSteps_two (h : Heap) (hist a b d : Nat) (hab : a ≠ b)
    (hne : (h a).date_changed ≠ (h b).date_changed)
    (ha : (h a).dstParent = some d) (hb : (h b).dstParent = some d) :
    histSteps h hist [a, b] =
      if (h a).date_changed.lt (h b).date_changed then
        [mkdirAt hist ((h d).path ++ "/" ++ ("." ++ (h b).name ++ "_hist")),
          cpAt a hist (h a).path ((h d).path ++ "/" ++ ("." ++ (h b).name ++ "_hist")),
          cpAt b d (h b).path (h d).path]
      else
        [mkdirAt hist ((h d).path ++ "/" ++ ("." ++ (h a).name ++ "_hist")),
          cpAt b hist (h b).path ((h d).path ++ "/" ++ ("." ++ (h a).name ++ "_hist")),
          cpAt a d (h a).path (h d).path] := by
  unfold histSteps
  have : [a, b].length = 2 := rfl
  rw [this, drain_two h a b hab hne]
  by_cases hlt : (h a).date_changed.lt (h b).date_changed
  · simp [hlt, ha, hb]
  · simp [hlt, ha, hb]

/-! ## The plan of two trees without content duplicates -/

/-- The heap after Phase A holds the nodes of both trees, hierarchy fields apart. -/
theorem scan_rep (path1 path2 : String) (in1 in2 : List Entry)
    (hok1 : namesOKList in1) (hok2 : namesOKList in2) (hA : Heap)
    (hpA : scanPhaseA path1 path2 in1 in2 = some hA) :
    ∃ hs, Core hs hA ∧ RepList hs in1 1 0 path1 ∧
      RepList hs in2 (1 + (1 + spanList in1)) (1 + spanList in1) path2 ∧
      (hs 0).num_files = countFiles in1 ∧ (hs (1 + spanList in1)).num_files = countFiles in2 := by
  obtain ⟨-, -, -, -, p5, p6, p7, p8⟩ := scanBoth_pair path1 path2 in1 in2 hok1 hok2
  simp only [scanPhaseA] at hpA
  rcases hs : scanBoth path1 path2 in1 in2 with ⟨sc, r1, r2⟩
  rw [hs] at hpA p5 p6 p7 p8
  simp only at hpA p5 p6 p7 p8
  exact ⟨sc.heap, phaseA_core _ _ _ _ _ hpA, p7, p8, by rw [p5], by rw [p6]⟩

/-- The fields of a non-directory found in the directory at a relative location. -/
theorem located_file {hs hA : Heap} (hc : Core hs hA) {es : List Entry} {b p : Nat}
    {pp : String} (hr : RepList hs es b p pp) {r : List String} {es' : List Entry} {b' : Nat}
    (hd : dirAtFrom es b r = some (es', b')) {n : String} {reg : Bool} {size : Nat}
    {c : Timespec} {dg : List Nat} {f : Nat}
    (hf : findAt es' b' n = some (.file n reg size c dg, f)) :
    (hA f).date_changed = c ∧ (hA f).name = n ∧ (hA f).path = joinPath pp r ++ "/" ++ n ∧
      b ≤ f ∧ f < b + spanList es ∧
      ∃ q, (hA f).parent = some q ∧ (r ≠ [] → (hs q).num_files = countFiles es') ∧
        (r = [] → q = p) := by
  obtain ⟨p', k1, k2, k3, k4, k5⟩ := dirAtFrom_rep hs r es b p pp es' b' hr hd
  obtain ⟨j1, j2, j3, j4, j5⟩ := findAt_rep hs es' b' p' _ n _ f k1 hf
  have hrep := j1
  simp only [Entry.Rep] at j1
  simp only [Entry.span] at j5
  obtain ⟨-, c2, c3, c4, -⟩ := hc.file hrep
  exact ⟨by rw [hc f, j1], c2, c3, by omega, by omega, p', c4, fun h => (k5 h).2.2, k4⟩

/-- Shape of the plan of two trees without content duplicates: the plan exists, and every
hierarchy Phase C files is the pair of a path collision; the scanned nodes outside these pairs
are in no hierarchy at the end. -/
theorem plan_pairs (fuel : Nat) (path1 path2 pathout : String) (in1 in2 : List Entry)
    (hok1 : namesOKList in1) (hok2 : namesOKList in2)
    (hkeys : (keysList in1 ++ keysList in2).Nodup)
    (hf1 : depthList in1 < fuel) (hf2 : depthList in2 < fuel) (hfuel : 2 ≤ fuel) (hA : Heap)
    (hpA : scanPhaseA path1 path2 in1 in2 = some hA) :
    ∃ (stB : Planner) (tops : List Nat) (t : FsTree),
      unidupe fuel path1 path2 pathout in1 in2 = some t ∧
      Sim hA ((1 + spanList in1) + (1 + spanList in2))
        (afterA hA ((1 + spanList in1) + (1 + spanList in2))) stB
        (planEvs hA path1 path2 pathout in1 in2)
        (1 + (bothNewList in1 in2 + aloneNewList in2 (in1.map Entry.name))) ∧
      tops.Nodup ∧
      (∀ u ∈ tops, ∃ c1 d s1 s2 o,
        Ev.pair c1 u d s1 s2 o ∈ planEvs hA path1 path2 pathout in1 in2 ∧
        hierOf stB.heap u = [u, c1]) ∧
      (∀ c1 c2 d s1 s2 o,
        Ev.pair c1 c2 d s1 s2 o ∈ planEvs hA path1 path2 pathout in1 in2 → c2 ∈ tops) ∧
      t.state.editSteps = (planEvs hA path1 path2 pathout in1 in2).flatMap Ev.steps ++
        histStepsAll stB.heap stB.next (tops.map (fun u => hierOf stB.heap u)) ∧
      (∀ a, a < (1 + spanList in1) + (1 + spanList in2) →
        (∀ u ∈ tops, a ∉ hierOf stB.heap u) →
        Pristine (t.state.heap a) ∧ (t.state.heap a).dstParent = (stB.heap a).dstParent) := by
  have hpr := all_pristine path1 path2 in1 in2 hok1 hok2 hkeys hA hpA
  obtain ⟨stB, tops, t, h1, hsim, hsups, htnd, -, -, hsteps, -, -, hframe, -⟩ :=
    plan_shape fuel path1 path2 pathout in1 in2 hok1 hok2 hf1 hf2 hfuel hA hpA
      (fun ev _ => by
        cases ev <;> simp only [Ev.OK]
        exact ⟨hpr _, hpr _⟩)
      (fun m hm => absurd (hpr m) hm)
  have hmem : ∀ u, u ∈ tops ↔
      ∃ ev ∈ planEvs hA path1 path2 pathout in1 in2, some u ∈ ev.tops hA := by
    intro u
    have e1 : u ∈ tops ↔ some u ∈ stB.sups := by
      rw [hsups]
      simp
    rw [e1, hsim.sups, mem_foldl_setInsert]
    simp [afterA]
  have hpair : ∀ c1 c2 d s1 s2 o,
      Ev.pair c1 c2 d s1 s2 o ∈ planEvs hA path1 path2 pathout in1 in2 →
      c2 ∈ tops ∧ hierOf stB.heap c2 = [c2, c1] := by
    intro c1 c2 d s1 s2 o hev
    refine ⟨(hmem c2).mpr ⟨_, hev, by simp [Ev.tops]⟩, ?_⟩
    have hd := hsim.done _ hev
    simp only [Ev.Done] at hd
    simp only [hierOf, hd.2.2.2.2.2.2]
  have htop : ∀ u ∈ tops, ∃ c1 d s1 s2 o,
      Ev.pair c1 u d s1 s2 o ∈ planEvs hA path1 path2 pathout in1 in2 ∧
      hierOf stB.heap u = [u, c1] := by
    intro u hu
    obtain ⟨ev, hev, hst⟩ := (hmem u).mp hu
    cases ev with
    | mk a p => simp [Ev.tops] at hst
    | cp f d src out => simp [Ev.tops] at hst
    | sub f d src out => simp [Ev.tops, (hpr f).1] at hst
    | pair c1 c2 d s1 s2 out =>
      simp only [Ev.tops, List.mem_singleton, Option.some.injEq] at hst
      subst hst
      exact ⟨c1, d, s1, s2, out, hev, (hpair _ _ _ _ _ _ hev).2⟩
  refine ⟨stB, tops, t, h1, hsim, htnd, htop, fun c1 c2 d s1 s2 o hev =>
    (hpair c1 c2 d s1 s2 o hev).1, hsteps, ?_⟩
  intro a ha hout
  have hnx : (1 + spanList in1) + (1 + spanList in2) ≤ stB.next := hsim.keeps.1
  obtain ⟨f1, f2, f3, f4⟩ := hframe a (by omega) hout
  have hnt : a ∉ (planEvs hA path1 path2 pathout in1 in2).flatMap Ev.touched := by
    intro hm
    obtain ⟨ev, hev, hat⟩ := List.mem_flatMap.mp hm
    cases ev with
    | mk a' p => simp [Ev.touched] at hat
    | cp f d src out => simp [Ev.touched] at hat
    | sub f d src out => simp [Ev.touched] at hat
    | pair c1 c2 d s1 s2 out =>
      obtain ⟨k1, k2⟩ := hpair _ _ _ _ _ _ hev
      apply hout c2 k1
      rw [k2]
      simp only [Ev.touched, List.mem_cons, List.mem_singleton, List.not_mem_nil,
        or_false] at hat
      simp only [List.mem_cons, List.mem_singleton, List.not_mem_nil, or_false]
      exact hat.symm
  obtain ⟨g1, g2, g3⟩ := (hsim.keeps.2 a ha).2.2.2.2 hnt
  simp only [afterA] at g1 g2 g3
  obtain ⟨p1, p2, p3⟩ := hpr a
  exact ⟨⟨by rw [f1, g1, p1], by rw [f2, g2, p2], by rw [f3, g3, p3]⟩, f4⟩

/-! ## A directory of both trees with a path collision -/

/-- **C24** (as stated, refuted). Both trees hold the directory `d = .y_hist` with a file `y` in
it, and a file `y` beside it; the four files differ in content, and the files of tree 2 are
changed later.  The plan does not create `out/d` once: its queue holds two `Mkdir` steps of the
path `out/.y_hist`, the second and the third step, one acting on the merged directory (address
2) and one on the history directory of the two files `y` beside `d` (address 9), and `in1/y` is
copied into that path. -/
theorem history_name_made_twice :
    (keysList histNameIn1 ++ keysList histNameIn2).Nodup ∧
    (dirAtFrom histNameIn1 1 [".y_hist"]).isSome ∧
    (dirAtFrom histNameIn2 (1 + (1 + spanList histNameIn1)) [".y_hist"]).isSome ∧
    (unidupe 3 "in1" "in2" "out" histNameIn1 histNameIn2).map
        (fun t => t.state.editSteps.map EditStep.shape) =
      some [("mkdir", 8, 8), ("mkdir", 2, 2), ("mkdir", 9, 9), ("cp", 1, 9), ("cp", 5, 8),
        ("mkdir", 10, 10), ("cp", 3, 10), ("cp", 7, 2)] ∧
    (unidupe 3 "in1" "in2" "out" histNameIn1 histNameIn2).map
        (fun t => t.state.editSteps.map EditStep.com) =
      some [["mkdir", "out"], ["mkdir", "out/.y_hist"], ["mkdir", "out/.y_hist"],
        ["cp", "--backup=numbered", "in1/y", "out/.y_hist"],
        ["cp", "--backup=numbered", "in2/y", "out"], ["mkdir", "out/.y_hist/.y_hist"],
        ["cp", "--backup=numbered", "in1/.y_hist/y", "out/.y_hist/.y_hist"],
        ["cp", "--backup=numbered", "in2/.y_hist/y", "out/.y_hist"]] := by
  refine ⟨?_, ?_, ?_, ?_, ?_⟩ <;> decide

/-- **C24** (amended). When both trees contain the directory at the relative location `r`
(listings `es1` and `es2`), both listings have a non-directory named `y`, changed at different
times `c1` and `c2`, and no two files of the trees share a key of the content index (so the two
`y` differ in content), the planner returns for every fuel above the depth of the trees, and in
its plan: exactly one step acts on the node `dn` of the directory in the result, the `Mkdir` of
`out/r` (steps are counted by the node they act on: when the directory is itself named like a
history directory, a history directory is made under the same path by a second `Mkdir`);
the steps `mkdir out/r/.y_hist`, `cp` of the older `y` into `out/r/.y_hist`, `cp` of the more
recent `y` into `out/r` follow each other, the history directory being a node `hist` made by
the planner, and they are the only steps acting on the two files; and every non-directory of
the directory whose name occurs in one listing only is acted on by exactly one step, its `Copy`
from its scanned path into `out/r`, and is in no hierarchy at the end (neither subordinate nor
superior), so that no history directory is made for it. -/
theorem nested_merge (fuel : Nat) (path1 path2 pathout : String) (in1 in2 : List Entry)
    (r : List String) (es1 es2 : List Entry) (b1 b2 : Nat) (y : String)
    (reg1 reg2 : Bool) (size1 size2 : Nat) (c1 c2 : Timespec) (dg1 dg2 : List Nat)
    (f1 f2 : Nat)
    (hok1 : namesOKList in1) (hok2 : namesOKList in2)
    (hkeys : (keysList in1 ++ keysList in2).Nodup)
    (hf1 : depthList in1 < fuel) (hf2 : depthList in2 < fuel) (hfuel : 2 ≤ fuel)
    (hd1 : dirAtFrom in1 1 r = some (es1, b1))
    (hd2 : dirAtFrom in2 (1 + (1 + spanList in1)) r = some (es2, b2))
    (hy1 : findAt es1 b1 y = some (.file y reg1 size1 c1 dg1, f1))
    (hy2 : findAt es2 b2 y = some (.file y reg2 size2 c2 dg2, f2))
    (hne : c1 ≠ c2) :
    ∃ (t : FsTree) (dn hist : Nat),
      unidupe fuel path1 path2 pathout in1 in2 = some t ∧
      t.state.editSteps.filter (fun s => s.acting = dn) = [mkdirAt dn (joinPath pathout r)] ∧
      (1 + spanList in1) + (1 + spanList in2) < hist ∧
      (if c1.lt c2 then
        [mkdirAt hist (joinPath pathout r ++ "/" ++ ("." ++ y ++ "_hist")),
          cpAt f1 hist (joinPath path1 r ++ "/" ++ y)
            (joinPath pathout r ++ "/" ++ ("." ++ y ++ "_hist")),
          cpAt f2 dn (joinPath path2 r ++ "/" ++ y) (joinPath pathout r)]
      else
        [mkdirAt hist (joinPath pathout r ++ "/" ++ ("." ++ y ++ "_hist")),
          cpAt f2 hist (joinPath path2 r ++ "/" ++ y)
            (joinPath pathout r ++ "/" ++ ("." ++ y ++ "_hist")),
          cpAt f1 dn (joinPath path1 r ++ "/" ++ y) (joinPath pathout r)]) <:+:
        t.state.editSteps ∧
      t.state.editSteps.filter (fun s => s.acting = f1) =
        [if c1.lt c2 then
          cpAt f1 hist (joinPath path1 r ++ "/" ++ y)
            (joinPath pathout r ++ "/" ++ ("." ++ y ++ "_hist"))
        else cpAt f1 dn (joinPath path1 r ++ "/" ++ y) (joinPath pathout r)] ∧
      t.state.editSteps.filter (fun s => s.acting = f2) =
        [if c1.lt c2 then cpAt f2 dn (joinPath path2 r ++ "/" ++ y) (joinPath pathout r)
        else
          cpAt f2 hist (joinPath path2 r ++ "/" ++ y)
            (joinPath pathout r ++ "/" ++ ("." ++ y ++ "_hist"))] ∧
      (∀ n reg size c dg fx, findAt es1 b1 n = some (.file n reg size c dg, fx) →
        findAt es2 b2 n = none →
        t.state.editSteps.filter (fun s => s.acting = fx) =
          [cpAt fx dn (joinPath path1 r ++ "/" ++ n) (joinPath pathout r)] ∧
        Pristine (t.state.heap fx)) ∧
      (∀ n reg size c dg fz, findAt es2 b2 n = some (.file n reg size c dg, fz) →
        findAt es1 b1 n = none →
        t.state.editSteps.filter (fun s => s.acting = fz) =
          [cpAt fz dn (joinPath path2 r ++ "/" ++ n) (joinPath pathout r)] ∧
        Pristine (t.state.heap fz)) := by
  obtain ⟨hA, hpA⟩ := scanPhaseA_total path1 path2 in1 in2 hok1 hok2
  have hpr := all_pristine path1 path2 in1 in2 hok1 hok2 hkeys hA hpA
  obtain ⟨hs, hcore, hr1, hr2, -, -⟩ := scan_rep path1 path2 in1 in2 hok1 hok2 hA hpA
  obtain ⟨stB, tops, t, h1, hsim, htnd, htop, hpairs, hsteps, hfin⟩ :=
    plan_pairs fuel path1 path2 pathout in1 in2 hok1 hok2 hkeys hf1 hf2 hfuel hA hpA
  have hnd := planEvs_nodup hA path1 path2 pathout in1 in2 hok1 hok2
  obtain ⟨dn, nx', nx2', i1, i2, i3⟩ := both_descent hA r in1 in2 1 (1 + (1 + spanList in1))
    ((1 + spanList in1) + (1 + spanList in2)) ((1 + spanList in1) + (1 + spanList in2) + 1)
    ((1 + spanList in1) + (1 + spanList in2) + 1 + bothNewList in1 in2) path1 path2 pathout
    es1 es2 b1 b2 hd1 hd2
  have hin : ∀ ev ∈ bothEvsList hA es1 es2 b2 b1 dn nx' (joinPath path1 r) (joinPath path2 r)
        (joinPath pathout r) ++
      aloneEvsList hA es2 (es1.map Entry.name) b2 dn nx2' (joinPath path2 r)
        (joinPath pathout r), ev ∈ planEvs hA path1 path2 pathout in1 in2 := fun ev hev => by
    simp only [planEvs]
    exact List.mem_cons_of_mem _ (i1 ev hev)
  have hmk : Ev.mk dn (joinPath pathout r) ∈ planEvs hA path1 path2 pathout in1 in2 := by
    by_cases hr : r = []
    · subst hr
      rw [i2 rfl]
      simp [planEvs, joinPath]
    · simp only [planEvs]
      exact List.mem_cons_of_mem _ (List.mem_append.mpr (Or.inl (i3 hr)))
  have hpe : Ev.pair f1 f2 dn (joinPath path1 r ++ "/" ++ y) (joinPath path2 r ++ "/" ++ y)
      (joinPath pathout r) ∈ planEvs hA path1 path2 pathout in1 in2 :=
    hin _ (List.mem_append.mpr (Or.inl
      (pair_event hA es1 es2 b2 b1 dn nx' _ _ _ y reg1 size1 c1 dg1 f1 _ f2 hy1 hy2)))
  have hnx : (1 + spanList in1) + (1 + spanList in2) ≤ stB.next := hsim.keeps.1
  have hsubj_lt : ∀ ev ∈ planEvs hA path1 path2 pathout in1 in2, ∀ a ∈ ev.subj,
      a < stB.next := by
    intro ev hev a ha
    have hd := hsim.done ev hev
    cases ev with
    | mk a' p =>
      simp only [Ev.subj, List.mem_singleton] at ha
      subst ha
      exact hd.1
    | cp f d src out =>
      simp only [Ev.subj, List.mem_singleton] at ha
      subst ha
      simp only [Ev.Done] at hd
      have := hd.lt
      omega
    | sub f d src out =>
      simp only [Ev.subj, List.mem_singleton] at ha
      subst ha
      simp only [Ev.Done] at hd
      have := hd.lt
      omega
    | pair c1' c2' d s1 s2 out =>
      simp only [Ev.subj, List.mem_cons, List.mem_singleton, List.not_mem_nil,
        or_false] at ha
      simp only [Ev.Done] at hd
      have := hd.1.lt
      have := hd.2.1.lt
      rcases ha with rfl | rfl <;> omega
  have hout : ∀ ev ∈ planEvs hA path1 path2 pathout in1 in2, ev.touched = [] →
      ∀ a ∈ ev.subj, ∀ u ∈ tops, a ∉ hierOf stB.heap u := by
    intro ev hev hnt a ha u hu hm
    obtain ⟨c1', d, s1, s2, o, hev', hh⟩ := htop u hu
    rw [hh] at hm
    have hm' : a ∈ (Ev.pair c1' u d s1 s2 o).subj := by
      simp only [List.mem_cons, List.mem_singleton, List.not_mem_nil, or_false] at hm
      simp only [Ev.subj, List.mem_cons, List.mem_singleton, List.not_mem_nil, or_false]
      exact hm.symm
    have := subj_unique hnd hev hev' ha hm'
    rw [this] at hnt
    simp [Ev.touched] at hnt
  have hsteps_of : ∀ ev ∈ planEvs hA path1 path2 pathout in1 in2, ev.touched = [] →
      ∀ a ∈ ev.subj, t.state.editSteps.filter (fun s => s.acting = a) =
        ev.steps.filter (fun s => s.acting = a) := by
    intro ev hev hnt a ha
    rw [hsteps, List.filter_append, filter_steps_unique hnd hev ha,
      histStepsAll_filter_none (hsubj_lt ev hev a ha) (by
        intro pq hpq
        obtain ⟨u, hu, rfl⟩ := List.mem_map.mp hpq
        exact hout ev hev hnt a ha u hu)]
    simp
  -- the two files of the collision
  have hd := hsim.done _ hpe
  simp only [Ev.Done] at hd
  obtain ⟨d1, d2, d3, d4, d5, d6, d7⟩ := hd
  have k1 : f2 ∈ tops := hpairs _ _ _ _ _ _ hpe
  have k2 : hierOf stB.heap f2 = [f2, f1] := by simp [hierOf, d7]
  obtain ⟨pre, post, hsplit⟩ := List.append_of_mem k1
  obtain ⟨a1, a2, a3, a4, a5, -⟩ := located_file hcore hr1 hd1 hy1
  obtain ⟨e1, e2, e3, e4, e5, -⟩ := located_file hcore hr2 hd2 hy2
  have hk1 := hsim.keeps.2 f1 d1.lt
  have hk2 := hsim.keeps.2 f2 d2.lt
  simp only [afterA] at hk1 hk2
  have hdt1 : (stB.heap f1).date_changed = c1 := by rw [hk1.2.1]; exact a1
  have hdt2 : (stB.heap f2).date_changed = c2 := by rw [hk2.2.1]; exact e1
  have hnm1 : (stB.heap f1).name = y := by rw [hk1.1]; exact a2
  have hnm2 : (stB.heap f2).name = y := by rw [hk2.1]; exact e2
  have hne12 : f2 ≠ f1 := by omega
  have hH := histSteps_two stB.heap (stB.next + pre.length) f2 f1 dn hne12
    (by rw [hdt2, hdt1]; exact fun e => hne e.symm) d2.dst d1.dst
  rw [hdt2, hdt1, hnm1, hnm2, d1.path, d2.path, d1.dpath] at hH
  have hsteps2 : t.state.editSteps =
      (planEvs hA path1 path2 pathout in1 in2).flatMap Ev.steps ++
        (histStepsAll stB.heap stB.next (pre.map (fun u => hierOf stB.heap u)) ++
          (histSteps stB.heap (stB.next + pre.length) [f2, f1] ++
            histStepsAll stB.heap (stB.next + pre.length + 1)
              (post.map (fun u => hierOf stB.heap u)))) := by
    rw [hsteps, hsplit, List.map_append, histStepsAll_append, List.map_cons, List.length_map]
    simp only [histStepsAll, k2]
  have hother : ∀ u ∈ tops, u ≠ f2 → ∀ a, a = f1 ∨ a = f2 → a ∉ hierOf stB.heap u := by
    intro u hu hu2 a ha hm
    obtain ⟨c1', d, s1, s2, o, hev', hh⟩ := htop u hu
    rw [hh] at hm
    have hm' : a ∈ (Ev.pair c1' u d s1 s2 o).subj := by
      simp only [List.mem_cons, List.mem_singleton, List.not_mem_nil, or_false] at hm
      simp only [Ev.subj, List.mem_cons, List.mem_singleton, List.not_mem_nil, or_false]
      exact hm.symm
    have ha' : a ∈ (Ev.pair f1 f2 dn (joinPath path1 r ++ "/" ++ y)
        (joinPath path2 r ++ "/" ++ y) (joinPath pathout r)).subj := by
      simp only [Ev.subj, List.mem_cons, List.mem_singleton, List.not_mem_nil, or_false]
      exact ha
    have := subj_unique hnd hpe hev' ha' hm'
    simp only [Ev.pair.injEq] at this
    exact hu2 this.2.1.symm
  have hnd' : (pre ++ f2 :: post).Nodup := hsplit ▸ htnd
  have hpre : ∀ u ∈ pre, u ∈ tops ∧ u ≠ f2 := fun u hu => by
    refine ⟨by rw [hsplit]; simp [hu], fun e => ?_⟩
    rw [List.nodup_append] at hnd'
    exact hnd'.2.2 hu (e ▸ List.mem_cons_self _ _)
  have hpost : ∀ u ∈ post, u ∈ tops ∧ u ≠ f2 := fun u hu => by
    refine ⟨by rw [hsplit]; simp [hu], fun e => ?_⟩
    rw [List.nodup_append] at hnd'
    exact (List.nodup_cons.mp hnd'.2.1).1 (e ▸ hu)
  have hfil : ∀ a, a = f1 ∨ a = f2 →
      t.state.editSteps.filter (fun s => s.acting = a) =
        (histSteps stB.heap (stB.next + pre.length) [f2, f1]).filter
          (fun s => s.acting = a) := by
    intro a ha
    have halt : a < stB.next := by
      have := d1.lt
      have := d2.lt
      rcases ha with rfl | rfl <;> omega
    have ha' : a ∈ (Ev.pair f1 f2 dn (joinPath path1 r ++ "/" ++ y)
        (joinPath path2 r ++ "/" ++ y) (joinPath pathout r)).subj := by
      simp only [Ev.subj, List.mem_cons, List.mem_singleton, List.not_mem_nil, or_false]
      exact ha
    rw [hsteps2, List.filter_append, List.filter_append, List.filter_append,
      filter_steps_unique hnd hpe ha',
      histStepsAll_filter_none halt (by
        intro pq hpq
        obtain ⟨u, hu, rfl⟩ := List.mem_map.mp hpq
        exact hother u (hpre u hu).1 (hpre u hu).2 a ha),
      histStepsAll_filter_none (by omega) (by
        intro pq hpq
        obtain ⟨u, hu, rfl⟩ := List.mem_map.mp hpq
        exact hother u (hpost u hu).1 (hpost u hu).2 a ha)]
    simp [Ev.steps]
  have hh1 : stB.next + pre.length ≠ f1 := by have := d1.lt; omega
  have hh2 : stB.next + pre.length ≠ f2 := by have := d2.lt; omega
  have hsn : stB.next = (1 + spanList in1) + (1 + spanList in2) +
      (1 + (bothNewList in1 in2 + aloneNewList in2 (in1.map Entry.name))) := hsim.next
  refine ⟨t, dn, stB.next + pre.length, h1, ?_, by omega, ?_, ?_, ?_, ?_, ?_⟩
  · rw [hsteps_of _ hmk rfl dn (by simp [Ev.subj])]
    simp [Ev.steps, mkdirAt]
  · refine ⟨(planEvs hA path1 path2 pathout in1 in2).flatMap Ev.steps ++
      histStepsAll stB.heap stB.next (pre.map (fun u => hierOf stB.heap u)),
      histStepsAll stB.heap (stB.next + pre.length + 1)
        (post.map (fun u => hierOf stB.heap u)), ?_⟩
    rw [hsteps2, hH]
    by_cases hlt : c1.lt c2
    · have hlt' : ¬ c2.lt c1 := Timespec.lt_asymm hlt
      simp only [hlt, hlt', if_true, if_false, List.append_assoc]
    · have hlt' : c2.lt c1 := by
        rcases Timespec.lt_or_gt_of_ne hne with h | h
        · exact absurd h hlt
        · exact h
      simp only [hlt, hlt', if_true, if_false, List.append_assoc]
  · rw [hfil f1 (Or.inl rfl), hH]
    by_cases hlt : c1.lt c2
    · have hlt' : ¬ c2.lt c1 := Timespec.lt_asymm hlt
      simp [hlt, hlt', mkdirAt, cpAt, hh1, hne12]
    · have hlt' : c2.lt c1 := by
        rcases Timespec.lt_or_gt_of_ne hne with h | h
        · exact absurd h hlt
        · exact h
      simp [hlt, hlt', mkdirAt, cpAt, hh1, hne12]
  · rw [hfil f2 (Or.inr rfl), hH]
    have hne21 : f1 ≠ f2 := fun e => hne12 e.symm
    by_cases hlt : c1.lt c2
    · have hlt' : ¬ c2.lt c1 := Timespec.lt_asymm hlt
      simp [hlt, hlt', mkdirAt, cpAt, hh2, hne21]
    · have hlt' : c2.lt c1 := by
        rcases Timespec.lt_or_gt_of_ne hne with h | h
        · exact absurd h hlt
        · exact h
      simp [hlt, hlt', mkdirAt, cpAt, hh2, hne21]
  · intro n reg size c dg fx hx1 hx2
    have hev : Ev.cp fx dn (joinPath path1 r ++ "/" ++ n) (joinPath pathout r) ∈
        planEvs hA path1 path2 pathout in1 in2 := by
      have := hin _ (List.mem_append.mpr (Or.inl
        (file_event_first hA es1 es2 b2 b1 dn nx' (joinPath path1 r) (joinPath path2 r)
          (joinPath pathout r) n reg size c dg fx hx1 hx2)))
      rwa [fileEv_single (fun f => single_of_pristine (hpr f))] at this
    have hdx := hsim.done _ hev
    simp only [Ev.Done] at hdx
    refine ⟨?_, (hfin fx hdx.lt (hout _ hev rfl fx (by simp [Ev.subj]))).1⟩
    rw [hsteps_of _ hev rfl fx (by simp [Ev.subj])]
    simp [Ev.steps, cpAt]
  · intro n reg size c dg fz hz1 hz2
    have hev : Ev.cp fz dn (joinPath path2 r ++ "/" ++ n) (joinPath pathout r) ∈
        planEvs hA path1 path2 pathout in1 in2 := by
      have := hin _ (List.mem_append.mpr (Or.inr
        (file_event_alone hA es2 (es1.map Entry.name) b2 dn nx2' (joinPath path2 r)
          (joinPath pathout r) n reg size c dg fz hz1 (findAt_none.mp hz2))))
      rwa [fileEv_single (fun f => single_of_pristine (hpr f))] at this
    have hdz := hsim.done _ hev
    simp only [Ev.Done] at hdz
    refine ⟨?_, (hfin fz hdz.lt (hout _ hev rfl fz (by simp [Ev.subj]))).1⟩
    rw [hsteps_of _ hev rfl fz (by simp [Ev.subj])]
    simp [Ev.steps, cpAt]

theorem nested_merge_witness :
    ∃ (t : FsTree) (dn hist : Nat),
      unidupe 2 "in1" "in2" "out" mergeIn1 mergeIn2 = some t ∧
      t.state.editSteps.filter (fun s => s.acting = dn) =
        [mkdirAt dn (joinPath "out" ["d"])] ∧
      (1 + spanList mergeIn1) + (1 + spanList mergeIn2) < hist ∧
      (if (Timespec.mk 1 0).lt (Timespec.mk 2 0) then
        [mkdirAt hist (joinPath "out" ["d"] ++ "/" ++ ("." ++ "y" ++ "_hist")),
          cpAt 3 hist (joinPath "in1" ["d"] ++ "/" ++ "y")
            (joinPath "out" ["d"] ++ "/" ++ ("." ++ "y" ++ "_hist")),
          cpAt 6 dn (joinPath "in2" ["d"] ++ "/" ++ "y") (joinPath "out" ["d"])]
      else
        [mkdirAt hist (joinPath "out" ["d"] ++ "/" ++ ("." ++ "y" ++ "_hist")),
          cpAt 6 hist (joinPath "in2" ["d"] ++ "/" ++ "y")
            (joinPath "out" ["d"] ++ "/" ++ ("." ++ "y" ++ "_hist")),
          cpAt 3 dn (joinPath "in1" ["d"] ++ "/" ++ "y") (joinPath "out" ["d"])]) <:+:
        t.state.editSteps ∧
      t.state.editSteps.filter (fun s => s.acting = 3) =
        [if (Timespec.mk 1 0).lt (Timespec.mk 2 0) then
          cpAt 3 hist (joinPath "in1" ["d"] ++ "/" ++ "y")
            (joinPath "out" ["d"] ++ "/" ++ ("." ++ "y" ++ "_hist"))
        else cpAt 3 dn (joinPath "in1" ["d"] ++ "/" ++ "y") (joinPath "out" ["d"])] ∧
      t.state.editSteps.filter (fun s => s.acting = 6) =
        [if (Timespec.mk 1 0).lt (Timespec.mk 2 0) then
          cpAt 6 dn (joinPath "in2" ["d"] ++ "/" ++ "y") (joinPath "out" ["d"])
        else
          cpAt 6 hist (joinPath "in2" ["d"] ++ "/" ++ "y")
            (joinPath "out" ["d"] ++ "/" ++ ("." ++ "y" ++ "_hist"))] ∧
      (∀ n reg size c dg fx,
        findAt [mkFile "x" 1 1, mkFile "y" 1 2] 2 n = some (.file n reg size c dg, fx) →
        findAt [mkFile "y" 2 3, mkFile "z" 1 4] 6 n = none →
        t.state.editSteps.filter (fun s => s.acting = fx) =
          [cpAt fx dn (joinPath "in1" ["d"] ++ "/" ++ n) (joinPath "out" ["d"])] ∧
        Pristine (t.state.heap fx)) ∧
      (∀ n reg size c dg fz,
        findAt [mkFile "y" 2 3, mkFile "z" 1 4] 6 n = some (.file n reg size c dg, fz) →
        findAt [mkFile "x" 1 1, mkFile "y" 1 2] 2 n = none →
        t.state.editSteps.filter (fun s => s.acting = fz) =
          [cpAt fz dn (joinPath "in2" ["d"] ++ "/" ++ n) (joinPath "out" ["d"])] ∧
        Pristine (t.state.heap fz)) :=
  nested_merge 2 "in1" "in2" "out" mergeIn1 mergeIn2 ["d"]
    [mkFile "x" 1 1, mkFile "y" 1 2] [mkFile "y" 2 3, mkFile "z" 1 4] 2 6 "y" true true 0 0
    ⟨1, 0⟩ ⟨2, 0⟩ (digestOf 2) (digestOf 3) 3 6
    (by simp [mergeIn1, namesOKList, Entry.namesOK, Entry.name, mkFile, mkDir])
    (by simp [mergeIn2, namesOKList, Entry.namesOK, Entry.name, mkFile, mkDir])
    (by decide) (by decide) (by decide) (by decide) rfl rfl rfl rfl (by decide)

/-! ## Events of the files of trees that are apart -/

theorem apartList_mem : ∀ {es es2 : List Entry} {e : Entry}, apartList es es2 = true →
    e ∈ es → e.apart es2 = true
  | x :: es, es2, e, h, hm => by
    simp only [apartList, Bool.and_eq_true] at h
    rcases List.mem_cons.mp hm with rfl | hm
    · exact h.1
    · exact apartList_mem h.2 hm

/-- A non-directory of tree 1 has no namesake in tree 2 at the same location. -/
theorem apart_file_none {es es2 : List Entry} {b b2 : Nat} {n n' : String} {reg : Bool}
    {size : Nat} {c : Timespec} {dg : List Nat} {f : Nat} (h : apartList es es2 = true)
    (hf : findAt es b n = some (.file n' reg size c dg, f)) : findAt es2 b2 n = none := by
  obtain ⟨j1, j2, -⟩ := findAt_bounds es b n _ f hf
  have := apartList_mem h j2
  simp only [Entry.name] at j1
  subst j1
  simp only [Entry.apart, Option.isNone_iff_eq_none] at this
  cases hq : findAt es2 b2 n' with
  | none => rfl
  | some x =>
    obtain ⟨e2, a2⟩ := x
    rw [findAt_entry_some hq] at this
    cases this

/-- A directory of tree 1 with a namesake in tree 2 at the same location: the namesake is a
directory, and their listings are apart. -/
theorem apart_dir {es es2 : List Entry} {b b2 : Nat} {n n' : String} {size : Nat}
    {c : Timespec} {l1 : List Entry} {a1 : Nat} {e2 : Entry} {a2 : Nat}
    (h : apartList es es2 = true) (hf : findAt es b n = some (.dir n' size c l1, a1))
    (h2 : findAt es2 b2 n = some (e2, a2)) :
    ∃ n2 size2 c2 l2, e2 = .dir n2 size2 c2 l2 ∧ apartList l1 l2 = true := by
  obtain ⟨j1, j2, -⟩ := findAt_bounds es b n _ a1 hf
  have := apartList_mem h j2
  simp only [Entry.name] at j1
  subst j1
  simp only [Entry.apart, findAt_entry_some h2] at this
  cases e2 with
  | file n2 reg2 size2 c2 dg2 => simp at this
  | dir n2 size2 c2 l2 => exact ⟨n2, size2, c2, l2, rfl, this⟩

/-- A non-directory of tree 2 has no namesake in tree 1 at the same location. -/
theorem apart_second_file {es es2 : List Entry} {b2 : Nat} {n n' : String} {reg : Bool}
    {size : Nat} {c : Timespec} {dg : List Nat} {f : Nat} (h : apartList es es2 = true)
    (hf : findAt es2 b2 n = some (.file n' reg size c dg, f)) : n ∉ es.map Entry.name := by
  intro hm
  have hs : (findAt es 0 n).isSome := findAt_mem.mpr hm
  cases hq : findAt es 0 n with
  | none => simp [hq] at hs
  | some x =>
    obtain ⟨e1, a1⟩ := x
    cases e1 with
    | file n1 reg1 size1 c1 dg1 =>
      have := @apart_file_none _ _ _ b2 _ _ _ _ _ _ _ h hq
      rw [this] at hf
      cases hf
    | dir n1 size1 c1 l1 =>
      obtain ⟨n2, s2, c2, l2, e, -⟩ := apart_dir h hq hf
      cases e

/-- The event of a non-directory located below a listing that one tree has, and the event of
its directory. -/
theorem alone_located (hA : Heap) : ∀ (r : List String) (es : List Entry)
    (skip : List String) (b d nx : Nat) (src out : String) (es' : List Entry) (b' : Nat)
    (n : String) (reg : Bool) (size : Nat) (c : Timespec) (dg : List Nat) (f : Nat),
    dirAtFrom es b r = some (es', b') → findAt es' b' n = some (.file n reg size c dg, f) →
    (r = [] → n ∉ skip) → (∀ m r', r = m :: r' → m ∉ skip) →
    ∃ d', fileEv hA f d' (joinPath src r ++ "/" ++ n) (joinPath out r) ∈
        aloneEvsList hA es skip b d nx src out ∧
      (r = [] → d' = d) ∧
      (r ≠ [] → Ev.mk d' (joinPath out r) ∈ aloneEvsList hA es skip b d nx src out)
  | [], es, skip, b, d, nx, src, out, es', b', n, reg, size, c, dg, f => by
    intro h1 hf hs _
    simp only [dirAtFrom, Option.some.injEq, Prod.mk.injEq] at h1
    obtain ⟨rfl, rfl⟩ := h1
    exact ⟨d, file_event_alone hA es skip b d nx src out n reg size c dg f hf (hs rfl),
      fun _ => rfl, fun h => absurd rfl h⟩
  | m :: r, es, skip, b, d, nx, src, out, es', b', n, reg, size, c, dg, f => by
    intro h1 hf _ hs
    simp only [dirAtFrom] at h1
    cases hf1 : findAt es b m with
    | none => simp [hf1] at h1
    | some x1 =>
      obtain ⟨e1, a1⟩ := x1
      cases e1 with
      | file n1 reg1 size1 c1 dg1 => simp [hf1] at h1
      | dir n1 size1 c1 l1 =>
        simp only [hf1] at h1
        have hn1 : n1 = m := findAt_name hf1
        subst hn1
        obtain ⟨nx', hsub⟩ := aloneEvs_sub hA es skip b d nx src out n1 _ a1 hf1
          (hs n1 r rfl)
        simp only [Entry.aloneEvs] at hsub
        obtain ⟨d', i1, i2, i3⟩ := alone_located hA r l1 [] (a1 + 1) nx' (nx' + 1)
          (src ++ "/" ++ n1) (out ++ "/" ++ n1) es' b' n reg size c dg f h1 hf
          (fun _ => by simp) (fun _ _ _ => by simp)
        refine ⟨d', hsub _ (List.mem_cons_of_mem _ i1), (fun h => by cases h), fun _ => ?_⟩
        apply hsub
        by_cases hr : r = []
        · subst hr
          rw [i2 rfl]
          exact List.mem_cons_self _ _
        · exact List.mem_cons_of_mem _ (i3 hr)

/-- The event of a non-directory located in tree 1, and the event of its directory, when the
trees are apart. -/
theorem first_located (hA : Heap) : ∀ (r : List String) (es1 es2 : List Entry)
    (b1 b2 d nx : Nat) (s1 s2 out : String) (es' : List Entry) (b' : Nat)
    (n : String) (reg : Bool) (size : Nat) (c : Timespec) (dg : List Nat) (f : Nat),
    dirAtFrom es1 b1 r = some (es', b') → findAt es' b' n = some (.file n reg size c dg, f) →
    apartList es1 es2 = true →
    ∃ d', fileEv hA f d' (joinPath s1 r ++ "/" ++ n) (joinPath out r) ∈
        bothEvsList hA es1 es2 b2 b1 d nx s1 s2 out ∧
      (r = [] → d' = d) ∧
      (r ≠ [] → Ev.mk d' (joinPath out r) ∈ bothEvsList hA es1 es2 b2 b1 d nx s1 s2 out)
  | [], es1, es2, b1, b2, d, nx, s1, s2, out, es', b', n, reg, size, c, dg, f => by
    intro h1 hf hap
    simp only [dirAtFrom, Option.some.injEq, Prod.mk.injEq] at h1
    obtain ⟨rfl, rfl⟩ := h1
    exact ⟨d, file_event_first hA es1 es2 b2 b1 d nx s1 s2 out n reg size c dg f hf
      (apart_file_none hap hf), fun _ => rfl, fun h => absurd rfl h⟩
  | m :: r, es1, es2, b1, b2, d, nx, s1, s2, out, es', b', n, reg, size, c, dg, f => by
    intro h1 hf hap
    simp only [dirAtFrom] at h1
    cases hf1 : findAt es1 b1 m with
    | none => simp [hf1] at h1
    | some x1 =>
      obtain ⟨e1, a1⟩ := x1
      cases e1 with
      | file n1 reg1 size1 c1 dg1 => simp [hf1] at h1
      | dir n1 size1 c1 l1 =>
        simp only [hf1] at h1
        have hn1 : n1 = m := findAt_name hf1
        subst hn1
        obtain ⟨nx', hsub⟩ := bothEvs_sub hA es1 es2 b2 b1 d nx s1 s2 out n1 _ a1 hf1
        cases hf2 : findAt es2 b2 n1 with
        | none =>
          simp only [Entry.bothEvs, hf2] at hsub
          obtain ⟨d', i1, i2, i3⟩ := alone_located hA r l1 [] (a1 + 1) nx' (nx' + 1)
            (s1 ++ "/" ++ n1) (out ++ "/" ++ n1) es' b' n reg size c dg f h1 hf
            (fun _ => by simp) (fun _ _ _ => by simp)
          refine ⟨d', hsub _ (List.mem_cons_of_mem _ i1), (fun h => by cases h), fun _ => ?_⟩
          apply hsub
          by_cases hr : r = []
          · subst hr
            rw [i2 rfl]
            exact List.mem_cons_self _ _
          · exact List.mem_cons_of_mem _ (i3 hr)
        | some x2 =>
          obtain ⟨e2, a2⟩ := x2
          obtain ⟨n2, size2, c2, l2, rfl, hap'⟩ := apart_dir hap hf1 hf2
          simp only [Entry.bothEvs, hf2] at hsub
          obtain ⟨d', i1, i2, i3⟩ := first_located hA r l1 l2 (a1 + 1) (a2 + 1) a1 nx'
            (s1 ++ "/" ++ n1) (s2 ++ "/" ++ n1) (out ++ "/" ++ n1) es' b' n reg size c dg f
            h1 hf hap'
          refine ⟨d', hsub _ (List.mem_cons_of_mem _ (List.mem_append.mpr (Or.inl i1))),
            (fun h => by cases h), fun _ => ?_⟩
          apply hsub
          by_cases hr : r = []
          · subst hr
            rw [i2 rfl]
            exact List.mem_cons_self _ _
          · exact List.mem_cons_of_mem _ (List.mem_append.mpr (Or.inl (i3 hr)))

/-- The event of a non-directory located in tree 2, and the event of its directory, when the
trees are apart. -/
theorem second_located (hA : Heap) : ∀ (r : List String) (es1 es2 : List Entry)
    (b1 b2 d nx nx2 : Nat) (s1 s2 out : String) (es' : List Entry) (b' : Nat)
    (n : String) (reg : Bool) (size : Nat) (c : Timespec) (dg : List Nat) (f : Nat),
    dirAtFrom es2 b2 r = some (es', b') → findAt es' b' n = some (.file n reg size c dg, f) →
    apartList es1 es2 = true →
    ∃ d', fileEv hA f d' (joinPath s2 r ++ "/" ++ n) (joinPath out r) ∈
        bothEvsList hA es1 es2 b2 b1 d nx s1 s2 out ++
          aloneEvsList hA es2 (es1.map Entry.name) b2 d nx2 s2 out ∧
      (r = [] → d' = d) ∧
      (r ≠ [] → Ev.mk d' (joinPath out r) ∈
        bothEvsList hA es1 es2 b2 b1 d nx s1 s2 out ++
          aloneEvsList hA es2 (es1.map Entry.name) b2 d nx2 s2 out)
  | [], es1, es2, b1, b2, d, nx, nx2, s1, s2, out, es', b', n, reg, size, c, dg, f => by
    intro h1 hf hap
    simp only [dirAtFrom, Option.some.injEq, Prod.mk.injEq] at h1
    obtain ⟨rfl, rfl⟩ := h1
    exact ⟨d, List.mem_append.mpr (Or.inr
      (file_event_alone hA es2 _ b2 d nx2 s2 out n reg size c dg f hf
        (apart_second_file hap hf))), fun _ => rfl, fun h => absurd rfl h⟩
  | m :: r, es1, es2, b1, b2, d, nx, nx2, s1, s2, out, es', b', n, reg, size, c, dg, f => by
    intro h1 hf hap
    simp only [dirAtFrom] at h1
    cases hf2 : findAt es2 b2 m with
    | none => simp [hf2] at h1
    | some x2 =>
      obtain ⟨e2, a2⟩ := x2
      cases e2 with
      | file n2 reg2 size2 c2 dg2 => simp [hf2] at h1
      | dir n2 size2 c2 l2 =>
        simp only [hf2] at h1
        have hn2 : n2 = m := findAt_name hf2
        subst hn2
        cases hf1 : findAt es1 b1 n2 with
        | none =>
          obtain ⟨nx', hsub⟩ := aloneEvs_sub hA es2 (es1.map Entry.name) b2 d nx2 s2 out n2 _
            a2 hf2 (findAt_none.mp hf1)
          simp only [Entry.aloneEvs] at hsub
          obtain ⟨d', i1, i2, i3⟩ := alone_located hA r l2 [] (a2 + 1) nx' (nx' + 1)
            (s2 ++ "/" ++ n2) (out ++ "/" ++ n2) es' b' n reg size c dg f h1 hf
            (fun _ => by simp) (fun _ _ _ => by simp)
          refine ⟨d', List.mem_append.mpr (Or.inr (hsub _ (List.mem_cons_of_mem _ i1))),
            (fun h => by cases h), fun _ => ?_⟩
          refine List.mem_append.mpr (Or.inr (hsub _ ?_))
          by_cases hr : r = []
          · subst hr
            rw [i2 rfl]
            exact List.mem_cons_self _ _
          · exact List.mem_cons_of_mem _ (i3 hr)
        | some x1 =>
          obtain ⟨e1, a1⟩ := x1
          cases e1 with
          | file n1 reg1 size1 c1 dg1 =>
            have := @apart_file_none _ _ _ b2 _ _ _ _ _ _ _ hap hf1
            rw [this] at hf2
            cases hf2
          | dir n1 size1 c1 l1 =>
            obtain ⟨n2', size2', c2', l2', e, hap'⟩ := apart_dir hap hf1 hf2
            simp only [Entry.dir.injEq] at e
            obtain ⟨-, -, -, rfl⟩ := e
            have hn1 : n1 = n2 := findAt_name hf1
            subst hn1
            obtain ⟨nx', hsub⟩ := bothEvs_sub hA es1 es2 b2 b1 d nx s1 s2 out n1 _ a1 hf1
            simp only [Entry.bothEvs, hf2] at hsub
            obtain ⟨d', i1, i2, i3⟩ := second_located hA r l1 l2 (a1 + 1) (a2 + 1) a1 nx'
              (nx' + bothNewList l1 l2) (s1 ++ "/" ++ n1) (s2 ++ "/" ++ n1)
              (out ++ "/" ++ n1) es' b' n reg size c dg f h1 hf hap'
            refine ⟨d', List.mem_append.mpr (Or.inl (hsub _ (List.mem_cons_of_mem _ i1))),
              (fun h => by cases h), fun _ => ?_⟩
            refine List.mem_append.mpr (Or.inl (hsub _ ?_))
            by_cases hr : r = []
            · subst hr
              rw [i2 rfl]
              exact List.mem_cons_self _ _
            · exact List.mem_cons_of_mem _ (i3 hr)

theorem fileEv_touched_nil (hA : Heap) (f d : Nat) (src out : String) :
    (fileEv hA f d src out).touched = [] := by
  unfold fileEv
  split <;> rfl

mutual
theorem Entry.aloneEvs_untouched (hA : Heap) : ∀ (e : Entry) (b d nx : Nat)
    (src out : String), ∀ ev ∈ e.aloneEvs hA b d nx src out, ev.touched = []
  | .file name regular size ctime digest, b, d, nx, src, out => by
    intro ev hev
    simp only [Entry.aloneEvs, List.mem_singleton] at hev
    subst hev
    exact fileEv_touched_nil _ _ _ _ _
  | .dir name size ctime es, b, d, nx, src, out => by
    intro ev hev
    simp only [Entry.aloneEvs, List.mem_cons] at hev
    rcases hev with rfl | hev
    · rfl
    · exact aloneEvsList_untouched hA es [] _ _ _ _ _ ev hev
theorem aloneEvsList_untouched (hA : Heap) : ∀ (es : List Entry) (skip : List String)
    (b d nx : Nat) (src out : String),
    ∀ ev ∈ aloneEvsList hA es skip b d nx src out, ev.touched = []
  | [], skip, b, d, nx, src, out => by
    intro ev hev
    simp [aloneEvsList] at hev
  | e :: es, skip, b, d, nx, src, out => by
    intro ev hev
    simp only [aloneEvsList] at hev
    split at hev
    · exact aloneEvsList_untouched hA es skip _ _ _ _ _ ev hev
    · rcases List.mem_append.mp hev with hev | hev
      · exact Entry.aloneEvs_untouched hA e _ _ _ _ _ ev hev
      · exact aloneEvsList_untouched hA es skip _ _ _ _ _ ev hev
end

mutual
theorem Entry.bothEvs_untouched (hA : Heap) : ∀ (e : Entry) (es2 : List Entry)
    (b2 b d nx : Nat) (s1 s2 out : String), e.apart es2 = true →
    ∀ ev ∈ e.bothEvs hA es2 b2 b d nx s1 s2 out, ev.touched = []
  | .file name regular size ctime digest, es2, b2, b, d, nx, s1, s2, out => by
    intro ha ev hev
    simp only [Entry.apart, Option.isNone_iff_eq_none] at ha
    simp only [Entry.bothEvs] at hev
    cases hfind : findAt es2 b2 name with
    | none =>
      rw [hfind] at hev
      simp only [List.mem_singleton] at hev
      subst hev
      exact fileEv_touched_nil _ _ _ _ _
    | some x =>
      obtain ⟨e2, a2⟩ := x
      rw [findAt_entry_some hfind] at ha
      cases ha
  | .dir name size ctime es, es2, b2, b, d, nx, s1, s2, out => by
    intro ha ev hev
    simp only [Entry.apart] at ha
    simp only [Entry.bothEvs] at hev
    cases hfind : findAt es2 b2 name with
    | none =>
      rw [hfind] at hev
      simp only [List.mem_cons] at hev
      rcases hev with rfl | hev
      · rfl
      · exact aloneEvsList_untouched hA es [] _ _ _ _ _ ev hev
    | some x =>
      obtain ⟨e2, a2⟩ := x
      rw [hfind] at hev
      rw [findAt_entry_some hfind] at ha
      cases e2 with
      | dir name2 size2 ctime2 es' =>
        simp only at ha
        simp only [List.mem_cons, List.mem_append] at hev
        rcases hev with rfl | hev | hev
        · rfl
        · exact bothEvsList_untouched hA es es' _ _ _ _ _ _ _ ha ev hev
        · exact aloneEvsList_untouched hA es' _ _ _ _ _ _ ev hev
      | file name2 regular2 size2 ctime2 digest2 =>
        simp at ha
theorem bothEvsList_untouched (hA : Heap) : ∀ (es es2 : List Entry) (b2 b d nx : Nat)
    (s1 s2 out : String), apartList es es2 = true →
    ∀ ev ∈ bothEvsList hA es es2 b2 b d nx s1 s2 out, ev.touched = []
  | [], es2, b2, b, d, nx, s1, s2, out => by
    intro _ ev hev
    simp [bothEvsList] at hev
  | e :: es, es2, b2, b, d, nx, s1, s2, out => by
    intro ha ev hev
    simp only [apartList, Bool.and_eq_true] at ha
    simp only [bothEvsList, List.mem_append] at hev
    rcases hev with hev | hev
    · exact Entry.bothEvs_untouched hA e es2 _ _ _ _ _ _ _ ha.1 ev hev
    · exact bothEvsList_untouched hA es es2 _ _ _ _ _ _ _ ha.2 ev hev
end

/-- When the trees are apart Phase B meets no path collision. -/
theorem planEvs_untouched (hA : Heap) (path1 path2 pathout : String) (in1 in2 : List Entry)
    (hap : apartList in1 in2 = true) :
    ∀ ev ∈ planEvs hA path1 path2 pathout in1 in2, ev.touched = [] := by
  intro ev hev
  simp only [planEvs, List.mem_cons, List.mem_append] at hev
  rcases hev with rfl | hev | hev
  · rfl
  · exact bothEvsList_untouched hA in1 in2 _ _ _ _ _ _ _ hap ev hev
  · exact aloneEvsList_untouched hA in2 _ _ _ _ _ _ ev hev

/-! ## One content class in trees that are apart -/

/-- The event of a non-directory located in either tree, and the event of its directory, when
the trees are apart. -/
theorem planEvs_located (hA : Heap) (path1 path2 pathout : String) (in1 in2 : List Entry)
    (hap : apartList in1 in2 = true) (second : Bool) (r : List String) (es' : List Entry)
    (b' : Nat) (n : String) (reg : Bool) (size : Nat) (c : Timespec) (dg : List Nat) (f : Nat)
    (hl : locate in1 in2 second r = some (es', b'))
    (hf : findAt es' b' n = some (.file n reg size c dg, f)) :
    ∃ d', fileEv hA f d' (joinPath (if second then path2 else path1) r ++ "/" ++ n)
        (joinPath pathout r) ∈ planEvs hA path1 path2 pathout in1 in2 ∧
      Ev.mk d' (joinPath pathout r) ∈ planEvs hA path1 path2 pathout in1 in2 := by
  cases second with
  | false =>
    simp only [locate, Bool.false_eq_true, if_false] at hl ⊢
    obtain ⟨d', i1, i2, i3⟩ := first_located hA r in1 in2 1 (1 + (1 + spanList in1))
      ((1 + spanList in1) + (1 + spanList in2)) ((1 + spanList in1) + (1 + spanList in2) + 1)
      path1 path2 pathout es' b' n reg size c dg f hl hf hap
    refine ⟨d', ?_, ?_⟩
    · simp only [planEvs]
      exact List.mem_cons_of_mem _ (List.mem_append.mpr (Or.inl i1))
    · by_cases hr : r = []
      · subst hr
        rw [i2 rfl]
        simp [planEvs, joinPath]
      · simp only [planEvs]
        exact List.mem_cons_of_mem _ (List.mem_append.mpr (Or.inl (i3 hr)))
  | true =>
    simp only [locate, if_true] at hl ⊢
    obtain ⟨d', i1, i2, i3⟩ := second_located hA r in1 in2 1 (1 + (1 + spanList in1))
      ((1 + spanList in1) + (1 + spanList in2)) ((1 + spanList in1) + (1 + spanList in2) + 1)
      ((1 + spanList in1) + (1 + spanList in2) + 1 + bothNewList in1 in2)
      path1 path2 pathout es' b' n reg size c dg f hl hf hap
    refine ⟨d', ?_, ?_⟩
    · simp only [planEvs]
      exact List.mem_cons_of_mem _ i1
    · by_cases hr : r = []
      · subst hr
        rw [i2 rfl]
        simp [planEvs, joinPath]
      · simp only [planEvs]
        exact List.mem_cons_of_mem _ (i3 hr)

theorem findAt_store : ∀ (es : List Entry) (b : Nat) (n : String) (e : Entry) (a : Nat),
    findAt es b n = some (e, a) → ∀ kc ∈ e.store a, kc ∈ storeList es b
  | [], b, n, e, a => by
    intro hf
    simp [findAt] at hf
  | x :: es, b, n, e, a => by
    intro hf kc hk
    simp only [findAt] at hf
    simp only [storeList, List.mem_append]
    split at hf
    · simp only [Option.some.injEq, Prod.mk.injEq] at hf
      obtain ⟨rfl, rfl⟩ := hf
      exact Or.inl hk
    · exact Or.inr (findAt_store es (b + x.span) n e a hf kc hk)

/-- A located non-directory is stored under the key of its digest. -/
theorem located_store : ∀ (r : List String) (es : List Entry) (b : Nat) (es' : List Entry)
    (b' : Nat) (n : String) (reg : Bool) (size : Nat) (c : Timespec) (dg : List Nat) (f : Nat),
    dirAtFrom es b r = some (es', b') → findAt es' b' n = some (.file n reg size c dg, f) →
    (hashKey dg, f) ∈ storeList es b
  | [], es, b, es', b', n, reg, size, c, dg, f => by
    intro h1 hf
    simp only [dirAtFrom, Option.some.injEq, Prod.mk.injEq] at h1
    obtain ⟨rfl, rfl⟩ := h1
    exact findAt_store es b n _ f hf _ (by simp [Entry.store])
  | m :: r, es, b, es', b', n, reg, size, c, dg, f => by
    intro h1 hf
    simp only [dirAtFrom] at h1
    cases hf1 : findAt es b m with
    | none => simp [hf1] at h1
    | some x1 =>
      obtain ⟨e1, a1⟩ := x1
      cases e1 with
      | file n1 reg1 size1 c1 dg1 => simp [hf1] at h1
      | dir n1 size1 c1 l1 =>
        simp only [hf1] at h1
        exact findAt_store es b m _ a1 hf1 _ (by
          simp only [Entry.store]
          exact located_store r l1 (a1 + 1) es' b' n reg size c dg f h1 hf)

theorem locate_store (path1 path2 : String) (in1 in2 : List Entry)
    (hok1 : namesOKList in1) (hok2 : namesOKList in2) (second : Bool) (r : List String)
    (es' : List Entry) (b' : Nat) (n : String) (reg : Bool) (size : Nat) (c : Timespec)
    (dg : List Nat) (f : Nat) (hl : locate in1 in2 second r = some (es', b'))
    (hf : findAt es' b' n = some (.file n reg size c dg, f)) :
    f ∈ equalRange (scanBoth path1 path2 in1 in2).1.fileStore (hashKey dg) := by
  obtain ⟨-, -, -, p4, -⟩ := scanBoth_pair path1 path2 in1 in2 hok1 hok2
  rw [mem_equalRange, p4, List.mem_append]
  cases second with
  | false =>
    simp only [locate, Bool.false_eq_true, if_false] at hl
    exact Or.inl (located_store r in1 1 es' b' n reg size c dg f hl hf)
  | true =>
    simp only [locate, if_true] at hl
    exact Or.inr (located_store r in2 _ es' b' n reg size c dg f hl hf)

theorem equalRange_length (fs : List (String × Nat)) (k : String) :
    (equalRange fs k).length = (fs.map Prod.fst).count k := by
  unfold equalRange
  induction fs with
  | nil => rfl
  | cons x fs ih =>
    obtain ⟨k', a⟩ := x
    by_cases e : k' = k
    · simp only [List.filter, e, decide_True, List.map_cons, List.length_cons,
        List.count_cons_self]
      rw [← e] at ih ⊢
      simpa using ih
    · have e' : ¬ k = k' := fun h => e h.symm
      simp only [List.filter, e, decide_False, List.map_cons]
      rw [List.count_cons_of_ne e']
      exact ih

/-- The fields of a located non-directory after Phase A. -/
theorem located_fields (path1 path2 : String) (in1 in2 : List Entry)
    (hok1 : namesOKList in1) (hok2 : namesOKList in2) (hA : Heap)
    (hpA : scanPhaseA path1 path2 in1 in2 = some hA) (second : Bool) (r : List String)
    (es' : List Entry) (b' : Nat) (n : String) (reg : Bool) (size : Nat) (c : Timespec)
    (dg : List Nat) (f : Nat) (hl : locate in1 in2 second r = some (es', b'))
    (hf : findAt es' b' n = some (.file n reg size c dg, f)) :
    (hA f).date_changed = c ∧ (hA f).name = n ∧
      (hA f).path = joinPath (if second then path2 else path1) r ++ "/" ++ n ∧
      f < (1 + spanList in1) + (1 + spanList in2) ∧
      ∃ q, (hA f).parent = some q ∧ q < (1 + spanList in1) + (1 + spanList in2) ∧
        (hA q).num_files = countFiles es' := by
  obtain ⟨hs, hcore, hr1, hr2, hn1, hn2⟩ := scan_rep path1 path2 in1 in2 hok1 hok2 hA hpA
  have hnf : ∀ q, (hA q).num_files = (hs q).num_files := fun q => by rw [hcore q]
  cases second with
  | false =>
    simp only [locate, Bool.false_eq_true, if_false] at hl ⊢
    obtain ⟨a1, a2, a3, a4, a5, q, a6, a7, a8⟩ := located_file hcore hr1 hl hf
    obtain ⟨q', e1, e2⟩ := scan_parent path1 path2 in1 in2 hok1 hok2 hA hpA f
      (Or.inl ⟨a4, by omega⟩)
    rw [a6] at e1
    simp only [Option.some.injEq] at e1
    subst e1
    refine ⟨a1, a2, a3, by omega, q, a6, by omega, ?_⟩
    rw [hnf]
    by_cases hr : r = []
    · rw [a8 hr, hn1]
      subst hr
      simp only [dirAtFrom, Option.some.injEq, Prod.mk.injEq] at hl
      rw [hl.1]
    · exact a7 hr
  | true =>
    simp only [locate, if_true] at hl ⊢
    obtain ⟨a1, a2, a3, a4, a5, q, a6, a7, a8⟩ := located_file hcore hr2 hl hf
    obtain ⟨q', e1, e2⟩ := scan_parent path1 path2 in1 in2 hok1 hok2 hA hpA f
      (Or.inr ⟨a4, by omega⟩)
    rw [a6] at e1
    simp only [Option.some.injEq] at e1
    subst e1
    refine ⟨a1, a2, a3, by omega, q, a6, by omega, ?_⟩
    rw [hnf]
    by_cases hr : r = []
    · rw [a8 hr, hn2]
      subst hr
      simp only [dirAtFrom, Option.some.injEq, Prod.mk.injEq] at hl
      rw [hl.1]
    · exact a7 hr

theorem eq_singleton_of_all {l : List Nat} {x : Nat} (hnd : l.Nodup) (hm : x ∈ l)
    (hall : ∀ y ∈ l, y = x) : l = [x] := by
  cases l with
  | nil => cases hm
  | cons a l =>
    have ha : a = x := hall a (by simp)
    subst ha
    cases l with
    | nil => rfl
    | cons b l =>
      have hb : b = a := hall b (by simp)
      subst hb
      simp at hnd

/-- Shape of the plan of two trees that are apart and hold one content class `C` of more than
one file, all other keys being different: the plan exists, Phase B follows the reference
planner and leaves the class to Phase C, which files it as one hierarchy below the superior
`best` of Phase A. -/
theorem plan_class (fuel : Nat) (path1 path2 pathout : String) (in1 in2 : List Entry)
    (hok1 : namesOKList in1) (hok2 : namesOKList in2) (hap : apartList in1 in2 = true)
    (hf1 : depthList in1 < fuel) (hf2 : depthList in2 < fuel) (hfuel : 2 ≤ fuel) (hA : Heap)
    (hpA : scanPhaseA path1 path2 in1 in2 = some hA) (k : String)
    (hlen : 1 < (equalRange (scanBoth path1 path2 in1 in2).1.fileStore k).length)
    (hko : ∀ k', k' ≠ k → (keysList in1 ++ keysList in2).count k' ≤ 1)
    (hev : ∀ m ∈ equalRange (scanBoth path1 path2 in1 in2).1.fileStore k,
      ∃ d src out, fileEv hA m d src out ∈ planEvs hA path1 path2 pathout in1 in2) :
    ∃ (stB : Planner) (best : Nat) (t : FsTree),
      unidupe fuel path1 path2 pathout in1 in2 = some t ∧
      Sim hA ((1 + spanList in1) + (1 + spanList in2))
        (afterA hA ((1 + spanList in1) + (1 + spanList in2))) stB
        (planEvs hA path1 path2 pathout in1 in2)
        (1 + (bothNewList in1 in2 + aloneNewList in2 (in1.map Entry.name))) ∧
      best ∈ equalRange (scanBoth path1 path2 in1 in2).1.fileStore k ∧
      hierOf stB.heap best =
        best :: (equalRange (scanBoth path1 path2 in1 in2).1.fileStore k).filter
          (fun d => decide (d ≠ best)) ∧
      (∀ m ∈ equalRange (scanBoth path1 path2 in1 in2).1.fileStore k,
        single hA m = false ∧ (stB.heap m).isSub = (hA m).isSub) ∧
      (∀ a, a ∉ equalRange (scanBoth path1 path2 in1 in2).1.fileStore k → Pristine (hA a)) ∧
      t.state.editSteps = (planEvs hA path1 path2 pathout in1 in2).flatMap Ev.steps ++
        histSteps stB.heap stB.next (hierOf stB.heap best) ∧
      planAB fuel (scanBoth path1 path2 in1 in2).1.heap (scanBoth path1 path2 in1 in2).1.next 0
          (1 + spanList in1) pathout (scanBoth path1 path2 in1 in2).1.fileStore =
        some { state := stB, root := (1 + spanList in1) + (1 + spanList in2) } ∧
      phaseC fuel [some best] stB = some t.state := by
  obtain ⟨fhash, ⟨i1, i2, i3⟩, hall, hnd⟩ := scanPhaseA_inv path1 path2 in1 in2 hA hpA
  have hkeys := scan_keys path1 path2 in1 in2 hok1 hok2
  generalize hfs : (scanBoth path1 path2 in1 in2).1.fileStore = fs at *
  have hCnd : (equalRange fs k).Nodup := equalRange_nodup fs k hnd
  have hk : k ∈ fhash := by
    cases hC : equalRange fs k with
    | nil => simp [hC] at hlen
    | cons m rest =>
      have hm : m ∈ equalRange fs k := by simp [hC]
      exact hall (k, m) ((mem_equalRange fs k m).mp hm)
  obtain ⟨best, hb, c1, c2, c3, c4⟩ := i3 k hk hlen
  have hpris : ∀ a, a ∉ equalRange fs k → Pristine (hA a) := by
    intro a ha
    by_cases hk' : ∀ k', (k', a) ∈ fs → k' ∉ fhash
    · exact i1 a hk'
    · push_neg at hk'
      obtain ⟨k', hka, hkh⟩ := hk'
      have hne : k' ≠ k := fun e => ha ((mem_equalRange fs k a).mpr (e ▸ hka))
      refine i2 k' hkh ?_ a ((mem_equalRange fs k' a).mpr hka)
      rw [equalRange_length, hkeys]
      exact hko k' hne
  obtain ⟨o, ho, hob⟩ : ∃ o ∈ equalRange fs k, o ≠ best := by
    by_contra hc
    push_neg at hc
    have := eq_singleton_of_all hCnd hb hc
    rw [this] at hlen
    simp at hlen
  have hns : ∀ m ∈ equalRange fs k, single hA m = false := by
    intro m hm
    by_cases e : m = best
    · subst e
      have : o ∈ (hA m).subordinates := by
        rw [c3]
        simp [ho, hob]
      cases hs : (hA m).subordinates with
      | nil => rw [hs] at this; cases this
      | cons x xs => simp [single, hs]
    · simp [single, (c4 m hm e).1]
  have hsub : ∀ m ∈ equalRange fs k,
      ∃ d src out, Ev.sub m d src out ∈ planEvs hA path1 path2 pathout in1 in2 := by
    intro m hm
    obtain ⟨d, src, out, h⟩ := hev m hm
    simp only [fileEv, hns m hm, Bool.false_eq_true, if_false] at h
    exact ⟨d, src, out, h⟩
  have hunt := planEvs_untouched hA path1 path2 pathout in1 in2 hap
  obtain ⟨stB, tops, t, h1, hsim, hsups, htnd, -, -, hsteps, -, -, -, hAB, hC⟩ :=
    plan_shape fuel path1 path2 pathout in1 in2 hok1 hok2 hf1 hf2 hfuel hA hpA
      (fun ev hev' => by
        have := hunt ev hev'
        cases ev <;> simp only [Ev.OK]
        simp [Ev.touched] at this)
      (fun m hm => by
        by_cases hmC : m ∈ equalRange fs k
        · exact hsub m hmC
        · exact absurd (hpris m hmC) hm)
  rw [hfs] at hAB
  have hmem : ∀ u, u ∈ tops ↔
      ∃ ev ∈ planEvs hA path1 path2 pathout in1 in2, some u ∈ ev.tops hA := by
    intro u
    have e1 : u ∈ tops ↔ some u ∈ stB.sups := by
      rw [hsups]
      simp
    rw [e1, hsim.sups, mem_foldl_setInsert]
    simp [afterA]
  have hall' : ∀ u ∈ tops, u = best := by
    intro u hu
    obtain ⟨ev, hev', hst⟩ := (hmem u).mp hu
    cases ev with
    | mk a p => simp [Ev.tops] at hst
    | cp f d src out => simp [Ev.tops] at hst
    | pair c1' c2' d s1 s2 out =>
      have := hunt _ hev'
      simp [Ev.touched] at this
    | sub f d src out =>
      simp only [Ev.tops] at hst
      split at hst
      · rename_i hfs'
        simp only [List.mem_singleton] at hst
        have hfC : f ∈ equalRange fs k := by
          by_contra hc
          rw [(hpris f hc).1] at hfs'
          cases hfs'
        have hfb : f ≠ best := fun e => by
          rw [e, c1] at hfs'
          cases hfs'
        rw [(c4 f hfC hfb).2.1] at hst
        simpa using hst
      · simp at hst
  have hbt : best ∈ tops := by
    obtain ⟨d, src, out, h⟩ := hsub o ho
    refine (hmem best).mpr ⟨_, h, ?_⟩
    simp [Ev.tops, (c4 o ho hob).1, (c4 o ho hob).2.1]
  have htops : tops = [best] := eq_singleton_of_all htnd hbt hall'
  have hnt : ∀ a, a ∉ (planEvs hA path1 path2 pathout in1 in2).flatMap Ev.touched := by
    intro a hm
    obtain ⟨ev, hev', hat⟩ := List.mem_flatMap.mp hm
    rw [hunt ev hev'] at hat
    cases hat
  have hlt : ∀ m ∈ equalRange fs k, m < (1 + spanList in1) + (1 + spanList in2) := by
    intro m hm
    obtain ⟨d, src, out, h⟩ := hsub m hm
    have := hsim.done _ h
    simp only [Ev.Done] at this
    exact this.lt
  have hkeep : ∀ m ∈ equalRange fs k, (stB.heap m).isSub = (hA m).isSub ∧
      (stB.heap m).subordinates = (hA m).subordinates := by
    intro m hm
    obtain ⟨g1, g2, -⟩ := (hsim.keeps.2 m (hlt m hm)).2.2.2.2 (hnt m)
    exact ⟨g1, g2⟩
  have hhier : hierOf stB.heap best =
      best :: (equalRange fs k).filter (fun d => decide (d ≠ best)) := by
    simp only [hierOf, (hkeep best hb).2, c3]
  refine ⟨stB, best, t, h1, hsim, hb, hhier, fun m hm => ⟨hns m hm, (hkeep m hm).1⟩, hpris,
    ?_, hAB, ?_⟩
  · rw [hsteps, htops]
    simp [histStepsAll]
  · rw [hsups, htops] at hC
    exact hC

/-! ## Ties of the change time -/

/-- On nodes with the same change time whose parents differ in `num_files`, `comparRecent`
orders by the `num_files` of the parents: the node in the more crowded directory is the less
recent. -/
theorem comparRecent_tie (h : Heap) (a b : FsNode) (pa pb : Nat)
    (hd : a.date_changed = b.date_changed) (ha : a.parent = some pa) (hb : b.parent = some pb)
    (hne : (h pa).num_files ≠ (h pb).num_files) :
    comparRecent h a b = some (decide ((h pb).num_files < (h pa).num_files)) := by
  simp [comparRecent, hd, ha, hb, hne]

/-- When `comparRecent` orders the queue by a key, the smaller key being the more recent, the
scan of the queue returns a member of least key. -/
theorem pqMax_ranked (h : Heap) (key : Nat → Nat) : ∀ (xs : List Nat) (x : Nat),
    (∀ a ∈ x :: xs, ∀ b ∈ x :: xs, a ≠ b →
      comparRecent h (h a) (h b) = some (decide (key b < key a))) →
    (x :: xs).Nodup →
    ∃ m, pqMax h x xs = some m ∧ m ∈ x :: xs ∧ ∀ y ∈ x :: xs, key m ≤ key y := by
  intro xs
  induction xs with
  | nil =>
    intro x _ _
    exact ⟨x, rfl, by simp, by simp⟩
  | cons y ys ih =>
    intro x hc hnd
    have hxy : x ≠ y := by
      intro e
      simp [e] at hnd
    simp only [pqMax, hc x (by simp) y (by simp) hxy]
    by_cases hlt : key y < key x
    · simp only [hlt, decide_True, if_true]
      obtain ⟨m, hm, hmem, hmin⟩ := ih y
        (fun a ha b hb hab => hc a (List.mem_cons_of_mem _ ha) b (List.mem_cons_of_mem _ hb) hab)
        (List.nodup_cons.mp hnd).2
      refine ⟨m, hm, List.mem_cons_of_mem _ hmem, ?_⟩
      intro z hz
      rcases List.mem_cons.mp hz with rfl | hz
      · have := hmin y (by simp)
        omega
      · exact hmin z hz
    · simp only [hlt, decide_False, Bool.false_eq_true, if_false]
      have hnd' : (x :: ys).Nodup := hnd.sublist (by simp)
      obtain ⟨m, hm, hmem, hmin⟩ := ih x
        (fun a ha b hb hab => hc a (by
          rcases List.mem_cons.mp ha with e | e
          · simp [e]
          · simp [e]) b (by
          rcases List.mem_cons.mp hb with e | e
          · simp [e]
          · simp [e]) hab) hnd'
      refine ⟨m, hm, ?_, ?_⟩
      · rcases List.mem_cons.mp hmem with e | e
        · simp [e]
        · simp [e]
      · intro z hz
        rcases List.mem_cons.mp hz with rfl | hz
        · exact hmin z (by simp)
        · rcases List.mem_cons.mp hz with rfl | hz
          · have := hmin x (by simp)
            omega
          · exact hmin z (by simp [hz])

/-- When `comparRecent` orders the queue by a key without ties, the queue is drained in the
order of increasing key. -/
theorem drain_ranked (h : Heap) (key : Nat → Nat) : ∀ (n : Nat) (pq : List Nat),
    pq.length = n →
    (∀ a ∈ pq, ∀ b ∈ pq, a ≠ b → comparRecent h (h a) (h b) = some (decide (key b < key a))) →
    pq.Nodup → (∀ a ∈ pq, ∀ b ∈ pq, a ≠ b → key a ≠ key b) →
    ∃ order, drain h n pq = some order ∧ order.Perm pq ∧
      order.Pairwise (fun a b => key a < key b) := by
  intro n
  induction n with
  | zero =>
    intro pq hl _ _ _
    have : pq = [] := List.length_eq_zero.mp hl
    subst this
    exact ⟨[], rfl, List.Perm.refl _, List.Pairwise.nil⟩
  | succ n ih =>
    intro pq hl hc hnd hinj
    cases pq with
    | nil => simp at hl
    | cons x xs =>
      obtain ⟨m, hm, hmem, hmin⟩ := pqMax_ranked h key xs x hc hnd
      have ht : pqTop h (x :: xs) = some m := hm
      have hl' : ((x :: xs).erase m).length = n := by
        rw [List.length_erase_of_mem hmem, hl]; rfl
      obtain ⟨r, hr, hperm, hsorted⟩ := ih _ hl'
        (fun a ha b hb hab => hc a (List.mem_of_mem_erase ha) b (List.mem_of_mem_erase hb) hab)
        (hnd.erase m)
        (fun a ha b hb hab => hinj a (List.mem_of_mem_erase ha) b (List.mem_of_mem_erase hb) hab)
      refine ⟨m :: r, ?_, ?_, ?_⟩
      · simp only [drain, ht, hr, Option.map_some']
      · exact (List.Perm.cons m hperm).trans (List.perm_cons_erase hmem).symm
      · refine List.Pairwise.cons ?_ hsorted
        intro z hz
        have hz' : z ∈ (x :: xs).erase m := hperm.subset hz
        have hzm : z ≠ m := fun e => hnd.not_mem_erase (e ▸ hz')
        have hzx := List.mem_of_mem_erase hz'
        have h1 := hmin z hzx
        have h2 := hinj z hzx m hmem hzm
        omega

/-- A queue of three members ordered by a key without ties is drained in the order of
increasing key. -/
theorem drain_three (h : Heap) (key : Nat → Nat) (pq : List Nat) (f1 f2 f3 : Nat)
    (hp : pq.Perm [f1, f2, f3]) (h12 : key f1 < key f2) (h23 : key f2 < key f3)
    (hc : ∀ a ∈ pq, ∀ b ∈ pq, a ≠ b →
      comparRecent h (h a) (h b) = some (decide (key b < key a))) :
    drain h pq.length pq = some [f1, f2, f3] := by
  have hmem : ∀ a, a ∈ pq ↔ a = f1 ∨ a = f2 ∨ a = f3 := fun a => by
    rw [hp.mem_iff]
    simp
  have hne12 : f1 ≠ f2 := fun e => by rw [e] at h12; omega
  have hne23 : f2 ≠ f3 := fun e => by rw [e] at h23; omega
  have hne13 : f1 ≠ f3 := fun e => by rw [e] at h12; omega
  have hnd : pq.Nodup := hp.nodup_iff.mpr (by simp [hne12, hne23, hne13])
  obtain ⟨order, hd, hperm, hs⟩ := drain_ranked h key _ pq rfl hc hnd (by
    intro a ha b hb hab
    rcases (hmem a).mp ha with rfl | rfl | rfl <;>
      rcases (hmem b).mp hb with rfl | rfl | rfl <;>
      first
        | exact absurd rfl hab
        | omega)
  rw [hd]
  haveI : IsAntisymm Nat (fun a b => key a < key b) :=
    ⟨fun a b h1 h2 => absurd h1 (Nat.lt_asymm h2)⟩
  have hs2 : List.Sorted (fun a b => key a < key b) [f1, f2, f3] := by
    simp only [List.Sorted, List.pairwise_cons, List.mem_cons, List.mem_singleton,
      List.not_mem_nil, false_implies, implies_true, List.Pairwise.nil, and_true, forall_eq_or_imp,
      forall_eq]
    omega
  rw [List.eq_of_perm_of_sorted (hperm.trans hp) hs hs2]

/-- The fields of a member of a content class once Phase B has passed it. -/
theorem member_done {hA : Heap} {n0 : Nat} {stB : Planner} {evs : List Ev} {k : Nat}
    (hsim : Sim hA n0 (afterA hA n0) stB evs k) {f d : Nat} {src out : String}
    (hev : Ev.sub f d src out ∈ evs) {c : Timespec} {n : String} {q nf : Nat}
    (h1 : (hA f).date_changed = c) (h2 : (hA f).name = n) (h3 : (hA f).parent = some q)
    (hq : q < n0) (h4 : (hA q).num_files = nf) :
    f < n0 ∧ d < stB.next ∧ (stB.heap f).date_changed = c ∧ (stB.heap f).name = n ∧
      (stB.heap f).path = src ∧ (stB.heap f).dstParent = some d ∧ (stB.heap d).path = out ∧
      (stB.heap f).parent = some q ∧ (stB.heap q).num_files = nf := by
  have hd := hsim.done _ hev
  simp only [Ev.Done] at hd
  have hk := hsim.keeps.2 f hd.lt
  have hkq := hsim.keeps.2 q hq
  simp only [afterA] at hk hkq
  exact ⟨hd.lt, hd.dlt, by rw [hk.2.1, h1], by rw [hk.1, h2], hd.path, hd.dst, hd.dpath,
    by rw [hd.par, h3], by rw [hkq.2.2.1, h4]⟩

theorem subj_lt {hA : Heap} {n0 : Nat} {stB : Planner} {evs : List Ev} {k : Nat}
    (hsim : Sim hA n0 (afterA hA n0) stB evs k) :
    ∀ ev ∈ evs, ∀ a ∈ ev.subj, a < stB.next := by
  intro ev hev a ha
  have hnx : n0 ≤ stB.next := hsim.keeps.1
  have hd := hsim.done ev hev
  cases ev with
  | mk a' p =>
    simp only [Ev.subj, List.mem_singleton] at ha
    subst ha
    exact hd.1
  | cp f d src out =>
    simp only [Ev.subj, List.mem_singleton] at ha
    subst ha
    simp only [Ev.Done] at hd
    have := hd.lt
    omega
  | sub f d src out =>
    simp only [Ev.subj, List.mem_singleton] at ha
    subst ha
    simp only [Ev.Done] at hd
    have := hd.lt
    omega
  | pair c1' c2' d s1 s2 out =>
    simp only [Ev.subj, List.mem_cons, List.mem_singleton, List.not_mem_nil,
      or_false] at ha
    simp only [Ev.Done] at hd
    have := hd.1.lt
    have := hd.2.1.lt
    rcases ha with rfl | rfl <;> omega

theorem count_le_one_of_filter {l : List String} {k : String}
    (h : (l.filter (fun x => decide (x ≠ k))).Nodup) :
    ∀ k', k' ≠ k → l.count k' ≤ 1 := by
  intro k' hne
  have := List.nodup_iff_count_le_one.mp h k'
  rwa [List.count_filter (by simpa using hne)] at this

/-! ## A content class of three files with the same change time -/

/-- **C23** (amended). When three non-directories located anywhere in the two trees share one
key of the content index and one change time (seconds and nanoseconds), their directories
differ pairwise in the number of files, `countFiles es1 < countFiles es2 < countFiles es3`, no
other two files share a key, and the trees are apart (no relative file path occurs in both,
no name is a directory in one tree and a non-directory in the other at the same location),
then the planner returns and the file `f1` in the least crowded directory is the superior:
the plan ends with `mkdir out/r1/.n1_hist`, the `Copy` of `f2` and of `f3` into that history
directory, and the `Copy` of `f1` into its own merged directory `out/r1`, whose `Mkdir` is the
only step acting on its node; these copies are the only steps acting on the three files. -/
theorem three_way_tie (fuel : Nat) (path1 path2 pathout : String) (in1 in2 : List Entry)
    (s1 s2 s3 : Bool) (r1 r2 r3 : List String) (es1 es2 es3 : List Entry) (b1 b2 b3 : Nat)
    (n1 n2 n3 : String) (reg1 reg2 reg3 : Bool) (size1 size2 size3 : Nat) (c : Timespec)
    (dg1 dg2 dg3 : List Nat) (f1 f2 f3 : Nat)
    (hok1 : namesOKList in1) (hok2 : namesOKList in2) (hap : apartList in1 in2 = true)
    (hf1 : depthList in1 < fuel) (hf2 : depthList in2 < fuel) (hfuel : 2 ≤ fuel)
    (hl1 : locate in1 in2 s1 r1 = some (es1, b1))
    (hl2 : locate in1 in2 s2 r2 = some (es2, b2))
    (hl3 : locate in1 in2 s3 r3 = some (es3, b3))
    (hx1 : findAt es1 b1 n1 = some (.file n1 reg1 size1 c dg1, f1))
    (hx2 : findAt es2 b2 n2 = some (.file n2 reg2 size2 c dg2, f2))
    (hx3 : findAt es3 b3 n3 = some (.file n3 reg3 size3 c dg3, f3))
    (hk2 : hashKey dg2 = hashKey dg1) (hk3 : hashKey dg3 = hashKey dg1)
    (hcnt : (keysList in1 ++ keysList in2).count (hashKey dg1) = 3)
    (hoth : ((keysList in1 ++ keysList in2).filter
      (fun x => decide (x ≠ hashKey dg1))).Nodup)
    (hn12 : countFiles es1 < countFiles es2) (hn23 : countFiles es2 < countFiles es3) :
    ∃ (t : FsTree) (d1 hist : Nat),
      unidupe fuel path1 path2 pathout in1 in2 = some t ∧
      (1 + spanList in1) + (1 + spanList in2) < hist ∧
      t.state.editSteps.filter (fun s => s.acting = d1) =
        [mkdirAt d1 (joinPath pathout r1)] ∧
      [mkdirAt hist (joinPath pathout r1 ++ "/" ++ ("." ++ n1 ++ "_hist")),
        cpAt f2 hist (joinPath (if s2 then path2 else path1) r2 ++ "/" ++ n2)
          (joinPath pathout r1 ++ "/" ++ ("." ++ n1 ++ "_hist")),
        cpAt f3 hist (joinPath (if s3 then path2 else path1) r3 ++ "/" ++ n3)
          (joinPath pathout r1 ++ "/" ++ ("." ++ n1 ++ "_hist")),
        cpAt f1 d1 (joinPath (if s1 then path2 else path1) r1 ++ "/" ++ n1)
          (joinPath pathout r1)] <:+ t.state.editSteps ∧
      t.state.editSteps.filter (fun s => s.acting = f1) =
        [cpAt f1 d1 (joinPath (if s1 then path2 else path1) r1 ++ "/" ++ n1)
          (joinPath pathout r1)] ∧
      t.state.editSteps.filter (fun s => s.acting = f2) =
        [cpAt f2 hist (joinPath (if s2 then path2 else path1) r2 ++ "/" ++ n2)
          (joinPath pathout r1 ++ "/" ++ ("." ++ n1 ++ "_hist"))] ∧
      t.state.editSteps.filter (fun s => s.acting = f3) =
        [cpAt f3 hist (joinPath (if s3 then path2 else path1) r3 ++ "/" ++ n3)
          (joinPath pathout r1 ++ "/" ++ ("." ++ n1 ++ "_hist"))] := by
  obtain ⟨hA, hpA⟩ := scanPhaseA_total path1 path2 in1 in2 hok1 hok2
  obtain ⟨a1, a2, a3, a4, q1, a5, a6, a7⟩ := located_fields path1 path2 in1 in2 hok1 hok2 hA hpA
    s1 r1 es1 b1 n1 reg1 size1 c dg1 f1 hl1 hx1
  obtain ⟨b1', b2', b3', b4', q2, b5', b6', b7'⟩ := located_fields path1 path2 in1 in2 hok1 hok2
    hA hpA s2 r2 es2 b2 n2 reg2 size2 c dg2 f2 hl2 hx2
  obtain ⟨c1, c2, c3, c4, q3, c5, c6, c7⟩ := located_fields path1 path2 in1 in2 hok1 hok2 hA hpA
    s3 r3 es3 b3 n3 reg3 size3 c dg3 f3 hl3 hx3
  have S1 := locate_store path1 path2 in1 in2 hok1 hok2 s1 r1 es1 b1 n1 reg1 size1 c dg1 f1
    hl1 hx1
  have S2 := locate_store path1 path2 in1 in2 hok1 hok2 s2 r2 es2 b2 n2 reg2 size2 c dg2 f2
    hl2 hx2
  have S3 := locate_store path1 path2 in1 in2 hok1 hok2 s3 r3 es3 b3 n3 reg3 size3 c dg3 f3
    hl3 hx3
  rw [hk2] at S2
  rw [hk3] at S3
  have hne12 : f1 ≠ f2 := fun e => by
    rw [e, b5'] at a5
    simp only [Option.some.injEq] at a5
    rw [a5, a7] at b7'
    omega
  have hne23 : f2 ≠ f3 := fun e => by
    rw [e, c5] at b5'
    simp only [Option.some.injEq] at b5'
    rw [b5', b7'] at c7
    omega
  have hne13 : f1 ≠ f3 := fun e => by
    rw [e, c5] at a5
    simp only [Option.some.injEq] at a5
    rw [a5, a7] at c7
    omega
  obtain ⟨-, -, -, hnd0⟩ := scanPhaseA_inv path1 path2 in1 in2 hA hpA
  have hkeys := scan_keys path1 path2 in1 in2 hok1 hok2
  generalize hfs : (scanBoth path1 path2 in1 in2).1.fileStore = fs at *
  have hlen : (equalRange fs (hashKey dg1)).length = 3 := by
    rw [equalRange_length, hkeys, hcnt]
  have hperm : [f1, f2, f3].Perm (equalRange fs (hashKey dg1)) :=
    (List.subperm_of_subset (by simp [hne12, hne23, hne13]) (by
      intro x hx
      simp only [List.mem_cons, List.mem_singleton, List.not_mem_nil, or_false] at hx
      rcases hx with rfl | rfl | rfl
      · exact S1
      · exact S2
      · exact S3)).perm_of_length_le (by rw [hlen]; rfl)
  have hmemC : ∀ m, m ∈ equalRange fs (hashKey dg1) ↔ m = f1 ∨ m = f2 ∨ m = f3 := fun m => by
    rw [← hperm.mem_iff]
    simp
  obtain ⟨d1, E1, K1⟩ := planEvs_located hA path1 path2 pathout in1 in2 hap s1 r1 es1 b1 n1
    reg1 size1 c dg1 f1 hl1 hx1
  obtain ⟨d2, E2, -⟩ := planEvs_located hA path1 path2 pathout in1 in2 hap s2 r2 es2 b2 n2
    reg2 size2 c dg2 f2 hl2 hx2
  obtain ⟨d3, E3, -⟩ := planEvs_located hA path1 path2 pathout in1 in2 hap s3 r3 es3 b3 n3
    reg3 size3 c dg3 f3 hl3 hx3
  obtain ⟨stB, best, t, h1, hsim, hb, hhier, hmem, -, hsteps, -, -⟩ :=
    plan_class fuel path1 path2 pathout in1 in2 hok1 hok2 hap hf1 hf2 hfuel hA hpA
      (hashKey dg1) (by rw [hfs, hlen]; omega) (count_le_one_of_filter hoth) (by
        rw [hfs]
        intro m hm
        rcases (hmemC m).mp hm with rfl | rfl | rfl
        · exact ⟨_, _, _, E1⟩
        · exact ⟨_, _, _, E2⟩
        · exact ⟨_, _, _, E3⟩)
  rw [hfs] at hb hhier hmem
  simp only [fileEv, (hmem f1 S1).1, Bool.false_eq_true, if_false] at E1
  simp only [fileEv, (hmem f2 S2).1, Bool.false_eq_true, if_false] at E2
  simp only [fileEv, (hmem f3 S3).1, Bool.false_eq_true, if_false] at E3
  obtain ⟨m1, m2, m3, m4, m5, m6, m7, m8, m9⟩ := member_done hsim E1 a1 a2 a5 a6 a7
  obtain ⟨o1, o2, o3, o4, o5, o6, o7, o8, o9⟩ := member_done hsim E2 b1' b2' b5' b6' b7'
  obtain ⟨p1, p2, p3, p4, p5, p6, p7, p8, p9⟩ := member_done hsim E3 c1 c2 c5 c6 c7
  have hnd := planEvs_nodup hA path1 path2 pathout in1 in2 hok1 hok2
  have hCnd : (equalRange fs (hashKey dg1)).Nodup := equalRange_nodup fs _ hnd0
  have hpq : (hierOf stB.heap best).Perm [f1, f2, f3] := by
    have hfun : (fun d : Nat => decide (d ≠ best)) = (fun x => x != best) := by
      funext x
      by_cases e : x = best <;> simp [bne, e]
    rw [hhier, hfun, ← hCnd.erase_eq_filter best]
    exact ((List.perm_cons_erase hb).symm).trans hperm.symm
  have hdrain : drain stB.heap (hierOf stB.heap best).length (hierOf stB.heap best) =
      some [f1, f2, f3] := by
    refine drain_three stB.heap
      (fun x => match (stB.heap x).parent with
        | some p => (stB.heap p).num_files
        | none => 0) _ f1 f2 f3 hpq (by simp only [m8, o8, m9, o9]; exact hn12)
      (by simp only [o8, p8, o9, p9]; exact hn23) ?_
    intro a ha b hb' hab
    have ha' : a = f1 ∨ a = f2 ∨ a = f3 := by simpa using hpq.mem_iff.mp ha
    have hb'' : b = f1 ∨ b = f2 ∨ b = f3 := by simpa using hpq.mem_iff.mp hb'
    rcases ha' with rfl | rfl | rfl <;> rcases hb'' with rfl | rfl | rfl <;>
      first
        | exact absurd rfl hab
        | (simp only [m8, o8, p8]
           refine comparRecent_tie stB.heap _ _ _ _ (by simp only [m3, o3, p3]) (by assumption)
             (by assumption) (by simp only [m9, o9, p9]; omega))
  have hH : histSteps stB.heap stB.next (hierOf stB.heap best) =
      [mkdirAt stB.next (joinPath pathout r1 ++ "/" ++ ("." ++ n1 ++ "_hist")),
        cpAt f2 stB.next (joinPath (if s2 then path2 else path1) r2 ++ "/" ++ n2)
          (joinPath pathout r1 ++ "/" ++ ("." ++ n1 ++ "_hist")),
        cpAt f3 stB.next (joinPath (if s3 then path2 else path1) r3 ++ "/" ++ n3)
          (joinPath pathout r1 ++ "/" ++ ("." ++ n1 ++ "_hist")),
        cpAt f1 d1 (joinPath (if s1 then path2 else path1) r1 ++ "/" ++ n1)
          (joinPath pathout r1)] := by
    unfold histSteps
    rw [hdrain]
    simp only [m6, m4, m5, m7, o5, p5, List.map_cons, List.map_nil, List.cons_append,
      List.nil_append]
  have hsn : stB.next = (1 + spanList in1) + (1 + spanList in2) +
      (1 + (bothNewList in1 in2 + aloneNewList in2 (in1.map Entry.name))) := hsim.next
  have hd1lt := subj_lt hsim _ K1 d1 (by simp [Ev.subj])
  have hdf : ∀ f d src out, Ev.sub f d src out ∈ planEvs hA path1 path2 pathout in1 in2 →
      f ≠ d1 := by
    intro f d src out hev e
    have := subj_unique hnd hev K1 (a := f) (by simp [Ev.subj]) (by simp [Ev.subj, e])
    cases this
  refine ⟨t, d1, stB.next, h1, by omega, ?_, ⟨_, by rw [hsteps, hH]⟩, ?_, ?_, ?_⟩
  · rw [hsteps, List.filter_append, filter_steps_unique hnd K1 (by simp [Ev.subj]), hH]
    have e0 : stB.next ≠ d1 := by omega
    simp [Ev.steps, mkdirAt, cpAt, e0, hdf _ _ _ _ E1, hdf _ _ _ _ E2, hdf _ _ _ _ E3]
  · rw [hsteps, List.filter_append, filter_steps_unique hnd E1 (by simp [Ev.subj]), hH]
    have e0 : stB.next ≠ f1 := by omega
    simp [Ev.steps, mkdirAt, cpAt, e0, hne12.symm, hne13.symm]
  · rw [hsteps, List.filter_append, filter_steps_unique hnd E2 (by simp [Ev.subj]), hH]
    have e0 : stB.next ≠ f2 := by omega
    simp [Ev.steps, mkdirAt, cpAt, e0, hne12, hne23.symm]
  · rw [hsteps, List.filter_append, filter_steps_unique hnd E3 (by simp [Ev.subj]), hH]
    have e0 : stB.next ≠ f3 := by omega
    simp [Ev.steps, mkdirAt, cpAt, e0, hne13, hne23]

/-- **C23** (as stated, refuted). In `tieIn1` and `tieClashIn2` the files `a/f` and `b/g` of
tree 1 and `c/k` of tree 2 share one content key and one change time, and their directories
hold 1, 2 and 3 files; yet `in1/a/f`, the file in the least crowded directory, is not copied
into its merged directory `out/a`: tree 2 holds another, more recent `a/f`, the path collision
subordinates the whole class to it, and all three files are copied into `out/a/.f_hist`. -/
theorem three_way_tie_clash :
    (unidupe 3 "in1" "in2" "out" tieIn1 tieClashIn2).map
        (fun t => t.state.editSteps.map EditStep.com) =
      some [["mkdir", "out"], ["mkdir", "out/a"], ["mkdir", "out/b"],
        ["cp", "--backup=numbered", "in1/b/u", "out/b"], ["mkdir", "out/c"],
        ["cp", "--backup=numbered", "in2/c/v", "out/c"],
        ["cp", "--backup=numbered", "in2/c/w", "out/c"], ["mkdir", "out/a/.f_hist"],
        ["cp", "--backup=numbered", "in1/a/f", "out/a/.f_hist"],
        ["cp", "--backup=numbered", "in1/b/g", "out/a/.f_hist"],
        ["cp", "--backup=numbered", "in2/c/k", "out/a/.f_hist"],
        ["cp", "--backup=numbered", "in2/a/f", "out/a"]] := by
  decide

theorem three_way_tie_witness :
    ∃ (t : FsTree) (d1 hist : Nat),
      unidupe 2 "in1" "in2" "out" tieIn1 tieIn2 = some t ∧
      (1 + spanList tieIn1) + (1 + spanList tieIn2) < hist ∧
      t.state.editSteps.filter (fun s => s.acting = d1) = [mkdirAt d1 (joinPath "out" ["a"])] ∧
      [mkdirAt hist (joinPath "out" ["a"] ++ "/" ++ ("." ++ "f" ++ "_hist")),
        cpAt 4 hist (joinPath (if false then "in2" else "in1") ["b"] ++ "/" ++ "g")
          (joinPath "out" ["a"] ++ "/" ++ ("." ++ "f" ++ "_hist")),
        cpAt 8 hist (joinPath (if true then "in2" else "in1") ["c"] ++ "/" ++ "k")
          (joinPath "out" ["a"] ++ "/" ++ ("." ++ "f" ++ "_hist")),
        cpAt 2 d1 (joinPath (if false then "in2" else "in1") ["a"] ++ "/" ++ "f")
          (joinPath "out" ["a"])] <:+ t.state.editSteps ∧
      t.state.editSteps.filter (fun s => s.acting = 2) =
        [cpAt 2 d1 (joinPath (if false then "in2" else "in1") ["a"] ++ "/" ++ "f")
          (joinPath "out" ["a"])] ∧
      t.state.editSteps.filter (fun s => s.acting = 4) =
        [cpAt 4 hist (joinPath (if false then "in2" else "in1") ["b"] ++ "/" ++ "g")
          (joinPath "out" ["a"] ++ "/" ++ ("." ++ "f" ++ "_hist"))] ∧
      t.state.editSteps.filter (fun s => s.acting = 8) =
        [cpAt 8 hist (joinPath (if true then "in2" else "in1") ["c"] ++ "/" ++ "k")
          (joinPath "out" ["a"] ++ "/" ++ ("." ++ "f" ++ "_hist"))] :=
  three_way_tie 2 "in1" "in2" "out" tieIn1 tieIn2 false false true ["a"] ["b"] ["c"]
    [mkFile "f" 1 1] [mkFile "g" 1 1, mkFile "u" 1 5]
    [mkFile "k" 1 1, mkFile "v" 1 6, mkFile "w" 1 7] 2 4 8 "f" "g" "k" true true true 0 0 0
    ⟨1, 0⟩ (digestOf 1) (digestOf 1) (digestOf 1) 2 4 8
    (by simp [tieIn1, namesOKList, Entry.namesOK, Entry.name, mkFile, mkDir])
    (by simp [tieIn2, namesOKList, Entry.namesOK, Entry.name, mkFile, mkDir])
    (by decide) (by decide) (by decide) (by decide) rfl rfl rfl rfl rfl rfl rfl rfl
    (by decide) (by decide) (by decide) (by decide)

/-! ## The children of the directories of the result: Phase B -/

theorem clearList_mem {ks : List String} : ∀ {es es2 : List Entry} {e : Entry},
    clearList ks es es2 = true → e ∈ es → e.clear ks es2 = true
  | x :: es, es2, e, h, hm => by
    simp only [clearList, Bool.and_eq_true] at h
    rcases List.mem_cons.mp hm with rfl | hm
    · exact h.1
    · exact clearList_mem h.2 hm

/-- Every entry of `fileStore` scanned for a listing belongs to one entry of the listing. -/
theorem store_entry : ∀ (es : List Entry) (b : Nat), namesOKList es →
    ∀ kc ∈ storeList es b, ∃ e a, findAt es b e.name = some (e, a) ∧ kc ∈ e.store a
  | [], b => by
    intro _ kc hk
    simp [storeList] at hk
  | x :: es, b => by
    intro hn kc hk
    simp only [namesOKList] at hn
    simp only [storeList, List.mem_append] at hk
    rcases hk with hk | hk
    · exact ⟨x, b, findAt_head x es b, hk⟩
    · obtain ⟨e, a, h1, h2⟩ := store_entry es (b + x.span) hn.2.2 kc hk
      exact ⟨e, a, findAt_tail hn.1 h1, h2⟩

/-- A non-directory of tree 1 whose key occurs more than once has no namesake in tree 2 at the
same location, when the listings are clear. -/
theorem clear_file_none {ks : List String} {es es2 : List Entry} {b b2 : Nat} {n n' : String}
    {reg : Bool} {size : Nat} {c : Timespec} {dg : List Nat} {f : Nat}
    (h : clearList ks es es2 = true)
    (hf : findAt es b n = some (.file n' reg size c dg, f)) (hk : 1 < ks.count (hashKey dg)) :
    findAt es2 b2 n = none := by
  obtain ⟨j1, j2, -⟩ := findAt_bounds es b n _ f hf
  have := clearList_mem h j2
  simp only [Entry.name] at j1
  subst j1
  cases hq : findAt es2 b2 n' with
  | none => rfl
  | some x =>
    obtain ⟨e2, a2⟩ := x
    simp only [Entry.clear, findAt_entry_some hq] at this
    cases e2 with
    | file n2 reg2 size2 c2 dg2 =>
      simp only [Bool.and_eq_true, decide_eq_true_eq] at this
      omega
    | dir n2 size2 c2 l2 => simp at this

/-- A non-directory of tree 1 with a namesake in tree 2 at the same location, when the listings
are clear: the namesake is a non-directory, and the keys of both occur once. -/
theorem clear_file_some {ks : List String} {es es2 : List Entry} {b b2 : Nat} {n n' : String}
    {reg : Bool} {size : Nat} {c : Timespec} {dg : List Nat} {f : Nat} {e2 : Entry} {a2 : Nat}
    (h : clearList ks es es2 = true)
    (hf : findAt es b n = some (.file n' reg size c dg, f))
    (h2 : findAt es2 b2 n = some (e2, a2)) :
    ks.count (hashKey dg) ≤ 1 ∧
      ∃ n2 reg2 size2 c2 dg2, e2 = .file n2 reg2 size2 c2 dg2 ∧ ks.count (hashKey dg2) ≤ 1 := by
  obtain ⟨j1, j2, -⟩ := findAt_bounds es b n _ f hf
  have := clearList_mem h j2
  simp only [Entry.name] at j1
  subst j1
  simp only [Entry.clear, findAt_entry_some h2] at this
  cases e2 with
  | file n2 reg2 size2 c2 dg2 =>
    simp only [Bool.and_eq_true, decide_eq_true_eq] at this
    exact ⟨this.1, n2, reg2, size2, c2, dg2, rfl, this.2⟩
  | dir n2 size2 c2 l2 => simp at this

/-- A directory of tree 1 with a namesake in tree 2 at the same location, when the listings are
clear: the namesake is a directory, and their listings are clear. -/
theorem clear_dir {ks : List String} {es es2 : List Entry} {b b2 : Nat} {n n' : String}
    {size : Nat} {c : Timespec} {l1 : List Entry} {a1 : Nat} {e2 : Entry} {a2 : Nat}
    (h : clearList ks es es2 = true) (hf : findAt es b n = some (.dir n' size c l1, a1))
    (h2 : findAt es2 b2 n = some (e2, a2)) :
    ∃ n2 size2 c2 l2, e2 = .dir n2 size2 c2 l2 ∧ clearList ks l1 l2 = true := by
  obtain ⟨j1, j2, -⟩ := findAt_bounds es b n _ a1 hf
  have := clearList_mem h j2
  simp only [Entry.name] at j1
  subst j1
  simp only [Entry.clear, findAt_entry_some h2] at this
  cases e2 with
  | file n2 reg2 size2 c2 dg2 => simp at this
  | dir n2 size2 c2 l2 => exact ⟨n2, size2, c2, l2, rfl, this⟩

mutual
/-- Every non-directory below an entry that one tree has is the subject of a file event. -/
theorem Entry.aloneEvs_cover (hA : Heap) : ∀ (e : Entry) (b d nx : Nat) (src out : String),
    e.namesOK → ∀ kc ∈ e.store b,
    ∃ d' src' out', fileEv hA kc.2 d' src' out' ∈ e.aloneEvs hA b d nx src out
  | .file name regular size ctime digest, b, d, nx, src, out => by
    intro _ kc hk
    simp only [Entry.store, List.mem_singleton] at hk
    subst hk
    exact ⟨d, src ++ "/" ++ name, out, by simp [Entry.aloneEvs]⟩
  | .dir name size ctime es, b, d, nx, src, out => by
    intro hn kc hk
    simp only [Entry.store] at hk
    simp only [Entry.namesOK] at hn
    obtain ⟨d', src', out', h⟩ := aloneEvsList_cover hA es [] (b + 1) nx (nx + 1)
      (src ++ "/" ++ name) (out ++ "/" ++ name) hn kc hk (fun _ _ _ _ => by simp)
    exact ⟨d', src', out', by simp only [Entry.aloneEvs]; exact List.mem_cons_of_mem _ h⟩
/-- Every non-directory below a listing that one tree has is the subject of a file event, the
entries with a skipped name apart. -/
theorem aloneEvsList_cover (hA : Heap) : ∀ (es : List Entry) (skip : List String)
    (b d nx : Nat) (src out : String), namesOKList es → ∀ kc ∈ storeList es b,
    (∀ e a, findAt es b e.name = some (e, a) → kc ∈ e.store a → e.name ∉ skip) →
    ∃ d' src' out', fileEv hA kc.2 d' src' out' ∈ aloneEvsList hA es skip b d nx src out
  | [], skip, b, d, nx, src, out => by
    intro _ kc hk
    simp [storeList] at hk
  | x :: es, skip, b, d, nx, src, out => by
    intro hn kc hk hs
    simp only [namesOKList] at hn
    simp only [storeList, List.mem_append] at hk
    rcases hk with hk | hk
    · have hx : x.name ∉ skip := hs x b (findAt_head x es b) hk
      obtain ⟨d', src', out', h⟩ := Entry.aloneEvs_cover hA x b d nx src out hn.2.1 kc hk
      exact ⟨d', src', out', by
        simp only [aloneEvsList, hx, if_false]
        exact List.mem_append.mpr (Or.inl h)⟩
    · have hs' : ∀ e a, findAt es (b + x.span) e.name = some (e, a) → kc ∈ e.store a →
          e.name ∉ skip := fun e a h1 h2 => hs e a (findAt_tail hn.1 h1) h2
      by_cases hx : x.name ∈ skip
      · obtain ⟨d', src', out', h⟩ := aloneEvsList_cover hA es skip (b + x.span) d nx src out
          hn.2.2 kc hk hs'
        exact ⟨d', src', out', by simp only [aloneEvsList, hx, if_true]; exact h⟩
      · obtain ⟨d', src', out', h⟩ := aloneEvsList_cover hA es skip (b + x.span) d
          (nx + x.numDirs) src out hn.2.2 kc hk hs'
        exact ⟨d', src', out', by
          simp only [aloneEvsList, hx, if_false]
          exact List.mem_append.mpr (Or.inr h)⟩
end

mutual
/-- Every non-directory below an entry of tree 1 whose key occurs more than once is the subject
of a file event, when the entry is clear of the listing of tree 2. -/
theorem Entry.bothEvs_cover (hA : Heap) (ks : List String) : ∀ (e : Entry) (es2 : List Entry)
    (b2 b d nx : Nat) (s1 s2 out : String), e.namesOK → e.clear ks es2 = true →
    ∀ kc ∈ e.store b, 1 < ks.count kc.1 →
    ∃ d' src' out', fileEv hA kc.2 d' src' out' ∈ e.bothEvs hA es2 b2 b d nx s1 s2 out
  | .file name regular size ctime digest, es2, b2, b, d, nx, s1, s2, out => by
    intro _ hc kc hk hcnt
    simp only [Entry.store, List.mem_singleton] at hk
    subst hk
    simp only [Entry.bothEvs]
    cases hfind : findAt es2 b2 name with
    | none => exact ⟨d, s1 ++ "/" ++ name, out, by simp⟩
    | some x =>
      obtain ⟨e2, a2⟩ := x
      simp only [Entry.clear, findAt_entry_some hfind] at hc
      cases e2 with
      | file n2 reg2 size2 c2 dg2 =>
        simp only [Bool.and_eq_true, decide_eq_true_eq] at hc
        simp only at hcnt
        omega
      | dir n2 size2 c2 l2 => simp at hc
  | .dir name size ctime es, es2, b2, b, d, nx, s1, s2, out => by
    intro hn hc kc hk hcnt
    simp only [Entry.store] at hk
    simp only [Entry.namesOK] at hn
    simp only [Entry.bothEvs]
    cases hfind : findAt es2 b2 name with
    | none =>
      obtain ⟨d', src', out', h⟩ := aloneEvsList_cover hA es [] (b + 1) nx (nx + 1)
        (s1 ++ "/" ++ name) (out ++ "/" ++ name) hn kc hk (fun _ _ _ _ => by simp)
      exact ⟨d', src', out', List.mem_cons_of_mem _ h⟩
    | some x =>
      obtain ⟨e2, a2⟩ := x
      simp only [Entry.clear, findAt_entry_some hfind] at hc
      cases e2 with
      | file n2 reg2 size2 c2 dg2 => simp at hc
      | dir n2 size2 c2 l2 =>
        simp only at hc ⊢
        obtain ⟨d', src', out', h⟩ := bothEvsList_cover hA ks es l2 (a2 + 1) (b + 1) b nx
          (s1 ++ "/" ++ name) (s2 ++ "/" ++ name) (out ++ "/" ++ name) hn hc kc hk hcnt
        exact ⟨d', src', out', List.mem_cons_of_mem _ (List.mem_append.mpr (Or.inl h))⟩
/-- Every non-directory below a listing of tree 1 whose key occurs more than once is the
subject of a file event, when the listings are clear. -/
theorem bothEvsList_cover (hA : Heap) (ks : List String) : ∀ (es es2 : List Entry)
    (b2 b d nx : Nat) (s1 s2 out : String), namesOKList es → clearList ks es es2 = true →
    ∀ kc ∈ storeList es b, 1 < ks.count kc.1 →
    ∃ d' src' out', fileEv hA kc.2 d' src' out' ∈ bothEvsList hA es es2 b2 b d nx s1 s2 out
  | [], es2, b2, b, d, nx, s1, s2, out => by
    intro _ _ kc hk
    simp [storeList] at hk
  | x :: es, es2, b2, b, d, nx, s1, s2, out => by
    intro hn hc kc hk hcnt
    simp only [namesOKList] at hn
    simp only [clearList, Bool.and_eq_true] at hc
    simp only [storeList, List.mem_append] at hk
    simp only [bothEvsList, List.mem_append]
    rcases hk with hk | hk
    · obtain ⟨d', src', out', h⟩ := Entry.bothEvs_cover hA ks x es2 b2 b d nx s1 s2 out hn.2.1
        hc.1 kc hk hcnt
      exact ⟨d', src', out', Or.inl h⟩
    · obtain ⟨d', src', out', h⟩ := bothEvsList_cover hA ks es es2 b2 (b + x.span) d
        (nx + x.bothNew es2) s1 s2 out hn.2.2 hc.2 kc hk hcnt
      exact ⟨d', src', out', Or.inr h⟩
end

/-- Every non-directory below a listing of tree 2 whose key occurs more than once is the
subject of a file event, when the listings are clear. -/
theorem secondEvs_cover (hA : Heap) (ks : List String) : ∀ (n : Nat) (es es2 : List Entry)
    (b2 b d nx nx2 : Nat) (s1 s2 out : String), depthList es2 ≤ n →
    namesOKList es → namesOKList es2 → clearList ks es es2 = true →
    ∀ kc ∈ storeList es2 b2, 1 < ks.count kc.1 →
    ∃ d' src' out', fileEv hA kc.2 d' src' out' ∈
      bothEvsList hA es es2 b2 b d nx s1 s2 out ++
        aloneEvsList hA es2 (es.map Entry.name) b2 d nx2 s2 out := by
  intro n
  induction n with
  | zero =>
    intro es es2 b2 b d nx nx2 s1 s2 out hd hn1 hn2 hc kc hk hcnt
    obtain ⟨e2, a2, hf2, hk2⟩ := store_entry es2 b2 hn2 kc hk
    obtain ⟨-, hm2, -⟩ := findAt_bounds es2 b2 _ e2 a2 hf2
    have hdep := depth_le_of_mem hm2
    by_cases hin : e2.name ∈ es.map Entry.name
    · have hs : (findAt es b e2.name).isSome := findAt_mem.mpr hin
      cases hf1 : findAt es b e2.name with
      | none => simp [hf1] at hs
      | some x1 =>
        obtain ⟨e1, a1⟩ := x1
        cases e1 with
        | file n1 reg1 size1 c1 dg1 =>
          obtain ⟨-, n2, reg2, size2, c2, dg2, rfl, h2⟩ := clear_file_some hc hf1 hf2
          simp only [Entry.store, List.mem_singleton] at hk2
          subst hk2
          simp only at hcnt
          omega
        | dir n1 size1 c1 l1 =>
          obtain ⟨n2, size2, c2, l2, rfl, -⟩ := clear_dir hc hf1 hf2
          simp only [Entry.depth] at hdep
          omega
    · obtain ⟨nx', hsub⟩ := aloneEvs_sub hA es2 (es.map Entry.name) b2 d nx2 s2 out e2.name e2
        a2 hf2 hin
      obtain ⟨d', src', out', h⟩ := Entry.aloneEvs_cover hA e2 a2 d nx' s2 out
        (namesOK_of_mem hn2 hm2) kc hk2
      exact ⟨d', src', out', List.mem_append.mpr (Or.inr (hsub _ h))⟩
  | succ n ih =>
    intro es es2 b2 b d nx nx2 s1 s2 out hd hn1 hn2 hc kc hk hcnt
    obtain ⟨e2, a2, hf2, hk2⟩ := store_entry es2 b2 hn2 kc hk
    obtain ⟨-, hm2, -⟩ := findAt_bounds es2 b2 _ e2 a2 hf2
    have hdep := depth_le_of_mem hm2
    by_cases hin : e2.name ∈ es.map Entry.name
    · have hs : (findAt es b e2.name).isSome := findAt_mem.mpr hin
      cases hf1 : findAt es b e2.name with
      | none => simp [hf1] at hs
      | some x1 =>
        obtain ⟨e1, a1⟩ := x1
        obtain ⟨hname1, hm1, -⟩ := findAt_bounds es b _ e1 a1 hf1
        cases e1 with
        | file n1 reg1 size1 c1 dg1 =>
          obtain ⟨-, n2, reg2, size2, c2, dg2, rfl, h2⟩ := clear_file_some hc hf1 hf2
          simp only [Entry.store, List.mem_singleton] at hk2
          subst hk2
          simp only at hcnt
          omega
        | dir n1 size1 c1 l1 =>
          obtain ⟨n2, size2, c2, l2, rfl, hc'⟩ := clear_dir hc hf1 hf2
          simp only [Entry.depth] at hdep
          simp only [Entry.store] at hk2
          simp only [Entry.name] at hname1 hf1 hf2
          subst hname1
          obtain ⟨nx', hsub⟩ := bothEvs_sub hA es es2 b2 b d nx s1 s2 out n1 _ a1 hf1
          simp only [Entry.bothEvs, hf2] at hsub
          have hn1' := namesOK_of_mem hn1 hm1
          have hn2' := namesOK_of_mem hn2 hm2
          simp only [Entry.namesOK] at hn1' hn2'
          obtain ⟨d', src', out', h⟩ := ih l1 l2 (a2 + 1) (a1 + 1) a1 nx'
            (nx' + bothNewList l1 l2) (s1 ++ "/" ++ n1) (s2 ++ "/" ++ n1) (out ++ "/" ++ n1)
            (by omega) hn1' hn2' hc' kc hk2 hcnt
          exact ⟨d', src', out',
            List.mem_append.mpr (Or.inl (hsub _ (List.mem_cons_of_mem _ h)))⟩
    · obtain ⟨nx', hsub⟩ := aloneEvs_sub hA es2 (es.map Entry.name) b2 d nx2 s2 out e2.name e2
        a2 hf2 hin
      obtain ⟨d', src', out', h⟩ := Entry.aloneEvs_cover hA e2 a2 d nx' s2 out
        (namesOK_of_mem hn2 hm2) kc hk2
      exact ⟨d', src', out', List.mem_append.mpr (Or.inr (hsub _ h))⟩

theorem fileEv_ne_pair (hA : Heap) (f d : Nat) (src out : String) (c1 c2 d' : Nat)
    (p1 p2 o : String) : Ev.pair c1 c2 d' p1 p2 o ≠ fileEv hA f d src out := by
  unfold fileEv
  split <;> simp

theorem alone_no_pair (hA : Heap) (es : List Entry) (skip : List String) (b d nx : Nat)
    (src out : String) (c1 c2 d' : Nat) (p1 p2 o : String) :
    Ev.pair c1 c2 d' p1 p2 o ∉ aloneEvsList hA es skip b d nx src out := by
  intro h
  have := aloneEvsList_untouched hA es skip b d nx src out _ h
  simp [Ev.touched] at this

mutual
/-- The two nodes of a path collision at an entry of tree 1 are non-directories stored under
keys that occur once, when the entry is clear of the listing of tree 2. -/
theorem Entry.bothEvs_pairs (hA : Heap) (ks : List String) : ∀ (e : Entry) (es2 : List Entry)
    (b2 b d nx : Nat) (s1 s2 out : String), e.clear ks es2 = true →
    ∀ c1 c2 d' p1 p2 o, Ev.pair c1 c2 d' p1 p2 o ∈ e.bothEvs hA es2 b2 b d nx s1 s2 out →
    ∃ k1 k2, (k1, c1) ∈ e.store b ∧ (k2, c2) ∈ storeList es2 b2 ∧
      ks.count k1 ≤ 1 ∧ ks.count k2 ≤ 1
  | .file name regular size ctime digest, es2, b2, b, d, nx, s1, s2, out => by
    intro hc c1 c2 d' p1 p2 o hev
    simp only [Entry.bothEvs] at hev
    cases hfind : findAt es2 b2 name with
    | none =>
      rw [hfind] at hev
      simp only [List.mem_singleton] at hev
      exact absurd hev (fileEv_ne_pair _ _ _ _ _ _ _ _ _ _ _)
    | some x =>
      obtain ⟨e2, a2⟩ := x
      rw [hfind] at hev
      simp only [List.mem_singleton, Ev.pair.injEq] at hev
      obtain ⟨rfl, rfl, -⟩ := hev
      simp only [Entry.clear, findAt_entry_some hfind] at hc
      cases e2 with
      | file n2 reg2 size2 c2' dg2 =>
        simp only [Bool.and_eq_true, decide_eq_true_eq] at hc
        exact ⟨hashKey digest, hashKey dg2, by simp [Entry.store],
          findAt_store es2 b2 name _ c2 hfind _ (by simp [Entry.store]), hc.1, hc.2⟩
      | dir n2 size2 c2' l2 => simp at hc
  | .dir name size ctime es, es2, b2, b, d, nx, s1, s2, out => by
    intro hc c1 c2 d' p1 p2 o hev
    simp only [Entry.bothEvs] at hev
    cases hfind : findAt es2 b2 name with
    | none =>
      rw [hfind] at hev
      simp only [List.mem_cons] at hev
      rcases hev with hev | hev
      · cases hev
      · exact absurd hev (alone_no_pair _ _ _ _ _ _ _ _ _ _ _ _ _ _)
    | some x =>
      obtain ⟨e2, a2⟩ := x
      rw [hfind] at hev
      simp only [Entry.clear, findAt_entry_some hfind] at hc
      cases e2 with
      | file n2 reg2 size2 c2' dg2 => simp at hc
      | dir n2 size2 c2' l2 =>
        simp only at hc hev
        simp only [List.mem_cons, List.mem_append] at hev
        rcases hev with hev | hev | hev
        · cases hev
        · obtain ⟨k1, k2, h1, h2, h3, h4⟩ := bothEvsList_pairs hA ks es l2 (a2 + 1) (b + 1) b nx
            _ _ _ hc c1 c2 d' p1 p2 o hev
          exact ⟨k1, k2, by simp only [Entry.store]; exact h1,
            findAt_store es2 b2 name _ a2 hfind _ (by simp only [Entry.store]; exact h2),
            h3, h4⟩
        · exact absurd hev (alone_no_pair _ _ _ _ _ _ _ _ _ _ _ _ _ _)
/-- The two nodes of a path collision in a listing of tree 1 are non-directories stored under
keys that occur once, when the listings are clear. -/
theorem bothEvsList_pairs (hA : Heap) (ks : List String) : ∀ (es es2 : List Entry)
    (b2 b d nx : Nat) (s1 s2 out : String), clearList ks es es2 = true →
    ∀ c1 c2 d' p1 p2 o, Ev.pair c1 c2 d' p1 p2 o ∈ bothEvsList hA es es2 b2 b d nx s1 s2 out →
    ∃ k1 k2, (k1, c1) ∈ storeList es b ∧ (k2, c2) ∈ storeList es2 b2 ∧
      ks.count k1 ≤ 1 ∧ ks.count k2 ≤ 1
  | [], es2, b2, b, d, nx, s1, s2, out => by
    intro _ c1 c2 d' p1 p2 o hev
    simp [bothEvsList] at hev
  | x :: es, es2, b2, b, d, nx, s1, s2, out => by
    intro hc c1 c2 d' p1 p2 o hev
    simp only [clearList, Bool.and_eq_true] at hc
    simp only [bothEvsList, List.mem_append] at hev
    simp only [storeList, List.mem_append]
    rcases hev with hev | hev
    · obtain ⟨k1, k2, h1, h2, h3, h4⟩ := Entry.bothEvs_pairs hA ks x es2 b2 b d nx s1 s2 out
        hc.1 c1 c2 d' p1 p2 o hev
      exact ⟨k1, k2, Or.inl h1, h2, h3, h4⟩
    · obtain ⟨k1, k2, h1, h2, h3, h4⟩ := bothEvsList_pairs hA ks es es2 b2 (b + x.span) d
        (nx + x.bothNew es2) s1 s2 out hc.2 c1 c2 d' p1 p2 o hev
      exact ⟨k1, k2, Or.inr h1, h2, h3, h4⟩
end

/-- The members of a content class of more than one file are not copied in Phase B. -/
theorem classDone_not_single {hA : Heap} {C : List Nat} {best : Nat} (hC : ClassDone hA C best)
    (hb : best ∈ C) (hnd : C.Nodup) (hlen : 1 < C.length) : ∀ m ∈ C, single hA m = false := by
  obtain ⟨c1, c2, c3, c4⟩ := hC
  obtain ⟨o, ho, hob⟩ : ∃ o ∈ C, o ≠ best := by
    by_contra hc
    push_neg at hc
    have := eq_singleton_of_all hnd hb hc
    rw [this] at hlen
    simp at hlen
  intro m hm
  by_cases e : m = best
  · subst e
    have : o ∈ (hA m).subordinates := by
      rw [c3]
      simp [ho, hob]
    cases hs : (hA m).subordinates with
    | nil => rw [hs] at this; cases this
    | cons x xs => simp [single, hs]
  · simp [single, (c4 m hm e).1]

/-- When no content duplicate lies at a path collision, Phase B meets no hierarchy of Phase A
at a path collision and passes every member of a content class of more than one file. -/
theorem planEvs_clear (path1 path2 pathout : String) (in1 in2 : List Entry)
    (hok1 : namesOKList in1) (hok2 : namesOKList in2)
    (hcl : clearList (keysList in1 ++ keysList in2) in1 in2 = true) (hA : Heap)
    (hpA : scanPhaseA path1 path2 in1 in2 = some hA) :
    (∀ ev ∈ planEvs hA path1 path2 pathout in1 in2, ev.OK hA) ∧
    (∀ m, ¬ Pristine (hA m) →
      ∃ d src out, Ev.sub m d src out ∈ planEvs hA path1 path2 pathout in1 in2) := by
  obtain ⟨fhash, ⟨i1, i2, i3⟩, hall, hnd⟩ := scanPhaseA_inv path1 path2 in1 in2 hA hpA
  have hkeys := scan_keys path1 path2 in1 in2 hok1 hok2
  obtain ⟨-, -, -, p4, -⟩ := scanBoth_pair path1 path2 in1 in2 hok1 hok2
  generalize hfs : (scanBoth path1 path2 in1 in2).1.fileStore = fs at *
  generalize hks : keysList in1 ++ keysList in2 = ks at *
  have hpris : ∀ k a, (k, a) ∈ fs → ks.count k ≤ 1 → Pristine (hA a) := by
    intro k a hka hc
    refine i2 k (hall (k, a) hka) ?_ a ((mem_equalRange fs k a).mpr hka)
    rw [equalRange_length, hkeys]
    exact hc
  constructor
  · intro ev hev
    cases ev with
    | mk a p => trivial
    | cp f d src out => trivial
    | sub f d src out => trivial
    | pair c1 c2 d p1 p2 o =>
      simp only [planEvs, List.mem_cons, List.mem_append] at hev
      rcases hev with hev | hev | hev
      · cases hev
      · obtain ⟨k1, k2, h1, h2, h3, h4⟩ := bothEvsList_pairs hA ks in1 in2 _ _ _ _ _ _ _ hcl
          c1 c2 d p1 p2 o hev
        exact ⟨hpris k1 c1 (by rw [p4]; exact List.mem_append.mpr (Or.inl h1)) h3,
          hpris k2 c2 (by rw [p4]; exact List.mem_append.mpr (Or.inr h2)) h4⟩
      · exact absurd hev (alone_no_pair _ _ _ _ _ _ _ _ _ _ _ _ _ _)
  · intro m hm
    obtain ⟨k, hkm, hkc⟩ : ∃ k, (k, m) ∈ fs ∧ 1 < ks.count k := by
      by_contra hc
      push_neg at hc
      by_cases hk' : ∀ k', (k', m) ∈ fs → k' ∉ fhash
      · exact hm (i1 m hk')
      · push_neg at hk'
        obtain ⟨k', hka, -⟩ := hk'
        exact hm (hpris k' m hka (hc k' hka))
    have hlen : 1 < (equalRange fs k).length := by
      rw [equalRange_length, hkeys]
      exact hkc
    obtain ⟨best, hb, hC⟩ := i3 k (hall (k, m) hkm) hlen
    have hns := classDone_not_single hC hb (equalRange_nodup fs k hnd) hlen m
      ((mem_equalRange fs k m).mpr hkm)
    have hev : ∃ d src out, fileEv hA m d src out ∈ planEvs hA path1 path2 pathout in1 in2 := by
      rw [p4] at hkm
      rcases List.mem_append.mp hkm with h | h
      · obtain ⟨d, src, out, h'⟩ := bothEvsList_cover hA ks in1 in2
          (1 + (1 + spanList in1)) 1 ((1 + spanList in1) + (1 + spanList in2))
          ((1 + spanList in1) + (1 + spanList in2) + 1) path1 path2 pathout hok1 hcl (k, m) h hkc
        exact ⟨d, src, out, by
          simp only [planEvs]
          exact List.mem_cons_of_mem _ (List.mem_append.mpr (Or.inl h'))⟩
      · obtain ⟨d, src, out, h'⟩ := secondEvs_cover hA ks (depthList in2) in1 in2
          (1 + (1 + spanList in1)) 1 ((1 + spanList in1) + (1 + spanList in2))
          ((1 + spanList in1) + (1 + spanList in2) + 1)
          ((1 + spanList in1) + (1 + spanList in2) + 1 + bothNewList in1 in2)
          path1 path2 pathout (Nat.le_refl _) hok1 hok2 hcl (k, m) h hkc
        exact ⟨d, src, out, by
          simp only [planEvs]
          exact List.mem_cons_of_mem _ h'⟩
    obtain ⟨d, src, out, h⟩ := hev
    simp only [fileEv, hns, Bool.false_eq_true, if_false] at h
    exact ⟨d, src, out, h⟩

/-- A step of Phase C acts on one of the history directories, which are allocated in order,
or on a member of a hierarchy. -/
theorem histStepsAll_range {h : Heap} : ∀ {pqs : List (List Nat)} {nx : Nat} {s : EditStep},
    s ∈ histStepsAll h nx pqs →
    (nx ≤ s.acting ∧ s.acting < nx + pqs.length) ∨ ∃ pq ∈ pqs, s.acting ∈ pq
  | [], nx, s => by
    intro hs
    simp [histStepsAll] at hs
  | pq :: rest, nx, s => by
    intro hs
    simp only [histStepsAll, List.mem_append] at hs
    simp only [List.length_cons]
    rcases hs with hs | hs
    · rcases histSteps_acting hs with e | e
      · exact Or.inl (by omega)
      · exact Or.inr ⟨pq, by simp, e⟩
    · rcases histStepsAll_range hs with e | ⟨q, hq, e⟩
      · exact Or.inl (by omega)
      · exact Or.inr ⟨q, by simp [hq], e⟩

/-- The steps of a hierarchy whose members have parents and whose winner has a destination:
the `Mkdir` of the history directory, the `Copy` of the losers into it, the `Copy` of the
winner. -/
theorem histSteps_shape (h : Heap) (hist : Nat) (pq : List Nat) (hne : pq ≠ [])
    (hpar : ∀ m ∈ pq, ∃ p, (h m).parent = some p)
    (hdst : ∀ m ∈ pq, ∃ d, (h m).dstParent = some d) :
    ∃ (w : Nat) (losers : List Nat) (d : Nat), w ∈ pq ∧ losers.Perm (pq.erase w) ∧ (h w).dstParent = some d ∧
      histSteps h hist pq =
        mkdirAt hist ((h d).path ++ "/" ++ ("." ++ (h w).name ++ "_hist")) ::
          (losers.map (fun m => cpAt m hist (h m).path
              ((h d).path ++ "/" ++ ("." ++ (h w).name ++ "_hist"))) ++
            [cpAt w d (h w).path (h d).path]) := by
  obtain ⟨order, hdr⟩ := drain_total h pq.length pq rfl hpar
  have hperm := drain_perm h _ _ _ rfl hdr
  cases order with
  | nil =>
    exfalso
    exact hne (List.perm_nil.mp hperm.symm)
  | cons w losers =>
    have hw : w ∈ pq := hperm.subset (by simp)
    obtain ⟨d, hd⟩ := hdst w hw
    refine ⟨w, losers, d, hw, ?_, hd, ?_⟩
    · exact ((List.perm_cons_erase hw).symm.trans hperm.symm).cons_inv.symm
    · unfold histSteps
      rw [hdr]
      simp only [hd]

/-- A content class of more than one file whose members Phase B passes is, after Phase B, the
hierarchy below its superior of Phase A, and the superior is in `sups`. -/
theorem class_top (path1 path2 pathout : String) (in1 in2 : List Entry) (hA : Heap)
    (hpA : scanPhaseA path1 path2 in1 in2 = some hA)
    (hok : ∀ ev ∈ planEvs hA path1 path2 pathout in1 in2, ev.OK hA)
    (hE : ∀ m, ¬ Pristine (hA m) →
      ∃ d src out, Ev.sub m d src out ∈ planEvs hA path1 path2 pathout in1 in2)
    (stB : Planner) (kk : Nat)
    (hsim : Sim hA ((1 + spanList in1) + (1 + spanList in2))
      (afterA hA ((1 + spanList in1) + (1 + spanList in2))) stB
      (planEvs hA path1 path2 pathout in1 in2) kk)
    (tops : List Nat) (hsups : stB.sups = tops.map some) (k : String)
    (hlen : 1 < (equalRange (scanBoth path1 path2 in1 in2).1.fileStore k).length) :
    ∃ best, best ∈ tops ∧ best ∈ equalRange (scanBoth path1 path2 in1 in2).1.fileStore k ∧
      hierOf stB.heap best =
        best :: (equalRange (scanBoth path1 path2 in1 in2).1.fileStore k).filter
          (fun d => decide (d ≠ best)) ∧
      ∀ m ∈ equalRange (scanBoth path1 path2 in1 in2).1.fileStore k,
        m < (1 + spanList in1) + (1 + spanList in2) ∧
        ∃ d src out, Ev.sub m d src out ∈ planEvs hA path1 path2 pathout in1 in2 := by
  obtain ⟨fhash, ⟨i1, i2, i3⟩, hall, hnd⟩ := scanPhaseA_inv path1 path2 in1 in2 hA hpA
  generalize hfs : (scanBoth path1 path2 in1 in2).1.fileStore = fs at *
  have hCnd : (equalRange fs k).Nodup := equalRange_nodup fs k hnd
  have hk : k ∈ fhash := by
    cases hC : equalRange fs k with
    | nil => simp [hC] at hlen
    | cons m rest =>
      have hm : m ∈ equalRange fs k := by simp [hC]
      exact hall (k, m) ((mem_equalRange fs k m).mp hm)
  obtain ⟨best, hb, hC⟩ := i3 k hk hlen
  have hns := classDone_not_single hC hb hCnd hlen
  obtain ⟨c1, c2, c3, c4⟩ := hC
  have hnp : ∀ m ∈ equalRange fs k, ¬ Pristine (hA m) := by
    intro m hm hp
    have := hns m hm
    simp [single, hp.1, hp.2.1] at this
  have hsub : ∀ m ∈ equalRange fs k,
      ∃ d src out, Ev.sub m d src out ∈ planEvs hA path1 path2 pathout in1 in2 :=
    fun m hm => hE m (hnp m hm)
  have hlt : ∀ m ∈ equalRange fs k, m < (1 + spanList in1) + (1 + spanList in2) := by
    intro m hm
    obtain ⟨d, src, out, h⟩ := hsub m hm
    have := hsim.done _ h
    simp only [Ev.Done] at this
    exact this.lt
  have hkeep : ∀ m ∈ equalRange fs k, (stB.heap m).isSub = (hA m).isSub ∧
      (stB.heap m).subordinates = (hA m).subordinates := by
    intro m hm
    obtain ⟨g1, g2, -⟩ := (hsim.keeps.2 m (hlt m hm)).2.2.2.2
      (fun ht => hnp m hm (touched_pristine hok ht))
    exact ⟨g1, g2⟩
  obtain ⟨o, ho, hob⟩ : ∃ o ∈ equalRange fs k, o ≠ best := by
    by_contra hc
    push_neg at hc
    have := eq_singleton_of_all hCnd hb hc
    rw [this] at hlen
    simp at hlen
  refine ⟨best, ?_, hb, ?_, fun m hm => ⟨hlt m hm, hsub m hm⟩⟩
  · obtain ⟨d, src, out, h⟩ := hsub o ho
    have e1 : best ∈ tops ↔ some best ∈ stB.sups := by
      rw [hsups]
      simp
    rw [e1, hsim.sups, mem_foldl_setInsert]
    right
    exact List.mem_flatMap.mpr ⟨_, h, by simp [Ev.tops, (c4 o ho hob).1, (c4 o ho hob).2.1]⟩
  · simp only [hierOf, (hkeep best hb).2, c3]

/-- C4 (amended): when no non-directory that shares its content key lies at a path collision
and no name denotes a directory in one tree and a non-directory in the other at the same
relative location (`clearList`), names are unique within each directory and the fuel exceeds the
depth of both trees, the planner returns, and for every content class of more than one file (the
entries of one key of the content index) the steps of its plan that act on a member of the class
are exactly these, in this order: a `Copy` of every member but one, the winner `w`, into one
directory `hist`, and the `Copy` of `w` into a directory `d`.  `d` is made by a `Mkdir` of the
queue and is a node of Phases A and B, while `hist` is a history directory: it is allocated in
Phase C, behind all nodes of Phase B, and exactly one step acts on it, the `Mkdir` of the path of
`d` extended by `"." + w.name + "_hist"`. -/
theorem class_hierarchy_copies (fuel : Nat) (path1 path2 pathout : String)
    (in1 in2 : List Entry) (hok1 : namesOKList in1) (hok2 : namesOKList in2)
    (hcl : clearList (keysList in1 ++ keysList in2) in1 in2 = true)
    (hf1 : depthList in1 < fuel) (hf2 : depthList in2 < fuel) (hfuel : 2 ≤ fuel) (k : String)
    (hlen : 1 < (equalRange (scanBoth path1 path2 in1 in2).1.fileStore k).length) :
    ∃ (t : FsTree) (w d hist : Nat) (losers : List Nat),
      unidupe fuel path1 path2 pathout in1 in2 = some t ∧
      w ∈ equalRange (scanBoth path1 path2 in1 in2).1.fileStore k ∧
      losers.Perm ((equalRange (scanBoth path1 path2 in1 in2).1.fileStore k).erase w) ∧
      losers.length + 1 = (equalRange (scanBoth path1 path2 in1 in2).1.fileStore k).length ∧
      d < (1 + spanList in1) + (1 + spanList in2) +
        (1 + (bothNewList in1 in2 + aloneNewList in2 (in1.map Entry.name))) ∧
      (1 + spanList in1) + (1 + spanList in2) +
        (1 + (bothNewList in1 in2 + aloneNewList in2 (in1.map Entry.name))) ≤ hist ∧
      Made t.state.editSteps d ∧
      t.state.editSteps.filter (fun s => s.acting = hist) =
        [mkdirAt hist
          ((t.state.heap d).path ++ "/" ++ ("." ++ (t.state.heap w).name ++ "_hist"))] ∧
      t.state.editSteps.filter
          (fun s => decide (s.acting ∈ equalRange (scanBoth path1 path2 in1 in2).1.fileStore k)) =
        losers.map (fun m => cpAt m hist (t.state.heap m).path
            ((t.state.heap d).path ++ "/" ++ ("." ++ (t.state.heap w).name ++ "_hist"))) ++
          [cpAt w d (t.state.heap w).path (t.state.heap d).path] := by
  obtain ⟨hA, hpA⟩ := scanPhaseA_total path1 path2 in1 in2 hok1 hok2
  obtain ⟨hok, hE⟩ := planEvs_clear path1 path2 pathout in1 in2 hok1 hok2 hcl hA hpA
  obtain ⟨stB, tops, t, h1, hsim, hsups, htnd, htop, -, hsteps, -, hkeepn, -, -, -⟩ :=
    plan_shape fuel path1 path2 pathout in1 in2 hok1 hok2 hf1 hf2 hfuel hA hpA hok hE
  obtain ⟨best, hbt, hb, hhier, hmem⟩ := class_top path1 path2 pathout in1 in2 hA hpA hok hE
    stB _ hsim tops hsups k hlen
  obtain ⟨-, -, -, hnd0⟩ := scanPhaseA_inv path1 path2 in1 in2 hA hpA
  generalize hfs : (scanBoth path1 path2 in1 in2).1.fileStore = fs at *
  generalize hn0 : (1 + spanList in1) + (1 + spanList in2) = n0 at *
  have hCnd : (equalRange fs k).Nodup := equalRange_nodup fs k hnd0
  have hsn : stB.next = n0 + (1 + (bothNewList in1 in2 + aloneNewList in2 (in1.map Entry.name))) :=
    hsim.next
  have hnd := planEvs_nodup hA path1 path2 pathout in1 in2 hok1 hok2
  obtain ⟨rB, tB⟩ := htop best hbt
  -- the members of the hierarchy are the members of the class
  have hpq : (hierOf stB.heap best).Perm (equalRange fs k) := by
    have hfun : (fun d : Nat => decide (d ≠ best)) = (fun x => x != best) := by
      funext x
      by_cases e : x = best <;> simp [bne, e]
    rw [hhier, hfun, ← hCnd.erase_eq_filter best]
    exact (List.perm_cons_erase hb).symm
  have hin : ∀ m, m ∈ hierOf stB.heap best ↔ m ∈ equalRange fs k := fun m => hpq.mem_iff
  obtain ⟨pre, post, htops⟩ := List.append_of_mem hbt
  obtain ⟨w, losers, d, hw, hperm, hwd, hH⟩ := histSteps_shape stB.heap
    (stB.next + pre.length) (hierOf stB.heap best) (by simp [hierOf])
    (fun m hm => by
      obtain ⟨p, hp, -⟩ := rB.par m hm
      exact ⟨p, hp⟩)
    (fun m hm => by
      obtain ⟨d, hd, -⟩ := rB.dst m hm
      exact ⟨d, hd⟩)
  have hwC : w ∈ equalRange fs k := (hin w).mp hw
  have hlC : ∀ m ∈ losers, m ∈ equalRange fs k := fun m hm =>
    (hin m).mp (List.mem_of_mem_erase (hperm.subset hm))
  have hdlt : d < stB.next := by
    obtain ⟨d', hd', hlt⟩ := rB.dst w hw
    rw [hwd] at hd'
    simp only [Option.some.injEq] at hd'
    omega
  have hmlt : ∀ m ∈ equalRange fs k, m < stB.next := fun m hm => by
    have := (hmem m hm).1
    omega
  -- the queue, block by block
  have hq : t.state.editSteps =
      (planEvs hA path1 path2 pathout in1 in2).flatMap Ev.steps ++
        (histStepsAll stB.heap stB.next (pre.map (fun u => hierOf stB.heap u)) ++
          (histSteps stB.heap (stB.next + pre.length) (hierOf stB.heap best) ++
            histStepsAll stB.heap (stB.next + pre.length + 1)
              (post.map (fun u => hierOf stB.heap u)))) := by
    rw [hsteps, htops, List.map_append, histStepsAll_append, List.map_cons, List.length_map]
    rfl
  -- the other hierarchies hold no member of the class
  have hother : ∀ u ∈ pre ++ post, ∀ m ∈ hierOf stB.heap u, m ∉ equalRange fs k := by
    intro u hu m hm hmC
    have hut : u ∈ tops := by
      rw [htops]
      rcases List.mem_append.mp hu with h | h
      · exact List.mem_append.mpr (Or.inl h)
      · exact List.mem_append.mpr (Or.inr (List.mem_cons_of_mem _ h))
    have hne : u ≠ best := by
      rw [htops] at htnd
      have := List.nodup_append.mp htnd
      intro e
      rcases List.mem_append.mp hu with h | h
      · exact this.2.2 h (by simp [e])
      · have := (List.nodup_cons.mp this.2.1).1
        exact this (e ▸ h)
    exact Tied.disjoint (htop u hut).2 tB hne m hm ((hin m).mpr hmC)
  have hpre : ∀ u ∈ pre, u ∈ pre ++ post := fun u hu => List.mem_append.mpr (Or.inl hu)
  have hpost : ∀ u ∈ post, u ∈ pre ++ post := fun u hu => List.mem_append.mpr (Or.inr hu)
  have htops' : ∀ u ∈ pre ++ post, u ∈ tops := by
    intro u hu
    rw [htops]
    rcases List.mem_append.mp hu with h | h
    · exact List.mem_append.mpr (Or.inl h)
    · exact List.mem_append.mpr (Or.inr (List.mem_cons_of_mem _ h))
  -- names and paths after Phase C
  have hpw : (t.state.heap w).path = (stB.heap w).path := (hkeepn w (hmlt w hwC)).2.1
  have hnw : (t.state.heap w).name = (stB.heap w).name := (hkeepn w (hmlt w hwC)).1
  have hpd : (t.state.heap d).path = (stB.heap d).path := (hkeepn d hdlt).2.1
  have hpl : losers.map (fun m => cpAt m (stB.next + pre.length) (t.state.heap m).path
        ((stB.heap d).path ++ "/" ++ ("." ++ (stB.heap w).name ++ "_hist"))) =
      losers.map (fun m => cpAt m (stB.next + pre.length) (stB.heap m).path
        ((stB.heap d).path ++ "/" ++ ("." ++ (stB.heap w).name ++ "_hist"))) :=
    List.map_congr_left (fun m hm => by rw [(hkeepn m (hmlt m (hlC m hm))).2.1])
  -- the steps acting on the members of the class
  have hfC : t.state.editSteps.filter (fun s => decide (s.acting ∈ equalRange fs k)) =
      losers.map (fun m => cpAt m (stB.next + pre.length) (stB.heap m).path
          ((stB.heap d).path ++ "/" ++ ("." ++ (stB.heap w).name ++ "_hist"))) ++
        [cpAt w d (stB.heap w).path (stB.heap d).path] := by
    have e1 : ((planEvs hA path1 path2 pathout in1 in2).flatMap Ev.steps).filter
        (fun s => decide (s.acting ∈ equalRange fs k)) = [] := by
      rw [List.filter_eq_nil_iff]
      intro s hs
      simp only [decide_eq_true_eq]
      intro hm
      obtain ⟨d', src, out, hev⟩ := (hmem _ hm).2
      have := filter_steps_unique hnd hev (a := s.acting) (by simp [Ev.subj])
      have hs' : s ∈ ((planEvs hA path1 path2 pathout in1 in2).flatMap Ev.steps).filter
          (fun x => x.acting = s.acting) := by
        rw [List.mem_filter]
        exact ⟨hs, by simp⟩
      rw [this] at hs'
      simp [Ev.steps] at hs'
    have e2 : ∀ (l : List Nat) (nx : Nat), stB.next ≤ nx → (∀ u ∈ l, u ∈ pre ++ post) →
        (histStepsAll stB.heap nx (l.map (fun u => hierOf stB.heap u))).filter
          (fun s => decide (s.acting ∈ equalRange fs k)) = [] := by
      intro l nx hnx hl
      rw [List.filter_eq_nil_iff]
      intro s hs
      simp only [decide_eq_true_eq]
      intro hm
      rcases histStepsAll_range hs with h | ⟨pq, hpq', h⟩
      · have := hmlt _ hm
        omega
      · obtain ⟨u, hu, rfl⟩ := List.mem_map.mp hpq'
        exact hother u (hl u hu) _ h hm
    have e3 : (histSteps stB.heap (stB.next + pre.length) (hierOf stB.heap best)).filter
        (fun s => decide (s.acting ∈ equalRange fs k)) =
        losers.map (fun m => cpAt m (stB.next + pre.length) (stB.heap m).path
            ((stB.heap d).path ++ "/" ++ ("." ++ (stB.heap w).name ++ "_hist"))) ++
          [cpAt w d (stB.heap w).path (stB.heap d).path] := by
      rw [hH]
      have hno : stB.next + pre.length ∉ equalRange fs k := fun hm => by
        have := hmlt _ hm
        omega
      rw [List.filter_cons_of_neg (by simpa [mkdirAt] using hno), List.filter_append,
        List.filter_eq_self.mpr, List.filter_eq_self.mpr]
      · intro s hs
        simp only [List.mem_singleton] at hs
        subst hs
        simpa [cpAt] using hwC
      · intro s hs
        obtain ⟨m, hm, rfl⟩ := List.mem_map.mp hs
        simpa [cpAt] using hlC m hm
    rw [hq, List.filter_append, List.filter_append, List.filter_append, e1,
      e2 pre stB.next (Nat.le_refl _) hpre, e2 post _ (by omega) hpost, e3]
    simp
  -- the steps acting on the history directory
  have hfH : t.state.editSteps.filter (fun s => s.acting = stB.next + pre.length) =
      [mkdirAt (stB.next + pre.length)
        ((stB.heap d).path ++ "/" ++ ("." ++ (stB.heap w).name ++ "_hist"))] := by
    have e1 : ((planEvs hA path1 path2 pathout in1 in2).flatMap Ev.steps).filter
        (fun s => s.acting = stB.next + pre.length) = [] := by
      rw [List.filter_eq_nil_iff]
      intro s hs
      simp only [decide_eq_true_eq]
      intro hm
      obtain ⟨ev, hev, hse⟩ := List.mem_flatMap.mp hs
      have := subj_lt hsim ev hev s.acting (Ev.steps_acting hse)
      omega
    have e2 : ∀ (l : List Nat) (nx : Nat), (∀ u ∈ l, u ∈ pre ++ post) →
        (stB.next + pre.length < nx ∨ nx + l.length ≤ stB.next + pre.length) →
        (histStepsAll stB.heap nx (l.map (fun u => hierOf stB.heap u))).filter
          (fun s => s.acting = stB.next + pre.length) = [] := by
      intro l nx hl hr
      rw [List.filter_eq_nil_iff]
      intro s hs
      simp only [decide_eq_true_eq]
      intro hm
      rcases histStepsAll_range hs with h | ⟨pq, hpq', h⟩
      · rw [List.length_map] at h
        omega
      · obtain ⟨u, hu, rfl⟩ := List.mem_map.mp hpq'
        have := (htop u (htops' u (hl u hu))).1.lt _ h
        omega
    have e3 : (histSteps stB.heap (stB.next + pre.length) (hierOf stB.heap best)).filter
        (fun s => s.acting = stB.next + pre.length) =
        [mkdirAt (stB.next + pre.length)
          ((stB.heap d).path ++ "/" ++ ("." ++ (stB.heap w).name ++ "_hist"))] := by
      rw [hH, List.filter_cons_of_pos (by simp [mkdirAt]), List.filter_eq_nil_iff.mpr]
      intro s hs
      simp only [decide_eq_true_eq]
      intro hm
      rcases List.mem_append.mp hs with hs | hs
      · obtain ⟨m, hm', rfl⟩ := List.mem_map.mp hs
        have := hmlt m (hlC m hm')
        simp only [cpAt] at hm
        omega
      · simp only [List.mem_singleton] at hs
        subst hs
        have := hmlt w hwC
        simp only [cpAt] at hm
        omega
    rw [hq, List.filter_append, List.filter_append, List.filter_append, e1,
      e2 pre stB.next hpre (Or.inr (Nat.le_refl _)), e2 post _ hpost (Or.inl (by omega)), e3]
    simp
  -- the destination of the winner is made
  have hmade : Made t.state.editSteps d := by
    obtain ⟨h0, hc⟩ := unidupe_ctx fuel path1 path2 pathout in1 in2 t h1
    have hin' : cpAt w d (stB.heap w).path (stB.heap d).path ∈ t.state.editSteps := by
      have : cpAt w d (stB.heap w).path (stB.heap d).path ∈
          t.state.editSteps.filter (fun s => decide (s.acting ∈ equalRange fs k)) := by
        rw [hfC]
        simp
      exact (List.mem_filter.mp this).1
    obtain ⟨pre', post', hq'⟩ := List.append_of_mem hin'
    have hm := (hc.ordered pre' _ post' hq').2 rfl
    rw [hq']
    exact hm.append_left _
  refine ⟨t, w, d, stB.next + pre.length, losers, h1, hwC, hperm.trans (hpq.erase w), ?_,
    by omega, by omega, hmade, ?_, ?_⟩
  · have := hperm.length_eq
    rw [List.length_erase_of_mem hw] at this
    have h2 := hpq.length_eq
    have h3 : 0 < (hierOf stB.heap best).length := List.length_pos_of_mem hw
    omega
  · rw [hfH, hpd, hnw]
  · rw [hfC, hpd, hnw, hpw, hpl]

/-- Witness of `class_hierarchy_copies`: the class of the three files named `f` of the namesake
input (`in1 = {a/f, b/f}`, `in2 = {c/f}`, one content). -/
theorem class_hierarchy_copies_witness :
    clearList (keysList namesakeIn1 ++ keysList namesakeIn2) namesakeIn1 namesakeIn2 = true ∧
    1 < (equalRange (scanBoth "in1" "in2" namesakeIn1 namesakeIn2).1.fileStore
      (hashKey (digestOf 1))).length ∧
    ∃ (t : FsTree) (w d hist : Nat) (losers : List Nat),
      unidupe 3 "in1" "in2" "out" namesakeIn1 namesakeIn2 = some t ∧
      w ∈ equalRange (scanBoth "in1" "in2" namesakeIn1 namesakeIn2).1.fileStore
        (hashKey (digestOf 1)) ∧
      losers.Perm ((equalRange (scanBoth "in1" "in2" namesakeIn1 namesakeIn2).1.fileStore
        (hashKey (digestOf 1))).erase w) ∧
      losers.length + 1 = (equalRange (scanBoth "in1" "in2" namesakeIn1 namesakeIn2).1.fileStore
        (hashKey (digestOf 1))).length ∧
      d < (1 + spanList namesakeIn1) + (1 + spanList namesakeIn2) +
        (1 + (bothNewList namesakeIn1 namesakeIn2 +
          aloneNewList namesakeIn2 (namesakeIn1.map Entry.name))) ∧
      (1 + spanList namesakeIn1) + (1 + spanList namesakeIn2) +
        (1 + (bothNewList namesakeIn1 namesakeIn2 +
          aloneNewList namesakeIn2 (namesakeIn1.map Entry.name))) ≤ hist ∧
      Made t.state.editSteps d ∧
      t.state.editSteps.filter (fun s => s.acting = hist) =
        [mkdirAt hist ((t.state.heap d).path ++ "/" ++
          ("." ++ (t.state.heap w).name ++ "_hist"))] ∧
      t.state.editSteps.filter (fun s => decide (s.acting ∈
          equalRange (scanBoth "in1" "in2" namesakeIn1 namesakeIn2).1.fileStore
            (hashKey (digestOf 1)))) =
        losers.map (fun m => cpAt m hist (t.state.heap m).path
            ((t.state.heap d).path ++ "/" ++ ("." ++ (t.state.heap w).name ++ "_hist"))) ++
          [cpAt w d (t.state.heap w).path (t.state.heap d).path] :=
  ⟨by decide, by decide,
    class_hierarchy_copies 3 "in1" "in2" "out" namesakeIn1 namesakeIn2
      (by simp [namesakeIn1, namesOKList, Entry.namesOK, Entry.name, mkFile, mkDir])
      (by simp [namesakeIn2, namesOKList, Entry.namesOK, Entry.name, mkFile, mkDir])
      (by decide) (by decide) (by decide) (by decide) (hashKey (digestOf 1)) (by decide)⟩

/-! ## Phase C on twin files, either copy the superior -/

theorem twinWinner_cases (o : Bool) (n f : Nat) :
    (twinWinner o n f = f ∧ twinLoser o n f = f + n) ∨
    (twinWinner o n f = f + n ∧ twinLoser o n f = f) := by
  cases o
  · exact Or.inr ⟨rfl, rfl⟩
  · exact Or.inl ⟨rfl, rfl⟩

theorem ReadyBy.transfer {o : Bool} {h g : Heap} {n : Nat} {x : TwinFile} (r : ReadyBy o h n x)
    (e1 : g x.f = h x.f) (e2 : g (x.f + n) = h (x.f + n))
    (e3 : (g x.p).num_files = (h x.p).num_files)
    (e4 : (g (x.p + n)).num_files = (h (x.p + n)).num_files)
    (e5 : (g x.d).path = (h x.d).path) : ReadyBy o g n x := by
  have ew : g (twinWinner o n x.f) = h (twinWinner o n x.f) := by
    rcases twinWinner_cases o n x.f with ⟨a1, a2⟩ | ⟨a1, a2⟩ <;> rw [a1] <;> assumption
  have el : g (twinLoser o n x.f) = h (twinLoser o n x.f) := by
    rcases twinWinner_cases o n x.f with ⟨a1, a2⟩ | ⟨a1, a2⟩ <;> rw [a2] <;> assumption
  exact
    { sub1 := by rw [ew]; exact r.sub1
      sub2 := by rw [el]; exact r.sub2
      isSub1 := by rw [ew]; exact r.isSub1
      date := by rw [e1, e2]; exact r.date
      par1 := by rw [e1]; exact r.par1
      par2 := by rw [e2]; exact r.par2
      nf := by rw [e3, e4]; exact r.nf
      dst1 := by rw [e1]; exact r.dst1
      dst2 := by rw [e2]; exact r.dst2
      name1 := by rw [e1]; exact r.name1
      name2 := by rw [e2]; exact r.name2
      path1 := by rw [e1]; exact r.path1
      path2 := by rw [e2]; exact r.path2
      dpath := by rw [e5]; exact r.dpath }

mutual
theorem Entry.TwinBy.frame {o : Nat → Bool} {h g : Heap} {n : Nat} :
    ∀ (e : Entry) (b p : Nat) (s1 s2 : String),
    (∀ a, (b ≤ a ∧ a < b + e.span) ∨ (b + n ≤ a ∧ a < b + n + e.span) → g a = h a) →
    e.TwinBy o h n b p s1 s2 → e.TwinBy o g n b p s1 s2
  | .file name regular size ctime digest, b, p, s1, s2 => by
    intro hg ht
    simp only [Entry.TwinBy] at ht ⊢
    have e1 : g b = h b := hg b (by simp [Entry.span])
    have e2 : g (b + n) = h (b + n) := hg (b + n) (by simp [Entry.span])
    have ew : g (twinWinner (o b) n b) = h (twinWinner (o b) n b) := by
      rcases twinWinner_cases (o b) n b with ⟨a1, a2⟩ | ⟨a1, a2⟩ <;> rw [a1] <;> assumption
    have el : g (twinLoser (o b) n b) = h (twinLoser (o b) n b) := by
      rcases twinWinner_cases (o b) n b with ⟨a1, a2⟩ | ⟨a1, a2⟩ <;> rw [a2] <;> assumption
    exact
      { type_ne := by rw [e1]; exact ht.type_ne
        name1 := by rw [e1]; exact ht.name1
        name2 := by rw [e2]; exact ht.name2
        path1 := by rw [e1]; exact ht.path1
        path2 := by rw [e2]; exact ht.path2
        isSub1 := by rw [ew]; exact ht.isSub1
        sub1 := by rw [ew]; exact ht.sub1
        isSub2 := by rw [el]; exact ht.isSub2
        topSup2 := by rw [el]; exact ht.topSup2
        sub2 := by rw [el]; exact ht.sub2
        date := by rw [e1, e2]; exact ht.date
        par1 := by rw [e1]; exact ht.par1
        par2 := by rw [e2]; exact ht.par2 }
  | .dir name size ctime es, b, p, s1, s2 => by
    intro hg ht
    simp only [Entry.TwinBy] at ht ⊢
    simp only [Entry.span] at hg
    have e1 : g b = h b := hg b (by omega)
    have e2 : g (b + n) = h (b + n) := hg (b + n) (by omega)
    rw [e1, e2]
    refine ⟨ht.1, ht.2.1, ht.2.2.1, ht.2.2.2.1, ht.2.2.2.2.1, ?_⟩
    exact TwinListBy.frameList es (b + 1) b _ _ (fun a ha => hg a (by omega)) ht.2.2.2.2.2
theorem TwinListBy.frameList {o : Nat → Bool} {h g : Heap} {n : Nat} :
    ∀ (es : List Entry) (b p : Nat) (s1 s2 : String),
    (∀ a, (b ≤ a ∧ a < b + spanList es) ∨ (b + n ≤ a ∧ a < b + n + spanList es) → g a = h a) →
    TwinListBy o h n es b p s1 s2 → TwinListBy o g n es b p s1 s2
  | [], b, p, s1, s2 => by
    intro _ _
    simp only [TwinListBy]
  | e :: es, b, p, s1, s2 => by
    intro hg ht
    simp only [TwinListBy] at ht ⊢
    simp only [spanList] at hg
    have hp := Entry.span_pos e
    exact ⟨Entry.TwinBy.frame e b p s1 s2 (fun a ha => hg a (by omega)) ht.1,
      TwinListBy.frameList es (b + e.span) p s1 s2 (fun a ha => hg a (by omega)) ht.2⟩
end

theorem mergeCollision_twinSub (nd1 c1 c2 : Nat) (st1 : Planner) (hne : c2 ≠ c1)
    (h1 : (st1.heap c1).isSub = true) (h3 : (st1.heap c1).topSup = some c2) :
    mergeCollision nd1 c1 c2 st1 =
      { st1 with heap := setDstParent st1.heap c2 (some nd1),
                 sups := setInsert st1.sups (some c2) } := by
  have a1 : (setDstParent st1.heap c2 (some nd1) c1).isSub = true := by
    simp [setDstParent, hne.symm, h1]
  have a3 : (setDstParent st1.heap c2 (some nd1) c1).topSup = some c2 := by
    simp [setDstParent, hne.symm, h3]
  simp [mergeCollision, a1, a3, Planner.addSup]

mutual
/-- One iteration of the first loop of `mergeDirs` on an entry present in both trees: the
directories below it are created in scan order, its files are handed to Phase C, and nothing
outside its two blocks changes. -/
theorem selfVisitBy (o : Nat → Bool) (n : Nat) : ∀ (e : Entry) (fuel b p nd1 : Nat) (s1 s2 out : String)
    (loc : MergeLocals) (st : Planner),
    e.depth ≤ fuel → p < b → b + e.span ≤ n → (nd1 < b ∨ 2 * n ≤ nd1) →
    e.namesOK →
    e.TwinBy o st.heap n b p s1 s2 →
    (st.heap (p + n)).children.lookup e.name = some (b + n) →
    (st.heap nd1).path = out →
    (st.heap p).num_files = (st.heap (p + n)).num_files →
    (∀ s ∈ st.sups, ∃ a, s = some a ∧ (a < b ∨ (n ≤ a ∧ a < b + n))) →
    ∃ loc' st', mergeVisit1 (mergeDirs fuel) nd1 (p + n) e.name b loc st = some (loc', st') ∧
      st'.editSteps.map EditStep.com = st.editSteps.map EditStep.com ++ e.dirSteps out ∧
      st'.sups = st.sups ++ (e.infos b p nd1 s1 s2 out).map (fun x => some (twinWinner (o x.f) n x.f)) ∧
      st'.next = st.next ∧
      (∀ a, ¬ (b ≤ a ∧ a < b + e.span) → ¬ (b + n ≤ a ∧ a < b + n + e.span) →
        st'.heap a = st.heap a) ∧
      (∀ x ∈ e.infos b p nd1 s1 s2 out, ReadyBy (o x.f) st'.heap n x) ∧
      (∀ k, k ∈ loc'.visited ↔ k ∈ loc.visited ∨ k = e.name)
  | .file name regular size ctime digest, fuel, b, p, nd1, s1, s2, out, loc, st => by
    intro _ hpb hbn hnd1 _ ht hl hout hnf hsups
    simp only [Entry.TwinBy] at ht
    simp only [Entry.name] at hl ⊢
    simp only [Entry.span] at hbn ⊢
    have hne : b + n ≠ b := by omega
    have hn1b : nd1 ≠ b := by omega
    have hn1c : nd1 ≠ b + n := by omega
    have hwl := twinWinner_cases (o b) n b
    have hnotin : some (twinWinner (o b) n b) ∉ st.sups := by
      intro hm
      obtain ⟨a, ha, hlt⟩ := hsups _ hm
      simp only [Option.some.injEq] at ha
      rcases hwl with ⟨e1, e2⟩ | ⟨e1, e2⟩ <;> rw [e1] at ha <;> omega
    refine ⟨{ step_children := loc.step_children, visited := setInsert loc.visited name },
      { st with heap := setDstParent (setDstParent st.heap b (some nd1)) (b + n) (some nd1),
                sups := st.sups ++ [some (twinWinner (o b) n b)] }, ?_, ?_, ?_, rfl, ?_, ?_, ?_⟩
    · unfold mergeVisit1
      simp only [hl, ht.type_ne, if_false, Option.isSome_some, if_true]
      have i1 := ht.isSub1
      have i2 := ht.isSub2
      have i3 := ht.topSup2
      cases ho : o b
      · rw [ho] at i1 i2 i3
        simp only [twinWinner, twinLoser, Bool.false_eq_true, if_false] at i1 i2 i3 ⊢
        rw [mergeCollision_twinSub nd1 b (b + n) _ hne
          (by simp [setDstParent, hne.symm, i2])
          (by simp [setDstParent, hne.symm, i3])]
        rw [ho] at hnotin
        simp only [twinWinner, Bool.false_eq_true, if_false] at hnotin
        simp only [setInsert_fresh _ _ hnotin]
      · rw [ho] at i1 i2 i3
        simp only [twinWinner, twinLoser, if_true] at i1 i2 i3 ⊢
        rw [mergeCollision_twin nd1 b (b + n) _ hne
          (by simp [setDstParent, i1])
          (by simp [setDstParent, hne, i2])
          (by simp [setDstParent, hne, i3])]
        rw [ho] at hnotin
        simp only [twinWinner, if_true] at hnotin
        simp only [setInsert_fresh _ _ hnotin]
    · simp [Entry.dirSteps]
    · simp [Entry.infos]
    · intro a ha1 ha2
      have e1 : a ≠ b := by omega
      have e2 : a ≠ b + n := by omega
      simp [setDstParent, e1, e2]
    · intro x hx
      simp only [Entry.infos, List.mem_singleton] at hx
      subst hx
      have hpb' : p ≠ b := by omega
      have hpc : p ≠ b + n := by omega
      have hqb : p + n ≠ b := by omega
      have hqc : p + n ≠ b + n := by omega
      have hsub : ∀ a, (setDstParent (setDstParent st.heap b (some nd1)) (b + n) (some nd1)
          a).subordinates = (st.heap a).subordinates ∧
          (setDstParent (setDstParent st.heap b (some nd1)) (b + n) (some nd1) a).isSub =
            (st.heap a).isSub := by
        intro a
        rw [setDstParent_subordinates, setDstParent_subordinates, setDstParent_isSub,
          setDstParent_isSub]
        exact ⟨rfl, rfl⟩
      exact
        { sub1 := by rw [(hsub _).1]; exact ht.sub1
          sub2 := by rw [(hsub _).1]; exact ht.sub2
          isSub1 := by rw [(hsub _).2]; exact ht.isSub1
          date := by simp [setDstParent, hne, hne.symm, ht.date]
          par1 := by simp [setDstParent, hne.symm, ht.par1]
          par2 := by simp [setDstParent, hne, ht.par2]
          nf := by simp [setDstParent, hpb', hpc, hqb, hqc, hnf]
          dst1 := by simp [setDstParent, hne.symm]
          dst2 := by simp [setDstParent, hne]
          name1 := by simp [setDstParent, hne.symm, ht.name1]
          name2 := by simp [setDstParent, hne, ht.name2]
          path1 := by simp [setDstParent, hne.symm, ht.path1]
          path2 := by simp [setDstParent, hne, ht.path2]
          dpath := by simp [setDstParent, hn1b, hn1c, hout] }
    · intro k
      simp only [mem_setInsert]
  | .dir name size ctime es, fuel, b, p, nd1, s1, s2, out, loc, st => by
    intro hfuel hpb hbn hnd1 hnames ht hl hout hnf hsups
    simp only [Entry.TwinBy] at ht
    obtain ⟨ht1, ht2, ht3, ht4, ht5, ht6⟩ := ht
    simp only [Entry.name] at hl ⊢
    simp only [Entry.span] at hbn ⊢
    simp only [Entry.depth] at hfuel
    simp only [Entry.namesOK] at hnames
    obtain ⟨fuel', rfl⟩ : ∃ f, fuel = f + 1 := ⟨fuel - 1, by omega⟩
    have hne : b + n ≠ b := by omega
    have hn1b : nd1 ≠ b := by omega
    have hn1c : nd1 ≠ b + n := by omega
    -- the heap when the recursive call starts
    generalize hh3 : setParent (setParent st.heap b (some nd1)) (b + n) (some nd1) = h3
    have hfr3 : ∀ a, a ≠ b → a ≠ b + n → h3 a = st.heap a := by
      intro a e1 e2
      rw [← hh3]
      simp [setParent, e1, e2]
    have hch3 : ∀ a, (h3 a).children = (st.heap a).children := by
      intro a
      rw [← hh3]
      simp
    have hnf3 : ∀ a, (h3 a).num_files = (st.heap a).num_files := by
      intro a
      rw [← hh3]
      rw [setParent_num_files, setParent_num_files]
    have hpath3 : (h3 b).path = out ++ "/" ++ name := by
      rw [← hh3]
      simp [setParent, hne.symm, hn1b, hout, ht2]
    obtain ⟨loc1, st5, hloop, hsteps, hsup5, hnext5, hframe5, hready5, hvis5⟩ :=
      selfLoopBy o n es fuel' (b + 1) b b (s1 ++ "/" ++ name) (s2 ++ "/" ++ name)
        (out ++ "/" ++ name) { step_children := [], visited := [] }
        { st with heap := h3, editSteps := st.editSteps ++ [mkdirStep h3 b] }
        (by omega) (by omega) (by omega) (Or.inl (by omega)) hnames
        (TwinListBy.frameList es (b + 1) b _ _
          (fun a ha => hfr3 a (by omega) (by omega)) ht6)
        (by
          intro kc hk
          simp only
          rw [hch3, ht4]
          exact kids_lookup_shift n es (b + 1) (namesOKList_nodup es hnames) kc hk)
        hpath3
        (by simp only; rw [hnf3, hnf3]; exact ht5)
        (by
          intro s hs
          obtain ⟨a, ha, hlt⟩ := hsups s hs
          exact ⟨a, ha, by omega⟩)
    simp only at hloop hsteps hsup5 hnext5 hframe5 hready5 hvis5
    have hmd := mergeDirs_of_loop1 fuel' b (b + n)
      { st with heap := h3, editSteps := st.editSteps ++ [mkdirStep h3 b] } st5 loc1
      (by simp only; rw [hch3, ht3]; exact hloop)
      (by
        intro kc hk
        rw [hframe5 (b + n) (by omega) (by omega)] at hk
        rw [hch3, ht4] at hk
        rw [hvis5]
        right
        rw [← kids_keys es (b + 1 + n)]
        exact List.mem_map_of_mem _ hk)
    refine ⟨{ step_children := mapInsert loc.step_children (h3 b).name b,
              visited := setInsert loc.visited name },
      { st5 with
        heap := st5.heap.modify b (fun n => { n with children := loc1.step_children }) },
      ?_, ?_, ?_, ?_, ?_, ?_, ?_⟩
    · unfold mergeVisit1
      simp only [hl, ht1, if_true, Option.isSome_some, pushStep_mkdir, hh3, hmd]
    · simp only [hsteps, List.map_append, List.map_cons, List.map_nil, mkdirStep, hpath3,
        Entry.dirSteps, List.append_assoc, List.singleton_append]
    · simp only [hsup5, Entry.infos]
    · exact hnext5
    · intro a ha1 ha2
      have e1 : a ≠ b := by omega
      simp only [Heap.get_modify, e1, if_false]
      rw [hframe5 a (by omega) (by omega)]
      exact hfr3 a e1 (by omega)
    · intro x hx
      simp only [Entry.infos] at hx
      have hb := infosList_bounds es (b + 1) b b _ _ _ x hx
      have r := hready5 x hx
      have e1 : x.f ≠ b := by omega
      have e2 : x.f + n ≠ b := by omega
      refine r.transfer ?_ ?_ ?_ ?_ ?_
      · simp [e1]
      · simp [e2]
      · by_cases e : x.p = b <;> simp [e]
      · by_cases e : x.p + n = b <;> simp [e]
      · by_cases e : x.d = b <;> simp [e]
    · intro k
      simp only [mem_setInsert]
/-- The first loop of `mergeDirs` on the entries of a directory present in both trees. -/
theorem selfLoopBy (o : Nat → Bool) (n : Nat) : ∀ (es : List Entry) (fuel b p nd1 : Nat) (s1 s2 out : String)
    (loc : MergeLocals) (st : Planner),
    depthList es ≤ fuel → p < b → b + spanList es ≤ n → (nd1 < b ∨ 2 * n ≤ nd1) →
    namesOKList es →
    TwinListBy o st.heap n es b p s1 s2 →
    (∀ kc ∈ kids b es, (st.heap (p + n)).children.lookup kc.1 = some (kc.2 + n)) →
    (st.heap nd1).path = out →
    (st.heap p).num_files = (st.heap (p + n)).num_files →
    (∀ s ∈ st.sups, ∃ a, s = some a ∧ (a < b ∨ (n ≤ a ∧ a < b + n))) →
    ∃ loc' st', mergeLoop1 (mergeDirs fuel) nd1 (p + n) (kids b es) loc st = some (loc', st') ∧
      st'.editSteps.map EditStep.com = st.editSteps.map EditStep.com ++ dirStepsList es out ∧
      st'.sups = st.sups ++ (infosList es b p nd1 s1 s2 out).map (fun x => some (twinWinner (o x.f) n x.f)) ∧
      st'.next = st.next ∧
      (∀ a, ¬ (b ≤ a ∧ a < b + spanList es) → ¬ (b + n ≤ a ∧ a < b + n + spanList es) →
        st'.heap a = st.heap a) ∧
      (∀ x ∈ infosList es b p nd1 s1 s2 out, ReadyBy (o x.f) st'.heap n x) ∧
      (∀ k, k ∈ loc'.visited ↔ k ∈ loc.visited ∨ k ∈ es.map Entry.name)
  | [], fuel, b, p, nd1, s1, s2, out, loc, st => by
    intro _ _ _ _ _ _ _ _ _ _
    refine ⟨loc, st, rfl, ?_, ?_, rfl, fun _ _ _ => rfl, ?_, ?_⟩
    · simp [dirStepsList]
    · simp [infosList]
    · intro x hx
      simp [infosList] at hx
    · intro k
      simp
  | e :: es, fuel, b, p, nd1, s1, s2, out, loc, st => by
    intro hfuel hpb hbn hnd1 hnames ht hl hout hnf hsups
    simp only [depthList] at hfuel
    simp only [spanList] at hbn ⊢
    simp only [namesOKList] at hnames
    simp only [TwinListBy] at ht
    have hsp := Entry.span_pos e
    obtain ⟨loc1, st1, hv, hsteps1, hsup1, hnext1, hframe1, hready1, hvis1⟩ :=
      selfVisitBy o n e fuel b p nd1 s1 s2 out loc st (by omega) hpb (by omega) hnd1 hnames.2.1
        ht.1 (hl (e.name, b) (by simp [kids])) hout hnf hsups
    obtain ⟨loc2, st2, hlp, hsteps2, hsup2, hnext2, hframe2, hready2, hvis2⟩ :=
      selfLoopBy o n es fuel (b + e.span) p nd1 s1 s2 out loc1 st1 (by omega) (by omega)
        (by omega) (by omega) hnames.2.2
        (TwinListBy.frameList es (b + e.span) p s1 s2
          (fun a ha => hframe1 a (by omega) (by omega)) ht.2)
        (by
          intro kc hk
          rw [hframe1 (p + n) (by omega) (by omega)]
          exact hl kc (by simp [kids, hk]))
        (by rw [hframe1 nd1 (by omega) (by omega)]; exact hout)
        (by
          rw [hframe1 p (by omega) (by omega), hframe1 (p + n) (by omega) (by omega)]
          exact hnf)
        (by
          intro s hs
          rw [hsup1, List.mem_append] at hs
          rcases hs with hs | hs
          · obtain ⟨a, ha, hlt⟩ := hsups s hs
            exact ⟨a, ha, by omega⟩
          · simp only [List.mem_map] at hs
            obtain ⟨x, hx, rfl⟩ := hs
            have := Entry.infos_bounds e b p nd1 s1 s2 out x hx
            refine ⟨_, rfl, ?_⟩
            rcases twinWinner_cases (o x.f) n x.f with ⟨e1, e2⟩ | ⟨e1, e2⟩ <;> rw [e1] <;> omega)
    refine ⟨loc2, st2, ?_, ?_, ?_, ?_, ?_, ?_, ?_⟩
    · simp only [kids, mergeLoop1, hv, hlp]
    · rw [hsteps2, hsteps1]
      simp [dirStepsList]
    · rw [hsup2, hsup1]
      simp [infosList]
    · omega
    · intro a ha1 ha2
      rw [hframe2 a (by omega) (by omega), hframe1 a (by omega) (by omega)]
    · intro x hx
      simp only [infosList, List.mem_append] at hx
      rcases hx with hx | hx
      · have hb := Entry.infos_bounds e b p nd1 s1 s2 out x hx
        have r := hready1 x hx
        refine r.transfer ?_ ?_ ?_ ?_ ?_
        · rw [hframe2 _ (by omega) (by omega)]
        · rw [hframe2 _ (by omega) (by omega)]
        · rw [hframe2 _ (by omega) (by omega)]
        · rw [hframe2 _ (by omega) (by omega)]
        · rw [hframe2 _ (by omega) (by omega)]
      · exact hready2 x hx
    · intro k
      rw [hvis2, hvis1]
      simp only [List.map_cons, List.mem_cons]
      tauto
end

/-! ## Phase A on an arrangement of the content index of twin trees -/

/-- One step of Phase A on twins that are still as scanned: the twin `y` is subordinated to the
twin `x`, the first of the range. -/
theorem PairsInv.step {fs1 store : List (String × Nat)} {n : Nat} {h0 h : Heap}
    {fhash : List String} (hi : PairsInv fs1 store n h0 h fhash)
    (hk : (fs1.map Prod.fst).Nodup) (hlt : ∀ kc ∈ fs1, kc.2 < n)
    (hnd : (fs1.map Prod.snd).Nodup)
    (hs0 : ∀ kc ∈ fs1, (h0 kc.2).isSub = false ∧ (h0 (kc.2 + n)).isSub = false ∧
      (h0 kc.2).subordinates = [] ∧ (h0 (kc.2 + n)).subordinates = [])
    (k : String) (f : Nat) (hm : (k, f) ∈ fs1) (hkn : k ∉ fhash) :
    PairsInv fs1 store n h0
      (makeSub h (twinLoser (firstOfTree1 store n k) n f)
        (twinWinner (firstOfTree1 store n k) n f)) (k :: fhash) := by
  have hf : f < n := hlt _ hm
  have hwl := twinWinner_cases (firstOfTree1 store n k) n f
  have hne : twinLoser (firstOfTree1 store n k) n f ≠ twinWinner (firstOfTree1 store n k) n f := by
    rcases hwl with ⟨e1, e2⟩ | ⟨e1, e2⟩ <;> rw [e1, e2] <;> omega
  obtain ⟨t1, t2⟩ := hi.todo (k, f) hm hkn
  obtain ⟨z1, z2, z3, z4⟩ := hs0 (k, f) hm
  simp only at t1 t2 z1 z2 z3 z4
  have hw0 : h (twinWinner (firstOfTree1 store n k) n f) =
      h0 (twinWinner (firstOfTree1 store n k) n f) := by
    rcases hwl with ⟨e1, e2⟩ | ⟨e1, e2⟩ <;> rw [e1] <;> assumption
  have hl0 : h (twinLoser (firstOfTree1 store n k) n f) =
      h0 (twinLoser (firstOfTree1 store n k) n f) := by
    rcases hwl with ⟨e1, e2⟩ | ⟨e1, e2⟩ <;> rw [e2] <;> assumption
  have hwz : (h0 (twinWinner (firstOfTree1 store n k) n f)).isSub = false ∧
      (h0 (twinWinner (firstOfTree1 store n k) n f)).subordinates = [] := by
    rcases hwl with ⟨e1, e2⟩ | ⟨e1, e2⟩ <;> rw [e1] <;> exact ⟨by assumption, by assumption⟩
  -- a pair of another key lies apart
  have hapart : ∀ kc ∈ fs1, kc.1 ≠ k →
      (kc.2 ≠ f ∧ kc.2 ≠ f + n) ∧ (kc.2 + n ≠ f ∧ kc.2 + n ≠ f + n) := by
    intro kc hkc hne'
    have h1 := hlt kc hkc
    have h2 : kc.2 ≠ f := by
      intro e
      apply hne'
      exact store_key_unique fs1 hnd kc.1 k f (by rw [← e]; exact hkc) hm
    omega
  have hget : ∀ a, a ≠ f → a ≠ f + n →
      makeSub h (twinLoser (firstOfTree1 store n k) n f)
        (twinWinner (firstOfTree1 store n k) n f) a = h a := by
    intro a a1 a2
    rw [makeSub_get]
    have b1 : a ≠ twinLoser (firstOfTree1 store n k) n f := by
      rcases hwl with ⟨e1, e2⟩ | ⟨e1, e2⟩ <;> rw [e2] <;> assumption
    have b2 : a ≠ twinWinner (firstOfTree1 store n k) n f := by
      rcases hwl with ⟨e1, e2⟩ | ⟨e1, e2⟩ <;> rw [e1] <;> assumption
    simp [b1, b2]
  refine ⟨?_, ?_, ?_, ?_⟩
  · intro a ha
    obtain ⟨a1, a2⟩ := ha (k, f) hm
    rw [hget a a1 a2]
    exact hi.other a ha
  · intro kc hkc hkf
    simp only [List.mem_cons, not_or] at hkf
    obtain ⟨⟨a1, a2⟩, a3, a4⟩ := hapart kc hkc hkf.1
    rw [hget _ a1 a2, hget _ a3 a4]
    exact hi.todo kc hkc hkf.2
  · intro kc hkc hkf
    by_cases e : kc.1 = k
    · have e2 : kc.2 = f := by
        have h1 : (kc.1, kc.2) ∈ fs1 := hkc
        rw [e] at h1
        have := filter_key_unique fs1 k kc.2 hk h1
        have h3 := filter_key_unique fs1 k f hk hm
        rw [this] at h3
        simpa using h3
      rw [e, e2]
      constructor
      · rw [makeSub_get]
        simp only [hne.symm, if_false, if_true]
        rw [hw0, hwz.2]
        rfl
      · rw [makeSub_get]
        simp only [hne, if_false, if_true]
        rw [hl0, hw0, hwz.1]
        rfl
    · simp only [List.mem_cons] at hkf
      rcases hkf with hkf | hkf
      · exact absurd hkf e
      · obtain ⟨⟨a1, a2⟩, a3, a4⟩ := hapart kc hkc e
        have c1 : twinWinner (firstOfTree1 store n kc.1) n kc.2 ≠ f ∧
            twinWinner (firstOfTree1 store n kc.1) n kc.2 ≠ f + n := by
          rcases twinWinner_cases (firstOfTree1 store n kc.1) n kc.2 with ⟨e1, e2⟩ | ⟨e1, e2⟩ <;>
            rw [e1] <;> exact ⟨by assumption, by assumption⟩
        have c2 : twinLoser (firstOfTree1 store n kc.1) n kc.2 ≠ f ∧
            twinLoser (firstOfTree1 store n kc.1) n kc.2 ≠ f + n := by
          rcases twinWinner_cases (firstOfTree1 store n kc.1) n kc.2 with ⟨e1, e2⟩ | ⟨e1, e2⟩ <;>
            rw [e2] <;> exact ⟨by assumption, by assumption⟩
        rw [hget _ c1.1 c1.2, hget _ c2.1 c2.2]
        exact hi.done kc hkc hkf
  · intro a
    rw [makeSub_num_files]
    exact hi.nf a

mutual
/-- The state after Phase A of an entry scanned twice, given the effect of Phase A on its
files. -/
theorem Entry.twinBy_of_rep {o : Nat → Bool} {h0 hA : Heap} {n : Nat}
    (hdir : ∀ a, (h0 a).type = "dir" → hA a = h0 a) :
    ∀ (e : Entry) (b p : Nat) (s1 s2 : String),
    e.Rep h0 b p s1 → e.Rep h0 (b + n) (p + n) s2 →
    (∀ kc ∈ e.store b,
      hA (twinWinner (o kc.2) n kc.2) =
        { h0 (twinWinner (o kc.2) n kc.2) with subordinates := [twinLoser (o kc.2) n kc.2] } ∧
      hA (twinLoser (o kc.2) n kc.2) =
        { h0 (twinLoser (o kc.2) n kc.2) with
          isSub := true, topSup := some (twinWinner (o kc.2) n kc.2) }) →
    e.TwinBy o hA n b p s1 s2
  | .file name regular size ctime digest, b, p, s1, s2 => by
    intro r1 r2 hA'
    simp only [Entry.Rep] at r1 r2
    obtain ⟨a1, a2⟩ := hA' (hashKey digest, b) (by simp [Entry.store])
    simp only at a1 a2
    have ht : (if regular then fileType name else "other") ≠ "dir" := by
      split
      · exact fileType_ne_dir name
      · decide
    simp only [Entry.TwinBy]
    cases ho : o b
    · rw [ho] at a1 a2
      simp only [twinWinner, twinLoser, Bool.false_eq_true, if_false] at a1 a2
      exact
        { type_ne := by rw [a2, r1]; exact ht
          name1 := by rw [a2, r1]
          name2 := by rw [a1, r2]
          path1 := by rw [a2, r1]
          path2 := by rw [a1, r2]
          isSub1 := by
            simp only [twinWinner, Bool.false_eq_true, if_false]
            rw [a1, r2]; rfl
          sub1 := by
            simp only [twinWinner, twinLoser, Bool.false_eq_true, if_false]
            rw [a1]
          isSub2 := by
            simp only [twinLoser, Bool.false_eq_true, if_false]
            rw [a2]
          topSup2 := by
            simp only [twinWinner, twinLoser, Bool.false_eq_true, if_false]
            rw [a2]
          sub2 := by
            simp only [twinLoser, Bool.false_eq_true, if_false]
            rw [a2, r1]; rfl
          date := by rw [a1, a2, r1, r2]
          par1 := by rw [a2, r1]
          par2 := by rw [a1, r2] }
    · rw [ho] at a1 a2
      simp only [twinWinner, twinLoser, if_true] at a1 a2
      exact
        { type_ne := by rw [a1, r1]; exact ht
          name1 := by rw [a1, r1]
          name2 := by rw [a2, r2]
          path1 := by rw [a1, r1]
          path2 := by rw [a2, r2]
          isSub1 := by
            simp only [twinWinner, if_true]
            rw [a1, r1]; rfl
          sub1 := by
            simp only [twinWinner, twinLoser, if_true]
            rw [a1]
          isSub2 := by
            simp only [twinLoser, if_true]
            rw [a2]
          topSup2 := by
            simp only [twinWinner, twinLoser, if_true]
            rw [a2]
          sub2 := by
            simp only [twinLoser, if_true]
            rw [a2, r2]; rfl
          date := by rw [a1, a2, r1, r2]
          par1 := by rw [a1, r1]
          par2 := by rw [a2, r2] }
  | .dir name size ctime es, b, p, s1, s2 => by
    intro r1 r2 hA'
    simp only [Entry.Rep] at r1 r2
    simp only [Entry.store] at hA'
    have e : b + n + 1 = b + 1 + n := by omega
    rw [e] at r2
    have d1 : hA b = h0 b := hdir b (by rw [r1.1])
    have d2 : hA (b + n) = h0 (b + n) := hdir (b + n) (by rw [r2.1])
    simp only [Entry.TwinBy]
    rw [d1, d2, r1.1, r2.1]
    refine ⟨rfl, rfl, rfl, rfl, rfl, ?_⟩
    exact TwinListBy.of_rep hdir es (b + 1) b _ _ r1.2 r2.2 hA'
theorem TwinListBy.of_rep {o : Nat → Bool} {h0 hA : Heap} {n : Nat}
    (hdir : ∀ a, (h0 a).type = "dir" → hA a = h0 a) :
    ∀ (es : List Entry) (b p : Nat) (s1 s2 : String),
    RepList h0 es b p s1 → RepList h0 es (b + n) (p + n) s2 →
    (∀ kc ∈ storeList es b,
      hA (twinWinner (o kc.2) n kc.2) =
        { h0 (twinWinner (o kc.2) n kc.2) with subordinates := [twinLoser (o kc.2) n kc.2] } ∧
      hA (twinLoser (o kc.2) n kc.2) =
        { h0 (twinLoser (o kc.2) n kc.2) with
          isSub := true, topSup := some (twinWinner (o kc.2) n kc.2) }) →
    TwinListBy o hA n es b p s1 s2
  | [], b, p, s1, s2 => by
    intro _ _ _
    simp only [TwinListBy]
  | e :: es, b, p, s1, s2 => by
    intro r1 r2 hA'
    simp only [RepList] at r1 r2
    simp only [storeList] at hA'
    have e' : b + n + e.span = b + e.span + n := by omega
    rw [e'] at r2
    simp only [TwinListBy]
    exact ⟨Entry.twinBy_of_rep hdir e b p s1 s2 r1.1 r2.1
        (fun kc hkc => hA' kc (List.mem_append_left _ hkc)),
      TwinListBy.of_rep hdir es (b + e.span) p s1 s2 r1.2 r2.2
        (fun kc hkc => hA' kc (List.mem_append_right _ hkc))⟩
end

mutual
theorem Entry.infos_cmdsBy (o : Nat → Bool) (pick : String → Bool) :
    ∀ (e : Entry) (b p d : Nat) (s1 s2 out : String),
    (∀ kc ∈ e.store b, o kc.2 = pick kc.1) →
    (e.infos b p d s1 s2 out).flatMap (fun x => twinCmdsBy (o x.f) x) =
      e.histStepsBy pick s1 s2 out
  | .file name regular size ctime digest, b, p, d, s1, s2, out => by
    intro ho
    have := ho (hashKey digest, b) (by simp [Entry.store])
    simp only at this
    simp [Entry.infos, Entry.histStepsBy, twinCmdsBy, this]
  | .dir name size ctime es, b, p, d, s1, s2, out => by
    intro ho
    simp only [Entry.infos, Entry.histStepsBy]
    exact infosList_cmdsBy o pick es (b + 1) b b _ _ _ ho
theorem infosList_cmdsBy (o : Nat → Bool) (pick : String → Bool) :
    ∀ (es : List Entry) (b p d : Nat) (s1 s2 out : String),
    (∀ kc ∈ storeList es b, o kc.2 = pick kc.1) →
    (infosList es b p d s1 s2 out).flatMap (fun x => twinCmdsBy (o x.f) x) =
      histStepsListBy pick es s1 s2 out
  | [], b, p, d, s1, s2, out => by
    intro _
    simp [infosList, histStepsListBy]
  | e :: es, b, p, d, s1, s2, out => by
    intro ho
    simp only [storeList] at ho
    simp only [infosList, histStepsListBy, List.flatMap_append]
    rw [Entry.infos_cmdsBy o pick e b p d s1 s2 out
        (fun kc hkc => ho kc (List.mem_append_left _ hkc)),
      infosList_cmdsBy o pick es (b + e.span) p d s1 s2 out
        (fun kc hkc => ho kc (List.mem_append_right _ hkc))]
end

mutual
theorem Entry.histStepsBy_length (pick : String → Bool) : ∀ (e : Entry) (s1 s2 out : String),
    (e.histStepsBy pick s1 s2 out).length = 3 * e.numFiles
  | .file name regular size ctime digest, s1, s2, out => by
    simp [Entry.histStepsBy, Entry.numFiles]
  | .dir name size ctime es, s1, s2, out => by
    simp only [Entry.histStepsBy, Entry.numFiles]
    exact histStepsListBy_length pick es _ _ _
theorem histStepsListBy_length (pick : String → Bool) :
    ∀ (es : List Entry) (s1 s2 out : String),
    (histStepsListBy pick es s1 s2 out).length = 3 * numFilesList es
  | [], s1, s2, out => by
    simp [histStepsListBy, numFilesList]
  | e :: es, s1, s2, out => by
    simp only [histStepsListBy, numFilesList, List.length_append]
    rw [Entry.histStepsBy_length pick e s1 s2 out, histStepsListBy_length pick es s1 s2 out]
    omega
end

theorem kidsOf_append (l r : List (String × Ev)) : kidsOf (l ++ r) = kidsOf l ++ kidsOf r := by
  simp [kidsOf, List.filterMap_append]

theorem kidsOf_keys (tops : List (String × Ev)) :
    ∀ kv ∈ kidsOf tops, kv.1 ∈ tops.map Prod.fst := by
  intro kv hkv
  simp only [kidsOf, List.mem_filterMap, Option.map_eq_some'] at hkv
  obtain ⟨t, ht, v, -, rfl⟩ := hkv
  exact List.mem_map_of_mem _ ht

theorem lookup_kidsOf_none {tops : List (String × Ev)} {k : String}
    (h : k ∉ tops.map Prod.fst) : (kidsOf tops).lookup k = none := by
  rw [lookup_none_iff]
  intro hc
  obtain ⟨kv, hkv, rfl⟩ := List.mem_map.mp hc
  exact h (kidsOf_keys tops kv hkv)

theorem lookup_append_fresh {l r : List (String × Nat)} {k : String}
    (h1 : l.lookup k = none) (h2 : r.lookup k = none) : (l ++ r).lookup k = none := by
  rw [lookup_append, h1, h2]
  rfl

theorem fileEv_kid (hA : Heap) (f d : Nat) (src out : String) :
    (fileEv hA f d src out).kid = if single hA f then some f else none := by
  unfold fileEv
  split <;> rfl

theorem kidsOf_file (hA : Heap) (name : String) (f d : Nat) (src out : String) :
    kidsOf [(name, fileEv hA f d src out)] = if single hA f then [(name, f)] else [] := by
  by_cases h : single hA f = true <;>
    simp [kidsOf, List.filterMap_cons, List.filterMap_nil, fileEv_kid, h]

theorem bothTops_names (hA : Heap) : ∀ (es es2 : List Entry) (b2 b d nx : Nat)
    (s1 s2 out : String),
    (bothTops hA es es2 b2 b d nx s1 s2 out).map Prod.fst = es.map Entry.name
  | [], _, _, _, _, _, _, _, _ => rfl
  | e :: es, es2, b2, b, d, nx, s1, s2, out => by
    simp only [bothTops, List.map_cons]
    rw [bothTops_names hA es es2 b2 _ d _ s1 s2 out]

theorem aloneTops_names (hA : Heap) : ∀ (es : List Entry) (skip : List String) (b d nx : Nat)
    (src out : String),
    (aloneTops hA es skip b d nx src out).map Prod.fst =
      (es.map Entry.name).filter (fun n => decide (n ∉ skip))
  | [], _, _, _, _, _, _ => rfl
  | e :: es, skip, b, d, nx, src, out => by
    simp only [aloneTops, List.map_cons]
    by_cases hsk : e.name ∈ skip
    · simp only [hsk, if_true]
      rw [aloneTops_names hA es skip _ d nx src out]
      simp [List.filter_cons, hsk]
    · simp only [hsk, if_false, List.map_cons]
      rw [aloneTops_names hA es skip _ d _ src out]
      simp [List.filter_cons, hsk]

theorem Ev.subj_nodes {ev : Ev} {a : Nat} (h : a ∈ ev.subj) : a ∈ ev.nodes := by
  cases ev <;> simp only [Ev.subj, Ev.nodes, List.mem_cons, List.mem_singleton,
    List.not_mem_nil, or_false] at h ⊢ <;> tauto

mutual
theorem Entry.aloneRooms_sub (hA : Heap) : ∀ (e : Entry) (b d nx : Nat) (src out : String),
    ((e.aloneRooms hA b nx src out).map Prod.fst).Sublist
      ((e.aloneEvs hA b d nx src out).flatMap Ev.subj)
  | .file name regular size ctime digest, b, d, nx, src, out => by
    simp only [Entry.aloneRooms, List.map_nil]
    exact List.nil_sublist _
  | .dir name size ctime es, b, d, nx, src, out => by
    simp only [Entry.aloneRooms, Entry.aloneEvs, List.map_cons, List.flatMap_cons, Ev.subj,
      List.singleton_append]
    exact (aloneRoomsList_sub hA es [] (b + 1) nx (nx + 1) _ _).cons₂ _
theorem aloneRoomsList_sub (hA : Heap) : ∀ (es : List Entry) (skip : List String)
    (b d nx : Nat) (src out : String),
    ((aloneRoomsList hA es skip b nx src out).map Prod.fst).Sublist
      ((aloneEvsList hA es skip b d nx src out).flatMap Ev.subj)
  | [], skip, b, d, nx, src, out => by
    simp only [aloneRoomsList, List.map_nil]
    exact List.nil_sublist _
  | e :: es, skip, b, d, nx, src, out => by
    simp only [aloneRoomsList, aloneEvsList]
    by_cases hsk : e.name ∈ skip
    · simp only [hsk, if_true]
      exact aloneRoomsList_sub hA es skip _ d nx src out
    · simp only [hsk, if_false, List.map_append, List.flatMap_append]
      exact (Entry.aloneRooms_sub hA e b d nx src out).append
        (aloneRoomsList_sub hA es skip _ d _ src out)
end

mutual
theorem Entry.bothRooms_sub (hA : Heap) : ∀ (e : Entry) (es2 : List Entry)
    (b2 b d nx : Nat) (s1 s2 out : String),
    ((e.bothRooms hA es2 b2 b nx s1 s2 out).map Prod.fst).Sublist
      ((e.bothEvs hA es2 b2 b d nx s1 s2 out).flatMap Ev.subj)
  | .file name regular size ctime digest, es2, b2, b, d, nx, s1, s2, out => by
    simp only [Entry.bothRooms, List.map_nil]
    exact List.nil_sublist _
  | .dir name size ctime es, es2, b2, b, d, nx, s1, s2, out => by
    simp only [Entry.bothRooms, Entry.bothEvs]
    cases hfind : findAt es2 b2 name with
    | none =>
      simp only [List.map_cons, List.flatMap_cons, Ev.subj, List.singleton_append]
      exact (aloneRoomsList_sub hA es [] (b + 1) nx (nx + 1) _ _).cons₂ _
    | some x =>
      obtain ⟨e2, a2⟩ := x
      cases e2 with
      | dir name2 size2 ctime2 es' =>
        simp only [List.map_cons, List.flatMap_cons, Ev.subj, List.singleton_append,
          List.map_append, List.flatMap_append]
        exact ((bothRoomsList_sub hA es es' (a2 + 1) (b + 1) b nx _ _ _).append
          (aloneRoomsList_sub hA es' _ (a2 + 1) b _ _ _)).cons₂ _
      | file name2 regular2 size2 ctime2 digest2 =>
        simp only [List.map_cons, List.flatMap_cons, Ev.subj, List.singleton_append]
        exact (bothRoomsList_sub hA es [] (a2 + 1) (b + 1) b nx _ _ _).cons₂ _
theorem bothRoomsList_sub (hA : Heap) : ∀ (es es2 : List Entry)
    (b2 b d nx : Nat) (s1 s2 out : String),
    ((bothRoomsList hA es es2 b2 b nx s1 s2 out).map Prod.fst).Sublist
      ((bothEvsList hA es es2 b2 b d nx s1 s2 out).flatMap Ev.subj)
  | [], es2, b2, b, d, nx, s1, s2, out => by
    simp only [bothRoomsList, List.map_nil]
    exact List.nil_sublist _
  | e :: es, es2, b2, b, d, nx, s1, s2, out => by
    simp only [bothRoomsList, bothEvsList, List.map_append, List.flatMap_append]
    exact (Entry.bothRooms_sub hA e es2 b2 b d nx s1 s2 out).append
      (bothRoomsList_sub hA es es2 b2 _ d _ s1 s2 out)
end

theorem planRooms_sub (hA : Heap) (path1 path2 pathout : String) (in1 in2 : List Entry) :
    ((planRooms hA path1 path2 pathout in1 in2).map Prod.fst).Sublist
      ((planEvs hA path1 path2 pathout in1 in2).flatMap Ev.subj) := by
  simp only [planRooms, planEvs, List.map_cons, List.flatMap_cons, Ev.subj,
    List.singleton_append, List.map_append, List.flatMap_append]
  exact ((bothRoomsList_sub hA in1 in2 _ 1 _ _ _ _ _).append
    (aloneRoomsList_sub hA in2 _ _ _ _ _ _)).cons₂ _

/-- A directory made below a listing is the subject of one of the events of the listing. -/
theorem aloneRoomsList_at {hA : Heap} {es : List Entry} {skip : List String} {b nx : Nat}
    {src out : String} (d : Nat) {r : Nat × List (String × Ev)}
    (h : r ∈ aloneRoomsList hA es skip b nx src out) :
    ∃ ev ∈ aloneEvsList hA es skip b d nx src out, r.1 ∈ ev.subj := by
  have := (aloneRoomsList_sub hA es skip b d nx src out).subset (List.mem_map_of_mem _ h)
  obtain ⟨ev, hev, ha⟩ := List.mem_flatMap.mp this
  exact ⟨ev, hev, ha⟩

theorem Entry.aloneRooms_at {hA : Heap} {e : Entry} {b nx : Nat}
    {src out : String} (d : Nat) {r : Nat × List (String × Ev)}
    (h : r ∈ e.aloneRooms hA b nx src out) :
    ∃ ev ∈ e.aloneEvs hA b d nx src out, r.1 ∈ ev.subj := by
  have := (Entry.aloneRooms_sub hA e b d nx src out).subset (List.mem_map_of_mem _ h)
  obtain ⟨ev, hev, ha⟩ := List.mem_flatMap.mp this
  exact ⟨ev, hev, ha⟩

theorem bothRoomsList_at {hA : Heap} {es es2 : List Entry} {b2 b nx : Nat}
    {s1 s2 out : String} (d : Nat) {r : Nat × List (String × Ev)}
    (h : r ∈ bothRoomsList hA es es2 b2 b nx s1 s2 out) :
    ∃ ev ∈ bothEvsList hA es es2 b2 b d nx s1 s2 out, r.1 ∈ ev.subj := by
  have := (bothRoomsList_sub hA es es2 b2 b d nx s1 s2 out).subset (List.mem_map_of_mem _ h)
  obtain ⟨ev, hev, ha⟩ := List.mem_flatMap.mp this
  exact ⟨ev, hev, ha⟩

theorem Entry.bothRooms_at {hA : Heap} {e : Entry} {es2 : List Entry} {b2 b nx : Nat}
    {s1 s2 out : String} (d : Nat) {r : Nat × List (String × Ev)}
    (h : r ∈ e.bothRooms hA es2 b2 b nx s1 s2 out) :
    ∃ ev ∈ e.bothEvs hA es2 b2 b d nx s1 s2 out, r.1 ∈ ev.subj := by
  have := (Entry.bothRooms_sub hA e es2 b2 b d nx s1 s2 out).subset (List.mem_map_of_mem _ h)
  obtain ⟨ev, hev, ha⟩ := List.mem_flatMap.mp this
  exact ⟨ev, hev, ha⟩

/-! ## Phase B registers the entries it visits -/

theorem mapInsert_none {l : List (String × Nat)} {k : String} (v : Nat)
    (h : l.lookup k = none) : mapInsert l k v = l ++ [(k, v)] := by
  simp [mapInsert, h]

/-- The second loop of `mergeDirs` at a non-directory it has not visited, with what it
registers. -/
theorem visit2_fileK (hA : Heap) (recur : Nat → Nat → Planner → Option Planner)
    (nd1 f : Nat) (key src out : String) (loc : MergeLocals) (st : Planner)
    (hv : key ∉ loc.visited) (hf : st.heap f = hA f) (ht : (hA f).type ≠ "dir")
    (hpath : (hA f).path = src) (hout : (st.heap nd1).path = out) :
    ∃ loc' st', mergeVisit2 recur nd1 key f loc st = some (loc', st') ∧
      loc'.visited = loc.visited ∧
      st'.heap = setDstParent st.heap f (some nd1) ∧ st'.next = st.next ∧
      st'.editSteps = st.editSteps ++ (fileEv hA f nd1 src out).steps ∧
      st'.sups = ((fileEv hA f nd1 src out).tops hA).foldl setInsert st.sups ∧
      loc'.step_children =
        if single hA f then mapInsert loc.step_children key f else loc.step_children := by
  have htype : (st.heap f).type ≠ "dir" := by rw [hf]; exact ht
  have hs1 : (setDstParent st.heap f (some nd1) f).isSub = (hA f).isSub := by
    rw [setDstParent_isSub, hf]
  have hs2 : (setDstParent st.heap f (some nd1) f).subordinates = (hA f).subordinates := by
    rw [setDstParent_subordinates, hf]
  have hs3 : (setDstParent st.heap f (some nd1) f).topSup = (hA f).topSup := by
    rw [setDstParent_topSup, hf]
  have hp1 : (setDstParent st.heap f (some nd1) f).path = src := by
    rw [setDstParent_path, hf]; exact hpath
  have hp2 : (setDstParent st.heap f (some nd1) nd1).path = out := by
    rw [setDstParent_path]; exact hout
  unfold mergeVisit2
  simp only [hv, if_false, htype, hs1, hs2, hs3, pushStep_cp, steps_fileEv, tops_fileEv]
  by_cases h1 : single hA f = true
  · have h1' : (!(hA f).isSub && (hA f).subordinates.isEmpty) = true := h1
    simp only [h1, h1', if_true, cpStep_eq, hp1, hp2]
    exact ⟨_, _, rfl, rfl, rfl, rfl, rfl, rfl, rfl⟩
  · have h1' : ¬ ((!(hA f).isSub && (hA f).subordinates.isEmpty) = true) := h1
    simp only [h1, h1', if_false]
    by_cases h2 : (hA f).isSub = true
    · simp only [h2, if_true]
      exact ⟨_, _, rfl, rfl, rfl, rfl, by simp [Planner.addSup], by simp [Planner.addSup], rfl⟩
    · simp only [h2, if_false]
      exact ⟨_, _, rfl, rfl, rfl, rfl, by simp, by simp, rfl⟩

/-- The first loop of `mergeDirs` at a non-directory without a namesake in the other
directory, with what it registers. -/
theorem visit1_fileK (hA : Heap) (recur : Nat → Nat → Planner → Option Planner)
    (nd1 nd2 f : Nat) (key src out : String) (loc : MergeLocals) (st : Planner)
    (hl : (st.heap nd2).children.lookup key = none)
    (hf : st.heap f = hA f) (ht : (hA f).type ≠ "dir")
    (hpath : (hA f).path = src) (hout : (st.heap nd1).path = out) :
    ∃ loc' st', mergeVisit1 recur nd1 nd2 key f loc st = some (loc', st') ∧
      loc'.visited = loc.visited ∧
      st'.heap = setDstParent st.heap f (some nd1) ∧ st'.next = st.next ∧
      st'.editSteps = st.editSteps ++ (fileEv hA f nd1 src out).steps ∧
      st'.sups = ((fileEv hA f nd1 src out).tops hA).foldl setInsert st.sups ∧
      loc'.step_children =
        if single hA f then mapInsert loc.step_children (hA f).name f
        else loc.step_children := by
  have htype : (st.heap f).type ≠ "dir" := by rw [hf]; exact ht
  have hs1 : (setDstParent st.heap f (some nd1) f).isSub = (hA f).isSub := by
    rw [setDstParent_isSub, hf]
  have hs2 : (setDstParent st.heap f (some nd1) f).subordinates = (hA f).subordinates := by
    rw [setDstParent_subordinates, hf]
  have hs3 : (setDstParent st.heap f (some nd1) f).topSup = (hA f).topSup := by
    rw [setDstParent_topSup, hf]
  have hs4 : (setDstParent st.heap f (some nd1) f).name = (hA f).name := by
    rw [setDstParent_name, hf]
  have hp1 : (setDstParent st.heap f (some nd1) f).path = src := by
    rw [setDstParent_path, hf]; exact hpath
  have hp2 : (setDstParent st.heap f (some nd1) nd1).path = out := by
    rw [setDstParent_path]; exact hout
  unfold mergeVisit1
  simp only [hl, Option.isSome_none, Bool.false_eq_true, if_false, htype, hs1, hs2, hs3,
    pushStep_cp, steps_fileEv, tops_fileEv]
  by_cases h1 : single hA f = true
  · have h1' : (!(hA f).isSub && (hA f).subordinates.isEmpty) = true := h1
    simp only [h1, h1', if_true, cpStep_eq, hp1, hp2, hs4]
    exact ⟨_, _, rfl, rfl, rfl, rfl, rfl, rfl, rfl⟩
  · have h1' : ¬ ((!(hA f).isSub && (hA f).subordinates.isEmpty) = true) := h1
    simp only [h1, h1', if_false]
    by_cases h2 : (hA f).isSub = true
    · simp only [h2, if_true]
      exact ⟨_, _, rfl, rfl, rfl, rfl, by simp [Planner.addSup], by simp [Planner.addSup], rfl⟩
    · simp only [h2, if_false]
      exact ⟨_, _, rfl, rfl, rfl, rfl, by simp, by simp, rfl⟩

/-- What a visited non-directory adds to `step_children`. -/
theorem file_kid (hA : Heap) (name : String) (f d : Nat) (src out : String)
    (sc : List (String × Nat)) (h : sc.lookup name = none) :
    (if single hA f then mapInsert sc name f else sc) =
      sc ++ kidsOf [(name, fileEv hA f d src out)] := by
  rw [kidsOf_file]
  by_cases h1 : single hA f = true
  · simp only [h1, if_true]
    exact mapInsert_none f h
  · simp only [h1, if_false, List.append_nil]
    simp

mutual
/-- One iteration of the second loop of `mergeDirs` at an entry it has not visited, with what it
registers in `step_children` and in the directories it makes. -/
theorem aloneVisitK (hs hA : Heap) (n0 : Nat) (hcore : Core hs hA) :
    ∀ (e : Entry) (fuel b p nd1 : Nat) (src out : String) (loc : MergeLocals) (st : Planner),
    e.depth ≤ fuel → e.namesOK → e.Rep hs b p src →
    (∀ a, b ≤ a → a < b + e.span → st.heap a = hA a) →
    b + e.span ≤ n0 → n0 ≤ st.next → nd1 < st.next → (nd1 < b ∨ b + e.span ≤ nd1) →
    (st.heap nd1).path = out → e.name ∉ loc.visited →
    loc.step_children.lookup e.name = none →
    ∃ loc' st', mergeVisit2 (mergeDirs fuel) nd1 e.name b loc st = some (loc', st') ∧
      loc'.visited = loc.visited ∧
      Sim hA n0 st st' (e.aloneEvs hA b nd1 st.next src out) e.numDirs ∧
      (∀ a, ¬ (b ≤ a ∧ a < b + e.span) → ¬ (st.next ≤ a ∧ a < st.next + e.numDirs) →
        st'.heap a = st.heap a) ∧
      (∀ ev ∈ e.aloneEvs hA b nd1 st.next src out, ∀ a ∈ ev.nodes,
        a = nd1 ∨ (b ≤ a ∧ a < b + e.span) ∨ (st.next ≤ a ∧ a < st.next + e.numDirs)) ∧
      loc'.step_children =
        loc.step_children ++ kidsOf [(e.name, e.aloneTop hA b nd1 st.next src out)] ∧
      (∀ r ∈ e.aloneRooms hA b st.next src out, (st'.heap r.1).children = kidsOf r.2)
  | .file name regular size ctime digest, fuel, b, p, nd1, src, out, loc, st => by
    intro _ _ hr hpend hbn _ hnd hnd1 hout hv hfresh
    simp only [Entry.span] at hbn hpend hnd1 ⊢
    simp only [Entry.name] at hv hfresh ⊢
    obtain ⟨c1, c2, c3, c4, c5, c6⟩ := hcore.file hr
    have hf : st.heap b = hA b := hpend b (Nat.le_refl _) (by omega)
    have hne : nd1 ≠ b := by omega
    obtain ⟨loc', st', h0, h1, h2, h3, h4, h5, h6⟩ :=
      visit2_fileK hA (mergeDirs fuel) nd1 b name (src ++ "/" ++ name) out loc st hv hf c1 c3 hout
    refine ⟨loc', st', h0, h1, ?_, ?_, ?_, ?_, ?_⟩
    · simp only [Entry.aloneEvs, Entry.numDirs]
      exact sim_file hf (by omega) hnd c3 hout h2 h3 h4 h5
    · intro a ha _
      rw [h2]
      exact setDstParent_other _ _ _ _ (by omega)
    · intro ev hev a ha
      simp only [Entry.aloneEvs, List.mem_singleton] at hev
      rw [hev, fileEv_nodes] at ha
      simp only [List.mem_cons, List.mem_singleton, List.not_mem_nil, or_false] at ha
      rcases ha with ha | ha
      · right; left; omega
      · left; exact ha
    · rw [h6]
      simp only [Entry.aloneTop]
      exact file_kid hA name b nd1 _ out _ hfresh
    · intro r hr'
      simp [Entry.aloneRooms] at hr'
  | .dir name size ctime es, fuel, b, p, nd1, src, out, loc, st => by
    intro hfuel hnames hr hpend hbn hn0 hnd hnd1 hout hv hfresh
    simp only [Entry.span] at hbn hpend hnd1 ⊢
    simp only [Entry.name] at hv hfresh ⊢
    simp only [Entry.depth] at hfuel
    simp only [Entry.namesOK] at hnames
    simp only [Entry.numDirs]
    obtain ⟨fuel', rfl⟩ : ∃ f, fuel = f + 1 := ⟨fuel - 1, by omega⟩
    obtain ⟨c1, c2, c3, c4, c5, c6⟩ := hcore.dir hr
    have hrl : RepList hs es (b + 1) b (src ++ "/" ++ name) := by
      simp only [Entry.Rep] at hr
      exact hr.2
    have hf : st.heap b = hA b := hpend b (Nat.le_refl _) (by omega)
    have hne : nd1 ≠ b := by omega
    have hbx : b ≠ st.next := by omega
    have hnx : nd1 ≠ st.next := by omega
    -- the state when the recursive call starts
    generalize hh3 : (setParent st.heap b (some nd1)).set st.next
      (FsNode.create (setParent st.heap b (some nd1))
        ((setParent st.heap b (some nd1)) b).name (some nd1) "dir") = h3
    have hfr3 : ∀ a, a ≠ b → a ≠ st.next → h3 a = st.heap a := by
      intro a e1 e2
      rw [← hh3]
      simp only [Heap.get_set, e2, if_false]
      exact setParent_other _ _ _ _ e1
    have hnew : h3 st.next = FsNode.create (setParent st.heap b (some nd1))
        ((setParent st.heap b (some nd1)) b).name (some nd1) "dir" := by
      rw [← hh3]
      simp
    have hpath3 : (h3 st.next).path = out ++ "/" ++ name := by
      rw [hnew, create_path, setParent_name, setParent_path_other _ _ _ _ hne, hout, hf, c2]
    have hname3 : (h3 st.next).name = name := by
      rw [hnew, create_name, setParent_name, hf, c2]
    have hch3 : (h3 st.next).children = [] := by
      rw [hnew, create_children]
    have hb3 : (h3 b).children = kids (b + 1) es := by
      rw [← hh3]
      simp only [Heap.get_set, hbx, if_false, setParent_children]
      rw [hf, c6]
    obtain ⟨loc2, st2, hloop, hvis2, hsim, hframeO, hnodes2, hkids2, hrooms2⟩ :=
      aloneLoopK hs hA n0 hcore es [] fuel' (b + 1) b st.next (src ++ "/" ++ name)
        (out ++ "/" ++ name) { step_children := [], visited := [] }
        { st with heap := h3, next := st.next + 1, plannedNode := st.plannedNode ++ [st.next],
                  editSteps := st.editSteps ++ [mkdirStep h3 st.next] }
        (by omega) hnames hrl
        (PendBut.of_all es [] (b + 1) (fun a h1 h2 => by
          simp only
          rw [hfr3 a (by omega) (by omega)]
          exact hpend a (by omega) (by omega)))
        (by omega) (by simp only; omega) (by simp only; omega) (Or.inr (by omega))
        hpath3 (by simp) (by simp)
    simp only [aloneNewList_nil] at hloop hsim hframeO hnodes2
    simp only [List.nil_append] at hkids2
    have hframe2 := fun a (h1 : ¬ (b + 1 ≤ a ∧ a < b + 1 + spanList es)) =>
      hframeO a (Outside.beyond es [] (b + 1) a h1)
    refine ⟨{ loc with step_children := mapInsert loc.step_children (h3 st.next).name st.next },
      { st2 with
        heap := st2.heap.modify st.next (fun n => { n with children := loc2.step_children }) },
      ?_, rfl, ?_, ?_, ?_, ?_, ?_⟩
    · unfold mergeVisit2
      have htd : (st.heap b).type = "dir" := by rw [hf]; exact c1
      simp only [hv, if_false, htd, if_true, Planner.pushNode, pushStep_mkdir, hh3]
      rw [mergeDirs_alone fuel' st.next b _ (by simpa using hch3)]
      simp only [hb3, hloop]
    · simp only [Entry.aloneEvs]
      have hsim' := hsim.swap
        (st2.heap.modify st.next (fun n => { n with children := loc2.step_children }))
        (fun a => modify_children_fields _ _ _ a)
      have := @Sim.cons_mk _ _ st _ _ _ _ 1 hsim' st.next (out ++ "/" ++ name)
        (by simp only; rw [mkdirStep_eq, hpath3]) rfl rfl
        (by
          refine ⟨by simp, fun a ha => ?_⟩
          have e2 : a ≠ st.next := by omega
          simp only
          rw [← hh3]
          simp only [Heap.get_set, e2, if_false]
          exact ⟨setParent_name _ _ _ _, setParent_date _ _ _ _, setParent_num_files _ _ _ _,
            setParent_type _ _ _ _, fun _ => ⟨setParent_isSub _ _ _ _,
              setParent_subordinates _ _ _ _, setParent_topSup _ _ _ _⟩⟩)
        (by
          refine ⟨by simp only; rw [hsim.next]; simp only; omega, ?_⟩
          simp only
          rw [(modify_children_fields _ _ _ _).2.1,
            hframe2 st.next (by omega) (by omega)]
          exact hpath3)
      exact this
    · intro a ha1 ha2
      have e1 : a ≠ st.next := by omega
      simp only [Heap.get_modify, e1, if_false]
      rw [hframe2 a (by omega) (by omega)]
      exact hfr3 a (by omega) e1
    · intro ev hev a ha
      simp only [Entry.aloneEvs, List.mem_cons] at hev
      rcases hev with hev | hev
      · rw [hev] at ha
        simp only [Ev.nodes, List.mem_singleton] at ha
        right; right; omega
      · rcases hnodes2 ev hev a ha with h1 | h1 | h1
        · right; right; omega
        · right; left; omega
        · right; right; omega
    · simp only [hname3, Entry.aloneTop, kidsOf, List.filterMap_cons, List.filterMap_nil,
        Ev.kid, Option.map_some']
      exact mapInsert_none _ hfresh
    · intro r hr'
      simp only [Entry.aloneRooms, List.mem_cons] at hr'
      rcases hr' with hr' | hr'
      · rw [hr']
        simp only [Heap.get_modify, if_true]
        exact hkids2
      · obtain ⟨ev, hev, ha⟩ := aloneRoomsList_at st.next hr'
        have hb := aloneEvsList_subj hA es [] (b + 1) st.next (st.next + 1) _ _ ev hev r.1 ha
        have e1 : r.1 ≠ st.next := by omega
        simp only [Heap.get_modify, e1, if_false]
        exact hrooms2 r hr'
/-- The second loop of `mergeDirs` over the entries of a directory, of which those with a name
in `skip` are visited already, with what it registers. -/
theorem aloneLoopK (hs hA : Heap) (n0 : Nat) (hcore : Core hs hA) :
    ∀ (es : List Entry) (skip : List String) (fuel b p nd1 : Nat) (src out : String)
      (loc : MergeLocals) (st : Planner),
    depthList es ≤ fuel → namesOKList es → RepList hs es b p src →
    PendBut st.heap hA es skip b →
    b + spanList es ≤ n0 → n0 ≤ st.next → nd1 < st.next → (nd1 < b ∨ b + spanList es ≤ nd1) →
    (st.heap nd1).path = out → (∀ e ∈ es, (e.name ∈ loc.visited ↔ e.name ∈ skip)) →
    (∀ e ∈ es, e.name ∉ skip → loc.step_children.lookup e.name = none) →
    ∃ loc' st', mergeLoop2 (mergeDirs fuel) nd1 (kids b es) loc st = some (loc', st') ∧
      loc'.visited = loc.visited ∧
      Sim hA n0 st st' (aloneEvsList hA es skip b nd1 st.next src out) (aloneNewList es skip) ∧
      (∀ a, Outside es skip b a →
        ¬ (st.next ≤ a ∧ a < st.next + aloneNewList es skip) → st'.heap a = st.heap a) ∧
      (∀ ev ∈ aloneEvsList hA es skip b nd1 st.next src out, ∀ a ∈ ev.nodes,
        a = nd1 ∨ (b ≤ a ∧ a < b + spanList es) ∨
          (st.next ≤ a ∧ a < st.next + aloneNewList es skip)) ∧
      loc'.step_children =
        loc.step_children ++ kidsOf (aloneTops hA es skip b nd1 st.next src out) ∧
      (∀ r ∈ aloneRoomsList hA es skip b st.next src out, (st'.heap r.1).children = kidsOf r.2)
  | [], skip, fuel, b, p, nd1, src, out, loc, st => by
    intro _ _ _ _ _ _ _ _ _ _ _
    refine ⟨loc, st, rfl, rfl, ?_, fun _ _ _ => rfl, ?_, ?_, ?_⟩
    · simp only [aloneEvsList, aloneNewList]
      exact Sim.empty hA n0 st
    · intro ev hev
      simp [aloneEvsList] at hev
    · simp [aloneTops, kidsOf]
    · intro r hr'
      simp [aloneRoomsList] at hr'
  | e :: es, skip, fuel, b, p, nd1, src, out, loc, st => by
    intro hfuel hnames hr hpend hbn hn0 hnd hnd1 hout hvis hfresh
    simp only [depthList] at hfuel
    simp only [spanList] at hbn hnd1 ⊢
    simp only [namesOKList] at hnames
    simp only [RepList] at hr
    simp only [PendBut] at hpend
    have hsp := Entry.span_pos e
    by_cases hsk : e.name ∈ skip
    · -- visited in the first loop: skipped
      have hv : e.name ∈ loc.visited := (hvis e (by simp)).mpr hsk
      obtain ⟨loc2, st2, hlp, hvis2, hsim2, hframe2, hnodes2, hkids2, hrooms2⟩ :=
        aloneLoopK hs hA n0 hcore es skip fuel (b + e.span) p nd1 src out loc st (by omega)
          hnames.2.2 hr.2 hpend.2 (by omega) hn0 hnd (by omega) hout
          (fun x hx => hvis x (List.mem_cons_of_mem _ hx))
          (fun x hx => hfresh x (List.mem_cons_of_mem _ hx))
      refine ⟨loc2, st2, ?_, hvis2, ?_, ?_, ?_, ?_, ?_⟩
      · simp only [kids, mergeLoop2, mergeVisit2, hv, if_true]
        exact hlp
      · simp only [aloneEvsList, aloneNewList, hsk, if_true, Nat.zero_add]
        exact hsim2
      · intro a ha1 ha2
        simp only [aloneNewList, hsk, if_true, Nat.zero_add] at ha2
        exact hframe2 a ha1.2 ha2
      · intro ev hev a ha
        simp only [aloneEvsList, aloneNewList, hsk, if_true, Nat.zero_add] at hev ⊢
        rcases hnodes2 ev hev a ha with h1 | h1 | h1
        · left; exact h1
        · right; left; omega
        · right; right; exact h1
      · simp only [aloneTops, hsk, if_true]
        exact hkids2
      · simp only [aloneRoomsList, hsk, if_true]
        exact hrooms2
    · have hv : e.name ∉ loc.visited := fun h1 => hsk ((hvis e (by simp)).mp h1)
      obtain ⟨loc1, st1, hv1, hvis1, hsim1, hframe1, hnodes1, hkids1, hrooms1⟩ :=
        aloneVisitK hs hA n0 hcore e fuel b p nd1 src out loc st (by omega) hnames.2.1 hr.1
          (hpend.1 hsk) (by omega) hn0 hnd (by omega) hout hv (hfresh e (by simp) hsk)
      have hn1 : st1.next = st.next + e.numDirs := hsim1.next
      obtain ⟨loc2, st2, hlp, hvis2, hsim2, hframe2, hnodes2, hkids2, hrooms2⟩ :=
        aloneLoopK hs hA n0 hcore es skip fuel (b + e.span) p nd1 src out loc1 st1 (by omega)
          hnames.2.2 hr.2
          (PendBut.kept es skip (b + e.span)
            (fun a h1 h2 => hframe1 a (by omega) (by omega)) hpend.2)
          (by omega) (by omega) (by omega) (by omega)
          (by rw [hframe1 nd1 (by omega) (by omega)]; exact hout)
          (fun x hx => by rw [hvis1]; exact hvis x (List.mem_cons_of_mem _ hx))
          (fun x hx hxs => by
            rw [hkids1]
            refine lookup_append_fresh (hfresh x (List.mem_cons_of_mem _ hx) hxs)
              (lookup_kidsOf_none ?_)
            simp only [List.map_cons, List.map_nil, List.mem_singleton]
            exact fun c => hnames.1 (c ▸ List.mem_map_of_mem _ hx))
      rw [hn1] at hsim2 hframe2 hnodes2 hkids2 hrooms2
      have hfr : ∀ ev ∈ e.aloneEvs hA b nd1 st.next src out, ∀ a ∈ ev.nodes,
          st2.heap a = st1.heap a := by
        intro ev hev a ha
        rcases hnodes1 ev hev a ha with h1 | h1 | h1
        · rw [h1]; exact hframe2 nd1 (Outside.beyond _ _ _ _ (by omega)) (by omega)
        · exact hframe2 a (Outside.beyond _ _ _ _ (by omega)) (by omega)
        · exact hframe2 a (Outside.beyond _ _ _ _ (by omega)) (by omega)
      refine ⟨loc2, st2, ?_, hvis2.trans hvis1, ?_, ?_, ?_, ?_, ?_⟩
      · simp only [kids, mergeLoop2, hv1]
        exact hlp
      · simp only [aloneEvsList, aloneNewList, hsk, if_false]
        exact hsim1.append hsim2 hfr
      · intro a ha1 ha2
        simp only [aloneNewList, hsk, if_false] at ha2
        rw [hframe2 a ha1.2 (by omega), hframe1 a (ha1.1 hsk) (by omega)]
      · intro ev hev a ha
        simp only [aloneEvsList, aloneNewList, hsk, if_false, List.mem_append] at hev ⊢
        rcases hev with hev | hev
        · rcases hnodes1 ev hev a ha with h1 | h1 | h1
          · left; exact h1
          · right; left; omega
          · right; right; omega
        · rcases hnodes2 ev hev a ha with h1 | h1 | h1
          · left; exact h1
          · right; left; omega
          · right; right; omega
      · simp only [aloneTops, hsk, if_false]
        rw [hkids2, hkids1, List.append_assoc, ← kidsOf_append]
        rfl
      · intro r hr'
        simp only [aloneRoomsList, hsk, if_false, List.mem_append] at hr'
        rcases hr' with hr' | hr'
        · obtain ⟨ev, hev, ha⟩ := Entry.aloneRooms_at nd1 hr'
          rw [hfr ev hev r.1 (Ev.subj_nodes ha)]
          exact hrooms1 r hr'
        · exact hrooms2 r hr'
end

/-- The recursive call of `mergeDirs` at a fresh node `nx` for a directory that one tree has,
with what it registers. -/
theorem aloneDirK (hs hA : Heap) (n0 : Nat) (hcore : Core hs hA) (es : List Entry)
    (fuel b nx : Nat) (src out : String) (st : Planner)
    (hfuel : depthList es ≤ fuel) (hnames : namesOKList es)
    (hrl : RepList hs es (b + 1) b src)
    (hpend : ∀ a, b + 1 ≤ a → a < b + 1 + spanList es → st.heap a = hA a)
    (hbn : b + 1 + spanList es ≤ n0) (hn0 : n0 ≤ nx) (hnx : nx < st.next)
    (hpath : (st.heap nx).path = out) (hch : (st.heap nx).children = [])
    (hkids : (st.heap b).children = kids (b + 1) es) :
    ∃ st', mergeDirs (fuel + 1) nx b st = some st' ∧
      Sim hA n0 st st' (aloneEvsList hA es [] (b + 1) nx st.next src out) (numDirsList es) ∧
      (∀ a, ¬ (b + 1 ≤ a ∧ a < b + 1 + spanList es) →
        ¬ (st.next ≤ a ∧ a < st.next + numDirsList es) → a ≠ nx → st'.heap a = st.heap a) ∧
      (st'.heap nx).path = out ∧
      (∀ ev ∈ aloneEvsList hA es [] (b + 1) nx st.next src out, ∀ a ∈ ev.nodes,
        a = nx ∨ (b + 1 ≤ a ∧ a < b + 1 + spanList es) ∨
          (st.next ≤ a ∧ a < st.next + numDirsList es)) ∧
      (st'.heap nx).children = kidsOf (aloneTops hA es [] (b + 1) nx st.next src out) ∧
      (∀ r ∈ aloneRoomsList hA es [] (b + 1) st.next src out,
        (st'.heap r.1).children = kidsOf r.2) := by
  obtain ⟨loc2, st2, hloop, -, hsim, hframeO, hnodes2, hkids2, hrooms2⟩ :=
    aloneLoopK hs hA n0 hcore es [] fuel (b + 1) b nx src out
      { step_children := [], visited := [] } st hfuel hnames hrl
      (PendBut.of_all es [] (b + 1) hpend) hbn (by omega) hnx (Or.inr (by omega)) hpath
      (by simp) (by simp)
  simp only [aloneNewList_nil] at hsim hframeO hnodes2
  simp only [List.nil_append] at hkids2
  have hframe2 := fun a (h1 : ¬ (b + 1 ≤ a ∧ a < b + 1 + spanList es)) =>
    hframeO a (Outside.beyond es [] (b + 1) a h1)
  refine ⟨{ st2 with
      heap := st2.heap.modify nx (fun n => { n with children := loc2.step_children }) },
    ?_, ?_, ?_, ?_, hnodes2, ?_, ?_⟩
  · rw [mergeDirs_alone fuel nx b st hch, hkids, hloop]
  · exact hsim.swap _ (fun a => modify_children_fields _ _ _ a)
  · intro a h1 h2 h3
    simp only [Heap.get_modify, h3, if_false]
    exact hframe2 a h1 h2
  · simp only
    rw [(modify_children_fields _ _ _ _).2.1, hframe2 nx (by omega) (by omega)]
    exact hpath
  · simp only [Heap.get_modify, if_true]
    exact hkids2
  · intro r hr'
    obtain ⟨ev, hev, ha⟩ := aloneRoomsList_at nx hr'
    have hb := aloneEvsList_subj hA es [] (b + 1) nx st.next _ _ ev hev r.1 ha
    rw [aloneNewList_nil] at hb
    have e1 : r.1 ≠ nx := by omega
    simp only [Heap.get_modify, e1, if_false]
    exact hrooms2 r hr'

mutual
/-- One iteration of the first loop of `mergeDirs`, at the entry of tree 1 scanned at `b`, with
what it registers in `step_children` and in the directories it makes. -/
theorem bothVisitK (hs hA : Heap) (n0 : Nat) (hcore : Core hs hA) :
    ∀ (e : Entry) (es2 : List Entry) (fuel b p b2 p2 nd1 nd2 : Nat) (s1 s2 out : String)
      (loc : MergeLocals) (st : Planner),
    e.depth ≤ fuel → depthList es2 ≤ fuel → e.namesOK → namesOKList es2 →
    e.Rep hs b p s1 → RepList hs es2 b2 p2 s2 →
    (∀ a, b ≤ a → a < b + e.span → st.heap a = hA a) →
    (∀ e2 a2, findAt es2 b2 e.name = some (e2, a2) →
      ∀ a, a2 ≤ a → a < a2 + e2.span → st.heap a = hA a) →
    (st.heap nd2).children = kids b2 es2 →
    b + e.span ≤ nd2 → nd2 < b2 → b2 + spanList es2 ≤ n0 → n0 ≤ st.next →
    (nd1 < b ∨ n0 ≤ nd1) → nd1 < st.next → (st.heap nd1).path = out →
    (∀ ev ∈ e.bothEvs hA es2 b2 b nd1 st.next s1 s2 out, ev.OK hA) →
    loc.step_children.lookup e.name = none →
    ∃ loc' st', mergeVisit1 (mergeDirs fuel) nd1 nd2 e.name b loc st = some (loc', st') ∧
      loc'.visited =
        (if (findAt es2 b2 e.name).isSome then setInsert loc.visited e.name else loc.visited) ∧
      Sim hA n0 st st' (e.bothEvs hA es2 b2 b nd1 st.next s1 s2 out) (e.bothNew es2) ∧
      (∀ a, ¬ (b ≤ a ∧ a < b + e.span) → ¬ (st.next ≤ a ∧ a < st.next + e.bothNew es2) →
        (∀ e2 a2, findAt es2 b2 e.name = some (e2, a2) → ¬ (a2 ≤ a ∧ a < a2 + e2.span)) →
        st'.heap a = st.heap a) ∧
      (∀ ev ∈ e.bothEvs hA es2 b2 b nd1 st.next s1 s2 out, ∀ a ∈ ev.nodes,
        a = nd1 ∨ (b ≤ a ∧ a < b + e.span) ∨ (st.next ≤ a ∧ a < st.next + e.bothNew es2) ∨
          ∃ e2 a2, findAt es2 b2 e.name = some (e2, a2) ∧ a2 ≤ a ∧ a < a2 + e2.span) ∧
      loc'.step_children =
        loc.step_children ++ kidsOf [(e.name, e.bothTop hA es2 b2 b nd1 st.next s1 s2 out)] ∧
      (∀ r ∈ e.bothRooms hA es2 b2 b st.next s1 s2 out, (st'.heap r.1).children = kidsOf r.2)
  | .file name regular size ctime digest, es2, fuel, b, p, b2, p2, nd1, nd2, s1, s2, out,
      loc, st => by
    intro _ _ _ _ hr hr2 hpend hpend2 hkids hsep hnd2 hb2 hn0 hnd1 hnd hout hok hfresh
    simp only [Entry.span] at hpend hsep ⊢
    simp only [Entry.name] at hpend2 hfresh ⊢
    simp only [Entry.bothEvs, Entry.bothTop, Entry.bothRooms] at hok ⊢
    simp only [Entry.bothNew]
    obtain ⟨c1, c2, c3, c4, c5, c6⟩ := hcore.file hr
    have hf : st.heap b = hA b := hpend b (Nat.le_refl _) (by omega)
    have hlk := kids_lookup_findAt es2 b2 name
    rw [← hkids] at hlk
    cases hfind : findAt es2 b2 name with
    | none =>
      rw [hfind] at hlk hok
      simp only [Option.map_none'] at hlk
      simp only [Option.isSome_none, Bool.false_eq_true, if_false]
      obtain ⟨loc', st', h0, h1, h2, h3, h4, h5, h6⟩ :=
        visit1_fileK hA (mergeDirs fuel) nd1 nd2 b name (s1 ++ "/" ++ name) out loc st hlk hf c1
          c3 hout
      refine ⟨loc', st', h0, h1, ?_, ?_, ?_, ?_, ?_⟩
      · exact sim_file hf (by omega) hnd c3 hout h2 h3 h4 h5
      · intro a ha _ _
        rw [h2]
        exact setDstParent_other _ _ _ _ (by omega)
      · intro ev hev a ha
        simp only [List.mem_singleton] at hev
        rw [hev, fileEv_nodes] at ha
        simp only [List.mem_cons, List.mem_singleton, List.not_mem_nil, or_false] at ha
        rcases ha with ha | ha
        · right; left; omega
        · left; exact ha
      · rw [h6, c2]
        exact file_kid hA name b nd1 _ out _ hfresh
      · intro r hr'
        simp at hr'
    | some x =>
      obtain ⟨e2, a2⟩ := x
      rw [hfind] at hlk hok
      simp only [Option.map_some'] at hlk
      simp only [Option.isSome_some, if_true]
      obtain ⟨i1, i2, i3, i4, i5⟩ := findAt_rep hs es2 b2 p2 s2 name e2 a2 hr2 hfind
      obtain ⟨d1, d2, d3⟩ := hcore.entry i1
      have hsp := Entry.span_pos e2
      have hf2 : st.heap a2 = hA a2 := hpend2 e2 a2 hfind a2 (Nat.le_refl _) (by omega)
      have hok1 := hok _ (List.mem_singleton.mpr rfl)
      simp only [Ev.OK] at hok1
      have hne : b ≠ a2 := by omega
      refine ⟨_, _, visit1_pair hA (mergeDirs fuel) nd1 nd2 b a2 name loc st hlk hf hf2 c1 hne
        hok1.1 hok1.2, rfl, ?_, ?_, ?_, ?_, ?_⟩
      · exact sim_pair hf hf2 hne hok1.1 hok1.2 (by omega) (by omega) hnd c3
          (by rw [d2, i2]) hout
      · intro a ha _ hp
        have hp2 := hp e2 a2 rfl
        have e1 : a ≠ b := by omega
        have e2' : a ≠ a2 := by omega
        simp only
        rw [makeSub_other _ _ _ _ e1 e2', setDstParent_other _ _ _ _ e2',
          setDstParent_other _ _ _ _ e1]
      · intro ev hev a ha
        simp only [List.mem_singleton] at hev
        rw [hev] at ha
        simp only [Ev.nodes, List.mem_cons, List.mem_singleton, List.not_mem_nil,
          or_false] at ha
        rcases ha with ha | ha | ha
        · right; left; omega
        · right; right; right
          exact ⟨e2, a2, rfl, by omega, by omega⟩
        · left; exact ha
      · simp [kidsOf, Ev.kid]
      · intro r hr'
        simp at hr'
  | .dir name size ctime es, es2, fuel, b, p, b2, p2, nd1, nd2, s1, s2, out, loc, st => by
    intro hfuel hfuel2 hnames hnames2 hr hr2 hpend hpend2 hkids hsep hnd2 hb2 hn0 hnd1 hnd
      hout hok hfresh
    simp only [Entry.span] at hpend hsep ⊢
    simp only [Entry.name] at hpend2 hfresh ⊢
    simp only [Entry.bothEvs, Entry.bothTop, Entry.bothRooms] at hok ⊢
    simp only [Entry.bothNew]
    simp only [Entry.depth] at hfuel
    simp only [Entry.namesOK] at hnames
    obtain ⟨fuel', rfl⟩ : ∃ f, fuel = f + 1 := ⟨fuel - 1, by omega⟩
    obtain ⟨c1, c2, c3, c4, c5, c6⟩ := hcore.dir hr
    have hrl : RepList hs es (b + 1) b (s1 ++ "/" ++ name) := by
      simp only [Entry.Rep] at hr
      exact hr.2
    have hf : st.heap b = hA b := hpend b (Nat.le_refl _) (by omega)
    have htd : (st.heap b).type = "dir" := by rw [hf]; exact c1
    have hne : nd1 ≠ b := by omega
    have hlk := kids_lookup_findAt es2 b2 name
    rw [← hkids] at hlk
    have hsh := findAt_shift es2 b2 name
    cases hfind : findAt es2 b2 name with
    | none =>
      have hfind0 : findAt es2 0 name = none := by
        rw [hfind] at hsh
        cases hq : findAt es2 0 name with
        | none => rfl
        | some q => rw [hq] at hsh; simp at hsh
      rw [hfind] at hlk hok
      simp only [hfind0]
      simp only [Option.map_none'] at hlk
      simp only [Option.isSome_none, Bool.false_eq_true, if_false]
      have hbx : b ≠ st.next := by omega
      have hnx : nd1 ≠ st.next := by omega
      generalize hh3 : setParent (setParent (st.heap.set st.next
          (FsNode.create st.heap (st.heap b).name (some nd1) "dir")) st.next (some nd1)) b
          (some nd1) = h3
      have hfr3 : ∀ a, a ≠ b → a ≠ st.next → h3 a = st.heap a := by
        intro a e1 e2
        rw [← hh3, setParent_other _ _ _ _ e1, setParent_other _ _ _ _ e2]
        simp [e2]
      have hpath3 : (h3 st.next).path = out ++ "/" ++ name := by
        rw [← hh3, setParent_path_other _ _ _ _ (fun e => hbx e.symm), setParent_path_self]
        simp [Heap.get_set, hnx, hout, hf, c2, create_name]
      have hname3 : (h3 st.next).name = name := by
        rw [← hh3, setParent_name, setParent_name]
        simp [Heap.get_set, hf, c2, create_name]
      have hch3 : (h3 st.next).children = [] := by
        rw [← hh3]
        simp [create_children]
      have hb3 : (h3 b).children = kids (b + 1) es := by
        rw [← hh3]
        simp only [setParent_children, Heap.get_set, hbx, if_false]
        rw [hf, c6]
      obtain ⟨st', hrec, hsim, hframe, hpath', hnodes, hkidsD, hroomsD⟩ :=
        aloneDirK hs hA n0 hcore es fuel' b st.next (s1 ++ "/" ++ name) (out ++ "/" ++ name)
          { st with heap := h3, next := st.next + 1,
                    plannedNode := st.plannedNode ++ [st.next],
                    editSteps := st.editSteps ++ [mkdirStep h3 st.next] }
          (by omega) hnames hrl
          (fun a h1 h2 => by
            simp only
            rw [hfr3 a (by omega) (by omega)]
            exact hpend a (by omega) (by omega))
          (by omega) hn0 (by simp) hpath3 hch3 hb3
      simp only at hrec hsim hframe hpath' hnodes hkidsD hroomsD
      refine ⟨{ step_children := mapInsert loc.step_children (h3 st.next).name st.next,
                visited := loc.visited }, st', ?_, rfl, ?_, ?_, ?_, ?_, ?_⟩
      · unfold mergeVisit1
        simp only [hlk, htd, if_true, Option.isSome_none, Bool.false_eq_true, if_false,
          Planner.pushNode, pushStep_mkdir, hh3, hrec]
      · refine @Sim.cons_mk _ _ st _ _ _ _ 1 hsim st.next (out ++ "/" ++ name)
          (by simp only; rw [mkdirStep_eq, hpath3]) rfl rfl ?_ ?_
        · refine ⟨by simp, fun a ha => ?_⟩
          have e2 : a ≠ st.next := by omega
          simp only
          rw [← hh3]
          refine ⟨?_, ?_, ?_, ?_, fun _ => ⟨?_, ?_, ?_⟩⟩
          · simp [e2]
          · rw [setParent_date, setParent_date]; simp [e2]
          · rw [setParent_num_files, setParent_num_files]; simp [e2]
          · simp [e2]
          · rw [setParent_isSub, setParent_isSub]; simp [e2]
          · rw [setParent_subordinates, setParent_subordinates]; simp [e2]
          · rw [setParent_topSup, setParent_topSup]; simp [e2]
        · exact ⟨by rw [hsim.next]; simp only; omega, hpath'⟩
      · intro a ha1 ha2 _
        have e1 : a ≠ st.next := by omega
        rw [hframe a (by omega) (by omega) e1]
        exact hfr3 a (by omega) e1
      · intro ev hev a ha
        simp only [List.mem_cons] at hev
        rcases hev with hev | hev
        · rw [hev] at ha
          simp only [Ev.nodes, List.mem_singleton] at ha
          right; right; left; omega
        · rcases hnodes ev hev a ha with h1 | h1 | h1
          · right; right; left; omega
          · right; left; omega
          · right; right; left; omega
      · simp only [hname3, kidsOf, List.filterMap_cons, List.filterMap_nil, Ev.kid,
          Option.map_some']
        exact mapInsert_none _ hfresh
      · intro r hr'
        simp only [List.mem_cons] at hr'
        rcases hr' with hr' | hr'
        · rw [hr']
          exact hkidsD
        · exact hroomsD r hr'
    | some x =>
      obtain ⟨e2, a2⟩ := x
      have hfind0 : findAt es2 0 name = some (e2, a2 - b2) ∧ b2 ≤ a2 := by
        rw [hfind] at hsh
        cases hq : findAt es2 0 name with
        | none => rw [hq] at hsh; simp at hsh
        | some q =>
          rw [hq] at hsh
          simp only [Option.map_some', Option.some.injEq, Prod.mk.injEq] at hsh
          obtain ⟨q1, q2⟩ := q
          simp only at hsh
          obtain ⟨rfl, rfl⟩ := hsh
          simp
      rw [hfind] at hlk hok
      simp only [Option.map_some'] at hlk
      simp only [Option.isSome_some, if_true]
      obtain ⟨i1, i2, i3, i4, i5⟩ := findAt_rep hs es2 b2 p2 s2 name e2 a2 hr2 hfind
      have hf2 : st.heap a2 = hA a2 :=
        hpend2 e2 a2 hfind a2 (Nat.le_refl _) (by have := Entry.span_pos e2; omega)
      have hsp2 := Entry.span_pos e2
      have hba : b ≠ a2 := by omega
      have hna : nd1 ≠ a2 := by omega
      generalize hh3 : setParent (setParent st.heap b (some nd1)) a2 (some nd1) = h3
      have hfr3 : ∀ a, a ≠ b → a ≠ a2 → h3 a = st.heap a := by
        intro a e1 e2
        rw [← hh3, setParent_other _ _ _ _ e2, setParent_other _ _ _ _ e1]
      have hpath3 : (h3 b).path = out ++ "/" ++ name := by
        rw [← hh3, setParent_path_other _ _ _ _ hba, setParent_path_self, hout, hf, c2]
      have hb3 : (h3 b).children = kids (b + 1) es := by
        rw [← hh3]
        simp only [setParent_children]
        rw [hf, c6]
      have hname3 : (h3 b).name = name := by
        rw [← hh3, setParent_name, setParent_name, hf, c2]
      have hk0 : Keeps st
          { st with heap := h3, editSteps := st.editSteps ++ [mkdirStep h3 b] } [] := by
        refine ⟨Nat.le_refl _, fun a ha => ?_⟩
        simp only
        rw [← hh3]
        exact ⟨by simp, by rw [setParent_date, setParent_date],
          by rw [setParent_num_files, setParent_num_files], by simp,
          fun _ => ⟨by rw [setParent_isSub, setParent_isSub],
            by rw [setParent_subordinates, setParent_subordinates],
            by rw [setParent_topSup, setParent_topSup]⟩⟩
      have hmem : e2 ∈ es2 := i3
      have hd2 : e2.depth ≤ depthList es2 := depth_le_of_mem hmem
      have hn2 : e2.namesOK := namesOK_of_mem hnames2 hmem
      -- the partner is a directory or a file
      cases e2 with
      | dir name2 size2 ctime2 es' =>
        have hspd : (Entry.dir name2 size2 ctime2 es').span = 1 + spanList es' := by
          simp [Entry.span]
        simp only [Entry.span] at i5
        simp only [hfind0.1]
        simp only [Entry.depth] at hd2
        simp only [Entry.namesOK] at hn2
        obtain ⟨g1, g2, g3, g4, g5, g6⟩ := hcore.dir i1
        have hrl2 : RepList hs es' (a2 + 1) a2 (s2 ++ "/" ++ name2) := by
          simp only [Entry.Rep] at i1
          exact i1.2
        have hname2 : name2 = name := i2
        subst hname2
        have ha3 : (h3 a2).children = kids (a2 + 1) es' := by
          rw [← hh3]
          simp only [setParent_children]
          rw [hf2, g6]
        have hok' : ∀ ev ∈ bothEvsList hA es es' (a2 + 1) (b + 1) b st.next
            (s1 ++ "/" ++ name2) (s2 ++ "/" ++ name2) (out ++ "/" ++ name2), ev.OK hA :=
          fun ev hev => hok ev (List.mem_cons_of_mem _ (List.mem_append_left _ hev))
        obtain ⟨loc1, st1, hl1, hvis1, hsim1, hframe1, hnodes1, hkids1, hrooms1⟩ :=
          bothLoopK hs hA n0 hcore es es' fuel' (b + 1) b (a2 + 1) a2 b a2
            (s1 ++ "/" ++ name2) (s2 ++ "/" ++ name2) (out ++ "/" ++ name2)
            { step_children := [], visited := [] }
            { st with heap := h3, editSteps := st.editSteps ++ [mkdirStep h3 b] }
            (by omega) (by omega) hnames hn2 hrl hrl2
            (fun a h1 h2 => by
              simp only
              rw [hfr3 a (by omega) (by omega)]
              exact hpend a (by omega) (by omega))
            (fun e _ e3 a3 hf3 a h1 h2 => by
              obtain ⟨j1, j2, j3, j4, j5⟩ :=
                findAt_rep hs es' (a2 + 1) a2 (s2 ++ "/" ++ name2) e.name e3 a3 hrl2 hf3
              simp only
              rw [hfr3 a (by omega) (by omega)]
              exact hpend2 _ a2 hfind a (by omega) (by omega))
            ha3 (by omega) (by omega) (by omega) hn0 (Or.inl (by omega)) (by simp only; omega)
            hpath3 hok' (by simp)
        simp only at hl1 hsim1 hframe1 hnodes1 hkids1 hrooms1
        simp only [List.nil_append] at hkids1
        have hfrB : ∀ a, a ≤ b ∨ (b + 1 + spanList es ≤ a ∧ a ≤ a2) ∨
            (a2 + 1 + spanList es' ≤ a ∧ ¬ (st.next ≤ a ∧ a < st.next + bothNewList es es')) →
            st1.heap a = h3 a := by
          intro a ha
          refine hframe1 a (by omega) (by omega) (fun e _ e3 a3 hf3 => ?_)
          obtain ⟨j1, j2, j3, j4, j5⟩ :=
            findAt_rep hs es' (a2 + 1) a2 (s2 ++ "/" ++ name2) e.name e3 a3 hrl2 hf3
          omega
        have hn1 : st1.next = st.next + bothNewList es es' := hsim1.next
        obtain ⟨loc2, st2, hl2, hvis2, hsim2, hframe2, hnodes2, hkids2, hrooms2⟩ :=
          aloneLoopK hs hA n0 hcore es' (es.map Entry.name) fuel' (a2 + 1) a2 b
            (s2 ++ "/" ++ name2) (out ++ "/" ++ name2) loc1 st1 (by omega) hn2 hrl2
            (PendBut.by_findAt es' _ (a2 + 1) hn2 (fun n e3 a3 hf3 hns a h1 h2 => by
              obtain ⟨j1, j2, j3, j4, j5⟩ :=
                findAt_rep hs es' (a2 + 1) a2 (s2 ++ "/" ++ name2) n e3 a3 hrl2 hf3
              rw [hframe1 a (by omega) (by omega) (fun e he e4 a4 hf4 => by
                have hne4 : e.name ≠ n := fun c => hns (c ▸ List.mem_map_of_mem _ he)
                rcases findAt_disjoint es' (a2 + 1) e.name n e4 e3 a4 a3 hf4 hf3 hne4 with
                  h | h <;> omega)]
              rw [hfr3 a (by omega) (by omega)]
              exact hpend2 _ a2 hfind a (by omega) (by omega)))
            (by omega) (by omega) (by omega) (Or.inl (by omega))
            (by rw [hfrB b (Or.inl (Nat.le_refl _))]; exact hpath3)
            (fun x hx => by
              rw [hvis1]
              simp only [List.not_mem_nil, false_or]
              constructor
              · exact fun h => h.1
              · exact fun h => ⟨h, findAt_mem.mpr (List.mem_map_of_mem _ hx)⟩)
            (fun x _ hxs => by
              rw [hkids1]
              refine lookup_kidsOf_none ?_
              rw [bothTops_names]
              exact hxs)
        rw [hn1] at hsim2 hframe2 hnodes2 hkids2 hrooms2
        have hfr1 : ∀ ev ∈ bothEvsList hA es es' (a2 + 1) (b + 1) b st.next
            (s1 ++ "/" ++ name2) (s2 ++ "/" ++ name2) (out ++ "/" ++ name2), ∀ a ∈ ev.nodes,
            st2.heap a = st1.heap a := by
          intro ev hev a ha
          rcases hnodes1 ev hev a ha with h1 | h1 | h1 | ⟨e4, he4, e3, a3, hf3, h3a, h3b⟩
          · rw [h1]
            exact hframe2 b (Outside.beyond _ _ _ _ (by omega)) (by omega)
          · exact hframe2 a (Outside.beyond _ _ _ _ (by omega)) (by omega)
          · exact hframe2 a (Outside.beyond _ _ _ _ (by omega)) (by omega)
          · obtain ⟨j1, j2, j3, j4, j5⟩ :=
              findAt_rep hs es' (a2 + 1) a2 (s2 ++ "/" ++ name2) e4.name e3 a3 hrl2 hf3
            refine hframe2 a (Outside.of_findAt es' _ (a2 + 1) a hn2
              (fun n x ax hfx hns => ?_)) (by omega)
            have hne4 : e4.name ≠ n := fun c => hns (c ▸ List.mem_map_of_mem _ he4)
            rcases findAt_disjoint es' (a2 + 1) e4.name n e3 x a3 ax hf3 hfx hne4 with
              h | h <;> omega
        refine ⟨{ step_children := mapInsert loc.step_children (h3 b).name b,
                  visited := setInsert loc.visited name2 },
          { st2 with
            heap := st2.heap.modify b (fun n => { n with children := loc2.step_children }) },
          ?_, rfl, ?_, ?_, ?_, ?_, ?_⟩
        · unfold mergeVisit1
          simp only [hlk, htd, if_true, Option.isSome_some, pushStep_mkdir, hh3]
          simp only [mergeDirs, hb3, hl1]
          rw [hfrB a2 (Or.inr (Or.inl ⟨by omega, Nat.le_refl _⟩)), ha3]
          simp only [hl2]
        · have hsimA := hsim1.append hsim2 hfr1
          have h := @Sim.cons_mk _ _ st _ _ _ _ 0
            (hsimA.swap (st2.heap.modify b (fun n => { n with children := loc2.step_children }))
              (fun a => modify_children_fields _ _ _ a))
            b (out ++ "/" ++ name2) (by simp only; rw [mkdirStep_eq, hpath3]) rfl rfl hk0
            (by
              refine ⟨by simp only; rw [hsim2.next]; omega, ?_⟩
              simp only
              rw [(modify_children_fields _ _ _ _).2.1,
                hframe2 b (Outside.beyond _ _ _ _ (by omega)) (by omega),
                hfrB b (Or.inl (Nat.le_refl _))]
              exact hpath3)
          rw [Nat.zero_add] at h
          exact h
        · intro a ha1 ha2 ha3
          have ha4 := ha3 _ a2 rfl
          rw [hspd] at ha4
          have e1 : a ≠ b := by omega
          simp only [Heap.get_modify, e1, if_false]
          rw [hframe2 a (Outside.beyond _ _ _ _ (by omega)) (by omega),
            hfrB a (by omega), hfr3 a e1 (by omega)]
        · intro ev hev a ha
          simp only [List.mem_cons, List.mem_append] at hev
          rcases hev with hev | hev | hev
          · rw [hev] at ha
            simp only [Ev.nodes, List.mem_singleton] at ha
            right; left; omega
          · rcases hnodes1 ev hev a ha with h1 | h1 | h1 | ⟨e4, he4, e3, a3, hf3, h3a, h3b⟩
            · right; left; omega
            · right; left; omega
            · right; right; left; omega
            · obtain ⟨j1, j2, j3, j4, j5⟩ :=
                findAt_rep hs es' (a2 + 1) a2 (s2 ++ "/" ++ name2) e4.name e3 a3 hrl2 hf3
              right; right; right
              exact ⟨_, a2, rfl, by omega, by rw [hspd]; omega⟩
          · rcases hnodes2 ev hev a ha with h1 | h1 | h1
            · right; left; omega
            · right; right; right
              exact ⟨_, a2, rfl, by omega, by rw [hspd]; omega⟩
            · right; right; left; omega
        · simp only [hname3, kidsOf, List.filterMap_cons, List.filterMap_nil, Ev.kid,
            Option.map_some']
          exact mapInsert_none _ hfresh
        · intro r hr'
          simp only [List.mem_cons, List.mem_append] at hr'
          rcases hr' with hr' | hr' | hr'
          · rw [hr']
            simp only [Heap.get_modify, if_true]
            rw [hkids2, hkids1, kidsOf_append]
          · obtain ⟨ev, hev, ha⟩ := bothRoomsList_at b hr'
            have e1 : r.1 ≠ b := by
              rcases bothEvsList_subj hA es es' (a2 + 1) (b + 1) b st.next _ _ _ ev hev r.1 ha
                with h | h | ⟨e4, he4, e3, a3, hf3, h3a, h3b⟩
              · omega
              · omega
              · obtain ⟨j2, j3, j4, j5⟩ := findAt_bounds es' (a2 + 1) e4.name e3 a3 hf3
                omega
            simp only [Heap.get_modify, e1, if_false]
            rw [hfr1 ev hev r.1 (Ev.subj_nodes ha)]
            exact hrooms1 r hr'
          · obtain ⟨ev, hev, ha⟩ := aloneRoomsList_at b hr'
            have hb := aloneEvsList_subj hA es' _ (a2 + 1) b _ _ _ ev hev r.1 ha
            have e1 : r.1 ≠ b := by omega
            simp only [Heap.get_modify, e1, if_false]
            exact hrooms2 r hr'
      | file name2 regular2 size2 ctime2 digest2 =>
        have hspd : (Entry.file name2 regular2 size2 ctime2 digest2).span = 1 := by
          simp [Entry.span]
        simp only [hfind0.1]
        obtain ⟨g1, g2, g3, g4, g5, g6⟩ := hcore.file i1
        have ha3 : (h3 a2).children = kids (a2 + 1) [] := by
          rw [← hh3]
          simp only [setParent_children]
          rw [hf2, g6]
          rfl
        have hok' : ∀ ev ∈ bothEvsList hA es [] (a2 + 1) (b + 1) b st.next
            (s1 ++ "/" ++ name) (s2 ++ "/" ++ name) (out ++ "/" ++ name), ev.OK hA :=
          fun ev hev => hok ev (List.mem_cons_of_mem _ hev)
        obtain ⟨loc1, st1, hl1, hvis1, hsim1, hframe1, hnodes1, hkids1, hrooms1⟩ :=
          bothLoopK hs hA n0 hcore es [] fuel' (b + 1) b (a2 + 1) a2 b a2
            (s1 ++ "/" ++ name) (s2 ++ "/" ++ name) (out ++ "/" ++ name)
            { step_children := [], visited := [] }
            { st with heap := h3, editSteps := st.editSteps ++ [mkdirStep h3 b] }
            (by omega) (by simp [depthList]) hnames trivial hrl trivial
            (fun a h1 h2 => by
              simp only
              rw [hfr3 a (by omega) (by omega)]
              exact hpend a (by omega) (by omega))
            (fun e _ e3 a3 hf3 => by simp [findAt] at hf3)
            ha3 (by omega) (by omega) (by simp only [spanList]; omega) hn0 (Or.inl (by omega))
            (by simp only; omega) hpath3 hok' (by simp)
        simp only at hl1 hsim1 hframe1 hnodes1 hkids1 hrooms1
        simp only [List.nil_append] at hkids1
        have hfrB : ∀ a, a ≤ b ∨ (b + 1 + spanList es ≤ a ∧
            ¬ (st.next ≤ a ∧ a < st.next + bothNewList es [])) → st1.heap a = h3 a := by
          intro a ha
          exact hframe1 a (by omega) (by omega)
            (fun e _ e3 a3 hf3 => by simp [findAt] at hf3)
        refine ⟨{ step_children := mapInsert loc.step_children (h3 b).name b,
                  visited := setInsert loc.visited name },
          { st1 with
            heap := st1.heap.modify b (fun n => { n with children := loc1.step_children }) },
          ?_, rfl, ?_, ?_, ?_, ?_, ?_⟩
        · unfold mergeVisit1
          simp only [hlk, htd, if_true, Option.isSome_some, pushStep_mkdir, hh3]
          simp only [mergeDirs, hb3, hl1]
          rw [hfrB a2 (Or.inr ⟨by omega, by omega⟩), ha3]
          simp only [kids, mergeLoop2]
        · have h := @Sim.cons_mk _ _ st _ _ _ _ 0
            (hsim1.swap (st1.heap.modify b (fun n => { n with children := loc1.step_children }))
              (fun a => modify_children_fields _ _ _ a))
            b (out ++ "/" ++ name) (by simp only; rw [mkdirStep_eq, hpath3]) rfl rfl hk0
            (by
              refine ⟨by simp only; rw [hsim1.next]; simp only; omega, ?_⟩
              simp only
              rw [(modify_children_fields _ _ _ _).2.1, hfrB b (Or.inl (Nat.le_refl _))]
              exact hpath3)
          rw [Nat.zero_add] at h
          exact h
        · intro a ha1 ha2 ha3
          have ha4 := ha3 _ a2 rfl
          rw [hspd] at ha4
          have e1 : a ≠ b := by omega
          simp only [Heap.get_modify, e1, if_false]
          rw [hframe1 a (by omega) (by omega) (fun e _ e3 a3 hf3 => by simp [findAt] at hf3),
            hfr3 a e1 (by omega)]
        · intro ev hev a ha
          simp only [List.mem_cons] at hev
          rcases hev with hev | hev
          · rw [hev] at ha
            simp only [Ev.nodes, List.mem_singleton] at ha
            right; left; omega
          · rcases hnodes1 ev hev a ha with h1 | h1 | h1 | ⟨e4, he4, e3, a3, hf3, h3a, h3b⟩
            · right; left; omega
            · right; left; omega
            · right; right; left; omega
            · simp [findAt] at hf3
        · simp only [hname3, kidsOf, List.filterMap_cons, List.filterMap_nil, Ev.kid,
            Option.map_some']
          exact mapInsert_none _ hfresh
        · intro r hr'
          simp only [List.mem_cons] at hr'
          rcases hr' with hr' | hr'
          · rw [hr']
            simp only [Heap.get_modify, if_true]
            exact hkids1
          · obtain ⟨ev, hev, ha⟩ := bothRoomsList_at b hr'
            have e1 : r.1 ≠ b := by
              rcases bothEvsList_subj hA es [] (a2 + 1) (b + 1) b st.next _ _ _ ev hev r.1 ha
                with h | h | ⟨e4, he4, e3, a3, hf3, h3a, h3b⟩
              · omega
              · omega
              · simp [findAt] at hf3
            simp only [Heap.get_modify, e1, if_false]
            exact hrooms1 r hr'
/-- The first loop of `mergeDirs` over the entries of a directory of tree 1, with what it
registers. -/
theorem bothLoopK (hs hA : Heap) (n0 : Nat) (hcore : Core hs hA) :
    ∀ (es es2 : List Entry) (fuel b p b2 p2 nd1 nd2 : Nat) (s1 s2 out : String)
      (loc : MergeLocals) (st : Planner),
    depthList es ≤ fuel → depthList es2 ≤ fuel → namesOKList es → namesOKList es2 →
    RepList hs es b p s1 → RepList hs es2 b2 p2 s2 →
    (∀ a, b ≤ a → a < b + spanList es → st.heap a = hA a) →
    (∀ e ∈ es, ∀ e2 a2, findAt es2 b2 e.name = some (e2, a2) →
      ∀ a, a2 ≤ a → a < a2 + e2.span → st.heap a = hA a) →
    (st.heap nd2).children = kids b2 es2 →
    b + spanList es ≤ nd2 → nd2 < b2 → b2 + spanList es2 ≤ n0 → n0 ≤ st.next →
    (nd1 < b ∨ n0 ≤ nd1) → nd1 < st.next → (st.heap nd1).path = out →
    (∀ ev ∈ bothEvsList hA es es2 b2 b nd1 st.next s1 s2 out, ev.OK hA) →
    (∀ e ∈ es, loc.step_children.lookup e.name = none) →
    ∃ loc' st', mergeLoop1 (mergeDirs fuel) nd1 nd2 (kids b es) loc st = some (loc', st') ∧
      (∀ n, n ∈ loc'.visited ↔
        n ∈ loc.visited ∨ (n ∈ es.map Entry.name ∧ (findAt es2 b2 n).isSome)) ∧
      Sim hA n0 st st' (bothEvsList hA es es2 b2 b nd1 st.next s1 s2 out) (bothNewList es es2) ∧
      (∀ a, ¬ (b ≤ a ∧ a < b + spanList es) →
        ¬ (st.next ≤ a ∧ a < st.next + bothNewList es es2) →
        (∀ e ∈ es, ∀ e2 a2, findAt es2 b2 e.name = some (e2, a2) →
          ¬ (a2 ≤ a ∧ a < a2 + e2.span)) →
        st'.heap a = st.heap a) ∧
      (∀ ev ∈ bothEvsList hA es es2 b2 b nd1 st.next s1 s2 out, ∀ a ∈ ev.nodes,
        a = nd1 ∨ (b ≤ a ∧ a < b + spanList es) ∨
          (st.next ≤ a ∧ a < st.next + bothNewList es es2) ∨
          ∃ e ∈ es, ∃ e2 a2, findAt es2 b2 e.name = some (e2, a2) ∧ a2 ≤ a ∧ a < a2 + e2.span) ∧
      loc'.step_children =
        loc.step_children ++ kidsOf (bothTops hA es es2 b2 b nd1 st.next s1 s2 out) ∧
      (∀ r ∈ bothRoomsList hA es es2 b2 b st.next s1 s2 out,
        (st'.heap r.1).children = kidsOf r.2)
  | [], es2, fuel, b, p, b2, p2, nd1, nd2, s1, s2, out, loc, st => by
    intro _ _ _ _ _ _ _ _ _ _ _ _ _ _ _ _ _ _
    refine ⟨loc, st, rfl, by simp, ?_, fun _ _ _ _ => rfl, ?_, ?_, ?_⟩
    · simp only [bothEvsList, bothNewList]
      exact Sim.empty hA n0 st
    · intro ev hev
      simp [bothEvsList] at hev
    · simp [bothTops, kidsOf]
    · intro r hr'
      simp [bothRoomsList] at hr'
  | e :: es, es2, fuel, b, p, b2, p2, nd1, nd2, s1, s2, out, loc, st => by
    intro hfuel hfuel2 hnames hnames2 hr hr2 hpend hpend2 hkids hsep hnd2 hb2 hn0 hnd1 hnd
      hout hok hfresh
    simp only [depthList] at hfuel
    simp only [spanList] at hpend hsep ⊢
    simp only [namesOKList] at hnames
    simp only [RepList] at hr
    simp only [bothEvsList] at hok ⊢
    simp only [bothNewList]
    have hsp := Entry.span_pos e
    have hpart : ∀ n e2 a2, findAt es2 b2 n = some (e2, a2) →
        b2 ≤ a2 ∧ a2 + e2.span ≤ b2 + spanList es2 ∧ 1 ≤ e2.span := by
      intro n e2 a2 hf
      obtain ⟨_, _, _, j4, j5⟩ := findAt_rep hs es2 b2 p2 s2 n e2 a2 hr2 hf
      exact ⟨j4, j5, Entry.span_pos e2⟩
    obtain ⟨loc1, st1, hv1, hvis1, hsim1, hframe1, hnodes1, hkids1, hrooms1⟩ :=
      bothVisitK hs hA n0 hcore e es2 fuel b p b2 p2 nd1 nd2 s1 s2 out loc st (by omega) hfuel2
        hnames.2.1 hnames2 hr.1 hr2 (fun a h1 h2 => hpend a h1 (by omega))
        (hpend2 e (List.mem_cons_self _ _)) hkids (by omega) hnd2 hb2 hn0 (by omega) hnd hout
        (fun ev hev => hok ev (List.mem_append_left _ hev)) (hfresh e (List.mem_cons_self _ _))
    have hn1 : st1.next = st.next + e.bothNew es2 := hsim1.next
    have hother : ∀ x ∈ es, ∀ e2 a2, findAt es2 b2 x.name = some (e2, a2) →
        ∀ a, a2 ≤ a → a < a2 + e2.span → st1.heap a = st.heap a := by
      intro x hx e2 a2 hf a h1 h2
      have := hpart _ _ _ hf
      refine hframe1 a (by omega) (by omega) (fun e3 a3 hf3 => ?_)
      have hne : e.name ≠ x.name := fun c => hnames.1 (c ▸ List.mem_map_of_mem _ hx)
      rcases findAt_disjoint es2 b2 e.name x.name e3 e2 a3 a2 hf3 hf hne with h | h <;> omega
    have hlow : ∀ a, (a < b2 ∧ ¬ (b ≤ a ∧ a < b + e.span)) ∨ (n0 ≤ a ∧ a < st.next) →
        st1.heap a = st.heap a := by
      intro a ha
      refine hframe1 a (by omega) (by omega) (fun e3 a3 hf3 => ?_)
      have := hpart _ _ _ hf3
      omega
    obtain ⟨loc2, st2, hl2, hvis2, hsim2, hframe2, hnodes2, hkids2, hrooms2⟩ :=
      bothLoopK hs hA n0 hcore es es2 fuel (b + e.span) p b2 p2 nd1 nd2 s1 s2 out loc1 st1
        (by omega) hfuel2 hnames.2.2 hnames2 hr.2 hr2
        (fun a h1 h2 => by
          rw [hlow a (by omega)]
          exact hpend a (by omega) (by omega))
        (fun x hx e2 a2 hf a h1 h2 => by
          rw [hother x hx e2 a2 hf a h1 h2]
          exact hpend2 x (List.mem_cons_of_mem _ hx) e2 a2 hf a h1 h2)
        (by rw [hlow nd2 (by omega)]; exact hkids)
        (by omega) hnd2 hb2 (by omega) (by omega) (by omega)
        (by rw [hlow nd1 (by omega)]; exact hout)
        (by rw [hn1]; exact fun ev hev => hok ev (List.mem_append_right _ hev))
        (fun x hx => by
          rw [hkids1]
          refine lookup_append_fresh (hfresh x (List.mem_cons_of_mem _ hx))
            (lookup_kidsOf_none ?_)
          simp only [List.map_cons, List.map_nil, List.mem_singleton]
          exact fun c => hnames.1 (c ▸ List.mem_map_of_mem _ hx))
    rw [hn1] at hsim2 hframe2 hnodes2 hkids2 hrooms2
    have hfr : ∀ ev ∈ e.bothEvs hA es2 b2 b nd1 st.next s1 s2 out, ∀ a ∈ ev.nodes,
        st2.heap a = st1.heap a := by
      intro ev hev a ha
      have hrest : ∀ x ∈ es, ∀ e3 a3, findAt es2 b2 x.name = some (e3, a3) →
          b2 ≤ a3 ∧ a3 + e3.span ≤ b2 + spanList es2 := fun x _ e3 a3 hf3 =>
        ⟨(hpart _ _ _ hf3).1, (hpart _ _ _ hf3).2.1⟩
      rcases hnodes1 ev hev a ha with h1 | h1 | h1 | ⟨e3, a3, hf3, h3a, h3b⟩
      · rw [h1]
        exact hframe2 nd1 (by omega) (by omega)
          (fun x hx e4 a4 hf4 => by have := hrest x hx e4 a4 hf4; omega)
      · exact hframe2 a (by omega) (by omega)
          (fun x hx e4 a4 hf4 => by have := hrest x hx e4 a4 hf4; omega)
      · exact hframe2 a (by omega) (by omega)
          (fun x hx e4 a4 hf4 => by have := hrest x hx e4 a4 hf4; omega)
      · have := hpart _ _ _ hf3
        refine hframe2 a (by omega) (by omega) (fun x hx e4 a4 hf4 => ?_)
        have hne : e.name ≠ x.name := fun c => hnames.1 (c ▸ List.mem_map_of_mem _ hx)
        rcases findAt_disjoint es2 b2 e.name x.name e3 e4 a3 a4 hf3 hf4 hne with h | h <;> omega
    refine ⟨loc2, st2, ?_, ?_, ?_, ?_, ?_, ?_, ?_⟩
    · simp only [kids, mergeLoop1, hv1]
      exact hl2
    · intro n
      rw [hvis2 n, hvis1]
      simp only [List.map_cons, List.mem_cons]
      by_cases hfe : (findAt es2 b2 e.name).isSome = true
      · simp only [hfe, if_true, setInsert_nil_iff]
        constructor
        · rintro ((h | h) | h)
          · exact Or.inl h
          · exact Or.inr ⟨Or.inl h, h ▸ hfe⟩
          · exact Or.inr ⟨Or.inr h.1, h.2⟩
        · rintro (h | ⟨h | h, h'⟩)
          · exact Or.inl (Or.inl h)
          · exact Or.inl (Or.inr h)
          · exact Or.inr ⟨h, h'⟩
      · simp only [hfe, if_false]
        constructor
        · rintro (h | h)
          · exact Or.inl h
          · exact Or.inr ⟨Or.inr h.1, h.2⟩
        · rintro (h | ⟨h | h, h'⟩)
          · exact Or.inl h
          · exact absurd (h ▸ h') hfe
          · exact Or.inr ⟨h, h'⟩
    · exact hsim1.append hsim2 hfr
    · intro a ha1 ha2 ha3
      rw [hframe2 a (by omega) (by omega)
          (fun x hx e4 a4 hf4 => ha3 x (List.mem_cons_of_mem _ hx) e4 a4 hf4),
        hframe1 a (by omega) (by omega)
          (fun e4 a4 hf4 => ha3 e (List.mem_cons_self _ _) e4 a4 hf4)]
    · intro ev hev a ha
      simp only [List.mem_append] at hev
      rcases hev with hev | hev
      · rcases hnodes1 ev hev a ha with h1 | h1 | h1 | ⟨e3, a3, hf3, h3⟩
        · left; exact h1
        · right; left; omega
        · right; right; left; omega
        · right; right; right
          exact ⟨e, List.mem_cons_self _ _, e3, a3, hf3, h3⟩
      · rcases hnodes2 ev hev a ha with h1 | h1 | h1 | ⟨x, hx, e3, a3, hf3, h3⟩
        · left; exact h1
        · right; left; omega
        · right; right; left; omega
        · right; right; right
          exact ⟨x, List.mem_cons_of_mem _ hx, e3, a3, hf3, h3⟩
    · simp only [bothTops]
      rw [hkids2, hkids1, List.append_assoc, ← kidsOf_append]
      rfl
    · intro r hr'
      simp only [bothRoomsList, List.mem_append] at hr'
      rcases hr' with hr' | hr'
      · obtain ⟨ev, hev, ha⟩ := Entry.bothRooms_at nd1 hr'
        rw [hfr ev hev r.1 (Ev.subj_nodes ha)]
        exact hrooms1 r hr'
      · exact hrooms2 r hr'
end

/-- Phases A and B on two scanned trees follow the reference planner when Phase B meets no
hierarchy of Phase A at a path collision, and leave in every directory of the result the
entries registered there. -/
theorem planAB_simK (fuel : Nat) (path1 path2 pathout : String) (in1 in2 : List Entry)
    (hok1 : namesOKList in1) (hok2 : namesOKList in2)
    (hf1 : depthList in1 < fuel) (hf2 : depthList in2 < fuel) (hA : Heap)
    (hpA : scanPhaseA path1 path2 in1 in2 = some hA)
    (hok : ∀ ev ∈ planEvs hA path1 path2 pathout in1 in2, ev.OK hA) :
    ∃ stB, planAB fuel (scanBoth path1 path2 in1 in2).1.heap
        (scanBoth path1 path2 in1 in2).1.next 0 (1 + spanList in1) pathout
        (scanBoth path1 path2 in1 in2).1.fileStore =
        some { state := stB, root := (1 + spanList in1) + (1 + spanList in2) } ∧
      Sim hA ((1 + spanList in1) + (1 + spanList in2))
        (afterA hA ((1 + spanList in1) + (1 + spanList in2))) stB
        (planEvs hA path1 path2 pathout in1 in2)
        (1 + (bothNewList in1 in2 + aloneNewList in2 (in1.map Entry.name))) ∧
      (∀ r ∈ planRooms hA path1 path2 pathout in1 in2,
        (stB.heap r.1).children = kidsOf r.2) := by
  obtain ⟨-, -, p3, -, p5, p6, p7, p8⟩ := scanBoth_pair path1 path2 in1 in2 hok1 hok2
  simp only [scanPhaseA] at hpA
  rcases hs : scanBoth path1 path2 in1 in2 with ⟨sc, r1, r2⟩
  rw [hs] at hpA p3 p5 p6 p7 p8
  simp only at hpA p3 p5 p6 p7 p8 ⊢
  have hcore : Core sc.heap hA := phaseA_core _ _ _ _ _ hpA
  obtain ⟨fuel', rfl⟩ : ∃ f, fuel = f + 1 := ⟨fuel - 1, by omega⟩
  rw [planAB_eq _ _ _ _ _ _ _ hA hpA, p3]
  generalize hn0 : (1 + spanList in1) + (1 + spanList in2) = n0
  have hr2 : 1 + spanList in1 < n0 := by omega
  obtain ⟨q1, q2, q3, -, q5, q6⟩ := rootState_heap hA n0 0 pathout
  generalize hrs : rootState hA n0 0 pathout = rs at q1 q2 q3 q5 q6
  have hsteps : rs.editSteps = [mkdirAt n0 pathout] := by
    rw [← hrs]
    simp only [rootState]
    rw [mkdirStep_eq]
    rw [← hrs] at q3
    simp only [rootState] at q3
    rw [q3]
  have hc0 : (rs.heap n0).children = kids 1 in1 := by
    rw [q2, hcore 0, p5]
  have hc2 : (rs.heap (1 + spanList in1)).children = kids (1 + (1 + spanList in1)) in2 := by
    rw [q1 _ (by omega), hcore (1 + spanList in1), p6]
  simp only [planEvs, planRooms, hn0] at hok ⊢
  obtain ⟨loc1, st1, hl1, hvis1, hsim1, hframe1, hnodes1, hkids1, hrooms1⟩ :=
    bothLoopK sc.heap hA n0 hcore in1 in2 fuel' 1 0 (1 + (1 + spanList in1)) (1 + spanList in1)
      n0 (1 + spanList in1) path1 path2 pathout { step_children := [], visited := [] } rs
      (by omega) (by omega) hok1 hok2 p7 p8
      (fun a h1 h2 => q1 a (by omega))
      (fun e _ e2 a2 hf a h1 h2 => by
        obtain ⟨j1, j2, j3, j4, j5⟩ := findAt_rep sc.heap in2 _ _ path2 e.name e2 a2 p8 hf
        exact q1 a (by omega))
      hc2 (by omega) (by omega) (by omega) (by omega) (Or.inr (Nat.le_refl _)) (by omega) q3
      (by
        rw [q5]
        exact fun ev hev => hok ev (List.mem_cons_of_mem _ (List.mem_append_left _ hev)))
      (by simp)
  rw [q5] at hsim1 hframe1 hnodes1 hkids1 hrooms1
  simp only [List.nil_append] at hkids1
  have hn1 : st1.next = n0 + 1 + bothNewList in1 in2 := by rw [hsim1.next, q5]
  have hfrB : ∀ a, a = 0 ∨ a = 1 + spanList in1 ∨ a = n0 → st1.heap a = rs.heap a := by
    intro a ha
    refine hframe1 a (by omega) (by omega) (fun e _ e2 a2 hf => ?_)
    obtain ⟨j1, j2, j3, j4, j5⟩ := findAt_rep sc.heap in2 _ _ path2 e.name e2 a2 p8 hf
    omega
  obtain ⟨loc2, st2, hl2, hvis2, hsim2, hframe2, hnodes2, hkids2, hrooms2⟩ :=
    aloneLoopK sc.heap hA n0 hcore in2 (in1.map Entry.name) fuel' (1 + (1 + spanList in1))
      (1 + spanList in1) n0 path2 pathout loc1 st1 (by omega) hok2 p8
      (PendBut.by_findAt in2 _ _ hok2 (fun n e3 a3 hf3 hns a h1 h2 => by
        obtain ⟨j1, j2, j3, j4, j5⟩ := findAt_rep sc.heap in2 _ _ path2 n e3 a3 p8 hf3
        rw [hframe1 a (by omega) (by omega) (fun e he e4 a4 hf4 => by
          have hne4 : e.name ≠ n := fun c => hns (c ▸ List.mem_map_of_mem _ he)
          rcases findAt_disjoint in2 _ e.name n e4 e3 a4 a3 hf4 hf3 hne4 with h | h <;> omega)]
        exact q1 a (by omega)))
      (by omega) (by omega) (by omega) (Or.inr (by omega))
      (by rw [hfrB n0 (by simp)]; exact q3)
      (fun x hx => by
        rw [hvis1]
        simp only [List.not_mem_nil, false_or]
        constructor
        · exact fun h => h.1
        · exact fun h => ⟨h, findAt_mem.mpr (List.mem_map_of_mem _ hx)⟩)
      (fun x _ hxs => by
        rw [hkids1]
        refine lookup_kidsOf_none ?_
        rw [bothTops_names]
        exact hxs)
  rw [hn1] at hsim2 hframe2 hnodes2 hkids2 hrooms2
  have hfr1 : ∀ ev ∈ bothEvsList hA in1 in2 (1 + (1 + spanList in1)) 1 n0 (n0 + 1)
      path1 path2 pathout, ∀ a ∈ ev.nodes, st2.heap a = st1.heap a := by
    intro ev hev a ha
    rcases hnodes1 ev hev a ha with h1 | h1 | h1 | ⟨e4, he4, e3, a3, hf3, h3a, h3b⟩
    · rw [h1]
      exact hframe2 n0 (Outside.beyond _ _ _ _ (by omega)) (by omega)
    · exact hframe2 a (Outside.beyond _ _ _ _ (by omega)) (by omega)
    · exact hframe2 a (Outside.beyond _ _ _ _ (by omega)) (by omega)
    · obtain ⟨j1, j2, j3, j4, j5⟩ :=
        findAt_rep sc.heap in2 _ _ path2 e4.name e3 a3 p8 hf3
      refine hframe2 a (Outside.of_findAt in2 _ _ a hok2
        (fun n x ax hfx hns => ?_)) (by omega)
      have hne4 : e4.name ≠ n := fun c => hns (c ▸ List.mem_map_of_mem _ he4)
      rcases findAt_disjoint in2 _ e4.name n e3 x a3 ax hf3 hfx hne4 with h | h <;> omega
  refine ⟨{ st2 with
      heap := st2.heap.modify n0 (fun n => { n with children := loc2.step_children }) },
    ?_, ?_, ?_⟩
  · simp only [mergeDirs, hc0, hl1]
    rw [hfrB _ (by simp), hc2]
    simp only [hl2, Option.map_some']
  · have hsimA := hsim1.append hsim2 hfr1
    exact @Sim.cons_mk _ _ (afterA hA n0) _ _ _ _ 1
      (hsimA.swap (st2.heap.modify n0 (fun n => { n with children := loc2.step_children }))
        (fun a => modify_children_fields _ _ _ a))
      n0 pathout (by rw [hsteps]; rfl) q6 q5
      ⟨by rw [q5]; simp [afterA], fun a ha => by
        simp only [afterA] at ha ⊢
        rw [q1 a (by omega)]
        exact ⟨rfl, rfl, rfl, rfl, fun _ => ⟨rfl, rfl, rfl⟩⟩⟩
      (by
        refine ⟨by simp only; rw [hsim2.next]; omega, ?_⟩
        simp only
        rw [(modify_children_fields _ _ _ _).2.1,
          hframe2 n0 (Outside.beyond _ _ _ _ (by omega)) (by omega), hfrB n0 (by simp)]
        exact q3)
  · intro r hr'
    simp only [List.mem_cons, List.mem_append] at hr'
    rcases hr' with hr' | hr' | hr'
    · rw [hr']
      simp only [Heap.get_modify, if_true]
      rw [hkids2, hkids1, kidsOf_append]
    · obtain ⟨ev, hev, ha⟩ := bothRoomsList_at n0 hr'
      have e1 : r.1 ≠ n0 := by
        rcases bothEvsList_subj hA in1 in2 (1 + (1 + spanList in1)) 1 n0 (n0 + 1) _ _ _ ev hev
          r.1 ha with h | h | ⟨e4, he4, e3, a3, hf3, h3a, h3b⟩
        · omega
        · omega
        · obtain ⟨j2, j3, j4, j5⟩ := findAt_bounds in2 _ e4.name e3 a3 hf3
          omega
      simp only [Heap.get_modify, e1, if_false]
      rw [hfr1 ev hev r.1 (Ev.subj_nodes ha)]
      exact hrooms1 r hr'
    · obtain ⟨ev, hev, ha⟩ := aloneRoomsList_at n0 hr'
      have hb := aloneEvsList_subj hA in2 _ (1 + (1 + spanList in1)) n0 _ _ _ ev hev r.1 ha
      have e1 : r.1 ≠ n0 := by omega
      simp only [Heap.get_modify, e1, if_false]
      exact hrooms2 r hr'

/-! ## The entries visited in the directories of the result -/

theorem fileNames_mem : ∀ {es : List Entry} {e : Entry}, e ∈ es →
    ∀ n ∈ e.fileNames, n ∈ fileNamesList es
  | x :: es, e, h => by
    intro n hn
    simp only [fileNamesList, List.mem_append]
    rcases List.mem_cons.mp h with h1 | h1
    · left; rw [← h1]; exact hn
    · right; exact fileNames_mem h1 n hn

theorem fileEv_files (hA : Heap) (f d : Nat) (src out : String) :
    (fileEv hA f d src out).files = [f] := by
  unfold fileEv
  split <;> rfl

theorem fileEv_dest (hA : Heap) (f d : Nat) (src out : String) :
    (fileEv hA f d src out).dest = some d := by
  unfold fileEv
  split <;> rfl

/-- The files visited in the second loop at a level carry the names they are visited under. -/
theorem aloneTops_files (hs hA : Heap) (hcore : Core hs hA) (F : String → Prop) :
    ∀ (es : List Entry) (skip : List String) (b p d nx : Nat) (src out : String),
    RepList hs es b p src → (∀ n ∈ fileNamesList es, F n) →
    ∀ t ∈ aloneTops hA es skip b d nx src out, ∀ f ∈ t.2.files, (hA f).name = t.1 ∧ F t.1
  | [], _, _, _, _, _, _, _ => by
    intro _ _ t ht
    simp [aloneTops] at ht
  | e :: es, skip, b, p, d, nx, src, out => by
    intro hr hF t ht f hf
    simp only [RepList] at hr
    simp only [fileNamesList, List.mem_append] at hF
    simp only [aloneTops] at ht
    have ih := aloneTops_files hs hA hcore F es skip (b + e.span) p d
    by_cases hsk : e.name ∈ skip
    · simp only [hsk, if_true] at ht
      exact ih nx src out hr.2 (fun n hn => hF n (Or.inr hn)) t ht f hf
    · simp only [hsk, if_false, List.mem_cons] at ht
      rcases ht with ht | ht
      · subst ht
        cases e with
        | file name regular size ctime digest =>
          simp only [Entry.aloneTop, fileEv_files, List.mem_singleton] at hf
          subst hf
          obtain ⟨-, c2, -⟩ := hcore.file hr.1
          exact ⟨c2, hF name (Or.inl (by simp [Entry.fileNames]))⟩
        | dir name size ctime es' =>
          simp [Entry.aloneTop, Ev.files] at hf
      · exact ih _ src out hr.2 (fun n hn => hF n (Or.inr hn)) t ht f hf

theorem aloneTops_nodup (hA : Heap) (es : List Entry) (skip : List String) (b d nx : Nat)
    (src out : String) (hn : namesOKList es) :
    ((aloneTops hA es skip b d nx src out).map Prod.fst).Nodup := by
  rw [aloneTops_names]
  exact (namesOKList_nodup es hn).filter _

theorem aloneTops_ok (hs hA : Heap) (hcore : Core hs hA) (F : String → Prop)
    (es : List Entry) (skip : List String) (b p d nx : Nat) (src out : String)
    (hn : namesOKList es) (hr : RepList hs es b p src) (hF : ∀ n ∈ fileNamesList es, F n) :
    TopsOK hA F (aloneTops hA es skip b d nx src out) :=
  ⟨aloneTops_nodup hA es skip b d nx src out hn,
    aloneTops_files hs hA hcore F es skip b p d nx src out hr hF⟩

/-- The files visited in the first loop at a level carry the names they are visited under. -/
theorem bothTops_files (hs hA : Heap) (hcore : Core hs hA) (F : String → Prop) :
    ∀ (es es2 : List Entry) (b p b2 p2 d nx : Nat) (s1 s2 out : String),
    RepList hs es b p s1 → RepList hs es2 b2 p2 s2 → (∀ n ∈ fileNamesList es, F n) →
    ∀ t ∈ bothTops hA es es2 b2 b d nx s1 s2 out, ∀ f ∈ t.2.files, (hA f).name = t.1 ∧ F t.1
  | [], _, _, _, _, _, _, _, _, _, _ => by
    intro _ _ _ t ht
    simp [bothTops] at ht
  | e :: es, es2, b, p, b2, p2, d, nx, s1, s2, out => by
    intro hr hr2 hF t ht f hf
    simp only [RepList] at hr
    simp only [fileNamesList, List.mem_append] at hF
    simp only [bothTops, List.mem_cons] at ht
    rcases ht with ht | ht
    · subst ht
      cases e with
      | file name regular size ctime digest =>
        obtain ⟨-, c2, -⟩ := hcore.file hr.1
        have hFn : F name := hF name (Or.inl (by simp [Entry.fileNames]))
        simp only [Entry.bothTop, Entry.name] at hf ⊢
        cases hfind : findAt es2 b2 name with
        | none =>
          rw [hfind] at hf
          simp only [fileEv_files, List.mem_singleton] at hf
          subst hf
          exact ⟨c2, hFn⟩
        | some x =>
          obtain ⟨e2, a2⟩ := x
          rw [hfind] at hf
          simp only [Ev.files, List.mem_cons, List.mem_singleton, List.not_mem_nil,
            or_false] at hf
          obtain ⟨i1, i2, -⟩ := findAt_rep hs es2 b2 p2 s2 name e2 a2 hr2 hfind
          rcases hf with hf | hf
          · subst hf
            exact ⟨c2, hFn⟩
          · subst hf
            exact ⟨(hcore.entry i1).1.trans i2, hFn⟩
      | dir name size ctime es' =>
        simp only [Entry.bothTop] at hf
        split at hf <;> simp [Ev.files] at hf
    · exact bothTops_files hs hA hcore F es es2 _ p b2 p2 d _ s1 s2 out hr.2 hr2
        (fun n hn => hF n (Or.inr hn)) t ht f hf

/-- The entries visited in a directory both trees have are in order. -/
theorem mergedTops_ok (hs hA : Heap) (hcore : Core hs hA) (F : String → Prop)
    (es es2 : List Entry) (b p b2 p2 d nx nx2 : Nat) (s1 s2 out : String)
    (hn : namesOKList es) (hn2 : namesOKList es2)
    (hr : RepList hs es b p s1) (hr2 : RepList hs es2 b2 p2 s2)
    (hF : ∀ n ∈ fileNamesList es, F n) (hF2 : ∀ n ∈ fileNamesList es2, F n) :
    TopsOK hA F (bothTops hA es es2 b2 b d nx s1 s2 out ++
      aloneTops hA es2 (es.map Entry.name) b2 d nx2 s2 out) := by
  refine ⟨?_, ?_⟩
  · rw [List.map_append, bothTops_names, aloneTops_names, List.nodup_append]
    refine ⟨namesOKList_nodup es hn, (namesOKList_nodup es2 hn2).filter _, ?_⟩
    intro n h1 h2
    have := (List.mem_filter.mp h2).2
    simp only [decide_eq_true_eq] at this
    exact this h1
  · intro t ht f hf
    rcases List.mem_append.mp ht with ht | ht
    · exact bothTops_files hs hA hcore F es es2 b p b2 p2 d nx s1 s2 out hr hr2 hF t ht f hf
    · exact aloneTops_files hs hA hcore F es2 _ b2 p2 d nx2 s2 out hr2 hF2 t ht f hf

mutual
/-- The directories made below an entry one tree has are in order, and every file event below
the entry is visited in one of them or is the entry itself. -/
theorem Entry.aloneRooms_ok (hs hA : Heap) (hcore : Core hs hA) (F : String → Prop) :
    ∀ (e : Entry) (b p d nx : Nat) (src out : String),
    e.namesOK → e.Rep hs b p src → (∀ n ∈ e.fileNames, F n) →
    (∀ r ∈ e.aloneRooms hA b nx src out, TopsOK hA F r.2) ∧
    (∀ ev ∈ e.aloneEvs hA b d nx src out, ∀ d', ev.dest = some d' →
      (d' = d ∧ ev = e.aloneTop hA b d nx src out) ∨
      ∃ tops, (d', tops) ∈ e.aloneRooms hA b nx src out ∧ ∃ n, (n, ev) ∈ tops)
  | .file name regular size ctime digest, b, p, d, nx, src, out => by
    intro _ _ _
    refine ⟨fun r hr' => by simp [Entry.aloneRooms] at hr', ?_⟩
    intro ev hev d' hd
    simp only [Entry.aloneEvs, List.mem_singleton] at hev
    subst hev
    rw [fileEv_dest] at hd
    simp only [Option.some.injEq] at hd
    exact Or.inl ⟨hd.symm, rfl⟩
  | .dir name size ctime es, b, p, d, nx, src, out => by
    intro hn hr hF
    simp only [Entry.namesOK] at hn
    simp only [Entry.fileNames] at hF
    have hrl : RepList hs es (b + 1) b (src ++ "/" ++ name) := by
      simp only [Entry.Rep] at hr
      exact hr.2
    obtain ⟨ih1, ih2⟩ := aloneRoomsList_ok hs hA hcore F es [] (b + 1) b nx (nx + 1)
      (src ++ "/" ++ name) (out ++ "/" ++ name) hn hrl hF
    refine ⟨?_, ?_⟩
    · intro r hr'
      simp only [Entry.aloneRooms, List.mem_cons] at hr'
      rcases hr' with hr' | hr'
      · rw [hr']
        exact aloneTops_ok hs hA hcore F es [] (b + 1) b nx (nx + 1) _ _ hn hrl hF
      · exact ih1 r hr'
    · intro ev hev d' hd
      simp only [Entry.aloneEvs, List.mem_cons] at hev
      rcases hev with hev | hev
      · subst hev
        simp [Ev.dest] at hd
      · right
        simp only [Entry.aloneRooms]
        rcases ih2 ev hev d' hd with ⟨h1, n, h2⟩ | ⟨tops, h1, h2⟩
        · exact ⟨_, by rw [h1]; exact List.mem_cons_self _ _, n, h2⟩
        · exact ⟨tops, List.mem_cons_of_mem _ h1, h2⟩
/-- The directories made below a listing one tree has are in order, and every file event of
the listing is visited at its level or in one of them. -/
theorem aloneRoomsList_ok (hs hA : Heap) (hcore : Core hs hA) (F : String → Prop) :
    ∀ (es : List Entry) (skip : List String) (b p d nx : Nat) (src out : String),
    namesOKList es → RepList hs es b p src → (∀ n ∈ fileNamesList es, F n) →
    (∀ r ∈ aloneRoomsList hA es skip b nx src out, TopsOK hA F r.2) ∧
    (∀ ev ∈ aloneEvsList hA es skip b d nx src out, ∀ d', ev.dest = some d' →
      (d' = d ∧ ∃ n, (n, ev) ∈ aloneTops hA es skip b d nx src out) ∨
      ∃ tops, (d', tops) ∈ aloneRoomsList hA es skip b nx src out ∧ ∃ n, (n, ev) ∈ tops)
  | [], skip, b, p, d, nx, src, out => by
    intro _ _ _
    exact ⟨fun r hr' => by simp [aloneRoomsList] at hr',
      fun ev hev => by simp [aloneEvsList] at hev⟩
  | e :: es, skip, b, p, d, nx, src, out => by
    intro hn hr hF
    simp only [namesOKList] at hn
    simp only [RepList] at hr
    simp only [fileNamesList, List.mem_append] at hF
    simp only [aloneRoomsList, aloneEvsList, aloneTops]
    by_cases hsk : e.name ∈ skip
    · simp only [hsk, if_true]
      exact aloneRoomsList_ok hs hA hcore F es skip _ p d nx src out hn.2.2 hr.2
        (fun n h => hF n (Or.inr h))
    · simp only [hsk, if_false]
      obtain ⟨a1, a2⟩ := Entry.aloneRooms_ok hs hA hcore F e b p d nx src out hn.2.1 hr.1
        (fun n h => hF n (Or.inl h))
      obtain ⟨b1, b2⟩ := aloneRoomsList_ok hs hA hcore F es skip (b + e.span) p d
        (nx + e.numDirs) src out hn.2.2 hr.2 (fun n h => hF n (Or.inr h))
      refine ⟨?_, ?_⟩
      · intro r hr'
        rcases List.mem_append.mp hr' with h | h
        · exact a1 r h
        · exact b1 r h
      · intro ev hev d' hd
        rcases List.mem_append.mp hev with h | h
        · rcases a2 ev h d' hd with ⟨h1, h2⟩ | ⟨tops, h1, h2⟩
          · exact Or.inl ⟨h1, e.name, by rw [h2]; exact List.mem_cons_self _ _⟩
          · exact Or.inr ⟨tops, List.mem_append_left _ h1, h2⟩
        · rcases b2 ev h d' hd with ⟨h1, n, h2⟩ | ⟨tops, h1, h2⟩
          · exact Or.inl ⟨h1, n, List.mem_cons_of_mem _ h2⟩
          · exact Or.inr ⟨tops, List.mem_append_right _ h1, h2⟩
end

mutual
/-- The directories made below an entry of tree 1 are in order, and every file event below the
entry is visited in one of them or is the entry itself. -/
theorem Entry.bothRooms_ok (hs hA : Heap) (hcore : Core hs hA) (F : String → Prop) :
    ∀ (e : Entry) (es2 : List Entry) (b p b2 p2 d nx : Nat) (s1 s2 out : String),
    e.namesOK → namesOKList es2 → e.Rep hs b p s1 → RepList hs es2 b2 p2 s2 →
    (∀ n ∈ e.fileNames, F n) → (∀ n ∈ fileNamesList es2, F n) →
    (∀ r ∈ e.bothRooms hA es2 b2 b nx s1 s2 out, TopsOK hA F r.2) ∧
    (∀ ev ∈ e.bothEvs hA es2 b2 b d nx s1 s2 out, ∀ d', ev.dest = some d' →
      (d' = d ∧ ev = e.bothTop hA es2 b2 b d nx s1 s2 out) ∨
      ∃ tops, (d', tops) ∈ e.bothRooms hA es2 b2 b nx s1 s2 out ∧ ∃ n, (n, ev) ∈ tops)
  | .file name regular size ctime digest, es2, b, p, b2, p2, d, nx, s1, s2, out => by
    intro _ _ _ _ _ _
    refine ⟨fun r hr' => by simp [Entry.bothRooms] at hr', ?_⟩
    intro ev hev d' hd
    simp only [Entry.bothEvs, Entry.bothTop] at hev ⊢
    cases hfind : findAt es2 b2 name with
    | none =>
      rw [hfind] at hev
      simp only [List.mem_singleton] at hev
      subst hev
      rw [fileEv_dest] at hd
      simp only [Option.some.injEq] at hd
      exact Or.inl ⟨hd.symm, rfl⟩
    | some x =>
      obtain ⟨e2, a2⟩ := x
      rw [hfind] at hev
      simp only [List.mem_singleton] at hev
      subst hev
      simp only [Ev.dest, Option.some.injEq] at hd
      exact Or.inl ⟨hd.symm, rfl⟩
  | .dir name size ctime es, es2, b, p, b2, p2, d, nx, s1, s2, out => by
    intro hn hn2 hr hr2 hF hF2
    simp only [Entry.namesOK] at hn
    simp only [Entry.fileNames] at hF
    have hrl : RepList hs es (b + 1) b (s1 ++ "/" ++ name) := by
      simp only [Entry.Rep] at hr
      exact hr.2
    simp only [Entry.bothRooms, Entry.bothEvs]
    cases hfind : findAt es2 b2 name with
    | none =>
      simp only
      obtain ⟨ih1, ih2⟩ := aloneRoomsList_ok hs hA hcore F es [] (b + 1) b nx (nx + 1)
        (s1 ++ "/" ++ name) (out ++ "/" ++ name) hn hrl hF
      refine ⟨?_, ?_⟩
      · intro r hr'
        simp only [List.mem_cons] at hr'
        rcases hr' with hr' | hr'
        · rw [hr']
          exact aloneTops_ok hs hA hcore F es [] (b + 1) b nx (nx + 1) _ _ hn hrl hF
        · exact ih1 r hr'
      · intro ev hev d' hd
        simp only [List.mem_cons] at hev
        rcases hev with hev | hev
        · subst hev
          simp [Ev.dest] at hd
        · right
          rcases ih2 ev hev d' hd with ⟨h1, n, h2⟩ | ⟨tops, h1, h2⟩
          · exact ⟨_, by rw [h1]; exact List.mem_cons_self _ _, n, h2⟩
          · exact ⟨tops, List.mem_cons_of_mem _ h1, h2⟩
    | some x =>
      obtain ⟨e2, a2⟩ := x
      obtain ⟨i1, i2, i3, -⟩ := findAt_rep hs es2 b2 p2 s2 name e2 a2 hr2 hfind
      have hne2 : e2.namesOK := namesOK_of_mem hn2 i3
      have hFe2 : ∀ n ∈ e2.fileNames, F n := fun n h => hF2 n (fileNames_mem i3 n h)
      cases e2 with
      | dir name2 size2 ctime2 es' =>
        simp only
        simp only [Entry.namesOK] at hne2
        simp only [Entry.fileNames] at hFe2
        have hname2 : name2 = name := i2
        subst hname2
        have hrl2 : RepList hs es' (a2 + 1) a2 (s2 ++ "/" ++ name2) := by
          simp only [Entry.Rep] at i1
          exact i1.2
        obtain ⟨a1, a2'⟩ := bothRoomsList_ok hs hA hcore F es es' (b + 1) b (a2 + 1) a2 b nx
          (s1 ++ "/" ++ name2) (s2 ++ "/" ++ name2) (out ++ "/" ++ name2) hn hne2 hrl hrl2
          hF hFe2
        obtain ⟨b1, b2'⟩ := aloneRoomsList_ok hs hA hcore F es' (es.map Entry.name) (a2 + 1)
          a2 b (nx + bothNewList es es') (s2 ++ "/" ++ name2) (out ++ "/" ++ name2) hne2 hrl2
          hFe2
        refine ⟨?_, ?_⟩
        · intro r hr'
          simp only [List.mem_cons, List.mem_append] at hr'
          rcases hr' with hr' | hr' | hr'
          · rw [hr']
            exact mergedTops_ok hs hA hcore F es es' (b + 1) b (a2 + 1) a2 b nx _ _ _ _ hn
              hne2 hrl hrl2 hF hFe2
          · exact a1 r hr'
          · exact b1 r hr'
        · intro ev hev d' hd
          simp only [List.mem_cons, List.mem_append] at hev
          rcases hev with hev | hev | hev
          · subst hev
            simp [Ev.dest] at hd
          · right
            rcases a2' ev hev d' hd with ⟨h1, n, h2⟩ | ⟨tops, h1, h2⟩
            · exact ⟨_, by rw [h1]; exact List.mem_cons_self _ _, n,
                List.mem_append_left _ h2⟩
            · exact ⟨tops, List.mem_cons_of_mem _ (List.mem_append_left _ h1), h2⟩
          · right
            rcases b2' ev hev d' hd with ⟨h1, n, h2⟩ | ⟨tops, h1, h2⟩
            · exact ⟨_, by rw [h1]; exact List.mem_cons_self _ _, n,
                List.mem_append_right _ h2⟩
            · exact ⟨tops, List.mem_cons_of_mem _ (List.mem_append_right _ h1), h2⟩
      | file name2 regular2 size2 ctime2 digest2 =>
        simp only
        obtain ⟨a1, a2'⟩ := bothRoomsList_ok hs hA hcore F es [] (b + 1) b (a2 + 1) a2 b nx
          (s1 ++ "/" ++ name) (s2 ++ "/" ++ name) (out ++ "/" ++ name) hn trivial hrl trivial
          hF (fun n h => by simp [fileNamesList] at h)
        refine ⟨?_, ?_⟩
        · intro r hr'
          simp only [List.mem_cons] at hr'
          rcases hr' with hr' | hr'
          · rw [hr']
            have := mergedTops_ok hs hA hcore F es [] (b + 1) b (a2 + 1) a2 b nx nx
              (s1 ++ "/" ++ name) (s2 ++ "/" ++ name) (out ++ "/" ++ name) hn trivial hrl
              trivial hF (fun n h => by simp [fileNamesList] at h)
            simpa [aloneTops] using this
          · exact a1 r hr'
        · intro ev hev d' hd
          simp only [List.mem_cons] at hev
          rcases hev with hev | hev
          · subst hev
            simp [Ev.dest] at hd
          · right
            rcases a2' ev hev d' hd with ⟨h1, n, h2⟩ | ⟨tops, h1, h2⟩
            · exact ⟨_, by rw [h1]; exact List.mem_cons_self _ _, n, h2⟩
            · exact ⟨tops, List.mem_cons_of_mem _ h1, h2⟩
/-- The directories made below a listing of tree 1 are in order, and every file event of the
listing is visited at its level or in one of them. -/
theorem bothRoomsList_ok (hs hA : Heap) (hcore : Core hs hA) (F : String → Prop) :
    ∀ (es es2 : List Entry) (b p b2 p2 d nx : Nat) (s1 s2 out : String),
    namesOKList es → namesOKList es2 → RepList hs es b p s1 → RepList hs es2 b2 p2 s2 →
    (∀ n ∈ fileNamesList es, F n) → (∀ n ∈ fileNamesList es2, F n) →
    (∀ r ∈ bothRoomsList hA es es2 b2 b nx s1 s2 out, TopsOK hA F r.2) ∧
    (∀ ev ∈ bothEvsList hA es es2 b2 b d nx s1 s2 out, ∀ d', ev.dest = some d' →
      (d' = d ∧ ∃ n, (n, ev) ∈ bothTops hA es es2 b2 b d nx s1 s2 out) ∨
      ∃ tops, (d', tops) ∈ bothRoomsList hA es es2 b2 b nx s1 s2 out ∧ ∃ n, (n, ev) ∈ tops)
  | [], es2, b, p, b2, p2, d, nx, s1, s2, out => by
    intro _ _ _ _ _ _
    exact ⟨fun r hr' => by simp [bothRoomsList] at hr',
      fun ev hev => by simp [bothEvsList] at hev⟩
  | e :: es, es2, b, p, b2, p2, d, nx, s1, s2, out => by
    intro hn hn2 hr hr2 hF hF2
    simp only [namesOKList] at hn
    simp only [RepList] at hr
    simp only [fileNamesList, List.mem_append] at hF
    simp only [bothRoomsList, bothEvsList, bothTops]
    obtain ⟨a1, a2⟩ := Entry.bothRooms_ok hs hA hcore F e es2 b p b2 p2 d nx s1 s2 out hn.2.1
      hn2 hr.1 hr2 (fun n h => hF n (Or.inl h)) hF2
    obtain ⟨b1, b2'⟩ := bothRoomsList_ok hs hA hcore F es es2 (b + e.span) p b2 p2 d
      (nx + e.bothNew es2) s1 s2 out hn.2.2 hn2 hr.2 hr2 (fun n h => hF n (Or.inr h)) hF2
    refine ⟨?_, ?_⟩
    · intro r hr'
      rcases List.mem_append.mp hr' with h | h
      · exact a1 r h
      · exact b1 r h
    · intro ev hev d' hd
      rcases List.mem_append.mp hev with h | h
      · rcases a2 ev h d' hd with ⟨h1, h2⟩ | ⟨tops, h1, h2⟩
        · exact Or.inl ⟨h1, e.name, by rw [h2]; exact List.mem_cons_self _ _⟩
        · exact Or.inr ⟨tops, List.mem_append_left _ h1, h2⟩
      · rcases b2' ev h d' hd with ⟨h1, n, h2⟩ | ⟨tops, h1, h2⟩
        · exact Or.inl ⟨h1, n, List.mem_cons_of_mem _ h2⟩
        · exact Or.inr ⟨tops, List.mem_append_right _ h1, h2⟩
end

theorem fst_unique {α β : Type} : ∀ {l : List (α × β)} {a : α} {x y : β},
    (l.map Prod.fst).Nodup → (a, x) ∈ l → (a, y) ∈ l → x = y
  | [], _, _, _ => by
    intro _ h
    cases h
  | p :: l, a, x, y => by
    intro hnd h1 h2
    simp only [List.map_cons, List.nodup_cons] at hnd
    rcases List.mem_cons.mp h1 with e1 | e1 <;> rcases List.mem_cons.mp h2 with e2 | e2
    · rw [← e2] at e1
      exact (Prod.mk.inj e1).2
    · have h3 : a ∈ l.map Prod.fst := List.mem_map_of_mem Prod.fst e2
      rw [← e1] at hnd
      exact absurd h3 hnd.1
    · have h3 : a ∈ l.map Prod.fst := List.mem_map_of_mem Prod.fst e1
      rw [← e2] at hnd
      exact absurd h3 hnd.1
    · exact fst_unique hnd.2 e1 e2

/-- What a directory of the result holds under the name of an entry visited in it. -/
theorem lookup_kidsOf : ∀ {tops : List (String × Ev)} {n : String} {ev : Ev},
    (tops.map Prod.fst).Nodup → (n, ev) ∈ tops → (kidsOf tops).lookup n = ev.kid
  | [], _, _ => by
    intro _ h
    cases h
  | t :: tops, n, ev => by
    intro hnd h
    simp only [List.map_cons, List.nodup_cons] at hnd
    have hsplit : kidsOf (t :: tops) = kidsOf [t] ++ kidsOf tops := by
      rw [← kidsOf_append]
      rfl
    rw [hsplit, lookup_append]
    rcases List.mem_cons.mp h with e | e
    · subst e
      have hrest : (kidsOf tops).lookup n = none := lookup_kidsOf_none hnd.1
      cases hk : ev.kid with
      | none =>
        have hhead : kidsOf [(n, ev)] = [] := by simp [kidsOf, hk]
        rw [hhead, hrest]
        rfl
      | some v =>
        have hhead : kidsOf [(n, ev)] = [(n, v)] := by simp [kidsOf, hk]
        rw [hhead]
        simp [List.lookup]
    · have hne : n ≠ t.1 := fun c => hnd.1 (c ▸ List.mem_map_of_mem Prod.fst e)
      have hhead : (kidsOf [t]).lookup n = none := by
        refine lookup_kidsOf_none ?_
        simpa using hne
      rw [hhead]
      exact lookup_kidsOf hnd.2 e

/-- The directories of the result after Phase B are in order, and every file event is visited
in the directory it is destined for. -/
theorem planRooms_ok (path1 path2 pathout : String) (in1 in2 : List Entry)
    (hok1 : namesOKList in1) (hok2 : namesOKList in2) (hA : Heap)
    (hpA : scanPhaseA path1 path2 in1 in2 = some hA) :
    (∀ r ∈ planRooms hA path1 path2 pathout in1 in2,
      TopsOK hA (fun n => n ∈ fileNamesList in1 ++ fileNamesList in2) r.2) ∧
    (∀ ev ∈ planEvs hA path1 path2 pathout in1 in2, ∀ d, ev.dest = some d →
      ∃ tops, (d, tops) ∈ planRooms hA path1 path2 pathout in1 in2 ∧ ∃ n, (n, ev) ∈ tops) ∧
    ((planRooms hA path1 path2 pathout in1 in2).map Prod.fst).Nodup := by
  obtain ⟨-, -, -, -, -, -, p7, p8⟩ := scanBoth_pair path1 path2 in1 in2 hok1 hok2
  simp only [scanPhaseA] at hpA
  rcases hs : scanBoth path1 path2 in1 in2 with ⟨sc, r1, r2⟩
  rw [hs] at hpA p7 p8
  simp only at hpA p7 p8
  have hcore : Core sc.heap hA := phaseA_core _ _ _ _ _ hpA
  have hF1 : ∀ n ∈ fileNamesList in1, n ∈ fileNamesList in1 ++ fileNamesList in2 :=
    fun n h => List.mem_append_left _ h
  have hF2 : ∀ n ∈ fileNamesList in2, n ∈ fileNamesList in1 ++ fileNamesList in2 :=
    fun n h => List.mem_append_right _ h
  refine ⟨?_, ?_, (planRooms_sub hA path1 path2 pathout in1 in2).nodup
    (planEvs_nodup hA path1 path2 pathout in1 in2 hok1 hok2)⟩
  · simp only [planRooms]
    generalize (1 + spanList in1) + (1 + spanList in2) = n0
    obtain ⟨a1, -⟩ := bothRoomsList_ok sc.heap hA hcore _ in1 in2 1 0 (1 + (1 + spanList in1))
      (1 + spanList in1) n0 (n0 + 1) path1 path2 pathout hok1 hok2 p7 p8 hF1 hF2
    obtain ⟨b1, -⟩ := aloneRoomsList_ok sc.heap hA hcore _ in2 (in1.map Entry.name)
      (1 + (1 + spanList in1)) (1 + spanList in1) n0 (n0 + 1 + bothNewList in1 in2) path2
      pathout hok2 p8 hF2
    intro r hr'
    simp only [List.mem_cons, List.mem_append] at hr'
    rcases hr' with hr' | hr' | hr'
    · rw [hr']
      exact mergedTops_ok sc.heap hA hcore _ in1 in2 1 0 _ (1 + spanList in1) n0 _ _ _ _ _
        hok1 hok2 p7 p8 hF1 hF2
    · exact a1 r hr'
    · exact b1 r hr'
  · simp only [planRooms, planEvs]
    generalize (1 + spanList in1) + (1 + spanList in2) = n0
    obtain ⟨-, a2⟩ := bothRoomsList_ok sc.heap hA hcore
      (fun n => n ∈ fileNamesList in1 ++ fileNamesList in2) in1 in2 1 0
      (1 + (1 + spanList in1)) (1 + spanList in1) n0 (n0 + 1) path1 path2 pathout hok1 hok2
      p7 p8 hF1 hF2
    obtain ⟨-, b2⟩ := aloneRoomsList_ok sc.heap hA hcore
      (fun n => n ∈ fileNamesList in1 ++ fileNamesList in2) in2 (in1.map Entry.name)
      (1 + (1 + spanList in1)) (1 + spanList in1) n0 (n0 + 1 + bothNewList in1 in2) path2
      pathout hok2 p8 hF2
    intro ev hev d hd
    simp only [List.mem_cons, List.mem_append] at hev
    rcases hev with hev | hev | hev
    · subst hev
      simp [Ev.dest] at hd
    · rcases a2 ev hev d hd with ⟨h1, n, h2⟩ | ⟨tops, h1, h2⟩
      · exact ⟨_, by rw [h1]; exact List.mem_cons_self _ _, n, List.mem_append_left _ h2⟩
      · exact ⟨tops, List.mem_cons_of_mem _ (List.mem_append_left _ h1), h2⟩
    · rcases b2 ev hev d hd with ⟨h1, n, h2⟩ | ⟨tops, h1, h2⟩
      · exact ⟨_, by rw [h1]; exact List.mem_cons_self _ _, n, List.mem_append_right _ h2⟩
      · exact ⟨tops, List.mem_cons_of_mem _ (List.mem_append_right _ h1), h2⟩

/-- The directories of the result after Phase B: a directory holds a file copied into it under
the name of the file, holds nothing under the name of a file left to Phase C, and no two file
events destine files of one name for one directory. -/
theorem planAB_rooms (fuel : Nat) (path1 path2 pathout : String) (in1 in2 : List Entry)
    (hok1 : namesOKList in1) (hok2 : namesOKList in2)
    (hf1 : depthList in1 < fuel) (hf2 : depthList in2 < fuel) (hA : Heap)
    (hpA : scanPhaseA path1 path2 in1 in2 = some hA)
    (hok : ∀ ev ∈ planEvs hA path1 path2 pathout in1 in2, ev.OK hA) (stB : Planner)
    (hAB : planAB fuel (scanBoth path1 path2 in1 in2).1.heap
        (scanBoth path1 path2 in1 in2).1.next 0 (1 + spanList in1) pathout
        (scanBoth path1 path2 in1 in2).1.fileStore =
        some { state := stB, root := (1 + spanList in1) + (1 + spanList in2) }) :
    (∀ ev ∈ planEvs hA path1 path2 pathout in1 in2, ∀ d, ev.dest = some d →
      ∀ f ∈ ev.files, (stB.heap d).children.lookup (hA f).name = ev.kid) ∧
    (∀ ev ∈ planEvs hA path1 path2 pathout in1 in2,
      ∀ ev' ∈ planEvs hA path1 path2 pathout in1 in2, ∀ d, ev.dest = some d →
      ev'.dest = some d → ∀ f ∈ ev.files, ∀ f' ∈ ev'.files, (hA f).name = (hA f').name →
      ev = ev') ∧
    (∀ ev ∈ planEvs hA path1 path2 pathout in1 in2, ∀ f ∈ ev.files,
      (hA f).name ∈ fileNamesList in1 ++ fileNamesList in2) := by
  obtain ⟨stB', hAB', -, hrooms⟩ :=
    planAB_simK fuel path1 path2 pathout in1 in2 hok1 hok2 hf1 hf2 hA hpA hok
  rw [hAB] at hAB'
  simp only [Option.some.injEq, FsTree.mk.injEq, and_true] at hAB'
  subst hAB'
  obtain ⟨g1, g2, g3⟩ := planRooms_ok path1 path2 pathout in1 in2 hok1 hok2 hA hpA
  refine ⟨?_, ?_, ?_⟩
  · intro ev hev d hd f hf
    obtain ⟨tops, ht, n, hn⟩ := g2 ev hev d hd
    obtain ⟨t1, t2⟩ := g1 _ ht
    have hname := (t2 _ hn f hf).1
    simp only at hname
    rw [hrooms _ ht, hname]
    exact lookup_kidsOf t1 hn
  · intro ev hev ev' hev' d hd hd' f hf f' hf' hnm
    obtain ⟨tops, ht, n, hn⟩ := g2 ev hev d hd
    obtain ⟨tops', ht', n', hn'⟩ := g2 ev' hev' d hd'
    have htt : tops = tops' := fst_unique g3 ht ht'
    subst htt
    obtain ⟨t1, t2⟩ := g1 _ ht
    have h1 := (t2 _ hn f hf).1
    have h2 := (t2 _ hn' f' hf').1
    simp only at h1 h2
    have hnn : n = n' := by rw [← h1, ← h2, hnm]
    subst hnn
    exact fst_unique (l := tops.map (fun t => (t.1, t.2))) (by simpa using t1)
      (by simpa using hn) (by simpa using hn')
  · intro ev hev f hf
    cases hd : ev.dest with
    | none => cases ev <;> simp [Ev.dest, Ev.files] at hd hf
    | some d =>
      obtain ⟨tops, ht, n, hn⟩ := g2 ev hev d hd
      obtain ⟨t1, t2⟩ := g1 _ ht
      obtain ⟨h1, h2⟩ := t2 _ hn f hf
      simp only at h1 h2
      rw [h1]
      exact h2

/-! ## The children of the directories of the result: what Phase C looks up -/

theorem lookup_mapErase (l : List (String × Nat)) (k k' : String) :
    (mapErase l k').lookup k = if k = k' then none else l.lookup k := by
  induction l with
  | nil => simp [mapErase]
  | cons x xs ih =>
    obtain ⟨k1, v1⟩ := x
    simp only [mapErase] at ih ⊢
    by_cases e1 : k1 = k'
    · subst e1
      have hf : List.filter (fun e => decide (e.1 ≠ k1)) ((k1, v1) :: xs) =
          List.filter (fun e => decide (e.1 ≠ k1)) xs := by
        simp [List.filter_cons]
      rw [hf, ih]
      by_cases e2 : k = k1
      · simp [e2]
      · have : (k == k1) = false := by simpa using e2
        simp [e2, List.lookup, this]
    · have hf : List.filter (fun e => decide (e.1 ≠ k')) ((k1, v1) :: xs) =
          (k1, v1) :: List.filter (fun e => decide (e.1 ≠ k')) xs := by
        simp [List.filter_cons, e1]
      rw [hf]
      simp only [List.lookup]
      by_cases e2 : k = k1
      · subst e2
        simp [e1]
      · have : (k == k1) = false := by simpa using e2
        rw [this]
        exact ih

/-- One turn of the loop of `makeFileHist`: the names stay, the member goes to the history
directory, and its former directory loses the entry under its name. -/
theorem histBody_look (hist m : Nat) (st st1 : Planner) (h : histBody hist m st = some st1) :
    (∀ x, (st1.heap x).name = (st.heap x).name) ∧
    (∀ x, (st1.heap x).dstParent = if x = m then some hist else (st.heap x).dstParent) ∧
    (∀ a, a ≠ hist → ∀ k, (st1.heap a).children.lookup k =
      if (st.heap m).dstParent = some a ∧ k = (st.heap m).name then none
      else (st.heap a).children.lookup k) := by
  cases hd : (st.heap m).dstParent with
  | none => simp [histBody, hd] at h
  | some d =>
    obtain ⟨st1', hb, -, hsc, -, -, -, hdp⟩ := histBody_spec hist m d st hd
    rw [h] at hb
    simp only [Option.some.injEq] at hb
    subst hb
    refine ⟨fun x => (hsc.fields x).2.2.2.2.1, hdp, ?_⟩
    intro a ha k
    simp only [histBody, hd, pushStep_cp, Option.some.injEq] at h
    rw [← h]
    simp only [Heap.get_modify, ha, if_false, setDstParent_children]
    by_cases e : a = d
    · subst e
      simp only [if_true, lookup_mapErase, Option.some.injEq, true_and]
    · have e' : ¬ d = a := fun c => e c.symm
      simp only [e, if_false, Option.some.injEq, e', false_and]

/-- The loop of `makeFileHist` adds no entry to a directory other than the history directory,
and keeps an entry unless a member of the queue destined for the directory has its name. -/
theorem histLoop_look (hist : Nat) : ∀ (n : Nat) (pq : List Nat) (st st' : Planner),
    histLoop hist n pq st = some st' → ∀ a, a ≠ hist → ∀ k,
    ((st.heap a).children.lookup k = none → (st'.heap a).children.lookup k = none) ∧
    (∀ v, (st.heap a).children.lookup k = some v →
      (∀ m ∈ pq, ¬ ((st.heap m).dstParent = some a ∧ (st.heap m).name = k)) →
      (st'.heap a).children.lookup k = some v)
  | 0, pq, st, st' => by
    intro h a _ k
    simp only [histLoop, Option.some.injEq] at h
    subst h
    exact ⟨id, fun v hv _ => hv⟩
  | n + 1, pq, st, st' => by
    intro h a ha k
    simp only [histLoop] at h
    cases ht : pqTop st.heap pq with
    | none =>
      simp only [ht] at h
      split at h
      · simp only [Option.some.injEq] at h
        subst h
        exact ⟨id, fun v hv _ => hv⟩
      · cases h
    | some m =>
      simp only [ht] at h
      cases hb : histBody hist m st with
      | none => simp [hb] at h
      | some st1 =>
        simp only [hb] at h
        obtain ⟨b1, b2, b3⟩ := histBody_look hist m st st1 hb
        obtain ⟨i1, i2⟩ := histLoop_look hist n _ st1 st' h a ha k
        have hm := pqTop_mem st.heap pq m ht
        refine ⟨fun h0 => i1 ?_, fun v hv hno => i2 v ?_ ?_⟩
        · rw [b3 a ha k, h0]
          simp
        · rw [b3 a ha k, hv]
          have := hno m hm
          simp only [not_and] at this
          have hc : ¬ ((st.heap m).dstParent = some a ∧ k = (st.heap m).name) :=
            fun c => this c.1 c.2.symm
          simp only [hc, if_false]
        · intro x hx
          rw [b1 x, b2 x]
          by_cases e : x = m
          · simp only [e, if_true, Option.some.injEq]
            exact fun c => ha c.1.symm
          · simp only [e, if_false]
            exact hno x (List.mem_of_mem_erase hx)

/-- What `makeFileHist` does to the entries of a directory other than the history directory:
it keeps an entry unless a loser destined for the directory has its name, adds entries only
under the names of the history directory and of the winner in the winner's directory, and
registers the winner when its name is free and is not the name of the history directory. -/
theorem makeFileHist_look (fuel : Nat) (st st' : Planner) (src : Nat) (pq : List Nat)
    (w d : Nat) (losers : List Nat)
    (htrav : traverseSubs st.heap fuel src [] = some pq)
    (hdrain : drain st.heap pq.length pq = some (w :: losers))
    (hnd : pq.Nodup)
    (hlt : ∀ m ∈ pq, m ≠ st.next)
    (hdst : ∀ m ∈ pq, ∃ dm, (st.heap m).dstParent = some dm ∧ dm ≠ st.next)
    (hwd : (st.heap w).dstParent = some d)
    (hcmp : ∀ v, ∀ a ∈ pq, ∀ b ∈ pq, a ≠ b →
      comparRecent (st.heap.set st.next v) (st.heap a) (st.heap b) =
        comparRecent st.heap (st.heap a) (st.heap b))
    (h : makeFileHist fuel (some src) st = some st') :
    (∀ a, a ≠ st.next → ∀ k v, (st.heap a).children.lookup k = some v →
      (∀ m ∈ losers, ¬ ((st.heap m).dstParent = some a ∧ (st.heap m).name = k)) →
      (st'.heap a).children.lookup k = some v) ∧
    (∀ a, a ≠ st.next → ∀ k, (st.heap a).children.lookup k = none →
      ¬ (a = d ∧ (k = "." ++ (st.heap w).name ++ "_hist" ∨ k = (st.heap w).name)) →
      (st'.heap a).children.lookup k = none) ∧
    ((st.heap d).children.lookup (st.heap w).name = none →
      (st.heap w).name ≠ "." ++ (st.heap w).name ++ "_hist" →
      (st'.heap d).children.lookup (st.heap w).name = some w) := by
  obtain ⟨htop, hw, hdr⟩ := drain_cons st.heap pq w losers hdrain
  have hwn : w ≠ st.next := hlt w hw
  have hdn : d ≠ st.next := by
    obtain ⟨dm, h1, h2⟩ := hdst w hw
    rw [hwd] at h1
    simp only [Option.some.injEq] at h1
    rw [h1]
    exact h2
  have hperm : losers.Perm (pq.erase w) := drain_perm st.heap _ _ _ rfl hdr
  generalize hh1 : st.heap.set st.next
    (FsNode.create st.heap ("." ++ (st.heap w).name ++ "_hist") (some d) "dir") = h1 at h
  have hh1a : ∀ a, a ≠ st.next → h1 a = st.heap a := by
    intro a ha; rw [← hh1]; simp [ha]
  have hh1n : (h1 st.next).name = "." ++ (st.heap w).name ++ "_hist" := by
    rw [← hh1]; simp [create_name]
  generalize hh3 : h1.modify d
    (fun p => { p with children := mapInsert p.children (h1 st.next).name st.next }) = h3 at h
  have hsc3 : SameCore h1 h3 := by
    rw [← hh3]
    exact SameCore.modify_children h1 d (fun l => mapInsert l (h1 st.next).name st.next)
  have hdp3 : ∀ a, (h3 a).dstParent = (h1 a).dstParent := by
    intro a; rw [← hh3]; by_cases ha : a = d <;> simp [ha]
  have hch3 : ∀ a, a ≠ st.next → (h3 a).children =
      if a = d then mapInsert (st.heap d).children ("." ++ (st.heap w).name ++ "_hist") st.next
      else (st.heap a).children := by
    intro a ha
    rw [← hh3]
    by_cases e : a = d
    · subst e
      simp only [Heap.get_modify, if_true, hh1n, hh1a a ha]
    · simp only [Heap.get_modify, e, if_false, hh1a a ha]
  have hdr3 : drain h3 (pq.erase w).length (pq.erase w) = some losers := by
    rw [drain_sameCore hsc3, drain_congr_nodup st.heap h1 _ _ (hnd.erase w)]
    · exact hdr
    · intro a ha b hb hab
      have ha' := List.mem_of_mem_erase ha
      have hb' := List.mem_of_mem_erase hb
      rw [hh1a a (hlt a ha'), hh1a b (hlt b hb'), ← hh1]
      exact hcmp _ a ha' b hb' hab
  have hdst3 : ∀ m ∈ pq.erase w, ∃ dm, (h3 m).dstParent = some dm ∧ dm ≠ st.next := by
    intro m hm
    have hm' := List.mem_of_mem_erase hm
    rw [hdp3 m, hh1a m (hlt m hm')]
    exact hdst m hm'
  obtain ⟨st4, hl4, -, hsc4, -, -, -, hd4, -⟩ :=
    histLoop_spec st.next (pq.erase w).length (pq.erase w)
      { heap := h3, next := st.next + 1, plannedNode := st.plannedNode ++ [st.next],
        editSteps := st.editSteps ++ [mkdirStep h1 st.next], sups := st.sups }
      losers hdr3 rfl (hnd.erase w)
      (by
        intro m hm
        obtain ⟨dm, h1', -⟩ := hdst3 m hm
        simp only
        rw [h1']
        simp)
  have hlook := histLoop_look st.next (pq.erase w).length (pq.erase w)
    { heap := h3, next := st.next + 1, plannedNode := st.plannedNode ++ [st.next],
      editSteps := st.editSteps ++ [mkdirStep h1 st.next], sups := st.sups } st4 hl4
  simp only at hd4 hlook
  have hw4 : (st4.heap w).dstParent = some d := by
    rw [hd4 w hnd.not_mem_erase, hdp3 w, hh1a w hwn, hwd]
  have hn4 : (st4.heap w).name = (st.heap w).name := by
    rw [(hsc4.fields w).2.2.2.2.1]
    simp only
    rw [(hsc3.fields w).2.2.2.2.1, hh1a w hwn]
  have hm3 : ∀ m ∈ pq.erase w, (h3 m).dstParent = (st.heap m).dstParent ∧
      (h3 m).name = (st.heap m).name := by
    intro m hm
    have hm' := List.mem_of_mem_erase hm
    rw [hdp3 m, (hsc3.fields m).2.2.2.2.1, hh1a m (hlt m hm')]
    exact ⟨rfl, rfl⟩
  simp only [makeFileHist, htrav, htop, Planner.pushNode, hwd, pushStep_mkdir, hh1,
    hh1a w hwn, hh3, hl4, hw4, pushStep_cp, Option.some.injEq] at h
  have hfin : ∀ a, (st'.heap a).children =
      if a = d then mapInsert (st4.heap d).children (st.heap w).name w
      else (st4.heap a).children := by
    intro a
    rw [← h]
    have hc1 : ∀ (g : Heap) (x : Nat),
        ((g.modify w (fun n => { n with isSub := false })) x).children = (g x).children := by
      intro g x
      by_cases e : x = w <;> simp [e]
    simp only
    rw [hc1]
    by_cases e : a = d
    · subst e
      simp only [Heap.get_modify, if_true, hn4]
    · simp only [Heap.get_modify, e, if_false]
  refine ⟨?_, ?_, ?_⟩
  · intro a ha k v hv hno
    have h3v : (h3 a).children.lookup k = some v := by
      rw [hch3 a ha]
      by_cases e : a = d
      · simp only [e, if_true, lookup_mapInsert]
        rw [← e, hv]
        rfl
      · simp only [e, if_false]
        exact hv
    have h4v : (st4.heap a).children.lookup k = some v := by
      refine (hlook a ha k).2 v h3v (fun m hm => ?_)
      rw [(hm3 m hm).1, (hm3 m hm).2]
      exact hno m (hperm.symm.subset hm)
    rw [hfin a]
    by_cases e : a = d
    · simp only [e, if_true, lookup_mapInsert]
      rw [← e, h4v]
      rfl
    · simp only [e, if_false]
      exact h4v
  · intro a ha k hv hno
    have h3v : (h3 a).children.lookup k = none := by
      rw [hch3 a ha]
      by_cases e : a = d
      · have hk : k ≠ "." ++ (st.heap w).name ++ "_hist" := fun c => hno ⟨e, Or.inl c⟩
        simp only [e, if_true, lookup_mapInsert]
        rw [← e, hv]
        simp [hk]
      · simp only [e, if_false]
        exact hv
    have h4v : (st4.heap a).children.lookup k = none := (hlook a ha k).1 h3v
    rw [hfin a]
    by_cases e : a = d
    · have hk : k ≠ (st.heap w).name := fun c => hno ⟨e, Or.inr c⟩
      simp only [e, if_true, lookup_mapInsert]
      rw [← e, h4v]
      simp [hk]
    · simp only [e, if_false]
      exact h4v
  · intro hv hne
    have h3v : (h3 d).children.lookup (st.heap w).name = none := by
      rw [hch3 d hdn]
      simp only [if_true, lookup_mapInsert]
      rw [hv]
      simp [hne]
    have h4v : (st4.heap d).children.lookup (st.heap w).name = none :=
      (hlook d hdn _).1 h3v
    rw [hfin d]
    simp only [if_true, lookup_mapInsert]
    rw [h4v]
    simp

/-- The draining order of a queue depends on the heap through the change times, parents and
`isSub` of its members and the `num_files` of their parents only. -/
theorem drain_fields (h g : Heap) (pq : List Nat)
    (hm : ∀ m ∈ pq, (g m).date_changed = (h m).date_changed ∧ (g m).parent = (h m).parent ∧
      (g m).isSub = (h m).isSub)
    (hp : ∀ m ∈ pq, ∀ p, (h m).parent = some p → (g p).num_files = (h p).num_files) :
    drain g pq.length pq = drain h pq.length pq :=
  drain_congr h g _ pq (fun a ha b hb =>
    comparRecent_fields h g (h a) (g a) (h b) (g b) (hm a ha) (hm b hb) (hp a ha) (hp b hb))

/-- Effect of `makeFileHist` on the `children` of the directories, for a flat hierarchy. -/
theorem makeFileHist_hierK (fuel N t : Nat) (st st' : Planner) (hN : N ≤ st.next)
    (r : Ripe st.heap N t) (hmk : makeFileHist (fuel + 2) (some t) st = some st')
    (w d : Nat) (losers : List Nat)
    (hdr : drain st.heap (hierOf st.heap t).length (hierOf st.heap t) = some (w :: losers))
    (hwd : (st.heap w).dstParent = some d) :
    (∀ a, a ≠ st.next → ∀ k v, (st.heap a).children.lookup k = some v →
      (∀ m ∈ losers, ¬ ((st.heap m).dstParent = some a ∧ (st.heap m).name = k)) →
      (st'.heap a).children.lookup k = some v) ∧
    (∀ a, a ≠ st.next → ∀ k, (st.heap a).children.lookup k = none →
      ¬ (a = d ∧ (k = "." ++ (st.heap w).name ++ "_hist" ∨ k = (st.heap w).name)) →
      (st'.heap a).children.lookup k = none) ∧
    ((st.heap d).children.lookup (st.heap w).name = none →
      (st.heap w).name ≠ "." ++ (st.heap w).name ++ "_hist" →
      (st'.heap d).children.lookup (st.heap w).name = some w) ∧
    (st'.heap st.next).children =
      losers.foldl (fun c m => mapInsert c (st.heap m).name m) [] := by
  have htrav := traverseSubs_flat st.heap fuel t r.flat
  have hlt : ∀ m ∈ hierOf st.heap t, m ≠ st.next := fun m hm => by
    have := r.lt m hm
    omega
  have hdst : ∀ m ∈ hierOf st.heap t, ∃ dm, (st.heap m).dstParent = some dm ∧ dm ≠ st.next :=
    fun m hm => by
      obtain ⟨d', h1, h2⟩ := r.dst m hm
      exact ⟨d', h1, by omega⟩
  have hcmp : ∀ v, ∀ a ∈ hierOf st.heap t, ∀ b ∈ hierOf st.heap t, a ≠ b →
      comparRecent (st.heap.set st.next v) (st.heap a) (st.heap b) =
        comparRecent st.heap (st.heap a) (st.heap b) := by
    intro v a ha b hb _
    apply comparRecent_set
    · intro p hpa
      obtain ⟨p', h1, h2⟩ := r.par a ha
      rw [h1] at hpa
      simp only [Option.some.injEq] at hpa
      omega
    · intro p hpb
      obtain ⟨p', h1, h2⟩ := r.par b hb
      rw [h1] at hpb
      simp only [Option.some.injEq] at hpb
      omega
  obtain ⟨k1, k2, k3⟩ := makeFileHist_look (fuel + 2) st st' t (hierOf st.heap t) w d losers
    htrav hdr r.nodup hlt hdst hwd hcmp hmk
  exact ⟨k1, k2, k3, makeFileHist_children (fuel + 2) st st' t (hierOf st.heap t) w d losers
    htrav hdr r.nodup hlt hdst hwd hcmp hmk⟩

/-- The steps of a hierarchy, given the order in which it is drained. -/
theorem histSteps_eq {h : Heap} {hist : Nat} {pq : List Nat} {w d : Nat} {losers : List Nat}
    (hdr : drain h pq.length pq = some (w :: losers)) (hwd : (h w).dstParent = some d) :
    histSteps h hist pq =
      mkdirAt hist ((h d).path ++ "/" ++ ("." ++ (h w).name ++ "_hist")) ::
        (losers.map (fun m => cpAt m hist (h m).path
            ((h d).path ++ "/" ++ ("." ++ (h w).name ++ "_hist"))) ++
          [cpAt w d (h w).path (h d).path]) := by
  unfold histSteps
  rw [hdr]
  simp only [hwd]

/-- A step of a hierarchy goes to its history directory or to the destination of a member. -/
theorem histSteps_dst {h : Heap} {hist : Nat} {pq : List Nat} {s : EditStep}
    (hs : s ∈ histSteps h hist pq) :
    s.dst = hist ∨ ∃ m ∈ pq, (h m).dstParent = some s.dst := by
  unfold histSteps at hs
  cases hd : drain h pq.length pq with
  | none => simp [hd] at hs
  | some order =>
    cases order with
    | nil => simp [hd] at hs
    | cons w losers =>
      have hperm := drain_perm h _ pq _ rfl hd
      simp only [hd] at hs
      cases hw : (h w).dstParent with
      | none => simp [hw] at hs
      | some d =>
        simp only [hw, List.mem_cons, List.mem_append, List.mem_map, List.mem_singleton,
          List.not_mem_nil, or_false] at hs
        rcases hs with rfl | ⟨m, hm, rfl⟩ | rfl
        · exact Or.inl rfl
        · exact Or.inl rfl
        · exact Or.inr ⟨w, hperm.subset (by simp), hw⟩

theorem histStepsAll_dst {h : Heap} : ∀ {pqs : List (List Nat)} {nx : Nat} {s : EditStep},
    s ∈ histStepsAll h nx pqs →
    nx ≤ s.dst ∨ ∃ pq ∈ pqs, ∃ m ∈ pq, (h m).dstParent = some s.dst
  | [], nx, s => by
    intro hs
    simp [histStepsAll] at hs
  | pq :: rest, nx, s => by
    intro hs
    simp only [histStepsAll, List.mem_append] at hs
    rcases hs with hs | hs
    · rcases histSteps_dst hs with e | ⟨m, hm, e⟩
      · exact Or.inl (by omega)
      · exact Or.inr ⟨pq, by simp, m, hm, e⟩
    · rcases histStepsAll_dst hs with e | ⟨q, hq, m, hm, e⟩
      · exact Or.inl (by omega)
      · exact Or.inr ⟨q, by simp [hq], m, hm, e⟩

theorem sameTarget_mkdir (h : Heap) (e : EditStep) (a : Nat) (path : String) :
    sameTarget h e (mkdirAt a path) = false := by
  simp [sameTarget, mkdirAt]

theorem sameTarget_cp (h : Heap) (e : EditStep) (f d : Nat) (src out : String) :
    sameTarget h e (cpAt f d src out) = decide (d = e.dst ∧ (h f).name = (h e.acting).name) := by
  simp [sameTarget, cpAt]

theorem sameTarget_dst {h : Heap} {e s : EditStep} (hs : sameTarget h e s = true) :
    s.dst = e.dst := by
  simp only [sameTarget, decide_eq_true_eq] at hs
  exact hs.2.1

/-- The first member of a given name among the members copied into a history directory. -/
theorem find_map_cp (hB : Heap) (e : EditStep) (out : String) : ∀ (losers : List Nat),
    (losers.map (fun m => cpAt m e.dst (hB m).path out)).find? (sameTarget hB e) =
      (losers.find? (fun x => decide ((hB x).name = (hB e.acting).name))).map
        (fun m => cpAt m e.dst (hB m).path out)
  | [] => rfl
  | x :: l => by
    simp only [List.map_cons, List.find?_cons, sameTarget_cp, true_and]
    by_cases hx : (hB x).name = (hB e.acting).name
    · simp [hx]
    · simp only [hx, decide_False]
      exact find_map_cp hB e out l

/-- Phase C on flat hierarchies that share no member: what the directories hold in the end. A
directory keeps an entry unless a member of a hierarchy destined for it has the name of the
entry; the winner of a hierarchy is registered in its directory when its name is free there, is
the name of no member of another hierarchy destined for the directory, and is not the name of a
history directory; a history directory holds under the name of a member copied into it the
first member of that name copied into it. -/
theorem phaseC_hiersK (fuel N : Nat) (hB : Heap) : ∀ (tops : List Nat) (st st' : Planner),
    N ≤ st.next → (∀ t ∈ tops, Ripe hB N t) →
    tops.Pairwise (fun t u => ∀ m ∈ hierOf hB t, m ∉ hierOf hB u) →
    (∀ a, a < N → (st.heap a).name = (hB a).name ∧ (st.heap a).path = (hB a).path ∧
      (st.heap a).date_changed = (hB a).date_changed ∧ (st.heap a).parent = (hB a).parent ∧
      (st.heap a).num_files = (hB a).num_files ∧
      (st.heap a).subordinates = (hB a).subordinates) →
    (∀ t ∈ tops, ∀ m ∈ hierOf hB t, (st.heap m).isSub = (hB m).isSub ∧
      (st.heap m).dstParent = (hB m).dstParent) →
    phaseC (fuel + 2) (tops.map some) st = some st' →
    (∀ a k v, a < st.next → (st.heap a).children.lookup k = some v →
      (∀ t ∈ tops, ∀ m ∈ hierOf hB t, ¬ ((hB m).dstParent = some a ∧ (hB m).name = k)) →
      (st'.heap a).children.lookup k = some v) ∧
    (∀ t ∈ tops, ∀ w losers d,
      drain hB (hierOf hB t).length (hierOf hB t) = some (w :: losers) →
      (hB w).dstParent = some d →
      (st.heap d).children.lookup (hB w).name = none →
      (∀ u ∈ tops, ∀ m ∈ hierOf hB u, (hB m).dstParent = some d →
        (hB m).name = (hB w).name → m ∈ hierOf hB t) →
      (∀ u ∈ tops, ∀ m ∈ hierOf hB u, (hB w).name ≠ "." ++ (hB m).name ++ "_hist") →
      (st'.heap d).children.lookup (hB w).name = some w) ∧
    (∀ e ∈ histStepsAll hB st.next (tops.map (fun t => hierOf hB t)), e.op = "cp" →
      st.next ≤ e.dst →
      (st'.heap e.dst).children.lookup (hB e.acting).name =
        ((histStepsAll hB st.next (tops.map (fun t => hierOf hB t))).find?
          (sameTarget hB e)).map EditStep.acting)
  | [], st, st' => by
    intro _ _ _ _ _ hc
    simp only [List.map_nil, phaseC, Option.some.injEq] at hc
    subst hc
    refine ⟨fun a k v _ hv _ => hv, fun t ht => absurd ht (List.not_mem_nil _), fun e he => ?_⟩
    simp [histStepsAll] at he
  | t :: tops, st, st' => by
    intro hN hr hpw hsame hmem hc
    have rB := hr t (by simp)
    have hsub : (st.heap t).subordinates = (hB t).subordinates :=
      (hsame t (rB.lt t (by simp [hierOf]))).2.2.2.2.2
    have hhier : hierOf st.heap t = hierOf hB t := by simp [hierOf, hsub]
    have rS : Ripe st.heap N t :=
      { flat := fun m hm => by
          rw [hsub] at hm
          have hmB : m ∈ hierOf hB t := by simp [hierOf, hm]
          rw [(hsame m (rB.lt m hmB)).2.2.2.2.2]
          exact rB.flat m hm
        nodup := by rw [hhier]; exact rB.nodup
        lt := by rw [hhier]; exact rB.lt
        dst := fun m hm => by
          rw [hhier] at hm
          rw [(hmem t (by simp) m hm).2]
          exact rB.dst m hm
        par := fun m hm => by
          rw [hhier] at hm
          rw [(hsame m (rB.lt m hm)).2.2.2.1]
          exact rB.par m hm }
    obtain ⟨st1, hmk, -, hnext, -, hcore, hrest⟩ := makeFileHist_hier fuel N t st hN rS
    simp only [List.map_cons, phaseC, hmk] at hc
    obtain ⟨K1, K2, K3⟩ := phaseC_hiersK fuel N hB tops st1 st' (by omega)
      (fun u hu => hr u (by simp [hu])) (List.pairwise_cons.mp hpw).2
      (fun a ha => by
        obtain ⟨c1, c2, c3, c4, c5, c6, -⟩ := hcore a (by omega)
        obtain ⟨d1, d2, d3, d4, d5, d6⟩ := hsame a ha
        exact ⟨c1.trans d1, c2.trans d2, c3.trans d3, c4.trans d4, c5.trans d5, c6.trans d6⟩)
      (fun u hu m hm => by
        have hdis : m ∉ hierOf hB t := fun hc' =>
          (List.pairwise_cons.mp hpw).1 u hu m hc' hm
        have hmN := (hr u (by simp [hu])).lt m hm
        obtain ⟨e1, e2⟩ := hrest m (by omega) (by rw [hhier]; exact hdis)
        obtain ⟨f1, f2⟩ := hmem u (by simp [hu]) m hm
        exact ⟨e1.trans f1, e2.trans f2⟩)
      hc
    -- the order in which the hierarchy is drained
    have hparB : ∀ m ∈ hierOf hB t, ∃ p, (hB m).parent = some p := fun m hm => by
      obtain ⟨p, hp, _⟩ := rB.par m hm
      exact ⟨p, hp⟩
    obtain ⟨order, hdrB⟩ := drain_total hB _ (hierOf hB t) rfl hparB
    have hperm := drain_perm hB _ _ _ rfl hdrB
    cases order with
    | nil =>
      have := hperm.length_eq
      simp [hierOf] at this
    | cons w losers =>
      have hw : w ∈ hierOf hB t := hperm.subset (by simp)
      have hl : ∀ m ∈ losers, m ∈ hierOf hB t := fun m hm => hperm.subset (by simp [hm])
      obtain ⟨d, hwdB, hdN⟩ := rB.dst w hw
      have hdrS : drain st.heap (hierOf st.heap t).length (hierOf st.heap t) =
          some (w :: losers) := by
        rw [hhier, drain_fields hB st.heap (hierOf hB t) (fun m hm => ?_) (fun m hm p hp => ?_)]
        · exact hdrB
        · obtain ⟨c1, c2, c3, c4, c5, c6⟩ := hsame m (rB.lt m hm)
          exact ⟨c3, c4, (hmem t (by simp) m hm).1⟩
        · obtain ⟨p', h1, h2⟩ := rB.par m hm
          rw [h1] at hp
          simp only [Option.some.injEq] at hp
          subst hp
          exact (hsame _ h2).2.2.2.2.1
      have hwdS : (st.heap w).dstParent = some d := by
        rw [(hmem t (by simp) w hw).2]
        exact hwdB
      have hnm : ∀ m ∈ hierOf hB t, (st.heap m).name = (hB m).name :=
        fun m hm => (hsame m (rB.lt m hm)).1
      obtain ⟨k1, k2, k3, k4⟩ := makeFileHist_hierK fuel N t st st1 hN rS hmk w d losers hdrS hwdS
      rw [hnm w hw] at k2 k3
      have hNd : ∀ u ∈ t :: tops, ∀ m ∈ hierOf hB u, ∀ x, (hB m).dstParent = some x → x < N := by
        intro u hu m hm x hx
        obtain ⟨d', h1, h2⟩ := (hr u hu).dst m hm
        rw [h1] at hx
        simp only [Option.some.injEq] at hx
        omega
      refine ⟨?_, ?_, ?_⟩
      · intro a k v ha hv hno
        refine K1 a k v (by omega) (k1 a (by omega) k v hv (fun m hm => ?_))
          (fun u hu m hm => hno u (by simp [hu]) m hm)
        rw [(hmem t (by simp) m (hl m hm)).2, hnm m (hl m hm)]
        exact hno t (by simp) m (hl m hm)
      · intro u hu w' losers' d' hdr' hwd' hv huniq hplain
        rcases List.mem_cons.mp hu with e | e
        · subst e
          rw [hdrB] at hdr'
          simp only [Option.some.injEq, List.cons.injEq] at hdr'
          obtain ⟨rfl, rfl⟩ := hdr'
          rw [hwdB] at hwd'
          simp only [Option.some.injEq] at hwd'
          subst hwd'
          refine K1 d (hB w).name w (by omega) (k3 hv (hplain u (by simp) w hw))
            (fun x hx m hm hcl => ?_)
          exact (List.pairwise_cons.mp hpw).1 x hx m
            (huniq x (by simp [hx]) m hm hcl.1 hcl.2) hm
        · have hw' : w' ∈ hierOf hB u :=
            (drain_perm hB _ _ _ rfl hdr').subset (by simp)
          have hd'N : d' < N := hNd u hu w' hw' d' hwd'
          refine K2 u e w' losers' d' hdr' hwd' (k2 d' (by omega) _ hv ?_)
            (fun x hx => huniq x (by simp [hx])) (fun x hx => hplain x (by simp [hx]))
          rintro ⟨h1, h2 | h2⟩
          · exact hplain t (by simp) w hw h2
          · have : w ∈ hierOf hB u := huniq t (by simp) w hw (by rw [hwdB, h1]) h2.symm
            exact (List.pairwise_cons.mp hpw).1 u e w hw this
      · intro e he hcp hdst
        simp only [List.map_cons, histStepsAll] at he ⊢
        rw [histSteps_eq hdrB hwdB] at he ⊢
        rcases List.mem_append.mp he with he | he
        · simp only [List.mem_cons, List.mem_append, List.mem_map, List.mem_singleton,
            List.not_mem_nil, or_false] at he
          rcases he with rfl | ⟨m, hm, rfl⟩ | rfl
          · simp [mkdirAt] at hcp
          · -- a member copied into the history directory
            have hfold : (st1.heap st.next).children =
                losers.foldl (fun c x => mapInsert c (hB x).name x) [] := by
              rw [k4]
              exact foldl_congr_mem _ _ losers [] (fun c x hx => by rw [hnm x (hl x hx)])
            have hlk1 : (st1.heap st.next).children.lookup (hB m).name =
                losers.find? (fun x => decide ((hB x).name = (hB m).name)) := by
              rw [hfold, lookup_foldl_insert (fun x => (hB x).name) losers [] (hB m).name]
              rfl
            obtain ⟨v, hv⟩ : ∃ v, losers.find? (fun x => decide ((hB x).name = (hB m).name)) =
                some v := by
              have : (losers.find? (fun x => decide ((hB x).name = (hB m).name))).isSome := by
                rw [List.find?_isSome]
                exact ⟨m, hm, by simp⟩
              exact Option.isSome_iff_exists.mp this
            have hfin := K1 st.next (hB m).name v (by omega) (hlk1.trans hv)
              (fun u hu x hx hcl => by
                have := hNd u (by simp [hu]) x hx st.next hcl.1
                omega)
            generalize he0 : cpAt m st.next (hB m).path
              ((hB d).path ++ "/" ++ ("." ++ (hB w).name ++ "_hist")) = e0
            have ha0 : e0.acting = m := by rw [← he0]; rfl
            have hd0 : e0.dst = st.next := by rw [← he0]; rfl
            rw [hd0, ha0, hfin, List.cons_append, List.find?_cons, sameTarget_mkdir,
              List.append_assoc, List.find?_append]
            have := find_map_cp hB e0 ((hB d).path ++ "/" ++ ("." ++ (hB w).name ++ "_hist"))
              losers
            rw [hd0, ha0, hv] at this
            simp only [this]
            rfl
          · simp only [cpAt] at hdst
            omega
        · -- a step of a later hierarchy
          have hd1 : st.next + 1 ≤ e.dst := by
            rcases histStepsAll_dst he with h1 | ⟨pq, hpq, m, hm, h1⟩
            · exact h1
            · obtain ⟨u, hu, rfl⟩ := List.mem_map.mp hpq
              have := hNd u (by simp [hu]) m hm e.dst h1
              omega
          rw [hnext] at K3
          rw [K3 e he hcp hd1]
          congr 1
          rw [List.find?_append]
          have hnone : (mkdirAt st.next ((hB d).path ++ "/" ++ ("." ++ (hB w).name ++ "_hist")) ::
              (losers.map (fun m => cpAt m st.next (hB m).path
                  ((hB d).path ++ "/" ++ ("." ++ (hB w).name ++ "_hist"))) ++
                [cpAt w d (hB w).path (hB d).path])).find? (sameTarget hB e) = none := by
            rw [List.find?_eq_none]
            intro s hs hst
            have hsd := sameTarget_dst hst
            simp only [List.mem_cons, List.mem_append, List.mem_map, List.mem_singleton,
              List.not_mem_nil, or_false] at hs
            rcases hs with rfl | ⟨m, hm, rfl⟩ | rfl
            · simp only [mkdirAt] at hsd
              omega
            · simp only [cpAt] at hsd
              omega
            · simp only [cpAt] at hsd
              omega
          rw [hnone]
          rfl

/-- Effect of `makeFileHist` on the destinations of the members of a flat hierarchy: the losers
go to the history directory, the winner stays. -/
theorem makeFileHist_hierD (fuel N t : Nat) (st st' : Planner) (hN : N ≤ st.next)
    (r : Ripe st.heap N t) (hmk : makeFileHist (fuel + 2) (some t) st = some st')
    (w d : Nat) (losers : List Nat)
    (hdr : drain st.heap (hierOf st.heap t).length (hierOf st.heap t) = some (w :: losers))
    (hwd : (st.heap w).dstParent = some d) :
    (∀ m ∈ losers, (st'.heap m).dstParent = some st.next) ∧
    (st'.heap w).dstParent = some d := by
  have hperm := drain_perm st.heap _ _ _ rfl hdr
  have hw : w ∈ hierOf st.heap t := hperm.subset (by simp)
  have hwl : w ∉ losers := by
    have hnd : (w :: losers).Nodup := hperm.nodup_iff.mpr r.nodup
    exact (List.nodup_cons.mp hnd).1
  obtain ⟨st2, g, hmk2, -, -, -, -, -, hheap, hdl, hdo⟩ :=
    makeFileHist_spec (fuel + 2) st t (hierOf st.heap t) w d losers
      (traverseSubs_flat st.heap fuel t r.flat) hdr r.nodup
      (fun m hm => by have := r.lt m hm; omega)
      (fun m hm => by
        obtain ⟨d', h1, _⟩ := r.dst m hm
        rw [h1]; simp)
      hwd
      (by
        intro v a ha b hb _
        apply comparRecent_set
        · intro p hpa
          obtain ⟨p', h1, h2⟩ := r.par a ha
          rw [h1] at hpa
          simp only [Option.some.injEq] at hpa
          omega
        · intro p hpb
          obtain ⟨p', h1, h2⟩ := r.par b hb
          rw [h1] at hpb
          simp only [Option.some.injEq] at hpb
          omega)
  rw [hmk] at hmk2
  simp only [Option.some.injEq] at hmk2
  subst hmk2
  have hmod : ∀ a, (st'.heap a).dstParent = (g a).dstParent := by
    intro a
    rw [hheap]
    by_cases e : a = w
    · subst e; simp
    · simp [e]
  refine ⟨fun m hm => by rw [hmod]; exact hdl m hm, ?_⟩
  rw [hmod, hdo w hwl (by have := r.lt w hw; omega)]
  exact hwd

/-- After Phase C on flat hierarchies that share no member, the source of every `Copy` of
Phase C is destined for the directory it is copied into. -/
theorem phaseC_hiersD (fuel N : Nat) (hB : Heap) : ∀ (tops : List Nat) (st st' : Planner),
    N ≤ st.next → (∀ t ∈ tops, Ripe hB N t) →
    tops.Pairwise (fun t u => ∀ m ∈ hierOf hB t, m ∉ hierOf hB u) →
    (∀ a, a < N → (st.heap a).name = (hB a).name ∧ (st.heap a).path = (hB a).path ∧
      (st.heap a).date_changed = (hB a).date_changed ∧ (st.heap a).parent = (hB a).parent ∧
      (st.heap a).num_files = (hB a).num_files ∧
      (st.heap a).subordinates = (hB a).subordinates) →
    (∀ t ∈ tops, ∀ m ∈ hierOf hB t, (st.heap m).isSub = (hB m).isSub ∧
      (st.heap m).dstParent = (hB m).dstParent) →
    phaseC (fuel + 2) (tops.map some) st = some st' →
    ∀ e ∈ histStepsAll hB st.next (tops.map (fun t => hierOf hB t)), e.op = "cp" →
      (st'.heap e.acting).dstParent = some e.dst
  | [], st, st' => by
    intro _ _ _ _ _ _ e he
    simp [histStepsAll] at he
  | t :: tops, st, st' => by
    intro hN hr hpw hsame hmem hc
    have rB := hr t (by simp)
    have hsub : (st.heap t).subordinates = (hB t).subordinates :=
      (hsame t (rB.lt t (by simp [hierOf]))).2.2.2.2.2
    have hhier : hierOf st.heap t = hierOf hB t := by simp [hierOf, hsub]
    have rS : Ripe st.heap N t :=
      { flat := fun m hm => by
          rw [hsub] at hm
          have hmB : m ∈ hierOf hB t := by simp [hierOf, hm]
          rw [(hsame m (rB.lt m hmB)).2.2.2.2.2]
          exact rB.flat m hm
        nodup := by rw [hhier]; exact rB.nodup
        lt := by rw [hhier]; exact rB.lt
        dst := fun m hm => by
          rw [hhier] at hm
          rw [(hmem t (by simp) m hm).2]
          exact rB.dst m hm
        par := fun m hm => by
          rw [hhier] at hm
          rw [(hsame m (rB.lt m hm)).2.2.2.1]
          exact rB.par m hm }
    obtain ⟨st1, hmk, -, hnext, -, hcore, hrest⟩ := makeFileHist_hier fuel N t st hN rS
    simp only [List.map_cons, phaseC, hmk] at hc
    have hsame1 : ∀ a, a < N → (st1.heap a).name = (hB a).name ∧
        (st1.heap a).path = (hB a).path ∧
        (st1.heap a).date_changed = (hB a).date_changed ∧ (st1.heap a).parent = (hB a).parent ∧
        (st1.heap a).num_files = (hB a).num_files ∧
        (st1.heap a).subordinates = (hB a).subordinates := fun a ha => by
      obtain ⟨c1, c2, c3, c4, c5, c6, -⟩ := hcore a (by omega)
      obtain ⟨d1, d2, d3, d4, d5, d6⟩ := hsame a ha
      exact ⟨c1.trans d1, c2.trans d2, c3.trans d3, c4.trans d4, c5.trans d5, c6.trans d6⟩
    have hmem1 : ∀ u ∈ tops, ∀ m ∈ hierOf hB u, (st1.heap m).isSub = (hB m).isSub ∧
        (st1.heap m).dstParent = (hB m).dstParent := fun u hu m hm => by
      have hdis : m ∉ hierOf hB t := fun hc' =>
        (List.pairwise_cons.mp hpw).1 u hu m hc' hm
      have hmN := (hr u (by simp [hu])).lt m hm
      obtain ⟨e1, e2⟩ := hrest m (by omega) (by rw [hhier]; exact hdis)
      obtain ⟨f1, f2⟩ := hmem u (by simp [hu]) m hm
      exact ⟨e1.trans f1, e2.trans f2⟩
    have ih := phaseC_hiersD fuel N hB tops st1 st' (by omega)
      (fun u hu => hr u (by simp [hu])) (List.pairwise_cons.mp hpw).2 hsame1 hmem1 hc
    obtain ⟨st2, hc2, -, -, -, hfr⟩ := phaseC_hiers fuel N hB tops st1 (by omega)
      (fun u hu => hr u (by simp [hu])) (List.pairwise_cons.mp hpw).2 hsame1 hmem1
    rw [hc] at hc2
    simp only [Option.some.injEq] at hc2
    subst hc2
    have hparB : ∀ m ∈ hierOf hB t, ∃ p, (hB m).parent = some p := fun m hm => by
      obtain ⟨p, hp, _⟩ := rB.par m hm
      exact ⟨p, hp⟩
    obtain ⟨order, hdrB⟩ := drain_total hB _ (hierOf hB t) rfl hparB
    have hperm := drain_perm hB _ _ _ rfl hdrB
    cases order with
    | nil =>
      have := hperm.length_eq
      simp [hierOf] at this
    | cons w losers =>
      have hw : w ∈ hierOf hB t := hperm.subset (by simp)
      have hl : ∀ m ∈ losers, m ∈ hierOf hB t := fun m hm => hperm.subset (by simp [hm])
      obtain ⟨d, hwdB, hdN⟩ := rB.dst w hw
      have hdrS : drain st.heap (hierOf st.heap t).length (hierOf st.heap t) =
          some (w :: losers) := by
        rw [hhier, drain_fields hB st.heap (hierOf hB t) (fun m hm => ?_) (fun m hm p hp => ?_)]
        · exact hdrB
        · obtain ⟨c1, c2, c3, c4, c5, c6⟩ := hsame m (rB.lt m hm)
          exact ⟨c3, c4, (hmem t (by simp) m hm).1⟩
        · obtain ⟨p', h1, h2⟩ := rB.par m hm
          rw [h1] at hp
          simp only [Option.some.injEq] at hp
          subst hp
          exact (hsame _ h2).2.2.2.2.1
      have hwdS : (st.heap w).dstParent = some d := by
        rw [(hmem t (by simp) w hw).2]
        exact hwdB
      obtain ⟨k1, k2⟩ := makeFileHist_hierD fuel N t st st1 hN rS hmk w d losers hdrS hwdS
      have hkeep : ∀ m ∈ hierOf hB t, (st'.heap m).dstParent = (st1.heap m).dstParent :=
        fun m hm => (hfr m (rB.lt m hm)
          (fun u hu hmu => (List.pairwise_cons.mp hpw).1 u hu m hm hmu)).2.2.2
      intro e he hcp
      simp only [List.map_cons, histStepsAll] at he
      rw [histSteps_eq hdrB hwdB] at he
      rcases List.mem_append.mp he with he | he
      · simp only [List.mem_cons, List.mem_append, List.mem_map, List.mem_singleton,
          List.not_mem_nil, or_false] at he
        rcases he with rfl | ⟨m, hm, rfl⟩ | rfl
        · simp [mkdirAt] at hcp
        · simp only [cpAt]
          rw [hkeep m (hl m hm)]
          exact k1 m hm
        · simp only [cpAt]
          rw [hkeep w hw]
          exact k2
      · rw [hnext] at ih
        exact ih e he hcp

/-! ## The children of the directories of the result: the plan -/

/-- After Phase B every member of a hierarchy in `sups` is a file of an event that leaves its
files to Phase C, all of them members of the hierarchy, and is destined for the directory of
the event. -/
theorem sups_members (path1 path2 pathout : String) (in1 in2 : List Entry)
    (hA : Heap) (hpA : scanPhaseA path1 path2 in1 in2 = some hA) (stB : Planner) (k : Nat)
    (hsim : Sim hA ((1 + spanList in1) + (1 + spanList in2))
      (afterA hA ((1 + spanList in1) + (1 + spanList in2))) stB
      (planEvs hA path1 path2 pathout in1 in2) k)
    (hok : ∀ ev ∈ planEvs hA path1 path2 pathout in1 in2, ev.OK hA)
    (hE : ∀ m, ¬ Pristine (hA m) →
      ∃ d src out, Ev.sub m d src out ∈ planEvs hA path1 path2 pathout in1 in2) :
    ∀ s ∈ stB.sups, ∃ t, s = some t ∧ ∀ m ∈ hierOf stB.heap t,
      ∃ ev ∈ planEvs hA path1 path2 pathout in1 in2, ev.kid = none ∧ m ∈ ev.files ∧
        (∀ m' ∈ ev.files, m' ∈ hierOf stB.heap t) ∧
        m < (1 + spanList in1) + (1 + spanList in2) ∧
        ∃ d, ev.dest = some d ∧ (stB.heap m).dstParent = some d := by
  generalize hn0 : (1 + spanList in1) + (1 + spanList in2) = n0 at hsim
  generalize hevs : planEvs hA path1 path2 pathout in1 in2 = evs at hsim hok hE
  have hkeep : ∀ m, m < n0 → ¬ Pristine (hA m) →
      (stB.heap m).isSub = (hA m).isSub ∧ (stB.heap m).subordinates = (hA m).subordinates ∧
      (stB.heap m).topSup = (hA m).topSup := by
    intro m hm hp
    exact (hsim.keeps.2 m hm).2.2.2.2 (fun ht => hp (touched_pristine hok ht))
  have hfile : ∀ m, ¬ Pristine (hA m) → ∃ d src out, Ev.sub m d src out ∈ evs ∧
      FileDone hA n0 stB m d src out := by
    intro m hp
    obtain ⟨d, src, out, hev⟩ := hE m hp
    have hd := hsim.done _ hev
    simp only [Ev.Done] at hd
    exact ⟨d, src, out, hev, hd⟩
  intro s hs
  rw [hsim.sups, mem_foldl_setInsert] at hs
  simp only [afterA, List.not_mem_nil, false_or] at hs
  obtain ⟨ev, hev, hst⟩ := List.mem_flatMap.mp hs
  cases ev with
  | mk a p => simp [Ev.tops] at hst
  | cp f d src out => simp [Ev.tops] at hst
  | pair c1 c2 d s1 s2 out =>
    simp only [Ev.tops, List.mem_singleton] at hst
    have hd := hsim.done _ hev
    simp only [Ev.Done] at hd
    obtain ⟨d1, d2, d3, d4, d5, d6, d7⟩ := hd
    refine ⟨c2, hst, fun m hm => ⟨_, hev, rfl, ?_, ?_, ?_, d, rfl, ?_⟩⟩
    · simp only [hierOf, d7, List.mem_cons, List.mem_singleton, List.not_mem_nil,
        or_false] at hm
      simp only [Ev.files, List.mem_cons, List.mem_singleton, List.not_mem_nil, or_false]
      tauto
    · intro m' hm'
      simp only [Ev.files, List.mem_cons, List.mem_singleton, List.not_mem_nil,
        or_false] at hm'
      simp only [hierOf, d7, List.mem_cons, List.mem_singleton, List.not_mem_nil, or_false]
      tauto
    · simp only [hierOf, d7, List.mem_cons, List.mem_singleton, List.not_mem_nil,
        or_false] at hm
      rcases hm with rfl | rfl
      · exact d2.lt
      · exact d1.lt
    · simp only [hierOf, d7, List.mem_cons, List.mem_singleton, List.not_mem_nil,
        or_false] at hm
      rcases hm with rfl | rfl
      · exact d2.dst
      · exact d1.dst
  | sub f d src out =>
    simp only [Ev.tops] at hst
    split at hst
    · rename_i hsub
      simp only [List.mem_singleton] at hst
      have hfp : ¬ Pristine (hA f) := fun hp => by
        rw [hp.1] at hsub
        cases hsub
      obtain ⟨C, best, hfC, hbC, hCnd, c1, c2, c3, c4⟩ :=
        class_of path1 path2 in1 in2 hA hpA f hfp
      have hfb : f ≠ best := fun e => by
        rw [e, c1] at hsub
        cases hsub
      have hbp : ¬ Pristine (hA best) := fun hp => by
        have : f ∈ (hA best).subordinates := by
          rw [c3]
          simp [hfC, hfb]
        rw [hp.2.1] at this
        cases this
      have hmp : ∀ m ∈ C, ¬ Pristine (hA m) := fun m hm hp => by
        by_cases e : m = best
        · exact hbp (e ▸ hp)
        · have := (c4 m hm e).1
          rw [hp.1] at this
          cases this
      have hmlt : ∀ m ∈ C, m < n0 := fun m hm => by
        obtain ⟨d', src', out', -, hfd⟩ := hfile m (hmp m hm)
        exact hfd.lt
      obtain ⟨e1, e2, e3⟩ := hkeep best (hmlt best hbC) hbp
      have hmem : ∀ m ∈ hierOf stB.heap best, m ∈ C := fun m hm => by
        simp only [hierOf, List.mem_cons] at hm
        rcases hm with rfl | hm
        · exact hbC
        · rw [e2, c3] at hm
          exact (List.mem_filter.mp hm).1
      refine ⟨best, by rw [hst]; exact (c4 f hfC hfb).2.1, fun m hm => ?_⟩
      obtain ⟨d', src', out', hev', hfd⟩ := hfile m (hmp m (hmem m hm))
      refine ⟨_, hev', rfl, by simp [Ev.files], ?_, hfd.lt, d', rfl, hfd.dst⟩
      intro m' hm'
      simp only [Ev.files, List.mem_singleton] at hm'
      rw [hm']
      exact hm
    · simp at hst

theorem Ev.files_subj {ev : Ev} {a : Nat} (h : a ∈ ev.files) : a ∈ ev.subj := by
  cases ev with
  | mk a' p => cases h
  | cp f d src out => exact h
  | sub f d src out => exact h
  | pair c1 c2 d s1 s2 out => exact h

theorem find_congr {α : Type} {p q : α → Bool} : ∀ {l : List α},
    (∀ x ∈ l, p x = q x) → l.find? p = l.find? q
  | [], _ => rfl
  | x :: l, h => by
    simp only [List.find?_cons, h x (List.mem_cons_self _ _)]
    rw [find_congr (fun y hy => h y (List.mem_cons_of_mem _ hy))]

/-- A `Copy` of Phase C into a directory allocated before Phase C is the `Copy` of the winner
of a hierarchy to its destination. -/
theorem histStepsAll_winner {h : Heap} : ∀ {pqs : List (List Nat)} {nx : Nat} {e : EditStep},
    e ∈ histStepsAll h nx pqs → e.op = "cp" → e.dst < nx →
    ∃ pq ∈ pqs, ∃ w losers d, drain h pq.length pq = some (w :: losers) ∧
      (h w).dstParent = some d ∧ e.acting = w ∧ e.dst = d
  | [], nx, e => by
    intro he
    simp [histStepsAll] at he
  | pq :: rest, nx, e => by
    intro he hcp hlt
    simp only [histStepsAll, List.mem_append] at he
    rcases he with he | he
    · unfold histSteps at he
      cases hd : drain h pq.length pq with
      | none => simp [hd] at he
      | some order =>
        cases order with
        | nil => simp [hd] at he
        | cons w losers =>
          simp only [hd] at he
          cases hw : (h w).dstParent with
          | none => simp [hw] at he
          | some d =>
            simp only [hw, List.mem_cons, List.mem_append, List.mem_map, List.mem_singleton,
              List.not_mem_nil, or_false] at he
            rcases he with rfl | ⟨m, hm, rfl⟩ | rfl
            · simp [mkdirAt] at hcp
            · simp only [cpAt] at hlt
              omega
            · exact ⟨pq, by simp, w, losers, d, hd, hw, rfl, rfl⟩
    · obtain ⟨q, hq, r⟩ := histStepsAll_winner he hcp (by omega)
      exact ⟨q, by simp [hq], r⟩

/-- A `Copy` of Phase C acts on a member of a hierarchy. -/
theorem histStepsAll_member {h : Heap} : ∀ {pqs : List (List Nat)} {nx : Nat} {e : EditStep},
    e ∈ histStepsAll h nx pqs → e.op = "cp" → ∃ pq ∈ pqs, e.acting ∈ pq
  | [], nx, e => by
    intro he
    simp [histStepsAll] at he
  | pq :: rest, nx, e => by
    intro he hcp
    simp only [histStepsAll, List.mem_append] at he
    rcases he with he | he
    · unfold histSteps at he
      cases hd : drain h pq.length pq with
      | none => simp [hd] at he
      | some order =>
        cases order with
        | nil => simp [hd] at he
        | cons w losers =>
          have hperm := drain_perm h _ pq _ rfl hd
          simp only [hd] at he
          cases hw : (h w).dstParent with
          | none => simp [hw] at he
          | some d =>
            simp only [hw, List.mem_cons, List.mem_append, List.mem_map, List.mem_singleton,
              List.not_mem_nil, or_false] at he
            rcases he with rfl | ⟨m, hm, rfl⟩ | rfl
            · simp [mkdirAt] at hcp
            · exact ⟨pq, by simp, hperm.subset (by simp [hm, cpAt])⟩
            · exact ⟨pq, by simp, hperm.subset (by simp [cpAt])⟩
    · obtain ⟨q, hq, r⟩ := histStepsAll_member he hcp
      exact ⟨q, by simp [hq], r⟩

/-- A step of Phase B goes to a node allocated in Phases A and B, and a `Copy` of Phase B is
the step of an event that copies a file. -/
theorem sim_steps {hA : Heap} {n0 : Nat} {st stB : Planner} {evs : List Ev} {k : Nat}
    (hsim : Sim hA n0 st stB evs k) {e : EditStep} (he : e ∈ evs.flatMap Ev.steps) :
    e.dst < stB.next ∧
    (e.op = "cp" → ∃ f d src out, Ev.cp f d src out ∈ evs ∧ e = cpAt f d src out) := by
  obtain ⟨ev, hev, hes⟩ := List.mem_flatMap.mp he
  have hd := hsim.done ev hev
  cases ev with
  | mk a p =>
    simp only [Ev.steps, List.mem_singleton] at hes
    subst hes
    exact ⟨hd.1, fun hcp => by simp [mkdirAt] at hcp⟩
  | cp f d src out =>
    simp only [Ev.steps, List.mem_singleton] at hes
    subst hes
    simp only [Ev.Done] at hd
    exact ⟨hd.dlt, fun _ => ⟨f, d, src, out, hev, rfl⟩⟩
  | sub f d src out => simp [Ev.steps] at hes
  | pair c1 c2 d s1 s2 out => simp [Ev.steps] at hes

/-- The children of the directories of the plan, when no content duplicate lies at a path
collision and no non-directory is named like a history directory: the source of every `Copy`
is destined for the directory it is copied into; a directory of Phases A and B holds the source
under its name; a history directory holds under the name of the source the first source of
that name copied into it. -/
theorem plan_children (fuel : Nat) (path1 path2 pathout : String) (in1 in2 : List Entry)
    (hok1 : namesOKList in1) (hok2 : namesOKList in2)
    (hcl : clearList (keysList in1 ++ keysList in2) in1 in2 = true)
    (hplain : plainNames in1 in2 = true)
    (hf1 : depthList in1 < fuel) (hf2 : depthList in2 < fuel) (hfuel : 2 ≤ fuel) :
    ∃ (t : FsTree) (hB : Heap),
      unidupe fuel path1 path2 pathout in1 in2 = some t ∧
      (∀ a, a < (1 + spanList in1) + (1 + spanList in2) +
          (1 + (bothNewList in1 in2 + aloneNewList in2 (in1.map Entry.name))) →
        (t.state.heap a).name = (hB a).name) ∧
      (∀ e ∈ t.state.editSteps, e.op = "cp" →
        e.acting < (1 + spanList in1) + (1 + spanList in2) +
          (1 + (bothNewList in1 in2 + aloneNewList in2 (in1.map Entry.name))) ∧
        (t.state.heap e.acting).dstParent = some e.dst ∧
        (e.dst < (1 + spanList in1) + (1 + spanList in2) +
            (1 + (bothNewList in1 in2 + aloneNewList in2 (in1.map Entry.name))) →
          (t.state.heap e.dst).children.lookup (hB e.acting).name = some e.acting) ∧
        ((1 + spanList in1) + (1 + spanList in2) +
            (1 + (bothNewList in1 in2 + aloneNewList in2 (in1.map Entry.name))) ≤ e.dst →
          (t.state.heap e.dst).children.lookup (hB e.acting).name =
            (t.state.editSteps.find? (sameTarget hB e)).map EditStep.acting)) := by
  obtain ⟨hA, hpA⟩ := scanPhaseA_total path1 path2 in1 in2 hok1 hok2
  obtain ⟨hok, hE⟩ := planEvs_clear path1 path2 pathout in1 in2 hok1 hok2 hcl hA hpA
  obtain ⟨stB, tops, t, h1, hsim, hsups, htnd, htop, -, hsteps, -, hkeepn, hframe, hAB, hC⟩ :=
    plan_shape fuel path1 path2 pathout in1 in2 hok1 hok2 hf1 hf2 hfuel hA hpA hok hE
  obtain ⟨B1, B2, B3⟩ := planAB_rooms fuel path1 path2 pathout in1 in2 hok1 hok2 hf1 hf2 hA hpA
    hok stB hAB
  have hmemb := sups_members path1 path2 pathout in1 in2 hA hpA stB _ hsim hok hE
  have hnd := planEvs_nodup hA path1 path2 pathout in1 in2 hok1 hok2
  generalize hn0 : (1 + spanList in1) + (1 + spanList in2) = n0 at *
  generalize hevs : planEvs hA path1 path2 pathout in1 in2 = evs at *
  have hsn : stB.next = n0 + (1 + (bothNewList in1 in2 + aloneNewList in2 (in1.map Entry.name))) :=
    hsim.next
  rw [← hsn]
  have hn0N : n0 ≤ stB.next := by omega
  -- names of the scanned nodes
  have hnameA : ∀ a, a < n0 → (stB.heap a).name = (hA a).name :=
    fun a ha => (hsim.keeps.2 a ha).1
  -- the members of the hierarchies
  have hmem : ∀ u ∈ tops, ∀ m ∈ hierOf stB.heap u,
      ∃ ev ∈ evs, ev.kid = none ∧ m ∈ ev.files ∧ (∀ m' ∈ ev.files, m' ∈ hierOf stB.heap u) ∧
        m < n0 ∧ ∃ d, ev.dest = some d ∧ (stB.heap m).dstParent = some d := by
    intro u hu m hm
    have hs : some u ∈ stB.sups := by
      rw [hsups]
      exact List.mem_map_of_mem _ hu
    obtain ⟨t', ht', r⟩ := hmemb _ hs
    simp only [Option.some.injEq] at ht'
    subst ht'
    exact r m hm
  have hplainN : ∀ a b, a ∈ fileNamesList in1 ++ fileNamesList in2 →
      b ∈ fileNamesList in1 ++ fileNamesList in2 → a ≠ "." ++ b ++ "_hist" := by
    intro a b ha hb
    simp only [plainNames, List.all_eq_true, decide_eq_true_eq] at hplain
    exact hplain a ha b hb
  -- Phase C
  obtain ⟨fuel', rfl⟩ : ∃ f, fuel = f + 2 := ⟨fuel - 2, by omega⟩
  rw [hsups] at hC
  have hpw : tops.Pairwise (fun t u => ∀ m ∈ hierOf stB.heap t, m ∉ hierOf stB.heap u) :=
    List.Pairwise.imp_of_mem (fun {a b} ha hb hab =>
      Tied.disjoint (htop a ha).2 (htop b hb).2 hab) htnd
  obtain ⟨K1, K2, K3⟩ := phaseC_hiersK fuel' stB.next stB.heap tops stB t.state (Nat.le_refl _)
    (fun u hu => (htop u hu).1) hpw (fun a _ => ⟨rfl, rfl, rfl, rfl, rfl, rfl⟩)
    (fun u _ m _ => ⟨rfl, rfl⟩) hC
  have D := phaseC_hiersD fuel' stB.next stB.heap tops stB t.state (Nat.le_refl _)
    (fun u hu => (htop u hu).1) hpw (fun a _ => ⟨rfl, rfl, rfl, rfl, rfl, rfl⟩)
    (fun u _ m _ => ⟨rfl, rfl⟩) hC
  refine ⟨t, stB.heap, h1, fun a ha => (hkeepn a ha).1, ?_⟩
  intro e he hcp
  rw [hsteps] at he ⊢
  rcases List.mem_append.mp he with he | he
  · -- a `Copy` of Phase B
    obtain ⟨hdlt, hcpe⟩ := sim_steps hsim he
    obtain ⟨f, d, src, out, hev, rfl⟩ := hcpe hcp
    have hdone := hsim.done _ hev
    simp only [Ev.Done] at hdone
    have hfree : ∀ u ∈ tops, f ∉ hierOf stB.heap u := by
      intro u hu hfu
      obtain ⟨ev, hev', hk, hfm, -⟩ := hmem u hu f hfu
      have := subj_unique hnd hev' hev (Ev.files_subj hfm) (by simp [Ev.subj])
      rw [this] at hk
      simp [Ev.kid] at hk
    have hlt : f < stB.next := by have := hdone.lt; omega
    refine ⟨hlt, ?_, fun _ => ?_, fun hge => ?_⟩
    · simp only [cpAt]
      rw [(hframe f hlt hfree).2.2.2]
      exact hdone.dst
    · simp only [cpAt]
      refine K1 d _ f hdone.dlt ?_ ?_
      · rw [hnameA f hdone.lt]
        exact B1 _ hev d rfl f (by simp [Ev.files])
      · rintro u hu m hm ⟨hc1, hc2⟩
        obtain ⟨ev, hev', hk, hfm, -, hmlt, d', hd', hdm⟩ := hmem u hu m hm
        rw [hdm] at hc1
        simp only [Option.some.injEq] at hc1
        subst hc1
        have := B2 ev hev' _ hev d' hd' rfl m hfm f (by simp [Ev.files])
          (by rw [← hnameA m hmlt, ← hnameA f hdone.lt]; exact hc2)
        rw [this] at hk
        simp [Ev.kid] at hk
    · simp only [cpAt] at hge
      have := hdone.dlt
      omega
  · -- a `Copy` of Phase C
    obtain ⟨pq, hpq, hact⟩ := histStepsAll_member he hcp
    obtain ⟨u, hu, rfl⟩ := List.mem_map.mp hpq
    have hlt : e.acting < stB.next := (htop u hu).1.lt _ hact
    refine ⟨hlt, D e he hcp, fun hdl => ?_, fun hge => ?_⟩
    · obtain ⟨pq', hpq', w, losers, d, hdr, hwd, hew, hed⟩ := histStepsAll_winner he hcp hdl
      obtain ⟨u', hu', rfl⟩ := List.mem_map.mp hpq'
      have hw : w ∈ hierOf stB.heap u' := (drain_perm stB.heap _ _ _ rfl hdr).subset (by simp)
      obtain ⟨evw, hevw, hkw, hfw, hallw, hwlt, dw, hdw, hdstw⟩ := hmem u' hu' w hw
      rw [hwd] at hdstw
      simp only [Option.some.injEq] at hdstw
      subst hdstw
      rw [hew, hed]
      refine K2 u' hu' w losers d hdr hwd ?_ ?_ ?_
      · rw [hnameA w hwlt, B1 evw hevw d hdw w hfw]
        exact hkw
      · intro x hx m hm hdm hnm
        obtain ⟨ev, hev', hk, hfm, -, hmlt, d', hd', hdm'⟩ := hmem x hx m hm
        rw [hdm] at hdm'
        simp only [Option.some.injEq] at hdm'
        subst hdm'
        have := B2 ev hev' evw hevw d hd' hdw m hfm w hfw
          (by rw [← hnameA m hmlt, ← hnameA w hwlt]; exact hnm)
        rw [this] at hfm
        exact hallw m hfm
      · intro x hx m hm
        obtain ⟨ev, hev', -, hfm, -, hmlt, -⟩ := hmem x hx m hm
        rw [hnameA w hwlt, hnameA m hmlt]
        exact hplainN _ _ (B3 evw hevw w hfw) (B3 ev hev' m hfm)
    · rw [K3 e he hcp hge, List.find?_append]
      have hnone : (evs.flatMap Ev.steps).find? (sameTarget stB.heap e) = none := by
        rw [List.find?_eq_none]
        intro s hs hst
        have := (sim_steps hsim hs).1
        have := sameTarget_dst hst
        omega
      rw [hnone]
      rfl

/-! ## Destination of the copied files -/

/-- When a non-directory is named like a history directory the children half of C9 fails in a
directory of the merged tree too: `in1/.m_hist` (address 2) is copied into the result root
(address 7), its `dstParent`, but the root holds under `.m_hist` the history directory of
`in1/m` (address 9), registered before. -/
theorem history_name_taken :
    clearList (keysList histFileIn1 ++ keysList histFileIn2) histFileIn1 histFileIn2 = true ∧
    plainNames histFileIn1 histFileIn2 = false ∧
    (unidupe 10 "in1" "in2" "out" histFileIn1 histFileIn2).map
        (fun t => (t.state.editSteps.map EditStep.shape, (t.state.heap 2).name,
          (t.state.heap 2).dstParent, (t.state.heap 7).children.lookup ".m_hist")) =
      some ([("mkdir", 7, 7), ("mkdir", 8, 8), ("mkdir", 9, 9), ("cp", 5, 9), ("cp", 1, 7),
          ("mkdir", 10, 10), ("cp", 6, 10), ("cp", 2, 7)],
        ".m_hist", some 7, some 9) := by
  decide

/-- C9 (amended): after planning, the source `f` of every `Copy` step has a `dstParent`, which is
the target of a `Mkdir` step of the queue and has type `dir`.  When the names are unique within
each directory, no content duplicate lies at a path collision and no name denotes a directory in
one tree and a non-directory in the other at the same relative location (`clearList`), no
non-directory is named `"." + m + "_hist"` for the name `m` of a non-directory (`plainNames`),
and the fuel exceeds the depth of both trees, the planner returns and for every `Copy` step
`e` with source `f`: `f.dstParent` is the directory `e` copies into; the `children` of that
directory map `f.name` to the source of the first `Copy` step of the queue into that directory
whose source is named `f.name`; and when the directory is not a history directory (it is a
node of Phases A and B, allocated before Phase C) that source is `f` itself.  In a history
directory the key `f.name` may belong to an earlier copied member of the same name instead. -/
theorem copy_source_destination :
    (∀ (fuel : Nat) (path1 path2 pathout : String) (in1 in2 : List Entry) (t : FsTree),
      unidupe fuel path1 path2 pathout in1 in2 = some t →
      ∀ e ∈ t.state.editSteps, e.op = "cp" →
        ∃ d, (t.state.heap e.acting).dstParent = some d ∧ Made t.state.editSteps d ∧
          (t.state.heap d).type = "dir") ∧
    (∀ (fuel : Nat) (path1 path2 pathout : String) (in1 in2 : List Entry),
      namesOKList in1 → namesOKList in2 →
      clearList (keysList in1 ++ keysList in2) in1 in2 = true → plainNames in1 in2 = true →
      depthList in1 < fuel → depthList in2 < fuel → 2 ≤ fuel →
      ∃ t, unidupe fuel path1 path2 pathout in1 in2 = some t ∧
        ∀ e ∈ t.state.editSteps, e.op = "cp" →
          (t.state.heap e.acting).dstParent = some e.dst ∧
          (t.state.heap e.dst).children.lookup (t.state.heap e.acting).name =
            (t.state.editSteps.find? (sameTarget t.state.heap e)).map EditStep.acting ∧
          (e.dst < (1 + spanList in1) + (1 + spanList in2) +
              (1 + (bothNewList in1 in2 + aloneNewList in2 (in1.map Entry.name))) →
            (t.state.heap e.dst).children.lookup (t.state.heap e.acting).name =
              some e.acting)) := by
  constructor
  · intro fuel path1 path2 pathout in1 in2 t h e he hcp
    obtain ⟨h0, hc⟩ := unidupe_ctx fuel path1 path2 pathout in1 in2 t h
    obtain ⟨d, hd⟩ := hc.cp_dst e he hcp
    have hm := hc.dst_made _ _ hd
    exact ⟨d, hd, hm, hc.made_dir d hm⟩
  · intro fuel path1 path2 pathout in1 in2 hok1 hok2 hcl hplain hf1 hf2 hfuel
    obtain ⟨t, hB, h1, hname, hall⟩ := plan_children fuel path1 path2 pathout in1 in2 hok1 hok2
      hcl hplain hf1 hf2 hfuel
    generalize (1 + spanList in1) + (1 + spanList in2) +
      (1 + (bothNewList in1 in2 + aloneNewList in2 (in1.map Entry.name))) = nB at *
    have hnm : ∀ e ∈ t.state.editSteps, e.op = "cp" →
        (t.state.heap e.acting).name = (hB e.acting).name :=
      fun e he hcp => hname _ (hall e he hcp).1
    refine ⟨t, h1, fun e he hcp => ?_⟩
    obtain ⟨hlt, hdst, hlow, hhigh⟩ := hall e he hcp
    have hlow' : e.dst < nB →
        (t.state.heap e.dst).children.lookup (t.state.heap e.acting).name = some e.acting :=
      fun hd => by rw [hnm e he hcp]; exact hlow hd
    refine ⟨hdst, ?_, hlow'⟩
    by_cases hd : e.dst < nB
    · -- a directory of Phases A and B: the first such step copies `f` itself
      have hself : sameTarget t.state.heap e e = true := by
        simp [sameTarget, hcp]
      obtain ⟨s, hs⟩ : ∃ s, t.state.editSteps.find? (sameTarget t.state.heap e) = some s := by
        have : (t.state.editSteps.find? (sameTarget t.state.heap e)).isSome := by
          rw [List.find?_isSome]
          exact ⟨e, he, hself⟩
        exact Option.isSome_iff_exists.mp this
      have hsm : s ∈ t.state.editSteps := List.mem_of_find?_eq_some hs
      have hst : sameTarget t.state.heap e s = true := List.find?_some hs
      simp only [sameTarget, decide_eq_true_eq] at hst
      obtain ⟨s1, s2, s3⟩ := hst
      obtain ⟨-, -, hlows, -⟩ := hall s hsm s1
      have h2 := hlows (by rw [s2]; exact hd)
      rw [← hnm s hsm s1, s2, s3, hlow' hd] at h2
      rw [hs, hlow' hd, h2]
      rfl
    · rw [hnm e he hcp, hhigh (by omega)]
      congr 1
      refine find_congr (fun s hs => ?_)
      simp only [sameTarget]
      by_cases hsc : s.op = "cp"
      · rw [hnm s hs hsc, hnm e he hcp]
      · simp [hsc]

/-- Witness of `copy_source_destination`: the plan for `{a/f, b/f}` and `{c/f}`, whose three
files of one content and one name go to the result root and to one history directory. -/
theorem copy_source_destination_witness :
    (∀ e ∈ ((unidupe 3 "in1" "in2" "out" namesakeIn1 namesakeIn2).get (by decide)).state.editSteps,
      e.op = "cp" →
        ∃ d, (((unidupe 3 "in1" "in2" "out" namesakeIn1 namesakeIn2).get
            (by decide)).state.heap e.acting).dstParent = some d ∧
          Made ((unidupe 3 "in1" "in2" "out" namesakeIn1 namesakeIn2).get
            (by decide)).state.editSteps d ∧
          (((unidupe 3 "in1" "in2" "out" namesakeIn1 namesakeIn2).get
            (by decide)).state.heap d).type = "dir") ∧
    clearList (keysList namesakeIn1 ++ keysList namesakeIn2) namesakeIn1 namesakeIn2 = true ∧
    plainNames namesakeIn1 namesakeIn2 = true ∧
    ∃ t, unidupe 3 "in1" "in2" "out" namesakeIn1 namesakeIn2 = some t ∧
      ∀ e ∈ t.state.editSteps, e.op = "cp" →
        (t.state.heap e.acting).dstParent = some e.dst ∧
        (t.state.heap e.dst).children.lookup (t.state.heap e.acting).name =
          (t.state.editSteps.find? (sameTarget t.state.heap e)).map EditStep.acting ∧
        (e.dst < (1 + spanList namesakeIn1) + (1 + spanList namesakeIn2) +
            (1 + (bothNewList namesakeIn1 namesakeIn2 +
              aloneNewList namesakeIn2 (namesakeIn1.map Entry.name))) →
          (t.state.heap e.dst).children.lookup (t.state.heap e.acting).name =
            some e.acting) :=
  ⟨copy_source_destination.1 3 "in1" "in2" "out" namesakeIn1 namesakeIn2 _
      (Option.some_get _).symm,
    by decide, by decide,
    copy_source_destination.2 3 "in1" "in2" "out" namesakeIn1 namesakeIn2
      (by simp [namesakeIn1, namesOKList, Entry.namesOK, Entry.name, mkFile, mkDir])
      (by simp [namesakeIn2, namesOKList, Entry.namesOK, Entry.name, mkFile, mkDir])
      (by decide) (by decide) (by decide) (by decide) (by decide)⟩

end Unidupe
